import Mathlib

/-!
Flash File System (msp430lib, `modules/flash_fs.c`)

A shallow embedding of the flash file system engine of msp430lib and a
verification of its read / write / seek machinery.

Conventions of the embedding

* The device memory is a total map from byte addresses to byte values.
* The C integer types are modelled in `Nat`.  Narrow types whose wrap-around is
  reachable (`uint8_t` chunk counters, `uint16_t` block indices and lengths) carry
  an explicit modulus.  32-bit device addresses and file offsets are plain `Nat`;
  they coincide with the C values as long as the device is smaller than `2^32`
  bytes, which `Cfg.ok` records.
* Target integer widths are those of the MSP430 (`int` and `size_t` are 16 bit).
* Loops whose termination depends on the device contents take a fuel argument and
  return `none` when it runs out.
-/

namespace FFS

/-! ## Configuration and constants -/

/-- Compile-time and device constants: `FLASH_BLOCKSIZE`, `FFS_ERASE_VAL` and
`flashSPAN.BlockCount`.  The field `pad` is not a constant of the program: the block
headers are written to the device from local structs whose padding byte (between
`status` and `jump`) the code never sets, and `pad` is the value found there.  No
function interprets that byte (the replace branch of `ffs_fopen` writes back the one
it has read with the header), and the general theorems hold for every value of it. -/
structure Cfg where
  FLASH_BLOCKSIZE : Nat
  FFS_ERASE_VAL : Nat
  BlockCount : Nat
  pad : Nat := 0xFF

/-- Result codes of `result.h`. -/
inductive RES_t where
  | RES_OK
  | RES_FAIL
  | RES_PARAMERR
  | RES_FULL
  | RES_NOTFOUND
  | RES_END
  deriving DecidableEq, Repr

open RES_t

def FFS_FILENAME_LEN : Nat := 14

def FFS_UNINIT8 (c : Cfg) : Nat := c.FFS_ERASE_VAL % 256
def FFS_NULL8 (c : Cfg) : Nat := 255 - FFS_UNINIT8 c
def FFS_UNINIT16 (c : Cfg) : Nat := (FFS_UNINIT8 c * 256 + FFS_UNINIT8 c) % 65536
def FFS_NULL16 (c : Cfg) : Nat := (FFS_NULL8 c * 256 + FFS_NULL8 c) % 65536

def FFS_B_UNUSED (c : Cfg) : Nat := FFS_UNINIT8 c
def FFS_B_EOF (c : Cfg) : Nat := FFS_UNINIT8 c ^^^ 0x01
def FFS_B_JUMP (c : Cfg) : Nat := FFS_UNINIT8 c ^^^ 0x03
def FFS_B_FT_EOF (c : Cfg) : Nat := FFS_UNINIT8 c ^^^ 0x11
def FFS_B_FT_JUMP (c : Cfg) : Nat := FFS_UNINIT8 c ^^^ 0x13

def FFS_TST_EOF (c : Cfg) (x : Nat) : Bool := (x &&& 0x0F) == ((FFS_UNINIT8 c &&& 0x0F) ^^^ 0x01)
def FFS_TST_JUMP (c : Cfg) (x : Nat) : Bool := (x &&& 0x0F) == ((FFS_UNINIT8 c &&& 0x0F) ^^^ 0x03)
def FFS_TST_FT (c : Cfg) (x : Nat) : Bool := (x &&& 0xF0) == ((FFS_UNINIT8 c &&& 0xF0) ^^^ 0x10)

/-- File modes (`enum FFS_FILEMODE`, stored in a `uint8_t`). -/
def FFS_CLOSED : Nat := 0
def FFS_RD : Nat := 1
def FFS_WR_APPEND : Nat := 2
def FFS_WR_REPLACE : Nat := 3

/-- Layout of the structures of `flash_fs_internal.h`.  They are declared without
packing, and `uint16_t` and `uint32_t` are aligned to two bytes or more, so
`FFS_SHORT_BHDR_t` is the status byte, one padding byte and the 2-byte jump index
(4 bytes), `FFS_BHDR_t` appends the 4-byte virtual address (8 bytes), a chunk header
is one byte, and a file table entry is the 2-byte start block followed by the
filename field (16 bytes). -/
def sizeof_SBHDR : Nat := 4
def sizeof_BHDR : Nat := 8
def sizeof_CHDR : Nat := 1
def sizeof_FTE : Nat := 2 + FFS_FILENAME_LEN
def offsetof_jump : Nat := 2
def offsetof_virt_addr : Nat := 4

/-- The padding byte of a header struct that the code fills field by field. -/
def padByte (c : Cfg) : Nat := c.pad % 256

/-- The macros `FFS_FTENTRIESPERBLOCK` and `FFS_ENTRYADDR`.  `FLASH_BLOCKSIZE` comes from
`FlashSPAN.h`, which is not part of the sources at hand; the products with it are
taken without wrap-around, as in the `(uint32_t)block * FLASH_BLOCKSIZE` expressions
of `flash_fs.c`. -/
def FFS_FTENTRIESPERBLOCK (c : Cfg) : Nat := (c.FLASH_BLOCKSIZE - sizeof_SBHDR) / sizeof_FTE
def FFS_ENTRYADDR (c : Cfg) (block entry : Nat) : Nat :=
  block * c.FLASH_BLOCKSIZE + sizeof_SBHDR + entry * sizeof_FTE

/-! ## Block device -/

/-- Device memory: byte address to byte value. -/
abbrev Mem := Nat → Nat

/-- Modelled from the spec: programming a flash byte only moves bits away from the
erased value (bitwise AND on a device that erases to ones, bitwise OR on a device
that erases to zeros). -/
def progByte (c : Cfg) (old new : Nat) : Nat :=
  if c.FFS_ERASE_VAL = 0 then old ||| new else old &&& new

/-- Modelled from the spec: `flashSPAN_Read(addr, buf, len)` of the block device. -/
def flashSPAN_Read (m : Mem) (addr len : Nat) : List Nat :=
  (List.range len).map (fun i => m (addr + i))

/-- Modelled from the spec: `flashSPAN_Write(addr, buf, len)` of the block device;
the length is the length of the list. -/
def flashSPAN_Write (c : Cfg) (m : Mem) (addr : Nat) (data : List Nat) : Mem :=
  fun a => if addr ≤ a ∧ a < addr + data.length then progByte c (m a) (data.getD (a - addr) 0)
    else m a

/-- Modelled from the spec: `flashSPAN_EraseBlock(block)` of the block device. -/
def flashSPAN_EraseBlock (c : Cfg) (m : Mem) (block : Nat) : Mem :=
  fun a => if block * c.FLASH_BLOCKSIZE ≤ a ∧ a < block * c.FLASH_BLOCKSIZE + c.FLASH_BLOCKSIZE
    then FFS_UNINIT8 c else m a

/-- Modelled from the spec: `flashSPAN_EraseAll()` of the block device. -/
def flashSPAN_EraseAll (c : Cfg) (m : Mem) : Mem :=
  fun a => if a < c.BlockCount * c.FLASH_BLOCKSIZE then FFS_UNINIT8 c else m a

/-- Little-endian encodings of the multi-byte fields. -/
def enc16 (v : Nat) : List Nat := [v % 256, v / 256 % 256]
def enc32 (v : Nat) : List Nat := [v % 256, v / 256 % 256, v / 65536 % 256, v / 16777216 % 256]
def rd16 (m : Mem) (a : Nat) : Nat := m a + 256 * m (a + 1)
def rd32 (m : Mem) (a : Nat) : Nat :=
  m a + 256 * m (a + 1) + 65536 * m (a + 2) + 16777216 * m (a + 3)

/-! ## Objects -/

/-- Filesystem object `FFS_FS_t`. -/
structure FFS_FS_t where
  BlockSearchStart : Nat
  GetFileCounter : Nat
  deriving DecidableEq, Repr

/-- File object `FFS_FILE_t`. -/
structure FFS_FILE_t where
  virt_addr : Nat
  hw_addr : Nat
  nBytes : Nat
  filemode : Nat
  startblock : Nat
  deriving DecidableEq, Repr

/-- Block header `FFS_BHDR_t` (its first two fields are `FFS_SHORT_BHDR_t`). -/
structure FFS_BHDR_t where
  status : Nat
  jump : Nat
  virt_addr : Nat
  deriving DecidableEq, Repr

/-- File table entry `FFS_FTE_t`. -/
structure FFS_FTE_t where
  startblock : Nat
  filename : List Nat
  deriving DecidableEq, Repr

/-- File entry info `FFS_FTE_INFO_t`. -/
structure FFS_FTE_INFO_t where
  FTE : FFS_FTE_t
  fteAddr : Nat
  deriving DecidableEq, Repr

/-- Reading a full block header at `addr`. -/
def readBHDR (m : Mem) (addr : Nat) : FFS_BHDR_t :=
  { status := m addr, jump := rd16 m (addr + offsetof_jump),
    virt_addr := rd32 m (addr + offsetof_virt_addr) }

/-- Bytes of a full block header in memory, `pad` being its padding byte. -/
def encBHDR (pad : Nat) (h : FFS_BHDR_t) : List Nat :=
  h.status :: pad :: (enc16 h.jump ++ enc32 h.virt_addr)

/-- Bytes of a short block header in memory, `pad` being its padding byte. -/
def encSBHDR (pad status jump : Nat) : List Nat := status :: pad :: enc16 jump

/-- The 32-bit value held by four bytes in memory. -/
def dec32 (l : List Nat) : Nat :=
  l.getD 0 0 + 256 * l.getD 1 0 + 65536 * l.getD 2 0 + 16777216 * l.getD 3 0

/-- Reading a file table entry at `addr`. -/
def readFTE (m : Mem) (addr : Nat) : FFS_FTE_t :=
  { startblock := rd16 m addr, filename := flashSPAN_Read m (addr + 2) FFS_FILENAME_LEN }

/-- Bytes of a file table entry. -/
def encFTE (e : FFS_FTE_t) : List Nat := enc16 e.startblock ++ e.filename

/-- The C string held in a character array: the bytes before the first NUL. -/
def cstr (s : List Nat) : List Nat := s.takeWhile (fun x => x != 0)

/-- The memory after `strcpy(dst, src)`, where `dst` lists the bytes from the
destination pointer on: the string and its terminator, then the untouched rest.  A
string that does not fit runs on past the end of `dst` and the result is longer than
`dst`. -/
def strcpy (dst src : List Nat) : List Nat :=
  cstr src ++ [0] ++ dst.drop ((cstr src).length + 1)

/-! ## Internal functions -/

/-- The `do ... while` loop of `FindUnusedBlock`; the result is the returned block
and the updated filesystem object. -/
def FindUnusedBlock_loop (c : Cfg) (m : Mem) (startingblock : Nat) :
    Nat → Nat → FFS_FS_t → Option (Nat × FFS_FS_t)
  | 0, _, _ => none
  | fuel + 1, block, fs =>
    let block1 := (block + 1) % 65536
    if block1 = c.BlockCount ∧ startingblock = 0 then some (0, fs)
    else
      let block2 := if block1 = c.BlockCount then 1 else block1
      let status := m (block2 * c.FLASH_BLOCKSIZE)
      if block2 = startingblock then
        (if status = FFS_B_UNUSED c then some (block2, fs) else some (0, fs))
      else if status ≠ FFS_B_UNUSED c then FindUnusedBlock_loop c m startingblock fuel block2 fs
      else some (block2, { fs with BlockSearchStart := block2 })

/-- `FindUnusedBlock`: block id of a free block, 0 if none was found. -/
def FindUnusedBlock (c : Cfg) (fuel : Nat) (m : Mem) (fs : FFS_FS_t) : Option (Nat × FFS_FS_t) :=
  FindUnusedBlock_loop c m fs.BlockSearchStart fuel fs.BlockSearchStart fs

/-- The chain-following loop of `WR_SeekToEOF`: the terminal block and its header. -/
def WR_SeekToEOF_chain (c : Cfg) (m : Mem) : Nat → Nat → FFS_BHDR_t → Option (Nat × FFS_BHDR_t)
  | 0, _, _ => none
  | fuel + 1, block, BHDR =>
    if BHDR.status = FFS_B_JUMP c then
      WR_SeekToEOF_chain c m fuel BHDR.jump (readBHDR m (BHDR.jump * c.FLASH_BLOCKSIZE))
    else some (block, BHDR)

/-- The chunk-scanning loop of `WR_SeekToEOF`. -/
def WR_SeekToEOF_scan (c : Cfg) (m : Mem) (block_addr : Nat) (FILE : FFS_FILE_t) :
    Nat → Nat → Nat → Option FFS_FILE_t
  | 0, _, _ => none
  | fuel + 1, addr, virt_addr =>
    if addr - block_addr ≤ c.FLASH_BLOCKSIZE - (sizeof_CHDR + 1) then
      let nB := m addr
      if nB = FFS_UNINIT8 c then
        some { FILE with hw_addr := addr, virt_addr := virt_addr, nBytes := 1 }
      else
        WR_SeekToEOF_scan c m block_addr FILE fuel (addr + nB)
          (virt_addr + (nB + 65536 - sizeof_CHDR) % 65536)
    else some { FILE with hw_addr := block_addr, virt_addr := virt_addr, nBytes := 0 }

/-- `WR_SeekToEOF`: position a write handle at the next unused byte of the file. -/
def WR_SeekToEOF (c : Cfg) (fuel : Nat) (m : Mem) (FILE : FFS_FILE_t) : Option FFS_FILE_t :=
  match WR_SeekToEOF_chain c m fuel FILE.startblock
      (readBHDR m (FILE.startblock * c.FLASH_BLOCKSIZE)) with
  | none => none
  | some (block, BHDR) =>
    WR_SeekToEOF_scan c m (block * c.FLASH_BLOCKSIZE) FILE fuel
      (block * c.FLASH_BLOCKSIZE + sizeof_BHDR) BHDR.virt_addr

/-- The `for` loop of `LookupFile` over the entries of one table block, from
`entry` on, `k` entries remaining.  The first component is the value returned from
inside the loop, if any. -/
def LookupFile_scan (c : Cfg) (m : Mem) (filename : List Nat) (block : Nat) :
    Nat → Nat → FFS_FTE_INFO_t → Option RES_t × FFS_FTE_INFO_t
  | 0, _, FTEI => (none, FTEI)
  | k + 1, entry, _ =>
    let fteAddr := FFS_ENTRYADDR c block entry
    let FTE := readFTE m fteAddr
    let FTEI1 : FFS_FTE_INFO_t := { FTE := FTE, fteAddr := fteAddr }
    if FTE.startblock = FFS_NULL16 c then LookupFile_scan c m filename block k (entry + 1) FTEI1
    else if FTE.startblock = FFS_UNINIT16 c then (some RES_NOTFOUND, FTEI1)
    else if cstr filename = cstr FTE.filename then (some RES_OK, FTEI1)
    else LookupFile_scan c m filename block k (entry + 1) FTEI1

/-- The `do ... while` loop of `LookupFile` over the chain of table blocks. -/
def LookupFile_loop (c : Cfg) (m : Mem) (filename : List Nat) :
    Nat → Nat → FFS_FTE_INFO_t → Option (RES_t × FFS_FTE_INFO_t)
  | 0, _, _ => none
  | fuel + 1, block, FTEI =>
    match LookupFile_scan c m filename block (FFS_FTENTRIESPERBLOCK c) 0 FTEI with
    | (some r, FTEI1) => some (r, FTEI1)
    | (none, FTEI1) =>
      if m (block * c.FLASH_BLOCKSIZE) = FFS_B_FT_JUMP c then
        LookupFile_loop c m filename fuel (rd16 m (block * c.FLASH_BLOCKSIZE + offsetof_jump)) FTEI1
      else some (RES_NOTFOUND, FTEI1)

/-- `LookupFile`: look the file up in the file table by name.  The entry info object
of the caller is indeterminate before the first entry is read; it starts as zero. -/
def LookupFile (c : Cfg) (fuel : Nat) (m : Mem) (filename : List Nat) :
    Option (RES_t × FFS_FTE_INFO_t) :=
  LookupFile_loop c m filename fuel 0 { FTE := { startblock := 0, filename := List.replicate FFS_FILENAME_LEN 0 }, fteAddr := 0 }

/-! ## Filesystem operations -/

/-- `ffs_init`; `initRes` is the result of `flashSPAN_Init()`. -/
def ffs_init (c : Cfg) (fuel : Nat) (initRes : RES_t) (m : Mem) (fs : FFS_FS_t) :
    Option (RES_t × Mem × FFS_FS_t) :=
  if initRes ≠ RES_OK then some (RES_FAIL, m, fs)
  else
    let m1 := if FFS_TST_FT c (m 0) then m
      else flashSPAN_Write c (flashSPAN_EraseAll c m) 0 [FFS_B_FT_EOF c]
    match FindUnusedBlock c fuel m1 { fs with BlockSearchStart := 0 } with
    | none => none
    | some (b, _) =>
      some (RES_OK, m1, { BlockSearchStart := (b + 65535) % 65536, GetFileCounter := 0 })

/-! ## File operations -/

/-- `ffs_fflush`. -/
def ffs_fflush (c : Cfg) (m : Mem) (FILE : FFS_FILE_t) : RES_t × Mem × FFS_FILE_t :=
  if FILE.filemode ≠ FFS_WR_APPEND then (RES_PARAMERR, m, FILE)
  else if FILE.nBytes > sizeof_CHDR then
    let chunk_addr := FILE.hw_addr - FILE.hw_addr % c.FLASH_BLOCKSIZE
    let m1 := flashSPAN_Write c m FILE.hw_addr [FILE.nBytes]
    let hw_addr := FILE.hw_addr + FILE.nBytes
    if hw_addr - chunk_addr > c.FLASH_BLOCKSIZE - sizeof_CHDR - 1 then
      (RES_OK, m1, { FILE with hw_addr := chunk_addr, nBytes := 0 })
    else (RES_OK, m1, { FILE with hw_addr := hw_addr, nBytes := sizeof_CHDR })
  else (RES_OK, m, FILE)

/-- `ffs_fclose`; a `NULL` handle is `none`. -/
def ffs_fclose (c : Cfg) (m : Mem) (FILE : Option FFS_FILE_t) : RES_t × Mem × Option FFS_FILE_t :=
  match FILE with
  | none => (RES_PARAMERR, m, none)
  | some F =>
    if F.filemode = FFS_RD then (RES_OK, m, some { F with filemode := FFS_CLOSED })
    else if F.filemode = FFS_WR_APPEND then
      if F.nBytes > sizeof_CHDR then
        let r := ffs_fflush c m F
        (RES_OK, r.2.1, some { r.2.2 with filemode := FFS_CLOSED })
      else (RES_OK, m, some { F with filemode := FFS_CLOSED })
    else (RES_PARAMERR, m, some F)

/-- The block-erasing `do ... while` loop of the replace branch of `ffs_fopen`.  The
result is the device and the padding byte of `BHDR`, which holds the header read
last. -/
def ffs_fopen_erase (c : Cfg) : Nat → Mem → Nat → Option (Mem × Nat)
  | 0, _, _ => none
  | fuel + 1, m, block =>
    let BHDR := readBHDR m (block * c.FLASH_BLOCKSIZE)
    let pad := m (block * c.FLASH_BLOCKSIZE + 1) % 256
    let m1 := flashSPAN_EraseBlock c m block
    if BHDR.status = FFS_B_JUMP c then ffs_fopen_erase c fuel m1 BHDR.jump else some (m1, pad)

/-- The file-creating branch of `ffs_fopen` (file not found, write modes). -/
def ffs_fopen_create (c : Cfg) (fuel : Nat) (m : Mem) (fs : FFS_FS_t) (FILE : FFS_FILE_t)
    (filename : List Nat) (FTEI : FFS_FTE_INFO_t) : Option (RES_t × Mem × FFS_FS_t × FFS_FILE_t) :=
  let fteBlock := FTEI.fteAddr / c.FLASH_BLOCKSIZE
  let expanded : Option (Option (Mem × FFS_FS_t × Nat)) :=
    if FTEI.FTE.startblock ≠ FFS_UNINIT16 c then
      match FindUnusedBlock c fuel m fs with
      | none => none
      | some (block, fs1) =>
        if block = 0 then some none
        else
          let m1 := flashSPAN_Write c m (fteBlock * c.FLASH_BLOCKSIZE)
            (encSBHDR (padByte c) (FFS_B_FT_JUMP c) block)
          let m2 := flashSPAN_Write c m1 (block * c.FLASH_BLOCKSIZE) [FFS_B_FT_EOF c]
          some (some (m2, fs1, block * c.FLASH_BLOCKSIZE + sizeof_SBHDR))
    else some (some (m, fs, FTEI.fteAddr))
  match expanded with
  | none => none
  | some none => some (RES_FULL, m, fs, FILE)
  | some (some (m2, fs1, fteAddr)) =>
    match FindUnusedBlock c fuel m2 fs1 with
    | none => none
    | some (block, fs2) =>
      if block = 0 then some (RES_FULL, m2, fs2, FILE)
      else
        let m3 := flashSPAN_Write c m2 (block * c.FLASH_BLOCKSIZE)
          (encBHDR (padByte c) { status := FFS_B_EOF c, jump := FFS_UNINIT16 c, virt_addr := 0 })
        let tail := strcpy (FTEI.FTE.filename ++ enc32 fteAddr) filename
        let FTE : FFS_FTE_t := { startblock := block, filename := tail.take FFS_FILENAME_LEN }
        let fteAddr1 := dec32 ((tail.drop FFS_FILENAME_LEN).take 4)
        let m4 := flashSPAN_Write c m3 fteAddr1 (encFTE FTE)
        some (RES_OK, m4, fs2,
          { startblock := block, filemode := FFS_WR_APPEND,
            hw_addr := block * c.FLASH_BLOCKSIZE + sizeof_BHDR, virt_addr := 0, nBytes := 1 })

/-- `ffs_fopen`; a `NULL` handle is `none`. -/
def ffs_fopen (c : Cfg) (fuel : Nat) (m : Mem) (fs : FFS_FS_t) (FILE : Option FFS_FILE_t)
    (filename : List Nat) (filemode : Nat) : Option (RES_t × Mem × FFS_FS_t × Option FFS_FILE_t) :=
  match FILE with
  | none => some (RES_PARAMERR, m, fs, none)
  | some F =>
    match LookupFile c fuel m filename with
    | none => none
    | some (result, FTEI) =>
      if filemode = FFS_RD then
        if result = RES_OK then
          let hw_addr := FTEI.FTE.startblock * c.FLASH_BLOCKSIZE + sizeof_BHDR
          let nB := m hw_addr
          if nB = FFS_UNINIT8 c then
            some (RES_OK, m, fs, some
              { filemode := FFS_RD, startblock := FTEI.FTE.startblock,
                virt_addr := 0, hw_addr := hw_addr, nBytes := 0 })
          else
            some (RES_OK, m, fs, some
              { filemode := FFS_RD, startblock := FTEI.FTE.startblock,
                virt_addr := 0, hw_addr := hw_addr + 1, nBytes := (nB + 256 - sizeof_CHDR) % 256 })
        else some (result, m, fs, some F)
      else if filemode = FFS_WR_REPLACE ∨ filemode = FFS_WR_APPEND then
        if result = RES_NOTFOUND then
          match ffs_fopen_create c fuel m fs F filename FTEI with
          | none => none
          | some (r, m1, fs1, F1) => some (r, m1, fs1, some F1)
        else if result = RES_OK then
          if filemode = FFS_WR_APPEND then
            match WR_SeekToEOF c fuel m
                { F with filemode := FFS_WR_APPEND, startblock := FTEI.FTE.startblock } with
            | none => none
            | some F1 => some (RES_OK, m, fs, some F1)
          else
            match ffs_fopen_erase c fuel m FTEI.FTE.startblock with
            | none => none
            | some (m1, pad) =>
              let m2 := flashSPAN_Write c m1 (FTEI.FTE.startblock * c.FLASH_BLOCKSIZE)
                (encBHDR pad { status := FFS_B_EOF c, jump := FFS_UNINIT16 c, virt_addr := 0 })
              some (RES_OK, m2, fs, some
                { startblock := FTEI.FTE.startblock, filemode := FFS_WR_APPEND,
                  hw_addr := FTEI.FTE.startblock * c.FLASH_BLOCKSIZE + sizeof_BHDR,
                  virt_addr := 0, nBytes := 1 })
        else some (result, m, fs, some F)
      else some (RES_PARAMERR, m, fs, some F)

/-- The `while (size > size_done)` loop of `ffs_fwrite`.  `data` is the part of the
source buffer not yet written, so `size - size_done` is its length. -/
def ffs_fwrite_loop (c : Cfg) (af : Nat) (FILE : FFS_FILE_t) :
    Nat → Mem → FFS_FS_t → List Nat → Nat → Nat → Nat → Nat → Nat → Nat →
    Option (Nat × Mem × FFS_FS_t × FFS_FILE_t)
  | 0, _, _, _, _, _, _, _, _, _ => none
  | fuel + 1, m, fs, data, size_done, block, block_remaining, hw_addr, nBytes, virt_addr =>
    if data.length > 0 then
      let lim := (254 + 65536 - nBytes) % 65536
      let writelen0 := if data.length > lim then lim else data.length
      let writelen := if writelen0 > block_remaining then block_remaining else writelen0
      let m1 := flashSPAN_Write c m (hw_addr + nBytes) (data.take writelen)
      let nBytes1 := (nBytes + writelen) % 256
      let virt1 := virt_addr + writelen
      let done1 := size_done + writelen
      let data1 := data.drop writelen
      let rem1 := block_remaining - writelen
      if nBytes1 = 254 ∧ rem1 > sizeof_CHDR then
        let m2 := flashSPAN_Write c m1 hw_addr [nBytes1]
        ffs_fwrite_loop c af FILE fuel m2 fs data1 done1 block (rem1 - sizeof_CHDR)
          (hw_addr + 254) sizeof_CHDR virt1
      else if rem1 ≤ sizeof_CHDR then
        let m2 := flashSPAN_Write c m1 hw_addr [nBytes1]
        if data1.length = 0 then
          some (done1, m2, fs,
            { FILE with virt_addr := virt1, hw_addr := block * c.FLASH_BLOCKSIZE, nBytes := 0 })
        else
          let hw2 := block * c.FLASH_BLOCKSIZE
          match FindUnusedBlock c af m2 fs with
          | none => none
          | some (blk, fs2) =>
            if blk = 0 then
              some (done1, m2, fs2, { FILE with virt_addr := virt1, hw_addr := hw2, nBytes := 0 })
            else
              let m3 := flashSPAN_Write c m2 (blk * c.FLASH_BLOCKSIZE)
                (encBHDR (padByte c)
                  { status := FFS_B_EOF c, jump := FFS_UNINIT16 c, virt_addr := virt1 })
              let m4 := flashSPAN_Write c m3 hw2 (encSBHDR (padByte c) (FFS_B_JUMP c) blk)
              ffs_fwrite_loop c af FILE fuel m4 fs2 data1 done1 blk
                ((c.FLASH_BLOCKSIZE - sizeof_BHDR - sizeof_CHDR) % 65536)
                (blk * c.FLASH_BLOCKSIZE + sizeof_BHDR) sizeof_CHDR virt1
      else ffs_fwrite_loop c af FILE fuel m1 fs data1 done1 block rem1 hw_addr nBytes1 virt1
    else some (size_done, m, fs,
      { FILE with hw_addr := hw_addr, nBytes := nBytes, virt_addr := virt_addr })

/-- `ffs_fwrite`: the source buffer is the list `data`, `size` is its length.  The
result is the number of bytes written, the device, the filesystem object and the
handle. -/
def ffs_fwrite (c : Cfg) (fuel : Nat) (m : Mem) (fs : FFS_FS_t) (data : List Nat)
    (FILE : FFS_FILE_t) : Option (Nat × Mem × FFS_FS_t × FFS_FILE_t) :=
  if FILE.filemode ≠ FFS_WR_APPEND then some (0, m, fs, FILE)
  else
    let start : Option (Option (Mem × FFS_FS_t × Nat × Nat)) :=
      if FILE.nBytes = 0 then
        match FindUnusedBlock c fuel m fs with
        | none => none
        | some (block, fs1) =>
          if block = 0 then some none
          else
            let m1 := flashSPAN_Write c m (block * c.FLASH_BLOCKSIZE)
              (encBHDR (padByte c) { status := FFS_B_EOF c, jump := FFS_UNINIT16 c,
                                     virt_addr := FILE.virt_addr })
            let m2 := flashSPAN_Write c m1 FILE.hw_addr (encSBHDR (padByte c) (FFS_B_JUMP c) block)
            some (some (m2, fs1, block * c.FLASH_BLOCKSIZE + sizeof_BHDR, sizeof_CHDR))
      else some (some (m, fs, FILE.hw_addr, FILE.nBytes))
    match start with
    | none => none
    | some none => some (0, m, fs, FILE)
    | some (some (m2, fs1, hw_addr, nBytes)) =>
      let block := hw_addr / c.FLASH_BLOCKSIZE
      let block_remaining :=
        (c.FLASH_BLOCKSIZE + 4294967296 - ((hw_addr + nBytes) - block * c.FLASH_BLOCKSIZE)) % 65536
      ffs_fwrite_loop c fuel FILE fuel m2 fs1 data 0 block block_remaining hw_addr nBytes
        FILE.virt_addr

/-- The `while (size > size_done)` loop of `ffs_fread`; `buf` is the part of the
destination buffer filled so far. -/
def ffs_fread_loop (c : Cfg) (m : Mem) (FILE : FFS_FILE_t) (size : Nat) :
    Nat → Nat → List Nat → Nat → Nat → Nat → Nat → Option (Nat × List Nat × FFS_FILE_t)
  | 0, _, _, _, _, _, _ => none
  | fuel + 1, size_done, buf, block, hw_addr, nBytes, virt_addr =>
    if size > size_done then
      let readlen := if size - size_done > nBytes then nBytes else size - size_done
      let buf1 := buf ++ flashSPAN_Read m hw_addr readlen
      let nBytes1 := nBytes - readlen
      let hw1 := hw_addr + readlen
      let virt1 := virt_addr + readlen
      let done1 := size_done + readlen
      if nBytes1 = 0 then
        if hw1 - block * c.FLASH_BLOCKSIZE ≤ c.FLASH_BLOCKSIZE - (sizeof_CHDR + 1) then
          let nB := m hw1
          if nB = FFS_UNINIT8 c then
            some (done1, buf1, { FILE with hw_addr := hw1, nBytes := 0, virt_addr := virt1 })
          else
            ffs_fread_loop c m FILE size fuel done1 buf1 block (hw1 + sizeof_CHDR)
              ((nB + 256 - sizeof_CHDR) % 256) virt1
        else
          let BHDR := readBHDR m (block * c.FLASH_BLOCKSIZE)
          if BHDR.status = FFS_B_JUMP c then
            let hw2 := BHDR.jump * c.FLASH_BLOCKSIZE + sizeof_BHDR
            let nB := m hw2
            if nB ≠ FFS_UNINIT8 c then
              ffs_fread_loop c m FILE size fuel done1 buf1 BHDR.jump (hw2 + sizeof_CHDR)
                ((nB + 256 - sizeof_CHDR) % 256) virt1
            else
              some (done1, buf1, { FILE with hw_addr := hw2, nBytes := 0, virt_addr := virt1 })
          else
            some (done1, buf1,
              { FILE with hw_addr := block * c.FLASH_BLOCKSIZE, nBytes := 0, virt_addr := virt1 })
      else ffs_fread_loop c m FILE size fuel done1 buf1 block hw1 nBytes1 virt1
    else some (size_done, buf,
      { FILE with hw_addr := hw_addr, nBytes := nBytes, virt_addr := virt_addr })

/-- `ffs_fread`: the result is the number of bytes read, the bytes stored into the
destination buffer, and the handle. -/
def ffs_fread (c : Cfg) (fuel : Nat) (m : Mem) (size : Nat) (FILE : FFS_FILE_t) :
    Option (Nat × List Nat × FFS_FILE_t) :=
  if FILE.filemode ≠ FFS_RD then some (0, [], FILE)
  else
    let start : Option (Nat × Nat) ⊕ FFS_FILE_t :=
      if FILE.nBytes = 0 then
        if FILE.hw_addr % c.FLASH_BLOCKSIZE = 0 then
          let BHDR := readBHDR m FILE.hw_addr
          if BHDR.status ≠ FFS_B_JUMP c then Sum.inl none
          else
            let hw_addr := BHDR.jump * c.FLASH_BLOCKSIZE + sizeof_BHDR
            let nB := m hw_addr
            if nB = FFS_UNINIT8 c then Sum.inr { FILE with hw_addr := hw_addr }
            else Sum.inl (some (hw_addr + sizeof_CHDR, (nB + 256 - sizeof_CHDR) % 256))
        else
          let nB := m FILE.hw_addr
          if nB = FFS_UNINIT8 c then Sum.inl none
          else Sum.inl (some (FILE.hw_addr + sizeof_CHDR, (nB + 256 - sizeof_CHDR) % 256))
      else Sum.inl (some (FILE.hw_addr, FILE.nBytes))
    match start with
    | Sum.inr F1 => some (0, [], F1)
    | Sum.inl none => some (0, [], FILE)
    | Sum.inl (some (hw_addr, nBytes)) =>
      ffs_fread_loop c m FILE size fuel 0 [] (hw_addr / c.FLASH_BLOCKSIZE) hw_addr nBytes
        FILE.virt_addr

/-- The block-seeking loop of `ffs_fseek`: the resolved block and the virtual
address of its first byte. -/
def ffs_fseek_chain (c : Cfg) (m : Mem) (offset : Nat) :
    Nat → Nat → FFS_BHDR_t → Option (Nat × Nat)
  | 0, _, _ => none
  | fuel + 1, block, BHDR =>
    if BHDR.status ≠ FFS_B_JUMP c then some (block, BHDR.virt_addr)
    else
      let BHDR2 := readBHDR m (BHDR.jump * c.FLASH_BLOCKSIZE)
      if BHDR2.virt_addr > offset then some (block, BHDR.virt_addr)
      else ffs_fseek_chain c m offset fuel BHDR.jump BHDR2

/-- The chunk-scanning loop of `ffs_fseek`; `nB` is `CHDR.nBytes`. -/
def ffs_fseek_scan (c : Cfg) (m : Mem) (offset block : Nat) (FILE : FFS_FILE_t) :
    Nat → Nat → Nat → Nat → Option (RES_t × FFS_FILE_t)
  | 0, _, _, _ => none
  | fuel + 1, hw_addr, virt_addr, nB =>
    let len := (nB + 65536 - sizeof_CHDR) % 65536
    if virt_addr + len ≤ offset then
      let hw1 := hw_addr + nB
      let virt1 := virt_addr + len
      if hw1 - block * c.FLASH_BLOCKSIZE > c.FLASH_BLOCKSIZE - (sizeof_CHDR + 1) then
        some (RES_END,
          { FILE with hw_addr := block * c.FLASH_BLOCKSIZE, nBytes := 0, virt_addr := virt1 })
      else
        let nB1 := m hw1
        if nB1 = FFS_UNINIT8 c then
          some (RES_END, { FILE with hw_addr := hw1, nBytes := 0, virt_addr := virt1 })
        else ffs_fseek_scan c m offset block FILE fuel hw1 virt1 nB1
    else
      let d := (offset + 4294967296 - virt_addr) % 4294967296
      some (RES_OK,
        { FILE with nBytes := (nB + 4294967296 - d - sizeof_CHDR) % 256,
                    hw_addr := hw_addr + d + sizeof_CHDR, virt_addr := offset })

/-- `ffs_fseek`. -/
def ffs_fseek (c : Cfg) (fuel : Nat) (m : Mem) (FILE : FFS_FILE_t) (offset : Nat) :
    Option (RES_t × FFS_FILE_t) :=
  if FILE.filemode ≠ FFS_RD then some (RES_PARAMERR, FILE)
  else
    let block0 := FILE.hw_addr / c.FLASH_BLOCKSIZE
    let BHDR0 := readBHDR m (block0 * c.FLASH_BLOCKSIZE)
    let block1 := if BHDR0.virt_addr > offset then FILE.startblock else block0
    let BHDR1 := if BHDR0.virt_addr > offset then readBHDR m (FILE.startblock * c.FLASH_BLOCKSIZE)
      else BHDR0
    match ffs_fseek_chain c m offset fuel block1 BHDR1 with
    | none => none
    | some (block, virt_addr) =>
      let hw_addr := block * c.FLASH_BLOCKSIZE + sizeof_BHDR
      ffs_fseek_scan c m offset block FILE fuel hw_addr virt_addr (m hw_addr)

/-- `ffs_ftell`. -/
def ffs_ftell (FILE : FFS_FILE_t) : Nat := FILE.virt_addr

/-- `ffs_feof`: 1 for true, 0 for false. -/
def ffs_feof (FILE : FFS_FILE_t) : Nat :=
  if FILE.filemode = FFS_RD then (if FILE.nBytes = 0 then 1 else 0) else 0


/-! ## File table maintenance and enumeration -/

/-- Bytes of the first `newentry` entries of the buffer `FTEBuf` of `ffs_cleanupFT`. -/
def encFTEs (buf : List FFS_FTE_t) : List Nat := (buf.map encFTE).flatten

/-- The inner `while (newentry < FFS_FTENTRIESPERBLOCK)` loop of `ffs_cleanupFT`.  The
state is the device, `oldblock`, `oldentry`, the header `SBHDR` (status and jump) of
the old block, and the valid entries gathered in `FTEBuf`, `newentry` being their
number. -/
def ffs_cleanupFT_gather (c : Cfg) :
    Nat → Mem → Nat → Nat → Nat → Nat → List FFS_FTE_t →
    Option (Mem × Nat × Nat × Nat × Nat × List FFS_FTE_t)
  | 0, _, _, _, _, _, _ => none
  | fuel + 1, m, oldblock, oldentry, status, jump, FTEBuf =>
    if FTEBuf.length < FFS_FTENTRIESPERBLOCK c then
      let FTE := readFTE m (FFS_ENTRYADDR c oldblock oldentry)
      let advance : Option (Nat × List FFS_FTE_t) :=
        if FTE.startblock = FFS_NULL16 c then some (oldentry + 1, FTEBuf)
        else if FTE.startblock = FFS_UNINIT16 c then none
        else some (oldentry + 1, FTEBuf ++ [FTE])
      match advance with
      | none =>
        some (flashSPAN_EraseBlock c m oldblock, oldblock, FFS_FTENTRIESPERBLOCK c, status, jump,
          FTEBuf)
      | some (oldentry1, FTEBuf1) =>
        if oldentry1 = FFS_FTENTRIESPERBLOCK c then
          let m1 := flashSPAN_EraseBlock c m oldblock
          if status = FFS_B_FT_JUMP c then
            ffs_cleanupFT_gather c fuel m1 jump 0 (m1 (jump * c.FLASH_BLOCKSIZE))
              (rd16 m1 (jump * c.FLASH_BLOCKSIZE + offsetof_jump)) FTEBuf1
          else some (m1, oldblock, FFS_FTENTRIESPERBLOCK c, status, jump, FTEBuf1)
        else ffs_cleanupFT_gather c fuel m oldblock oldentry1 status jump FTEBuf1
    else some (m, oldblock, oldentry, status, jump, FTEBuf)

/-- The outer `while (1)` loop of `ffs_cleanupFT`, one pass per new table block. -/
def ffs_cleanupFT_loop (c : Cfg) (af : Nat) :
    Nat → Mem → FFS_FS_t → Nat → Nat → Nat → Nat → Nat → Nat → Option (RES_t × Mem × FFS_FS_t)
  | 0, _, _, _, _, _, _, _, _ => none
  | fuel + 1, m, fs, oldblock, oldentry, status, jump, prevnewblock, newblock =>
    match ffs_cleanupFT_gather c af m oldblock oldentry status jump [] with
    | none => none
    | some (m1, oldblock1, oldentry1, status1, jump1, FTEBuf) =>
      let written : Option (Mem × FFS_FS_t × Nat × Nat) :=
        if newblock = 0 ∧ prevnewblock = 0 then
          let m2 := flashSPAN_Write c m1 0 [FFS_B_FT_EOF c]
          let m3 := flashSPAN_Write c m2 sizeof_SBHDR (encFTEs FTEBuf)
          some (m3, fs, 1, newblock)
        else
          match FindUnusedBlock c af m1 fs with
          | none => none
          | some (nb, fs1) =>
            let m2 := flashSPAN_Write c m1 (nb * c.FLASH_BLOCKSIZE) [FFS_B_FT_EOF c]
            let m3 := flashSPAN_Write c m2 (nb * c.FLASH_BLOCKSIZE + sizeof_SBHDR) (encFTEs FTEBuf)
            let m4 := flashSPAN_Write c m3 (newblock * c.FLASH_BLOCKSIZE)
              (encSBHDR (padByte c) (FFS_B_FT_JUMP c) nb)
            some (m4, fs1, newblock, nb)
      match written with
      | none => none
      | some (m5, fs2, prevnewblock1, newblock1) =>
        if oldentry1 = FFS_FTENTRIESPERBLOCK c then some (RES_OK, m5, fs2)
        else ffs_cleanupFT_loop c af fuel m5 fs2 oldblock1 oldentry1 status1 jump1 prevnewblock1
          newblock1

/-- `ffs_cleanupFT` (`FFS_CLEANUP_FT_MODE == 0`). -/
def ffs_cleanupFT (c : Cfg) (fuel : Nat) (m : Mem) (fs : FFS_FS_t) :
    Option (RES_t × Mem × FFS_FS_t) :=
  ffs_cleanupFT_loop c fuel fuel m { fs with GetFileCounter := 0 } 0 0 (m 0) (rd16 m offsetof_jump)
    0 0

/-- The `for` loop of `ffs_countGarbageFTE` over the entries of one table block.  The
first component tells whether the function returned from inside the loop. -/
def ffs_countGarbageFTE_scan (c : Cfg) (m : Mem) (block : Nat) : Nat → Nat → Nat → Bool × Nat
  | 0, _, garbagecount => (false, garbagecount)
  | k + 1, entry, garbagecount =>
    let startblock := rd16 m (FFS_ENTRYADDR c block entry)
    if startblock = FFS_NULL16 c then
      ffs_countGarbageFTE_scan c m block k (entry + 1) ((garbagecount + 1) % 65536)
    else if startblock = FFS_UNINIT16 c then (true, garbagecount)
    else ffs_countGarbageFTE_scan c m block k (entry + 1) garbagecount

/-- The `do ... while` loop of `ffs_countGarbageFTE` over the chain of table blocks. -/
def ffs_countGarbageFTE_loop (c : Cfg) (m : Mem) : Nat → Nat → Nat → Option Nat
  | 0, _, _ => none
  | fuel + 1, block, garbagecount =>
    match ffs_countGarbageFTE_scan c m block (FFS_FTENTRIESPERBLOCK c) 0 garbagecount with
    | (true, g) => some g
    | (false, g) =>
      if m (block * c.FLASH_BLOCKSIZE) = FFS_B_FT_JUMP c then
        ffs_countGarbageFTE_loop c m fuel (rd16 m (block * c.FLASH_BLOCKSIZE + offsetof_jump)) g
      else some g

/-- `ffs_countGarbageFTE`. -/
def ffs_countGarbageFTE (c : Cfg) (fuel : Nat) (m : Mem) : Option Nat :=
  ffs_countGarbageFTE_loop c m fuel 0 0

/-- The `while (FindUnusedBlock() != firstblock)` loop of `ffs_blocksFree`. -/
def ffs_blocksFree_loop (c : Cfg) (af : Nat) (m : Mem) (firstblock : Nat) :
    Nat → FFS_FS_t → Nat → Option (Nat × FFS_FS_t)
  | 0, _, _ => none
  | fuel + 1, fs, freecount =>
    match FindUnusedBlock c af m fs with
    | none => none
    | some (b, fs1) =>
      if b ≠ firstblock then ffs_blocksFree_loop c af m firstblock fuel fs1 ((freecount + 1) % 65536)
      else some (freecount, fs1)

/-- `ffs_blocksFree`: the count and the filesystem object. -/
def ffs_blocksFree (c : Cfg) (fuel : Nat) (m : Mem) (fs : FFS_FS_t) : Option (Nat × FFS_FS_t) :=
  match FindUnusedBlock c fuel m fs with
  | none => none
  | some (firstblock, fs1) =>
    if firstblock = 0 then some (0, fs1)
    else
      match ffs_blocksFree_loop c fuel m firstblock fuel fs1 1 with
      | none => none
      | some (freecount, fs2) =>
        some (freecount, { fs2 with BlockSearchStart := (firstblock + 65535) % 65536 })

/-- The block-erasing `while` loop of `ffs_remove`; `status` and `jump` are the
fields of `SBHDR`. -/
def ffs_remove_erase (c : Cfg) : Nat → Mem → Nat → Nat → Option Mem
  | 0, _, _, _ => none
  | fuel + 1, m, status, jump =>
    if status = FFS_B_JUMP c then
      ffs_remove_erase c fuel (flashSPAN_EraseBlock c m jump) (m (jump * c.FLASH_BLOCKSIZE))
        (rd16 m (jump * c.FLASH_BLOCKSIZE + offsetof_jump))
    else some m

/-- `ffs_remove`. -/
def ffs_remove (c : Cfg) (fuel : Nat) (m : Mem) (filename : List Nat) : Option (RES_t × Mem) :=
  match LookupFile c fuel m filename with
  | none => none
  | some (result, FTEI) =>
    if result = RES_OK then
      let block := FTEI.FTE.startblock
      let m1 := flashSPAN_Write c m FTEI.fteAddr (enc16 (FFS_NULL16 c))
      let status := m1 (block * c.FLASH_BLOCKSIZE)
      let jump := rd16 m1 (block * c.FLASH_BLOCKSIZE + offsetof_jump)
      let m2 := flashSPAN_EraseBlock c m1 block
      (ffs_remove_erase c fuel m2 status jump).map (fun m3 => (RES_OK, m3))
    else some (RES_OK, m)

/-- The first `while` loop of `ffs_getFile`, which walks to the table block of the
counter: `none` when the chain ends before (the function returns `RES_END`),
otherwise the block and the counter value of its first entry. -/
def ffs_getFile_jump (c : Cfg) (m : Mem) (GetFileCounter : Nat) :
    Nat → Nat → Nat → Option (Option (Nat × Nat))
  | 0, _, _ => none
  | fuel + 1, block, counter =>
    if GetFileCounter ≥ counter + FFS_FTENTRIESPERBLOCK c then
      if m (block * c.FLASH_BLOCKSIZE) ≠ FFS_B_FT_JUMP c then some none
      else ffs_getFile_jump c m GetFileCounter fuel
        (rd16 m (block * c.FLASH_BLOCKSIZE + offsetof_jump))
        ((counter + FFS_FTENTRIESPERBLOCK c) % 65536)
    else some (some (block, counter))

/-- The `for` loop of `ffs_getFile` over the entries of one table block from `entry`
on: `none` when the loop ends, `some none` for the never-used entry, otherwise the
valid entry and its index. -/
def ffs_getFile_scan (c : Cfg) (m : Mem) (block : Nat) :
    Nat → Nat → Option (Option (FFS_FTE_t × Nat))
  | 0, _ => none
  | k + 1, entry =>
    let FTE := readFTE m (FFS_ENTRYADDR c block entry)
    if FTE.startblock = FFS_NULL16 c then ffs_getFile_scan c m block k (entry + 1)
    else if FTE.startblock = FFS_UNINIT16 c then some none
    else some (some (FTE, entry))

/-- The `do ... while` loop of `ffs_getFile`; `filename` is the buffer of the
caller. -/
def ffs_getFile_loop (c : Cfg) (m : Mem) (fs : FFS_FS_t) (filename : List Nat) :
    Nat → Nat → Nat → Nat → Option (RES_t × FFS_FS_t × List Nat)
  | 0, _, _, _ => none
  | fuel + 1, block, counter, startentry =>
    match ffs_getFile_scan c m block (FFS_FTENTRIESPERBLOCK c - startentry) startentry with
    | some none => some (RES_END, { fs with GetFileCounter := 0 }, filename)
    | some (some (FTE, entry)) =>
      some (RES_OK, { fs with GetFileCounter := (counter + entry + 1) % 65536 },
        strcpy filename FTE.filename)
    | none =>
      if m (block * c.FLASH_BLOCKSIZE) = FFS_B_FT_JUMP c then
        ffs_getFile_loop c m fs filename fuel (rd16 m (block * c.FLASH_BLOCKSIZE + offsetof_jump))
          ((counter + FFS_FTENTRIESPERBLOCK c) % 65536) 0
      else some (RES_OK, { fs with GetFileCounter := 0 }, filename)

/-- `ffs_getFile`; a `NULL` pointer is `none`, otherwise `filename` is the buffer of
the caller, and the result holds the buffer after the call. -/
def ffs_getFile (c : Cfg) (fuel : Nat) (m : Mem) (fs : FFS_FS_t) (filename : Option (List Nat)) :
    Option (RES_t × FFS_FS_t × Option (List Nat)) :=
  match filename with
  | none => some (RES_OK, { fs with GetFileCounter := 0 }, none)
  | some buf =>
    match ffs_getFile_jump c m fs.GetFileCounter fuel 0 0 with
    | none => none
    | some none => some (RES_END, { fs with GetFileCounter := 0 }, some buf)
    | some (some (block, counter)) =>
      (ffs_getFile_loop c m fs buf fuel block counter
        (fs.GetFileCounter % FFS_FTENTRIESPERBLOCK c)).map (fun r => (r.1, r.2.1, some r.2.2))

/-! ## Specification vocabulary -/

/-- Admissible configurations: a supported erase value, a block large enough for one
file table entry, and sizes that fit the C integer types. -/
def Cfg.ok (c : Cfg) : Prop :=
  (c.FFS_ERASE_VAL = 0xFF ∨ c.FFS_ERASE_VAL = 0) ∧ 20 ≤ c.FLASH_BLOCKSIZE ∧
  c.FLASH_BLOCKSIZE ≤ 65536 ∧ c.BlockCount ≤ 65535 ∧
  c.BlockCount * c.FLASH_BLOCKSIZE ≤ 4294967296


/-- A data block of a file: its block index and the payloads of its chunks. -/
structure Blk where
  idx : Nat
  chunks : List (List Nat)

/-- Number of file bytes held by a list of chunk payloads. -/
def payloadLen (cs : List (List Nat)) : Nat := cs.flatten.length

/-- The content of a file, read off its chain of blocks. -/
def fileBytes (bs : List Blk) : List Nat := (bs.map (fun b => b.chunks.flatten)).flatten

/-- The block that follows in the chain, if any. -/
def nextIdx (bs : List Blk) : Option Nat := bs.head?.map Blk.idx

/-- The finalized chunks with payloads `cs` are laid out from address `a` on in the
block that starts at `base`.  Behind the last chunk the block is either full (no
room for a header and one byte) or, in the last block of a chain only, the next
chunk header is still unwritten. -/
def ChunkTail (c : Cfg) (m : Mem) (base : Nat) (last : Bool) : Nat → List (List Nat) → Prop
  | a, [] => a + 2 ≤ base + c.FLASH_BLOCKSIZE → last = true ∧ m a = FFS_UNINIT8 c
  | a, ch :: rest =>
    1 ≤ ch.length ∧ ch.length ≤ 253 ∧ a + 1 + ch.length ≤ base + c.FLASH_BLOCKSIZE ∧
    m a = ch.length + 1 ∧ flashSPAN_Read m (a + 1) ch.length = ch ∧
    ChunkTail c m base last (a + 1 + ch.length) rest

/-- The header of the block at `base`: a jump to `j`, or the end-of-file status with
the jump field (offsets 2 and 3) still erased. -/
def HdrOK (c : Cfg) (m : Mem) (base : Nat) : Option Nat → Prop
  | some j => m base = FFS_B_JUMP c ∧ rd16 m (base + offsetof_jump) = j
  | none => m base = FFS_B_EOF c ∧ m (base + 2) = FFS_UNINIT8 c ∧ m (base + 3) = FFS_UNINIT8 c

/-- Block `b` is a well-formed data block whose first byte has virtual address `v`
and whose successor in the chain is `nxt`. -/
def BlockOK (c : Cfg) (m : Mem) (b : Blk) (v : Nat) (nxt : Option Nat) : Prop :=
  rd32 m (b.idx * c.FLASH_BLOCKSIZE + offsetof_virt_addr) = v ∧
  HdrOK c m (b.idx * c.FLASH_BLOCKSIZE) nxt ∧
  ChunkTail c m (b.idx * c.FLASH_BLOCKSIZE) nxt.isNone
    (b.idx * c.FLASH_BLOCKSIZE + sizeof_BHDR) b.chunks

/-- The blocks `bs` form a well-formed jump chain on the device, the first byte of
the first block having virtual address `v`. -/
def ChainOK (c : Cfg) (m : Mem) : Nat → List Blk → Prop
  | _, [] => True
  | v, b :: rest => BlockOK c m b v (nextIdx rest) ∧ ChainOK c m (v + payloadLen b.chunks) rest

/-- The read handle `F` stands somewhere in the chunks `cs` laid out from address
`a` (virtual address `v`): inside a chunk with bytes left, or parked behind the last
chunk of the last block. -/
def PosChunks (c : Cfg) (F : FFS_FILE_t) (base : Nat) (last : Bool) :
    Nat → Nat → List (List Nat) → Prop
  | a, v, [] => last = true ∧ F.nBytes = 0 ∧ F.virt_addr = v ∧
      F.hw_addr = (if a + 2 ≤ base + c.FLASH_BLOCKSIZE then a else base)
  | a, v, ch :: rest =>
    (∃ o, o < ch.length ∧ F.hw_addr = a + 1 + o ∧ F.nBytes + o = ch.length ∧ F.virt_addr = v + o) ∨
    PosChunks c F base last (a + 1 + ch.length) (v + ch.length) rest

/-- The read handle `F` stands somewhere in the chain `bs`. -/
def PosChain (c : Cfg) (F : FFS_FILE_t) : Nat → List Blk → Prop
  | _, [] => False
  | v, b :: rest =>
    PosChunks c F (b.idx * c.FLASH_BLOCKSIZE) rest.isEmpty
      (b.idx * c.FLASH_BLOCKSIZE + sizeof_BHDR) v b.chunks ∨
    PosChain c F (v + payloadLen b.chunks) rest

/-- `F` is a read-mode handle on the well-formed file with block chain `bs`. -/
def RdHandleOK (c : Cfg) (m : Mem) (bs : List Blk) (F : FFS_FILE_t) : Prop :=
  ChainOK c m 0 bs ∧ F.filemode = FFS_RD ∧ nextIdx bs = some F.startblock ∧ PosChain c F 0 bs

/-- Outcome of the read loop started at offset `o` of the chunk `ch` that lies at
address `a` (virtual address `v`) with `nB` bytes left, `need` bytes requested:
`r` is the result of the loop. -/
def FreadLoopPost (c : Cfg) (FILE : FFS_FILE_t) (done need : Nat) (buf : List Nat) (blk a : Nat)
    (ch : List Nat) (rest : List (List Nat)) (bs : List Blk) (o nB v : Nat)
    (r : Option (Nat × List Nat × FFS_FILE_t)) : Prop :=
  ∃ k F1, r = some (done + k, buf ++ (ch.drop o ++ rest.flatten ++ fileBytes bs).take k, F1) ∧
    k ≤ need ∧ k ≤ nB + payloadLen rest + (fileBytes bs).length ∧
    (k = need ∨ k = nB + payloadLen rest + (fileBytes bs).length) ∧
    F1.virt_addr = v + o + k ∧ F1.filemode = FILE.filemode ∧ F1.startblock = FILE.startblock ∧
    (PosChunks c F1 (blk * c.FLASH_BLOCKSIZE) bs.isEmpty a v (ch :: rest) ∨
     PosChain c F1 (v + ch.length + payloadLen rest) bs)

/-- Outcome of `ffs_fread` on a handle that stands in the stream `s` whose first
byte has virtual address `v`. -/
def FreadPost (F : FFS_FILE_t) (n v : Nat) (s : List Nat)
    (r : Option (Nat × List Nat × FFS_FILE_t)) (F1 : FFS_FILE_t) : Prop :=
  v ≤ F.virt_addr ∧ F.virt_addr ≤ v + s.length ∧
  r = some (min n (v + s.length - F.virt_addr), (s.drop (F.virt_addr - v)).take n, F1) ∧
  F1.virt_addr = F.virt_addr + min n (v + s.length - F.virt_addr) ∧
  F1.filemode = F.filemode ∧ F1.startblock = F.startblock


/-- The chain `ts`, whose first byte has virtual address `vt`, is a suffix of the
chain `bs`, whose first byte has virtual address `v`. -/
def Lifts (v : Nat) (bs : List Blk) (vt : Nat) (ts : List Blk) : Prop :=
  ∃ pre, bs = pre ++ ts ∧ vt = v + (fileBytes pre).length

/-- The chunks of the last block of a chain. -/
def lastChunks (bs : List Blk) : List (List Nat) :=
  match bs.getLast? with
  | some b => b.chunks
  | none => []

/-- The file table entry number `e` of table block `block`, with its address. -/
def fteiAt (c : Cfg) (m : Mem) (block e : Nat) : FFS_FTE_INFO_t :=
  { FTE := readFTE m (FFS_ENTRYADDR c block e), fteAddr := FFS_ENTRYADDR c block e }

/-- All entry slots of the chain `ft` of table blocks, in lookup order. -/
def tableEntries (c : Cfg) (m : Mem) (ft : List Nat) : List FFS_FTE_INFO_t :=
  (ft.map (fun b => (List.range (FFS_FTENTRIESPERBLOCK c)).map (fteiAt c m b))).flatten

/-- The live entries of a list of entry slots: those in front of the first
never-used slot that are not tombstoned. -/
def liveOf (c : Cfg) (es : List FFS_FTE_INFO_t) : List FFS_FTE_INFO_t :=
  (es.takeWhile (fun e => e.FTE.startblock != FFS_UNINIT16 c)).filter
    (fun e => e.FTE.startblock != FFS_NULL16 c)

/-- The live entries of the file table. -/
def liveEntries (c : Cfg) (m : Mem) (ft : List Nat) : List FFS_FTE_INFO_t :=
  liveOf c (tableEntries c m ft)

/-- The blocks `ft` are the chain of file table blocks on the device. -/
def FTChainOK (c : Cfg) (m : Mem) : List Nat → Prop
  | [] => False
  | [b] => m (b * c.FLASH_BLOCKSIZE) ≠ FFS_B_FT_JUMP c
  | b :: b2 :: rest =>
    m (b * c.FLASH_BLOCKSIZE) = FFS_B_FT_JUMP c ∧
    rd16 m (b * c.FLASH_BLOCKSIZE + offsetof_jump) = b2 ∧ FTChainOK c m (b2 :: rest)

/-- The entry scan of `LookupFile` as a function of the list of entry slots. -/
def scanList (c : Cfg) (filename : List Nat) :
    List FFS_FTE_INFO_t → FFS_FTE_INFO_t → Option RES_t × FFS_FTE_INFO_t
  | [], last => (none, last)
  | e :: es, _ =>
    if e.FTE.startblock = FFS_NULL16 c then scanList c filename es e
    else if e.FTE.startblock = FFS_UNINIT16 c then (some RES_NOTFOUND, e)
    else if cstr filename = cstr e.FTE.filename then (some RES_OK, e)
    else scanList c filename es e

/-- The result of `LookupFile` as a function of the list of entry slots. -/
def lookupList (c : Cfg) (filename : List Nat) (es : List FFS_FTE_INFO_t)
    (last : FFS_FTE_INFO_t) : RES_t × FFS_FTE_INFO_t :=
  match scanList c filename es last with
  | (some r, e) => (r, e)
  | (none, e) => (RES_NOTFOUND, e)

/-- The handle `ffs_fopen` builds for reading the file that starts at block
`startblock`. -/
def rdHandle (c : Cfg) (m : Mem) (startblock : Nat) : FFS_FILE_t :=
  if m (startblock * c.FLASH_BLOCKSIZE + sizeof_BHDR) = FFS_UNINIT8 c then
    { filemode := FFS_RD, startblock := startblock, virt_addr := 0,
      hw_addr := startblock * c.FLASH_BLOCKSIZE + sizeof_BHDR, nBytes := 0 }
  else
    { filemode := FFS_RD, startblock := startblock, virt_addr := 0,
      hw_addr := startblock * c.FLASH_BLOCKSIZE + sizeof_BHDR + 1,
      nBytes := (m (startblock * c.FLASH_BLOCKSIZE + sizeof_BHDR) + 256 - sizeof_CHDR) % 256 }

/-- The file name `filename` has a live entry in the file table. -/
def HasFile (c : Cfg) (m : Mem) (ft : List Nat) (filename : List Nat) : Prop :=
  ∃ e ∈ liveEntries c m ft, cstr filename = cstr e.FTE.filename

/-- Every unused block of the device is entirely erased. -/
def FreeOK (c : Cfg) (m : Mem) : Prop :=
  ∀ k, k < c.BlockCount → m (k * c.FLASH_BLOCKSIZE) = FFS_UNINIT8 c →
    ∀ o, o < c.FLASH_BLOCKSIZE → m (k * c.FLASH_BLOCKSIZE + o) = FFS_UNINIT8 c

/-- No block that the allocator may hand out is unused. -/
def NoFree (c : Cfg) (m : Mem) : Prop :=
  ∀ k, 1 ≤ k → k < c.BlockCount → m (k * c.FLASH_BLOCKSIZE) ≠ FFS_B_UNUSED c

/-- Outcome `r` of `FindUnusedBlock` on device `m` with filesystem object `fs`: block 0
when no block is unused, otherwise an unused block, which becomes the search cursor. -/
def AllocPost (c : Cfg) (m : Mem) (fs : FFS_FS_t) (r : Option (Nat × FFS_FS_t)) : Prop :=
  ∃ b fs1, r = some (b, fs1) ∧ fs1.GetFileCounter = fs.GetFileCounter ∧
    fs1.BlockSearchStart < c.BlockCount ∧
    ((b = 0 ∧ fs1 = fs ∧ NoFree c m) ∨
     (1 ≤ b ∧ b < c.BlockCount ∧ m (b * c.FLASH_BLOCKSIZE) = FFS_B_UNUSED c ∧
      fs1.BlockSearchStart = b))

/-- The address behind the chunks `cs` laid out from address `a`. -/
def chunksEnd (a : Nat) (cs : List (List Nat)) : Nat :=
  a + (cs.map (fun ch => ch.length + 1)).sum

/-- The devices `m` and `m1` hold the same bytes at the addresses `lo .. hi-1`. -/
def AgreeOn (m m1 : Mem) (lo hi : Nat) : Prop := ∀ x, lo ≤ x → x < hi → m1 x = m x

/-- A segment of a jump chain: like `ChainOK`, but the last block of the segment
continues to the block `nxt`. -/
def ChainSeg (c : Cfg) (m : Mem) : Nat → List Blk → Option Nat → Prop
  | _, [], _ => True
  | v, b :: rest, nxt =>
    BlockOK c m b v (match rest with | [] => nxt | b2 :: _ => some b2.idx) ∧
    ChainSeg c m (v + payloadLen b.chunks) rest nxt

/-- The device changed from `m` to `m1` only inside the blocks listed in `S`. -/
def Touched (c : Cfg) (m m1 : Mem) (S : List Nat) : Prop :=
  ∀ x, x / c.FLASH_BLOCKSIZE ∉ S → m1 x = m x

/-- State of the allocator that the file operations maintain: unused blocks are
erased and the search cursor is a block index. -/
def FsOK (c : Cfg) (m : Mem) (fs : FFS_FS_t) : Prop :=
  FreeOK c m ∧ fs.BlockSearchStart < c.BlockCount

/-- Writing position inside the last block `t` of the chain `pre ++ [t]`: the open
chunk with payload `cur` (`nB` bytes with its header) starts at `hw`, right behind the
finalized chunks; its header and the `rem` bytes behind its payload are still
erased. -/
def WrInv (c : Cfg) (m : Mem) (pre : List Blk) (t : Blk) (cur : List Nat) (hw nB rem : Nat) :
    Prop :=
  ChainSeg c m 0 pre (some t.idx) ∧ BlockOK c m t (fileBytes pre).length none ∧
  hw = chunksEnd (t.idx * c.FLASH_BLOCKSIZE + 8) t.chunks ∧ nB = cur.length + 1 ∧
  hw + nB + rem = t.idx * c.FLASH_BLOCKSIZE + c.FLASH_BLOCKSIZE ∧
  m hw = FFS_UNINIT8 c ∧ flashSPAN_Read m (hw + 1) cur.length = cur ∧
  (∀ x, hw + nB ≤ x → x < t.idx * c.FLASH_BLOCKSIZE + c.FLASH_BLOCKSIZE → m x = FFS_UNINIT8 c)

/-- Position of an append-mode handle `F` on the file with chain `bs` and unflushed
bytes `cur`: parked on a full last block, or inside the open chunk. -/
def AppendPos (c : Cfg) (m : Mem) (bs : List Blk) (cur : List Nat) (F : FFS_FILE_t) : Prop :=
  ∃ pre t, bs = pre ++ [t] ∧
    ((F.nBytes = 0 ∧ cur = [] ∧ F.hw_addr = t.idx * c.FLASH_BLOCKSIZE ∧ ChainOK c m 0 bs ∧
      t.idx * c.FLASH_BLOCKSIZE + c.FLASH_BLOCKSIZE
        < chunksEnd (t.idx * c.FLASH_BLOCKSIZE + 8) t.chunks + 2) ∨
     (∃ rem, 1 ≤ rem ∧ F.nBytes ≤ 253 ∧ WrInv c m pre t cur F.hw_addr F.nBytes rem))

/-- `F` is an append-mode handle on the file with chain `bs`; `cur` are the bytes
written into the open chunk and not yet flushed. -/
def AppendOK (c : Cfg) (m : Mem) (bs : List Blk) (cur : List Nat) (F : FFS_FILE_t) : Prop :=
  F.filemode = FFS_WR_APPEND ∧ nextIdx bs = some F.startblock ∧
  F.virt_addr = (fileBytes bs).length + cur.length ∧ AppendPos c m bs cur F

/-- Outcome `r` of writing `data` through a handle on the file `bs` with unflushed
bytes `cur`, `done` bytes having been written before. -/
def WritePost (c : Cfg) (FILE : FFS_FILE_t) (m : Mem) (fs : FFS_FS_t) (bs : List Blk)
    (cur data : List Nat) (done : Nat) (r : Option (Nat × Mem × FFS_FS_t × FFS_FILE_t)) : Prop :=
  ∃ k m1 fs1 F1 bs1 cur1 new, r = some (done + k, m1, fs1, F1) ∧ k ≤ data.length ∧
    F1.filemode = FILE.filemode ∧ F1.startblock = FILE.startblock ∧
    F1.virt_addr = (fileBytes bs).length + cur.length + k ∧
    AppendPos c m1 bs1 cur1 F1 ∧
    fileBytes bs1 ++ cur1 = fileBytes bs ++ cur ++ data.take k ∧
    (k = data.length ∨ (NoFree c m1 ∧ F1.nBytes = 0)) ∧
    FsOK c m1 fs1 ∧ fs1.GetFileCounter = fs.GetFileCounter ∧
    bs1.map Blk.idx = bs.map Blk.idx ++ new ∧
    (∀ k ∈ new, m (k * c.FLASH_BLOCKSIZE) = FFS_UNINIT8 c ∧ 1 ≤ k ∧ k < c.BlockCount) ∧
    Touched c m m1 (bs1.map Blk.idx)

/-- Specification of the write loop for a given amount of fuel: started in a writing
position with room in chunk and block, it stores the data as far as blocks can be
allocated. -/
def FwriteLoopSpec (c : Cfg) (af : Nat) (FILE : FFS_FILE_t) (fuel : Nat) : Prop :=
  ∀ (data : List Nat) (m : Mem) (fs : FFS_FS_t) (pre : List Blk) (t : Blk) (cur : List Nat)
    (hw nB rem done : Nat),
    WrInv c m pre t cur hw nB rem → nB ≤ 253 → 1 ≤ rem → FsOK c m fs →
    (∀ x ∈ data, x < 256) →
    (fileBytes (pre ++ [t])).length + cur.length + data.length < 4294967296 →
    data.length < fuel →
    WritePost c FILE m fs (pre ++ [t]) cur data done
      (ffs_fwrite_loop c af FILE fuel m fs data done t.idx rem hw nB
        ((fileBytes (pre ++ [t])).length + cur.length))

/-- The file with chain `bs` is cleanly closed: the chain is well-formed and its
last block is full or erased behind its last chunk. -/
def ClosedOK (c : Cfg) (m : Mem) (bs : List Blk) : Prop :=
  ChainOK c m 0 bs ∧ ∃ pre t, bs = pre ++ [t] ∧
    (t.idx * c.FLASH_BLOCKSIZE + c.FLASH_BLOCKSIZE
        < chunksEnd (t.idx * c.FLASH_BLOCKSIZE + 8) t.chunks + 2 ∨
     ∀ x, chunksEnd (t.idx * c.FLASH_BLOCKSIZE + 8) t.chunks ≤ x →
       x < t.idx * c.FLASH_BLOCKSIZE + c.FLASH_BLOCKSIZE → m x = FFS_UNINIT8 c)

/-- The first block of the chain `pre ++ [t]`. -/
def headIdx (pre : List Blk) (t : Blk) : Nat :=
  match pre with
  | [] => t.idx
  | p :: _ => p.idx

/-- The last block of the chain `bs` has no room for a further chunk. -/
def LastFull (c : Cfg) (bs : List Blk) : Prop :=
  ∃ pre t, bs = pre ++ [t] ∧
    t.idx * c.FLASH_BLOCKSIZE + c.FLASH_BLOCKSIZE
      < chunksEnd (t.idx * c.FLASH_BLOCKSIZE + 8) t.chunks + 2

/-- The file table is well-formed: its blocks form a chain from block 0 and each
carries a table status. -/
def TableOK (c : Cfg) (m : Mem) (ft : List Nat) : Prop :=
  FTChainOK c m (0 :: ft) ∧ ∀ b ∈ 0 :: ft, FFS_TST_FT c (m (b * c.FLASH_BLOCKSIZE)) = true

/-- The file table holds the cleanly closed file `filename` with block chain `bs`:
every live entry of that name points to the first block of the chain. -/
def FileOK (c : Cfg) (m : Mem) (ft : List Nat) (filename : List Nat) (bs : List Blk) : Prop :=
  TableOK c m ft ∧ HasFile c m (0 :: ft) filename ∧
  (∀ e ∈ liveEntries c m (0 :: ft), cstr filename = cstr e.FTE.filename →
    nextIdx bs = some e.FTE.startblock) ∧
  ClosedOK c m bs

/-! ## Specification vocabulary: allocator scan order and free blocks -/

/-- Block `b` is the first unused block that the scan of the allocator meets when it
starts behind the cursor `s`: the first one behind `s`, or, when there is none behind
`s`, the first one from block 1 on. -/
def FirstFreeFrom (c : Cfg) (m : Mem) (s b : Nat) : Prop :=
  m (b * c.FLASH_BLOCKSIZE) = FFS_B_UNUSED c ∧ 1 ≤ b ∧ b < c.BlockCount ∧
  ((s < b ∧ ∀ k, s < k → k < b → m (k * c.FLASH_BLOCKSIZE) ≠ FFS_B_UNUSED c) ∨
   (b ≤ s ∧ (∀ k, s < k → k < c.BlockCount → m (k * c.FLASH_BLOCKSIZE) ≠ FFS_B_UNUSED c) ∧
    ∀ k, 1 ≤ k → k < b → m (k * c.FLASH_BLOCKSIZE) ≠ FFS_B_UNUSED c))

/-- Exact outcome `r` of `FindUnusedBlock`: block 0 with the filesystem object
unchanged when no block is unused, otherwise the first unused block in scan order,
which becomes the search cursor. -/
def AllocExact (c : Cfg) (m : Mem) (fs : FFS_FS_t) (r : Option (Nat × FFS_FS_t)) : Prop :=
  ∃ b fs1, r = some (b, fs1) ∧
    ((b = 0 ∧ fs1 = fs ∧ NoFree c m) ∨
     (FirstFreeFrom c m fs.BlockSearchStart b ∧ fs1 = { fs with BlockSearchStart := b }))

/-- The unused blocks among the blocks `1 .. BlockCount-1`, in ascending order. -/
def freeBlocks (c : Cfg) (m : Mem) : List Nat :=
  (List.range' 1 (c.BlockCount - 1)).filter
    (fun k => decide (m (k * c.FLASH_BLOCKSIZE) = FFS_B_UNUSED c))

/-- Number of unused blocks among the blocks `1 .. k`. -/
def freeUpTo (c : Cfg) (m : Mem) : Nat → Nat
  | 0 => 0
  | k + 1 => freeUpTo c m k + (if m ((k + 1) * c.FLASH_BLOCKSIZE) = FFS_B_UNUSED c then 1 else 0)

/-! ## Specification vocabulary: file table contents -/

/-- Number of tombstoned entries among the entry slots `es` in front of the first
never-used slot. -/
def garbageOf (c : Cfg) (es : List FFS_FTE_INFO_t) : Nat :=
  ((es.takeWhile (fun e => e.FTE.startblock != FFS_UNINIT16 c)).filter
    (fun e => e.FTE.startblock == FFS_NULL16 c)).length

/-- Every cell of the device holds a byte. -/
def Bytes (m : Mem) : Prop := ∀ a, m a < 256

/-- The entry slot at address `a`, as it reads on the device. -/
def slotAt (m : Mem) (a : Nat) : FFS_FTE_INFO_t := { FTE := readFTE m a, fteAddr := a }

/-- The entry slot at address `a` is entirely erased. -/
def SlotErased (c : Cfg) (m : Mem) (a : Nat) : Prop :=
  ∀ o, o < sizeof_FTE → m (a + o) = FFS_UNINIT8 c

/-- The filename field of a file table entry after the name `src`, which fits into the
field with its terminator, has been copied into it: the name, the terminator, and
what the field `dst` held behind them. -/
def nameField (dst src : List Nat) : List Nat :=
  (cstr src ++ [0] ++ dst.drop ((cstr src).length + 1)).take dst.length

/-- No two live entries of the file table carry the same name. -/
def NamesNodup (c : Cfg) (m : Mem) (ft : List Nat) : Prop :=
  ((liveEntries c m (0 :: ft)).map (fun e => cstr e.FTE.filename)).Nodup

/-- The blocks `L` are a chain of file table blocks: each block jumps to the next one,
and the last block has the status `FFS_B_FT_EOF` with its jump field still erased. -/
def FTChainWF (c : Cfg) (m : Mem) : List Nat → Prop
  | [] => False
  | [b] => m (b * c.FLASH_BLOCKSIZE) = FFS_B_FT_EOF c ∧
      m (b * c.FLASH_BLOCKSIZE + 2) = FFS_UNINIT8 c ∧ m (b * c.FLASH_BLOCKSIZE + 3) = FFS_UNINIT8 c
  | b :: b2 :: rest =>
    m (b * c.FLASH_BLOCKSIZE) = FFS_B_FT_JUMP c ∧
    rd16 m (b * c.FLASH_BLOCKSIZE + offsetof_jump) = b2 ∧ FTChainWF c m (b2 :: rest)

/-- The entry slots `es` consist of used slots (live entries and tombstones) followed
by entirely erased slots. -/
def SlotsWF (c : Cfg) (m : Mem) (es : List FFS_FTE_INFO_t) : Prop :=
  ∃ used free, es = used ++ free ∧ (∀ x ∈ used, x.FTE.startblock ≠ FFS_UNINIT16 c) ∧
    ∀ x ∈ free, SlotErased c m x.fteAddr

/-- Well-formed file table with the chain `0 :: ft` of table blocks: the blocks are
chained from block 0 on and lie on the device, and the entries have been written in
lookup order, so that everything behind the last used slot is erased. -/
def TableWF (c : Cfg) (m : Mem) (ft : List Nat) : Prop :=
  FTChainWF c m (0 :: ft) ∧ (∀ b ∈ ft, b < c.BlockCount) ∧ SlotsWF c m (tableEntries c m (0 :: ft))

/-- The entry `e1` of device `m1` stands where the first never-used slot of the table
`0 :: ft` of device `m` was; when that table had no never-used slot, it stands in slot 0
of a block `nb` that was unused and has been chained to the table (`ft1 = ft ++ [nb]`). -/
def CreatedAt (c : Cfg) (m m1 : Mem) (ft ft1 : List Nat) (e1 : FFS_FTE_INFO_t) : Prop :=
  (∃ used e free, tableEntries c m (0 :: ft) = used ++ e :: free ∧
      (∀ x ∈ used, x.FTE.startblock ≠ FFS_UNINIT16 c) ∧ e.FTE.startblock = FFS_UNINIT16 c ∧
      ft1 = ft ∧ e1.fteAddr = e.fteAddr ∧ tableEntries c m1 (0 :: ft) = used ++ e1 :: free) ∨
  ((∀ x ∈ tableEntries c m (0 :: ft), x.FTE.startblock ≠ FFS_UNINIT16 c) ∧
    ∃ nb free, ft1 = ft ++ [nb] ∧ 1 ≤ nb ∧ nb < c.BlockCount ∧
      m (nb * c.FLASH_BLOCKSIZE) = FFS_B_UNUSED c ∧ e1.fteAddr = FFS_ENTRYADDR c nb 0 ∧
      tableEntries c m1 (0 :: ft1) = tableEntries c m (0 :: ft) ++ e1 :: free ∧
      ∀ x ∈ free, x.FTE.startblock = FFS_UNINIT16 c)

/-- Outcome `res` of `ffs_fopen` in a write mode on a name without live entry.  The
call fails with `RES_FULL` only when no unused block is left; otherwise the file has
the new live entry `e1` behind all live entries, its data block `b` was unused, and
the handle is ready for appending at offset 0.  Blocks that are neither table blocks
nor unused are not touched. -/
def CreatePost (c : Cfg) (m : Mem) (fs : FFS_FS_t) (F : FFS_FILE_t) (ft : List Nat)
    (filename : List Nat) (res : Option (RES_t × Mem × FFS_FS_t × Option FFS_FILE_t)) : Prop :=
  ∃ r m1 fs1 F1 ft1, res = some (r, m1, fs1, some F1) ∧
    Bytes m1 ∧ TableWF c m1 ft1 ∧ FsOK c m1 fs1 ∧ fs1.GetFileCounter = fs.GetFileCounter ∧
    (∀ x, x / c.FLASH_BLOCKSIZE ∉ 0 :: ft →
      m (x / c.FLASH_BLOCKSIZE * c.FLASH_BLOCKSIZE) ≠ FFS_B_UNUSED c → m1 x = m x) ∧
    ((r = RES_FULL ∧ NoFree c m1 ∧ F1 = F ∧
        liveEntries c m1 (0 :: ft1) = liveEntries c m (0 :: ft)) ∨
     (r = RES_OK ∧ ∃ b e1, 1 ≤ b ∧ b < c.BlockCount ∧
        m (b * c.FLASH_BLOCKSIZE) = FFS_B_UNUSED c ∧
        e1.FTE.startblock = b ∧ cstr e1.FTE.filename = cstr filename ∧
        liveEntries c m1 (0 :: ft1) = liveEntries c m (0 :: ft) ++ [e1] ∧
        AppendOK c m1 [{ idx := b, chunks := [] }] [] F1 ∧ F1.virt_addr = 0 ∧
        CreatedAt c m m1 ft ft1 e1))

/-- One call of `ffs_fopen` in a write mode that creates a file with a name other than
`filename` (or fails to, for lack of space), leading from the device and filesystem
object `s` to `s1`. -/
def CreatesOther (c : Cfg) (fuel : Nat) (filename : List Nat) (s s1 : Mem × FFS_FS_t) : Prop :=
  ∃ name2 mode F r F1 ft, TableWF c s.1 ft ∧ ¬ HasFile c s.1 (0 :: ft) name2 ∧
    cstr name2 ≠ cstr filename ∧ (cstr name2).length < FFS_FILENAME_LEN ∧
    (∀ x ∈ name2, x < 256) ∧ (mode = FFS_WR_APPEND ∨ mode = FFS_WR_REPLACE) ∧
    ffs_fopen c fuel s.1 s.2 (some F) name2 mode = some (r, s1.1, s1.2, F1)

/-- The entry slots that `ffs_cleanupFT` still has to read: those of the old table
block `ob` from entry `oe` on, then those of the following old blocks `rest`. -/
def remSlots (c : Cfg) (m : Mem) (ob oe : Nat) (rest : List Nat) : List FFS_FTE_INFO_t :=
  (List.range' oe (FFS_FTENTRIESPERBLOCK c - oe)).map (fteiAt c m ob) ++ tableEntries c m rest

/-- Block `b` reads on `m1` as on `m`, or is entirely erased on `m1`. -/
def KeptOrErased (c : Cfg) (m m1 : Mem) (b : Nat) : Prop :=
  (∀ o, o < c.FLASH_BLOCKSIZE → m1 (b * c.FLASH_BLOCKSIZE + o) = m (b * c.FLASH_BLOCKSIZE + o)) ∨
  (∀ o, o < c.FLASH_BLOCKSIZE → m1 (b * c.FLASH_BLOCKSIZE + o) = FFS_UNINIT8 c)

/-- Outcome `res` of the gathering loop of `ffs_cleanupFT`, started on device `m` at
entry `oe` of the old block `ob` (followed by the old blocks `rest`) with the entries
`buf` in the buffer: the buffer is filled up with the next live entries; old blocks
that have been read to their end are erased; either the old table is exhausted
(`oe1` is the number of entries per block), or the buffer is full and the loop stands
at entry `oe1` of the old block `ob1`, the old blocks from there on being untouched. -/
def GatherPost (c : Cfg) (m : Mem) (ob oe : Nat) (rest : List Nat) (buf : List FFS_FTE_t)
    (res : Option (Mem × Nat × Nat × Nat × Nat × List FFS_FTE_t)) : Prop :=
  ∃ m1 ob1 oe1 st1 j1 buf1, res = some (m1, ob1, oe1, st1, j1, buf1) ∧
    buf1 = buf ++ ((liveOf c (remSlots c m ob oe rest)).map (fun e => e.FTE)).take
      (FFS_FTENTRIESPERBLOCK c - buf.length) ∧
    Touched c m m1 (ob :: rest) ∧
    (∀ b ∈ ob :: rest, KeptOrErased c m m1 b) ∧
    (buf.length ≤ oe → ∀ o, o < c.FLASH_BLOCKSIZE → m1 (ob * c.FLASH_BLOCKSIZE + o) = FFS_UNINIT8 c) ∧
    ((oe1 = FFS_FTENTRIESPERBLOCK c ∧
      (liveOf c (remSlots c m ob oe rest)).length ≤ FFS_FTENTRIESPERBLOCK c - buf.length) ∨
     (oe1 < FFS_FTENTRIESPERBLOCK c ∧
      FFS_FTENTRIESPERBLOCK c - buf.length ≤ (liveOf c (remSlots c m ob oe rest)).length ∧
      ∃ pre rest1, ob :: rest = pre ++ ob1 :: rest1 ∧ (buf.length ≤ oe → pre ≠ []) ∧
        st1 = m1 (ob1 * c.FLASH_BLOCKSIZE) ∧
        j1 = rd16 m1 (ob1 * c.FLASH_BLOCKSIZE + offsetof_jump) ∧
        (∀ b ∈ ob1 :: rest1, ∀ o, o < c.FLASH_BLOCKSIZE →
          m1 (b * c.FLASH_BLOCKSIZE + o) = m (b * c.FLASH_BLOCKSIZE + o)) ∧
        liveOf c (remSlots c m ob1 oe1 rest1)
          = (liveOf c (remSlots c m ob oe rest)).drop (FFS_FTENTRIESPERBLOCK c - buf.length)))

/-- The frame of `ffs_cleanupFT`: what lies outside the blocks `OL` of the old table, in
blocks that were not unused on `m0`, reads on `m` as on `m0`. -/
def CleanFrame (c : Cfg) (m0 m : Mem) (OL : List Nat) : Prop :=
  ∀ x, x / c.FLASH_BLOCKSIZE ∉ OL →
    m0 (x / c.FLASH_BLOCKSIZE * c.FLASH_BLOCKSIZE) ≠ FFS_B_UNUSED c → m x = m0 x

/-- Outcome `res` of `ffs_cleanupFT` on the device `m0` with the old table blocks `OL`
and the live entries `V`: it returns `RES_OK`; the new table is a well-formed chain
`0 :: NT`; its slots hold the entries `V`, in order, followed by erased slots; the
allocator state is well-formed; and the frame holds. -/
def CleanPost (c : Cfg) (m0 : Mem) (OL : List Nat) (V : List FFS_FTE_t)
    (res : Option (RES_t × Mem × FFS_FS_t)) : Prop :=
  ∃ m1 fs1 NT used free, res = some (RES_OK, m1, fs1) ∧
    FTChainWF c m1 (0 :: NT) ∧ (∀ b ∈ NT, b < c.BlockCount) ∧ Bytes m1 ∧ FreeOK c m1 ∧
    fs1.BlockSearchStart < c.BlockCount ∧
    tableEntries c m1 (0 :: NT) = used ++ free ∧ used.map (fun e => e.FTE) = V ∧
    (∀ x ∈ free, SlotErased c m1 x.fteAddr) ∧ CleanFrame c m0 m1 OL

/-- Invariant of the outer loop of `ffs_cleanupFT` from its second pass on.  The device
`m` holds the new table blocks `NP ++ [newblock]`, all full, and the old table blocks
`ob :: rest`, untouched, of which the entries from entry `oe` of `ob` on are still to
be read; the entries of the new table followed by the live entries still to be read
are the live entries `V` of the old table. -/
def CleanInv (c : Cfg) (m0 : Mem) (OL : List Nat) (V : List FFS_FTE_t) (m : Mem) (fs : FFS_FS_t)
    (ob oe : Nat) (rest NP : List Nat) (newblock : Nat) : Prop :=
  Bytes m ∧ FreeOK c m ∧ fs.BlockSearchStart < c.BlockCount ∧
  FTChainOK c m (ob :: rest) ∧ (ob :: rest).Nodup ∧ oe < FFS_FTENTRIESPERBLOCK c ∧
  (∀ b ∈ ob :: rest, 1 ≤ b ∧ b < c.BlockCount ∧ b ∈ OL ∧
    m (b * c.FLASH_BLOCKSIZE) ≠ FFS_B_UNUSED c) ∧
  FTChainWF c m (NP ++ [newblock]) ∧ (NP ++ [newblock]).Nodup ∧
  (NP ++ [newblock]).head? = some 0 ∧
  (∀ b ∈ NP ++ [newblock], b ∉ ob :: rest ∧ b < c.BlockCount ∧
    (b ∈ OL ∨ m0 (b * c.FLASH_BLOCKSIZE) = FFS_B_UNUSED c)) ∧
  (tableEntries c m (NP ++ [newblock])).map (fun e => e.FTE)
    ++ (liveOf c (remSlots c m ob oe rest)).map (fun e => e.FTE) = V ∧
  CleanFrame c m0 m OL

/-! ## Specification vocabulary: scan order of the allocator -/

/-- The blocks in the order in which the scan of the allocator visits them when the
search cursor is `s`: the blocks `s+1 .. BlockCount-1`, then the blocks `1 .. s`. -/
def scanOrder (c : Cfg) (s : Nat) : List Nat :=
  List.range' (s + 1) (c.BlockCount - 1 - s) ++ List.range' 1 s

/-- The device as `ffs_init` leaves it after formatting: block 0 is an empty file
table block and everything behind its status byte is erased. -/
def FreshOK (c : Cfg) (m : Mem) : Prop :=
  m 0 = FFS_B_FT_EOF c ∧
  ∀ a, 1 ≤ a → a < c.BlockCount * c.FLASH_BLOCKSIZE → m a = FFS_UNINIT8 c

/-! ## Concrete devices for the scenarios -/

/-- A small configuration: four blocks of 32 bytes, erased bytes read `0xFF`. -/
def demoCfg : Cfg := { FLASH_BLOCKSIZE := 32, FFS_ERASE_VAL := 0xFF, BlockCount := 4 }

/-- The smallest device that can hold a file: the table block and one data block of
20 bytes. -/
def tinyCfg : Cfg := { FLASH_BLOCKSIZE := 20, FFS_ERASE_VAL := 0xFF, BlockCount := 2 }

/-- A blank device: every byte is erased. -/
def blankDev : Mem := fun _ => 0xFF

/-- The filesystem object before `ffs_init`. -/
def fsInit : FFS_FS_t := { BlockSearchStart := 0, GetFileCounter := 0 }

/-- A file object that was never opened. -/
def closedFile : FFS_FILE_t :=
  { virt_addr := 0, hw_addr := 0, nBytes := 0, filemode := FFS_CLOSED, startblock := 0 }

/-- The bytes of `"hello world"`. -/
def helloWorld : List Nat := [104, 101, 108, 108, 111, 32, 119, 111, 114, 108, 100]

/-- The C string `"a.txt"`. -/
def nameATxt : List Nat := [97, 46, 116, 120, 116, 0]

/-- The C string `"abcdefghijklmn"`: a name of `FFS_FILENAME_LEN` = 14 characters, the
documented maximum. -/
def name14 : List Nat := [97, 98, 99, 100, 101, 102, 103, 104, 105, 106, 107, 108, 109, 110, 0]

/-- A C string of 14 characters whose third and fourth characters have the code 1. -/
def name14low : List Nat := [97, 98, 1, 1, 101, 102, 103, 104, 105, 106, 107, 108, 109, 110, 0]

/-- A device of 300 blocks of 32 bytes; erased bytes read `0xFF`. -/
def wideCfg : Cfg := { FLASH_BLOCKSIZE := 32, FFS_ERASE_VAL := 0xFF, BlockCount := 300 }

/-- A device of configuration `demoCfg` that holds the file table with the file `a`
and, in block 1, the bytes `abc` of that file in one chunk. -/
def demoDev : Mem := fun a =>
  ([0xEE, 0xFF, 0xFF, 0xFF, 1, 0, 97, 0, 0xFF, 0xFF, 0xFF, 0xFF, 0xFF, 0xFF, 0xFF, 0xFF,
    0xFF, 0xFF, 0xFF, 0xFF, 0xFF, 0xFF, 0xFF, 0xFF, 0xFF, 0xFF, 0xFF, 0xFF, 0xFF, 0xFF, 0xFF, 0xFF,
    0xFE, 0xFF, 0xFF, 0xFF, 0, 0, 0, 0, 4, 97, 98, 99] : List Nat).getD a 0xFF

/-- The block chain of the file on `demoDev`. -/
def demoChain : List Blk := [{ idx := 1, chunks := [[97, 98, 99]] }]

/-- A read handle on the file of `demoDev`, standing at offset 1. -/
def demoRd : FFS_FILE_t :=
  { virt_addr := 1, hw_addr := 42, nBytes := 2, filemode := FFS_RD, startblock := 1 }

/-- An append handle on the file of `demoDev`, standing at its end. -/
def demoWr : FFS_FILE_t :=
  { virt_addr := 3, hw_addr := 44, nBytes := 1, filemode := FFS_WR_APPEND, startblock := 1 }
/-- A configuration with two file table entries per block: eight blocks of 36 bytes,
erased bytes read `0xFF`. -/
def enumCfg : Cfg := { FLASH_BLOCKSIZE := 36, FFS_ERASE_VAL := 0xFF, BlockCount := 8 }

/-- A device of configuration `enumCfg` whose only table block is full: the live entry
of the file `a` (start block 1) is followed by the tombstoned entry of a removed file
`b`.  Block 1 is the empty data block of `a`. -/
def enumDev : Mem := fun a =>
  ([0xEE, 0xFF, 0xFF, 0xFF,
    1, 0, 97, 0, 0xFF, 0xFF, 0xFF, 0xFF, 0xFF, 0xFF, 0xFF, 0xFF, 0xFF, 0xFF, 0xFF, 0xFF,
    0, 0, 98, 0, 0xFF, 0xFF, 0xFF, 0xFF, 0xFF, 0xFF, 0xFF, 0xFF, 0xFF, 0xFF, 0xFF, 0xFF,
    0xFE, 0xFF, 0xFF, 0xFF, 0, 0, 0, 0] : List Nat).getD a 0xFF
/-- A device of configuration `tinyCfg` without unused block: block 0 is the table with
the entry of the file `a`, block 1 is the empty data block of `a`. -/
def fullDev : Mem := fun a =>
  ([0xEE, 0xFF, 0xFF, 0xFF, 1, 0, 97, 0, 0xFF, 0xFF, 0xFF, 0xFF, 0xFF, 0xFF, 0xFF, 0xFF,
    0xFF, 0xFF, 0xFF, 0xFF,
    0xFE, 0xFF, 0xFF, 0xFF, 0, 0, 0, 0] : List Nat).getD a 0xFF
/-- A configuration with two file table entries per block and a single block besides
the table and one data block: three blocks of 36 bytes, erased bytes read `0xFF`. -/
def expCfg : Cfg := { FLASH_BLOCKSIZE := 36, FFS_ERASE_VAL := 0xFF, BlockCount := 3 }

/-- Address of the length byte of chunk number `i` of the data block `b`. -/
def chunkAddr (c : Cfg) (b : Blk) (i : Nat) : Nat :=
  chunksEnd (b.idx * c.FLASH_BLOCKSIZE + sizeof_BHDR) (b.chunks.take i)

/-- Every finalized chunk of the chain `bs` has on the device a length byte that is its
payload length plus 1, a value from 2 to 254 and not the erased byte. -/
def HeadersOK (c : Cfg) (m : Mem) (bs : List Blk) : Prop :=
  ∀ b ∈ bs, ∀ i, i < b.chunks.length →
    m (chunkAddr c b i) = (b.chunks.getD i []).length + 1 ∧
    2 ≤ m (chunkAddr c b i) ∧ m (chunkAddr c b i) ≤ 254 ∧ m (chunkAddr c b i) ≠ FFS_UNINIT8 c

/-! ## Specification vocabulary: the file system between two API calls -/

/-- State of a program that uses the file system through one file handle: the
device, the filesystem object and the handle. -/
structure ApiState where
  m : Mem
  fs : FFS_FS_t
  F : FFS_FILE_t

/-- The chain `bs` is a file as it stands between two API calls: cleanly closed, or
open for appending through the handle `F`. -/
def FileSt (c : Cfg) (m : Mem) (F : FFS_FILE_t) (bs : List Blk) : Prop :=
  ClosedOK c m bs ∨ ∃ cur, AppendOK c m bs cur F

/-- Well-formed file system with the table blocks `0 :: ft`, the data chain `ch sb` for
every live entry with start block `sb`, and the handle `s.F`: the table is
well-formed, live entries have pairwise different names and start blocks, every chain
starts at its start block, lies on the device and is a well-formed file, different
chains share no block, and a handle in append mode stands on one of the files. -/
structure DiskWF (c : Cfg) (s : ApiState) (ft : List Nat) (ch : Nat → List Blk) : Prop where
  bytes : Bytes s.m
  table : TableWF c s.m ft
  alloc : FsOK c s.m s.fs
  names : NamesNodup c s.m ft
  starts : ((liveEntries c s.m (0 :: ft)).map (fun e => e.FTE.startblock)).Nodup
  files : ∀ e ∈ liveEntries c s.m (0 :: ft),
    nextIdx (ch e.FTE.startblock) = some e.FTE.startblock ∧
    (∀ b ∈ ch e.FTE.startblock, b.idx < c.BlockCount) ∧
    FileSt c s.m s.F (ch e.FTE.startblock)
  disjoint : ∀ e1 ∈ liveEntries c s.m (0 :: ft), ∀ e2 ∈ liveEntries c s.m (0 :: ft),
    e1.FTE.startblock ≠ e2.FTE.startblock →
    ∀ b ∈ ch e1.FTE.startblock, b.idx ∉ (ch e2.FTE.startblock).map Blk.idx
  handle : s.F.filemode = FFS_WR_APPEND →
    ∃ e ∈ liveEntries c s.m (0 :: ft), ∃ cur, AppendOK c s.m (ch e.FTE.startblock) cur s.F

/-- The invariant of the file system between two API calls. -/
def ApiInv (c : Cfg) (s : ApiState) : Prop := ∃ ft ch, DiskWF c s ft ch

/-- One API call made by a program that keeps to the handle protocol: `ffs_fopen` is
called on a handle without unflushed data, with a file name of at most 13 characters;
`ffs_remove` is not called on the file that the handle has open for appending;
`ffs_fwrite` keeps the file shorter than 4 GiB.  The calls are those that return (the
embedding yields a result with the fuel `fuel`). -/
inductive ApiStep (c : Cfg) (fuel : Nat) : ApiState → ApiState → Prop
  | fopen (s : ApiState) (filename : List Nat) (mode : Nat) (r : RES_t) (m1 : Mem)
      (fs1 : FFS_FS_t) (F1 : FFS_FILE_t)
      (hflushed : s.F.filemode = FFS_WR_APPEND → s.F.nBytes ≤ 1)
      (hname : (cstr filename).length < FFS_FILENAME_LEN) (hchars : ∀ x ∈ filename, x < 256)
      (hres : ffs_fopen c fuel s.m s.fs (some s.F) filename mode = some (r, m1, fs1, some F1)) :
      ApiStep c fuel s { m := m1, fs := fs1, F := F1 }
  | fwrite (s : ApiState) (data : List Nat) (k : Nat) (m1 : Mem) (fs1 : FFS_FS_t)
      (F1 : FFS_FILE_t) (hd : ∀ x ∈ data, x < 256) (hsize : data.length < 65536)
      (hlen : s.F.virt_addr + data.length < 4294967296)
      (hres : ffs_fwrite c fuel s.m s.fs data s.F = some (k, m1, fs1, F1)) :
      ApiStep c fuel s { m := m1, fs := fs1, F := F1 }
  | fflush (s : ApiState) :
      ApiStep c fuel s { m := (ffs_fflush c s.m s.F).2.1, fs := s.fs, F := (ffs_fflush c s.m s.F).2.2 }
  | fclose (s : ApiState) (r : RES_t) (m1 : Mem) (F1 : FFS_FILE_t)
      (hres : ffs_fclose c s.m (some s.F) = (r, m1, some F1)) :
      ApiStep c fuel s { m := m1, fs := s.fs, F := F1 }
  | fread (s : ApiState) (size k : Nat) (buf : List Nat) (F1 : FFS_FILE_t)
      (hres : ffs_fread c fuel s.m size s.F = some (k, buf, F1)) :
      ApiStep c fuel s { m := s.m, fs := s.fs, F := F1 }
  | fseek (s : ApiState) (offset : Nat) (r : RES_t) (F1 : FFS_FILE_t)
      (hres : ffs_fseek c fuel s.m s.F offset = some (r, F1)) :
      ApiStep c fuel s { m := s.m, fs := s.fs, F := F1 }
  | remove (s : ApiState) (filename : List Nat) (r : RES_t) (m1 : Mem)
      (hother : ∀ e, LookupFile c fuel s.m filename = some (RES_OK, e) →
        s.F.filemode = FFS_WR_APPEND → e.FTE.startblock ≠ s.F.startblock)
      (hres : ffs_remove c fuel s.m filename = some (r, m1)) :
      ApiStep c fuel s { m := m1, fs := s.fs, F := s.F }
  | cleanupFT (s : ApiState) (r : RES_t) (m1 : Mem) (fs1 : FFS_FS_t)
      (hres : ffs_cleanupFT c fuel s.m s.fs = some (r, m1, fs1)) :
      ApiStep c fuel s { m := m1, fs := fs1, F := s.F }
  | blocksFree (s : ApiState) (k : Nat) (fs1 : FFS_FS_t)
      (hres : ffs_blocksFree c fuel s.m s.fs = some (k, fs1)) :
      ApiStep c fuel s { m := s.m, fs := fs1, F := s.F }
  | getFile (s : ApiState) (buf : Option (List Nat)) (r : RES_t) (fs1 : FFS_FS_t)
      (buf1 : Option (List Nat))
      (hres : ffs_getFile c fuel s.m s.fs buf = some (r, fs1, buf1)) :
      ApiStep c fuel s { m := s.m, fs := fs1, F := s.F }

/-- The state `s` is the state of a program right after `ffs_init` returned `RES_OK`
and before the handle has been opened for appending.  The device `m0` that `ffs_init`
found was either not formatted (block 0 without the file table marker) and has at
least two blocks, or it was a well-formed file system with an unused block, left by an
earlier session whose handle held no unflushed data. -/
def Started (c : Cfg) (fuel : Nat) (s : ApiState) : Prop :=
  s.F.filemode ≠ FFS_WR_APPEND ∧ ∃ m0 fs0, Bytes m0 ∧
    ffs_init c fuel RES_OK m0 fs0 = some (RES_OK, s.m, s.fs) ∧
    ((FFS_TST_FT c (m0 0) = false ∧ 2 ≤ c.BlockCount) ∨
     (¬ NoFree c m0 ∧ ∃ fs F, ApiInv c { m := m0, fs := fs, F := F } ∧
        (F.filemode = FFS_WR_APPEND → F.nBytes ≤ 1)))

/-- The number of file bytes in the finalized chunks of the block `b`, as the length
bytes on the device tell it: the sum of (chunk length - 1). -/
def storedPayload (c : Cfg) (m : Mem) (b : Blk) : Nat :=
  ((List.range b.chunks.length).map (fun i => m (chunkAddr c b i) - 1)).sum

/-- The virtual address stored in the header of every block of the chain `bs` is the
number of file bytes in the blocks in front of it; for the first block this is 0. -/
def VirtOK (c : Cfg) (m : Mem) (bs : List Blk) : Prop :=
  ∀ i (h : i < bs.length),
    rd32 m ((bs.get ⟨i, h⟩).idx * c.FLASH_BLOCKSIZE + offsetof_virt_addr)
      = ((bs.take i).map (storedPayload c m)).sum

/-- Every live file of the state `s` is a jump chain of blocks with well-formed chunks
whose stored virtual addresses count the payload of the preceding blocks. -/
def FilesVirtOK (c : Cfg) (s : ApiState) : Prop :=
  ∃ (ft : List Nat) (ch : Nat → List Blk), TableWF c s.m ft ∧ ∀ e ∈ liveEntries c s.m (0 :: ft),
    nextIdx (ch e.FTE.startblock) = some e.FTE.startblock ∧
    ChainOK c s.m 0 (ch e.FTE.startblock) ∧ HeadersOK c s.m (ch e.FTE.startblock) ∧
    VirtOK c s.m (ch e.FTE.startblock)

/-- Block 0 is reserved for the file table in the state `s`: its status is a file
table status, no live entry starts at block 0, no block of a data chain is block 0,
and the allocator called in this state returns 0 only when no block is unused, and
otherwise an unused block from 1 on. -/
def Block0OK (c : Cfg) (fuel : Nat) (s : ApiState) : Prop :=
  (s.m 0 = FFS_B_FT_EOF c ∨ s.m 0 = FFS_B_FT_JUMP c) ∧
  (∃ (ft : List Nat) (ch : Nat → List Blk), TableWF c s.m ft ∧ ∀ e ∈ liveEntries c s.m (0 :: ft),
    e.FTE.startblock ≠ 0 ∧ nextIdx (ch e.FTE.startblock) = some e.FTE.startblock ∧
    ChainOK c s.m 0 (ch e.FTE.startblock) ∧ ∀ b ∈ ch e.FTE.startblock, b.idx ≠ 0) ∧
  s.fs.BlockSearchStart < c.BlockCount ∧
  AllocPost c s.m s.fs (FindUnusedBlock c fuel s.m s.fs)

/-- The block chains of the state `s`: the file table is the chain `0 :: ft` from block
0 on, which ends in a block of status `FFS_B_FT_EOF` and repeats no block; every live
entry has its own start block, from which the jump chain `ch sb` leads to a block of
status `FFS_B_EOF` without repeating a block; no block of a data chain is a table
block or a block of another data chain; all these blocks lie on the device and none
has the status `FFS_B_UNUSED`. -/
def ChainsOK (c : Cfg) (s : ApiState) : Prop :=
  ∃ (ft : List Nat) (ch : Nat → List Blk), FTChainWF c s.m (0 :: ft) ∧ (0 :: ft).Nodup ∧
    (∀ b ∈ 0 :: ft, b < c.BlockCount ∧ s.m (b * c.FLASH_BLOCKSIZE) ≠ FFS_B_UNUSED c) ∧
    ((liveEntries c s.m (0 :: ft)).map (fun e => e.FTE.startblock)).Nodup ∧
    (∀ e ∈ liveEntries c s.m (0 :: ft),
      nextIdx (ch e.FTE.startblock) = some e.FTE.startblock ∧
      ChainOK c s.m 0 (ch e.FTE.startblock) ∧
      ((ch e.FTE.startblock).map Blk.idx).Nodup ∧
      ∀ b ∈ ch e.FTE.startblock, b.idx < c.BlockCount ∧ b.idx ∉ 0 :: ft ∧
        s.m (b.idx * c.FLASH_BLOCKSIZE) ≠ FFS_B_UNUSED c) ∧
    (∀ e1 ∈ liveEntries c s.m (0 :: ft), ∀ e2 ∈ liveEntries c s.m (0 :: ft),
      e1.FTE.startblock ≠ e2.FTE.startblock →
      ∀ b ∈ ch e1.FTE.startblock, b.idx ∉ (ch e2.FTE.startblock).map Blk.idx)

/-! ## Scenarios -/

/-- A device of six blocks of 20 bytes: a table block holds one entry, a data block
holds one chunk of 11 bytes. -/
def smallCfg : Cfg := { FLASH_BLOCKSIZE := 20, FFS_ERASE_VAL := 0xFF, BlockCount := 6 }

/-- A program that writes through the handle of a removed file.  On a blank device the
files `a` and `b` are created and closed; the file `f` is created and 11 bytes are
written, which fill its block 5, so that the handle is parked on block 5.  Then `f` is
removed while the handle is still open, and `ffs_cleanupFT` is called twice; the
second call makes the freed block 5 a table block.  Finally one byte is written through
the handle.  The result is the state before and after this last call. -/
def staleRun : Option (ApiState × ApiState) := do
  let (_, m, fs) ← ffs_init smallCfg 20 RES_OK blankDev fsInit
  let (_, m, fs, F) ← ffs_fopen smallCfg 40 m fs (some closedFile) [97, 0] FFS_WR_APPEND
  let (_, m, F) := ffs_fclose smallCfg m F
  let (_, m, fs, F) ← ffs_fopen smallCfg 40 m fs F [98, 0] FFS_WR_APPEND
  let (_, m, F) := ffs_fclose smallCfg m F
  let (_, m, fs, F) ← ffs_fopen smallCfg 40 m fs F [102, 0] FFS_WR_APPEND
  let F ← F
  let (_, m, fs, F) ← ffs_fwrite smallCfg 40 m fs (List.replicate 11 65) F
  let (_, m) ← ffs_remove smallCfg 40 m [102, 0]
  let (_, m, fs) ← ffs_cleanupFT smallCfg 40 m fs
  let (_, m, fs) ← ffs_cleanupFT smallCfg 40 m fs
  let (_, m1, fs1, F1) ← ffs_fwrite smallCfg 40 m fs [65] F
  pure ({ m := m, fs := fs, F := F }, { m := m1, fs := fs1, F := F1 })

/-- A program that opens a handle again while it holds unflushed data.  On a blank
device the file `a` is opened for appending and 5 bytes are written, which stay in the
open chunk; the file is opened again through the same handle without a flush, 3
bytes are written and flushed, 8 more bytes are written and the file is closed. -/
def reopenRun : Option ApiState := do
  let (_, m, fs) ← ffs_init smallCfg 20 RES_OK blankDev fsInit
  let (_, m, fs, F) ← ffs_fopen smallCfg 40 m fs (some closedFile) [97, 0] FFS_WR_APPEND
  let F ← F
  let (_, m, fs, F) ← ffs_fwrite smallCfg 40 m fs (List.replicate 5 65) F
  let (_, m, fs, F) ← ffs_fopen smallCfg 40 m fs (some F) [97, 0] FFS_WR_APPEND
  let F ← F
  let (_, m, fs, F) ← ffs_fwrite smallCfg 40 m fs (List.replicate 3 65) F
  let (_, m, F) := ffs_fflush smallCfg m F
  let (_, m, fs, F) ← ffs_fwrite smallCfg 40 m fs (List.replicate 8 65) F
  let (_, m, F) := ffs_fclose smallCfg m (some F)
  let F ← F
  pure { m := m, fs := fs, F := F }

/-- A program that creates a file with a name of 14 characters, the documented
maximum: on a blank device of configuration `demoCfg`, `ffs_init` and then `ffs_fopen`
of `abcdefghijklmn` for appending. -/
def longNameRun : Option ApiState := do
  let (_, m, fs) ← ffs_init demoCfg 8 RES_OK blankDev fsInit
  let (_, m, fs, F) ← ffs_fopen demoCfg 8 m fs (some closedFile) name14 FFS_WR_APPEND
  let F ← F
  pure { m := m, fs := fs, F := F }

/-- The program `longNameRun` on a blank device of 300 blocks, with the name
`name14low`. -/
def longNameWideRun : Option ApiState := do
  let (_, m, fs) ← ffs_init wideCfg 300 RES_OK blankDev fsInit
  let (_, m, fs, F) ← ffs_fopen wideCfg 300 m fs (some closedFile) name14low FFS_WR_APPEND
  let F ← F
  pure { m := m, fs := fs, F := F }

/-- A device of twelve blocks of 36 bytes, with two file table entries per block;
erased bytes read `0xFF`. -/
def dozenCfg : Cfg := { FLASH_BLOCKSIZE := 36, FFS_ERASE_VAL := 0xFF, BlockCount := 12 }

/-- The C string `"xbcdefghijklmn"`, a name of 14 characters. -/
def nameX14 : List Nat :=
  [120, 98, 99, 100, 101, 102, 103, 104, 105, 106, 107, 108, 109, 110, 0]

/-- A program step on the device `dozenCfg`: `ffs_fopen` of `name` for appending,
`ffs_fwrite` of `data`, `ffs_fclose`. -/
def writeFile (s : ApiState) (name data : List Nat) : Option ApiState := do
  let (_, m, fs, F) ← ffs_fopen dozenCfg 40 s.m s.fs (some s.F) name FFS_WR_APPEND
  let (_, m, fs, F) ← ffs_fwrite dozenCfg 200 m fs data (← F)
  let (_, m, F) := ffs_fclose dozenCfg m (some F)
  pure { m := m, fs := fs, F := (← F) }

/-- A program on the blank device `dozenCfg`: after `ffs_init` the files `x` (3 bytes),
`b` (110 bytes, which take the blocks 2 to 6) and `y` (3 bytes) are written.  The file
table block 0 holds the entries of `x` and `b`; for `y` the table is extended by block
7, whose first slot, at address 256, holds the entry of `y` (start block 8). -/
def threeFilesRun : Option ApiState := do
  let (_, m, fs) ← ffs_init dozenCfg 40 RES_OK blankDev fsInit
  let s ← writeFile { m := m, fs := fs, F := closedFile } [120, 0] [1, 2, 3]
  let s ← writeFile s [98, 0] (List.replicate 110 66)
  writeFile s [121, 0] [7, 8, 9]

/-- The program `threeFilesRun` followed by `ffs_remove` of the file `x`; the result of
`ffs_remove` and the state. -/
def removedRun : Option (RES_t × ApiState) := do
  let s ← threeFilesRun
  let (r, m) ← ffs_remove dozenCfg 40 s.m [120, 0]
  pure (r, { s with m := m })

/-- The program `removedRun` followed by the creation of the file `xbcdefghijklmn`:
`ffs_fopen` for appending and `ffs_fclose`; the result of `ffs_fopen` and the
state. -/
def recreatedRun : Option (RES_t × ApiState) := do
  let (_, s) ← removedRun
  let (r, m, fs, F) ← ffs_fopen dozenCfg 40 s.m s.fs (some s.F) nameX14 FFS_WR_APPEND
  let (_, m, F) := ffs_fclose dozenCfg m F
  pure (r, { m := m, fs := fs, F := (← F) })

/-- Fuel for the walk on the demo device. -/
def walkFuel : Nat := 65536 + demoCfg.FLASH_BLOCKSIZE * (demoCfg.BlockCount + 1)

/-- The state after `ffs_init` on the blank device of configuration `demoCfg`. -/
def bootState : ApiState :=
  { m := flashSPAN_Write demoCfg (flashSPAN_EraseAll demoCfg blankDev) 0 [FFS_B_FT_EOF demoCfg],
    fs := { BlockSearchStart := 0, GetFileCounter := 0 }, F := closedFile }

/-- The state after the file `a` has been created from `bootState`. -/
def openState : ApiState :=
  match ffs_fopen demoCfg walkFuel bootState.m bootState.fs (some bootState.F) [97, 0]
      FFS_WR_APPEND with
  | some (_, m1, fs1, some F1) => { m := m1, fs := fs1, F := F1 }
  | _ => bootState

/-- The state after 30 bytes have been written to the file `a`; they fill its first
block and reach into a second one. -/
def writtenState : ApiState :=
  match ffs_fwrite demoCfg walkFuel openState.m openState.fs (List.replicate 30 7)
      openState.F with
  | some (_, m1, fs1, F1) => { m := m1, fs := fs1, F := F1 }
  | none => openState

/-- The state after the file `a` has been closed. -/
def closedState : ApiState :=
  match ffs_fclose demoCfg writtenState.m (some writtenState.F) with
  | (_, m1, some F1) => { m := m1, fs := writtenState.fs, F := F1 }
  | _ => writtenState
/-- One pass of the `while (size > size_done)` loop of `ffs_fwrite`, as in
`ffs_fwrite_loop`: the result of the call (`Sum.inl`), or the device, the filesystem
object, the rest of the data and the loop variables `size_done`, `block`,
`block_remaining`, `hw_addr`, `nBytes`, `virt_addr` for the next pass (`Sum.inr`). -/
def ffs_fwrite_pass (c : Cfg) (af : Nat) (FILE : FFS_FILE_t) (m : Mem) (fs : FFS_FS_t)
    (data : List Nat) (size_done block block_remaining hw_addr nBytes virt_addr : Nat) :
    Option ((Nat × Mem × FFS_FS_t × FFS_FILE_t) ⊕
      (Mem × FFS_FS_t × List Nat × Nat × Nat × Nat × Nat × Nat × Nat)) :=
  if data.length > 0 then
    let lim := (254 + 65536 - nBytes) % 65536
    let writelen0 := if data.length > lim then lim else data.length
    let writelen := if writelen0 > block_remaining then block_remaining else writelen0
    let m1 := flashSPAN_Write c m (hw_addr + nBytes) (data.take writelen)
    let nBytes1 := (nBytes + writelen) % 256
    let virt1 := virt_addr + writelen
    let done1 := size_done + writelen
    let data1 := data.drop writelen
    let rem1 := block_remaining - writelen
    if nBytes1 = 254 ∧ rem1 > sizeof_CHDR then
      let m2 := flashSPAN_Write c m1 hw_addr [nBytes1]
      some (Sum.inr (m2, fs, data1, done1, block, rem1 - sizeof_CHDR, hw_addr + 254,
        sizeof_CHDR, virt1))
    else if rem1 ≤ sizeof_CHDR then
      let m2 := flashSPAN_Write c m1 hw_addr [nBytes1]
      if data1.length = 0 then
        some (Sum.inl (done1, m2, fs,
          { FILE with virt_addr := virt1, hw_addr := block * c.FLASH_BLOCKSIZE, nBytes := 0 }))
      else
        let hw2 := block * c.FLASH_BLOCKSIZE
        match FindUnusedBlock c af m2 fs with
        | none => none
        | some (blk, fs2) =>
          if blk = 0 then
            some (Sum.inl (done1, m2, fs2,
              { FILE with virt_addr := virt1, hw_addr := hw2, nBytes := 0 }))
          else
            let m3 := flashSPAN_Write c m2 (blk * c.FLASH_BLOCKSIZE)
              (encBHDR (padByte c) { status := FFS_B_EOF c, jump := FFS_UNINIT16 c, virt_addr := virt1 })
            let m4 := flashSPAN_Write c m3 hw2 (encSBHDR (padByte c) (FFS_B_JUMP c) blk)
            some (Sum.inr (m4, fs2, data1, done1, blk,
              (c.FLASH_BLOCKSIZE - sizeof_BHDR - sizeof_CHDR) % 65536,
              blk * c.FLASH_BLOCKSIZE + sizeof_BHDR, sizeof_CHDR, virt1))
    else some (Sum.inr (m1, fs, data1, done1, block, rem1, hw_addr, nBytes1, virt1))
  else some (Sum.inl (size_done, m, fs,
    { FILE with hw_addr := hw_addr, nBytes := nBytes, virt_addr := virt_addr }))

/-- Where the loop of `ffs_fwrite` goes on after a pass. -/
def ffs_fwrite_cont (c : Cfg) (af : Nat) (FILE : FFS_FILE_t) (fuel : Nat) :
    Option ((Nat × Mem × FFS_FS_t × FFS_FILE_t) ⊕
      (Mem × FFS_FS_t × List Nat × Nat × Nat × Nat × Nat × Nat × Nat)) →
    Option (Nat × Mem × FFS_FS_t × FFS_FILE_t)
  | none => none
  | some (Sum.inl r) => some r
  | some (Sum.inr (m, fs, data, size_done, block, block_remaining, hw_addr, nBytes, virt_addr)) =>
    ffs_fwrite_loop c af FILE fuel m fs data size_done block block_remaining hw_addr nBytes
      virt_addr

/-- The value of `block_remaining` that `ffs_fwrite` computes at its entry. -/
def entryRemaining (c : Cfg) (hw_addr nBytes : Nat) : Nat :=
  (c.FLASH_BLOCKSIZE + 4294967296
    - ((hw_addr + nBytes) - hw_addr / c.FLASH_BLOCKSIZE * c.FLASH_BLOCKSIZE)) % 65536

/-- The loop variables of `ffs_fwrite` describe a position inside the block `block`:
an open chunk of `nBytes` bytes at `hw_addr` with `block_remaining` bytes behind it. -/
def WrPos (c : Cfg) (block block_remaining hw_addr nBytes : Nat) : Prop :=
  block = hw_addr / c.FLASH_BLOCKSIZE ∧ 1 ≤ nBytes ∧ nBytes ≤ 253 ∧
  hw_addr + nBytes + block_remaining = block * c.FLASH_BLOCKSIZE + c.FLASH_BLOCKSIZE

/-! ## Basic facts -/

theorem and_255 (v : Nat) (h : v < 256) : 255 &&& v = v := by
  rw [Nat.land_comm]
  have := Nat.and_pow_two_sub_one_eq_mod v 8
  simp at this
  rw [this]; omega

theorem uninit8_cases (c : Cfg) (hc : c.ok) :
    (c.FFS_ERASE_VAL = 255 ∧ FFS_UNINIT8 c = 255) ∨ (c.FFS_ERASE_VAL = 0 ∧ FFS_UNINIT8 c = 0) := by
  rcases hc.1 with h | h <;> simp [FFS_UNINIT8, h]

theorem progByte_erased (c : Cfg) (hc : c.ok) (v : Nat) (hv : v < 256) :
    progByte c (FFS_UNINIT8 c) v = v := by
  rcases uninit8_cases c hc with ⟨h, h2⟩ | ⟨h, h2⟩ <;> simp [progByte, h, h2, and_255 v hv]

theorem progByte_EOF_JUMP (c : Cfg) (hc : c.ok) :
    progByte c (FFS_B_EOF c) (FFS_B_JUMP c) = FFS_B_JUMP c := by
  rcases uninit8_cases c hc with ⟨h, h2⟩ | ⟨h, h2⟩ <;> simp [progByte, FFS_B_EOF, FFS_B_JUMP, h, h2] <;> decide

theorem status_facts (c : Cfg) (hc : c.ok) :
    FFS_B_EOF c ≠ FFS_B_JUMP c ∧ FFS_B_EOF c ≠ FFS_UNINIT8 c ∧ FFS_B_JUMP c ≠ FFS_UNINIT8 c ∧
    FFS_B_FT_EOF c ≠ FFS_UNINIT8 c ∧ FFS_B_FT_JUMP c ≠ FFS_UNINIT8 c ∧
    FFS_B_EOF c < 256 ∧ FFS_B_JUMP c < 256 ∧ FFS_B_FT_EOF c < 256 ∧ FFS_B_FT_JUMP c < 256 ∧
    FFS_UNINIT8 c < 256 := by
  rcases uninit8_cases c hc with ⟨h, h2⟩ | ⟨h, h2⟩ <;>
    simp [FFS_B_EOF, FFS_B_JUMP, FFS_B_FT_EOF, FFS_B_FT_JUMP, h2]

theorem hdr_ne_uninit (c : Cfg) (hc : c.ok) (n : Nat) (h1 : 1 ≤ n) (h2 : n ≤ 254) :
    n ≠ FFS_UNINIT8 c := by
  rcases uninit8_cases c hc with ⟨h, h2⟩ | ⟨h, h2⟩ <;> omega

theorem div_block (b B o : Nat) (h : o < B) : (b * B + o) / B = b := by
  have hB : 0 < B := by omega
  rw [Nat.mul_comm, Nat.mul_add_div hB, Nat.div_eq_of_lt h]; omega

theorem mod_block (b B o : Nat) (h : o < B) : (b * B + o) % B = o := by
  rw [Nat.mul_comm, Nat.mul_add_mod, Nat.mod_eq_of_lt h]

theorem Write_outside (c : Cfg) (m : Mem) (addr : Nat) (d : List Nat) (a : Nat)
    (h : a < addr ∨ addr + d.length ≤ a) : flashSPAN_Write c m addr d a = m a := by
  unfold flashSPAN_Write
  rw [if_neg]; omega

theorem Write_inside (c : Cfg) (hc : c.ok) (m : Mem) (addr : Nat) (d : List Nat) (i : Nat)
    (hi : i < d.length) (he : m (addr + i) = FFS_UNINIT8 c) (hd : ∀ x ∈ d, x < 256) :
    flashSPAN_Write c m addr d (addr + i) = d.getD i 0 := by
  unfold flashSPAN_Write
  rw [if_pos (by omega), he, Nat.add_sub_cancel_left]
  apply progByte_erased c hc
  rw [List.getD_eq_getElem _ _ hi]
  exact hd _ (List.getElem_mem _)

theorem Read_length (m : Mem) (a n : Nat) : (flashSPAN_Read m a n).length = n := by
  simp [flashSPAN_Read]

theorem Read_add (m : Mem) (a n k : Nat) :
    flashSPAN_Read m a (n + k) = flashSPAN_Read m a n ++ flashSPAN_Read m (a + n) k := by
  simp only [flashSPAN_Read, List.range_add, List.map_append, List.map_map]
  congr 1
  apply List.map_congr_left
  intro i _
  simp [Nat.add_assoc]

theorem Read_congr (m m2 : Mem) (a n : Nat) (h : ∀ i, i < n → m2 (a + i) = m (a + i)) :
    flashSPAN_Read m2 a n = flashSPAN_Read m a n := by
  unfold flashSPAN_Read
  apply List.map_congr_left
  intro i hi
  exact h i (List.mem_range.mp hi)

theorem Read_eq_iff (m : Mem) (a : Nat) (l : List Nat) :
    flashSPAN_Read m a l.length = l ↔ ∀ i, i < l.length → m (a + i) = l.getD i 0 := by
  constructor
  · intro h i hi
    have : (flashSPAN_Read m a l.length).getD i 0 = l.getD i 0 := by rw [h]
    simpa [flashSPAN_Read, List.getD_eq_getElem, hi] using this
  · intro h
    apply List.ext_getElem (by simp [flashSPAN_Read])
    intro i h1 h2
    simp [flashSPAN_Read]
    rw [h i h2, List.getD_eq_getElem _ _ h2]


/-! ## Reading -/

theorem Read_sub (m : Mem) (x : Nat) (l : List Nat) (o k : Nat)
    (h : flashSPAN_Read m x l.length = l) (hk : o + k ≤ l.length) :
    flashSPAN_Read m (x + o) k = (l.drop o).take k := by
  have e : l.length = o + (k + (l.length - o - k)) := by omega
  rw [e, Read_add, Read_add] at h
  have h2 : l.drop o
      = flashSPAN_Read m (x + o) k ++ flashSPAN_Read m (x + o + k) (l.length - o - k) := by
    conv_lhs => rw [← h]
    exact List.drop_left' (Read_length _ _ _)
  rw [h2, List.take_left' (Read_length _ _ _)]

theorem Read_rest (m : Mem) (x : Nat) (l : List Nat) (o k : Nat)
    (h : flashSPAN_Read m x l.length = l) (hk : k + o = l.length) :
    flashSPAN_Read m (x + o) k = l.drop o := by
  rw [Read_sub m x l o k h (by omega)]
  apply List.take_of_length_le
  simp; omega

theorem payloadLen_nil : payloadLen [] = 0 := rfl

theorem payloadLen_cons (ch : List Nat) (rest : List (List Nat)) :
    payloadLen (ch :: rest) = ch.length + payloadLen rest := by
  simp [payloadLen]

theorem fileBytes_nil : fileBytes [] = [] := rfl

theorem fileBytes_cons (b : Blk) (bs : List Blk) :
    fileBytes (b :: bs) = b.chunks.flatten ++ fileBytes bs := by
  simp [fileBytes]

theorem fileBytes_length_cons (b : Blk) (bs : List Blk) :
    (fileBytes (b :: bs)).length = payloadLen b.chunks + (fileBytes bs).length := by
  simp [fileBytes_cons, payloadLen]

theorem some_result {α : Type} (d d2 : Nat) (b b2 : List Nat) (F : α) (h1 : d = d2) (h2 : b = b2) :
    some (d, b, F) = some (d2, b2, F) := by
  subst h1; subst h2; rfl

theorem eq_nil_of_isEmpty (bs : List Blk) (h : bs.isEmpty = true) : bs = [] := by
  cases bs with
  | nil => rfl
  | cons _ _ => simp at h

theorem nextIdx_isNone (bs : List Blk) : (nextIdx bs).isNone = bs.isEmpty := by
  cases bs <;> simp [nextIdx]

theorem fread_loop_stop (c : Cfg) (m : Mem) (FILE : FFS_FILE_t) (size fuel done : Nat)
    (buf : List Nat) (blk hw nB virt : Nat) (h : size = done) :
    ffs_fread_loop c m FILE size (fuel + 1) done buf blk hw nB virt
      = some (done, buf, { FILE with hw_addr := hw, nBytes := nB, virt_addr := virt }) := by
  unfold ffs_fread_loop
  rw [if_neg (by omega)]

theorem fread_loop_part (c : Cfg) (m : Mem) (FILE : FFS_FILE_t) (size fuel done need : Nat)
    (buf : List Nat) (blk hw nB nB2 virt : Nat) (hs : size = done + need) (h : 0 < need)
    (h2 : need + nB2 = nB) (h3 : 0 < nB2) :
    ffs_fread_loop c m FILE size (fuel + 1) done buf blk hw nB virt
      = ffs_fread_loop c m FILE size fuel (done + need)
          (buf ++ flashSPAN_Read m hw need) blk (hw + need) nB2 (virt + need) := by
  conv_lhs => unfold ffs_fread_loop
  have e1 : size - done = need := by omega
  have e2 : nB - need = nB2 := by omega
  simp only []
  rw [if_pos (by omega), e1, if_neg (show ¬ need > nB by omega), e2, if_neg (by omega)]

/-- One iteration of the read loop that uses up the current chunk. -/
theorem fread_loop_full (c : Cfg) (m : Mem) (FILE : FFS_FILE_t) (size fuel done need : Nat)
    (buf : List Nat) (blk hw nB virt : Nat) (hs : size = done + need) (h : 0 < need)
    (h2 : nB ≤ need) (hB : 2 ≤ c.FLASH_BLOCKSIZE) (hblk : blk * c.FLASH_BLOCKSIZE ≤ hw + nB) :
    ffs_fread_loop c m FILE size (fuel + 1) done buf blk hw nB virt
      = (if hw + nB + 2 ≤ blk * c.FLASH_BLOCKSIZE + c.FLASH_BLOCKSIZE then
          (if m (hw + nB) = FFS_UNINIT8 c then
            some (done + nB, buf ++ flashSPAN_Read m hw nB,
              { FILE with hw_addr := hw + nB, nBytes := 0, virt_addr := virt + nB })
          else ffs_fread_loop c m FILE size fuel (done + nB) (buf ++ flashSPAN_Read m hw nB) blk
            (hw + nB + 1) ((m (hw + nB) + 256 - 1) % 256) (virt + nB))
        else if m (blk * c.FLASH_BLOCKSIZE) = FFS_B_JUMP c then
          (if m (rd16 m (blk * c.FLASH_BLOCKSIZE + 2) * c.FLASH_BLOCKSIZE + 8) ≠ FFS_UNINIT8 c then
            ffs_fread_loop c m FILE size fuel (done + nB) (buf ++ flashSPAN_Read m hw nB)
              (rd16 m (blk * c.FLASH_BLOCKSIZE + 2))
              (rd16 m (blk * c.FLASH_BLOCKSIZE + 2) * c.FLASH_BLOCKSIZE + 8 + 1)
              ((m (rd16 m (blk * c.FLASH_BLOCKSIZE + 2) * c.FLASH_BLOCKSIZE + 8) + 256 - 1) % 256)
              (virt + nB)
          else some (done + nB, buf ++ flashSPAN_Read m hw nB,
              { FILE with hw_addr := rd16 m (blk * c.FLASH_BLOCKSIZE + 2) * c.FLASH_BLOCKSIZE + 8,
                          nBytes := 0, virt_addr := virt + nB }))
        else some (done + nB, buf ++ flashSPAN_Read m hw nB,
              { FILE with hw_addr := blk * c.FLASH_BLOCKSIZE, nBytes := 0,
                          virt_addr := virt + nB })) := by
  conv_lhs => unfold ffs_fread_loop
  have hrl : (if size - done > nB then nB else size - done) = nB := by
    by_cases h3 : size - done > nB
    · rw [if_pos h3]
    · rw [if_neg h3]; omega
  have hc1 : (hw + nB - blk * c.FLASH_BLOCKSIZE ≤ c.FLASH_BLOCKSIZE - (1 + 1))
      = (hw + nB + 2 ≤ blk * c.FLASH_BLOCKSIZE + c.FLASH_BLOCKSIZE) := by
    apply propext; constructor <;> intro _ <;> omega
  simp only [sizeof_CHDR, sizeof_BHDR, readBHDR, offsetof_jump]
  rw [if_pos (by omega), hrl, if_pos (Nat.sub_self nB)]
  simp only [hc1]


/-- The request ends inside the current chunk. -/
theorem FreadLoopPost_part (c : Cfg) (FILE : FFS_FILE_t) (m : Mem) (done need : Nat) (buf : List Nat)
    (blk a : Nat) (ch : List Nat) (rest : List (List Nat)) (bs : List Blk) (o nB v : Nat)
    (r : Option (Nat × List Nat × FFS_FILE_t))
    (hrd : flashSPAN_Read m (a + 1) ch.length = ch) (ho : nB + o = ch.length) (hlt : need < nB)
    (h : FreadLoopPost c FILE (done + need) 0 (buf ++ flashSPAN_Read m (a + 1 + o) need) blk a
      ch rest bs (o + need) (nB - need) v r) :
    FreadLoopPost c FILE done need buf blk a ch rest bs o nB v r := by
  obtain ⟨k, F1, h1, h2, h3, h4, h5, h6⟩ := h
  have hk : k = 0 := by omega
  subst hk
  refine ⟨need, F1, ?_, by omega, by omega, Or.inl rfl, by omega, h6⟩
  rw [h1, Read_sub m (a + 1) ch o need hrd (by omega)]
  simp only [List.take_zero, List.append_nil, Nat.add_zero]
  rw [List.append_assoc (List.drop o ch), List.take_append_of_le_length (by simp; omega)]

/-- The chunk is used up and the next chunk of the same block is entered. -/
theorem FreadLoopPost_next (c : Cfg) (FILE : FFS_FILE_t) (done need : Nat) (buf : List Nat)
    (blk a : Nat) (ch ch2 : List Nat) (rest2 : List (List Nat)) (bs : List Blk) (o nB v : Nat)
    (r : Option (Nat × List Nat × FFS_FILE_t))
    (ho : nB + o = ch.length) (hlt : nB ≤ need)
    (h : FreadLoopPost c FILE (done + nB) (need - nB) (buf ++ ch.drop o) blk (a + 1 + ch.length)
      ch2 rest2 bs 0 ch2.length (v + ch.length) r) :
    FreadLoopPost c FILE done need buf blk a ch (ch2 :: rest2) bs o nB v r := by
  obtain ⟨k, F1, h1, h2, h3, h4, h5, h6, h7, h8⟩ := h
  have hlen : (List.drop o ch).length = nB := by simp; omega
  refine ⟨nB + k, F1, ?_, by omega, ?_, ?_, by omega, h6, h7, ?_⟩
  · rw [h1]
    simp only [List.drop_zero, List.flatten_cons, List.append_assoc, Nat.add_assoc]
    congr 2
    rw [← hlen, ← @List.take_append _ (List.drop o ch) _ k]
  · rw [payloadLen_cons]; omega
  · rw [payloadLen_cons]; omega
  · have e : v + ch.length + payloadLen (ch2 :: rest2)
        = v + ch.length + ch2.length + payloadLen rest2 := by
      rw [payloadLen_cons]; omega
    rw [e]
    rcases h8 with h8 | h8
    · exact Or.inl (Or.inr h8)
    · exact Or.inr h8

/-- The chunk is used up and the first chunk of the next block is entered. -/
theorem FreadLoopPost_jump (c : Cfg) (FILE : FFS_FILE_t) (done need : Nat) (buf : List Nat)
    (blk a : Nat) (ch ch2 : List Nat) (rest2 : List (List Nat)) (b2 : Blk) (bs2 : List Blk)
    (o nB v : Nat) (r : Option (Nat × List Nat × FFS_FILE_t))
    (ho : nB + o = ch.length) (hlt : nB ≤ need) (hcs : b2.chunks = ch2 :: rest2)
    (h : FreadLoopPost c FILE (done + nB) (need - nB) (buf ++ ch.drop o) b2.idx
      (b2.idx * c.FLASH_BLOCKSIZE + 8) ch2 rest2 bs2 0 ch2.length (v + ch.length) r) :
    FreadLoopPost c FILE done need buf blk a ch [] (b2 :: bs2) o nB v r := by
  obtain ⟨k, F1, h1, h2, h3, h4, h5, h6, h7, h8⟩ := h
  have hlen : (List.drop o ch).length = nB := by simp; omega
  refine ⟨nB + k, F1, ?_, by omega, ?_, ?_, by omega, h6, h7, Or.inr ?_⟩
  · rw [h1]
    simp only [List.drop_zero, List.flatten_nil, List.append_nil, fileBytes_cons, hcs,
      List.flatten_cons, List.append_assoc, Nat.add_assoc]
    congr 2
    rw [← hlen, ← @List.take_append _ (List.drop o ch) _ k]
  · rw [fileBytes_length_cons, hcs, payloadLen_cons, payloadLen_nil]; omega
  · rw [fileBytes_length_cons, hcs, payloadLen_cons, payloadLen_nil]; omega
  · show PosChunks c F1 _ _ _ _ b2.chunks ∨ _
    rw [hcs, payloadLen_nil]
    rcases h8 with h8 | h8
    · exact Or.inl (by simpa [sizeof_BHDR] using h8)
    · refine Or.inr ?_
      have e : v + ch.length + 0 + payloadLen (ch2 :: rest2)
          = v + ch.length + ch2.length + payloadLen rest2 := by
        rw [payloadLen_cons]; omega
      rw [e]; exact h8

/-- The chunk is used up and the end of the file is reached in this block. -/
theorem FreadLoopPost_eof (c : Cfg) (FILE : FFS_FILE_t) (done need : Nat) (buf : List Nat)
    (blk a : Nat) (ch : List Nat) (o nB v hw : Nat)
    (ho : nB + o = ch.length) (hlt : nB ≤ need)
    (hhw : hw = if a + 1 + ch.length + 2 ≤ blk * c.FLASH_BLOCKSIZE + c.FLASH_BLOCKSIZE
      then a + 1 + ch.length else blk * c.FLASH_BLOCKSIZE) :
    FreadLoopPost c FILE done need buf blk a ch [] [] o nB v
      (some (done + nB, buf ++ ch.drop o,
        { FILE with hw_addr := hw, nBytes := 0, virt_addr := v + o + nB })) := by
  refine ⟨nB, _, some_result _ _ _ _ _ rfl ?_, by omega, by omega, Or.inr ?_, rfl,
    rfl, rfl, Or.inl (Or.inr ⟨rfl, rfl, ?_, hhw⟩)⟩
  · simp [fileBytes]; omega
  · simp [payloadLen, fileBytes]
  · show v + o + nB = v + ch.length; omega

/-- The chunk is used up and the next block of the chain holds no chunk. -/
theorem FreadLoopPost_eof_jump (c : Cfg) (hc : c.ok) (FILE : FFS_FILE_t) (done need : Nat)
    (buf : List Nat) (blk a : Nat) (ch : List Nat) (b2 : Blk) (o nB v : Nat)
    (ho : nB + o = ch.length) (hlt : nB ≤ need) (hcs : b2.chunks = []) :
    FreadLoopPost c FILE done need buf blk a ch [] [b2] o nB v
      (some (done + nB, buf ++ ch.drop o,
        { FILE with hw_addr := b2.idx * c.FLASH_BLOCKSIZE + 8, nBytes := 0,
                    virt_addr := v + o + nB })) := by
  have hB := hc.2.1
  refine ⟨nB, _, some_result _ _ _ _ _ rfl ?_, by omega, by omega, Or.inr ?_, rfl,
    rfl, rfl, Or.inr (Or.inl ?_)⟩
  · simp [fileBytes, hcs]; omega
  · simp [payloadLen, fileBytes, hcs]
  · rw [hcs]
    refine ⟨rfl, rfl, ?_, ?_⟩
    · show v + o + nB = v + ch.length + payloadLen []; simp [payloadLen]; omega
    · simp only [sizeof_BHDR]; exact (if_pos (by omega)).symm

/-- The read loop, started inside a chunk with at least one byte left, delivers the
requested bytes of the remaining stream and leaves the handle at the matching
position. -/
theorem fread_loop_spec (c : Cfg) (hc : c.ok) (m : Mem) (FILE : FFS_FILE_t) (size : Nat) :
    ∀ (fuel need done : Nat) (buf : List Nat) (blk a : Nat) (ch : List Nat)
      (rest : List (List Nat)) (bs : List Blk) (o nB v : Nat),
      size = done + need →
      blk * c.FLASH_BLOCKSIZE + 8 ≤ a →
      ChunkTail c m (blk * c.FLASH_BLOCKSIZE) bs.isEmpty a (ch :: rest) →
      HdrOK c m (blk * c.FLASH_BLOCKSIZE) (nextIdx bs) →
      ChainOK c m (v + ch.length + payloadLen rest) bs →
      nB + o = ch.length → 0 < nB → need < fuel →
      FreadLoopPost c FILE done need buf blk a ch rest bs o nB v
        (ffs_fread_loop c m FILE size fuel done buf blk (a + 1 + o) nB (v + o)) := by
  have hB := hc.2.1
  intro fuel
  induction fuel with
  | zero => intro need done buf blk a ch rest bs o nB v _ _ _ _ _ _ _ h; omega
  | succ fuel ih =>
    intro need done buf blk a ch rest bs o nB v hs ha hct hhdr hchain ho hnB hfuel
    obtain ⟨hl1, hl2, hend, hhd, hrd, htail⟩ := hct
    by_cases hsz : need = 0
    · rw [fread_loop_stop c m FILE size fuel done buf blk _ _ _ (by omega)]
      exact ⟨0, _, some_result _ _ _ _ _ rfl (by simp), by omega, by omega, Or.inl hsz.symm,
        rfl, rfl, rfl, Or.inl (Or.inl ⟨o, by omega, rfl, ho, rfl⟩)⟩
    · by_cases hlt : need < nB
      · -- the request ends inside this chunk
        rw [fread_loop_part c m FILE size fuel done need buf blk _ nB (nB - need) _ hs
          (by omega) (by omega) (by omega)]
        have e1 : a + 1 + o + need = a + 1 + (o + need) := by omega
        have e3 : v + o + need = v + (o + need) := by omega
        rw [e1, e3]
        exact FreadLoopPost_part c FILE m done need buf blk a ch rest bs o nB v _ hrd ho hlt
          (ih 0 (done + need) _ blk a ch rest bs (o + need) (nB - need) v
            (by omega) ha ⟨hl1, hl2, hend, hhd, hrd, htail⟩ hhdr hchain (by omega) (by omega)
            (by omega))
      · -- the chunk is used up
        rw [fread_loop_full c m FILE size fuel done need buf blk _ _ _ hs (by omega) (by omega)
          (by omega) (by omega)]
        have e1 : a + 1 + o + nB = a + 1 + ch.length := by omega
        have hread : flashSPAN_Read m (a + 1 + o) nB = ch.drop o :=
          Read_rest m (a + 1) ch o nB hrd ho
        rw [e1, hread]
        by_cases hin2 : a + 1 + ch.length + 2 ≤ blk * c.FLASH_BLOCKSIZE + c.FLASH_BLOCKSIZE
        · rw [if_pos hin2]
          cases rest with
          | nil =>
            obtain ⟨hlast, he⟩ := htail hin2
            have hbs := eq_nil_of_isEmpty bs hlast
            subst hbs
            rw [if_pos he]
            exact FreadLoopPost_eof c FILE done need buf blk a ch o nB v _ ho (by omega)
              (if_pos hin2).symm
          | cons ch2 rest2 =>
            obtain ⟨hl3, hl4, hend3, hhd3, hrd3, htail3⟩ := htail
            rw [if_neg (by rw [hhd3]; exact hdr_ne_uninit c hc _ (by omega) (by omega))]
            have e4 : (m (a + 1 + ch.length) + 256 - 1) % 256 = ch2.length := by
              rw [hhd3]; omega
            have e5 : v + o + nB = v + ch.length + 0 := by omega
            have e6 : a + 1 + ch.length + 1 = a + 1 + ch.length + 1 + 0 := by omega
            rw [e4, e5, e6]
            have hchain2 : ChainOK c m (v + ch.length + ch2.length + payloadLen rest2) bs := by
              rw [payloadLen_cons] at hchain; rw [Nat.add_assoc]; exact hchain
            exact FreadLoopPost_next c FILE done need buf blk a ch ch2 rest2 bs o nB v _ ho
              (by omega)
              (ih (need - nB) (done + nB) (buf ++ ch.drop o) blk (a + 1 + ch.length) ch2 rest2 bs
                0 ch2.length (v + ch.length) (by omega) (by omega)
                ⟨hl3, hl4, hend3, hhd3, hrd3, htail3⟩ hhdr hchain2 (by omega) (by omega)
                (by omega))
        · rw [if_neg hin2]
          cases rest with
          | cons ch2 rest2 => exact absurd (by have := htail.2.2.1; have := htail.1; omega) hin2
          | nil =>
            cases bs with
            | nil =>
              have hst : m (blk * c.FLASH_BLOCKSIZE) ≠ FFS_B_JUMP c := by
                rw [hhdr.1]; exact (status_facts c hc).1
              rw [if_neg hst]
              exact FreadLoopPost_eof c FILE done need buf blk a ch o nB v _ ho (by omega)
                (if_neg hin2).symm
            | cons b2 bs2 =>
              obtain ⟨hj1, hj2⟩ := hhdr
              simp only [offsetof_jump] at hj2
              rw [if_pos hj1, hj2]
              obtain ⟨⟨hv2, hhdr2, hct2⟩, hchain2⟩ := hchain
              simp only [sizeof_BHDR, nextIdx_isNone] at hct2
              generalize hcs : b2.chunks = cs2 at hct2 hchain2
              cases cs2 with
              | nil =>
                obtain ⟨hlast, he⟩ := hct2 (by omega)
                have hbs2 := eq_nil_of_isEmpty bs2 hlast
                subst hbs2
                rw [if_neg (by simpa using he)]
                exact FreadLoopPost_eof_jump c hc FILE done need buf blk a ch b2 o nB v ho
                  (by omega) hcs
              | cons ch2 rest2 =>
                obtain ⟨hl3, hl4, hend3, hhd3, hrd3, htail3⟩ := hct2
                rw [if_pos (by rw [hhd3]; exact hdr_ne_uninit c hc _ (by omega) (by omega))]
                have e4 : (m (b2.idx * c.FLASH_BLOCKSIZE + 8) + 256 - 1) % 256 = ch2.length := by
                  rw [hhd3]; omega
                have e5 : v + o + nB = v + ch.length + 0 := by omega
                have e6 : b2.idx * c.FLASH_BLOCKSIZE + 8 + 1
                    = b2.idx * c.FLASH_BLOCKSIZE + 8 + 1 + 0 := by omega
                rw [e4, e5, e6]
                have hchain3 : ChainOK c m (v + ch.length + ch2.length + payloadLen rest2) bs2 := by
                  rw [payloadLen_cons, payloadLen_nil] at hchain2
                  have e : v + ch.length + ch2.length + payloadLen rest2
                      = v + ch.length + 0 + (ch2.length + payloadLen rest2) := by omega
                  rw [e]; exact hchain2
                exact FreadLoopPost_jump c FILE done need buf blk a ch ch2 rest2 b2 bs2 o nB v _
                  ho (by omega) hcs
                  (ih (need - nB) (done + nB) (buf ++ ch.drop o) b2.idx
                    (b2.idx * c.FLASH_BLOCKSIZE + 8) ch2 rest2 bs2 0 ch2.length (v + ch.length)
                    (by omega) (by omega) ⟨hl3, hl4, hend3, hhd3, hrd3, htail3⟩ hhdr2 hchain3
                    (by omega) (by omega) (by omega))


theorem fread_inchunk (c : Cfg) (fuel : Nat) (m : Mem) (n : Nat) (F : FFS_FILE_t)
    (h1 : F.filemode = FFS_RD) (h2 : F.nBytes ≠ 0) :
    ffs_fread c fuel m n F = ffs_fread_loop c m F n fuel 0 []
      (F.hw_addr / c.FLASH_BLOCKSIZE) F.hw_addr F.nBytes F.virt_addr := by
  unfold ffs_fread
  rw [if_neg (by simp [h1]), if_neg h2]

theorem fread_eof_open (c : Cfg) (fuel : Nat) (m : Mem) (n : Nat) (F : FFS_FILE_t)
    (h1 : F.filemode = FFS_RD) (h2 : F.nBytes = 0) (h3 : F.hw_addr % c.FLASH_BLOCKSIZE ≠ 0)
    (h4 : m F.hw_addr = FFS_UNINIT8 c) :
    ffs_fread c fuel m n F = some (0, [], F) := by
  unfold ffs_fread
  rw [if_neg (by simp [h1]), if_pos h2, if_neg h3]
  simp only []
  rw [if_pos h4]

theorem fread_eof_full (c : Cfg) (fuel : Nat) (m : Mem) (n : Nat) (F : FFS_FILE_t)
    (h1 : F.filemode = FFS_RD) (h2 : F.nBytes = 0) (h3 : F.hw_addr % c.FLASH_BLOCKSIZE = 0)
    (h4 : m F.hw_addr ≠ FFS_B_JUMP c) :
    ffs_fread c fuel m n F = some (0, [], F) := by
  unfold ffs_fread
  rw [if_neg (by simp [h1]), if_pos h2, if_pos h3]
  simp only [readBHDR]
  rw [if_pos h4]

theorem take_eq_of (X : List Nat) (k n : Nat) (hk : k ≤ n) (h : k = n ∨ X.length ≤ k) :
    X.take k = X.take n := by
  rcases h with h | h
  · rw [h]
  · rw [List.take_of_length_le h, List.take_of_length_le (by omega)]

theorem FreadPost_of_loop (c : Cfg) (F : FFS_FILE_t) (n : Nat) (blk a : Nat) (ch : List Nat)
    (rest : List (List Nat)) (bs : List Blk) (o v : Nat)
    (r : Option (Nat × List Nat × FFS_FILE_t)) (ho : F.nBytes + o = ch.length)
    (hv : F.virt_addr = v + o)
    (h : FreadLoopPost c F 0 n [] blk a ch rest bs o F.nBytes v r) :
    ∃ F1, FreadPost F n v ((ch :: rest).flatten ++ fileBytes bs) r F1 ∧
      (PosChunks c F1 (blk * c.FLASH_BLOCKSIZE) bs.isEmpty a v (ch :: rest) ∨
       PosChain c F1 (v + ch.length + payloadLen rest) bs) := by
  obtain ⟨k, F1, h1, h2, h3, h4, h5, h6, h7, h8⟩ := h
  have hlen : ((ch :: rest).flatten ++ fileBytes bs).length
      = ch.length + payloadLen rest + (fileBytes bs).length := by
    simp [payloadLen]; omega
  have hk : k = min n (v + ((ch :: rest).flatten ++ fileBytes bs).length - F.virt_addr) := by
    rw [hlen]; omega
  refine ⟨F1, ⟨by omega, by omega, ?_, by omega, h6, h7⟩, h8⟩
  rw [h1, ← hk]
  have e : F.virt_addr - v = o := by omega
  rw [e]
  simp only [Nat.zero_add, List.nil_append, List.flatten_cons, List.append_assoc]
  rw [List.drop_append_of_le_length (by omega)]
  have hX : (List.drop o ch ++ (rest.flatten ++ fileBytes bs)).length
      = F.nBytes + payloadLen rest + (fileBytes bs).length := by
    simp [payloadLen]; omega
  rw [take_eq_of _ k n h2 (by omega)]

theorem FreadPost_skip (F : FFS_FILE_t) (n v : Nat) (pre s : List Nat)
    (r : Option (Nat × List Nat × FFS_FILE_t)) (F1 : FFS_FILE_t)
    (h : FreadPost F n (v + pre.length) s r F1) : FreadPost F n v (pre ++ s) r F1 := by
  obtain ⟨h1, h2, h3, h4, h5, h6⟩ := h
  have hl : (pre ++ s).length = pre.length + s.length := by simp
  have e1 : v + (pre ++ s).length - F.virt_addr = v + pre.length + s.length - F.virt_addr := by
    omega
  refine ⟨by omega, by omega, ?_, by omega, h5, h6⟩
  rw [h3, e1]
  have e2 : F.virt_addr - v = pre.length + (F.virt_addr - (v + pre.length)) := by omega
  rw [e2, List.drop_append]

/-- `ffs_fread` on a handle that stands in the chunks `cs` of a block. -/
theorem fread_chunks (c : Cfg) (hc : c.ok) (m : Mem) (F : FFS_FILE_t) (n fuel blk : Nat)
    (bs : List Blk) (hF : F.filemode = FFS_RD) (hfuel : n < fuel)
    (hhdr : HdrOK c m (blk * c.FLASH_BLOCKSIZE) (nextIdx bs)) :
    ∀ (cs : List (List Nat)) (a v : Nat),
      blk * c.FLASH_BLOCKSIZE + 8 ≤ a →
      ChunkTail c m (blk * c.FLASH_BLOCKSIZE) bs.isEmpty a cs →
      ChainOK c m (v + payloadLen cs) bs →
      PosChunks c F (blk * c.FLASH_BLOCKSIZE) bs.isEmpty a v cs →
      ∃ F1, FreadPost F n v (cs.flatten ++ fileBytes bs) (ffs_fread c fuel m n F) F1 ∧
        (PosChunks c F1 (blk * c.FLASH_BLOCKSIZE) bs.isEmpty a v cs ∨
         PosChain c F1 (v + payloadLen cs) bs) := by
  have hB := hc.2.1
  intro cs
  induction cs with
  | nil =>
    intro a v ha hct hchain hpos
    obtain ⟨hlast, hnb, hv, hhw⟩ := hpos
    have hbs := eq_nil_of_isEmpty bs hlast
    subst hbs
    have hres : ffs_fread c fuel m n F = some (0, [], F) := by
      by_cases hin : a + 2 ≤ blk * c.FLASH_BLOCKSIZE + c.FLASH_BLOCKSIZE
      · rw [if_pos hin] at hhw
        apply fread_eof_open c fuel m n F hF hnb
        · have e : F.hw_addr = blk * c.FLASH_BLOCKSIZE + (a - blk * c.FLASH_BLOCKSIZE) := by omega
          rw [e, mod_block _ _ _ (by omega)]; omega
        · rw [hhw]; exact (hct hin).2
      · rw [if_neg hin] at hhw
        apply fread_eof_full c fuel m n F hF hnb
        · rw [hhw]; exact Nat.mul_mod_left _ _
        · rw [hhw, hhdr.1]; exact (status_facts c hc).1
    refine ⟨F, ⟨by omega, by omega, ?_, ?_, rfl, rfl⟩, Or.inl ⟨hlast, hnb, hv, hhw⟩⟩
    · rw [hres]; simp [fileBytes, hv]
    · simp [fileBytes, hv]
  | cons ch rest ih =>
    intro a v ha hct hchain hpos
    rcases hpos with ⟨o, ho, hhw, hnb, hv⟩ | hpos
    · have hend := hct.2.2.1
      have hblk : F.hw_addr / c.FLASH_BLOCKSIZE = blk := by
        have e : F.hw_addr = blk * c.FLASH_BLOCKSIZE + (a + 1 + o - blk * c.FLASH_BLOCKSIZE) := by
          omega
        rw [e, div_block _ _ _ (by omega)]
      rw [fread_inchunk c fuel m n F hF (by omega), hblk, hhw, hv]
      rw [payloadLen_cons, ← Nat.add_assoc] at hchain
      rw [payloadLen_cons, ← Nat.add_assoc]
      exact FreadPost_of_loop c F n blk a ch rest bs o v _ hnb hv
        (fread_loop_spec c hc m F n fuel n 0 [] blk a ch rest bs o F.nBytes v (by omega) ha hct
          hhdr hchain hnb (by omega) hfuel)
    · obtain ⟨hl1, hl2, hend, hhd, hrd, htail⟩ := hct
      rw [payloadLen_cons, ← Nat.add_assoc] at hchain
      obtain ⟨F1, h1, h2⟩ := ih (a + 1 + ch.length) (v + ch.length) (by omega) htail hchain hpos
      refine ⟨F1, ?_, ?_⟩
      · rw [List.flatten_cons, List.append_assoc]
        exact FreadPost_skip F n v ch _ _ F1 h1
      · rw [payloadLen_cons, ← Nat.add_assoc]
        rcases h2 with h2 | h2
        · exact Or.inl (Or.inr h2)
        · exact Or.inr h2

/-- `ffs_fread` on a handle that stands in the chain `bs`. -/
theorem fread_chain (c : Cfg) (hc : c.ok) (m : Mem) (F : FFS_FILE_t) (n fuel : Nat)
    (hF : F.filemode = FFS_RD) (hfuel : n < fuel) :
    ∀ (bs : List Blk) (v : Nat), ChainOK c m v bs → PosChain c F v bs →
      ∃ F1, FreadPost F n v (fileBytes bs) (ffs_fread c fuel m n F) F1 ∧ PosChain c F1 v bs := by
  intro bs
  induction bs with
  | nil => intro v _ h; exact absurd h (by simp [PosChain])
  | cons b rest ih =>
    intro v hchain hpos
    obtain ⟨⟨hv, hhdr, hct⟩, hchain2⟩ := hchain
    rw [nextIdx_isNone] at hct
    rcases hpos with hpos | hpos
    · obtain ⟨F1, h1, h2⟩ := fread_chunks c hc m F n fuel b.idx rest hF hfuel hhdr b.chunks
        (b.idx * c.FLASH_BLOCKSIZE + 8) v (by omega) hct hchain2 hpos
      exact ⟨F1, by rw [fileBytes_cons]; exact h1, h2⟩
    · obtain ⟨F1, h1, h2⟩ := ih (v + payloadLen b.chunks) hchain2 hpos
      refine ⟨F1, ?_, Or.inr h2⟩
      rw [fileBytes_cons]
      exact FreadPost_skip F n v _ _ _ F1 (by simpa [payloadLen] using h1)


theorem PosChunks_bounds (c : Cfg) (m : Mem) (F : FFS_FILE_t) (base : Nat) (last : Bool) :
    ∀ (cs : List (List Nat)) (a v : Nat), base + 8 ≤ a → a ≤ base + c.FLASH_BLOCKSIZE →
      ChunkTail c m base last a cs → PosChunks c F base last a v cs →
      base ≤ F.hw_addr ∧ F.hw_addr < base + c.FLASH_BLOCKSIZE := by
  intro cs
  induction cs with
  | nil =>
    intro a v ha ha2 _ hpos
    obtain ⟨_, _, _, hhw⟩ := hpos
    by_cases hin : a + 2 ≤ base + c.FLASH_BLOCKSIZE
    · rw [if_pos hin] at hhw; omega
    · rw [if_neg hin] at hhw; omega
  | cons ch rest ih =>
    intro a v ha ha2 hct hpos
    obtain ⟨hl1, hl2, hend, hhd, hrd, htail⟩ := hct
    rcases hpos with ⟨o, ho, hhw, hnb, hv⟩ | hpos
    · omega
    · exact ih (a + 1 + ch.length) (v + ch.length) (by omega) hend htail hpos

theorem fileBytes_append (xs ys : List Blk) : fileBytes (xs ++ ys) = fileBytes xs ++ fileBytes ys := by
  simp [fileBytes]

theorem Lifts_refl (v : Nat) (bs : List Blk) : Lifts v bs v bs := ⟨[], rfl, rfl⟩

theorem Lifts_cons (v : Nat) (b : Blk) (bs : List Blk) (vt : Nat) (ts : List Blk)
    (h : Lifts (v + payloadLen b.chunks) bs vt ts) : Lifts v (b :: bs) vt ts := by
  obtain ⟨pre, h1, h2⟩ := h
  refine ⟨b :: pre, by rw [h1]; rfl, ?_⟩
  rw [fileBytes_length_cons]; omega

theorem Lifts_trans (v : Nat) (bs : List Blk) (v2 : Nat) (bs2 : List Blk) (v3 : Nat)
    (bs3 : List Blk) (h : Lifts v bs v2 bs2) (h2 : Lifts v2 bs2 v3 bs3) : Lifts v bs v3 bs3 := by
  obtain ⟨p1, a1, a2⟩ := h
  obtain ⟨p2, b1, b2⟩ := h2
  refine ⟨p1 ++ p2, by rw [a1, b1, List.append_assoc], ?_⟩
  rw [fileBytes_append, List.length_append]; omega

theorem Lifts_length (v : Nat) (bs : List Blk) (vt : Nat) (ts : List Blk) (h : Lifts v bs vt ts) :
    v + (fileBytes bs).length = vt + (fileBytes ts).length ∧ ts.length ≤ bs.length := by
  obtain ⟨pre, h1, h2⟩ := h
  subst h1
  rw [fileBytes_append, List.length_append, List.length_append]
  omega

theorem Lifts_pos (c : Cfg) (F1 : FFS_FILE_t) (vt : Nat) (ts : List Blk) :
    ∀ (pre : List Blk) (v : Nat), vt = v + (fileBytes pre).length → PosChain c F1 vt ts →
      PosChain c F1 v (pre ++ ts) := by
  intro pre
  induction pre with
  | nil => intro v hv hp; simp [fileBytes] at hv; subst hv; exact hp
  | cons b pre ih =>
    intro v hv hp
    rw [fileBytes_length_cons] at hv
    exact Or.inr (ih (v + payloadLen b.chunks) (by omega) hp)

theorem Lifts_last (v : Nat) (bs : List Blk) (vt : Nat) (t : Blk) (h : Lifts v bs vt [t]) :
    lastChunks bs = t.chunks := by
  obtain ⟨pre, h1, _⟩ := h
  subst h1
  simp [lastChunks]

/-- The block a read handle stands in starts a suffix of the chain. -/
theorem pos_block (c : Cfg) (hc : c.ok) (m : Mem) (F : FFS_FILE_t) :
    ∀ (bs : List Blk) (v : Nat), ChainOK c m v bs → PosChain c F v bs →
      ∃ t post vt, F.hw_addr / c.FLASH_BLOCKSIZE = t.idx ∧ ChainOK c m vt (t :: post) ∧
        Lifts v bs vt (t :: post) := by
  have hB := hc.2.1
  intro bs
  induction bs with
  | nil => intro v _ h; exact absurd h (by simp [PosChain])
  | cons b rest ih =>
    intro v hchain hpos
    rcases hpos with hpos | hpos
    · refine ⟨b, rest, v, ?_, hchain, Lifts_refl v _⟩
      obtain ⟨⟨hv, hhdr, hct⟩, hchain2⟩ := hchain
      rw [nextIdx_isNone] at hct
      have hb := PosChunks_bounds c m F _ _ b.chunks _ v (by simp [sizeof_BHDR])
        (by simp only [sizeof_BHDR]; omega) hct hpos
      have e : F.hw_addr = b.idx * c.FLASH_BLOCKSIZE + (F.hw_addr - b.idx * c.FLASH_BLOCKSIZE) := by
        omega
      rw [e, div_block _ _ _ (by omega)]
    · obtain ⟨t, post, vt, h1, h2, h3⟩ := ih (v + payloadLen b.chunks) hchain.2 hpos
      exact ⟨t, post, vt, h1, h2, Lifts_cons v b rest vt _ h3⟩

theorem fseek_chain_stop (c : Cfg) (m : Mem) (offset fuel blk : Nat) (H : FFS_BHDR_t)
    (h : H.status ≠ FFS_B_JUMP c) :
    ffs_fseek_chain c m offset (fuel + 1) blk H = some (blk, H.virt_addr) := by
  unfold ffs_fseek_chain
  rw [if_pos h]

theorem fseek_chain_over (c : Cfg) (m : Mem) (offset fuel blk : Nat) (H : FFS_BHDR_t)
    (h : H.status = FFS_B_JUMP c)
    (h2 : (readBHDR m (H.jump * c.FLASH_BLOCKSIZE)).virt_addr > offset) :
    ffs_fseek_chain c m offset (fuel + 1) blk H = some (blk, H.virt_addr) := by
  unfold ffs_fseek_chain
  rw [if_neg (by simp [h])]
  simp only []
  rw [if_pos h2]

theorem fseek_chain_next (c : Cfg) (m : Mem) (offset fuel blk : Nat) (H : FFS_BHDR_t)
    (h : H.status = FFS_B_JUMP c)
    (h2 : ¬ (readBHDR m (H.jump * c.FLASH_BLOCKSIZE)).virt_addr > offset) :
    ffs_fseek_chain c m offset (fuel + 1) blk H
      = ffs_fseek_chain c m offset fuel H.jump (readBHDR m (H.jump * c.FLASH_BLOCKSIZE)) := by
  conv_lhs => unfold ffs_fseek_chain
  rw [if_neg (by simp [h])]
  simp only []
  rw [if_neg h2]

/-- The block-seeking loop stops at the block of the chain that holds `offset`, or at
the last block. -/
theorem fseek_chain_spec (c : Cfg) (hc : c.ok) (m : Mem) (offset : Nat) :
    ∀ (bs : List Blk) (b : Blk) (v fuel : Nat), ChainOK c m v (b :: bs) → v ≤ offset →
      bs.length < fuel →
      ∃ t post vt, ffs_fseek_chain c m offset fuel b.idx (readBHDR m (b.idx * c.FLASH_BLOCKSIZE))
          = some (t.idx, vt) ∧
        ChainOK c m vt (t :: post) ∧ vt ≤ offset ∧
        (post ≠ [] → offset < vt + payloadLen t.chunks) ∧ Lifts v (b :: bs) vt (t :: post) := by
  intro bs
  induction bs with
  | nil =>
    intro b v fuel hchain hv hfuel
    obtain ⟨fuel, rfl⟩ : ∃ f, fuel = f + 1 := ⟨fuel - 1, by simp at hfuel; omega⟩
    have hst : (readBHDR m (b.idx * c.FLASH_BLOCKSIZE)).status ≠ FFS_B_JUMP c := by
      have := hchain.1.2.1
      simp only [nextIdx, List.head?, Option.map, HdrOK] at this
      simp only [readBHDR]; rw [this.1]; exact (status_facts c hc).1
    have hvv : (readBHDR m (b.idx * c.FLASH_BLOCKSIZE)).virt_addr = v := hchain.1.1
    rw [fseek_chain_stop c m offset fuel _ _ hst, hvv]
    exact ⟨b, [], v, rfl, hchain, hv, fun h => absurd rfl h, Lifts_refl v _⟩
  | cons b2 bs2 ih =>
    intro b v fuel hchain hv hfuel
    obtain ⟨fuel, rfl⟩ : ∃ f, fuel = f + 1 := ⟨fuel - 1, by simp at hfuel; omega⟩
    have hh := hchain.1.2.1
    simp only [nextIdx, List.head?, Option.map, HdrOK] at hh
    have hst : (readBHDR m (b.idx * c.FLASH_BLOCKSIZE)).status = FFS_B_JUMP c := hh.1
    have hj : (readBHDR m (b.idx * c.FLASH_BLOCKSIZE)).jump = b2.idx := hh.2
    have hvv : (readBHDR m (b.idx * c.FLASH_BLOCKSIZE)).virt_addr = v := hchain.1.1
    have hv2 : (readBHDR m (b2.idx * c.FLASH_BLOCKSIZE)).virt_addr = v + payloadLen b.chunks :=
      hchain.2.1.1
    by_cases hov : v + payloadLen b.chunks > offset
    · rw [fseek_chain_over c m offset fuel _ _ hst (by rw [hj, hv2]; exact hov), hvv]
      exact ⟨b, b2 :: bs2, v, rfl, hchain, hv, fun _ => hov, Lifts_refl v _⟩
    · rw [fseek_chain_next c m offset fuel _ _ hst (by rw [hj, hv2]; exact hov), hj]
      obtain ⟨t, post, vt, h1, h2, h3, h4, h5⟩ := ih b2 (v + payloadLen b.chunks) fuel hchain.2
        (by omega) (by simp at hfuel; omega)
      exact ⟨t, post, vt, h1, h2, h3, h4, Lifts_cons v b _ vt _ h5⟩

set_option maxRecDepth 4000 in
theorem fseek_scan_hit (c : Cfg) (m : Mem) (offset blk : Nat) (FILE : FFS_FILE_t)
    (fuel hw virt nB L d : Nat) (hnB : nB = L + 1) (hL : L ≤ 253) (hd : virt + d = offset)
    (hlt : d < L) (hoff : offset < 4294967296) :
    ffs_fseek_scan c m offset blk FILE (fuel + 1) hw virt nB
      = some (RES_OK, { FILE with nBytes := L - d, hw_addr := hw + d + 1, virt_addr := offset }) := by
  rw [ffs_fseek_scan]
  have e1 : (nB + 65536 - sizeof_CHDR) % 65536 = L := by simp only [sizeof_CHDR]; omega
  have e2 : (offset + 4294967296 - virt) % 4294967296 = d := by omega
  have e3 : (nB + 4294967296 - d - sizeof_CHDR) % 256 = L - d := by
    simp only [sizeof_CHDR]; omega
  simp only [e1, e2, e3]
  rw [if_neg (by omega)]
  rfl

set_option maxRecDepth 4000 in
theorem fseek_scan_pass (c : Cfg) (m : Mem) (offset blk : Nat) (FILE : FFS_FILE_t)
    (fuel hw virt nB L : Nat) (hnB : nB = L + 1) (hL : L ≤ 253) (hle : virt + L ≤ offset)
    (hB : 2 ≤ c.FLASH_BLOCKSIZE) (hblk : blk * c.FLASH_BLOCKSIZE ≤ hw) :
    ffs_fseek_scan c m offset blk FILE (fuel + 1) hw virt nB
      = (if hw + L + 1 + 2 ≤ blk * c.FLASH_BLOCKSIZE + c.FLASH_BLOCKSIZE then
          (if m (hw + L + 1) = FFS_UNINIT8 c then
            some (RES_END, { FILE with hw_addr := hw + L + 1, nBytes := 0, virt_addr := virt + L })
          else ffs_fseek_scan c m offset blk FILE fuel (hw + L + 1) (virt + L) (m (hw + L + 1)))
        else some (RES_END, { FILE with hw_addr := blk * c.FLASH_BLOCKSIZE, nBytes := 0,
                                        virt_addr := virt + L })) := by
  rw [ffs_fseek_scan]
  have e1 : (nB + 65536 - sizeof_CHDR) % 65536 = L := by simp only [sizeof_CHDR]; omega
  have e2 : hw + nB = hw + L + 1 := by omega
  have hc1 : (hw + L + 1 - blk * c.FLASH_BLOCKSIZE > c.FLASH_BLOCKSIZE - (sizeof_CHDR + 1))
      = ¬ (hw + L + 1 + 2 ≤ blk * c.FLASH_BLOCKSIZE + c.FLASH_BLOCKSIZE) := by
    simp only [sizeof_CHDR]
    apply propext; constructor <;> intro _ <;> omega
  simp only [e1, e2, hc1]
  rw [if_pos hle]
  by_cases h : hw + L + 1 + 2 ≤ blk * c.FLASH_BLOCKSIZE + c.FLASH_BLOCKSIZE
  · rw [if_neg (by simpa using h), if_pos h]
  · rw [if_pos h, if_neg h]

/-- The chunk-scanning loop of `ffs_fseek` finds the byte with virtual address
`offset` in the chunks of the resolved block, or parks behind them. -/
theorem fseek_scan_spec (c : Cfg) (hc : c.ok) (m : Mem) (offset blk : Nat) (FILE : FFS_FILE_t)
    (last : Bool) (hoff : offset < 4294967296) :
    ∀ (rest : List (List Nat)) (ch : List Nat) (a v fuel : Nat),
      blk * c.FLASH_BLOCKSIZE + 8 ≤ a →
      ChunkTail c m (blk * c.FLASH_BLOCKSIZE) last a (ch :: rest) → v ≤ offset →
      blk * c.FLASH_BLOCKSIZE + c.FLASH_BLOCKSIZE < a + 2 * fuel →
      ∃ r F1, ffs_fseek_scan c m offset blk FILE fuel a v (ch.length + 1) = some (r, F1) ∧
        F1.filemode = FILE.filemode ∧ F1.startblock = FILE.startblock ∧
        (offset < v + payloadLen (ch :: rest) → r = RES_OK ∧ F1.virt_addr = offset ∧
          PosChunks c F1 (blk * c.FLASH_BLOCKSIZE) last a v (ch :: rest)) ∧
        (v + payloadLen (ch :: rest) ≤ offset → r = RES_END ∧ F1.nBytes = 0 ∧
          F1.virt_addr = v + payloadLen (ch :: rest) ∧
          (last = true → PosChunks c F1 (blk * c.FLASH_BLOCKSIZE) last a v (ch :: rest))) := by
  have hB := hc.2.1
  intro rest
  induction rest with
  | nil =>
    intro ch a v fuel ha hct hv hfuel
    obtain ⟨hl1, hl2, hend, hhd, hrd, htail⟩ := hct
    obtain ⟨fuel, rfl⟩ : ∃ f, fuel = f + 1 := ⟨fuel - 1, by omega⟩
    rw [payloadLen_cons, payloadLen_nil]
    by_cases hlt : offset < v + ch.length
    · rw [fseek_scan_hit c m offset blk FILE fuel a v _ ch.length (offset - v) rfl hl2 (by omega)
        (by omega) hoff]
      refine ⟨_, _, rfl, rfl, rfl, fun _ => ⟨rfl, rfl, Or.inl ⟨offset - v, by omega, ?_, ?_, ?_⟩⟩,
        fun h => by omega⟩
      · show a + (offset - v) + 1 = a + 1 + (offset - v); omega
      · show ch.length - (offset - v) + (offset - v) = ch.length; omega
      · show offset = v + (offset - v); omega
    · rw [fseek_scan_pass c m offset blk FILE fuel a v _ ch.length rfl hl2 (by omega) (by omega)
        (by omega)]
      have e : a + ch.length + 1 = a + 1 + ch.length := by omega
      rw [e]
      by_cases hin : a + 1 + ch.length + 2 ≤ blk * c.FLASH_BLOCKSIZE + c.FLASH_BLOCKSIZE
      · rw [if_pos hin, if_pos (htail hin).2]
        refine ⟨_, _, rfl, rfl, rfl, fun h => by omega, fun _ => ⟨rfl, rfl, ?_,
          fun hl => Or.inr ⟨hl, rfl, rfl, (if_pos hin).symm⟩⟩⟩
        show v + ch.length = v + (ch.length + 0); omega
      · rw [if_neg hin]
        refine ⟨_, _, rfl, rfl, rfl, fun h => by omega, fun _ => ⟨rfl, rfl, ?_,
          fun hl => Or.inr ⟨hl, rfl, rfl, (if_neg hin).symm⟩⟩⟩
        show v + ch.length = v + (ch.length + 0); omega
  | cons ch2 rest2 ih =>
    intro ch a v fuel ha hct hv hfuel
    obtain ⟨hl1, hl2, hend, hhd, hrd, htail⟩ := hct
    obtain ⟨fuel, rfl⟩ : ∃ f, fuel = f + 1 := ⟨fuel - 1, by omega⟩
    rw [payloadLen_cons]
    by_cases hlt : offset < v + ch.length
    · rw [fseek_scan_hit c m offset blk FILE fuel a v _ ch.length (offset - v) rfl hl2 (by omega)
        (by omega) hoff]
      refine ⟨_, _, rfl, rfl, rfl, fun _ => ⟨rfl, rfl, Or.inl ⟨offset - v, by omega, ?_, ?_, ?_⟩⟩,
        fun h => by omega⟩
      · show a + (offset - v) + 1 = a + 1 + (offset - v); omega
      · show ch.length - (offset - v) + (offset - v) = ch.length; omega
      · show offset = v + (offset - v); omega
    · rw [fseek_scan_pass c m offset blk FILE fuel a v _ ch.length rfl hl2 (by omega) (by omega)
        (by omega)]
      have e : a + ch.length + 1 = a + 1 + ch.length := by omega
      rw [e]
      have hend2 := htail.2.2.1
      have hl3 := htail.1
      have hl4 := htail.2.1
      have hhd2 := htail.2.2.2.1
      rw [if_pos (by omega), if_neg (by rw [hhd2]; exact hdr_ne_uninit c hc _ (by omega) (by omega)),
        hhd2]
      obtain ⟨r, F1, h1, h2, h3, h4, h5⟩ := ih ch2 (a + 1 + ch.length) (v + ch.length) fuel
        (by omega) htail (by omega) (by omega)
      refine ⟨r, F1, h1, h2, h3, fun h => ?_, fun h => ?_⟩
      · obtain ⟨h6, h7, h8⟩ := h4 (by omega)
        exact ⟨h6, h7, Or.inr h8⟩
      · obtain ⟨h6, h7, h8, h9⟩ := h5 (by omega)
        exact ⟨h6, h7, by omega, fun hl => Or.inr (h9 hl)⟩

theorem fseek_unfold (c : Cfg) (fuel : Nat) (m : Mem) (F : FFS_FILE_t) (offset blk1 blk v : Nat)
    (hF : F.filemode = FFS_RD)
    (h1 : blk1 = if (readBHDR m (F.hw_addr / c.FLASH_BLOCKSIZE * c.FLASH_BLOCKSIZE)).virt_addr
        > offset then F.startblock else F.hw_addr / c.FLASH_BLOCKSIZE)
    (h2 : ffs_fseek_chain c m offset fuel blk1 (readBHDR m (blk1 * c.FLASH_BLOCKSIZE))
      = some (blk, v)) :
    ffs_fseek c fuel m F offset = ffs_fseek_scan c m offset blk F fuel
      (blk * c.FLASH_BLOCKSIZE + 8) v (m (blk * c.FLASH_BLOCKSIZE + 8)) := by
  unfold ffs_fseek
  rw [if_neg (by simp [hF])]
  simp only [sizeof_BHDR]
  have e : (if (readBHDR m (F.hw_addr / c.FLASH_BLOCKSIZE * c.FLASH_BLOCKSIZE)).virt_addr > offset
      then readBHDR m (F.startblock * c.FLASH_BLOCKSIZE)
      else readBHDR m (F.hw_addr / c.FLASH_BLOCKSIZE * c.FLASH_BLOCKSIZE))
      = readBHDR m (blk1 * c.FLASH_BLOCKSIZE) := by
    rw [h1]; split <;> rfl
  rw [e, ← h1, h2]

/-- The block loop of `ffs_fseek`, started from the handle position. -/
theorem fseek_resolve (c : Cfg) (hc : c.ok) (m : Mem) (bs : List Blk) (F : FFS_FILE_t)
    (offset fuel : Nat) (h : RdHandleOK c m bs F) (hfuel : bs.length < fuel) :
    ∃ blk1 t post vt,
      blk1 = (if (readBHDR m (F.hw_addr / c.FLASH_BLOCKSIZE * c.FLASH_BLOCKSIZE)).virt_addr
        > offset then F.startblock else F.hw_addr / c.FLASH_BLOCKSIZE) ∧
      ffs_fseek_chain c m offset fuel blk1 (readBHDR m (blk1 * c.FLASH_BLOCKSIZE))
        = some (t.idx, vt) ∧
      ChainOK c m vt (t :: post) ∧ vt ≤ offset ∧
      (post ≠ [] → offset < vt + payloadLen t.chunks) ∧ Lifts 0 bs vt (t :: post) := by
  obtain ⟨hchain, hmode, hstart, hpos⟩ := h
  obtain ⟨t0, post0, vt0, h1, h2, h3⟩ := pos_block c hc m F bs 0 hchain hpos
  have hv0 : (readBHDR m (F.hw_addr / c.FLASH_BLOCKSIZE * c.FLASH_BLOCKSIZE)).virt_addr = vt0 := by
    rw [h1]; exact h2.1.1
  rw [hv0]
  by_cases hgt : vt0 > offset
  · cases bs with
    | nil => exact absurd hpos (by simp [PosChain])
    | cons b rest =>
      have hsb : F.startblock = b.idx := by
        simp [nextIdx] at hstart; exact hstart.symm
      obtain ⟨t, post, vt, a1, a2, a3, a4, a5⟩ := fseek_chain_spec c hc m offset rest b 0 fuel
        hchain (by omega) (by simp at hfuel; omega)
      refine ⟨b.idx, t, post, vt, by rw [if_pos hgt, hsb], a1, a2, a3, a4, a5⟩
  · have hl := (Lifts_length 0 bs vt0 _ h3).2
    obtain ⟨t, post, vt, a1, a2, a3, a4, a5⟩ := fseek_chain_spec c hc m offset post0 t0 vt0 fuel
      h2 (by omega) (by simp at hl; omega)
    refine ⟨t0.idx, t, post, vt, by rw [if_neg hgt, h1], a1, a2, a3, a4,
      Lifts_trans 0 bs vt0 _ vt _ h3 a5⟩

/-- `ffs_fseek` on a read handle of a well-formed file: an offset inside the file is
found; an offset at or behind the end parks the handle at the end, provided the last
block of the chain holds a chunk. -/
theorem fseek_spec (c : Cfg) (hc : c.ok) (m : Mem) (bs : List Blk) (F : FFS_FILE_t)
    (offset fuel : Nat) (h : RdHandleOK c m bs F) (hoff : offset < 4294967296)
    (hfuel : bs.length + c.FLASH_BLOCKSIZE ≤ fuel) :
    (offset < (fileBytes bs).length →
      ∃ F1, ffs_fseek c fuel m F offset = some (RES_OK, F1) ∧ F1.virt_addr = offset ∧
        RdHandleOK c m bs F1) ∧
    ((fileBytes bs).length ≤ offset → lastChunks bs ≠ [] →
      ∃ F1, ffs_fseek c fuel m F offset = some (RES_END, F1) ∧ F1.nBytes = 0 ∧
        F1.virt_addr = (fileBytes bs).length ∧ RdHandleOK c m bs F1) := by
  have hB := hc.2.1
  obtain ⟨blk1, t, post, vt, a0, a1, a2, a3, a4, a5⟩ :=
    fseek_resolve c hc m bs F offset fuel h (by omega)
  obtain ⟨hchain, hmode, hstart, hpos⟩ := h
  rw [fseek_unfold c fuel m F offset blk1 t.idx vt hmode a0 a1]
  have hL := (Lifts_length 0 bs vt _ a5).1
  rw [fileBytes_length_cons] at hL
  obtain ⟨pre, hpre, hvt⟩ := a5
  obtain ⟨⟨hv, hhdr, hct⟩, hchain2⟩ := a2
  rw [nextIdx_isNone] at hct
  simp only [sizeof_BHDR] at hct
  generalize hcs : t.chunks = cs at hct hL a4
  cases cs with
  | nil =>
    have hpost : post = [] := by
      by_contra hne
      have := a4 hne
      simp [payloadLen] at this; omega
    subst hpost
    have hlast : lastChunks bs = [] := by
      rw [Lifts_last 0 bs vt t ⟨pre, hpre, hvt⟩, hcs]
    simp only [payloadLen_nil, fileBytes_nil, List.length_nil] at hL
    exact ⟨fun h => by omega, fun _ h => absurd hlast h⟩
  | cons ch rest =>
    obtain ⟨r, F1, h1, h2, h3, h4, h5⟩ := fseek_scan_spec c hc m offset t.idx F post.isEmpty hoff
      rest ch (t.idx * c.FLASH_BLOCKSIZE + 8) vt fuel (by omega) hct a3 (by omega)
    have e : m (t.idx * c.FLASH_BLOCKSIZE + 8) = ch.length + 1 := hct.2.2.2.1
    rw [e]
    have hlift : ∀ F2, F2.filemode = F.filemode → F2.startblock = F.startblock →
        PosChunks c F2 (t.idx * c.FLASH_BLOCKSIZE) post.isEmpty (t.idx * c.FLASH_BLOCKSIZE + 8) vt
          (ch :: rest) → RdHandleOK c m bs F2 := by
      intro F2 hm hs hp
      refine ⟨hchain, by rw [hm, hmode], by rw [hs, hstart], ?_⟩
      rw [hpre]
      apply Lifts_pos c F2 vt _ pre 0 hvt
      exact Or.inl (by rw [hcs]; simpa [sizeof_BHDR] using hp)
    refine ⟨fun hlt => ?_, fun hge _ => ?_⟩
    · have hin : offset < vt + payloadLen (ch :: rest) := by
        by_cases hp : post = []
        · subst hp; simp only [fileBytes_nil, List.length_nil] at hL; omega
        · exact a4 hp
      obtain ⟨b1, b2, b3⟩ := h4 hin
      subst b1
      exact ⟨F1, h1, b2, hlift F1 h2 h3 b3⟩
    · have hp : post = [] := by
        by_contra hne
        have := a4 hne
        omega
      subst hp
      simp only [fileBytes_nil, List.length_nil] at hL
      obtain ⟨b1, b2, b3, b4⟩ := h5 (by omega)
      subst b1
      exact ⟨F1, h1, b2, by omega, hlift F1 h2 h3 (b4 rfl)⟩

theorem LookupFile_scan_eq (c : Cfg) (m : Mem) (filename : List Nat) (block : Nat) :
    ∀ (k entry : Nat) (FTEI : FFS_FTE_INFO_t),
      LookupFile_scan c m filename block k entry FTEI
        = scanList c filename ((List.range' entry k).map (fteiAt c m block)) FTEI := by
  intro k
  induction k with
  | zero => intro entry FTEI; rfl
  | succ k ih =>
    intro entry FTEI
    rw [LookupFile_scan, List.range'_succ, List.map_cons, scanList]
    simp only [fteiAt, ih]

theorem scanList_append (c : Cfg) (filename : List Nat) (ys : List FFS_FTE_INFO_t) :
    ∀ (xs : List FFS_FTE_INFO_t) (last : FFS_FTE_INFO_t),
      scanList c filename (xs ++ ys) last
        = (match scanList c filename xs last with
           | (some r, e) => (some r, e)
           | (none, e) => scanList c filename ys e) := by
  intro xs
  induction xs with
  | nil => intro last; rfl
  | cons x xs ih =>
    intro last
    simp only [List.cons_append, scanList]
    split
    · exact ih x
    · split
      · rfl
      · split
        · rfl
        · exact ih x

/-- `LookupFile` walks the chain of table blocks and scans their entries in order. -/
theorem LookupFile_loop_eq (c : Cfg) (m : Mem) (filename : List Nat) :
    ∀ (ft : List Nat) (b : Nat) (fuel : Nat) (FTEI : FFS_FTE_INFO_t),
      FTChainOK c m (b :: ft) → ft.length < fuel →
      LookupFile_loop c m filename fuel b FTEI
        = some (lookupList c filename (tableEntries c m (b :: ft)) FTEI) := by
  intro ft
  induction ft with
  | nil =>
    intro b fuel FTEI hft hfuel
    obtain ⟨fuel, rfl⟩ : ∃ f, fuel = f + 1 := ⟨fuel - 1, by simp at hfuel; omega⟩
    rw [LookupFile_loop, LookupFile_scan_eq]
    simp only [tableEntries, List.map_cons, List.map_nil, List.flatten_cons, List.flatten_nil,
      List.append_nil, lookupList, List.range_eq_range']
    split
    · rfl
    · rw [if_neg hft]
  | cons b2 ft ih =>
    intro b fuel FTEI hft hfuel
    obtain ⟨fuel, rfl⟩ : ∃ f, fuel = f + 1 := ⟨fuel - 1, by simp at hfuel; omega⟩
    obtain ⟨h1, h2, h3⟩ := hft
    rw [LookupFile_loop, LookupFile_scan_eq]
    have ht : tableEntries c m (b :: b2 :: ft)
        = (List.range' 0 (FFS_FTENTRIESPERBLOCK c)).map (fteiAt c m b)
          ++ tableEntries c m (b2 :: ft) := by
      simp [tableEntries, List.range_eq_range']
    rw [ht, lookupList, scanList_append]
    generalize scanList c filename (List.map (fteiAt c m b)
      (List.range' 0 (FFS_FTENTRIESPERBLOCK c))) FTEI = res
    rcases res with ⟨_ | r, e⟩
    · simp only []
      rw [if_pos h1, h2, ih b2 fuel e h3 (by simp at hfuel; omega)]
      rfl
    · rfl

theorem null16_ne_uninit16 (c : Cfg) (hc : c.ok) : FFS_NULL16 c ≠ FFS_UNINIT16 c := by
  rcases uninit8_cases c hc with ⟨h, h2⟩ | ⟨h, h2⟩ <;>
    simp [FFS_NULL16, FFS_UNINIT16, FFS_NULL8, h2]

/-- The entry scan finds the first live entry with the given name. -/
theorem scanList_spec (c : Cfg) (hc : c.ok) (filename : List Nat) :
    ∀ (es : List FFS_FTE_INFO_t) (last : FFS_FTE_INFO_t),
      ((∃ e ∈ liveOf c es, cstr filename = cstr e.FTE.filename) →
        ∃ e ∈ liveOf c es, cstr filename = cstr e.FTE.filename ∧
          scanList c filename es last = (some RES_OK, e)) ∧
      ((¬ ∃ e ∈ liveOf c es, cstr filename = cstr e.FTE.filename) →
        (scanList c filename es last).1 = none ∨
          (scanList c filename es last).1 = some RES_NOTFOUND) := by
  have hne := null16_ne_uninit16 c hc
  intro es
  induction es with
  | nil =>
    intro last
    exact ⟨fun ⟨e, he, _⟩ => by simp [liveOf] at he, fun _ => Or.inl rfl⟩
  | cons x xs ih =>
    intro last
    rw [scanList]
    by_cases h1 : x.FTE.startblock = FFS_NULL16 c
    · have hl : liveOf c (x :: xs) = liveOf c xs := by
        simp [liveOf, List.takeWhile_cons, h1, hne]
      rw [if_pos h1, hl]
      exact ih x
    · rw [if_neg h1]
      by_cases h2 : x.FTE.startblock = FFS_UNINIT16 c
      · have hl : liveOf c (x :: xs) = [] := by
          simp [liveOf, List.takeWhile_cons, h2]
        rw [if_pos h2, hl]
        exact ⟨fun ⟨e, he, _⟩ => by simp at he, fun _ => Or.inr rfl⟩
      · have hl : liveOf c (x :: xs) = x :: liveOf c xs := by
          simp [liveOf, List.takeWhile_cons, h1, h2]
        rw [if_neg h2, hl]
        by_cases h3 : cstr filename = cstr x.FTE.filename
        · rw [if_pos h3]
          exact ⟨fun _ => ⟨x, List.mem_cons_self _ _, h3, rfl⟩,
            fun h => absurd ⟨x, List.mem_cons_self _ _, h3⟩ h⟩
        · rw [if_neg h3]
          obtain ⟨i1, i2⟩ := ih x
          constructor
          · rintro ⟨e, he, hm⟩
            rcases List.mem_cons.mp he with rfl | he
            · exact absurd hm h3
            · obtain ⟨e2, a1, a2, a3⟩ := i1 ⟨e, he, hm⟩
              exact ⟨e2, List.mem_cons_of_mem _ a1, a2, a3⟩
          · intro hn
            apply i2
            rintro ⟨e, he, hm⟩
            exact hn ⟨e, List.mem_cons_of_mem _ he, hm⟩

/-- `LookupFile` on a well-formed table: it returns `RES_OK` with a live entry of that
name when one exists, and `RES_NOTFOUND` otherwise. -/
theorem LookupFile_spec (c : Cfg) (hc : c.ok) (m : Mem) (ft : List Nat) (filename : List Nat)
    (fuel : Nat) (hft : FTChainOK c m (0 :: ft)) (hfuel : ft.length < fuel) :
    ((∃ e ∈ liveEntries c m (0 :: ft), cstr filename = cstr e.FTE.filename) →
      ∃ e ∈ liveEntries c m (0 :: ft), cstr filename = cstr e.FTE.filename ∧
        LookupFile c fuel m filename = some (RES_OK, e)) ∧
    ((¬ ∃ e ∈ liveEntries c m (0 :: ft), cstr filename = cstr e.FTE.filename) →
      ∃ e, LookupFile c fuel m filename = some (RES_NOTFOUND, e)) := by
  rw [LookupFile, LookupFile_loop_eq c m filename ft 0 fuel _ hft hfuel]
  obtain ⟨h1, h2⟩ := scanList_spec c hc filename (tableEntries c m (0 :: ft))
    { FTE := { startblock := 0, filename := List.replicate FFS_FILENAME_LEN 0 }, fteAddr := 0 }
  constructor
  · intro h
    obtain ⟨e, a1, a2, a3⟩ := h1 h
    exact ⟨e, a1, a2, by rw [lookupList, a3]⟩
  · intro h
    have hn := h2 h
    rw [lookupList]
    generalize scanList c filename (tableEntries c m (0 :: ft))
      { FTE := { startblock := 0, filename := List.replicate FFS_FILENAME_LEN 0 }, fteAddr := 0 } = res at hn
    rcases res with ⟨_ | r, e⟩
    · exact ⟨_, rfl⟩
    · rcases hn with hn | hn
      · simp at hn
      · simp at hn; subst hn; exact ⟨_, rfl⟩

theorem fopen_rd_unfold (c : Cfg) (fuel : Nat) (m : Mem) (fs : FFS_FS_t) (F : FFS_FILE_t)
    (filename : List Nat) (r : RES_t) (e : FFS_FTE_INFO_t)
    (h : LookupFile c fuel m filename = some (r, e)) :
    ffs_fopen c fuel m fs (some F) filename FFS_RD
      = (if r = RES_OK then some (RES_OK, m, fs, some (rdHandle c m e.FTE.startblock))
         else some (r, m, fs, some F)) := by
  unfold ffs_fopen
  simp only [h, if_pos]
  by_cases hr : r = RES_OK
  · rw [if_pos hr, if_pos hr, rdHandle]
    split <;> rfl
  · rw [if_neg hr, if_neg hr]

theorem rdHandle_facts (c : Cfg) (m : Mem) (s : Nat) :
    (rdHandle c m s).filemode = FFS_RD ∧ (rdHandle c m s).virt_addr = 0 ∧
    (rdHandle c m s).startblock = s := by
  unfold rdHandle
  split <;> exact ⟨rfl, rfl, rfl⟩

/-- The handle built by `ffs_fopen` for reading stands at the start of the file. -/
theorem rdHandle_ok (c : Cfg) (hc : c.ok) (m : Mem) (b : Blk) (bs : List Blk)
    (h : ChainOK c m 0 (b :: bs)) : RdHandleOK c m (b :: bs) (rdHandle c m b.idx) := by
  have hB := hc.2.1
  obtain ⟨hf1, hf2, hf3⟩ := rdHandle_facts c m b.idx
  refine ⟨h, hf1, by rw [hf3]; rfl, Or.inl ?_⟩
  obtain ⟨⟨hv, hhdr, hct⟩, hchain2⟩ := h
  rw [nextIdx_isNone] at hct
  generalize hcs : b.chunks = cs at hct
  unfold rdHandle
  cases cs with
  | nil =>
    obtain ⟨hlast, he⟩ := hct (by simp only [sizeof_BHDR]; omega)
    rw [if_pos he]
    exact ⟨hlast, rfl, rfl, (if_pos (by simp only [sizeof_BHDR]; omega)).symm⟩
  | cons ch rest =>
    obtain ⟨hl1, hl2, hend, hhd, hrd, htail⟩ := hct
    rw [if_neg (by rw [hhd]; exact hdr_ne_uninit c hc _ (by omega) (by omega))]
    refine Or.inl ⟨0, by omega, rfl, ?_, rfl⟩
    show (m (b.idx * c.FLASH_BLOCKSIZE + sizeof_BHDR) + 256 - sizeof_CHDR) % 256 + 0 = ch.length
    rw [hhd]; simp only [sizeof_CHDR]; omega

/-- Opening for reading: `RES_NOTFOUND` without any effect when the name has no live
entry, `RES_OK` with a read handle at offset 0 when it has one. -/
theorem fopen_read_spec (c : Cfg) (hc : c.ok) (m : Mem) (fs : FFS_FS_t) (F : FFS_FILE_t)
    (ft : List Nat) (filename : List Nat) (fuel : Nat) (hft : FTChainOK c m (0 :: ft))
    (hfuel : ft.length < fuel) :
    (¬ HasFile c m (0 :: ft) filename →
      ffs_fopen c fuel m fs (some F) filename FFS_RD = some (RES_NOTFOUND, m, fs, some F)) ∧
    (HasFile c m (0 :: ft) filename →
      ∃ e ∈ liveEntries c m (0 :: ft), cstr filename = cstr e.FTE.filename ∧
        ffs_fopen c fuel m fs (some F) filename FFS_RD
          = some (RES_OK, m, fs, some (rdHandle c m e.FTE.startblock))) := by
  obtain ⟨h1, h2⟩ := LookupFile_spec c hc m ft filename fuel hft hfuel
  constructor
  · intro h
    obtain ⟨e, he⟩ := h2 h
    rw [fopen_rd_unfold c fuel m fs F filename _ e he, if_neg (by simp)]
  · intro h
    obtain ⟨e, a1, a2, a3⟩ := h1 h
    exact ⟨e, a1, a2, by rw [fopen_rd_unfold c fuel m fs F filename _ e a3, if_pos rfl]⟩

theorem FUB_step (c : Cfg) (m : Mem) (s fuel block : Nat) (fs : FFS_FS_t)
    (h1 : block + 1 < c.BlockCount) (hN : c.BlockCount ≤ 65535) :
    FindUnusedBlock_loop c m s (fuel + 1) block fs
      = (if block + 1 = s then
          (if m ((block + 1) * c.FLASH_BLOCKSIZE) = FFS_B_UNUSED c then some (block + 1, fs)
           else some (0, fs))
        else if m ((block + 1) * c.FLASH_BLOCKSIZE) ≠ FFS_B_UNUSED c then
          FindUnusedBlock_loop c m s fuel (block + 1) fs
        else some (block + 1, { fs with BlockSearchStart := block + 1 })) := by
  rw [FindUnusedBlock_loop]
  have e : (block + 1) % 65536 = block + 1 := by omega
  have e2 : ¬ (block + 1 = c.BlockCount) := by omega
  simp only [e, e2, false_and, if_false]

theorem FUB_wrap (c : Cfg) (m : Mem) (s fuel block : Nat) (fs : FFS_FS_t)
    (h1 : block + 1 = c.BlockCount) (hN : c.BlockCount ≤ 65535) :
    FindUnusedBlock_loop c m s (fuel + 1) block fs
      = (if s = 0 then some (0, fs)
        else if 1 = s then
          (if m (1 * c.FLASH_BLOCKSIZE) = FFS_B_UNUSED c then some (1, fs) else some (0, fs))
        else if m (1 * c.FLASH_BLOCKSIZE) ≠ FFS_B_UNUSED c then
          FindUnusedBlock_loop c m s fuel 1 fs
        else some (1, { fs with BlockSearchStart := 1 })) := by
  rw [FindUnusedBlock_loop]
  have e : (block + 1) % 65536 = c.BlockCount := by omega
  simp only [e, true_and, if_true]

/-- Second phase of the scan: after the wrap, blocks `block+1 .. s` remain. -/
theorem FUB_phase2 (c : Cfg) (m : Mem) (fs : FFS_FS_t) (hN : c.BlockCount ≤ 65535)
    (hs : fs.BlockSearchStart < c.BlockCount)
    (hhi : ∀ k, fs.BlockSearchStart < k → k < c.BlockCount → m (k * c.FLASH_BLOCKSIZE) ≠ FFS_B_UNUSED c) :
    ∀ (d block fuel : Nat), block + d = fs.BlockSearchStart → 1 ≤ d → d ≤ fuel →
      (∀ k, 1 ≤ k → k ≤ block → m (k * c.FLASH_BLOCKSIZE) ≠ FFS_B_UNUSED c) →
      AllocPost c m fs (FindUnusedBlock_loop c m fs.BlockSearchStart fuel block fs) := by
  intro d
  induction d with
  | zero => intro block fuel _ h; omega
  | succ d ih =>
    intro block fuel hb hd hfuel hlo
    obtain ⟨fuel, rfl⟩ : ∃ f, fuel = f + 1 := ⟨fuel - 1, by omega⟩
    rw [FUB_step c m _ fuel block fs (by omega) hN]
    by_cases he : block + 1 = fs.BlockSearchStart
    · rw [if_pos he]
      by_cases hu : m ((block + 1) * c.FLASH_BLOCKSIZE) = FFS_B_UNUSED c
      · rw [if_pos hu]
        exact ⟨_, _, rfl, rfl, hs, Or.inr ⟨by omega, by omega, hu, he.symm⟩⟩
      · rw [if_neg hu]
        refine ⟨_, _, rfl, rfl, hs, Or.inl ⟨rfl, rfl, fun k hk1 hk2 => ?_⟩⟩
        by_cases h3 : k ≤ block
        · exact hlo k hk1 h3
        · by_cases h4 : k = block + 1
          · rw [h4]; exact hu
          · exact hhi k (by omega) hk2
    · rw [if_neg he]
      by_cases hu : m ((block + 1) * c.FLASH_BLOCKSIZE) = FFS_B_UNUSED c
      · rw [if_neg (not_not.mpr hu)]
        exact ⟨_, _, rfl, rfl, by show block + 1 < _; omega,
          Or.inr ⟨by omega, by omega, hu, rfl⟩⟩
      · rw [if_pos hu]
        apply ih (block + 1) fuel (by omega) (by omega) (by omega)
        intro k hk1 hk2
        by_cases h4 : k = block + 1
        · rw [h4]; exact hu
        · exact hlo k hk1 (by omega)

/-- First phase of the scan: blocks `block+1 .. BlockCount-1`, then the wrap. -/
theorem FUB_phase1 (c : Cfg) (m : Mem) (fs : FFS_FS_t) (hN : c.BlockCount ≤ 65535)
    (hs : fs.BlockSearchStart < c.BlockCount) :
    ∀ (d block fuel : Nat), block + d = c.BlockCount → 1 ≤ d →
      c.BlockCount + fs.BlockSearchStart ≤ fuel + block →
      fs.BlockSearchStart ≤ block →
      (∀ k, fs.BlockSearchStart < k → k ≤ block → m (k * c.FLASH_BLOCKSIZE) ≠ FFS_B_UNUSED c) →
      AllocPost c m fs (FindUnusedBlock_loop c m fs.BlockSearchStart fuel block fs) := by
  intro d
  induction d with
  | zero => intro block fuel _ h; omega
  | succ d ih =>
    intro block fuel hb hd hfuel hsb hlo
    obtain ⟨fuel, rfl⟩ : ∃ f, fuel = f + 1 := ⟨fuel - 1, by omega⟩
    by_cases hw : block + 1 = c.BlockCount
    · rw [FUB_wrap c m _ fuel block fs hw hN]
      have hhi : ∀ k, fs.BlockSearchStart < k → k < c.BlockCount →
          m (k * c.FLASH_BLOCKSIZE) ≠ FFS_B_UNUSED c := fun k h1 h2 => hlo k h1 (by omega)
      by_cases h0 : fs.BlockSearchStart = 0
      · rw [if_pos h0]
        exact ⟨_, _, rfl, rfl, hs, Or.inl ⟨rfl, rfl, fun k hk1 hk2 => hhi k (by omega) hk2⟩⟩
      · rw [if_neg h0]
        by_cases h1 : 1 = fs.BlockSearchStart
        · rw [if_pos h1]
          by_cases hu : m (1 * c.FLASH_BLOCKSIZE) = FFS_B_UNUSED c
          · rw [if_pos hu]
            exact ⟨_, _, rfl, rfl, hs, Or.inr ⟨by omega, by omega, hu, h1.symm⟩⟩
          · rw [if_neg hu]
            refine ⟨_, _, rfl, rfl, hs, Or.inl ⟨rfl, rfl, fun k hk1 hk2 => ?_⟩⟩
            by_cases h4 : k = 1
            · rw [h4]; exact hu
            · exact hhi k (by omega) hk2
        · rw [if_neg h1]
          by_cases hu : m (1 * c.FLASH_BLOCKSIZE) = FFS_B_UNUSED c
          · rw [if_neg (not_not.mpr hu)]
            exact ⟨_, _, rfl, rfl, by show 1 < _; omega, Or.inr ⟨by omega, by omega, hu, rfl⟩⟩
          · rw [if_pos hu]
            apply FUB_phase2 c m fs hN hs hhi (fs.BlockSearchStart - 1) 1 fuel (by omega)
              (by omega) (by omega)
            intro k hk1 hk2
            have : k = 1 := by omega
            rw [this]; exact hu
    · rw [FUB_step c m _ fuel block fs (by omega) hN, if_neg (by omega)]
      by_cases hu : m ((block + 1) * c.FLASH_BLOCKSIZE) = FFS_B_UNUSED c
      · rw [if_neg (not_not.mpr hu)]
        exact ⟨_, _, rfl, rfl, by show block + 1 < _; omega,
          Or.inr ⟨by omega, by omega, hu, rfl⟩⟩
      · rw [if_pos hu]
        apply ih (block + 1) fuel (by omega) (by omega) (by omega) (by omega)
        intro k hk1 hk2
        by_cases h4 : k = block + 1
        · rw [h4]; exact hu
        · exact hlo k hk1 (by omega)

/-- `FindUnusedBlock` with a valid cursor: it terminates, does not touch the device,
and finds an unused block whenever one exists. -/
theorem FindUnusedBlock_spec (c : Cfg) (hc : c.ok) (m : Mem) (fs : FFS_FS_t) (fuel : Nat)
    (hs : fs.BlockSearchStart < c.BlockCount) (hfuel : c.BlockCount ≤ fuel) :
    AllocPost c m fs (FindUnusedBlock c fuel m fs) := by
  have hN := hc.2.2.2.1
  exact FUB_phase1 c m fs hN hs (c.BlockCount - fs.BlockSearchStart) fs.BlockSearchStart fuel
    (by omega) (by omega) (by omega) (Nat.le_refl _) (fun k h1 h2 => by omega)

theorem Write_read (c : Cfg) (hc : c.ok) (m : Mem) (a : Nat) (d : List Nat)
    (he : ∀ i, i < d.length → m (a + i) = FFS_UNINIT8 c) (hd : ∀ x ∈ d, x < 256) :
    flashSPAN_Read (flashSPAN_Write c m a d) a d.length = d := by
  rw [Read_eq_iff]
  intro i hi
  exact Write_inside c hc m a d i hi (he i hi) hd

theorem Write_one (c : Cfg) (hc : c.ok) (m : Mem) (a v : Nat) (he : m a = FFS_UNINIT8 c)
    (hv : v < 256) : flashSPAN_Write c m a [v] a = v := by
  have := Write_inside c hc m a [v] 0 (by simp) (by simpa using he) (by simpa using hv)
  simpa using this

theorem chunksEnd_nil (a : Nat) : chunksEnd a [] = a := by simp [chunksEnd]

theorem chunksEnd_cons (a : Nat) (ch : List Nat) (cs : List (List Nat)) :
    chunksEnd a (ch :: cs) = chunksEnd (a + 1 + ch.length) cs := by
  simp [chunksEnd]; omega

theorem chunksEnd_append (a : Nat) (cs cs2 : List (List Nat)) :
    chunksEnd a (cs ++ cs2) = chunksEnd (chunksEnd a cs) cs2 := by
  simp [chunksEnd]; omega

theorem chunksEnd_ge (a : Nat) (cs : List (List Nat)) : a ≤ chunksEnd a cs := by
  simp [chunksEnd]

theorem payloadLen_append (cs cs2 : List (List Nat)) :
    payloadLen (cs ++ cs2) = payloadLen cs + payloadLen cs2 := by
  simp [payloadLen]

theorem AgreeOn_mono (m m1 : Mem) (lo hi lo2 hi2 : Nat) (h : AgreeOn m m1 lo hi)
    (h1 : lo ≤ lo2) (h2 : hi2 ≤ hi) : AgreeOn m m1 lo2 hi2 :=
  fun x a b => h x (by omega) (by omega)

/-- The end of a chunk layout lies inside the block. -/
theorem ChunkTail_end_le (c : Cfg) (m : Mem) (base : Nat) (last : Bool) :
    ∀ (cs : List (List Nat)) (a : Nat), a ≤ base + c.FLASH_BLOCKSIZE →
      ChunkTail c m base last a cs → chunksEnd a cs ≤ base + c.FLASH_BLOCKSIZE := by
  intro cs
  induction cs with
  | nil => intro a ha _; rw [chunksEnd_nil]; exact ha
  | cons ch rest ih =>
    intro a ha h
    rw [chunksEnd_cons]
    exact ih _ h.2.2.1 h.2.2.2.2.2

/-- What a chunk layout says about the slot behind its last chunk. -/
theorem ChunkTail_end (c : Cfg) (m : Mem) (base : Nat) (last : Bool) :
    ∀ (cs : List (List Nat)) (a : Nat), ChunkTail c m base last a cs →
      ChunkTail c m base last (chunksEnd a cs) [] := by
  intro cs
  induction cs with
  | nil => intro a h; rw [chunksEnd_nil]; exact h
  | cons ch rest ih =>
    intro a h
    rw [chunksEnd_cons]
    exact ih _ h.2.2.2.2.2

/-- Chunks stay laid out when the device changes only behind them; further chunks
may follow. -/
theorem ChunkTail_append (c : Cfg) (m m1 : Mem) (base : Nat) (l0 last : Bool)
    (cs2 : List (List Nat)) :
    ∀ (cs : List (List Nat)) (a : Nat), ChunkTail c m base l0 a cs →
      AgreeOn m m1 a (chunksEnd a cs) →
      ChunkTail c m1 base last (chunksEnd a cs) cs2 → ChunkTail c m1 base last a (cs ++ cs2) := by
  intro cs
  induction cs with
  | nil => intro a _ _ h; rw [chunksEnd_nil] at h; exact h
  | cons ch rest ih =>
    intro a h hag h2
    obtain ⟨hl1, hl2, hend, hhd, hrd, htail⟩ := h
    rw [chunksEnd_cons] at hag h2
    have hge := chunksEnd_ge (a + 1 + ch.length) rest
    refine ⟨hl1, hl2, hend, ?_, ?_, ?_⟩
    · rw [hag a (Nat.le_refl _) (by omega)]; exact hhd
    · rw [Read_congr m m1 (a + 1) ch.length (fun i hi => hag _ (by omega) (by omega))]
      exact hrd
    · exact ih _ htail (AgreeOn_mono _ _ _ _ _ _ hag (by omega) (Nat.le_refl _)) h2

/-- A block that is not touched stays well-formed. -/
theorem BlockOK_congr (c : Cfg) (hc : c.ok) (m m1 : Mem) (b : Blk) (v : Nat) (nxt : Option Nat)
    (hag : AgreeOn m m1 (b.idx * c.FLASH_BLOCKSIZE) (b.idx * c.FLASH_BLOCKSIZE + c.FLASH_BLOCKSIZE))
    (h : BlockOK c m b v nxt) : BlockOK c m1 b v nxt := by
  have hB := hc.2.1
  obtain ⟨hv, hhdr, hct⟩ := h
  refine ⟨?_, ?_, ?_⟩
  · simp only [rd32, offsetof_virt_addr] at *
    rw [hag _ (by omega) (by omega), hag _ (by omega) (by omega), hag _ (by omega) (by omega),
      hag _ (by omega) (by omega)]
    exact hv
  · cases nxt with
    | none =>
      simp only [HdrOK] at *
      rw [hag _ (by omega) (by omega), hag _ (by omega) (by omega), hag _ (by omega) (by omega)]
      exact hhdr
    | some j =>
      simp only [HdrOK, rd16, offsetof_jump] at *
      rw [hag _ (by omega) (by omega), hag _ (by omega) (by omega), hag _ (by omega) (by omega)]
      exact hhdr
  · simp only [sizeof_BHDR] at hct ⊢
    have hle := ChunkTail_end_le c m _ _ b.chunks _ (by omega) hct
    have hge := chunksEnd_ge (b.idx * c.FLASH_BLOCKSIZE + 8) b.chunks
    have h2 := ChunkTail_append c m m1 _ _ nxt.isNone [] b.chunks _ hct
      (AgreeOn_mono _ _ _ _ _ _ hag (by omega) hle) (by
        intro hin
        have := ChunkTail_end c m _ _ b.chunks _ hct hin
        rw [hag _ (by omega) (by omega)]
        exact this)
    simpa using h2

/-- A chain none of whose blocks is touched stays well-formed. -/
theorem ChainSeg_congr (c : Cfg) (hc : c.ok) (m m1 : Mem) (nxt : Option Nat) :
    ∀ (bs : List Blk) (v : Nat),
      (∀ b ∈ bs, AgreeOn m m1 (b.idx * c.FLASH_BLOCKSIZE)
        (b.idx * c.FLASH_BLOCKSIZE + c.FLASH_BLOCKSIZE)) →
      ChainSeg c m v bs nxt → ChainSeg c m1 v bs nxt := by
  intro bs
  induction bs with
  | nil => intro v _ _; trivial
  | cons b rest ih =>
    intro v hag h
    exact ⟨BlockOK_congr c hc m m1 b v _ (hag b (List.mem_cons_self _ _)) h.1,
      ih _ (fun b2 hb2 => hag b2 (List.mem_cons_of_mem _ hb2)) h.2⟩

theorem ChainOK_iff_seg (c : Cfg) (m : Mem) :
    ∀ (bs : List Blk) (v : Nat), ChainOK c m v bs ↔ ChainSeg c m v bs none := by
  intro bs
  induction bs with
  | nil => intro v; exact Iff.rfl
  | cons b rest ih =>
    intro v
    simp only [ChainOK, ChainSeg, ih]
    cases rest <;> simp [nextIdx]

/-- Splitting a chain into a leading segment and the rest. -/
theorem ChainSeg_append (c : Cfg) (m : Mem) (ts : List Blk) (nxt : Option Nat) :
    ∀ (pre : List Blk) (v : Nat),
      ChainSeg c m v (pre ++ ts) nxt ↔
        ChainSeg c m v pre (match ts with | [] => nxt | t :: _ => some t.idx) ∧
        ChainSeg c m (v + (fileBytes pre).length) ts nxt := by
  intro pre
  induction pre with
  | nil => intro v; simp [ChainSeg, fileBytes]
  | cons b rest ih =>
    intro v
    have e : v + payloadLen b.chunks + (fileBytes rest).length
        = v + (fileBytes (b :: rest)).length := by rw [fileBytes_length_cons]; omega
    have ih2 := ih (v + payloadLen b.chunks)
    rw [e] at ih2
    cases rest with
    | nil =>
      cases ts with
      | nil => simp [ChainSeg, fileBytes]
      | cons t ts2 =>
        simp only [List.nil_append, List.cons_append] at ih2 ⊢
        simp only [ChainSeg, true_and] at ih2 ⊢
        rw [ih2]
        simp only [and_true]
    | cons b2 rest2 =>
      simp only [List.cons_append] at ih2 ⊢
      rw [ChainSeg, ih2, ChainSeg]
      simp only [and_assoc]

theorem Write_at (c : Cfg) (m : Mem) (a : Nat) (d : List Nat) (i : Nat) (hi : i < d.length) :
    flashSPAN_Write c m a d (a + i) = progByte c (m (a + i)) (d.getD i 0) := by
  unfold flashSPAN_Write
  rw [if_pos (by omega), Nat.add_sub_cancel_left]

theorem enc_bytes (v : Nat) : (∀ x ∈ enc16 v, x < 256) ∧ (∀ x ∈ enc32 v, x < 256) := by
  constructor <;> intro x hx <;> simp [enc16, enc32] at hx <;> omega

theorem uninit16_enc (c : Cfg) (hc : c.ok) : enc16 (FFS_UNINIT16 c) = [FFS_UNINIT8 c, FFS_UNINIT8 c] := by
  rcases uninit8_cases c hc with ⟨h, h2⟩ | ⟨h, h2⟩ <;> simp [enc16, FFS_UNINIT16, h2]

theorem rd32_enc (a b c2 d v : Nat) (hv : v < 4294967296) (ha : a = v % 256)
    (hb : b = v / 256 % 256) (hc2 : c2 = v / 65536 % 256) (hd : d = v / 16777216 % 256) :
    a + 256 * b + 65536 * c2 + 16777216 * d = v := by
  omega

theorem rd16_enc (a b v : Nat) (hv : v < 65536) (ha : a = v % 256) (hb : b = v / 256 % 256) :
    a + 256 * b = v := by
  omega

theorem padByte_lt (c : Cfg) : padByte c < 256 := by
  unfold padByte; omega

/-- Writing a fresh block header into an erased block, whatever its padding byte. -/
theorem Write_bhdr_pad (c : Cfg) (hc : c.ok) (m : Mem) (a st v pad : Nat) (hp : pad < 256)
    (he : ∀ o, o < 8 → m (a + o) = FFS_UNINIT8 c) (hst : st < 256) (hv : v < 4294967296) :
    flashSPAN_Write c m a (encBHDR pad { status := st, jump := FFS_UNINIT16 c, virt_addr := v }) a
      = st ∧
    flashSPAN_Write c m a (encBHDR pad { status := st, jump := FFS_UNINIT16 c, virt_addr := v })
      (a + 2) = FFS_UNINIT8 c ∧
    flashSPAN_Write c m a (encBHDR pad { status := st, jump := FFS_UNINIT16 c, virt_addr := v })
      (a + 3) = FFS_UNINIT8 c ∧
    rd32 (flashSPAN_Write c m a (encBHDR pad { status := st, jump := FFS_UNINIT16 c, virt_addr := v }))
      (a + 4) = v := by
  have hE := (status_facts c hc).2.2.2.2.2.2.2.2.2
  have hform : encBHDR pad { status := st, jump := FFS_UNINIT16 c, virt_addr := v }
      = [st, pad, FFS_UNINIT8 c, FFS_UNINIT8 c, v % 256, v / 256 % 256, v / 65536 % 256,
         v / 16777216 % 256] := by
    simp [encBHDR, uninit16_enc c hc, enc32]
  generalize encBHDR pad { status := st, jump := FFS_UNINIT16 c, virt_addr := v } = L at hform ⊢
  have hb : ∀ x ∈ L, x < 256 := by
    intro x hx
    rw [hform] at hx
    simp only [List.mem_cons, List.mem_singleton, List.not_mem_nil, or_false] at hx
    omega
  have hl : L.length = 8 := by rw [hform]; rfl
  have hw : ∀ i, i < 8 → flashSPAN_Write c m a L (a + i) = L.getD i 0 :=
    fun i hi => Write_inside c hc m a _ i (by omega) (he i hi) hb
  refine ⟨?_, ?_, ?_, ?_⟩
  · exact (hw 0 (by omega)).trans (by rw [hform]; rfl)
  · exact (hw 2 (by omega)).trans (by rw [hform]; rfl)
  · exact (hw 3 (by omega)).trans (by rw [hform]; rfl)
  · have h3 := (hw 4 (by omega)).trans (show L.getD 4 0 = v % 256 by rw [hform]; rfl)
    have h4 := (hw 5 (by omega)).trans (show L.getD 5 0 = v / 256 % 256 by rw [hform]; rfl)
    have h5 := (hw 6 (by omega)).trans (show L.getD 6 0 = v / 65536 % 256 by rw [hform]; rfl)
    have h6 := (hw 7 (by omega)).trans (show L.getD 7 0 = v / 16777216 % 256 by rw [hform]; rfl)
    simp only [rd32]
    have e1 : a + 4 + 1 = a + 5 := rfl
    have e2 : a + 4 + 2 = a + 6 := rfl
    have e3 : a + 4 + 3 = a + 7 := rfl
    rw [e1, e2, e3]
    exact rd32_enc _ _ _ _ v hv h3 h4 h5 h6

/-- Writing a fresh block header into an erased block. -/
theorem Write_bhdr (c : Cfg) (hc : c.ok) (m : Mem) (a st v : Nat)
    (he : ∀ o, o < 8 → m (a + o) = FFS_UNINIT8 c) (hst : st < 256) (hv : v < 4294967296) :
    flashSPAN_Write c m a (encBHDR (padByte c) { status := st, jump := FFS_UNINIT16 c, virt_addr := v }) a
      = st ∧
    flashSPAN_Write c m a (encBHDR (padByte c) { status := st, jump := FFS_UNINIT16 c, virt_addr := v })
      (a + 2) = FFS_UNINIT8 c ∧
    flashSPAN_Write c m a (encBHDR (padByte c) { status := st, jump := FFS_UNINIT16 c, virt_addr := v })
      (a + 3) = FFS_UNINIT8 c ∧
    rd32 (flashSPAN_Write c m a (encBHDR (padByte c) { status := st, jump := FFS_UNINIT16 c, virt_addr := v }))
      (a + 4) = v :=
  Write_bhdr_pad c hc m a st v (padByte c) (padByte_lt c) he hst hv

/-- Turning the header of a full last block into a jump. -/
theorem Write_jump (c : Cfg) (hc : c.ok) (m : Mem) (a blk : Nat)
    (h0 : m a = FFS_B_EOF c) (h1 : m (a + 2) = FFS_UNINIT8 c) (h2 : m (a + 3) = FFS_UNINIT8 c)
    (hblk : blk < 65536) :
    flashSPAN_Write c m a (encSBHDR (padByte c) (FFS_B_JUMP c) blk) a = FFS_B_JUMP c ∧
    rd16 (flashSPAN_Write c m a (encSBHDR (padByte c) (FFS_B_JUMP c) blk)) (a + 2) = blk := by
  have hl : (encSBHDR (padByte c) (FFS_B_JUMP c) blk).length = 4 := by simp [encSBHDR, enc16]
  have w0 := Write_at c m a (encSBHDR (padByte c) (FFS_B_JUMP c) blk) 0 (by omega)
  have w1 := Write_at c m a (encSBHDR (padByte c) (FFS_B_JUMP c) blk) 2 (by omega)
  have w2 := Write_at c m a (encSBHDR (padByte c) (FFS_B_JUMP c) blk) 3 (by omega)
  simp only [encSBHDR, enc16, List.getD_cons_succ, List.getD_cons_zero, Nat.add_zero] at w0 w1 w2
  rw [h0, progByte_EOF_JUMP c hc] at w0
  rw [h1, progByte_erased c hc _ (by omega)] at w1
  rw [h2, progByte_erased c hc _ (by omega)] at w2
  refine ⟨w0, ?_⟩
  simp only [rd16]
  have e1 : a + 2 + 1 = a + 3 := rfl
  rw [e1]
  exact rd16_enc _ _ blk hblk w1 w2

theorem Touched_write (c : Cfg) (m : Mem) (a : Nat) (d : List Nat) (k : Nat)
    (h1 : k * c.FLASH_BLOCKSIZE ≤ a) (h2 : a + d.length ≤ k * c.FLASH_BLOCKSIZE + c.FLASH_BLOCKSIZE) :
    Touched c m (flashSPAN_Write c m a d) [k] := by
  intro x hx
  apply Write_outside
  by_contra hcon
  apply hx
  have e : x = k * c.FLASH_BLOCKSIZE + (x - k * c.FLASH_BLOCKSIZE) := by omega
  rw [e, div_block _ _ _ (by omega)]
  simp

theorem Touched_trans (c : Cfg) (m m1 m2 : Mem) (S1 S2 S : List Nat) (h1 : Touched c m m1 S1)
    (h2 : Touched c m1 m2 S2) (hs1 : ∀ k ∈ S1, k ∈ S) (hs2 : ∀ k ∈ S2, k ∈ S) :
    Touched c m m2 S := by
  intro x hx
  rw [h2 x (fun h => hx (hs2 _ h)), h1 x (fun h => hx (hs1 _ h))]

theorem Touched_agree (c : Cfg) (m m1 : Mem) (S : List Nat) (k : Nat) (h : Touched c m m1 S)
    (hk : k ∉ S) :
    AgreeOn m m1 (k * c.FLASH_BLOCKSIZE) (k * c.FLASH_BLOCKSIZE + c.FLASH_BLOCKSIZE) := by
  intro x h1 h2
  apply h
  have e : x = k * c.FLASH_BLOCKSIZE + (x - k * c.FLASH_BLOCKSIZE) := by omega
  rw [e, div_block _ _ _ (by omega)]
  exact hk

theorem ChainSeg_status (c : Cfg) (m : Mem) (j : Nat) :
    ∀ (pre : List Blk) (v : Nat), ChainSeg c m v pre (some j) →
      ∀ b ∈ pre, m (b.idx * c.FLASH_BLOCKSIZE) = FFS_B_JUMP c := by
  intro pre
  induction pre with
  | nil => intro v _ b hb; simp at hb
  | cons p rest ih =>
    intro v h b hb
    rcases List.mem_cons.mp hb with rfl | hb
    · have := h.1.2.1
      cases rest with
      | nil => exact this.1
      | cons _ _ => exact this.1
    · exact ih _ h.2 b hb

theorem ChainSeg_ne (c : Cfg) (hc : c.ok) (m : Mem) (j k : Nat) (pre : List Blk) (v : Nat)
    (h : ChainSeg c m v pre (some j)) (hk : m (k * c.FLASH_BLOCKSIZE) ≠ FFS_B_JUMP c) :
    ∀ b ∈ pre, b.idx ≠ k := by
  intro b hb he
  rw [← he] at hk
  exact hk (ChainSeg_status c m j pre v h b hb)

/-- A segment of a chain stays well-formed when the device changes only in blocks
that do not belong to it. -/
theorem ChainSeg_touched (c : Cfg) (hc : c.ok) (m m1 : Mem) (S : List Nat) (nxt : Option Nat)
    (pre : List Blk) (v : Nat) (ht : Touched c m m1 S) (hS : ∀ b ∈ pre, b.idx ∉ S)
    (h : ChainSeg c m v pre nxt) : ChainSeg c m1 v pre nxt :=
  ChainSeg_congr c hc m m1 nxt pre v (fun b hb => Touched_agree c m m1 S b.idx ht (hS b hb)) h

/-- A block stays well-formed when the device changes only behind the slot that
follows its last chunk. -/
theorem BlockOK_keep (c : Cfg) (hc : c.ok) (m m1 : Mem) (b : Blk) (v : Nat) (nxt : Option Nat)
    (hag : AgreeOn m m1 (b.idx * c.FLASH_BLOCKSIZE)
      (chunksEnd (b.idx * c.FLASH_BLOCKSIZE + 8) b.chunks + 1))
    (h : BlockOK c m b v nxt) : BlockOK c m1 b v nxt := by
  have hge := chunksEnd_ge (b.idx * c.FLASH_BLOCKSIZE + 8) b.chunks
  obtain ⟨hv, hhdr, hct⟩ := h
  refine ⟨?_, ?_, ?_⟩
  · simp only [rd32, offsetof_virt_addr] at *
    rw [hag _ (by omega) (by omega), hag _ (by omega) (by omega), hag _ (by omega) (by omega),
      hag _ (by omega) (by omega)]
    exact hv
  · cases nxt with
    | none =>
      simp only [HdrOK] at *
      rw [hag _ (by omega) (by omega), hag _ (by omega) (by omega), hag _ (by omega) (by omega)]
      exact hhdr
    | some j =>
      simp only [HdrOK, rd16, offsetof_jump] at *
      rw [hag _ (by omega) (by omega), hag _ (by omega) (by omega), hag _ (by omega) (by omega)]
      exact hhdr
  · simp only [sizeof_BHDR] at hct ⊢
    have h2 := ChunkTail_append c m m1 _ _ nxt.isNone [] b.chunks _ hct
      (AgreeOn_mono _ _ _ _ _ _ hag (by omega) (by omega)) (by
        intro hin
        have := ChunkTail_end c m _ _ b.chunks _ hct hin
        rw [hag _ (by omega) (by omega)]
        exact this)
    simpa using h2

theorem FreeOK_touched (c : Cfg) (m m1 : Mem) (S : List Nat) (ht : Touched c m m1 S)
    (hS : ∀ k ∈ S, m1 (k * c.FLASH_BLOCKSIZE) ≠ FFS_UNINIT8 c) (h : FreeOK c m) (hB : 0 < c.FLASH_BLOCKSIZE) :
    FreeOK c m1 := by
  intro k hkN hk o ho
  have hkS : k ∉ S := fun hin => hS k hin hk
  have hag := Touched_agree c m m1 S k ht hkS
  rw [hag _ (by omega) (by omega)] at hk
  rw [hag _ (by omega) (by omega)]
  exact h k hkN hk o ho

/-- Writing data bytes into the open chunk. -/
theorem WrInv_data (c : Cfg) (hc : c.ok) (m : Mem) (pre : List Blk) (t : Blk) (cur : List Nat)
    (hw nB rem : Nat) (d : List Nat) (rem2 : Nat) (h : WrInv c m pre t cur hw nB rem)
    (hrem : rem = d.length + rem2) (hd : ∀ x ∈ d, x < 256) :
    WrInv c (flashSPAN_Write c m (hw + nB) d) pre t (cur ++ d) hw (nB + d.length) rem2 ∧
    Touched c m (flashSPAN_Write c m (hw + nB) d) [t.idx] ∧
    (FreeOK c m → FreeOK c (flashSPAN_Write c m (hw + nB) d)) := by
  have hB := hc.2.1
  obtain ⟨hseg, hblk, hhw, hnB, hsum, hhd, hrd, htail⟩ := h
  have hge := chunksEnd_ge (t.idx * c.FLASH_BLOCKSIZE + 8) t.chunks
  have hT : Touched c m (flashSPAN_Write c m (hw + nB) d) [t.idx] :=
    Touched_write c m _ d t.idx (by omega) (by omega)
  have hlow : ∀ x, x < hw + nB → flashSPAN_Write c m (hw + nB) d x = m x :=
    fun x hx => Write_outside c m _ d x (Or.inl hx)
  have hstat : m (t.idx * c.FLASH_BLOCKSIZE) = FFS_B_EOF c := hblk.2.1.1
  have hne : ∀ b ∈ pre, b.idx ∉ [t.idx] := by
    intro b hb
    simp only [List.mem_singleton]
    exact ChainSeg_ne c hc m t.idx t.idx pre 0 hseg (by rw [hstat]; exact (status_facts c hc).1) b hb
  refine ⟨⟨ChainSeg_touched c hc m _ [t.idx] _ pre 0 hT hne hseg, ?_, hhw, ?_, by omega, ?_, ?_, ?_⟩,
    hT, ?_⟩
  · exact BlockOK_keep c hc m _ t _ none (fun x _ h2 => hlow x (by omega)) hblk
  · simp; omega
  · rw [hlow hw (by omega)]; exact hhd
  · rw [List.length_append, Read_add]
    congr 1
    · rw [Read_congr m _ (hw + 1) cur.length (fun i hi => hlow _ (by omega))]; exact hrd
    · have e : hw + 1 + cur.length = hw + nB := by omega
      rw [e]
      exact Write_read c hc m (hw + nB) d (fun i hi => htail _ (by omega) (by omega)) hd
  · intro x h1 h2
    rw [Write_outside c m _ d x (Or.inr (by omega))]
    exact htail x (by omega) h2
  · intro hfree
    apply FreeOK_touched c m _ [t.idx] hT _ hfree (by omega)
    intro k hk
    simp only [List.mem_singleton] at hk
    rw [hk, hlow _ (by omega), hstat]
    exact (status_facts c hc).2.1

theorem fileBytes_snoc (pre : List Blk) (t : Blk) :
    fileBytes (pre ++ [t]) = fileBytes pre ++ t.chunks.flatten := by
  simp [fileBytes]

/-- Finalizing the open chunk: its header is written and it joins the chunks of the
last block. -/
theorem WrInv_close (c : Cfg) (hc : c.ok) (m : Mem) (pre : List Blk) (t : Blk) (cur : List Nat)
    (hw nB rem : Nat) (h : WrInv c m pre t cur hw nB rem) (h2 : 2 ≤ nB) (h254 : nB ≤ 254) :
    ChainSeg c (flashSPAN_Write c m hw [nB]) 0 pre (some t.idx) ∧
    BlockOK c (flashSPAN_Write c m hw [nB]) { idx := t.idx, chunks := t.chunks ++ [cur] }
      (fileBytes pre).length none ∧
    chunksEnd (t.idx * c.FLASH_BLOCKSIZE + 8) (t.chunks ++ [cur]) = hw + nB ∧
    (∀ x, hw + nB ≤ x → x < t.idx * c.FLASH_BLOCKSIZE + c.FLASH_BLOCKSIZE →
      flashSPAN_Write c m hw [nB] x = FFS_UNINIT8 c) ∧
    Touched c m (flashSPAN_Write c m hw [nB]) [t.idx] ∧
    (FreeOK c m → FreeOK c (flashSPAN_Write c m hw [nB])) := by
  have hB := hc.2.1
  obtain ⟨hseg, hblk, hhw, hnB, hsum, hhd, hrd, htail⟩ := h
  have hge := chunksEnd_ge (t.idx * c.FLASH_BLOCKSIZE + 8) t.chunks
  have hT : Touched c m (flashSPAN_Write c m hw [nB]) [t.idx] :=
    Touched_write c m _ [nB] t.idx (by omega) (by simp; omega)
  have hoth : ∀ x, x ≠ hw → flashSPAN_Write c m hw [nB] x = m x :=
    fun x hx => Write_outside c m _ [nB] x (by simp; omega)
  have hstat : m (t.idx * c.FLASH_BLOCKSIZE) = FFS_B_EOF c := hblk.2.1.1
  have hne : ∀ b ∈ pre, b.idx ∉ [t.idx] := by
    intro b hb
    simp only [List.mem_singleton]
    exact ChainSeg_ne c hc m t.idx t.idx pre 0 hseg (by rw [hstat]; exact (status_facts c hc).1) b hb
  have hend : chunksEnd (t.idx * c.FLASH_BLOCKSIZE + 8) (t.chunks ++ [cur]) = hw + nB := by
    rw [chunksEnd_append, ← hhw, chunksEnd_cons, chunksEnd_nil]; omega
  refine ⟨ChainSeg_touched c hc m _ [t.idx] _ pre 0 hT hne hseg, ?_, hend, ?_, hT, ?_⟩
  · obtain ⟨hv, hhdr, hct⟩ := hblk
    refine ⟨?_, ?_, ?_⟩
    · simp only [rd32, offsetof_virt_addr] at *
      rw [hoth _ (by omega), hoth _ (by omega), hoth _ (by omega), hoth _ (by omega)]
      exact hv
    · simp only [HdrOK] at *
      rw [hoth _ (by omega), hoth _ (by omega), hoth _ (by omega)]
      exact hhdr
    · simp only [sizeof_BHDR] at hct ⊢
      apply ChunkTail_append c m _ _ _ _ [cur] t.chunks _ hct
      · intro x h1 h2; exact hoth x (by omega)
      · rw [← hhw]
        refine ⟨by omega, by omega, by omega, ?_, ?_, ?_⟩
        · rw [Write_one c hc m hw nB hhd (by omega)]; omega
        · rw [Read_congr m _ (hw + 1) cur.length (fun i hi => hoth _ (by omega))]; exact hrd
        · intro hin
          refine ⟨rfl, ?_⟩
          rw [hoth _ (by omega)]
          exact htail _ (by omega) (by omega)
  · intro x h1 h2
    rw [hoth x (by omega)]
    exact htail x h1 h2
  · intro hfree
    apply FreeOK_touched c m _ [t.idx] hT _ hfree (by omega)
    intro k hk
    simp only [List.mem_singleton] at hk
    rw [hk, hoth _ (by omega), hstat]
    exact (status_facts c hc).2.1

/-- Behind a finalized chunk the next chunk is opened in the same block. -/
theorem WrInv_next (c : Cfg) (hc : c.ok) (m : Mem) (pre : List Blk) (t : Blk) (cur : List Nat)
    (hw nB rem rem2 : Nat) (h : WrInv c m pre t cur hw nB rem) (h2 : 2 ≤ nB) (h254 : nB ≤ 254)
    (hrem : rem = rem2 + 1) :
    WrInv c (flashSPAN_Write c m hw [nB]) pre { idx := t.idx, chunks := t.chunks ++ [cur] } []
      (hw + nB) 1 rem2 := by
  obtain ⟨a1, a2, a3, a4, a5, a6⟩ := WrInv_close c hc m pre t cur hw nB rem h h2 h254
  obtain ⟨hseg, hblk, hhw, hnB, hsum, hhd, hrd, htail⟩ := h
  unfold WrInv
  dsimp only
  refine ⟨a1, a2, a3.symm, rfl, by omega, ?_, ?_, ?_⟩
  · exact a4 _ (by omega) (by omega)
  · rfl
  · intro x h1 h2
    exact a4 x (by omega) h2

/-- After finalizing a chunk that fills the block, the chain is well-formed and its
last block is full. -/
theorem WrInv_full (c : Cfg) (hc : c.ok) (m : Mem) (pre : List Blk) (t : Blk) (cur : List Nat)
    (hw nB rem : Nat) (h : WrInv c m pre t cur hw nB rem) (h2 : 2 ≤ nB) (h254 : nB ≤ 254)
    (hrem : rem ≤ 1) :
    ChainOK c (flashSPAN_Write c m hw [nB]) 0 (pre ++ [{ idx := t.idx, chunks := t.chunks ++ [cur] }]) ∧
    t.idx * c.FLASH_BLOCKSIZE + c.FLASH_BLOCKSIZE
      < chunksEnd (t.idx * c.FLASH_BLOCKSIZE + 8) (t.chunks ++ [cur]) + 2 := by
  obtain ⟨a1, a2, a3, a4, a5, a6⟩ := WrInv_close c hc m pre t cur hw nB rem h h2 h254
  obtain ⟨hseg, hblk, hhw, hnB, hsum, hhd, hrd, htail⟩ := h
  constructor
  · rw [ChainOK_iff_seg, ChainSeg_append]
    exact ⟨a1, by simpa [ChainSeg] using a2⟩
  · rw [a3]; omega

/-- Chaining a freshly allocated block behind a full last block. -/
theorem WrInv_newblock (c : Cfg) (hc : c.ok) (m : Mem) (pre : List Blk) (t : Blk) (blk v : Nat)
    (hseg : ChainSeg c m 0 pre (some t.idx)) (hblk : BlockOK c m t (fileBytes pre).length none)
    (hfull : t.idx * c.FLASH_BLOCKSIZE + c.FLASH_BLOCKSIZE
      < chunksEnd (t.idx * c.FLASH_BLOCKSIZE + 8) t.chunks + 2)
    (hfree : FreeOK c m) (hu : m (blk * c.FLASH_BLOCKSIZE) = FFS_UNINIT8 c) (hb : blk < 65536)
    (hbN : blk < c.BlockCount)
    (hv : v = (fileBytes (pre ++ [t])).length) (hv2 : v < 4294967296) :
    WrInv c (flashSPAN_Write c (flashSPAN_Write c m (blk * c.FLASH_BLOCKSIZE)
        (encBHDR (padByte c) { status := FFS_B_EOF c, jump := FFS_UNINIT16 c, virt_addr := v }))
        (t.idx * c.FLASH_BLOCKSIZE) (encSBHDR (padByte c) (FFS_B_JUMP c) blk))
      (pre ++ [t]) { idx := blk, chunks := [] } [] (blk * c.FLASH_BLOCKSIZE + 8) 1
      (c.FLASH_BLOCKSIZE - 9) ∧
    Touched c m (flashSPAN_Write c (flashSPAN_Write c m (blk * c.FLASH_BLOCKSIZE)
        (encBHDR (padByte c) { status := FFS_B_EOF c, jump := FFS_UNINIT16 c, virt_addr := v }))
        (t.idx * c.FLASH_BLOCKSIZE) (encSBHDR (padByte c) (FFS_B_JUMP c) blk)) [t.idx, blk] ∧
    FreeOK c (flashSPAN_Write c (flashSPAN_Write c m (blk * c.FLASH_BLOCKSIZE)
        (encBHDR (padByte c) { status := FFS_B_EOF c, jump := FFS_UNINIT16 c, virt_addr := v }))
        (t.idx * c.FLASH_BLOCKSIZE) (encSBHDR (padByte c) (FFS_B_JUMP c) blk)) := by
  have hB := hc.2.1
  have hsf := status_facts c hc
  have hge := chunksEnd_ge (t.idx * c.FLASH_BLOCKSIZE + 8) t.chunks
  have hstat : m (t.idx * c.FLASH_BLOCKSIZE) = FFS_B_EOF c := hblk.2.1.1
  have hl7 : (encBHDR (padByte c) { status := FFS_B_EOF c, jump := FFS_UNINIT16 c, virt_addr := v }).length = 8 := by
    simp [encBHDR, enc16, enc32]
  have hl3 : (encSBHDR (padByte c) (FFS_B_JUMP c) blk).length = 4 := by simp [encSBHDR, enc16]
  have hne : blk ≠ t.idx := by
    intro h; rw [h, hstat] at hu; exact hsf.2.1 hu
  have herased := hfree blk hbN hu
  obtain ⟨w0, w1, w2, w3⟩ := Write_bhdr c hc m (blk * c.FLASH_BLOCKSIZE) (FFS_B_EOF c) v
    (fun o ho => herased o (by omega)) hsf.2.2.2.2.2.1 hv2
  generalize hm3 : flashSPAN_Write c m (blk * c.FLASH_BLOCKSIZE)
    (encBHDR (padByte c) { status := FFS_B_EOF c, jump := FFS_UNINIT16 c, virt_addr := v }) = m3 at *
  have hT3 : Touched c m m3 [blk] := by
    rw [← hm3]; exact Touched_write c m _ _ blk (Nat.le_refl _) (by rw [hl7]; omega)
  have hm3o : ∀ x, blk * c.FLASH_BLOCKSIZE + 8 ≤ x → m3 x = m x := by
    intro x hx; rw [← hm3]; exact Write_outside c m _ _ x (Or.inr (by rw [hl7]; omega))
  have ag3 := Touched_agree c m m3 [blk] t.idx hT3 (by simpa using hne.symm)
  obtain ⟨j0, j1⟩ := Write_jump c hc m3 (t.idx * c.FLASH_BLOCKSIZE) blk
    (by rw [ag3 _ (by omega) (by omega)]; exact hstat)
    (by rw [ag3 _ (by omega) (by omega)]; exact hblk.2.1.2.1)
    (by rw [ag3 _ (by omega) (by omega)]; exact hblk.2.1.2.2) hb
  generalize hm4 : flashSPAN_Write c m3 (t.idx * c.FLASH_BLOCKSIZE)
    (encSBHDR (padByte c) (FFS_B_JUMP c) blk) = m4 at *
  have hT4 : Touched c m3 m4 [t.idx] := by
    rw [← hm4]; exact Touched_write c m3 _ _ t.idx (Nat.le_refl _) (by rw [hl3]; omega)
  have hm4o : ∀ x, t.idx * c.FLASH_BLOCKSIZE + 4 ≤ x → m4 x = m3 x := by
    intro x hx; rw [← hm4]; exact Write_outside c m3 _ _ x (Or.inr (by rw [hl3]; omega))
  have ag4 := Touched_agree c m3 m4 [t.idx] blk hT4 (by simpa using hne)
  have hT : Touched c m m4 [t.idx, blk] :=
    Touched_trans c m m3 m4 [blk] [t.idx] _ hT3 hT4 (by simp) (by simp)
  have hpre : ∀ b ∈ pre, b.idx ∉ [t.idx, blk] := by
    intro b hb
    have h1 := ChainSeg_ne c hc m t.idx t.idx pre 0 hseg (by rw [hstat]; exact hsf.1) b hb
    have h2 := ChainSeg_ne c hc m t.idx blk pre 0 hseg (by rw [hu]; exact hsf.2.2.1.symm) b hb
    simp [h1, h2]
  refine ⟨⟨?_, ?_, ?_, rfl, ?_, ?_, rfl, ?_⟩, hT, ?_⟩
  · rw [ChainSeg_append]
    refine ⟨ChainSeg_touched c hc m m4 _ _ pre 0 hT hpre hseg, ?_, trivial⟩
    obtain ⟨hv0, hhdr, hct⟩ := hblk
    refine ⟨?_, ⟨j0, j1⟩, ?_⟩
    · simp only [rd32, offsetof_virt_addr, Nat.zero_add] at *
      rw [hm4o _ (by omega), hm4o _ (by omega), hm4o _ (by omega), hm4o _ (by omega),
        ag3 _ (by omega) (by omega), ag3 _ (by omega) (by omega), ag3 _ (by omega) (by omega),
        ag3 _ (by omega) (by omega)]
      exact hv0
    · simp only [sizeof_BHDR] at hct ⊢
      have h2 := ChunkTail_append c m m4 _ _ false [] t.chunks _ hct
        (fun x h1 h2 => by
          rw [hm4o _ (by omega)]
          have hle := ChunkTail_end_le c m _ _ t.chunks _ (by omega) hct
          exact ag3 x (by omega) (by omega))
        (fun hin => by omega)
      simpa using h2
  · refine ⟨?_, ⟨?_, ?_, ?_⟩, ?_⟩
    · show rd32 m4 (blk * c.FLASH_BLOCKSIZE + offsetof_virt_addr) = _
      simp only [rd32, offsetof_virt_addr] at *
      rw [ag4 _ (by omega) (by omega), ag4 _ (by omega) (by omega), ag4 _ (by omega) (by omega),
        ag4 _ (by omega) (by omega), ← hv]
      exact w3
    · show m4 (blk * c.FLASH_BLOCKSIZE) = _
      rw [ag4 _ (by omega) (by omega)]; exact w0
    · show m4 (blk * c.FLASH_BLOCKSIZE + 2) = _
      rw [ag4 _ (by omega) (by omega)]; exact w1
    · show m4 (blk * c.FLASH_BLOCKSIZE + 3) = _
      rw [ag4 _ (by omega) (by omega)]; exact w2
    · intro _
      refine ⟨rfl, ?_⟩
      show m4 (blk * c.FLASH_BLOCKSIZE + 8) = _
      rw [ag4 _ (by omega) (by omega), hm3o _ (by omega)]
      exact herased 8 (by omega)
  · show _ = chunksEnd (blk * c.FLASH_BLOCKSIZE + 8) []
    rw [chunksEnd_nil]
  · show blk * c.FLASH_BLOCKSIZE + 8 + 1 + (c.FLASH_BLOCKSIZE - 9)
      = blk * c.FLASH_BLOCKSIZE + c.FLASH_BLOCKSIZE
    omega
  · rw [ag4 _ (by omega) (by omega), hm3o _ (by omega)]
    exact herased 8 (by omega)
  · intro x h1 h2
    have h2' : x < blk * c.FLASH_BLOCKSIZE + c.FLASH_BLOCKSIZE := h2
    rw [ag4 _ (by omega) (by omega), hm3o _ (by omega)]
    have := herased (x - blk * c.FLASH_BLOCKSIZE) (by omega)
    rw [← this]; congr 1; omega
  · apply FreeOK_touched c m m4 [t.idx, blk] hT _ hfree (by omega)
    intro k hk
    simp only [List.mem_cons, List.mem_singleton, List.not_mem_nil, or_false] at hk
    rcases hk with rfl | rfl
    · rw [j0]; exact hsf.2.2.1
    · rw [ag4 _ (by omega) (by omega), w0]; exact hsf.2.1

theorem writelen_eq (L nB rem w : Nat) (hnB : nB ≤ 254) (h1 : w ≤ L) (h2 : w + nB ≤ 254)
    (h3 : w ≤ rem) (h4 : w = L ∨ w + nB = 254 ∨ w = rem) :
    (if (if L > (254 + 65536 - nB) % 65536 then (254 + 65536 - nB) % 65536 else L) > rem then rem
      else (if L > (254 + 65536 - nB) % 65536 then (254 + 65536 - nB) % 65536 else L)) = w := by
  have e : (254 + 65536 - nB) % 65536 = 254 - nB := by omega
  rw [e]
  split_ifs <;> omega

theorem fwrite_loop_nil (c : Cfg) (af : Nat) (FILE : FFS_FILE_t) (fuel : Nat) (m : Mem)
    (fs : FFS_FS_t) (done block rem hw nB virt : Nat) :
    ffs_fwrite_loop c af FILE (fuel + 1) m fs [] done block rem hw nB virt
      = some (done, m, fs, { FILE with hw_addr := hw, nBytes := nB, virt_addr := virt }) := by
  rw [ffs_fwrite_loop]
  simp

/-- One iteration of the write loop that fills the chunk and opens the next one in
the same block. -/
theorem fwrite_loop_A (c : Cfg) (af : Nat) (FILE : FFS_FILE_t) (fuel : Nat) (m : Mem)
    (fs : FFS_FS_t) (data : List Nat) (done block rem hw nB virt w r2 : Nat)
    (hdata : 0 < data.length) (h1 : w ≤ data.length) (h2 : w + nB = 254) (h3 : rem = w + r2 + 2) :
    ffs_fwrite_loop c af FILE (fuel + 1) m fs data done block rem hw nB virt
      = ffs_fwrite_loop c af FILE fuel
          (flashSPAN_Write c (flashSPAN_Write c m (hw + nB) (data.take w)) hw [254]) fs
          (data.drop w) (done + w) block (r2 + 1) (hw + 254) 1 (virt + w) := by
  rw [ffs_fwrite_loop]
  have hwl := writelen_eq data.length nB rem w (by omega) h1 (by omega) (by omega) (by omega)
  simp only [hwl, sizeof_CHDR]
  have e1 : (nB + w) % 256 = 254 := by omega
  have e2 : rem - w - 1 = r2 + 1 := by omega
  rw [if_pos hdata, if_pos ⟨e1, by omega⟩, e1, e2]

/-- One iteration of the write loop that writes the rest of the data into the open
chunk without filling chunk or block. -/
theorem fwrite_loop_C (c : Cfg) (af : Nat) (FILE : FFS_FILE_t) (fuel : Nat) (m : Mem)
    (fs : FFS_FS_t) (data : List Nat) (done block rem hw nB virt r2 : Nat)
    (hdata : 0 < data.length) (h2 : data.length + nB < 254) (h3 : rem = data.length + r2 + 2) :
    ffs_fwrite_loop c af FILE (fuel + 1) m fs data done block rem hw nB virt
      = ffs_fwrite_loop c af FILE fuel (flashSPAN_Write c m (hw + nB) (data.take data.length)) fs
          (data.drop data.length) (done + data.length) block (r2 + 2) hw (nB + data.length)
          (virt + data.length) := by
  rw [ffs_fwrite_loop]
  have hwl := writelen_eq data.length nB rem data.length (by omega) (Nat.le_refl _) (by omega)
    (by omega) (Or.inl rfl)
  simp only [hwl, sizeof_CHDR]
  have e1 : (nB + data.length) % 256 = nB + data.length := by omega
  have e2 : rem - data.length = r2 + 2 := by omega
  rw [if_pos hdata, e1, e2, if_neg (by omega), if_neg (by omega)]

/-- One iteration of the write loop that fills the block. -/
theorem fwrite_loop_B (c : Cfg) (af : Nat) (FILE : FFS_FILE_t) (fuel : Nat) (m : Mem)
    (fs : FFS_FS_t) (data : List Nat) (done block rem hw nB virt w : Nat)
    (hdata : 0 < data.length) (h1 : w ≤ data.length) (h2 : w + nB ≤ 254) (h3 : w ≤ rem)
    (h4 : w = data.length ∨ w + nB = 254 ∨ w = rem) (h5 : rem ≤ w + 1) (hB : 8 ≤ c.FLASH_BLOCKSIZE)
    (hB2 : c.FLASH_BLOCKSIZE ≤ 65536) :
    ffs_fwrite_loop c af FILE (fuel + 1) m fs data done block rem hw nB virt
      = (if (data.drop w).length = 0 then
          some (done + w, flashSPAN_Write c (flashSPAN_Write c m (hw + nB) (data.take w)) hw [nB + w],
            fs, { FILE with virt_addr := virt + w, hw_addr := block * c.FLASH_BLOCKSIZE, nBytes := 0 })
        else
          match FindUnusedBlock c af
            (flashSPAN_Write c (flashSPAN_Write c m (hw + nB) (data.take w)) hw [nB + w]) fs with
          | none => none
          | some (blk, fs2) =>
            if blk = 0 then
              some (done + w,
                flashSPAN_Write c (flashSPAN_Write c m (hw + nB) (data.take w)) hw [nB + w], fs2,
                { FILE with virt_addr := virt + w, hw_addr := block * c.FLASH_BLOCKSIZE,
                            nBytes := 0 })
            else
              ffs_fwrite_loop c af FILE fuel
                (flashSPAN_Write c (flashSPAN_Write c
                  (flashSPAN_Write c (flashSPAN_Write c m (hw + nB) (data.take w)) hw [nB + w])
                  (blk * c.FLASH_BLOCKSIZE)
                  (encBHDR (padByte c) { status := FFS_B_EOF c, jump := FFS_UNINIT16 c, virt_addr := virt + w }))
                  (block * c.FLASH_BLOCKSIZE) (encSBHDR (padByte c) (FFS_B_JUMP c) blk))
                fs2 (data.drop w) (done + w) blk (c.FLASH_BLOCKSIZE - 9)
                (blk * c.FLASH_BLOCKSIZE + 8) 1 (virt + w)) := by
  rw [ffs_fwrite_loop]
  have hwl := writelen_eq data.length nB rem w (by omega) h1 h2 h3 h4
  simp only [hwl, sizeof_CHDR, sizeof_BHDR]
  have e1 : (nB + w) % 256 = nB + w := by omega
  have e2 : (c.FLASH_BLOCKSIZE - 8 - 1) % 65536 = c.FLASH_BLOCKSIZE - 9 := by omega
  rw [if_pos hdata, e1, e2, if_neg (by omega), if_pos (by omega)]
  all_goals rfl

theorem take_add_drop (l : List Nat) (w k : Nat) :
    l.take w ++ (l.drop w).take k = l.take (w + k) := by
  rw [List.take_add]

/-- The outcome of the rest of a write, after a first part of `w` bytes has been
stored, is an outcome of the whole write. -/
theorem WritePost_lift (c : Cfg) (hc : c.ok) (FILE : FFS_FILE_t) (m m1 : Mem) (fs fs1 : FFS_FS_t)
    (bs bs1 : List Blk) (cur cur1 data : List Nat) (done w : Nat) (S new0 : List Nat)
    (r : Option (Nat × Mem × FFS_FS_t × FFS_FILE_t))
    (hT : Touched c m m1 S) (hS : ∀ k ∈ S, k ∈ bs1.map Blk.idx)
    (hstat : ∀ k ∈ S, m1 (k * c.FLASH_BLOCKSIZE) ≠ FFS_UNINIT8 c)
    (hidx : bs1.map Blk.idx = bs.map Blk.idx ++ new0)
    (hnew0 : ∀ k ∈ new0, m (k * c.FLASH_BLOCKSIZE) = FFS_UNINIT8 c ∧ 1 ≤ k ∧ k < c.BlockCount)
    (hcontent : fileBytes bs1 ++ cur1 = fileBytes bs ++ cur ++ data.take w)
    (hw : w ≤ data.length) (hgfc : fs1.GetFileCounter = fs.GetFileCounter)
    (h : WritePost c FILE m1 fs1 bs1 cur1 (data.drop w) (done + w) r) :
    WritePost c FILE m fs bs cur data done r := by
  have hB := hc.2.1
  obtain ⟨k, m2, fs2, F2, bs2, cur2, new, h1, h2, h3, h4, h5, h6, h7, h8, h9, h10, h11, h12, h13⟩ := h
  have hlen : (fileBytes bs1).length + cur1.length = (fileBytes bs).length + cur.length + w := by
    have := congrArg List.length hcontent
    simp only [List.length_append, List.length_take] at this
    omega
  have hdl : (data.drop w).length + w = data.length := by simp; omega
  refine ⟨w + k, m2, fs2, F2, bs2, cur2, new0 ++ new, ?_, by omega, h3, h4, by omega, h6, ?_, ?_, h9,
    by omega, ?_, ?_, ?_⟩
  · rw [h1, Nat.add_assoc]
  · rw [h7, hcontent, List.append_assoc, take_add_drop]
  · rcases h8 with h8 | h8
    · exact Or.inl (by omega)
    · exact Or.inr h8
  · rw [h11, hidx, List.append_assoc]
  · intro j hj
    rcases List.mem_append.mp hj with hj | hj
    · exact hnew0 j hj
    · obtain ⟨a1, a2, a3⟩ := h12 j hj
      refine ⟨?_, a2, a3⟩
      have hjS : j ∉ S := fun hin => hstat j hin a1
      rw [← hT (j * c.FLASH_BLOCKSIZE) (by
        have e : j * c.FLASH_BLOCKSIZE = j * c.FLASH_BLOCKSIZE + 0 := rfl
        rw [e, div_block _ _ _ (by omega)]; exact hjS)]
      exact a1
  · apply Touched_trans c m m1 m2 S (bs2.map Blk.idx) _ hT h13
    · intro j hj
      rw [h11]
      exact List.mem_append_left _ (hS j hj)
    · intro j hj; exact hj


theorem mem_take_lt (data : List Nat) (w : Nat) (hd : ∀ x ∈ data, x < 256) :
    ∀ x ∈ data.take w, x < 256 := fun x hx => hd x (List.mem_of_mem_take hx)

theorem mem_drop_lt (data : List Nat) (w : Nat) (hd : ∀ x ∈ data, x < 256) :
    ∀ x ∈ data.drop w, x < 256 := fun x hx => hd x (List.mem_of_mem_drop hx)

theorem WrInv_status (c : Cfg) (m : Mem) (pre : List Blk) (t : Blk) (cur : List Nat)
    (hw nB rem : Nat) (h : WrInv c m pre t cur hw nB rem) :
    m (t.idx * c.FLASH_BLOCKSIZE) = FFS_B_EOF c := h.2.1.2.1.1

/-- The write loop returns at once when no data is left. -/
theorem fwrite_spec_nil (c : Cfg) (af : Nat) (FILE : FFS_FILE_t) (fuel : Nat) (m : Mem)
    (fs : FFS_FS_t) (pre : List Blk) (t : Blk) (cur : List Nat) (hw nB rem done : Nat)
    (h : WrInv c m pre t cur hw nB rem) (hnB : nB ≤ 253) (hrem : 1 ≤ rem) (hfs : FsOK c m fs) :
    WritePost c FILE m fs (pre ++ [t]) cur [] done
      (ffs_fwrite_loop c af FILE (fuel + 1) m fs [] done t.idx rem hw nB
        ((fileBytes (pre ++ [t])).length + cur.length)) := by
  rw [fwrite_loop_nil]
  refine ⟨0, m, fs, _, pre ++ [t], cur, [], rfl, Nat.le_refl _, rfl, rfl, rfl,
    ⟨pre, t, rfl, Or.inr ⟨rem, hrem, hnB, h⟩⟩, by simp, Or.inl rfl, hfs, rfl, by simp,
    fun k hk => by simp at hk, fun x _ => rfl⟩

/-- Branch of the write loop: the rest of the data fits into the open chunk. -/
theorem fwrite_spec_C (c : Cfg) (hc : c.ok) (af : Nat) (FILE : FFS_FILE_t) (fuel : Nat)
    (ih : FwriteLoopSpec c af FILE fuel) (data : List Nat) (m : Mem) (fs : FFS_FS_t)
    (pre : List Blk) (t : Blk) (cur : List Nat) (hw nB rem done r2 : Nat)
    (h : WrInv c m pre t cur hw nB rem) (hfs : FsOK c m fs) (hd : ∀ x ∈ data, x < 256)
    (hlen : (fileBytes (pre ++ [t])).length + cur.length + data.length < 4294967296)
    (hfuel : data.length < fuel + 1)
    (hdata : 0 < data.length) (h2 : data.length + nB < 254) (h3 : rem = data.length + r2 + 2) :
    WritePost c FILE m fs (pre ++ [t]) cur data done
      (ffs_fwrite_loop c af FILE (fuel + 1) m fs data done t.idx rem hw nB
        ((fileBytes (pre ++ [t])).length + cur.length)) := by
  rw [fwrite_loop_C c af FILE fuel m fs data done t.idx rem hw nB _ r2 hdata h2 h3]
  have hdl : (data.take data.length).length = data.length := by simp
  obtain ⟨a1, a2, a3⟩ := WrInv_data c hc m pre t cur hw nB rem (data.take data.length) (r2 + 2) h
    (by rw [hdl]; omega) (mem_take_lt data _ hd)
  rw [hdl] at a1
  have hst := WrInv_status c _ pre t _ hw _ _ a1
  have e : (fileBytes (pre ++ [t])).length + cur.length + data.length
      = (fileBytes (pre ++ [t])).length + (cur ++ data.take data.length).length := by
    rw [List.length_append, hdl]; omega
  rw [e]
  have hres := ih (data.drop data.length) _ fs pre t (cur ++ data.take data.length) hw
    (nB + data.length) (r2 + 2) (done + data.length) a1 (by omega) (by omega) ⟨a3 hfs.1, hfs.2⟩
    (mem_drop_lt data _ hd) (by simp; omega) (by simp; omega)
  exact WritePost_lift c hc FILE m _ fs fs (pre ++ [t]) (pre ++ [t]) cur _ data done data.length
    [t.idx] [] _ a2 (by simp) (by
      intro k hk; simp only [List.mem_singleton] at hk
      rw [hk, hst]; exact (status_facts c hc).2.1)
    (by simp) (fun k hk => by simp at hk) (by simp) (Nat.le_refl _) rfl hres

/-- Branch of the write loop: the chunk is filled and the next chunk opened. -/
theorem fwrite_spec_A (c : Cfg) (hc : c.ok) (af : Nat) (FILE : FFS_FILE_t) (fuel : Nat)
    (ih : FwriteLoopSpec c af FILE fuel) (data : List Nat) (m : Mem) (fs : FFS_FS_t)
    (pre : List Blk) (t : Blk) (cur : List Nat) (hw nB rem done w r2 : Nat)
    (h : WrInv c m pre t cur hw nB rem) (hfs : FsOK c m fs) (hd : ∀ x ∈ data, x < 256)
    (hlen : (fileBytes (pre ++ [t])).length + cur.length + data.length < 4294967296)
    (hfuel : data.length < fuel + 1) (hnB : 1 ≤ nB) (hnB2 : nB ≤ 253)
    (hdata : 0 < data.length) (h1 : w ≤ data.length) (h2 : w + nB = 254) (h3 : rem = w + r2 + 2) :
    WritePost c FILE m fs (pre ++ [t]) cur data done
      (ffs_fwrite_loop c af FILE (fuel + 1) m fs data done t.idx rem hw nB
        ((fileBytes (pre ++ [t])).length + cur.length)) := by
  rw [fwrite_loop_A c af FILE fuel m fs data done t.idx rem hw nB _ w r2 hdata h1 h2 h3]
  have hdl : (data.take w).length = w := by simp; omega
  obtain ⟨a1, a2, a3⟩ := WrInv_data c hc m pre t cur hw nB rem (data.take w) (r2 + 2) h
    (by rw [hdl]; omega) (mem_take_lt data _ hd)
  rw [hdl] at a1
  have e254 : nB + w = 254 := by omega
  rw [e254] at a1
  have b1 := WrInv_next c hc _ pre t (cur ++ data.take w) hw 254 (r2 + 2) (r2 + 1) a1 (by omega)
    (by omega) rfl
  obtain ⟨_, _, _, _, b5, b6⟩ := WrInv_close c hc _ pre t (cur ++ data.take w) hw 254 (r2 + 2) a1
    (by omega) (by omega)
  have hst := WrInv_status c _ pre _ _ _ _ _ b1
  have hfb : fileBytes (pre ++ [{ idx := t.idx, chunks := t.chunks ++ [cur ++ data.take w] }])
      = fileBytes (pre ++ [t]) ++ cur ++ data.take w := by
    simp [fileBytes_snoc]
  have e : (fileBytes (pre ++ [t])).length + cur.length + w
      = (fileBytes (pre ++ [{ idx := t.idx, chunks := t.chunks ++ [cur ++ data.take w] }])).length
        + ([] : List Nat).length := by
    rw [hfb]; simp [hdl]; omega
  rw [e]
  have hres := ih (data.drop w) _ fs pre _ [] (hw + 254) 1 (r2 + 1) (done + w) b1 (by omega)
    (by omega) ⟨b6 (a3 hfs.1), hfs.2⟩ (mem_drop_lt data _ hd)
    (by rw [← e, List.length_drop]; omega)
    (by rw [List.length_drop]; omega)
  exact WritePost_lift c hc FILE m _ fs fs (pre ++ [t]) _ cur [] data done w
    [t.idx] [] _ (Touched_trans c m _ _ [t.idx] [t.idx] _ a2 b5 (fun _ h => h) (fun _ h => h))
    (by simp) (by
      intro k hk; simp only [List.mem_singleton] at hk
      rw [hk]; rw [hst]; exact (status_facts c hc).2.1)
    (by simp) (fun k hk => by simp at hk) (by rw [hfb]; simp) h1 rfl hres
/-- Storing the bytes `d` that fill the block and finalizing the chunk closes the last
block of the chain. -/
theorem WrInv_fill (c : Cfg) (hc : c.ok) (m : Mem) (pre : List Blk) (t : Blk) (cur : List Nat)
    (hw nB rem : Nat) (d : List Nat) (r2 : Nat) (h : WrInv c m pre t cur hw nB rem)
    (hrem : rem = d.length + r2) (hr2 : r2 ≤ 1) (hd : ∀ x ∈ d, x < 256)
    (h2 : 2 ≤ nB + d.length) (h254 : nB + d.length ≤ 254) :
    ChainSeg c (flashSPAN_Write c (flashSPAN_Write c m (hw + nB) d) hw [nB + d.length]) 0 pre
      (some t.idx) ∧
    BlockOK c (flashSPAN_Write c (flashSPAN_Write c m (hw + nB) d) hw [nB + d.length])
      { idx := t.idx, chunks := t.chunks ++ [cur ++ d] } (fileBytes pre).length none ∧
    ChainOK c (flashSPAN_Write c (flashSPAN_Write c m (hw + nB) d) hw [nB + d.length]) 0
      (pre ++ [{ idx := t.idx, chunks := t.chunks ++ [cur ++ d] }]) ∧
    t.idx * c.FLASH_BLOCKSIZE + c.FLASH_BLOCKSIZE
      < chunksEnd (t.idx * c.FLASH_BLOCKSIZE + 8) (t.chunks ++ [cur ++ d]) + 2 ∧
    Touched c m (flashSPAN_Write c (flashSPAN_Write c m (hw + nB) d) hw [nB + d.length])
      [t.idx] ∧
    (FreeOK c m →
      FreeOK c (flashSPAN_Write c (flashSPAN_Write c m (hw + nB) d) hw [nB + d.length])) ∧
    flashSPAN_Write c (flashSPAN_Write c m (hw + nB) d) hw [nB + d.length]
      (t.idx * c.FLASH_BLOCKSIZE) = FFS_B_EOF c ∧
    fileBytes (pre ++ [{ idx := t.idx, chunks := t.chunks ++ [cur ++ d] }])
      = fileBytes (pre ++ [t]) ++ cur ++ d := by
  obtain ⟨a1, a2, a3⟩ := WrInv_data c hc m pre t cur hw nB rem d r2 h hrem hd
  obtain ⟨b1, b2, b3, b4, b5, b6⟩ := WrInv_close c hc _ pre t (cur ++ d) hw _ r2 a1 h2 h254
  obtain ⟨f1, f2⟩ := WrInv_full c hc _ pre t (cur ++ d) hw _ r2 a1 h2 h254 hr2
  refine ⟨b1, b2, f1, f2, Touched_trans c m _ _ [t.idx] [t.idx] _ a2 b5 (fun _ h => h)
    (fun _ h => h), fun hf => b6 (a3 hf), b2.2.1.1, ?_⟩
  simp [fileBytes_snoc]

/-- The outcome of a write that ends with the handle parked on a full block. -/
theorem WritePost_parked (c : Cfg) (hc : c.ok) (FILE : FFS_FILE_t) (m m2 : Mem)
    (fs fs1 : FFS_FS_t) (pre : List Blk) (t t2 : Blk) (cur data : List Nat) (done w virt : Nat)
    (hidx : t2.idx = t.idx)
    (hchain : ChainOK c m2 0 (pre ++ [t2]))
    (hfull : t2.idx * c.FLASH_BLOCKSIZE + c.FLASH_BLOCKSIZE
      < chunksEnd (t2.idx * c.FLASH_BLOCKSIZE + 8) t2.chunks + 2)
    (hT : Touched c m m2 [t.idx])
    (hcontent : fileBytes (pre ++ [t2]) = fileBytes (pre ++ [t]) ++ cur ++ data.take w)
    (hw : w ≤ data.length) (hfs : FsOK c m2 fs1) (hgfc : fs1.GetFileCounter = fs.GetFileCounter)
    (hend : w = data.length ∨ NoFree c m2)
    (hvirt : virt = (fileBytes (pre ++ [t])).length + cur.length) :
    WritePost c FILE m fs (pre ++ [t]) cur data done
      (some (done + w, m2, fs1,
        { FILE with virt_addr := virt + w, hw_addr := t.idx * c.FLASH_BLOCKSIZE, nBytes := 0 })) := by
  refine ⟨w, m2, fs1, _, pre ++ [t2], [], [], rfl, hw, rfl, rfl, by simp [hvirt],
    ⟨pre, t2, rfl, Or.inl ⟨rfl, rfl, by simp [hidx], hchain, hfull⟩⟩, by simp [hcontent], ?_,
    hfs, hgfc, by simp [hidx], fun k hk => by simp at hk, ?_⟩
  · rcases hend with h | h
    · exact Or.inl h
    · exact Or.inr ⟨h, rfl⟩
  · exact fun x hx => hT x (fun hin => hx (by simp at hin; simp [hin, hidx]))

theorem fileBytes_snoc_nil (l : List Blk) (b : Nat) :
    fileBytes (l ++ [{ idx := b, chunks := [] }]) = fileBytes l := by
  simp [fileBytes_snoc]

/-- Branch of the write loop: the block is filled, and the write ends or continues
in a newly allocated block. -/
theorem fwrite_spec_B (c : Cfg) (hc : c.ok) (af : Nat) (haf : c.BlockCount ≤ af)
    (FILE : FFS_FILE_t) (fuel : Nat)
    (ih : FwriteLoopSpec c af FILE fuel) (data : List Nat) (m : Mem) (fs : FFS_FS_t)
    (pre : List Blk) (t : Blk) (cur : List Nat) (hw nB rem done w r2 : Nat)
    (h : WrInv c m pre t cur hw nB rem) (hfs : FsOK c m fs) (hd : ∀ x ∈ data, x < 256)
    (hlen : (fileBytes (pre ++ [t])).length + cur.length + data.length < 4294967296)
    (hfuel : data.length < fuel + 1) (hnB : 1 ≤ nB)
    (hdata : 0 < data.length) (h1 : w ≤ data.length) (h2 : w + nB ≤ 254) (h3 : rem = w + r2)
    (h4 : w = data.length ∨ w + nB = 254 ∨ w = rem) (h5 : r2 ≤ 1) (hw1 : 1 ≤ w) :
    WritePost c FILE m fs (pre ++ [t]) cur data done
      (ffs_fwrite_loop c af FILE (fuel + 1) m fs data done t.idx rem hw nB
        ((fileBytes (pre ++ [t])).length + cur.length)) := by
  have hB := hc.2.1
  have hN := hc.2.2.2.1
  rw [fwrite_loop_B c af FILE fuel m fs data done t.idx rem hw nB _ w hdata h1 h2 (by omega) h4
    (by omega) (by omega) hc.2.2.1]
  have hdl : (data.take w).length = w := by simp; omega
  obtain ⟨g1, g2, g3, g4, g5, g6, g7, g8⟩ := WrInv_fill c hc m pre t cur hw nB rem (data.take w) r2
    h (by rw [hdl]; exact h3) h5 (mem_take_lt data _ hd) (by rw [hdl]; omega) (by rw [hdl]; omega)
  rw [hdl] at g1 g2 g3 g5 g6 g7
  by_cases hdrop : (data.drop w).length = 0
  · rw [if_pos hdrop]
    exact WritePost_parked c hc FILE m _ fs fs pre t
      { idx := t.idx, chunks := t.chunks ++ [cur ++ data.take w] } cur data done w _ rfl g3 g4 g5 g8 h1
      ⟨g6 hfs.1, hfs.2⟩ rfl (Or.inl (by rw [List.length_drop] at hdrop; omega)) rfl
  · rw [if_neg hdrop]
    obtain ⟨b, fs1, e, q1, q2, q3⟩ := FindUnusedBlock_spec c hc
      (flashSPAN_Write c (flashSPAN_Write c m (hw + nB) (data.take w)) hw [nB + w]) fs af hfs.2 haf
    rw [e]
    simp only []
    rcases q3 with ⟨hb0, hfs1, hnf⟩ | ⟨hb1, hbN, hbu, hbs⟩
    · rw [if_pos hb0]
      exact WritePost_parked c hc FILE m _ fs fs1 pre t
        { idx := t.idx, chunks := t.chunks ++ [cur ++ data.take w] } cur data done w _ rfl g3 g4 g5 g8 h1
        ⟨g6 hfs.1, q2⟩ q1 (Or.inr hnf) rfl
    · rw [if_neg (by omega)]
      have hcl : (fileBytes (pre ++ [{ idx := t.idx, chunks := t.chunks ++ [cur ++ data.take w] }])).length
          = (fileBytes (pre ++ [t])).length + cur.length + w := by
        rw [g8]; simp [hdl]; omega
      obtain ⟨n1, n2, n3⟩ := WrInv_newblock c hc _ pre
        { idx := t.idx, chunks := t.chunks ++ [cur ++ data.take w] } b
        ((fileBytes (pre ++ [t])).length + cur.length + w) g1 g2 g4 (g6 hfs.1) hbu (by omega)
        hbN hcl.symm (by omega)
      have e2 : (fileBytes (pre ++ [t])).length + cur.length + w
          = (fileBytes ((pre ++ [{ idx := t.idx, chunks := t.chunks ++ [cur ++ data.take w] }])
              ++ [{ idx := b, chunks := [] }])).length + ([] : List Nat).length := by
        rw [fileBytes_snoc_nil, hcl]; simp
      have hres := ih (data.drop w) _ fs1 _ { idx := b, chunks := [] } [] (b * c.FLASH_BLOCKSIZE + 8)
        1 (c.FLASH_BLOCKSIZE - 9) (done + w) n1 (by omega) (by omega) ⟨n3, q2⟩
        (mem_drop_lt data _ hd) (by rw [← e2, List.length_drop]; omega)
        (by rw [List.length_drop]; omega)
      rw [← e2] at hres
      have hbt : b ≠ t.idx := by
        intro hbt
        rw [hbt, g7] at hbu
        exact (status_facts c hc).2.1 hbu
      have hmb : m (b * c.FLASH_BLOCKSIZE) = FFS_UNINIT8 c := by
        rw [← g5 (b * c.FLASH_BLOCKSIZE) (by
          have := div_block b c.FLASH_BLOCKSIZE 0 (by omega)
          rw [Nat.add_zero] at this
          rw [this]; simpa using hbt)]
        exact hbu
      have hst := WrInv_status c _ _ _ _ _ _ _ n1
      have hjs := ChainSeg_status c _ b _ 0 n1.1
        { idx := t.idx, chunks := t.chunks ++ [cur ++ data.take w] } (by simp)
      exact WritePost_lift c hc FILE m _ fs fs1 (pre ++ [t]) _ cur [] data done w
        [t.idx, b] [b] _
        (Touched_trans c m _ _ [t.idx] [t.idx, b] _ g5 n2 (by simp) (fun _ h => h))
        (by simp)
        (by
          intro k hk
          simp only [List.mem_cons, List.mem_singleton, List.not_mem_nil, or_false] at hk
          rcases hk with hk | hk
          · rw [hk]; rw [hjs]; exact (status_facts c hc).2.2.1
          · rw [hk]; rw [hst]; exact (status_facts c hc).2.1)
        (by simp)
        (by
          intro k hk
          simp only [List.mem_singleton] at hk
          rw [hk]; exact ⟨hmb, hb1, hbN⟩)
        (by rw [fileBytes_snoc_nil, g8]; simp) h1 q1 hres

/-- The write loop, started in a writing position with room in chunk and block,
stores the data as far as blocks can be allocated. -/
theorem fwrite_loop_spec (c : Cfg) (hc : c.ok) (af : Nat) (haf : c.BlockCount ≤ af)
    (FILE : FFS_FILE_t) : ∀ fuel, FwriteLoopSpec c af FILE fuel := by
  intro fuel
  induction fuel with
  | zero => intro data m fs pre t cur hw nB rem done _ _ _ _ _ _ hf; omega
  | succ fuel ih =>
    intro data m fs pre t cur hw nB rem done h hnB hrem hfs hd hlen hfuel
    have hnB1 : 1 ≤ nB := by rw [h.2.2.2.1]; omega
    by_cases hdata : data.length = 0
    · have : data = [] := List.length_eq_zero.mp hdata
      subst this
      exact fwrite_spec_nil c af FILE fuel m fs pre t cur hw nB rem done h hnB hrem hfs
    · by_cases hA : 254 - nB ≤ data.length ∧ 254 - nB + 2 ≤ rem
      · exact fwrite_spec_A c hc af FILE fuel ih data m fs pre t cur hw nB rem done (254 - nB)
          (rem - (254 - nB) - 2) h hfs hd hlen hfuel hnB1 hnB (by omega) (by omega) (by omega)
          (by omega)
      · by_cases hC : data.length + nB < 254 ∧ data.length + 2 ≤ rem
        · exact fwrite_spec_C c hc af FILE fuel ih data m fs pre t cur hw nB rem done
            (rem - data.length - 2) h hfs hd hlen hfuel (by omega) (by omega) (by omega)
        · exact fwrite_spec_B c hc af haf FILE fuel ih data m fs pre t cur hw nB rem done
            (min data.length (min (254 - nB) rem)) (rem - min data.length (min (254 - nB) rem))
            h hfs hd hlen hfuel hnB1 (by omega) (by omega) (by omega) (by omega) (by omega)
            (by omega) (by omega)

theorem WritePost_cast (c : Cfg) (FILE : FFS_FILE_t) (m : Mem) (fs : FFS_FS_t) (bs : List Blk)
    (cur data : List Nat) (done : Nat) (r r2 : Option (Nat × Mem × FFS_FS_t × FFS_FILE_t))
    (e : r2 = r) (h : WritePost c FILE m fs bs cur data done r) :
    WritePost c FILE m fs bs cur data done r2 := e ▸ h

/-- The write operation on an append-mode handle stores the data as far as blocks can
be allocated. -/
theorem fwrite_spec (c : Cfg) (hc : c.ok) (fuel : Nat) (hN : c.BlockCount ≤ fuel) (m : Mem)
    (fs : FFS_FS_t) (bs : List Blk) (cur data : List Nat) (F : FFS_FILE_t)
    (h : AppendOK c m bs cur F) (hfs : FsOK c m fs) (hd : ∀ x ∈ data, x < 256)
    (hlen : (fileBytes bs).length + cur.length + data.length < 4294967296)
    (hfuel : data.length < fuel) :
    WritePost c F m fs bs cur data 0 (ffs_fwrite c fuel m fs data F) := by
  have hB := hc.2.1
  have hB2 := hc.2.2.1
  have hNN := hc.2.2.2.1
  obtain ⟨hmode, hstart, hvirt, pre, t, hbs, hpos⟩ := h
  subst hbs
  unfold ffs_fwrite
  rw [if_neg (by simp [hmode])]
  rcases hpos with ⟨hnB, hcur, hhw, hchain, hfull⟩ | ⟨rem, hrem, hnB, hinv⟩
  · subst hcur
    rw [if_pos hnB]
    obtain ⟨b, fs1, e, q1, q2, q3⟩ := FindUnusedBlock_spec c hc m fs fuel hfs.2 hN
    rw [e]
    simp only []
    rcases q3 with ⟨hb0, hfs1, hnf⟩ | ⟨hb1, hbN, hbu, hbs⟩
    · rw [if_pos hb0]
      simp only []
      exact ⟨0, m, fs, F, pre ++ [t], [], [], rfl, Nat.zero_le _, rfl, rfl, by simpa using hvirt,
        ⟨pre, t, rfl, Or.inl ⟨hnB, rfl, hhw, hchain, hfull⟩⟩, by simp, Or.inr ⟨hnf, hnB⟩, hfs,
        rfl, by simp, fun k hk => by simp at hk, fun x _ => rfl⟩
    · rw [if_neg (by omega)]
      simp only [sizeof_BHDR, sizeof_CHDR]
      rw [ChainOK_iff_seg, ChainSeg_append] at hchain
      have hblk : BlockOK c m t (fileBytes pre).length none := by
        simpa [ChainSeg] using hchain.2
      have hv2 : F.virt_addr = (fileBytes (pre ++ [t])).length := by simpa using hvirt
      obtain ⟨n1, n2, n3⟩ := WrInv_newblock c hc m pre t b F.virt_addr hchain.1 hblk hfull hfs.1
        hbu (by omega) hbN hv2 (by simp at hlen; omega)
      rw [hhw]
      have e1 : (b * c.FLASH_BLOCKSIZE + 8) / c.FLASH_BLOCKSIZE = b :=
        div_block b c.FLASH_BLOCKSIZE 8 (by omega)
      have e2 : (c.FLASH_BLOCKSIZE + 4294967296
          - (b * c.FLASH_BLOCKSIZE + 8 + 1 - b * c.FLASH_BLOCKSIZE)) % 65536
          = c.FLASH_BLOCKSIZE - 9 := by omega
      rw [e1, e2]
      have e3 : F.virt_addr
          = (fileBytes ((pre ++ [t]) ++ [{ idx := b, chunks := [] }])).length
            + ([] : List Nat).length := by
        rw [fileBytes_snoc_nil, hv2]; rfl
      have hres := fwrite_loop_spec c hc fuel hN F fuel data _ fs1 (pre ++ [t])
        { idx := b, chunks := [] } [] (b * c.FLASH_BLOCKSIZE + 8) 1 (c.FLASH_BLOCKSIZE - 9) 0
        n1 (by omega) (by omega) ⟨n3, q2⟩ hd (by rw [← e3, hv2]; simp at hlen; omega) hfuel
      rw [← e3] at hres
      have hst := WrInv_status c _ _ _ _ _ _ _ n1
      have hjs := ChainSeg_status c _ b _ 0 n1.1 t (by simp)
      exact WritePost_lift c hc F m _ fs fs1 (pre ++ [t]) _ [] [] data 0 0
        [t.idx, b] [b] _ n2 (by simp)
        (by
          intro k hk
          simp only [List.mem_cons, List.mem_singleton, List.not_mem_nil, or_false] at hk
          rcases hk with hk | hk
          · rw [hk]; rw [hjs]; exact (status_facts c hc).2.2.1
          · rw [hk]; rw [hst]; exact (status_facts c hc).2.1)
        (by simp)
        (by
          intro k hk
          simp only [List.mem_singleton] at hk
          rw [hk]; exact ⟨hbu, hb1, hbN⟩)
        (by rw [fileBytes_snoc_nil]; simp) (Nat.zero_le _) q1 hres
  · have hnB1 : F.nBytes = cur.length + 1 := hinv.2.2.2.1
    rw [if_neg (by omega)]
    simp only []
    have hge := chunksEnd_ge (t.idx * c.FLASH_BLOCKSIZE + 8) t.chunks
    have hhw := hinv.2.2.1
    have hsum := hinv.2.2.2.2.1
    have e1 : F.hw_addr / c.FLASH_BLOCKSIZE = t.idx := by
      have := div_block t.idx c.FLASH_BLOCKSIZE (F.hw_addr - t.idx * c.FLASH_BLOCKSIZE) (by omega)
      rw [← this]; congr 1; omega
    have e2 : (c.FLASH_BLOCKSIZE + 4294967296
        - (F.hw_addr + F.nBytes - t.idx * c.FLASH_BLOCKSIZE)) % 65536 = rem := by omega
    rw [e1, e2, hvirt]
    exact fwrite_loop_spec c hc fuel hN F fuel data m fs pre t cur F.hw_addr F.nBytes rem 0
      hinv hnB hrem hfs hd hlen hfuel

theorem Touched_refl (c : Cfg) (m : Mem) (S : List Nat) : Touched c m m S := fun _ _ => rfl

theorem Touched_mono (c : Cfg) (m m1 : Mem) (S S2 : List Nat) (h : Touched c m m1 S)
    (hs : ∀ k ∈ S, k ∈ S2) : Touched c m m1 S2 :=
  fun x hx => h x (fun hin => hx (hs _ hin))

/-- A chain whose last block is in a writing position with nothing unflushed is
well-formed. -/
theorem WrInv_chain (c : Cfg) (hc : c.ok) (m : Mem) (pre : List Blk) (t : Blk) (hw rem : Nat)
    (h : WrInv c m pre t [] hw 1 rem) : ChainOK c m 0 (pre ++ [t]) := by
  rw [ChainOK_iff_seg, ChainSeg_append]
  exact ⟨h.1, by simpa [ChainSeg] using h.2.1⟩

/-- Closing an append-mode handle finalizes the open chunk: the file is cleanly
closed and holds the flushed and the unflushed bytes. -/
theorem fclose_spec (c : Cfg) (hc : c.ok) (m : Mem) (bs : List Blk) (cur : List Nat)
    (F : FFS_FILE_t) (h : AppendOK c m bs cur F) :
    ∃ m1 F1 bs1, ffs_fclose c m (some F) = (RES_OK, m1, some F1) ∧ F1.filemode = FFS_CLOSED ∧
      ClosedOK c m1 bs1 ∧ fileBytes bs1 = fileBytes bs ++ cur ∧
      bs1.map Blk.idx = bs.map Blk.idx ∧ Touched c m m1 (bs.map Blk.idx) ∧
      (FreeOK c m → FreeOK c m1) ∧ (F.nBytes = 0 → m1 = m ∧ LastFull c bs1) := by
  obtain ⟨hmode, hstart, hvirt, pre, t, hbs, hpos⟩ := h
  subst hbs
  unfold ffs_fclose
  simp only [hmode, FFS_WR_APPEND, FFS_RD, sizeof_CHDR]
  rw [if_neg (by decide), if_pos trivial]
  rcases hpos with ⟨hnB, hcur, hhw, hchain, hfull⟩ | ⟨rem, hrem, hnB, hinv⟩
  · subst hcur
    rw [if_neg (by omega)]
    exact ⟨m, _, pre ++ [t], rfl, rfl, ⟨hchain, pre, t, rfl, Or.inl hfull⟩, by simp, rfl,
      Touched_refl c m _, fun h => h, fun _ => ⟨rfl, pre, t, rfl, hfull⟩⟩
  · have hnB1 : F.nBytes = cur.length + 1 := hinv.2.2.2.1
    by_cases hcur : cur.length = 0
    · have : cur = [] := List.length_eq_zero.mp hcur
      subst this
      rw [if_neg (by omega)]
      have hnB0 : F.nBytes = 1 := by simpa using hnB1
      rw [hnB0] at hinv
      refine ⟨m, _, pre ++ [t], rfl, rfl, ⟨WrInv_chain c hc m pre t _ rem hinv, pre, t, rfl,
        Or.inr ?_⟩, by simp, rfl, Touched_refl c m _, fun h => h, fun h0 => by omega⟩
      intro x hx1 hx2
      obtain ⟨_, _, e1, _, _, e4, _, e6⟩ := hinv
      rw [← e1] at hx1
      by_cases hx : x = F.hw_addr
      · rw [hx]; exact e4
      · exact e6 x (by omega) hx2
    · rw [if_pos (by omega)]
      have hm : (ffs_fflush c m F).2.1 = flashSPAN_Write c m F.hw_addr [F.nBytes] := by
        unfold ffs_fflush
        simp only [hmode, FFS_WR_APPEND, sizeof_CHDR]
        rw [if_neg (by simp), if_pos (by omega)]
        split <;> rfl
      obtain ⟨b1, b2, b3, b4, b5, b6⟩ := WrInv_close c hc m pre t cur F.hw_addr F.nBytes rem hinv
        (by omega) (by omega)
      have hch : ChainOK c (flashSPAN_Write c m F.hw_addr [F.nBytes]) 0
          (pre ++ [{ idx := t.idx, chunks := t.chunks ++ [cur] }]) := by
        rw [ChainOK_iff_seg, ChainSeg_append]
        exact ⟨b1, by simpa [ChainSeg] using b2⟩
      rw [← hm] at hch b4 b5 b6
      refine ⟨(ffs_fflush c m F).2.1, _,
        pre ++ [{ idx := t.idx, chunks := t.chunks ++ [cur] }], rfl, rfl, ⟨hch, pre, _, rfl,
        Or.inr ?_⟩, by simp [fileBytes_snoc], by simp,
        Touched_mono c m _ [t.idx] _ b5 (by simp), b6, fun h0 => by omega⟩
      intro x hx1 hx2
      rw [b3] at hx1
      exact b4 x hx1 hx2

/-- Reading through a well-formed read handle: the count, the bytes and the new
position. -/
theorem fread_handle (c : Cfg) (hc : c.ok) (m : Mem) (bs : List Blk) (F : FFS_FILE_t)
    (n fuel : Nat) (h : RdHandleOK c m bs F) (hfuel : n < fuel) :
    F.virt_addr ≤ (fileBytes bs).length ∧
    ∃ F1, ffs_fread c fuel m n F
        = some (min n ((fileBytes bs).length - F.virt_addr),
            ((fileBytes bs).drop F.virt_addr).take n, F1) ∧
      F1.virt_addr = F.virt_addr + min n ((fileBytes bs).length - F.virt_addr) ∧
      RdHandleOK c m bs F1 := by
  obtain ⟨hchain, hmode, hstart, hpos⟩ := h
  obtain ⟨F1, ⟨_, p2, p3, p4, p5, p6⟩, hpos1⟩ := fread_chain c hc m F n fuel hmode hfuel bs 0 hchain hpos
  simp only [Nat.zero_add, Nat.sub_zero] at p2 p3 p4
  exact ⟨p2, F1, p3, p4, hchain, by rw [p5, hmode], by rw [p6, hstart], hpos1⟩

/-- Reading a file from its start through a freshly opened read handle. -/
theorem fread_all (c : Cfg) (hc : c.ok) (m : Mem) (b : Blk) (bs : List Blk) (n fuel : Nat)
    (h : ChainOK c m 0 (b :: bs)) (hfuel : n < fuel) :
    ∃ F1, ffs_fread c fuel m n (rdHandle c m b.idx)
        = some (min n (fileBytes (b :: bs)).length, (fileBytes (b :: bs)).take n, F1) ∧
      F1.virt_addr = min n (fileBytes (b :: bs)).length ∧ RdHandleOK c m (b :: bs) F1 := by
  have hr := rdHandle_ok c hc m b bs h
  obtain ⟨_, F1, q1, q2, q3⟩ := fread_handle c hc m (b :: bs) _ n fuel hr hfuel
  rw [(rdHandle_facts c m b.idx).2.1] at q1 q2
  exact ⟨F1, by simpa using q1, by simpa using q2, q3⟩

theorem nextIdx_snoc (pre : List Blk) (t : Blk) : nextIdx (pre ++ [t]) = some (headIdx pre t) := by
  cases pre <;> rfl

/-- The chain-following loop of `WR_SeekToEOF` ends at the last block of the chain. -/
theorem SeekToEOF_chain_spec (c : Cfg) (hc : c.ok) (m : Mem) (t : Blk)
    (ht : m (t.idx * c.FLASH_BLOCKSIZE) = FFS_B_EOF c) :
    ∀ (pre : List Blk) (v fuel : Nat), pre.length < fuel → ChainSeg c m v pre (some t.idx) →
      WR_SeekToEOF_chain c m fuel (headIdx pre t)
          (readBHDR m (headIdx pre t * c.FLASH_BLOCKSIZE))
        = some (t.idx, readBHDR m (t.idx * c.FLASH_BLOCKSIZE)) := by
  intro pre
  induction pre with
  | nil =>
    intro v fuel hf _
    obtain ⟨f, rfl⟩ : ∃ f, fuel = f + 1 := ⟨fuel - 1, by simp at hf; omega⟩
    rw [WR_SeekToEOF_chain]
    simp only [headIdx, readBHDR]
    rw [if_neg (by rw [ht]; exact (status_facts c hc).1)]
  | cons p rest ih =>
    intro v fuel hf h
    obtain ⟨f, rfl⟩ : ∃ f, fuel = f + 1 := ⟨fuel - 1, by simp at hf; omega⟩
    rw [WR_SeekToEOF_chain]
    have hh := h.1.2.1
    have hj : (readBHDR m (headIdx (p :: rest) t * c.FLASH_BLOCKSIZE)).status = FFS_B_JUMP c
        ∧ (readBHDR m (headIdx (p :: rest) t * c.FLASH_BLOCKSIZE)).jump = headIdx rest t := by
      simp only [headIdx, readBHDR]
      cases rest with
      | nil => exact hh
      | cons _ _ => exact hh
    rw [if_pos hj.1, hj.2]
    exact ih _ f (by simp at hf; omega) h.2

/-- The chunk-scanning loop of `WR_SeekToEOF` stops behind the last chunk. -/
theorem SeekToEOF_scan_spec (c : Cfg) (hc : c.ok) (m : Mem) (base : Nat) (FILE : FFS_FILE_t) :
    ∀ (cs : List (List Nat)) (a v fuel : Nat), cs.length < fuel → base ≤ a →
      ChunkTail c m base true a cs →
      WR_SeekToEOF_scan c m base FILE fuel a v
        = some (if chunksEnd a cs + 2 ≤ base + c.FLASH_BLOCKSIZE then
            { FILE with hw_addr := chunksEnd a cs, virt_addr := v + payloadLen cs, nBytes := 1 }
          else { FILE with hw_addr := base, virt_addr := v + payloadLen cs, nBytes := 0 }) := by
  have hB := hc.2.1
  intro cs
  induction cs with
  | nil =>
    intro a v fuel hf ha h
    obtain ⟨f, rfl⟩ : ∃ f, fuel = f + 1 := ⟨fuel - 1, by simp at hf; omega⟩
    rw [WR_SeekToEOF_scan]
    simp only [sizeof_CHDR, chunksEnd_nil, payloadLen, List.flatten_nil, List.length_nil,
      Nat.add_zero]
    by_cases hfit : a + 2 ≤ base + c.FLASH_BLOCKSIZE
    · rw [if_pos (by omega), if_pos (h hfit).2, if_pos hfit]
    · rw [if_neg (by omega), if_neg hfit]
  | cons ch rest ih =>
    intro a v fuel hf ha h
    obtain ⟨f, rfl⟩ : ∃ f, fuel = f + 1 := ⟨fuel - 1, by simp at hf; omega⟩
    obtain ⟨h1, h2, h3, h4, h5, h6⟩ := h
    rw [WR_SeekToEOF_scan]
    simp only [sizeof_CHDR]
    have e1 : (ch.length + 1 + 65536 - 1) % 65536 = ch.length := by omega
    have e2 : payloadLen (ch :: rest) = ch.length + payloadLen rest := by simp [payloadLen]
    have ea : a + (ch.length + 1) = a + 1 + ch.length := by omega
    rw [if_pos (by omega), if_neg (by rw [h4]; exact hdr_ne_uninit c hc _ (by omega) (by omega)),
      h4, e1, ea, ih _ _ f (by simp at hf; omega) (by omega) h6, chunksEnd_cons, e2]
    simp only [Nat.add_assoc]
theorem chunksEnd_ge_length (cs : List (List Nat)) : ∀ a, a + cs.length ≤ chunksEnd a cs := by
  induction cs with
  | nil => intro a; simp [chunksEnd_nil]
  | cons ch rest ih =>
    intro a
    rw [chunksEnd_cons]
    have := ih (a + 1 + ch.length)
    simp only [List.length_cons]
    omega

theorem payloadLen_eq (pre : List Blk) (t : Blk) :
    (fileBytes (pre ++ [t])).length = (fileBytes pre).length + payloadLen t.chunks := by
  rw [fileBytes_snoc, List.length_append]; rfl

/-- `WR_SeekToEOF` on a cleanly closed file places the handle at the end of the
file, ready for appending. -/
theorem SeekToEOF_spec (c : Cfg) (hc : c.ok) (m : Mem) (bs : List Blk) (F : FFS_FILE_t)
    (s fuel : Nat) (h : ClosedOK c m bs) (hs : nextIdx bs = some s)
    (hfuel : bs.length + c.FLASH_BLOCKSIZE ≤ fuel) :
    ∃ F1, WR_SeekToEOF c fuel m { F with filemode := FFS_WR_APPEND, startblock := s } = some F1 ∧
      AppendOK c m bs [] F1 ∧ F1.virt_addr = (fileBytes bs).length := by
  have hB := hc.2.1
  obtain ⟨hchain, pre, t, hbs, htail⟩ := h
  subst hbs
  rw [nextIdx_snoc] at hs
  have hs2 : s = headIdx pre t := (Option.some.inj hs).symm
  subst hs2
  have hchain0 := hchain
  rw [ChainOK_iff_seg, ChainSeg_append] at hchain
  obtain ⟨hseg, hblk⟩ := hchain
  have hblk : BlockOK c m t (fileBytes pre).length none := by simpa [ChainSeg] using hblk
  obtain ⟨hv, hhdr, hct⟩ := hblk
  have hct2 : ChunkTail c m (t.idx * c.FLASH_BLOCKSIZE) true (t.idx * c.FLASH_BLOCKSIZE + 8)
    t.chunks := hct
  have hle := ChunkTail_end_le c m _ _ t.chunks _ (by omega) hct2
  have hlen := chunksEnd_ge_length t.chunks (t.idx * c.FLASH_BLOCKSIZE + 8)
  unfold WR_SeekToEOF
  simp only []
  rw [SeekToEOF_chain_spec c hc m t hhdr.1 pre 0 fuel (by simp at hfuel; omega) hseg]
  simp only [sizeof_BHDR]
  rw [SeekToEOF_scan_spec c hc m _ _ t.chunks _ _ fuel (by simp at hfuel; omega) (by omega) hct2]
  have hva : (readBHDR m (t.idx * c.FLASH_BLOCKSIZE)).virt_addr = (fileBytes pre).length := hv
  rw [hva, ← payloadLen_eq]
  by_cases hfit : chunksEnd (t.idx * c.FLASH_BLOCKSIZE + 8) t.chunks + 2
      ≤ t.idx * c.FLASH_BLOCKSIZE + c.FLASH_BLOCKSIZE
  · rw [if_pos hfit]
    refine ⟨_, rfl, ⟨rfl, by rw [nextIdx_snoc], by simp, pre, t, rfl, Or.inr ?_⟩, rfl⟩
    have hte := (ChunkTail_end c m _ _ t.chunks _ hct2) hfit
    rcases htail with hfull | hter
    · omega
    · exact ⟨t.idx * c.FLASH_BLOCKSIZE + c.FLASH_BLOCKSIZE
          - chunksEnd (t.idx * c.FLASH_BLOCKSIZE + 8) t.chunks - 1, by omega, by simp,
        hseg, ⟨hv, hhdr, hct⟩, rfl, rfl, by simp only []; omega, hte.2, rfl,
        fun x hx1 hx2 => hter x (by simp only [] at hx1; omega) hx2⟩
  · rw [if_neg hfit]
    exact ⟨_, rfl, ⟨rfl, by rw [nextIdx_snoc], by simp, pre, t, rfl,
      Or.inl ⟨rfl, rfl, rfl, hchain0, by omega⟩⟩, rfl⟩

theorem tst_ft_facts (c : Cfg) (hc : c.ok) :
    FFS_TST_FT c (FFS_B_EOF c) = false ∧ FFS_TST_FT c (FFS_B_JUMP c) = false ∧
    FFS_TST_FT c (FFS_UNINIT8 c) = false ∧ FFS_TST_FT c (FFS_B_FT_EOF c) = true ∧
    FFS_TST_FT c (FFS_B_FT_JUMP c) = true := by
  rcases uninit8_cases c hc with ⟨h, h2⟩ | ⟨h, h2⟩ <;>
    simp [FFS_TST_FT, FFS_B_EOF, FFS_B_JUMP, FFS_B_FT_EOF, FFS_B_FT_JUMP, h2] <;> decide

/-- Every block of a well-formed chain carries a data status. -/
theorem ChainOK_status (c : Cfg) (m : Mem) :
    ∀ (bs : List Blk) (v : Nat), ChainOK c m v bs →
      ∀ b ∈ bs, m (b.idx * c.FLASH_BLOCKSIZE) = FFS_B_EOF c ∨
        m (b.idx * c.FLASH_BLOCKSIZE) = FFS_B_JUMP c := by
  intro bs
  induction bs with
  | nil => intro v _ b hb; simp at hb
  | cons p rest ih =>
    intro v h b hb
    rcases List.mem_cons.mp hb with rfl | hb
    · have hh := h.1.2.1
      cases hn : nextIdx rest with
      | none => rw [hn] at hh; exact Or.inl hh.1
      | some j => rw [hn] at hh; exact Or.inr hh.1
    · exact ih _ h.2 b hb

theorem Read_touched (c : Cfg) (m m1 : Mem) (S : List Nat) (b a len : Nat)
    (ht : Touched c m m1 S) (hb : b ∉ S) (ha : b * c.FLASH_BLOCKSIZE ≤ a)
    (hl : a + len ≤ b * c.FLASH_BLOCKSIZE + c.FLASH_BLOCKSIZE) :
    flashSPAN_Read m1 a len = flashSPAN_Read m a len := by
  apply Read_congr
  intro i hi
  exact Touched_agree c m m1 S b ht hb _ (by omega) (by omega)

/-- The entry slots of table blocks that did not change are the same. -/
theorem tableEntries_touched (c : Cfg) (hc : c.ok) (m m1 : Mem) (S : List Nat)
    (ht : Touched c m m1 S) :
    ∀ (ft : List Nat), (∀ b ∈ ft, b ∉ S) → tableEntries c m1 ft = tableEntries c m ft := by
  have hB := hc.2.1
  intro ft hft
  unfold tableEntries
  congr 1
  apply List.map_congr_left
  intro b hb
  apply List.map_congr_left
  intro e he
  have he2 : e < (c.FLASH_BLOCKSIZE - 4) / 16 := by
    simpa [FFS_FTENTRIESPERBLOCK, sizeof_SBHDR, sizeof_FTE] using he
  have he3 : e * 16 + 16 ≤ c.FLASH_BLOCKSIZE - 4 := by
    have := Nat.div_mul_le_self (c.FLASH_BLOCKSIZE - 4) 16
    have : (e + 1) * 16 ≤ (c.FLASH_BLOCKSIZE - 4) / 16 * 16 := Nat.mul_le_mul_right 16 he2
    omega
  have hag := Touched_agree c m m1 S b ht (hft b hb)
  simp only [fteiAt, readFTE, rd16, FFS_ENTRYADDR, sizeof_SBHDR, sizeof_FTE, FFS_FILENAME_LEN]
  rw [hag _ (by omega) (by omega), hag _ (by omega) (by omega),
    Read_touched c m m1 S b _ 14 ht (hft b hb) (by omega) (by omega)]

/-- The chain of table blocks stays when no table block changes. -/
theorem FTChainOK_touched (c : Cfg) (hc : c.ok) (m m1 : Mem) (S : List Nat)
    (ht : Touched c m m1 S) :
    ∀ (ft : List Nat), (∀ b ∈ ft, b ∉ S) → FTChainOK c m ft → FTChainOK c m1 ft := by
  have hB := hc.2.1
  intro ft
  induction ft with
  | nil => intro _ h; exact h
  | cons b rest ih =>
    intro hft h
    have hag := Touched_agree c m m1 S b ht (hft b (by simp))
    cases rest with
    | nil =>
      simp only [FTChainOK] at h ⊢
      rw [hag _ (by omega) (by omega)]; exact h
    | cons b2 rest2 =>
      simp only [FTChainOK, rd16, offsetof_jump] at h ⊢
      rw [hag _ (by omega) (by omega), hag _ (by omega) (by omega), hag _ (by omega) (by omega)]
      exact ⟨h.1, h.2.1, ih (fun x hx => hft x (List.mem_cons_of_mem _ hx)) h.2.2⟩

/-- The file table is unaffected by changes to blocks that carried no table status. -/
theorem TableOK_touched (c : Cfg) (hc : c.ok) (m m1 : Mem) (S ft : List Nat)
    (ht : Touched c m m1 S) (hS : ∀ k ∈ S, FFS_TST_FT c (m (k * c.FLASH_BLOCKSIZE)) = false)
    (h : TableOK c m ft) :
    TableOK c m1 ft ∧ liveEntries c m1 (0 :: ft) = liveEntries c m (0 :: ft) := by
  have hB := hc.2.1
  have hdis : ∀ b ∈ 0 :: ft, b ∉ S := by
    intro b hb hin
    have := h.2 b hb
    rw [hS b hin] at this
    exact absurd this (by decide)
  refine ⟨⟨FTChainOK_touched c hc m m1 S ht _ hdis h.1, ?_⟩, ?_⟩
  · intro b hb
    rw [Touched_agree c m m1 S b ht (hdis b hb) _ (by omega) (by omega)]
    exact h.2 b hb
  · unfold liveEntries
    rw [tableEntries_touched c hc m m1 S ht _ hdis]

theorem fopen_append_unfold (c : Cfg) (fuel : Nat) (m : Mem) (fs : FFS_FS_t) (F : FFS_FILE_t)
    (filename : List Nat) (e : FFS_FTE_INFO_t)
    (h : LookupFile c fuel m filename = some (RES_OK, e)) :
    ffs_fopen c fuel m fs (some F) filename FFS_WR_APPEND
      = (WR_SeekToEOF c fuel m
          { F with filemode := FFS_WR_APPEND, startblock := e.FTE.startblock }).map
          (fun F1 => (RES_OK, m, fs, some F1)) := by
  unfold ffs_fopen
  simp only [h]
  rw [if_neg (by decide), if_pos (Or.inr trivial), if_neg (by simp), if_pos trivial,
    if_pos trivial]
  cases WR_SeekToEOF c fuel m
    { F with filemode := FFS_WR_APPEND, startblock := e.FTE.startblock } <;> rfl

/-- Opening an existing, cleanly closed file for appending places the handle at the
end of the file. -/
theorem fopen_append_spec (c : Cfg) (hc : c.ok) (m : Mem) (fs : FFS_FS_t) (F : FFS_FILE_t)
    (ft : List Nat) (filename : List Nat) (bs : List Blk) (fuel : Nat)
    (h : FileOK c m ft filename bs) (hfuel1 : ft.length < fuel)
    (hfuel2 : bs.length + c.FLASH_BLOCKSIZE ≤ fuel) :
    ∃ F1, ffs_fopen c fuel m fs (some F) filename FFS_WR_APPEND = some (RES_OK, m, fs, some F1) ∧
      AppendOK c m bs [] F1 ∧ F1.virt_addr = (fileBytes bs).length := by
  obtain ⟨htab, hhas, huniq, hclosed⟩ := h
  obtain ⟨e, he1, he2, he3⟩ := (LookupFile_spec c hc m ft filename fuel htab.1 hfuel1).1 hhas
  obtain ⟨F1, q1, q2, q3⟩ := SeekToEOF_spec c hc m bs F e.FTE.startblock fuel hclosed
    (huniq e he1 he2) hfuel2
  refine ⟨F1, ?_, q2, q3⟩
  rw [fopen_append_unfold c fuel m fs F filename e he3, q1]; rfl

theorem nextIdx_of_map (bs bs1 : List Blk) (new : List Nat)
    (h : bs1.map Blk.idx = bs.map Blk.idx ++ new) (hne : bs ≠ []) : nextIdx bs1 = nextIdx bs := by
  cases bs with
  | nil => exact absurd rfl hne
  | cons b rest =>
    cases bs1 with
    | nil => simp at h
    | cons b1 rest1 =>
      simp only [List.map_cons, List.cons_append, List.cons.injEq] at h
      simp [nextIdx, h.1]

/-- Every block of a file open for appending carries a data status. -/
theorem AppendPos_status (c : Cfg) (m : Mem) (bs : List Blk) (cur : List Nat) (F : FFS_FILE_t)
    (h : AppendPos c m bs cur F) :
    ∀ k ∈ bs.map Blk.idx, m (k * c.FLASH_BLOCKSIZE) = FFS_B_EOF c ∨
      m (k * c.FLASH_BLOCKSIZE) = FFS_B_JUMP c := by
  obtain ⟨pre, t, hbs, hpos⟩ := h
  subst hbs
  intro k hk
  obtain ⟨b, hb, rfl⟩ := List.mem_map.mp hk
  rcases hpos with ⟨_, _, _, hchain, _⟩ | ⟨rem, _, _, hinv⟩
  · exact ChainOK_status c m _ 0 hchain b hb
  · rcases List.mem_append.mp hb with hb | hb
    · exact Or.inr (ChainSeg_status c m t.idx pre 0 hinv.1 b hb)
    · simp only [List.mem_singleton] at hb
      rw [hb]; exact Or.inl hinv.2.1.2.1.1

/-- Writing through an append handle and closing it leaves a cleanly closed file that
holds the old bytes followed by the bytes written. -/
theorem write_close_spec (c : Cfg) (hc : c.ok) (fuel : Nat) (hN : c.BlockCount ≤ fuel) (m : Mem)
    (fs : FFS_FS_t) (ft : List Nat) (filename : List Nat) (bs : List Blk) (cur data : List Nat)
    (F : FFS_FILE_t) (htab : TableOK c m ft) (hhas : HasFile c m (0 :: ft) filename)
    (huniq : ∀ e ∈ liveEntries c m (0 :: ft), cstr filename = cstr e.FTE.filename →
      nextIdx bs = some e.FTE.startblock)
    (h : AppendOK c m bs cur F) (hfs : FsOK c m fs) (hd : ∀ x ∈ data, x < 256)
    (hlen : (fileBytes bs).length + cur.length + data.length < 4294967296)
    (hfuel : data.length < fuel) :
    ∃ k m1 fs1 F1 new, ffs_fwrite c fuel m fs data F = some (k, m1, fs1, F1) ∧ k ≤ data.length ∧
      (k = data.length ∨ (NoFree c m1 ∧ F1.nBytes = 0)) ∧
      F1.virt_addr = (fileBytes bs).length + cur.length + k ∧
      (∀ j ∈ new, m (j * c.FLASH_BLOCKSIZE) = FFS_UNINIT8 c ∧ 1 ≤ j ∧ j < c.BlockCount) ∧
      ∃ m2 F2 bs2, ffs_fclose c m1 (some F1) = (RES_OK, m2, some F2) ∧
        F2.filemode = FFS_CLOSED ∧ FileOK c m2 ft filename bs2 ∧
        fileBytes bs2 = fileBytes bs ++ cur ++ data.take k ∧ FsOK c m2 fs1 ∧
        bs2.map Blk.idx = bs.map Blk.idx ++ new ∧ Touched c m m2 (bs2.map Blk.idx) ∧
        (F1.nBytes = 0 → m2 = m1 ∧ LastFull c bs2) := by
  have hstat := AppendPos_status c m bs cur F h.2.2.2
  have hbsne : bs ≠ [] := by
    obtain ⟨pre, t, hbs, _⟩ := h.2.2.2
    rw [hbs]; simp
  obtain ⟨k, m1, fs1, F1, bs1, cur1, new, e, hk, w1, w2, w3, w4, w5, w6, w7, w8, w9, w10, w11⟩ :=
    fwrite_spec c hc fuel hN m fs bs cur data F h hfs hd hlen hfuel
  rw [Nat.zero_add] at e
  have hA1 : AppendOK c m1 bs1 cur1 F1 :=
    ⟨by rw [w1]; exact h.1, by rw [w2, nextIdx_of_map bs bs1 new w9 hbsne]; exact h.2.1, by
      rw [w3]
      have := congrArg List.length w5
      simp only [List.length_append, List.length_take] at this
      omega, w4⟩
  obtain ⟨m2, F2, bs2, c1, c2, c3, c4, c5, c6, c7, c8⟩ := fclose_spec c hc m1 bs1 cur1 F1 hA1
  have hT : Touched c m m2 (bs1.map Blk.idx) :=
    Touched_trans c m m1 m2 _ _ _ w11 c6 (fun _ h => h) (fun _ h => h)
  have hS : ∀ j ∈ bs1.map Blk.idx, FFS_TST_FT c (m (j * c.FLASH_BLOCKSIZE)) = false := by
    intro j hj
    rw [w9] at hj
    rcases List.mem_append.mp hj with hj | hj
    · rcases hstat j hj with h1 | h1
      · rw [h1]; exact (tst_ft_facts c hc).1
      · rw [h1]; exact (tst_ft_facts c hc).2.1
    · rw [(w10 j hj).1]; exact (tst_ft_facts c hc).2.2.1
  obtain ⟨t1, t2⟩ := TableOK_touched c hc m m2 (bs1.map Blk.idx) ft hT hS htab
  refine ⟨k, m1, fs1, F1, new, e, hk, w6, w3, w10, m2, F2, bs2, c1, c2, ⟨t1, ?_, ?_, c3⟩, ?_,
    ⟨c7 w7.1, w7.2⟩, by rw [c5, w9], by rw [c5]; exact hT, c8⟩
  · obtain ⟨e0, he0, he1⟩ := hhas
    exact ⟨e0, by rw [t2]; exact he0, he1⟩
  · intro e0 he0 he1
    rw [t2] at he0
    rw [nextIdx_of_map bs bs2 new (by rw [c5, w9]) hbsne]
    exact huniq e0 he0 he1
  · rw [c4, w5]

/-- Writing the header of an empty data block into an erased block gives the first
block of a new file, ready for writing. -/
theorem WrInv_first_pad (c : Cfg) (hc : c.ok) (m : Mem) (s pad : Nat) (hp : pad < 256)
    (herased : ∀ o, o < c.FLASH_BLOCKSIZE → m (s * c.FLASH_BLOCKSIZE + o) = FFS_UNINIT8 c) :
    WrInv c (flashSPAN_Write c m (s * c.FLASH_BLOCKSIZE)
        (encBHDR pad { status := FFS_B_EOF c, jump := FFS_UNINIT16 c, virt_addr := 0 }))
      [] { idx := s, chunks := [] } [] (s * c.FLASH_BLOCKSIZE + 8) 1 (c.FLASH_BLOCKSIZE - 9) ∧
    Touched c m (flashSPAN_Write c m (s * c.FLASH_BLOCKSIZE)
        (encBHDR pad { status := FFS_B_EOF c, jump := FFS_UNINIT16 c, virt_addr := 0 })) [s] := by
  have hB := hc.2.1
  have hsf := status_facts c hc
  have hl7 : (encBHDR pad { status := FFS_B_EOF c, jump := FFS_UNINIT16 c, virt_addr := 0 }).length = 8 := by
    simp [encBHDR, enc16, enc32]
  obtain ⟨w0, w1, w2, w3⟩ := Write_bhdr_pad c hc m (s * c.FLASH_BLOCKSIZE) (FFS_B_EOF c) 0 pad hp
    (fun o ho => herased o (by omega)) hsf.2.2.2.2.2.1 (by omega)
  have hT3 : Touched c m (flashSPAN_Write c m (s * c.FLASH_BLOCKSIZE)
      (encBHDR pad { status := FFS_B_EOF c, jump := FFS_UNINIT16 c, virt_addr := 0 })) [s] :=
    Touched_write c m _ _ s (Nat.le_refl _) (by rw [hl7]; omega)
  generalize hm3 : flashSPAN_Write c m (s * c.FLASH_BLOCKSIZE)
    (encBHDR pad { status := FFS_B_EOF c, jump := FFS_UNINIT16 c, virt_addr := 0 }) = m3 at *
  have hm3o : ∀ x, s * c.FLASH_BLOCKSIZE + 8 ≤ x → m3 x = m x := by
    intro x hx; rw [← hm3]; exact Write_outside c m _ _ x (Or.inr (by rw [hl7]; omega))
  have h7 : m3 (s * c.FLASH_BLOCKSIZE + 8) = FFS_UNINIT8 c := by
    rw [hm3o _ (by omega)]; exact herased 8 (by omega)
  refine ⟨⟨trivial, ⟨w3, ⟨w0, w1, w2⟩, fun _ => ⟨rfl, h7⟩⟩, ?_, rfl, ?_, h7, rfl, ?_⟩, hT3⟩
  · show _ = chunksEnd (s * c.FLASH_BLOCKSIZE + 8) []
    rw [chunksEnd_nil]
  · show s * c.FLASH_BLOCKSIZE + 8 + 1 + (c.FLASH_BLOCKSIZE - 9)
      = s * c.FLASH_BLOCKSIZE + c.FLASH_BLOCKSIZE
    omega
  · intro x h1 h2
    have h2' : x < s * c.FLASH_BLOCKSIZE + c.FLASH_BLOCKSIZE := h2
    rw [hm3o _ (by omega)]
    have := herased (x - s * c.FLASH_BLOCKSIZE) (by omega)
    rw [← this]; congr 1; omega

/-- The same with the padding byte of a header struct filled field by field. -/
theorem WrInv_first (c : Cfg) (hc : c.ok) (m : Mem) (s : Nat)
    (herased : ∀ o, o < c.FLASH_BLOCKSIZE → m (s * c.FLASH_BLOCKSIZE + o) = FFS_UNINIT8 c) :
    WrInv c (flashSPAN_Write c m (s * c.FLASH_BLOCKSIZE)
        (encBHDR (padByte c) { status := FFS_B_EOF c, jump := FFS_UNINIT16 c, virt_addr := 0 }))
      [] { idx := s, chunks := [] } [] (s * c.FLASH_BLOCKSIZE + 8) 1 (c.FLASH_BLOCKSIZE - 9) ∧
    Touched c m (flashSPAN_Write c m (s * c.FLASH_BLOCKSIZE)
        (encBHDR (padByte c) { status := FFS_B_EOF c, jump := FFS_UNINIT16 c, virt_addr := 0 })) [s] :=
  WrInv_first_pad c hc m s (padByte c) (padByte_lt c) herased

/-- The blocks of a chain lie at virtual addresses from the start of the chain on. -/
theorem ChainOK_virt_ge (c : Cfg) (m : Mem) :
    ∀ (bs : List Blk) (v : Nat), ChainOK c m v bs →
      ∀ b ∈ bs, v ≤ rd32 m (b.idx * c.FLASH_BLOCKSIZE + offsetof_virt_addr) := by
  intro bs
  induction bs with
  | nil => intro v _ b hb; simp at hb
  | cons p rest ih =>
    intro v h b hb
    rcases List.mem_cons.mp hb with rfl | hb
    · rw [h.1.1]
    · have := ih _ h.2 b hb
      omega

/-- A block that is followed by another one holds at least one byte. -/
theorem ChainOK_payload_pos (c : Cfg) (hc : c.ok) (m : Mem) (p q : Blk) (rest : List Blk)
    (v : Nat) (h : ChainOK c m v (p :: q :: rest)) : 1 ≤ payloadLen p.chunks := by
  have hB := hc.2.1
  have hct := h.1.2.2
  generalize p.chunks = cs at hct
  cases cs with
  | nil =>
    have := (hct (by simp only [sizeof_BHDR]; omega)).1
    simp [nextIdx] at this
  | cons ch cs2 =>
    have := hct.1
    simp only [payloadLen, List.flatten_cons, List.length_append]
    omega

/-- The blocks of a well-formed chain are pairwise different. -/
theorem ChainOK_head_notin (c : Cfg) (hc : c.ok) (m : Mem) (p : Blk) (rest : List Blk) (v : Nat)
    (h : ChainOK c m v (p :: rest)) : ∀ b ∈ rest, b.idx ≠ p.idx := by
  intro b hb he
  cases rest with
  | nil => simp at hb
  | cons q rest2 =>
    have h1 := ChainOK_payload_pos c hc m p q rest2 v h
    have h2 := ChainOK_virt_ge c m _ _ h.2 b hb
    have h3 := h.1.1
    rw [he, h3] at h2
    omega

theorem Erase_inside (c : Cfg) (m : Mem) (k o : Nat) (ho : o < c.FLASH_BLOCKSIZE) :
    flashSPAN_EraseBlock c m k (k * c.FLASH_BLOCKSIZE + o) = FFS_UNINIT8 c := by
  unfold flashSPAN_EraseBlock
  rw [if_pos (by omega)]

theorem Erase_touched (c : Cfg) (m : Mem) (k : Nat) (hB : 0 < c.FLASH_BLOCKSIZE) :
    Touched c m (flashSPAN_EraseBlock c m k) [k] := by
  intro x hx
  unfold flashSPAN_EraseBlock
  rw [if_neg]
  intro hcon
  apply hx
  have e : x = k * c.FLASH_BLOCKSIZE + (x - k * c.FLASH_BLOCKSIZE) := by omega
  rw [e, div_block _ _ _ (by omega)]
  simp

/-- The erase loop of the replace branch of `ffs_fopen` erases every block of the
chain and nothing else. -/
theorem fopen_erase_spec (c : Cfg) (hc : c.ok) :
    ∀ (rest : List Blk) (p : Blk) (m : Mem) (v fuel : Nat), rest.length < fuel →
      ChainOK c m v (p :: rest) →
      ∃ m1 pad, ffs_fopen_erase c fuel m p.idx = some (m1, pad) ∧ pad < 256 ∧
        (∀ b ∈ p :: rest, ∀ o, o < c.FLASH_BLOCKSIZE →
          m1 (b.idx * c.FLASH_BLOCKSIZE + o) = FFS_UNINIT8 c) ∧
        Touched c m m1 ((p :: rest).map Blk.idx) := by
  have hB := hc.2.1
  intro rest
  induction rest with
  | nil =>
    intro p m v fuel hf h
    obtain ⟨f, rfl⟩ : ∃ f, fuel = f + 1 := ⟨fuel - 1, by omega⟩
    rw [ffs_fopen_erase]
    simp only [readBHDR]
    have hst : m (p.idx * c.FLASH_BLOCKSIZE) = FFS_B_EOF c := h.1.2.1.1
    rw [if_neg (by rw [hst]; exact (status_facts c hc).1)]
    refine ⟨_, _, rfl, Nat.mod_lt _ (by omega), ?_, Erase_touched c m p.idx (by omega)⟩
    intro b hb o ho
    simp only [List.mem_singleton] at hb
    rw [hb]; exact Erase_inside c m p.idx o ho
  | cons q rest2 ih =>
    intro p m v fuel hf h
    obtain ⟨f, rfl⟩ : ∃ f, fuel = f + 1 := ⟨fuel - 1, by omega⟩
    rw [ffs_fopen_erase]
    simp only [readBHDR]
    have hhdr : m (p.idx * c.FLASH_BLOCKSIZE) = FFS_B_JUMP c
        ∧ rd16 m (p.idx * c.FLASH_BLOCKSIZE + offsetof_jump) = q.idx := h.1.2.1
    rw [if_pos hhdr.1, hhdr.2]
    have hnot := ChainOK_head_notin c hc m p (q :: rest2) v h
    have hT := Erase_touched c m p.idx (by omega)
    have h2 : ChainOK c (flashSPAN_EraseBlock c m p.idx) (v + payloadLen p.chunks) (q :: rest2) := by
      rw [ChainOK_iff_seg]
      exact ChainSeg_touched c hc m _ [p.idx] none _ _ hT
        (fun b hb => by simpa using hnot b hb) ((ChainOK_iff_seg c m _ _).mp h.2)
    obtain ⟨m1, pad, e1, epad, e2, e3⟩ := ih q _ _ f (by simp at hf; omega) h2
    refine ⟨m1, pad, e1, epad, ?_, Touched_trans c m _ m1 [p.idx] _ _ hT e3 (by simp)
      (fun k hk => List.mem_cons_of_mem _ hk)⟩
    intro b hb o ho
    rcases List.mem_cons.mp hb with rfl | hb
    · have hnin : b.idx ∉ (q :: rest2).map Blk.idx := by
        intro hin
        obtain ⟨b2, hb2, he⟩ := List.mem_map.mp hin
        exact hnot b2 hb2 he
      rw [Touched_agree c _ m1 _ b.idx e3 hnin _ (by omega) (by omega)]
      exact Erase_inside c m b.idx o ho
    · exact e2 b hb o ho

theorem fopen_replace_unfold (c : Cfg) (fuel : Nat) (m : Mem) (fs : FFS_FS_t) (F : FFS_FILE_t)
    (filename : List Nat) (e : FFS_FTE_INFO_t)
    (h : LookupFile c fuel m filename = some (RES_OK, e)) :
    ffs_fopen c fuel m fs (some F) filename FFS_WR_REPLACE
      = (ffs_fopen_erase c fuel m e.FTE.startblock).map (fun r =>
          (RES_OK, flashSPAN_Write c r.1 (e.FTE.startblock * c.FLASH_BLOCKSIZE)
              (encBHDR r.2 { status := FFS_B_EOF c, jump := FFS_UNINIT16 c, virt_addr := 0 }),
            fs, some
              { startblock := e.FTE.startblock, filemode := FFS_WR_APPEND,
                hw_addr := e.FTE.startblock * c.FLASH_BLOCKSIZE + sizeof_BHDR,
                virt_addr := 0, nBytes := 1 })) := by
  unfold ffs_fopen
  simp only [h]
  rw [if_neg (by decide), if_pos (Or.inl trivial), if_neg (by simp), if_pos trivial,
    if_neg (by decide)]
  cases ffs_fopen_erase c fuel m e.FTE.startblock <;> rfl

/-- Opening an existing file for replacing erases its chain and leaves the start
block as the single, empty block of the file. -/
theorem fopen_replace_spec (c : Cfg) (hc : c.ok) (m : Mem) (fs : FFS_FS_t) (F : FFS_FILE_t)
    (ft : List Nat) (filename : List Nat) (bs : List Blk) (fuel : Nat)
    (h : FileOK c m ft filename bs) (hfree : FreeOK c m) (hfuel1 : ft.length < fuel)
    (hfuel2 : bs.length ≤ fuel) :
    ∃ m1 F1 b rest, bs = b :: rest ∧
      ffs_fopen c fuel m fs (some F) filename FFS_WR_REPLACE = some (RES_OK, m1, fs, some F1) ∧
      AppendOK c m1 [{ idx := b.idx, chunks := [] }] [] F1 ∧ F1.virt_addr = 0 ∧
      F1.startblock = b.idx ∧
      (∀ x ∈ rest, m1 (x.idx * c.FLASH_BLOCKSIZE) = FFS_B_UNUSED c) ∧
      Touched c m m1 (bs.map Blk.idx) ∧ FreeOK c m1 ∧ TableOK c m1 ft ∧
      liveEntries c m1 (0 :: ft) = liveEntries c m (0 :: ft) := by
  have hB := hc.2.1
  obtain ⟨htab, hhas, huniq, hclosed⟩ := h
  obtain ⟨e, he1, he2, he3⟩ := (LookupFile_spec c hc m ft filename fuel htab.1 hfuel1).1 hhas
  have hs := huniq e he1 he2
  obtain ⟨hchain, _⟩ := hclosed
  cases bs with
  | nil => simp [nextIdx] at hs
  | cons b rest =>
    have hsb : e.FTE.startblock = b.idx := by simpa [nextIdx] using hs.symm
    obtain ⟨m1, pad, e1, epad, e2, e3⟩ := fopen_erase_spec c hc rest b m 0 fuel
      (by simp at hfuel2; omega) hchain
    obtain ⟨i1, i2⟩ := WrInv_first_pad c hc m1 b.idx pad epad (e2 b (by simp))
    have hT : Touched c m (flashSPAN_Write c m1 (b.idx * c.FLASH_BLOCKSIZE)
        (encBHDR pad { status := FFS_B_EOF c, jump := FFS_UNINIT16 c, virt_addr := 0 }))
        ((b :: rest).map Blk.idx) :=
      Touched_trans c m m1 _ _ [b.idx] _ e3 i2 (fun _ h => h) (by simp)
    have hstat := ChainOK_status c m _ 0 hchain
    have hS : ∀ k ∈ (b :: rest).map Blk.idx, FFS_TST_FT c (m (k * c.FLASH_BLOCKSIZE)) = false := by
      intro k hk
      obtain ⟨x, hx, rfl⟩ := List.mem_map.mp hk
      rcases hstat x hx with h1 | h1
      · rw [h1]; exact (tst_ft_facts c hc).1
      · rw [h1]; exact (tst_ft_facts c hc).2.1
    obtain ⟨t1, t2⟩ := TableOK_touched c hc m _ _ ft hT hS htab
    have hnot := ChainOK_head_notin c hc m b rest 0 hchain
    have hrest : ∀ x ∈ rest, ∀ o, o < c.FLASH_BLOCKSIZE →
        flashSPAN_Write c m1 (b.idx * c.FLASH_BLOCKSIZE)
          (encBHDR pad { status := FFS_B_EOF c, jump := FFS_UNINIT16 c, virt_addr := 0 })
          (x.idx * c.FLASH_BLOCKSIZE + o) = FFS_UNINIT8 c := by
      intro x hx o ho
      rw [Touched_agree c m1 _ [b.idx] x.idx i2 (by simpa using hnot x hx) _ (by omega) (by omega)]
      exact e2 x (List.mem_cons_of_mem _ hx) o ho
    refine ⟨_,
      { startblock := b.idx, filemode := FFS_WR_APPEND,
        hw_addr := b.idx * c.FLASH_BLOCKSIZE + 8, virt_addr := 0, nBytes := 1 },
      b, rest, rfl, ?_, ⟨rfl, rfl, rfl, [], _, rfl, Or.inr ⟨c.FLASH_BLOCKSIZE - 9,
      by omega, Nat.le_of_ble_eq_true rfl, i1⟩⟩, rfl, rfl, fun x hx => hrest x hx 0 (by omega), hT, ?_, t1, t2⟩
    · rw [fopen_replace_unfold c fuel m fs F filename e he3, hsb, e1]; rfl
    · intro k hkN hk o ho
      by_cases hkb : k = b.idx
      · rw [hkb, i1.2.1.2.1.1] at hk
        exact absurd hk (status_facts c hc).2.1
      · by_cases hkr : k ∈ rest.map Blk.idx
        · obtain ⟨x, hx, rfl⟩ := List.mem_map.mp hkr
          exact hrest x hx o ho
        · have hag := Touched_agree c m _ _ k hT (by simp [hkb]; simpa using hkr)
          rw [hag _ (by omega) (by omega)] at hk
          rw [hag _ (by omega) (by omega)]
          exact hfree k hkN hk o ho

theorem chunksEnd_le_payload (c : Cfg) (m : Mem) (base : Nat) (last : Bool) :
    ∀ (cs : List (List Nat)) (a : Nat), ChunkTail c m base last a cs →
      chunksEnd a cs ≤ a + 2 * payloadLen cs := by
  intro cs
  induction cs with
  | nil => intro a _; simp [chunksEnd_nil]
  | cons ch rest ih =>
    intro a h
    have h1 := ih _ h.2.2.2.2.2
    have h2 := h.1
    rw [chunksEnd_cons]
    have e : payloadLen (ch :: rest) = ch.length + payloadLen rest := by simp [payloadLen]
    rw [e]; omega

theorem fileBytes_length_cons2 (p : Blk) (rest : List Blk) :
    (fileBytes (p :: rest)).length = payloadLen p.chunks + (fileBytes rest).length := by
  simp [fileBytes, payloadLen]

theorem LastFull_tail (c : Cfg) (p q : Blk) (rest : List Blk) (h : LastFull c (p :: q :: rest)) :
    LastFull c (q :: rest) := by
  obtain ⟨pre, t, e, hf⟩ := h
  cases pre with
  | nil => simp at e
  | cons p2 pre2 =>
    simp only [List.cons_append, List.cons.injEq] at e
    exact ⟨pre2, t, e.2, hf⟩

/-- A chain whose last block is full holds at least half a block area of bytes in
every block. -/
theorem chain_capacity (c : Cfg) (hc : c.ok) (m : Mem) :
    ∀ (bs : List Blk) (v : Nat), ChainOK c m v bs → LastFull c bs →
      bs.length * (c.FLASH_BLOCKSIZE - 9) ≤ 2 * (fileBytes bs).length := by
  have hB := hc.2.1
  intro bs
  induction bs with
  | nil => intro v _ _; simp
  | cons p rest ih =>
    intro v h hl
    have hct := h.1.2.2
    simp only [sizeof_BHDR] at hct
    have hle := chunksEnd_le_payload c m _ _ p.chunks _ hct
    have hfull : p.idx * c.FLASH_BLOCKSIZE + c.FLASH_BLOCKSIZE
        < chunksEnd (p.idx * c.FLASH_BLOCKSIZE + 8) p.chunks + 2 := by
      cases rest with
      | nil =>
        obtain ⟨pre, t, e, hf⟩ := hl
        cases pre with
        | nil =>
          simp only [List.nil_append, List.cons.injEq, and_true] at e
          rw [e]; exact hf
        | cons p2 pre2 =>
          simp only [List.cons_append, List.cons.injEq] at e
          have := congrArg List.length e.2
          simp at this
      | cons q rest2 =>
        have hend := ChunkTail_end c m _ _ p.chunks _ hct
        by_contra hcon
        have := (hend (by omega)).1
        simp [nextIdx] at this
    rw [fileBytes_length_cons2, List.length_cons, Nat.add_mul, Nat.one_mul]
    have hrest : rest.length * (c.FLASH_BLOCKSIZE - 9) ≤ 2 * (fileBytes rest).length := by
      cases rest with
      | nil => simp
      | cons q rest2 => exact ih _ h.2 (LastFull_tail c p q rest2 hl)
    omega

/-- When no unused block is left after a write, every block that was unused before
has joined the file. -/
theorem free_consumed (c : Cfg) (hc : c.ok) (m m1 : Mem) (old new free : List Nat)
    (hT : Touched c m m1 (old ++ new)) (hnf : NoFree c m1) (hnd : free.Nodup)
    (hfree : ∀ k ∈ free, 1 ≤ k ∧ k < c.BlockCount ∧ m (k * c.FLASH_BLOCKSIZE) = FFS_UNINIT8 c ∧
      k ∉ old) : free.length ≤ new.length := by
  have hB := hc.2.1
  apply List.Subperm.length_le
  apply List.Nodup.subperm hnd
  intro k hk
  obtain ⟨h1, h2, h3, h4⟩ := hfree k hk
  by_contra hcon
  have hag := Touched_agree c m m1 _ k hT (by simp [h4, hcon])
  have := hnf k h1 h2
  rw [hag _ (by omega) (by omega), h3] at this
  exact this rfl

theorem FreshOK_block (c : Cfg) (hc : c.ok) (m : Mem) (h : FreshOK c m) (k : Nat) (hk1 : 1 ≤ k)
    (hk : k < c.BlockCount) :
    ∀ o, o < c.FLASH_BLOCKSIZE → m (k * c.FLASH_BLOCKSIZE + o) = FFS_UNINIT8 c := by
  have hB := hc.2.1
  intro o ho
  apply h.2
  · have : 1 * c.FLASH_BLOCKSIZE ≤ k * c.FLASH_BLOCKSIZE := Nat.mul_le_mul_right _ hk1
    omega
  · have : (k + 1) * c.FLASH_BLOCKSIZE ≤ c.BlockCount * c.FLASH_BLOCKSIZE :=
      Nat.mul_le_mul_right _ hk
    rw [Nat.add_mul] at this
    omega

theorem FreshOK_free (c : Cfg) (hc : c.ok) (m : Mem) (h : FreshOK c m) : FreeOK c m := by
  intro k hkN hk o ho
  by_cases h0 : k = 0
  · subst h0
    rw [Nat.zero_mul, h.1] at hk
    exact absurd hk (status_facts c hc).2.2.2.1
  · exact FreshOK_block c hc m h k (by omega) hkN o ho

theorem ft_status_facts (c : Cfg) (hc : c.ok) : FFS_B_FT_EOF c ≠ FFS_B_FT_JUMP c := by
  rcases uninit8_cases c hc with ⟨h, h2⟩ | ⟨h, h2⟩ <;>
    simp [FFS_B_FT_EOF, FFS_B_FT_JUMP, h2]

/-- On a blank device `ffs_init` formats: the device is fresh afterwards and the
search cursor is valid. -/
theorem init_fresh (c : Cfg) (hc : c.ok) (m0 : Mem) (fs0 : FFS_FS_t) (fuel : Nat)
    (hblank : FFS_TST_FT c (m0 0) = false) (hN : 2 ≤ c.BlockCount) (hfuel : c.BlockCount ≤ fuel) :
    ∃ m1 fs1, ffs_init c fuel RES_OK m0 fs0 = some (RES_OK, m1, fs1) ∧ FreshOK c m1 ∧
      FsOK c m1 fs1 := by
  have hB := hc.2.1
  have hNN := hc.2.2.2.1
  have hfresh : FreshOK c (flashSPAN_Write c (flashSPAN_EraseAll c m0) 0 [FFS_B_FT_EOF c]) := by
    constructor
    · apply Write_one c hc
      · unfold flashSPAN_EraseAll
        rw [if_pos]
        have : 2 * c.FLASH_BLOCKSIZE ≤ c.BlockCount * c.FLASH_BLOCKSIZE := Nat.mul_le_mul_right _ hN
        omega
      · exact (status_facts c hc).2.2.2.2.2.2.2.1
    · intro a ha1 ha2
      rw [Write_outside c _ 0 _ a (Or.inr (by simp; omega))]
      unfold flashSPAN_EraseAll
      rw [if_pos ha2]
  unfold ffs_init
  rw [if_neg (by simp)]
  simp only [hblank, Bool.false_eq_true, if_false]
  obtain ⟨b, fs1, e, q1, q2, q3⟩ := FindUnusedBlock_spec c hc
    (flashSPAN_Write c (flashSPAN_EraseAll c m0) 0 [FFS_B_FT_EOF c])
    { fs0 with BlockSearchStart := 0 } fuel (by simp only []; omega) hfuel
  rw [e]
  simp only []
  refine ⟨_, _, rfl, hfresh, FreshOK_free c hc _ hfresh, ?_⟩
  rcases q3 with ⟨hb0, _, hnf⟩ | ⟨hb1, hbN, _, _⟩
  · exfalso
    apply hnf 1 (Nat.le_refl _) (by omega)
    have := FreshOK_block c hc _ hfresh 1 (Nat.le_refl _) (by omega) 0 (by omega)
    simpa using this
  · show (b + 65535) % 65536 < c.BlockCount
    omega

theorem uninit16_val (c : Cfg) (hc : c.ok) :
    FFS_UNINIT8 c + 256 * FFS_UNINIT8 c = FFS_UNINIT16 c := by
  rcases uninit8_cases c hc with ⟨h, h2⟩ | ⟨h, h2⟩ <;> simp [FFS_UNINIT16, h2]

theorem entries_pos (c : Cfg) (hc : c.ok) : 1 ≤ FFS_FTENTRIESPERBLOCK c := by
  have hB := hc.2.1
  simp only [FFS_FTENTRIESPERBLOCK, sizeof_SBHDR, sizeof_FTE, FFS_FILENAME_LEN]
  omega

theorem tableEntries_single (c : Cfg) (hc : c.ok) (m : Mem) :
    tableEntries c m [0] = fteiAt c m 0 0 ::
      (List.range' 1 (FFS_FTENTRIESPERBLOCK c - 1)).map (fteiAt c m 0) := by
  have hn := entries_pos c hc
  obtain ⟨n, hn2⟩ : ∃ n, FFS_FTENTRIESPERBLOCK c = n + 1 :=
    ⟨FFS_FTENTRIESPERBLOCK c - 1, by omega⟩
  simp only [tableEntries, List.map_cons, List.map_nil, List.flatten_cons, List.flatten_nil,
    List.append_nil, hn2, Nat.add_sub_cancel]
  rw [List.range_eq_range', List.range'_succ, List.map_cons]

/-- On a fresh device the lookup of any name stops at the first, never-used entry. -/
theorem lookup_fresh (c : Cfg) (hc : c.ok) (m : Mem) (filename : List Nat) (fuel : Nat)
    (h : FreshOK c m) (hN : 1 ≤ c.BlockCount) (hfuel : 0 < fuel) :
    LookupFile c fuel m filename = some (RES_NOTFOUND, fteiAt c m 0 0) ∧
    (fteiAt c m 0 0).FTE.startblock = FFS_UNINIT16 c := by
  have hB := hc.2.1
  have hft : FTChainOK c m [0] := by
    show m (0 * c.FLASH_BLOCKSIZE) ≠ _
    rw [Nat.zero_mul, h.1]; exact ft_status_facts c hc
  have hlt : 19 ≤ c.BlockCount * c.FLASH_BLOCKSIZE := by
    have : 1 * c.FLASH_BLOCKSIZE ≤ c.BlockCount * c.FLASH_BLOCKSIZE := Nat.mul_le_mul_right _ hN
    omega
  have hsb : (fteiAt c m 0 0).FTE.startblock = FFS_UNINIT16 c := by
    simp only [fteiAt, readFTE, rd16, FFS_ENTRYADDR, sizeof_SBHDR, sizeof_FTE, Nat.zero_mul,
      Nat.zero_add, Nat.add_zero]
    rw [h.2 4 (by omega) (by omega), h.2 5 (by omega) (by omega)]
    exact uninit16_val c hc
  refine ⟨?_, hsb⟩
  rw [LookupFile, LookupFile_loop_eq c m filename [] 0 fuel _ hft (by simpa using hfuel),
    tableEntries_single c hc, lookupList, scanList,
    if_neg (by rw [hsb]; exact (null16_ne_uninit16 c hc).symm), if_pos hsb]

theorem cstr_append_zero (s t : List Nat) : cstr (cstr s ++ 0 :: t) = cstr s := by
  unfold cstr
  induction s with
  | nil => simp
  | cons x xs ih =>
    by_cases hx : x = 0
    · simp [hx]
    · simp [List.takeWhile_cons, hx]
      simpa using ih

/-- The name read back from a field that holds a copied name is the name copied, when
it fits into the field. -/
theorem cstr_nameField (dst src : List Nat) (h : (cstr src).length < dst.length) :
    cstr (nameField dst src) = cstr src := by
  unfold nameField
  obtain ⟨k, hk⟩ : ∃ k, dst.length - (cstr src).length = k + 1 :=
    ⟨dst.length - (cstr src).length - 1, by omega⟩
  rw [List.append_assoc, List.take_append_eq_append_take, List.take_of_length_le (by omega),
    hk, List.singleton_append, List.take_succ_cons, cstr_append_zero]

theorem nameField_length (dst src : List Nat) : (nameField dst src).length = dst.length := by
  unfold nameField
  simp
  omega

theorem nameField_lt (dst src : List Nat) (hd : ∀ x ∈ dst, x < 256) (hs : ∀ x ∈ src, x < 256) :
    ∀ x ∈ nameField dst src, x < 256 := by
  intro x hx
  unfold nameField at hx
  have hx := List.mem_of_mem_take hx
  simp only [List.append_assoc, List.singleton_append, List.mem_append, List.mem_cons] at hx
  rcases hx with hx | hx | hx
  · exact hs x ((List.takeWhile_sublist _).subset hx)
  · omega
  · exact hd x (List.mem_of_mem_drop hx)

theorem dec32_enc32 (a : Nat) (ha : a < 4294967296) : dec32 (enc32 a) = a := by
  simp only [dec32, enc32, List.getD_cons_zero, List.getD_cons_succ]
  omega

/-- A name that fits into the filename field with its terminator is copied into the
field by `strcpy` and leaves the entry address behind the field as it is. -/
theorem strcpy_fits (dst src : List Nat) (a : Nat) (hd : dst.length = FFS_FILENAME_LEN)
    (hs : (cstr src).length < FFS_FILENAME_LEN) (ha : a < 4294967296) :
    (strcpy (dst ++ enc32 a) src).take FFS_FILENAME_LEN = nameField dst src ∧
    dec32 (((strcpy (dst ++ enc32 a) src).drop FFS_FILENAME_LEN).take 4) = a := by
  have e1 : (dst ++ enc32 a).drop ((cstr src).length + 1)
      = dst.drop ((cstr src).length + 1) ++ enc32 a :=
    List.drop_append_of_le_length (by omega)
  have e2 : strcpy (dst ++ enc32 a) src
      = (cstr src ++ [0] ++ dst.drop ((cstr src).length + 1)) ++ enc32 a := by
    unfold strcpy
    rw [e1, List.append_assoc, List.append_assoc, List.append_assoc]
  have e3 : (cstr src ++ [0] ++ dst.drop ((cstr src).length + 1)).length = FFS_FILENAME_LEN := by
    simp only [List.length_append, List.length_drop, List.length_singleton]
    omega
  constructor
  · rw [e2, List.take_left' e3]
    unfold nameField
    rw [hd, List.take_of_length_le (by omega)]
  · rw [e2, List.drop_left' e3, List.take_of_length_le (by simp [enc32])]
    exact dec32_enc32 a ha

theorem create_unfold (c : Cfg) (fuel : Nat) (m : Mem) (fs fs2 : FFS_FS_t) (F : FFS_FILE_t)
    (filename : List Nat) (FTEI : FFS_FTE_INFO_t) (b : Nat)
    (hu : FTEI.FTE.startblock = FFS_UNINIT16 c)
    (ha : FindUnusedBlock c fuel m fs = some (b, fs2)) (hb : b ≠ 0)
    (hlen : FTEI.FTE.filename.length = FFS_FILENAME_LEN)
    (hname : (cstr filename).length < FFS_FILENAME_LEN) (haddr : FTEI.fteAddr < 4294967296) :
    ffs_fopen_create c fuel m fs F filename FTEI
      = some (RES_OK,
          flashSPAN_Write c
            (flashSPAN_Write c m (b * c.FLASH_BLOCKSIZE)
              (encBHDR (padByte c) { status := FFS_B_EOF c, jump := FFS_UNINIT16 c, virt_addr := 0 }))
            FTEI.fteAddr
            (encFTE { startblock := b, filename := nameField FTEI.FTE.filename filename }),
          fs2,
          { startblock := b, filemode := FFS_WR_APPEND,
            hw_addr := b * c.FLASH_BLOCKSIZE + sizeof_BHDR, virt_addr := 0, nBytes := 1 }) := by
  obtain ⟨e1, e2⟩ := strcpy_fits FTEI.FTE.filename filename FTEI.fteAddr hlen hname haddr
  unfold ffs_fopen_create
  simp only [hu, ne_eq, not_true_eq_false, if_false, ha, if_neg hb, e1, e2]

theorem fopen_create_unfold (c : Cfg) (fuel : Nat) (m : Mem) (fs : FFS_FS_t) (F : FFS_FILE_t)
    (filename : List Nat) (mode : Nat) (e : FFS_FTE_INFO_t)
    (hmode : mode = FFS_WR_REPLACE ∨ mode = FFS_WR_APPEND)
    (h : LookupFile c fuel m filename = some (RES_NOTFOUND, e)) :
    ffs_fopen c fuel m fs (some F) filename mode
      = (ffs_fopen_create c fuel m fs F filename e).map
          (fun r => (r.1, r.2.1, r.2.2.1, some r.2.2.2)) := by
  unfold ffs_fopen
  simp only [h]
  rw [if_neg (by rcases hmode with h | h <;> rw [h] <;> decide), if_pos hmode, if_pos trivial]
  cases ffs_fopen_create c fuel m fs F filename e <;> rfl

/-- A writing position stays valid when the device changes only outside the blocks
of the file. -/
theorem WrInv_touched (c : Cfg) (hc : c.ok) (m m1 : Mem) (S : List Nat) (pre : List Blk) (t : Blk)
    (cur : List Nat) (hw nB rem : Nat) (hT : Touched c m m1 S) (ht : t.idx ∉ S)
    (hpre : ∀ b ∈ pre, b.idx ∉ S) (h : WrInv c m pre t cur hw nB rem) :
    WrInv c m1 pre t cur hw nB rem := by
  have hB := hc.2.1
  obtain ⟨hseg, hblk, hhw, hnB, hsum, hhd, hrd, htail⟩ := h
  have hag := Touched_agree c m m1 S t.idx hT ht
  have hge := chunksEnd_ge (t.idx * c.FLASH_BLOCKSIZE + 8) t.chunks
  refine ⟨ChainSeg_touched c hc m m1 S _ pre 0 hT hpre hseg, BlockOK_congr c hc m m1 t _ none hag hblk,
    hhw, hnB, hsum, ?_, ?_, ?_⟩
  · rw [hag _ (by omega) (by omega)]; exact hhd
  · have e : flashSPAN_Read m1 (hw + 1) cur.length = flashSPAN_Read m (hw + 1) cur.length :=
      Read_congr m m1 _ _ (fun i hi => hag _ (by omega) (by omega))
    rw [e]; exact hrd
  · intro x h1 h2
    rw [hag _ (by omega) h2]; exact htail x h1 h2

theorem liveOf_single (c : Cfg) (e0 : FFS_FTE_INFO_t) (es : List FFS_FTE_INFO_t)
    (h1 : e0.FTE.startblock ≠ FFS_UNINIT16 c) (h2 : e0.FTE.startblock ≠ FFS_NULL16 c)
    (hes : ∀ e ∈ es, e.FTE.startblock = FFS_UNINIT16 c) : liveOf c (e0 :: es) = [e0] := by
  unfold liveOf
  have e : (e0 :: es).takeWhile (fun e => e.FTE.startblock != FFS_UNINIT16 c) = [e0] := by
    rw [List.takeWhile_cons_of_pos (by simpa using h1)]
    cases es with
    | nil => rfl
    | cons e1 es1 =>
      rw [List.takeWhile_cons_of_neg (by simpa using hes e1 (by simp))]
  rw [e]
  simp [h2]

theorem block_ne_marks (c : Cfg) (hc : c.ok) (b : Nat) (h1 : 1 ≤ b) (h2 : b < c.BlockCount) :
    b ≠ FFS_UNINIT16 c ∧ b ≠ FFS_NULL16 c := by
  have hN := hc.2.2.2.1
  rcases uninit8_cases c hc with ⟨h, h3⟩ | ⟨h, h3⟩ <;>
    simp [FFS_UNINIT16, FFS_NULL16, FFS_NULL8, h3] <;> omega

/-- Creating a file on a fresh device: the file gets the first table entry and one
empty block, and the handle is ready for writing. -/
theorem create_fresh (c : Cfg) (hc : c.ok) (m : Mem) (fs : FFS_FS_t) (F : FFS_FILE_t)
    (filename : List Nat) (mode fuel : Nat) (h : FreshOK c m)
    (hfs : fs.BlockSearchStart < c.BlockCount) (hN : 2 ≤ c.BlockCount)
    (hfuel : c.BlockCount ≤ fuel) (hmode : mode = FFS_WR_REPLACE ∨ mode = FFS_WR_APPEND)
    (hname : (cstr filename).length < FFS_FILENAME_LEN) (hchars : ∀ x ∈ filename, x < 256) :
    ∃ m2 fs2 F2 b, ffs_fopen c fuel m fs (some F) filename mode = some (RES_OK, m2, fs2, some F2) ∧
      1 ≤ b ∧ b < c.BlockCount ∧ AppendOK c m2 [{ idx := b, chunks := [] }] [] F2 ∧
      F2.virt_addr = 0 ∧ FsOK c m2 fs2 ∧ TableOK c m2 [] ∧ HasFile c m2 [0] filename ∧
      (∀ e ∈ liveEntries c m2 [0], e.FTE.startblock = b) ∧
      (∀ k, 1 ≤ k → k < c.BlockCount → k ≠ b → m2 (k * c.FLASH_BLOCKSIZE) = FFS_UNINIT8 c) := by
  have hB := hc.2.1
  have hNN := hc.2.2.2.1
  have hsf := status_facts c hc
  have hlt : 2 * c.FLASH_BLOCKSIZE ≤ c.BlockCount * c.FLASH_BLOCKSIZE := Nat.mul_le_mul_right _ hN
  obtain ⟨hl1, hl2⟩ := lookup_fresh c hc m filename fuel h (by omega) (by omega)
  obtain ⟨b, fs2, ea, q1, q2, q3⟩ := FindUnusedBlock_spec c hc m fs fuel hfs hfuel
  have hb : 1 ≤ b ∧ b < c.BlockCount := by
    rcases q3 with ⟨_, _, hnf⟩ | ⟨hb1, hbN, _, _⟩
    · exfalso
      apply hnf 1 (Nat.le_refl _) (by omega)
      have := FreshOK_block c hc m h 1 (Nat.le_refl _) (by omega) 0 (by omega)
      simpa using this
    · exact ⟨hb1, hbN⟩
  obtain ⟨hb1, hbN⟩ := hb
  have hadr : (fteiAt c m 0 0).fteAddr = 4 := by
    simp [fteiAt, FFS_ENTRYADDR, sizeof_SBHDR]
  have hfn : (fteiAt c m 0 0).FTE.filename = flashSPAN_Read m 6 14 := by
    simp [fteiAt, readFTE, FFS_ENTRYADDR, sizeof_SBHDR, FFS_FILENAME_LEN]
  rw [fopen_create_unfold c fuel m fs F filename mode _ hmode hl1,
    create_unfold c fuel m fs fs2 F filename _ b hl2 ea (by omega)
      (by rw [hfn]; exact Read_length m 6 14) hname (by rw [hadr]; omega), hadr, hfn]
  simp only [Option.map_some', sizeof_BHDR]
  obtain ⟨i1, i2⟩ := WrInv_first c hc m b (FreshOK_block c hc m h b hb1 hbN)
  generalize hm3 : flashSPAN_Write c m (b * c.FLASH_BLOCKSIZE)
    (encBHDR (padByte c) { status := FFS_B_EOF c, jump := FFS_UNINIT16 c, virt_addr := 0 }) = m3 at *
  have hbB : 1 * c.FLASH_BLOCKSIZE ≤ b * c.FLASH_BLOCKSIZE := Nat.mul_le_mul_right _ hb1
  have hm3lo : ∀ x, x < c.FLASH_BLOCKSIZE → m3 x = m x := by
    intro x hx
    exact Touched_agree c m m3 [b] 0 i2 (by simp; omega) x (by omega) (by omega)
  have hdl : (flashSPAN_Read m 6 14).length = 14 := Read_length m 5 14
  have hfl : (nameField (flashSPAN_Read m 6 14) filename).length = 14 := by
    rw [nameField_length, hdl]
  have hdst : ∀ x ∈ flashSPAN_Read m 6 14, x < 256 := by
    intro x hx
    simp only [flashSPAN_Read, List.mem_map, List.mem_range] at hx
    obtain ⟨i, hi, rfl⟩ := hx
    rw [h.2 _ (by omega) (by omega)]
    exact hsf.2.2.2.2.2.2.2.2.2
  have hel : (encFTE { startblock := b, filename := nameField (flashSPAN_Read m 6 14) filename }).length
      = 16 := by
    simp [encFTE, enc16, hfl]
  have hed : ∀ x ∈ encFTE { startblock := b, filename := nameField (flashSPAN_Read m 6 14) filename },
      x < 256 := by
    intro x hx
    simp only [encFTE, List.mem_append] at hx
    rcases hx with hx | hx
    · exact (enc_bytes b).1 x hx
    · exact nameField_lt _ _ hdst hchars x hx
  have hT4 : Touched c m3 (flashSPAN_Write c m3 4
      (encFTE { startblock := b, filename := nameField (flashSPAN_Read m 6 14) filename })) [0] :=
    Touched_write c m3 4 _ 0 (by omega) (by rw [hel]; omega)
  have hrd := Write_read c hc m3 4
    (encFTE { startblock := b, filename := nameField (flashSPAN_Read m 6 14) filename })
    (fun i hi => by rw [hm3lo _ (by rw [hel] at hi; omega)]; exact h.2 _ (by omega) (by rw [hel] at hi; omega))
    hed
  generalize hm4 : flashSPAN_Write c m3 4
    (encFTE { startblock := b, filename := nameField (flashSPAN_Read m 6 14) filename }) = m4 at *
  have hT : Touched c m m4 [0, b] :=
    Touched_trans c m m3 m4 [b] [0] _ i2 hT4 (by simp) (by simp)
  have hm4hi : ∀ x, 20 ≤ x → x < c.FLASH_BLOCKSIZE → m4 x = m x := by
    intro x hx1 hx2
    rw [← hm4, Write_outside c m3 4 _ x (Or.inr (by rw [hel]; omega))]
    exact hm3lo x hx2
  have hm40 : m4 0 = FFS_B_FT_EOF c := by
    rw [← hm4, Write_outside c m3 4 _ 0 (Or.inl (by omega)), hm3lo 0 (by omega)]
    exact h.1
  have hinv := WrInv_touched c hc m3 m4 [0] [] { idx := b, chunks := [] } [] _ _ _ hT4
    (by simp; omega) (by simp) i1
  -- the first entry of the table
  rw [hel] at hrd
  have hrd2 : flashSPAN_Read m4 4 (2 + 14)
      = enc16 b ++ nameField (flashSPAN_Read m 6 14) filename := hrd
  rw [Read_add] at hrd2
  have hr16 : flashSPAN_Read m4 4 2 = enc16 b :=
    List.append_inj_left hrd2 (by simp [Read_length, enc16])
  have hrfn : flashSPAN_Read m4 (4 + 2) 14 = nameField (flashSPAN_Read m 6 14) filename :=
    List.append_inj_right hrd2 (by simp [Read_length, enc16])
  have he0s : (fteiAt c m4 0 0).FTE.startblock = b := by
    simp only [fteiAt, readFTE, rd16, FFS_ENTRYADDR, sizeof_SBHDR, sizeof_FTE, Nat.zero_mul,
      Nat.zero_add, Nat.add_zero]
    have := hr16
    simp only [flashSPAN_Read, enc16, List.range_succ, List.range_zero, List.nil_append,
      List.map_cons, List.map_nil, List.cons_append, List.cons.injEq, and_true,
      Nat.add_zero] at this
    rw [this.1, this.2]
    omega
  have he0n : (fteiAt c m4 0 0).FTE.filename = nameField (flashSPAN_Read m 6 14) filename := by
    simp only [fteiAt, readFTE, FFS_ENTRYADDR, sizeof_SBHDR, sizeof_FTE, Nat.zero_mul,
      Nat.zero_add, Nat.add_zero, FFS_FILENAME_LEN]
    exact hrfn
  have hmarks := block_ne_marks c hc b hb1 hbN
  have hlive : liveEntries c m4 [0] = [fteiAt c m4 0 0] := by
    unfold liveEntries
    rw [tableEntries_single c hc]
    apply liveOf_single c _ _ (by rw [he0s]; exact hmarks.1) (by rw [he0s]; exact hmarks.2)
    intro e he
    simp only [List.mem_map, List.mem_range'_1] at he
    obtain ⟨i, ⟨hi1, hi2⟩, rfl⟩ := he
    have hi3 : i < (c.FLASH_BLOCKSIZE - 4) / 16 := by
      have : FFS_FTENTRIESPERBLOCK c = (c.FLASH_BLOCKSIZE - 4) / 16 := by
        simp [FFS_FTENTRIESPERBLOCK, sizeof_SBHDR, sizeof_FTE, FFS_FILENAME_LEN]
      omega
    have hi4 : i * 16 + 16 ≤ c.FLASH_BLOCKSIZE - 4 := by
      have := Nat.div_mul_le_self (c.FLASH_BLOCKSIZE - 4) 16
      have : (i + 1) * 16 ≤ (c.FLASH_BLOCKSIZE - 4) / 16 * 16 := Nat.mul_le_mul_right 16 hi3
      omega
    simp only [fteiAt, readFTE, rd16, FFS_ENTRYADDR, sizeof_SBHDR, sizeof_FTE, Nat.zero_mul,
      Nat.zero_add, FFS_FILENAME_LEN]
    rw [hm4hi _ (by omega) (by omega), hm4hi _ (by omega) (by omega),
      h.2 _ (by omega) (by omega), h.2 _ (by omega) (by omega)]
    exact uninit16_val c hc
  refine ⟨m4,  fs2,
    { startblock := b, filemode := FFS_WR_APPEND, hw_addr := b * c.FLASH_BLOCKSIZE + 8,
      virt_addr := 0, nBytes := 1 }, b, rfl, hb1, hbN,
    ⟨rfl, rfl, rfl, [], _, rfl, Or.inr ⟨c.FLASH_BLOCKSIZE - 9, by omega,
      Nat.le_of_ble_eq_true rfl, hinv⟩⟩, rfl, ⟨?_, q2⟩, ⟨?_, ?_⟩, ?_, ?_, ?_⟩
  · apply FreeOK_touched c m m4 [0, b] hT _ (FreshOK_free c hc m h) (by omega)
    intro k hk
    simp only [List.mem_cons, List.mem_singleton, List.not_mem_nil, or_false] at hk
    rcases hk with rfl | rfl
    · rw [Nat.zero_mul, hm40]; exact hsf.2.2.2.1
    · rw [hinv.2.1.2.1.1]; exact hsf.2.1
  · show m4 (0 * c.FLASH_BLOCKSIZE) ≠ _
    rw [Nat.zero_mul, hm40]; exact ft_status_facts c hc
  · intro k hk
    simp only [List.mem_singleton] at hk
    rw [hk, Nat.zero_mul, hm40]
    exact (tst_ft_facts c hc).2.2.2.1
  · refine ⟨fteiAt c m4 0 0, by rw [hlive]; simp, ?_⟩
    rw [he0n, cstr_nameField _ _ (by rw [hdl]; exact hname)]
  · intro e he
    rw [hlive] at he
    simp only [List.mem_singleton] at he
    rw [he, he0s]
  · intro k hk1 hkN hkb
    rw [Touched_agree c m m4 [0, b] k hT (by simp; omega) _ (by omega) (by omega)]
    have := FreshOK_block c hc m h k hk1 hkN 0 (by omega)
    simpa using this

/-- Opening an existing file for reading and reading `n` bytes from its start. -/
theorem file_read (c : Cfg) (hc : c.ok) (m : Mem) (fs : FFS_FS_t) (F : FFS_FILE_t)
    (ft : List Nat) (filename : List Nat) (bs : List Blk) (n fuel : Nat)
    (h : FileOK c m ft filename bs) (hfuel1 : ft.length < fuel) (hfuel2 : n < fuel) :
    ∃ F1 F2, ffs_fopen c fuel m fs (some F) filename FFS_RD = some (RES_OK, m, fs, some F1) ∧
      F1.filemode = FFS_RD ∧ F1.virt_addr = 0 ∧ RdHandleOK c m bs F1 ∧
      ffs_fread c fuel m n F1
        = some (min n (fileBytes bs).length, (fileBytes bs).take n, F2) ∧
      F2.virt_addr = min n (fileBytes bs).length ∧ RdHandleOK c m bs F2 := by
  obtain ⟨htab, hhas, huniq, hclosed⟩ := h
  obtain ⟨e, he1, he2, he3⟩ := (fopen_read_spec c hc m fs F ft filename fuel htab.1 hfuel1).2 hhas
  have hs := huniq e he1 he2
  cases bs with
  | nil => simp [nextIdx] at hs
  | cons b rest =>
    have hsb : e.FTE.startblock = b.idx := by simpa [nextIdx] using hs.symm
    rw [hsb] at he3
    obtain ⟨F2, r1, r2, r3⟩ := fread_all c hc m b rest n fuel hclosed.1 hfuel2
    obtain ⟨f1, f2, _⟩ := rdHandle_facts c m b.idx
    exact ⟨_, F2, he3, f1, f2, rdHandle_ok c hc m b rest hclosed.1, r1, r2, r3⟩

/-! ## The concrete device satisfies the invariants -/

theorem demoCfg_ok : demoCfg.ok := by unfold Cfg.ok; decide

theorem demo_chain : ChainOK demoCfg demoDev 0 demoChain := by
  simp only [demoChain, ChainOK, BlockOK, HdrOK, ChunkTail, nextIdx, List.head?, Option.map]
  decide

theorem demo_rd : RdHandleOK demoCfg demoDev demoChain demoRd := by
  refine ⟨demo_chain, rfl, rfl, ?_⟩
  simp only [demoChain, PosChain, PosChunks]
  decide

set_option maxRecDepth 100000 in
theorem demo_free : FreeOK demoCfg demoDev := by
  unfold FreeOK
  decide

set_option maxRecDepth 100000 in
theorem demo_wr : AppendOK demoCfg demoDev demoChain [] demoWr := by
  refine ⟨rfl, rfl, rfl, [], { idx := 1, chunks := [[97, 98, 99]] }, rfl,
    Or.inr ⟨19, by decide, by decide, ?_⟩⟩
  simp only [WrInv, ChainSeg, BlockOK, HdrOK, ChunkTail]
  decide

theorem demo_table : TableOK demoCfg demoDev [] := by
  simp only [TableOK, FTChainOK]
  decide

theorem demo_file : FileOK demoCfg demoDev [] [97, 0] demoChain := by
  refine ⟨demo_table, ?_, ?_, demo_chain, [], _, rfl, Or.inr ?_⟩
  · unfold HasFile; decide
  · decide
  · decide

theorem PosChunks_end (c : Cfg) (F : FFS_FILE_t) (base : Nat) (last : Bool) :
    ∀ (cs : List (List Nat)) (a v : Nat), PosChunks c F base last a v cs →
      F.virt_addr < v + payloadLen cs ∨
        (F.virt_addr = v + payloadLen cs ∧ F.nBytes = 0 ∧ last = true) := by
  intro cs
  induction cs with
  | nil =>
    intro a v h
    exact Or.inr ⟨by simpa [payloadLen] using h.2.2.1, h.2.1, h.1⟩
  | cons ch rest ih =>
    intro a v h
    have e : payloadLen (ch :: rest) = ch.length + payloadLen rest := by simp [payloadLen]
    rw [e]
    rcases h with ⟨o, ho, _, _, hv⟩ | h
    · left; omega
    · rcases ih _ _ h with h1 | h1
      · left; omega
      · right; exact ⟨by omega, h1.2⟩

/-- A read handle whose offset is the length of the file has no bytes left. -/
theorem PosChain_end (c : Cfg) (F : FFS_FILE_t) :
    ∀ (bs : List Blk) (v : Nat), PosChain c F v bs →
      F.virt_addr < v + (fileBytes bs).length ∨
        (F.virt_addr = v + (fileBytes bs).length ∧ F.nBytes = 0) := by
  intro bs
  induction bs with
  | nil => intro v h; exact absurd h (by simp [PosChain])
  | cons b rest ih =>
    intro v h
    rw [fileBytes_length_cons2]
    rcases h with h | h
    · rcases PosChunks_end c F _ _ b.chunks _ v h with h1 | ⟨h1, h2, h3⟩
      · left; omega
      · have : rest = [] := by simpa using h3
        subst this
        right
        exact ⟨by simpa [fileBytes] using h1, h2⟩
    · rcases ih _ h with h1 | h1
      · left; omega
      · right; exact ⟨by omega, h1.2⟩

theorem feof_at_end (c : Cfg) (m : Mem) (bs : List Blk) (F : FFS_FILE_t)
    (h : RdHandleOK c m bs F) (hv : F.virt_addr = (fileBytes bs).length) : ffs_feof F = 1 := by
  obtain ⟨_, hmode, _, hpos⟩ := h
  rcases PosChain_end c F bs 0 hpos with h1 | h1
  · omega
  · unfold ffs_feof
    rw [if_pos hmode, if_pos h1.2]

/-- On a blank device with enough blocks: initialising, creating a file, writing `d`
and closing leave the cleanly closed file with content `d`. -/
theorem fresh_write_close (c : Cfg) (hc : c.ok) (m0 : Mem) (fs0 : FFS_FS_t) (F : FFS_FILE_t)
    (filename d : List Nat) (mode fuel : Nat)
    (hblank : FFS_TST_FT c (m0 0) = false)
    (hmode : mode = FFS_WR_REPLACE ∨ mode = FFS_WR_APPEND)
    (hname : (cstr filename).length < FFS_FILENAME_LEN) (hchars : ∀ x ∈ filename, x < 256)
    (hd : ∀ x ∈ d, x < 256) (hsize : d.length < 65536)
    (hroom : 2 * d.length < (c.BlockCount - 1) * (c.FLASH_BLOCKSIZE - 9))
    (hfuel1 : c.BlockCount ≤ fuel) (hfuel2 : d.length < fuel) :
    ∃ m1 fs1 m2 fs2 F2 m3 fs3 F3 m4 F4 bs,
      ffs_init c fuel RES_OK m0 fs0 = some (RES_OK, m1, fs1) ∧
      ffs_fopen c fuel m1 fs1 (some F) filename mode = some (RES_OK, m2, fs2, some F2) ∧
      ffs_fwrite c fuel m2 fs2 d F2 = some (d.length, m3, fs3, F3) ∧
      ffs_fclose c m3 (some F3) = (RES_OK, m4, some F4) ∧
      FileOK c m4 [] filename bs ∧ fileBytes bs = d := by
  have hB := hc.2.1
  have hN : 2 ≤ c.BlockCount := by
    by_contra hcon
    have : c.BlockCount - 1 = 0 := by omega
    rw [this, Nat.zero_mul] at hroom
    omega
  obtain ⟨m1, fs1, i1, i2, i3⟩ := init_fresh c hc m0 fs0 fuel hblank hN hfuel1
  obtain ⟨m2, fs2, F2, b, o1, hb1, hbN, o2, o3, o4, o5, o6, o7, o8⟩ :=
    create_fresh c hc m1 fs1 F filename mode fuel i2 i3.2 hN hfuel1 hmode hname hchars
  obtain ⟨k, m3, fs3, F3, new, w1, w2, w3, w4, w5, m4, F4, bs2, x1, x2, x3, x4, x5, x6, x7, x8⟩ :=
    write_close_spec c hc fuel hfuel1 m2 fs2 [] filename [{ idx := b, chunks := [] }] [] d F2
      o5 o6 (fun e he _ => by rw [o7 e he]; rfl) o2 o4 hd (by simp [fileBytes]; omega) hfuel2
  have hk : k = d.length := by
    rcases w3 with h | ⟨hnf, hnb⟩
    · exact h
    · exfalso
      obtain ⟨hm, hfull⟩ := x8 hnb
      rw [hm] at x7
      have hfree := free_consumed c hc m2 m3 [b] new ((List.range' 1 (c.BlockCount - 1)).erase b)
        (by rw [x6] at x7; exact x7) hnf ((List.nodup_range' 1 (c.BlockCount - 1)).erase b)
        (by
          intro j hj
          have hj2 := List.mem_of_mem_erase hj
          have hjb : j ≠ b := fun h => by
            rw [h] at hj
            exact (List.Nodup.not_mem_erase (List.nodup_range' 1 (c.BlockCount - 1))) hj
          simp only [List.mem_range'_1] at hj2
          exact ⟨hj2.1, by omega, o8 j hj2.1 (by omega) hjb, by simpa using hjb⟩)
      rw [List.length_erase_of_mem (by simp [List.mem_range'_1]; omega), List.length_range'] at hfree
      have hcap := chain_capacity c hc m4 bs2 0 x3.2.2.2.1 hfull
      have hlen : bs2.length = 1 + new.length := by
        have := congrArg List.length x6
        simp at this
        omega
      have hfb : (fileBytes bs2).length = k := by
        rw [x4]; simp [fileBytes]; omega
      rw [hfb, hlen] at hcap
      have : (c.BlockCount - 1) * (c.FLASH_BLOCKSIZE - 9)
          ≤ (1 + new.length) * (c.FLASH_BLOCKSIZE - 9) :=
        Nat.mul_le_mul_right _ (by omega)
      omega
  subst hk
  have hcontent : fileBytes bs2 = d := by
    rw [x4]; simp [fileBytes]
  exact ⟨m1, fs1, m2, fs2, F2, m3, fs3, F3, m4, F4, bs2, i1, o1, w1, x1, x3, hcontent⟩
/-- A chain has at most one block more than it holds bytes. -/
theorem chain_length_le (c : Cfg) (hc : c.ok) (m : Mem) :
    ∀ (bs : List Blk) (v : Nat), ChainOK c m v bs → bs.length ≤ (fileBytes bs).length + 1 := by
  intro bs
  induction bs with
  | nil => intro v _; simp
  | cons p rest ih =>
    intro v h
    rw [fileBytes_length_cons2]
    cases rest with
    | nil => simp
    | cons q rest2 =>
      have h1 := ChainOK_payload_pos c hc m p q rest2 v h
      have h2 := ih _ h.2
      simp only [List.length_cons] at h2 ⊢
      omega

/-- Second phase of the scan, exact version: after the wrap, blocks `block+1 .. s` remain. -/
theorem FUB_exact2 (c : Cfg) (m : Mem) (fs : FFS_FS_t) (hN : c.BlockCount ≤ 65535)
    (hs : fs.BlockSearchStart < c.BlockCount)
    (hhi : ∀ k, fs.BlockSearchStart < k → k < c.BlockCount → m (k * c.FLASH_BLOCKSIZE) ≠ FFS_B_UNUSED c) :
    ∀ (d block fuel : Nat), block + d = fs.BlockSearchStart → 1 ≤ d → d ≤ fuel →
      (∀ k, 1 ≤ k → k ≤ block → m (k * c.FLASH_BLOCKSIZE) ≠ FFS_B_UNUSED c) →
      AllocExact c m fs (FindUnusedBlock_loop c m fs.BlockSearchStart fuel block fs) := by
  intro d
  induction d with
  | zero => intro block fuel _ h; omega
  | succ d ih =>
    intro block fuel hb hd hfuel hlo
    obtain ⟨fuel, rfl⟩ : ∃ f, fuel = f + 1 := ⟨fuel - 1, by omega⟩
    rw [FUB_step c m _ fuel block fs (by omega) hN]
    by_cases he : block + 1 = fs.BlockSearchStart
    · rw [if_pos he]
      by_cases hu : m ((block + 1) * c.FLASH_BLOCKSIZE) = FFS_B_UNUSED c
      · rw [if_pos hu]
        refine ⟨_, _, rfl, Or.inr ⟨⟨hu, by omega, by omega, Or.inr ⟨by omega, hhi, ?_⟩⟩, ?_⟩⟩
        · intro k hk1 hk2; exact hlo k hk1 (by omega)
        · rw [he]
      · rw [if_neg hu]
        refine ⟨_, _, rfl, Or.inl ⟨rfl, rfl, fun k hk1 hk2 => ?_⟩⟩
        by_cases h3 : k ≤ block
        · exact hlo k hk1 h3
        · by_cases h4 : k = block + 1
          · rw [h4]; exact hu
          · exact hhi k (by omega) hk2
    · rw [if_neg he]
      by_cases hu : m ((block + 1) * c.FLASH_BLOCKSIZE) = FFS_B_UNUSED c
      · rw [if_neg (not_not.mpr hu)]
        refine ⟨_, _, rfl, Or.inr ⟨⟨hu, by omega, by omega, Or.inr ⟨by omega, hhi, ?_⟩⟩, rfl⟩⟩
        intro k hk1 hk2; exact hlo k hk1 (by omega)
      · rw [if_pos hu]
        apply ih (block + 1) fuel (by omega) (by omega) (by omega)
        intro k hk1 hk2
        by_cases h4 : k = block + 1
        · rw [h4]; exact hu
        · exact hlo k hk1 (by omega)

/-- First phase of the scan, exact version: blocks `block+1 .. BlockCount-1`, then the
wrap. -/
theorem FUB_exact1 (c : Cfg) (m : Mem) (fs : FFS_FS_t) (hN : c.BlockCount ≤ 65535)
    (hs : fs.BlockSearchStart < c.BlockCount) :
    ∀ (d block fuel : Nat), block + d = c.BlockCount → 1 ≤ d →
      c.BlockCount + fs.BlockSearchStart ≤ fuel + block →
      fs.BlockSearchStart ≤ block →
      (∀ k, fs.BlockSearchStart < k → k ≤ block → m (k * c.FLASH_BLOCKSIZE) ≠ FFS_B_UNUSED c) →
      AllocExact c m fs (FindUnusedBlock_loop c m fs.BlockSearchStart fuel block fs) := by
  intro d
  induction d with
  | zero => intro block fuel _ h; omega
  | succ d ih =>
    intro block fuel hb hd hfuel hsb hlo
    obtain ⟨fuel, rfl⟩ : ∃ f, fuel = f + 1 := ⟨fuel - 1, by omega⟩
    by_cases hw : block + 1 = c.BlockCount
    · rw [FUB_wrap c m _ fuel block fs hw hN]
      have hhi : ∀ k, fs.BlockSearchStart < k → k < c.BlockCount →
          m (k * c.FLASH_BLOCKSIZE) ≠ FFS_B_UNUSED c := fun k h1 h2 => hlo k h1 (by omega)
      by_cases h0 : fs.BlockSearchStart = 0
      · rw [if_pos h0]
        exact ⟨_, _, rfl, Or.inl ⟨rfl, rfl, fun k hk1 hk2 => hhi k (by omega) hk2⟩⟩
      · rw [if_neg h0]
        by_cases h1 : 1 = fs.BlockSearchStart
        · rw [if_pos h1]
          by_cases hu : m (1 * c.FLASH_BLOCKSIZE) = FFS_B_UNUSED c
          · rw [if_pos hu]
            refine ⟨_, _, rfl, Or.inr ⟨⟨hu, by omega, by omega, Or.inr ⟨by omega, hhi, ?_⟩⟩, ?_⟩⟩
            · intro k hk1 hk2; omega
            · rw [h1]
          · rw [if_neg hu]
            refine ⟨_, _, rfl, Or.inl ⟨rfl, rfl, fun k hk1 hk2 => ?_⟩⟩
            by_cases h4 : k = 1
            · rw [h4]; exact hu
            · exact hhi k (by omega) hk2
        · rw [if_neg h1]
          by_cases hu : m (1 * c.FLASH_BLOCKSIZE) = FFS_B_UNUSED c
          · rw [if_neg (not_not.mpr hu)]
            refine ⟨_, _, rfl, Or.inr ⟨⟨hu, by omega, by omega, Or.inr ⟨by omega, hhi, ?_⟩⟩, rfl⟩⟩
            intro k hk1 hk2; omega
          · rw [if_pos hu]
            apply FUB_exact2 c m fs hN hs hhi (fs.BlockSearchStart - 1) 1 fuel (by omega)
              (by omega) (by omega)
            intro k hk1 hk2
            have : k = 1 := by omega
            rw [this]; exact hu
    · rw [FUB_step c m _ fuel block fs (by omega) hN, if_neg (by omega)]
      by_cases hu : m ((block + 1) * c.FLASH_BLOCKSIZE) = FFS_B_UNUSED c
      · rw [if_neg (not_not.mpr hu)]
        refine ⟨_, _, rfl, Or.inr ⟨⟨hu, by omega, by omega, Or.inl ⟨by omega, ?_⟩⟩, rfl⟩⟩
        intro k hk1 hk2; exact hlo k hk1 (by omega)
      · rw [if_pos hu]
        apply ih (block + 1) fuel (by omega) (by omega) (by omega) (by omega)
        intro k hk1 hk2
        by_cases h4 : k = block + 1
        · rw [h4]; exact hu
        · exact hlo k hk1 (by omega)

/-- `FindUnusedBlock` with a valid cursor returns the first unused block in scan order,
or 0 when there is none; it needs `BlockCount` iterations at most. -/
theorem FindUnusedBlock_exact (c : Cfg) (hc : c.ok) (m : Mem) (fs : FFS_FS_t) (fuel : Nat)
    (hs : fs.BlockSearchStart < c.BlockCount) (hfuel : c.BlockCount ≤ fuel) :
    AllocExact c m fs (FindUnusedBlock c fuel m fs) := by
  have hN := hc.2.2.2.1
  exact FUB_exact1 c m fs hN hs (c.BlockCount - fs.BlockSearchStart) fs.BlockSearchStart fuel
    (by omega) (by omega) (by omega) (Nat.le_refl _) (fun k h1 h2 => by omega)

theorem freeUpTo_le (c : Cfg) (m : Mem) (k : Nat) : freeUpTo c m k ≤ k := by
  induction k with
  | zero => simp [freeUpTo]
  | succ k ih => rw [freeUpTo]; split <;> omega

theorem freeUpTo_hit (c : Cfg) (m : Mem) (k : Nat)
    (h : m ((k + 1) * c.FLASH_BLOCKSIZE) = FFS_B_UNUSED c) :
    freeUpTo c m (k + 1) = freeUpTo c m k + 1 := by
  rw [freeUpTo, if_pos h]

theorem freeUpTo_mono (c : Cfg) (m : Mem) (a d : Nat) :
    freeUpTo c m a ≤ freeUpTo c m (a + d) := by
  induction d with
  | zero => exact Nat.le_refl _
  | succ d ih => rw [← Nat.add_assoc, freeUpTo]; omega

/-- No unused block among `a+1 .. a+d`: the count does not change. -/
theorem freeUpTo_skip (c : Cfg) (m : Mem) (a d : Nat)
    (h : ∀ k, a < k → k ≤ a + d → m (k * c.FLASH_BLOCKSIZE) ≠ FFS_B_UNUSED c) :
    freeUpTo c m (a + d) = freeUpTo c m a := by
  induction d with
  | zero => rfl
  | succ d ih =>
    rw [← Nat.add_assoc, freeUpTo, if_neg (h (a + d + 1) (by omega) (by omega)),
      ih (fun k h1 h2 => h k h1 (by omega))]
    rfl

/-- The count of unused blocks is the length of the filtered block list. -/
theorem freeUpTo_length (c : Cfg) (m : Mem) (k : Nat) :
    ((List.range' 1 k).filter
      (fun k => decide (m (k * c.FLASH_BLOCKSIZE) = FFS_B_UNUSED c))).length = freeUpTo c m k := by
  induction k with
  | zero => rfl
  | succ k ih =>
    rw [List.range'_1_concat, List.filter_append, List.length_append, ih, freeUpTo, Nat.add_comm 1 k]
    by_cases h : m ((k + 1) * c.FLASH_BLOCKSIZE) = FFS_B_UNUSED c
    · simp [h]
    · simp [h]

theorem freeBlocks_length (c : Cfg) (m : Mem) :
    (freeBlocks c m).length = freeUpTo c m (c.BlockCount - 1) :=
  freeUpTo_length c m _

theorem blocksFree_loop_step (c : Cfg) (af : Nat) (m : Mem) (firstblock fuel : Nat)
    (fs fs1 : FFS_FS_t) (freecount b : Nat) (h : FindUnusedBlock c af m fs = some (b, fs1)) :
    ffs_blocksFree_loop c af m firstblock (fuel + 1) fs freecount =
      if b ≠ firstblock then
        ffs_blocksFree_loop c af m firstblock fuel fs1 ((freecount + 1) % 65536)
      else some (freecount, fs1) := by
  rw [ffs_blocksFree_loop, h]

/-- The counting loop of `ffs_blocksFree` with the cursor in front of the first block
found: it stops when the scan reaches that block again. -/
theorem blocksFree_phaseB (c : Cfg) (hc : c.ok) (af : Nat) (haf : c.BlockCount ≤ af) (m : Mem)
    (f : Nat) (hf1 : 1 ≤ f) (hfN : f < c.BlockCount)
    (hfu : m (f * c.FLASH_BLOCKSIZE) = FFS_B_UNUSED c) :
    ∀ (d fuel : Nat) (fs : FFS_FS_t) (fc : Nat), fs.BlockSearchStart + d = f → 1 ≤ d → d ≤ fuel →
      fc + freeUpTo c m f = freeUpTo c m (c.BlockCount - 1) + freeUpTo c m fs.BlockSearchStart + 1 →
      ffs_blocksFree_loop c af m f fuel fs fc
        = some (freeUpTo c m (c.BlockCount - 1), { fs with BlockSearchStart := f }) := by
  have hN := hc.2.2.2.1
  obtain ⟨f0, rfl⟩ : ∃ f0, f = f0 + 1 := ⟨f - 1, by omega⟩
  have hff := freeUpTo_hit c m f0 hfu
  have htot : freeUpTo c m (f0 + 1) ≤ freeUpTo c m (c.BlockCount - 1) := by
    have := freeUpTo_mono c m (f0 + 1) (c.BlockCount - 1 - (f0 + 1))
    rwa [show f0 + 1 + (c.BlockCount - 1 - (f0 + 1)) = c.BlockCount - 1 by omega] at this
  have htN := freeUpTo_le c m (c.BlockCount - 1)
  intro d
  induction d using Nat.strong_induction_on with
  | _ d ih =>
    intro fuel fs fc hd hd1 hfuel hinv
    obtain ⟨fuel, rfl⟩ : ∃ g, fuel = g + 1 := ⟨fuel - 1, by omega⟩
    obtain ⟨b, fs1, hr, hb⟩ := FindUnusedBlock_exact c hc m fs af (by omega) haf
    rw [blocksFree_loop_step c af m _ fuel fs fs1 fc b hr]
    rcases hb with ⟨rfl, _, hno⟩ | ⟨⟨hbu, hb1, hbN, hnext⟩, hfs1⟩
    · exact absurd hfu (hno (f0 + 1) hf1 hfN)
    · rcases hnext with ⟨hsb, hnone⟩ | ⟨hbs, hhi, _⟩
      · have hbf : b ≤ f0 + 1 := by
          by_contra hcon
          exact hnone (f0 + 1) (by omega) (by omega) hfu
        obtain ⟨b0, rfl⟩ : ∃ b0, b = b0 + 1 := ⟨b - 1, by omega⟩
        have hskip := freeUpTo_skip c m fs.BlockSearchStart (b0 - fs.BlockSearchStart)
          (fun k h1 h2 => hnone k h1 (by omega))
        rw [show fs.BlockSearchStart + (b0 - fs.BlockSearchStart) = b0 by omega] at hskip
        have hbb := freeUpTo_hit c m b0 hbu
        by_cases he : b0 + 1 = f0 + 1
        · rw [if_neg (not_not.mpr he)]
          have e0 : b0 = f0 := by omega
          subst e0
          rw [hfs1]
          have : fc = freeUpTo c m (c.BlockCount - 1) := by omega
          rw [this]
        · rw [if_pos he]
          have hmono := freeUpTo_mono c m (b0 + 1) (f0 - (b0 + 1))
          rw [show b0 + 1 + (f0 - (b0 + 1)) = f0 by omega] at hmono
          have e1 : (fc + 1) % 65536 = fc + 1 := by omega
          rw [e1, ih (f0 + 1 - (b0 + 1)) (by omega) fuel fs1 (fc + 1) (by rw [hfs1]; show b0 + 1 + _ = _; omega)
            (by omega) (by omega) (by rw [hfs1]; show _ = _ + freeUpTo c m (b0 + 1) + 1; omega), hfs1]
      · exact absurd hfu (hhi (f0 + 1) (by omega) hfN)

/-- The counting loop of `ffs_blocksFree` with the cursor at or behind the first block
found: the scan runs to the end of the device and wraps. -/
theorem blocksFree_phaseA (c : Cfg) (hc : c.ok) (af : Nat) (haf : c.BlockCount ≤ af) (m : Mem)
    (f : Nat) (hf1 : 1 ≤ f) (hfN : f < c.BlockCount)
    (hfu : m (f * c.FLASH_BLOCKSIZE) = FFS_B_UNUSED c) :
    ∀ (d fuel : Nat) (fs : FFS_FS_t) (fc : Nat), fs.BlockSearchStart + d = c.BlockCount → 1 ≤ d →
      f ≤ fs.BlockSearchStart → d + f ≤ fuel →
      fc + freeUpTo c m f = 1 + freeUpTo c m fs.BlockSearchStart →
      ffs_blocksFree_loop c af m f fuel fs fc
        = some (freeUpTo c m (c.BlockCount - 1), { fs with BlockSearchStart := f }) := by
  have hN := hc.2.2.2.1
  obtain ⟨f0, rfl⟩ : ∃ f0, f = f0 + 1 := ⟨f - 1, by omega⟩
  have hff := freeUpTo_hit c m f0 hfu
  intro d
  induction d using Nat.strong_induction_on with
  | _ d ih =>
    intro fuel fs fc hd hd1 hfs hfuel hinv
    have hsle := freeUpTo_le c m fs.BlockSearchStart
    obtain ⟨fuel, rfl⟩ : ∃ g, fuel = g + 1 := ⟨fuel - 1, by omega⟩
    obtain ⟨b, fs1, hr, hb⟩ := FindUnusedBlock_exact c hc m fs af (by omega) haf
    rw [blocksFree_loop_step c af m _ fuel fs fs1 fc b hr]
    rcases hb with ⟨rfl, _, hno⟩ | ⟨⟨hbu, hb1, hbN, hnext⟩, hfs1⟩
    · exact absurd hfu (hno (f0 + 1) hf1 hfN)
    · obtain ⟨b0, rfl⟩ : ∃ b0, b = b0 + 1 := ⟨b - 1, by omega⟩
      have hbb := freeUpTo_hit c m b0 hbu
      have hble := freeUpTo_le c m (b0 + 1)
      rcases hnext with ⟨hsb, hnone⟩ | ⟨hbs, hhi, hlo⟩
      · have hskip := freeUpTo_skip c m fs.BlockSearchStart (b0 - fs.BlockSearchStart)
          (fun k h1 h2 => hnone k h1 (by omega))
        rw [show fs.BlockSearchStart + (b0 - fs.BlockSearchStart) = b0 by omega] at hskip
        rw [if_pos (by omega)]
        have e1 : (fc + 1) % 65536 = fc + 1 := by omega
        rw [e1, ih (c.BlockCount - (b0 + 1)) (by omega) fuel fs1 (fc + 1)
          (by rw [hfs1]; show b0 + 1 + _ = _; omega) (by omega) (by rw [hfs1]; show _ ≤ b0 + 1; omega)
          (by omega) (by rw [hfs1]; show _ = 1 + freeUpTo c m (b0 + 1); omega), hfs1]
      · have hskip := freeUpTo_skip c m fs.BlockSearchStart (c.BlockCount - 1 - fs.BlockSearchStart)
          (fun k h1 h2 => hhi k h1 (by omega))
        rw [show fs.BlockSearchStart + (c.BlockCount - 1 - fs.BlockSearchStart) = c.BlockCount - 1
          by omega] at hskip
        have hz := freeUpTo_skip c m 0 b0 (fun k h1 h2 => hlo k h1 (by omega))
        rw [Nat.zero_add] at hz
        have hz0 : freeUpTo c m 0 = 0 := rfl
        have hbf : b0 + 1 ≤ f0 + 1 := by
          by_contra hcon
          exact hlo (f0 + 1) hf1 (by omega) hfu
        by_cases he : b0 + 1 = f0 + 1
        · rw [if_neg (not_not.mpr he)]
          have e0 : b0 = f0 := by omega
          subst e0
          rw [hfs1]
          have : fc = freeUpTo c m (c.BlockCount - 1) := by omega
          rw [this]
        · rw [if_pos he]
          have htN := freeUpTo_le c m (c.BlockCount - 1)
          have e1 : (fc + 1) % 65536 = fc + 1 := by omega
          rw [e1, blocksFree_phaseB c hc af haf m (f0 + 1) hf1 hfN hfu (f0 + 1 - (b0 + 1)) fuel fs1
            (fc + 1) (by rw [hfs1]; show b0 + 1 + _ = _; omega) (by omega) (by omega)
            (by rw [hfs1]; show _ = _ + freeUpTo c m (b0 + 1) + 1; omega), hfs1]

/-- `ffs_blocksFree` with a valid cursor: it returns the number of unused blocks among
`1 .. BlockCount-1`; when there is one, the cursor is left right in front of the block
that the allocator finds first. -/
theorem blocksFree_spec (c : Cfg) (hc : c.ok) (m : Mem) (fs : FFS_FS_t) (fuel : Nat)
    (hs : fs.BlockSearchStart < c.BlockCount) (hfuel : c.BlockCount ≤ fuel) :
    ∃ b fs0, FindUnusedBlock c fuel m fs = some (b, fs0) ∧
      ((b = 0 ∧ NoFree c m ∧ ffs_blocksFree c fuel m fs = some (0, fs)) ∨
       (FirstFreeFrom c m fs.BlockSearchStart b ∧
        ffs_blocksFree c fuel m fs
          = some ((freeBlocks c m).length, { fs with BlockSearchStart := b - 1 }))) := by
  have hN := hc.2.2.2.1
  obtain ⟨b, fs1, hr, hb⟩ := FindUnusedBlock_exact c hc m fs fuel hs hfuel
  refine ⟨b, fs1, hr, ?_⟩
  rcases hb with ⟨rfl, rfl, hno⟩ | ⟨hff, hfs1⟩
  · refine Or.inl ⟨rfl, hno, ?_⟩
    rw [ffs_blocksFree, hr]
    rfl
  · refine Or.inr ⟨hff, ?_⟩
    obtain ⟨hbu, hb1, hbN, _⟩ := hff
    subst hfs1
    rw [ffs_blocksFree, hr]
    have hne : ¬ (b = 0) := by omega
    simp only [hne, if_false]
    rw [blocksFree_phaseA c hc fuel hfuel m b hb1 hbN hbu (c.BlockCount - b) fuel _ 1
      (by show b + _ = _; omega) (by omega) (Nat.le_refl _) (by omega) rfl]
    have e : (b + 65535) % 65536 = b - 1 := by omega
    simp only [e, freeBlocks_length]

theorem garbageOf_nil (c : Cfg) : garbageOf c [] = 0 := rfl

theorem garbageOf_cons (c : Cfg) (hc : c.ok) (e : FFS_FTE_INFO_t) (es : List FFS_FTE_INFO_t) :
    garbageOf c (e :: es)
      = if e.FTE.startblock = FFS_NULL16 c then garbageOf c es + 1
        else if e.FTE.startblock = FFS_UNINIT16 c then 0
        else garbageOf c es := by
  have hne := null16_ne_uninit16 c hc
  by_cases h1 : e.FTE.startblock = FFS_NULL16 c
  · simp [garbageOf, List.takeWhile_cons, h1, hne]
  · by_cases h2 : e.FTE.startblock = FFS_UNINIT16 c
    · simp [garbageOf, List.takeWhile_cons, h2, hne.symm]
    · simp [garbageOf, List.takeWhile_cons, h1, h2]

/-- The entry scan of `ffs_countGarbageFTE` over the slots of one block. -/
theorem countGarbage_scan_eq (c : Cfg) (hc : c.ok) (m : Mem) (block : Nat) :
    ∀ (k entry g : Nat),
      ffs_countGarbageFTE_scan c m block k entry g
        = (((List.range' entry k).map (fteiAt c m block)).any
            (fun e => e.FTE.startblock == FFS_UNINIT16 c),
           (g + garbageOf c ((List.range' entry k).map (fteiAt c m block))) % 65536) ∨
      65536 ≤ g := by
  have hne := null16_ne_uninit16 c hc
  intro k
  induction k with
  | zero =>
    intro entry g
    by_cases hg : 65536 ≤ g
    · exact Or.inr hg
    · left
      simp only [ffs_countGarbageFTE_scan, List.range'_zero, List.map_nil, List.any_nil,
        garbageOf_nil, Nat.add_zero]
      rw [Nat.mod_eq_of_lt (by omega)]
  | succ k ih =>
    intro entry g
    by_cases hg : 65536 ≤ g
    · exact Or.inr hg
    · left
      rw [ffs_countGarbageFTE_scan, List.range'_succ, List.map_cons, List.any_cons,
        garbageOf_cons c hc]
      have hs : rd16 m (FFS_ENTRYADDR c block entry) = (fteiAt c m block entry).FTE.startblock := rfl
      simp only [hs]
      by_cases h1 : (fteiAt c m block entry).FTE.startblock = FFS_NULL16 c
      · simp only [h1, if_true]
        rcases ih (entry + 1) ((g + 1) % 65536) with h | h
        · rw [h]
          have : (FFS_NULL16 c == FFS_UNINIT16 c) = false := by simpa using hne
          simp only [this, Bool.false_or, Prod.mk.injEq, true_and]
          omega
        · have := Nat.mod_lt (g + 1) (show 65536 > 0 by omega)
          omega
      · simp only [h1, if_false]
        by_cases h2 : (fteiAt c m block entry).FTE.startblock = FFS_UNINIT16 c
        · simp only [h2, if_true, beq_self_eq_true, Bool.true_or, Nat.add_zero]
          rw [Nat.mod_eq_of_lt (by omega)]
        · simp only [h2, if_false]
          rcases ih (entry + 1) g with h | h
          · rw [h]
            have : ((fteiAt c m block entry).FTE.startblock == FFS_UNINIT16 c) = false := by
              simpa using h2
            simp only [this, Bool.false_or]
          · omega

theorem garbageOf_append (c : Cfg) (hc : c.ok) (ys : List FFS_FTE_INFO_t) :
    ∀ (xs : List FFS_FTE_INFO_t),
      garbageOf c (xs ++ ys)
        = if xs.any (fun e => e.FTE.startblock == FFS_UNINIT16 c) then garbageOf c xs
          else garbageOf c xs + garbageOf c ys := by
  have hne := null16_ne_uninit16 c hc
  intro xs
  induction xs with
  | nil => simp [garbageOf_nil]
  | cons x xs ih =>
    rw [List.cons_append, garbageOf_cons c hc, garbageOf_cons c hc, List.any_cons, ih]
    by_cases h1 : x.FTE.startblock = FFS_NULL16 c
    · have : (FFS_NULL16 c == FFS_UNINIT16 c) = false := by simpa using hne
      simp only [h1, if_true, this, Bool.false_or]
      split <;> omega
    · by_cases h2 : x.FTE.startblock = FFS_UNINIT16 c
      · simp [h2, hne.symm]
      · have : (x.FTE.startblock == FFS_UNINIT16 c) = false := by simpa using h2
        simp only [h1, h2, if_false, this, Bool.false_or]

theorem tableEntries_cons (c : Cfg) (m : Mem) (b : Nat) (ft : List Nat) :
    tableEntries c m (b :: ft)
      = (List.range' 0 (FFS_FTENTRIESPERBLOCK c)).map (fteiAt c m b) ++ tableEntries c m ft := by
  simp [tableEntries, List.range_eq_range']

theorem tableEntries_nil (c : Cfg) (m : Mem) : tableEntries c m [] = [] := rfl

/-- `ffs_countGarbageFTE` walks the chain of table blocks and counts the tombstones in
front of the first never-used slot, in 16-bit arithmetic. -/
theorem countGarbage_loop_eq (c : Cfg) (hc : c.ok) (m : Mem) :
    ∀ (ft : List Nat) (b fuel g : Nat), FTChainOK c m (b :: ft) → ft.length < fuel → g < 65536 →
      ffs_countGarbageFTE_loop c m fuel b g
        = some ((g + garbageOf c (tableEntries c m (b :: ft))) % 65536) := by
  intro ft
  induction ft with
  | nil =>
    intro b fuel g hft hfuel hg
    obtain ⟨fuel, rfl⟩ : ∃ f, fuel = f + 1 := ⟨fuel - 1, by simp at hfuel; omega⟩
    rw [ffs_countGarbageFTE_loop]
    rcases countGarbage_scan_eq c hc m b (FFS_FTENTRIESPERBLOCK c) 0 g with h | h
    · rw [h, tableEntries_cons, tableEntries_nil, List.append_nil]
      cases List.any (List.map (fteiAt c m b) (List.range' 0 (FFS_FTENTRIESPERBLOCK c)))
        (fun e => e.FTE.startblock == FFS_UNINIT16 c)
      · simp only []
        rw [if_neg hft]
      · rfl
    · omega
  | cons b2 ft ih =>
    intro b fuel g hft hfuel hg
    obtain ⟨fuel, rfl⟩ : ∃ f, fuel = f + 1 := ⟨fuel - 1, by simp at hfuel; omega⟩
    obtain ⟨h1, h2, h3⟩ := hft
    rw [ffs_countGarbageFTE_loop]
    rcases countGarbage_scan_eq c hc m b (FFS_FTENTRIESPERBLOCK c) 0 g with h | h
    · rw [h, tableEntries_cons, garbageOf_append c hc]
      cases List.any (List.map (fteiAt c m b) (List.range' 0 (FFS_FTENTRIESPERBLOCK c)))
        (fun e => e.FTE.startblock == FFS_UNINIT16 c)
      · simp only []
        rw [if_pos h1, h2, ih b2 fuel _ h3 (by simp at hfuel; omega)
          (Nat.mod_lt _ (by omega))]
        simp only [Bool.false_eq_true, if_false]
        congr 1
        omega
      · rfl
    · omega

/-- `ffs_countGarbageFTE` on a table chain: the number of tombstones in front of the
first never-used slot, modulo `65536`. -/
theorem countGarbage_spec (c : Cfg) (hc : c.ok) (m : Mem) (ft : List Nat) (fuel : Nat)
    (hft : FTChainOK c m (0 :: ft)) (hfuel : ft.length < fuel) :
    ffs_countGarbageFTE c fuel m = some (garbageOf c (tableEntries c m (0 :: ft)) % 65536) := by
  rw [ffs_countGarbageFTE, countGarbage_loop_eq c hc m ft 0 fuel 0 hft hfuel (by omega),
    Nat.zero_add]

theorem entries_val (c : Cfg) : FFS_FTENTRIESPERBLOCK c = (c.FLASH_BLOCKSIZE - 4) / 16 := by
  simp [FFS_FTENTRIESPERBLOCK, sizeof_SBHDR, sizeof_FTE, FFS_FILENAME_LEN]

theorem entries_fit (c : Cfg) (hc : c.ok) :
    FFS_FTENTRIESPERBLOCK c * 16 + 4 ≤ c.FLASH_BLOCKSIZE := by
  have hB := hc.2.1
  rw [entries_val]
  have := Nat.div_mul_le_self (c.FLASH_BLOCKSIZE - 4) 16
  omega

theorem entryaddr_val (c : Cfg) (b i : Nat) :
    FFS_ENTRYADDR c b i = b * c.FLASH_BLOCKSIZE + 4 + i * 16 := by
  simp [FFS_ENTRYADDR, sizeof_SBHDR, sizeof_FTE, FFS_FILENAME_LEN]

/-- An entry slot lies inside its block, behind the short header. -/
theorem slot_range (c : Cfg) (hc : c.ok) (b i : Nat) (hi : i < FFS_FTENTRIESPERBLOCK c) :
    b * c.FLASH_BLOCKSIZE + 4 ≤ FFS_ENTRYADDR c b i ∧
    FFS_ENTRYADDR c b i + 16 ≤ b * c.FLASH_BLOCKSIZE + c.FLASH_BLOCKSIZE := by
  have h1 := entries_fit c hc
  have h2 : (i + 1) * 16 ≤ FFS_FTENTRIESPERBLOCK c * 16 := Nat.mul_le_mul_right 16 hi
  rw [entryaddr_val]
  omega

theorem slot_div (c : Cfg) (hc : c.ok) (b i o : Nat) (hi : i < FFS_FTENTRIESPERBLOCK c)
    (ho : o < 16) : (FFS_ENTRYADDR c b i + o) / c.FLASH_BLOCKSIZE = b := by
  obtain ⟨h1, h2⟩ := slot_range c hc b i hi
  have e : FFS_ENTRYADDR c b i + o
      = b * c.FLASH_BLOCKSIZE + (FFS_ENTRYADDR c b i + o - b * c.FLASH_BLOCKSIZE) := by omega
  rw [e, div_block _ _ _ (by omega)]

theorem fteiAt_slotAt (c : Cfg) (m : Mem) (b i : Nat) :
    fteiAt c m b i = slotAt m (FFS_ENTRYADDR c b i) := rfl

theorem mem_tableEntries (c : Cfg) (m : Mem) (L : List Nat) (x : FFS_FTE_INFO_t) :
    x ∈ tableEntries c m L ↔
      ∃ b ∈ L, ∃ i, i < FFS_FTENTRIESPERBLOCK c ∧ x = fteiAt c m b i := by
  simp only [tableEntries, List.mem_flatten, List.mem_map, List.mem_range]
  constructor
  · rintro ⟨l, ⟨b, hb, rfl⟩, hx⟩
    simp only [List.mem_map, List.mem_range] at hx
    obtain ⟨i, hi, rfl⟩ := hx
    exact ⟨b, hb, i, hi, rfl⟩
  · rintro ⟨b, hb, i, hi, rfl⟩
    exact ⟨_, ⟨b, hb, rfl⟩, by simp only [List.mem_map, List.mem_range]; exact ⟨i, hi, rfl⟩⟩

/-- The slots of a table on another device state: the same addresses, read afresh. -/
theorem tableEntries_refresh (c : Cfg) (m m1 : Mem) (L : List Nat) :
    tableEntries c m1 L = (tableEntries c m L).map (fun x => slotAt m1 x.fteAddr) := by
  induction L with
  | nil => rfl
  | cons b L ih =>
    rw [tableEntries_cons, tableEntries_cons, ih, List.map_append, List.map_map]
    rfl

theorem slotAt_congr (m m1 : Mem) (a : Nat) (h : ∀ o, o < 16 → m1 (a + o) = m (a + o)) :
    slotAt m1 a = slotAt m a := by
  have h0 := h 0 (by omega)
  have h1 := h 1 (by omega)
  have hr : flashSPAN_Read m1 (a + 2) 14 = flashSPAN_Read m (a + 2) 14 :=
    Read_congr m m1 _ _ (fun i hi => by rw [Nat.add_assoc]; exact h (2 + i) (by omega))
  simp only [slotAt, readFTE, rd16, FFS_FILENAME_LEN]
  rw [Nat.add_zero] at h0
  rw [h0, h1, hr]

theorem slot_self (c : Cfg) (m : Mem) (L : List Nat) (x : FFS_FTE_INFO_t)
    (hx : x ∈ tableEntries c m L) : slotAt m x.fteAddr = x := by
  obtain ⟨b, _, i, _, rfl⟩ := (mem_tableEntries c m L x).mp hx
  rfl

/-- Two slots of a table at different addresses do not overlap. -/
theorem slots_disjoint (c : Cfg) (hc : c.ok) (m : Mem) (L : List Nat) (x e : FFS_FTE_INFO_t)
    (hx : x ∈ tableEntries c m L) (he : e ∈ tableEntries c m L) (hne : x.fteAddr ≠ e.fteAddr) :
    x.fteAddr + 16 ≤ e.fteAddr ∨ e.fteAddr + 16 ≤ x.fteAddr := by
  obtain ⟨b, _, i, hi, rfl⟩ := (mem_tableEntries c m L x).mp hx
  obtain ⟨b2, _, i2, hi2, rfl⟩ := (mem_tableEntries c m L e).mp he
  obtain ⟨r1, r2⟩ := slot_range c hc b i hi
  obtain ⟨r3, r4⟩ := slot_range c hc b2 i2 hi2
  simp only [fteiAt] at *
  rcases Nat.lt_trichotomy b b2 with h | h | h
  · have : (b + 1) * c.FLASH_BLOCKSIZE ≤ b2 * c.FLASH_BLOCKSIZE := Nat.mul_le_mul_right _ h
    rw [Nat.add_mul, Nat.one_mul] at this
    omega
  · subst h
    rw [entryaddr_val, entryaddr_val] at *
    omega
  · have : (b2 + 1) * c.FLASH_BLOCKSIZE ≤ b * c.FLASH_BLOCKSIZE := Nat.mul_le_mul_right _ h
    rw [Nat.add_mul, Nat.one_mul] at this
    omega

/-- The slots of a table with distinct blocks have distinct addresses. -/
theorem tableEntries_addr_nodup (c : Cfg) (hc : c.ok) (m : Mem) :
    ∀ (L : List Nat), L.Nodup → ((tableEntries c m L).map (fun x => x.fteAddr)).Nodup := by
  intro L
  induction L with
  | nil => intro _; simp [tableEntries_nil]
  | cons b L ih =>
    intro hL
    rw [List.nodup_cons] at hL
    rw [tableEntries_cons, List.map_append, List.nodup_append]
    refine ⟨?_, ih hL.2, ?_⟩
    · rw [List.map_map]
      apply List.Nodup.map_on _ (List.nodup_range' 0 _)
      intro i hi j hj hij
      simp only [Function.comp, fteiAt, entryaddr_val] at hij
      omega
    · intro a ha1 ha2
      simp only [List.mem_map] at ha1 ha2
      obtain ⟨x, hx, rfl⟩ := ha1
      obtain ⟨y, hy, hxy⟩ := ha2
      simp only [List.mem_map, List.mem_range'_1] at hx
      obtain ⟨i, ⟨_, hi⟩, rfl⟩ := hx
      obtain ⟨b2, hb2, i2, hi2, rfl⟩ := (mem_tableEntries c m L y).mp hy
      have d1 := slot_div c hc b i 0 (by omega) (by omega)
      have d2 := slot_div c hc b2 i2 0 (by omega) (by omega)
      simp only [fteiAt] at hxy
      rw [Nat.add_zero] at d1 d2
      rw [hxy, d1] at d2
      exact hL.1 (d2 ▸ hb2)

/-- Changing the device inside one slot changes that slot of the table only. -/
theorem tableEntries_update (c : Cfg) (hc : c.ok) (m m1 : Mem) (L : List Nat) (hL : L.Nodup)
    (pre post : List FFS_FTE_INFO_t) (e : FFS_FTE_INFO_t)
    (hes : tableEntries c m L = pre ++ e :: post)
    (hout : ∀ a, a / c.FLASH_BLOCKSIZE ∈ L → a < e.fteAddr ∨ e.fteAddr + 16 ≤ a → m1 a = m a) :
    tableEntries c m1 L = pre ++ slotAt m1 e.fteAddr :: post := by
  have hnd := tableEntries_addr_nodup c hc m L hL
  rw [hes, List.map_append, List.map_cons] at hnd
  have hnd2 := (List.nodup_middle.mp hnd)
  rw [List.nodup_cons, List.mem_append] at hnd2
  have hkeep : ∀ x ∈ tableEntries c m L, x.fteAddr ≠ e.fteAddr → slotAt m1 x.fteAddr = x := by
    intro x hx hne
    rw [← slot_self c m L x hx]
    apply slotAt_congr
    intro o ho
    apply hout
    · obtain ⟨b, hb, i, hi, rfl⟩ := (mem_tableEntries c m L x).mp hx
      show (FFS_ENTRYADDR c b i + o) / c.FLASH_BLOCKSIZE ∈ L
      rw [slot_div c hc b i o hi ho]
      exact hb
    · have := slots_disjoint c hc m L x e hx (by rw [hes]; simp) hne
      show x.fteAddr + o < e.fteAddr ∨ e.fteAddr + 16 ≤ x.fteAddr + o
      omega
  rw [tableEntries_refresh c m m1 L, hes, List.map_append, List.map_cons]
  congr 1
  · conv_rhs => rw [← List.map_id pre]
    apply List.map_congr_left
    intro x hx
    apply hkeep x (by rw [hes]; simp [hx])
    intro hcon
    exact hnd2.1 (Or.inl (List.mem_map.mpr ⟨x, hx, hcon⟩))
  · congr 1
    conv_rhs => rw [← List.map_id post]
    apply List.map_congr_left
    intro x hx
    apply hkeep x (by rw [hes]; simp [hx])
    intro hcon
    exact hnd2.1 (Or.inr (List.mem_map.mpr ⟨x, hx, hcon⟩))

theorem liveOf_nil (c : Cfg) : liveOf c [] = [] := rfl

theorem liveOf_cons (c : Cfg) (hc : c.ok) (e : FFS_FTE_INFO_t) (es : List FFS_FTE_INFO_t) :
    liveOf c (e :: es)
      = if e.FTE.startblock = FFS_NULL16 c then liveOf c es
        else if e.FTE.startblock = FFS_UNINIT16 c then []
        else e :: liveOf c es := by
  have hne := null16_ne_uninit16 c hc
  by_cases h1 : e.FTE.startblock = FFS_NULL16 c
  · simp [liveOf, List.takeWhile_cons, h1, hne]
  · by_cases h2 : e.FTE.startblock = FFS_UNINIT16 c
    · simp [liveOf, List.takeWhile_cons, h2, hne.symm]
    · simp [liveOf, List.takeWhile_cons, h1, h2]

/-- Slots in front of which no never-used slot lies are followed by the live entries of
the rest. -/
theorem liveOf_append (c : Cfg) (hc : c.ok) (ys : List FFS_FTE_INFO_t) :
    ∀ (xs : List FFS_FTE_INFO_t), (∀ x ∈ xs, x.FTE.startblock ≠ FFS_UNINIT16 c) →
      liveOf c (xs ++ ys) = liveOf c xs ++ liveOf c ys := by
  intro xs
  induction xs with
  | nil => intro _; rfl
  | cons x xs ih =>
    intro h
    have hx := h x (List.mem_cons_self _ _)
    have ih2 := ih (fun y hy => h y (List.mem_cons_of_mem _ hy))
    rw [List.cons_append, liveOf_cons c hc, liveOf_cons c hc, ih2]
    by_cases h1 : x.FTE.startblock = FFS_NULL16 c
    · simp only [h1, if_true]
    · simp only [h1, hx, if_false, List.cons_append]

/-- A live entry splits the slot list: no never-used slot lies in front of it. -/
theorem liveOf_split (c : Cfg) (e : FFS_FTE_INFO_t) (es : List FFS_FTE_INFO_t)
    (he : e ∈ liveOf c es) :
    ∃ pre post, es = pre ++ e :: post ∧ (∀ x ∈ pre, x.FTE.startblock ≠ FFS_UNINIT16 c) ∧
      e.FTE.startblock ≠ FFS_UNINIT16 c ∧ e.FTE.startblock ≠ FFS_NULL16 c := by
  unfold liveOf at he
  rw [List.mem_filter] at he
  obtain ⟨he1, he2⟩ := he
  obtain ⟨s, t, hst⟩ := List.append_of_mem he1
  have hall : ∀ x ∈ es.takeWhile (fun e => e.FTE.startblock != FFS_UNINIT16 c),
      x.FTE.startblock ≠ FFS_UNINIT16 c := by
    intro x hx
    simpa using List.mem_takeWhile_imp hx
  refine ⟨s, t ++ es.dropWhile (fun e => e.FTE.startblock != FFS_UNINIT16 c), ?_, ?_, ?_, ?_⟩
  · conv_lhs => rw [← List.takeWhile_append_dropWhile (fun e => e.FTE.startblock != FFS_UNINIT16 c) es]
    rw [hst]
    simp
  · intro x hx
    exact hall x (by rw [hst]; simp [hx])
  · exact hall e he1
  · simpa using he2

/-- The live entries around a live entry. -/
theorem liveOf_at_live (c : Cfg) (hc : c.ok) (pre post : List FFS_FTE_INFO_t) (e : FFS_FTE_INFO_t)
    (hpre : ∀ x ∈ pre, x.FTE.startblock ≠ FFS_UNINIT16 c)
    (h1 : e.FTE.startblock ≠ FFS_UNINIT16 c) (h2 : e.FTE.startblock ≠ FFS_NULL16 c) :
    liveOf c (pre ++ e :: post) = liveOf c pre ++ e :: liveOf c post := by
  rw [liveOf_append c hc _ pre hpre, liveOf_cons c hc, if_neg h2, if_neg h1]

/-- The live entries around a tombstone. -/
theorem liveOf_at_tomb (c : Cfg) (hc : c.ok) (pre post : List FFS_FTE_INFO_t) (e : FFS_FTE_INFO_t)
    (hpre : ∀ x ∈ pre, x.FTE.startblock ≠ FFS_UNINIT16 c)
    (h1 : e.FTE.startblock = FFS_NULL16 c) :
    liveOf c (pre ++ e :: post) = liveOf c pre ++ liveOf c post := by
  rw [liveOf_append c hc _ pre hpre, liveOf_cons c hc, if_pos h1]

theorem garbageOf_pre (c : Cfg) (hc : c.ok) (ys : List FFS_FTE_INFO_t) :
    ∀ (xs : List FFS_FTE_INFO_t), (∀ x ∈ xs, x.FTE.startblock ≠ FFS_UNINIT16 c) →
      garbageOf c (xs ++ ys) = garbageOf c xs + garbageOf c ys := by
  intro xs h
  rw [garbageOf_append c hc]
  have : xs.any (fun e => e.FTE.startblock == FFS_UNINIT16 c) = false := by
    rw [List.any_eq_false]
    intro x hx
    simpa using h x hx
  rw [this]
  rfl

/-- Tombstoning a live entry adds one to the garbage count. -/
theorem garbageOf_tomb (c : Cfg) (hc : c.ok) (pre post : List FFS_FTE_INFO_t)
    (e t : FFS_FTE_INFO_t) (hpre : ∀ x ∈ pre, x.FTE.startblock ≠ FFS_UNINIT16 c)
    (h1 : e.FTE.startblock ≠ FFS_UNINIT16 c) (h2 : e.FTE.startblock ≠ FFS_NULL16 c)
    (ht : t.FTE.startblock = FFS_NULL16 c) :
    garbageOf c (pre ++ t :: post) = garbageOf c (pre ++ e :: post) + 1 := by
  rw [garbageOf_pre c hc _ pre hpre, garbageOf_pre c hc _ pre hpre, garbageOf_cons c hc,
    garbageOf_cons c hc, if_pos ht, if_neg h2, if_neg h1]
  omega

theorem FTChainOK_suffix (c : Cfg) (m : Mem) (b : Nat) (X : List Nat) :
    ∀ (A : List Nat), FTChainOK c m (A ++ b :: X) → FTChainOK c m (b :: X) := by
  intro A
  induction A with
  | nil => intro h; exact h
  | cons a A ih =>
    intro h
    cases A with
    | nil => exact h.2.2
    | cons a2 A2 => exact ih h.2.2

theorem FTChainOK_det (c : Cfg) (m : Mem) :
    ∀ (X Y : List Nat) (b : Nat), FTChainOK c m (b :: X) → FTChainOK c m (b :: Y) → X = Y := by
  intro X
  induction X with
  | nil =>
    intro Y b h1 h2
    cases Y with
    | nil => rfl
    | cons y Y => exact absurd h2.1 h1
  | cons x X ih =>
    intro Y b h1 h2
    cases Y with
    | nil => exact absurd h1.1 h2
    | cons y Y =>
      have e : x = y := by rw [← h1.2.1, ← h2.2.1]
      subst e
      rw [ih Y x h1.2.2 h2.2.2]

/-- The blocks of a table chain are pairwise different. -/
theorem FTChainOK_nodup (c : Cfg) (m : Mem) :
    ∀ (L : List Nat), FTChainOK c m L → L.Nodup := by
  intro L
  induction L with
  | nil => intro _; exact List.nodup_nil
  | cons b X ih =>
    intro h
    rw [List.nodup_cons]
    constructor
    · intro hb
      obtain ⟨P, Q, hPQ⟩ := List.append_of_mem hb
      have h1 : FTChainOK c m (b :: Q) := by
        have := FTChainOK_suffix c m b Q (b :: P) (by rw [List.cons_append, ← hPQ]; exact h)
        exact this
      have h2 := FTChainOK_det c m X Q b h h1
      have : X.length = Q.length := by rw [h2]
      rw [hPQ] at this
      simp at this
      omega
    · cases X with
      | nil => exact List.nodup_nil
      | cons x X => exact ih h.2.2

theorem Bytes_write (c : Cfg) (m : Mem) (a : Nat) (d : List Nat) (h : Bytes m)
    (hd : ∀ x ∈ d, x < 256) : Bytes (flashSPAN_Write c m a d) := by
  intro x
  unfold flashSPAN_Write
  split
  · rename_i hx
    have h1 := h x
    have h2 : d.getD (x - a) 0 < 256 := by
      rw [List.getD_eq_getElem _ _ (by omega)]
      exact hd _ (List.getElem_mem _)
    unfold progByte
    split
    · exact Nat.or_lt_two_pow (n := 8) h1 h2
    · exact Nat.lt_of_le_of_lt Nat.and_le_left h1
  · exact h x

theorem Bytes_erase (c : Cfg) (hc : c.ok) (m : Mem) (k : Nat) (h : Bytes m) :
    Bytes (flashSPAN_EraseBlock c m k) := by
  intro x
  unfold flashSPAN_EraseBlock
  split
  · exact (status_facts c hc).2.2.2.2.2.2.2.2.2
  · exact h x

theorem null16_enc (c : Cfg) (hc : c.ok) :
    enc16 (FFS_NULL16 c) = [FFS_NULL8 c, FFS_NULL8 c] ∧ FFS_NULL8 c < 256 ∧
    FFS_NULL8 c + 256 * FFS_NULL8 c = FFS_NULL16 c := by
  rcases uninit8_cases c hc with ⟨h, h2⟩ | ⟨h, h2⟩ <;> simp [enc16, FFS_NULL16, FFS_NULL8, h2]

set_option maxRecDepth 100000 in
theorem or_255 : ∀ w, w < 256 → w ||| 255 = 255 := by decide

theorem progByte_null (c : Cfg) (hc : c.ok) (v : Nat) (hv : v < 256) :
    progByte c v (FFS_NULL8 c) = FFS_NULL8 c := by
  have hor := or_255
  rcases uninit8_cases c hc with ⟨h, h2⟩ | ⟨h, h2⟩
  · simp [progByte, FFS_NULL8, h, h2]
  · simp [progByte, FFS_NULL8, h, h2, hor v hv]

/-- Writing the tombstone mark over the start block field of an entry. -/
theorem tombstone_write (c : Cfg) (hc : c.ok) (m : Mem) (a : Nat) (hb : Bytes m) :
    rd16 (flashSPAN_Write c m a (enc16 (FFS_NULL16 c))) a = FFS_NULL16 c ∧
    (∀ x, x < a ∨ a + 2 ≤ x → flashSPAN_Write c m a (enc16 (FFS_NULL16 c)) x = m x) ∧
    Bytes (flashSPAN_Write c m a (enc16 (FFS_NULL16 c))) := by
  obtain ⟨e1, e2, e3⟩ := null16_enc c hc
  refine ⟨?_, ?_, ?_⟩
  · rw [e1]
    simp only [rd16, flashSPAN_Write, List.length_cons, List.length_nil]
    rw [if_pos (by omega), if_pos (by omega), Nat.sub_self, Nat.add_sub_cancel_left]
    simp only [List.getD_cons_zero, List.getD_cons_succ]
    rw [progByte_null c hc _ (hb a), progByte_null c hc _ (hb (a + 1))]
    exact e3
  · intro x hx
    apply Write_outside
    rw [e1]
    simp only [List.length_cons, List.length_nil]
    omega
  · apply Bytes_write c m a _ hb
    rw [e1]
    intro x hx
    simp only [List.mem_cons, List.mem_singleton, List.not_mem_nil, or_false, or_self] at hx
    rw [hx]; exact e2

/-- The erase loop of `ffs_remove` does what the erase loop of the replace branch of
`ffs_fopen` does. -/
theorem remove_erase_eq (c : Cfg) :
    ∀ (fuel : Nat) (m : Mem) (block : Nat),
      ffs_remove_erase c fuel (flashSPAN_EraseBlock c m block) (m (block * c.FLASH_BLOCKSIZE))
          (rd16 m (block * c.FLASH_BLOCKSIZE + offsetof_jump))
        = (ffs_fopen_erase c fuel m block).map Prod.fst := by
  intro fuel
  induction fuel with
  | zero => intro m block; rfl
  | succ fuel ih =>
    intro m block
    rw [ffs_remove_erase, ffs_fopen_erase]
    simp only [readBHDR]
    split
    · exact ih _ _
    · rfl

theorem remove_unfold (c : Cfg) (fuel : Nat) (m : Mem) (filename : List Nat) (e : FFS_FTE_INFO_t)
    (h : LookupFile c fuel m filename = some (RES_OK, e)) :
    ffs_remove c fuel m filename
      = (ffs_fopen_erase c fuel (flashSPAN_Write c m e.fteAddr (enc16 (FFS_NULL16 c)))
          e.FTE.startblock).map (fun r => (RES_OK, r.1)) := by
  unfold ffs_remove
  simp only [h, if_true]
  rw [remove_erase_eq, Option.map_map]
  rfl

theorem remove_notfound (c : Cfg) (fuel : Nat) (m : Mem) (filename : List Nat)
    (e : FFS_FTE_INFO_t) (h : LookupFile c fuel m filename = some (RES_NOTFOUND, e)) :
    ffs_remove c fuel m filename = some (RES_OK, m) := by
  unfold ffs_remove
  simp only [h]
  rw [if_neg (by decide)]

/-- A table stays well-formed when the headers of its blocks do not change. -/
theorem FTChainOK_congr (c : Cfg) (m m1 : Mem) :
    ∀ (L : List Nat), (∀ b ∈ L, ∀ o, o < 4 → m1 (b * c.FLASH_BLOCKSIZE + o) = m (b * c.FLASH_BLOCKSIZE + o)) →
      FTChainOK c m L → FTChainOK c m1 L := by
  intro L
  induction L with
  | nil => intro _ h; exact h
  | cons b X ih =>
    intro hag h
    have h0 := hag b (List.mem_cons_self _ _) 0 (by omega)
    have h1 := hag b (List.mem_cons_self _ _) 2 (by omega)
    have h2 := hag b (List.mem_cons_self _ _) 3 (by omega)
    rw [Nat.add_zero] at h0
    cases X with
    | nil =>
      show m1 _ ≠ _
      rw [h0]; exact h
    | cons x X =>
      refine ⟨by rw [h0]; exact h.1, ?_, ih (fun b hb => hag b (List.mem_cons_of_mem _ hb)) h.2.2⟩
      have := h.2.1
      simp only [rd16, offsetof_jump] at *
      rw [h1, show b * c.FLASH_BLOCKSIZE + 2 + 1 = b * c.FLASH_BLOCKSIZE + 3 by omega, h2]
      rw [show b * c.FLASH_BLOCKSIZE + 2 + 1 = b * c.FLASH_BLOCKSIZE + 3 by omega] at this
      exact this

theorem TableOK_congr (c : Cfg) (m m1 : Mem) (ft : List Nat)
    (hag : ∀ b ∈ 0 :: ft, ∀ o, o < 4 → m1 (b * c.FLASH_BLOCKSIZE + o) = m (b * c.FLASH_BLOCKSIZE + o))
    (h : TableOK c m ft) : TableOK c m1 ft := by
  refine ⟨FTChainOK_congr c m m1 _ hag h.1, fun b hb => ?_⟩
  have := hag b hb 0 (by omega)
  rw [Nat.add_zero] at this
  rw [this]
  exact h.2 b hb

/-- Table blocks and data blocks are different blocks. -/
theorem table_chain_disjoint (c : Cfg) (hc : c.ok) (m : Mem) (ft : List Nat) (bs : List Blk) (v : Nat)
    (ht : TableOK c m ft) (hch : ChainOK c m v bs) : ∀ b ∈ 0 :: ft, b ∉ bs.map Blk.idx := by
  intro b hb hin
  obtain ⟨x, hx, rfl⟩ := List.mem_map.mp hin
  have h1 := ht.2 _ hb
  rcases ChainOK_status c m bs v hch x hx with h2 | h2
  · rw [h2, (tst_ft_facts c hc).1] at h1; exact absurd h1 (by decide)
  · rw [h2, (tst_ft_facts c hc).2.1] at h1; exact absurd h1 (by decide)

/-- `ffs_remove` of an existing file: the entry found by the lookup is tombstoned and
the blocks of the chain are erased; nothing else changes. -/
theorem remove_spec (c : Cfg) (hc : c.ok) (m : Mem) (ft : List Nat) (filename : List Nat)
    (bs : List Blk) (fuel : Nat) (hb : Bytes m) (h : FileOK c m ft filename bs)
    (hfuel1 : ft.length < fuel) (hfuel2 : bs.length ≤ fuel) :
    ∃ m1 pre e post,
      ffs_remove c fuel m filename = some (RES_OK, m1) ∧
      tableEntries c m (0 :: ft) = pre ++ e :: post ∧
      (∀ x ∈ pre, x.FTE.startblock ≠ FFS_UNINIT16 c) ∧
      e.FTE.startblock ≠ FFS_UNINIT16 c ∧ e.FTE.startblock ≠ FFS_NULL16 c ∧
      cstr filename = cstr e.FTE.filename ∧ nextIdx bs = some e.FTE.startblock ∧
      tableEntries c m1 (0 :: ft)
        = pre ++ { FTE := { startblock := FFS_NULL16 c, filename := e.FTE.filename },
                   fteAddr := e.fteAddr } :: post ∧
      (∀ b ∈ bs, ∀ o, o < c.FLASH_BLOCKSIZE → m1 (b.idx * c.FLASH_BLOCKSIZE + o) = FFS_UNINIT8 c) ∧
      TableOK c m1 ft ∧ Bytes m1 ∧
      (∀ x, x / c.FLASH_BLOCKSIZE ∉ bs.map Blk.idx → x < e.fteAddr ∨ e.fteAddr + 2 ≤ x →
        m1 x = m x) := by
  have hB := hc.2.1
  obtain ⟨htab, hhas, huniq, hclosed⟩ := h
  obtain ⟨e, he1, he2, he3⟩ := (LookupFile_spec c hc m ft filename fuel htab.1 hfuel1).1 hhas
  have hs := huniq e he1 he2
  obtain ⟨hchain, _⟩ := hclosed
  obtain ⟨pre, post, hes, hpre, hu, hn⟩ := liveOf_split c e _ he1
  have hemem : e ∈ tableEntries c m (0 :: ft) := by rw [hes]; simp
  obtain ⟨tb, htb, i, hi, hei⟩ := (mem_tableEntries c m _ e).mp hemem
  have haddr : e.fteAddr = FFS_ENTRYADDR c tb i := by rw [hei]; rfl
  obtain ⟨r1, r2⟩ := slot_range c hc tb i hi
  obtain ⟨w1, w2, w3⟩ := tombstone_write c hc m e.fteAddr hb
  generalize hm1 : flashSPAN_Write c m e.fteAddr (enc16 (FFS_NULL16 c)) = m1 at *
  have hT1 : Touched c m m1 [tb] := by
    rw [← hm1]
    apply Touched_write c m e.fteAddr _ tb (by omega)
    simp only [enc16, List.length_cons, List.length_nil]
    omega
  have hdis := table_chain_disjoint c hc m ft bs 0 htab hchain
  have htbn : tb ∉ bs.map Blk.idx := hdis tb htb
  have hchain1 : ChainOK c m1 0 bs := by
    rw [ChainOK_iff_seg] at *
    apply ChainSeg_touched c hc m m1 [tb] none bs 0 hT1 _ hchain
    intro b hb hin
    simp only [List.mem_singleton] at hin
    exact htbn (List.mem_map.mpr ⟨b, hb, hin⟩)
  have hupd := tableEntries_update c hc m m1 (0 :: ft) (FTChainOK_nodup c m _ htab.1) pre post e hes
    (fun a _ ha => w2 a (by omega))
  have hslot : slotAt m1 e.fteAddr
      = { FTE := { startblock := FFS_NULL16 c, filename := e.FTE.filename },
          fteAddr := e.fteAddr } := by
    have hfn : flashSPAN_Read m1 (e.fteAddr + 2) 14 = e.FTE.filename := by
      rw [Read_congr m m1 _ _ (fun i _ => w2 _ (by omega)), hei]
      rfl
    simp only [slotAt, readFTE, FFS_FILENAME_LEN]
    rw [w1, hfn]
  have htab1 : TableOK c m1 ft := by
    apply TableOK_congr c m m1 ft _ htab
    intro b hb o ho
    apply w2
    by_cases hbt : b = tb
    · subst hbt; omega
    · have := Touched_agree c m m1 [tb] b hT1 (by simpa using hbt)
      by_contra hcon
      have hin : e.fteAddr ≤ b * c.FLASH_BLOCKSIZE + o ∧ b * c.FLASH_BLOCKSIZE + o < e.fteAddr + 2 := by
        omega
      have d1 := slot_div c hc tb i (b * c.FLASH_BLOCKSIZE + o - e.fteAddr) hi (by omega)
      rw [← haddr, show e.fteAddr + (b * c.FLASH_BLOCKSIZE + o - e.fteAddr)
        = b * c.FLASH_BLOCKSIZE + o by omega, div_block _ _ _ (by omega)] at d1
      exact hbt d1
  cases bs with
  | nil => simp [nextIdx] at hs
  | cons p rest =>
    have hsb : e.FTE.startblock = p.idx := by simpa [nextIdx] using hs.symm
    obtain ⟨m3, pad3, e1, _, e2, e3⟩ := fopen_erase_spec c hc rest p m1 0 fuel
      (by simp at hfuel2; omega) hchain1
    have hS : ∀ k ∈ (p :: rest).map Blk.idx, FFS_TST_FT c (m1 (k * c.FLASH_BLOCKSIZE)) = false := by
      intro k hk
      obtain ⟨x, hx, rfl⟩ := List.mem_map.mp hk
      rcases ChainOK_status c m1 _ 0 hchain1 x hx with h1 | h1
      · rw [h1]; exact (tst_ft_facts c hc).1
      · rw [h1]; exact (tst_ft_facts c hc).2.1
    obtain ⟨t1, _⟩ := TableOK_touched c hc m1 m3 _ ft e3 hS htab1
    refine ⟨m3, pre, e, post, ?_, hes, hpre, hu, hn, he2, hs, ?_, e2, t1, ?_, ?_⟩
    · rw [remove_unfold c fuel m filename e he3, hm1, hsb, e1]
      rfl
    · rw [tableEntries_touched c hc m1 m3 _ e3 (0 :: ft) hdis, hupd, hslot]
    · intro x
      by_cases hx : x / c.FLASH_BLOCKSIZE ∈ (p :: rest).map Blk.idx
      · obtain ⟨y, hy, hyx⟩ := List.mem_map.mp hx
        have := e2 y hy (x % c.FLASH_BLOCKSIZE) (Nat.mod_lt _ (by omega))
        rw [hyx, Nat.mul_comm, Nat.div_add_mod] at this
        rw [this]
        exact (status_facts c hc).2.2.2.2.2.2.2.2.2
      · rw [e3 x hx]; exact w3 x
    · intro x hx1 hx2
      rw [e3 x hx1]
      exact w2 x hx2

/-- The entry scan on a name without live entry, when a never-used slot exists: the
scan stops at the first never-used slot. -/
theorem scanList_miss_slot (c : Cfg) (hc : c.ok) (filename : List Nat) (e : FFS_FTE_INFO_t)
    (post : List FFS_FTE_INFO_t) (he : e.FTE.startblock = FFS_UNINIT16 c) :
    ∀ (pre : List FFS_FTE_INFO_t) (last : FFS_FTE_INFO_t),
      (∀ x ∈ pre, x.FTE.startblock ≠ FFS_UNINIT16 c) →
      (¬ ∃ x ∈ liveOf c (pre ++ e :: post), cstr filename = cstr x.FTE.filename) →
      scanList c filename (pre ++ e :: post) last = (some RES_NOTFOUND, e) := by
  have hne := null16_ne_uninit16 c hc
  intro pre
  induction pre with
  | nil =>
    intro last _ _
    rw [List.nil_append, scanList, if_neg (by rw [he]; exact hne.symm), if_pos he]
  | cons x pre ih =>
    intro last hpre hno
    have hx := hpre x (List.mem_cons_self _ _)
    rw [List.cons_append, liveOf_cons c hc] at hno
    rw [List.cons_append, scanList]
    by_cases h1 : x.FTE.startblock = FFS_NULL16 c
    · rw [if_pos h1] at hno
      rw [if_pos h1]
      exact ih x (fun y hy => hpre y (List.mem_cons_of_mem _ hy)) hno
    · rw [if_neg h1, if_neg hx] at hno
      rw [if_neg h1, if_neg hx]
      by_cases h3 : cstr filename = cstr x.FTE.filename
      · exact absurd ⟨x, List.mem_cons_self _ _, h3⟩ hno
      · rw [if_neg h3]
        apply ih x (fun y hy => hpre y (List.mem_cons_of_mem _ hy))
        rintro ⟨y, hy, hm⟩
        exact hno ⟨y, List.mem_cons_of_mem _ hy, hm⟩

/-- The entry scan on a name without live entry, when no never-used slot exists: the
scan runs to the end and leaves the last slot in the entry info object. -/
theorem scanList_miss_full (c : Cfg) (hc : c.ok) (filename : List Nat) :
    ∀ (es : List FFS_FTE_INFO_t) (last : FFS_FTE_INFO_t),
      (∀ x ∈ es, x.FTE.startblock ≠ FFS_UNINIT16 c) →
      (¬ ∃ x ∈ liveOf c es, cstr filename = cstr x.FTE.filename) →
      scanList c filename es last = (none, es.getLast?.getD last) := by
  intro es
  induction es with
  | nil => intro last _ _; rfl
  | cons x es ih =>
    intro last hes hno
    have hx := hes x (List.mem_cons_self _ _)
    have hgl : (x :: es).getLast?.getD last = es.getLast?.getD x := by
      cases es with
      | nil => rfl
      | cons y ys =>
        rw [List.getLast?_cons_cons, List.getLast?_eq_getLast _ (List.cons_ne_nil y ys)]
        rfl
    rw [liveOf_cons c hc] at hno
    rw [scanList, hgl]
    by_cases h1 : x.FTE.startblock = FFS_NULL16 c
    · rw [if_pos h1] at hno
      rw [if_pos h1]
      exact ih x (fun y hy => hes y (List.mem_cons_of_mem _ hy)) hno
    · rw [if_neg h1, if_neg hx] at hno
      rw [if_neg h1, if_neg hx]
      by_cases h3 : cstr filename = cstr x.FTE.filename
      · exact absurd ⟨x, List.mem_cons_self _ _, h3⟩ hno
      · rw [if_neg h3]
        apply ih x (fun y hy => hes y (List.mem_cons_of_mem _ hy))
        rintro ⟨y, hy, hm⟩
        exact hno ⟨y, List.mem_cons_of_mem _ hy, hm⟩

/-- The slots of a table split at the first never-used slot, if there is one. -/
theorem slots_split (c : Cfg) (es : List FFS_FTE_INFO_t) :
    (∀ x ∈ es, x.FTE.startblock ≠ FFS_UNINIT16 c) ∨
    ∃ pre e post, es = pre ++ e :: post ∧ (∀ x ∈ pre, x.FTE.startblock ≠ FFS_UNINIT16 c) ∧
      e.FTE.startblock = FFS_UNINIT16 c := by
  induction es with
  | nil => left; intro x hx; simp at hx
  | cons x es ih =>
    by_cases hx : x.FTE.startblock = FFS_UNINIT16 c
    · right
      exact ⟨[], x, es, rfl, fun y hy => by simp at hy, hx⟩
    · rcases ih with h | ⟨pre, e, post, h1, h2, h3⟩
      · left
        intro y hy
        rcases List.mem_cons.mp hy with rfl | hy
        · exact hx
        · exact h y hy
      · right
        refine ⟨x :: pre, e, post, by rw [h1]; rfl, ?_, h3⟩
        intro y hy
        rcases List.mem_cons.mp hy with rfl | hy
        · exact hx
        · exact h2 y hy

/-- `LookupFile` of a name without live entry stops at the first never-used slot. -/
theorem LookupFile_miss_slot (c : Cfg) (hc : c.ok) (m : Mem) (ft : List Nat) (filename : List Nat)
    (fuel : Nat) (hft : FTChainOK c m (0 :: ft)) (hfuel : ft.length < fuel)
    (pre post : List FFS_FTE_INFO_t) (e : FFS_FTE_INFO_t)
    (hes : tableEntries c m (0 :: ft) = pre ++ e :: post)
    (hpre : ∀ x ∈ pre, x.FTE.startblock ≠ FFS_UNINIT16 c)
    (he : e.FTE.startblock = FFS_UNINIT16 c) (hno : ¬ HasFile c m (0 :: ft) filename) :
    LookupFile c fuel m filename = some (RES_NOTFOUND, e) := by
  rw [LookupFile, LookupFile_loop_eq c m filename ft 0 fuel _ hft hfuel, lookupList, hes,
    scanList_miss_slot c hc filename e post he pre _ hpre
      (by rw [← hes]; exact hno)]

theorem tableEntries_append (c : Cfg) (m : Mem) (A B : List Nat) :
    tableEntries c m (A ++ B) = tableEntries c m A ++ tableEntries c m B := by
  simp [tableEntries]

/-- The last slot of a table is the last slot of its last block. -/
theorem tableEntries_getLast (c : Cfg) (hc : c.ok) (m : Mem) (A : List Nat) (lb : Nat) :
    (tableEntries c m (A ++ [lb])).getLast?
      = some (fteiAt c m lb (FFS_FTENTRIESPERBLOCK c - 1)) := by
  have hn := entries_pos c hc
  obtain ⟨k, hk⟩ : ∃ k, FFS_FTENTRIESPERBLOCK c = k + 1 := ⟨FFS_FTENTRIESPERBLOCK c - 1, by omega⟩
  rw [tableEntries_append, tableEntries_cons, tableEntries_nil, List.append_nil, hk,
    List.range'_1_concat, List.map_append, ← List.append_assoc]
  simp

/-- `LookupFile` of a name without live entry in a table without never-used slot ends
on the last slot of the last block. -/
theorem LookupFile_miss_full (c : Cfg) (hc : c.ok) (m : Mem) (ft : List Nat) (filename : List Nat)
    (fuel : Nat) (hft : FTChainOK c m (0 :: ft)) (hfuel : ft.length < fuel)
    (hes : ∀ x ∈ tableEntries c m (0 :: ft), x.FTE.startblock ≠ FFS_UNINIT16 c)
    (hno : ¬ HasFile c m (0 :: ft) filename) :
    LookupFile c fuel m filename = some (RES_NOTFOUND,
      fteiAt c m ((0 :: ft).getLast (List.cons_ne_nil _ _)) (FFS_FTENTRIESPERBLOCK c - 1)) := by
  have hn := entries_pos c hc
  rw [LookupFile, LookupFile_loop_eq c m filename ft 0 fuel _ hft hfuel, lookupList,
    scanList_miss_full c hc filename _ _ hes hno]
  have hlast : (tableEntries c m (0 :: ft)).getLast?
      = some (fteiAt c m ((0 :: ft).getLast (List.cons_ne_nil _ _)) (FFS_FTENTRIESPERBLOCK c - 1)) := by
    have hsplit : 0 :: ft = (0 :: ft).dropLast ++ [(0 :: ft).getLast (List.cons_ne_nil _ _)] :=
      (List.dropLast_append_getLast _).symm
    conv_lhs => rw [hsplit]
    exact tableEntries_getLast c hc m _ _
  rw [hlast]
  rfl

theorem create_full_slot (c : Cfg) (fuel : Nat) (m : Mem) (fs fs2 : FFS_FS_t) (F : FFS_FILE_t)
    (filename : List Nat) (FTEI : FFS_FTE_INFO_t)
    (hu : FTEI.FTE.startblock = FFS_UNINIT16 c)
    (ha : FindUnusedBlock c fuel m fs = some (0, fs2)) :
    ffs_fopen_create c fuel m fs F filename FTEI = some (RES_FULL, m, fs2, F) := by
  unfold ffs_fopen_create
  simp only [hu, ne_eq, not_true_eq_false, if_false, ha, if_true]

theorem create_full_expand (c : Cfg) (fuel : Nat) (m : Mem) (fs fs2 : FFS_FS_t) (F : FFS_FILE_t)
    (filename : List Nat) (FTEI : FFS_FTE_INFO_t)
    (hu : FTEI.FTE.startblock ≠ FFS_UNINIT16 c)
    (ha : FindUnusedBlock c fuel m fs = some (0, fs2)) :
    ffs_fopen_create c fuel m fs F filename FTEI = some (RES_FULL, m, fs, F) := by
  unfold ffs_fopen_create
  simp only [hu, ne_eq, not_false_eq_true, if_true, ha]

/-- The file-creating branch with table expansion: the new table block is chained
first, then the data block is allocated and the entry is written where `strcpy` left
the entry address. -/
theorem create_expand_raw (c : Cfg) (fuel : Nat) (m : Mem) (fs fs1 fs2 : FFS_FS_t) (F : FFS_FILE_t)
    (filename : List Nat) (FTEI : FFS_FTE_INFO_t) (nb b : Nat)
    (hu : FTEI.FTE.startblock ≠ FFS_UNINIT16 c)
    (ha : FindUnusedBlock c fuel m fs = some (nb, fs1)) (hnb : nb ≠ 0)
    (ha2 : FindUnusedBlock c fuel
      (flashSPAN_Write c
        (flashSPAN_Write c m (FTEI.fteAddr / c.FLASH_BLOCKSIZE * c.FLASH_BLOCKSIZE)
          (encSBHDR (padByte c) (FFS_B_FT_JUMP c) nb))
        (nb * c.FLASH_BLOCKSIZE) [FFS_B_FT_EOF c]) fs1 = some (b, fs2)) :
    ffs_fopen_create c fuel m fs F filename FTEI
      = if b = 0 then
          some (RES_FULL,
            flashSPAN_Write c
              (flashSPAN_Write c m (FTEI.fteAddr / c.FLASH_BLOCKSIZE * c.FLASH_BLOCKSIZE)
                (encSBHDR (padByte c) (FFS_B_FT_JUMP c) nb))
              (nb * c.FLASH_BLOCKSIZE) [FFS_B_FT_EOF c], fs2, F)
        else
          some (RES_OK,
            flashSPAN_Write c
              (flashSPAN_Write c
                (flashSPAN_Write c
                  (flashSPAN_Write c m (FTEI.fteAddr / c.FLASH_BLOCKSIZE * c.FLASH_BLOCKSIZE)
                    (encSBHDR (padByte c) (FFS_B_FT_JUMP c) nb))
                  (nb * c.FLASH_BLOCKSIZE) [FFS_B_FT_EOF c])
                (b * c.FLASH_BLOCKSIZE)
                (encBHDR (padByte c) { status := FFS_B_EOF c, jump := FFS_UNINIT16 c, virt_addr := 0 }))
              (dec32 (((strcpy (FTEI.FTE.filename ++ enc32 (nb * c.FLASH_BLOCKSIZE + sizeof_SBHDR))
                filename).drop FFS_FILENAME_LEN).take 4))
              (encFTE { startblock := b,
                        filename := (strcpy (FTEI.FTE.filename
                          ++ enc32 (nb * c.FLASH_BLOCKSIZE + sizeof_SBHDR)) filename).take
                            FFS_FILENAME_LEN }),
            fs2,
            { startblock := b, filemode := FFS_WR_APPEND,
              hw_addr := b * c.FLASH_BLOCKSIZE + sizeof_BHDR, virt_addr := 0, nBytes := 1 }) := by
  unfold ffs_fopen_create
  simp only [hu, ne_eq, not_false_eq_true, if_true, ha, hnb, if_false, ha2]

/-- The file-creating branch with table expansion, for a name that fits into the
filename field. -/
theorem create_expand (c : Cfg) (fuel : Nat) (m : Mem) (fs fs1 fs2 : FFS_FS_t) (F : FFS_FILE_t)
    (filename : List Nat) (FTEI : FFS_FTE_INFO_t) (nb b : Nat)
    (hu : FTEI.FTE.startblock ≠ FFS_UNINIT16 c)
    (ha : FindUnusedBlock c fuel m fs = some (nb, fs1)) (hnb : nb ≠ 0)
    (ha2 : FindUnusedBlock c fuel
      (flashSPAN_Write c
        (flashSPAN_Write c m (FTEI.fteAddr / c.FLASH_BLOCKSIZE * c.FLASH_BLOCKSIZE)
          (encSBHDR (padByte c) (FFS_B_FT_JUMP c) nb))
        (nb * c.FLASH_BLOCKSIZE) [FFS_B_FT_EOF c]) fs1 = some (b, fs2))
    (hlen : FTEI.FTE.filename.length = FFS_FILENAME_LEN)
    (hname : (cstr filename).length < FFS_FILENAME_LEN)
    (haddr : nb * c.FLASH_BLOCKSIZE + sizeof_SBHDR < 4294967296) :
    ffs_fopen_create c fuel m fs F filename FTEI
      = if b = 0 then
          some (RES_FULL,
            flashSPAN_Write c
              (flashSPAN_Write c m (FTEI.fteAddr / c.FLASH_BLOCKSIZE * c.FLASH_BLOCKSIZE)
                (encSBHDR (padByte c) (FFS_B_FT_JUMP c) nb))
              (nb * c.FLASH_BLOCKSIZE) [FFS_B_FT_EOF c], fs2, F)
        else
          some (RES_OK,
            flashSPAN_Write c
              (flashSPAN_Write c
                (flashSPAN_Write c
                  (flashSPAN_Write c m (FTEI.fteAddr / c.FLASH_BLOCKSIZE * c.FLASH_BLOCKSIZE)
                    (encSBHDR (padByte c) (FFS_B_FT_JUMP c) nb))
                  (nb * c.FLASH_BLOCKSIZE) [FFS_B_FT_EOF c])
                (b * c.FLASH_BLOCKSIZE)
                (encBHDR (padByte c) { status := FFS_B_EOF c, jump := FFS_UNINIT16 c, virt_addr := 0 }))
              (nb * c.FLASH_BLOCKSIZE + sizeof_SBHDR)
              (encFTE { startblock := b, filename := nameField FTEI.FTE.filename filename }),
            fs2,
            { startblock := b, filemode := FFS_WR_APPEND,
              hw_addr := b * c.FLASH_BLOCKSIZE + sizeof_BHDR, virt_addr := 0, nBytes := 1 }) := by
  obtain ⟨e1, e2⟩ := strcpy_fits FTEI.FTE.filename filename _ hlen hname haddr
  rw [create_expand_raw c fuel m fs fs1 fs2 F filename FTEI nb b hu ha hnb ha2, e1, e2]

/-- On a device without unused block, creating a file fails with `RES_FULL` and
changes nothing. -/
theorem fopen_full_spec (c : Cfg) (hc : c.ok) (m : Mem) (fs : FFS_FS_t) (F : FFS_FILE_t)
    (ft : List Nat) (filename : List Nat) (mode fuel : Nat) (ht : TableOK c m ft)
    (hfs : fs.BlockSearchStart < c.BlockCount) (hfull : NoFree c m)
    (hno : ¬ HasFile c m (0 :: ft) filename)
    (hmode : mode = FFS_WR_REPLACE ∨ mode = FFS_WR_APPEND)
    (hfuel1 : ft.length < fuel) (hfuel2 : c.BlockCount ≤ fuel) :
    ffs_fopen c fuel m fs (some F) filename mode = some (RES_FULL, m, fs, some F) := by
  obtain ⟨e, he⟩ := (LookupFile_spec c hc m ft filename fuel ht.1 hfuel1).2 hno
  obtain ⟨b, fs1, ea, _, _, q3⟩ := FindUnusedBlock_spec c hc m fs fuel hfs hfuel2
  rw [fopen_create_unfold c fuel m fs F filename mode e hmode he]
  rcases q3 with ⟨rfl, rfl, _⟩ | ⟨hb1, hbN, hbu, _⟩
  · by_cases hu : e.FTE.startblock = FFS_UNINIT16 c
    · rw [create_full_slot c fuel m fs1 fs1 F filename e hu ea]; rfl
    · rw [create_full_expand c fuel m fs1 fs1 F filename e hu ea]; rfl
  · exact absurd hbu (hfull b hb1 hbN)

theorem FTChainWF_ok (c : Cfg) (hc : c.ok) (m : Mem) :
    ∀ (L : List Nat), FTChainWF c m L →
      FTChainOK c m L ∧ ∀ b ∈ L, FFS_TST_FT c (m (b * c.FLASH_BLOCKSIZE)) = true := by
  intro L
  induction L with
  | nil => intro h; exact absurd h id
  | cons b X ih =>
    intro h
    cases X with
    | nil =>
      refine ⟨?_, ?_⟩
      · show m _ ≠ _
        rw [h.1]; exact ft_status_facts c hc
      · intro k hk
        simp only [List.mem_singleton] at hk
        rw [hk, h.1]; exact (tst_ft_facts c hc).2.2.2.1
    | cons x X =>
      obtain ⟨i1, i2⟩ := ih h.2.2
      refine ⟨⟨h.1, h.2.1, i1⟩, ?_⟩
      intro k hk
      rcases List.mem_cons.mp hk with rfl | hk
      · rw [h.1]; exact (tst_ft_facts c hc).2.2.2.2
      · exact i2 k hk

theorem TableWF_ok (c : Cfg) (hc : c.ok) (m : Mem) (ft : List Nat) (h : TableWF c m ft) :
    TableOK c m ft :=
  FTChainWF_ok c hc m _ h.1

/-- A table chain stays well-formed when the headers of its blocks do not change. -/
theorem FTChainWF_congr (c : Cfg) (m m1 : Mem) :
    ∀ (L : List Nat), (∀ b ∈ L, ∀ o, o < 4 → m1 (b * c.FLASH_BLOCKSIZE + o) = m (b * c.FLASH_BLOCKSIZE + o)) →
      FTChainWF c m L → FTChainWF c m1 L := by
  intro L
  induction L with
  | nil => intro _ h; exact h
  | cons b X ih =>
    intro hag h
    have h0 := hag b (List.mem_cons_self _ _) 0 (by omega)
    have h1 := hag b (List.mem_cons_self _ _) 2 (by omega)
    have h2 := hag b (List.mem_cons_self _ _) 3 (by omega)
    rw [Nat.add_zero] at h0
    cases X with
    | nil =>
      exact ⟨by rw [h0]; exact h.1, by rw [h1]; exact h.2.1, by rw [h2]; exact h.2.2⟩
    | cons x X =>
      refine ⟨by rw [h0]; exact h.1, ?_, ih (fun b hb => hag b (List.mem_cons_of_mem _ hb)) h.2.2⟩
      have := h.2.1
      simp only [rd16, offsetof_jump] at *
      rw [h1, show b * c.FLASH_BLOCKSIZE + 2 + 1 = b * c.FLASH_BLOCKSIZE + 3 by omega, h2]
      rw [show b * c.FLASH_BLOCKSIZE + 2 + 1 = b * c.FLASH_BLOCKSIZE + 3 by omega] at this
      exact this

/-- Chaining a new last block to a table chain. -/
theorem FTChainWF_snoc (c : Cfg) (m m1 : Mem) (lb nb : Nat)
    (h1 : m1 (lb * c.FLASH_BLOCKSIZE) = FFS_B_FT_JUMP c)
    (h2 : rd16 m1 (lb * c.FLASH_BLOCKSIZE + offsetof_jump) = nb)
    (h3 : m1 (nb * c.FLASH_BLOCKSIZE) = FFS_B_FT_EOF c ∧
      m1 (nb * c.FLASH_BLOCKSIZE + 2) = FFS_UNINIT8 c ∧ m1 (nb * c.FLASH_BLOCKSIZE + 3) = FFS_UNINIT8 c) :
    ∀ (A : List Nat), (∀ b ∈ A, ∀ o, o < 4 → m1 (b * c.FLASH_BLOCKSIZE + o) = m (b * c.FLASH_BLOCKSIZE + o)) →
      FTChainWF c m (A ++ [lb]) → FTChainWF c m1 (A ++ [lb, nb]) := by
  intro A
  induction A with
  | nil => intro _ _; exact ⟨h1, h2, h3⟩
  | cons a A ih =>
    intro hag h
    have g0 := hag a (List.mem_cons_self _ _) 0 (by omega)
    have g1 := hag a (List.mem_cons_self _ _) 2 (by omega)
    have g2 := hag a (List.mem_cons_self _ _) 3 (by omega)
    rw [Nat.add_zero] at g0
    have hj : rd16 m1 (a * c.FLASH_BLOCKSIZE + offsetof_jump)
        = rd16 m (a * c.FLASH_BLOCKSIZE + offsetof_jump) := by
      simp only [rd16, offsetof_jump]
      rw [g1, show a * c.FLASH_BLOCKSIZE + 2 + 1 = a * c.FLASH_BLOCKSIZE + 3 by omega, g2]
    cases A with
    | nil =>
      exact ⟨by rw [g0]; exact h.1, by rw [hj]; exact h.2.1,
        ih (fun b hb => by simp at hb) h.2.2⟩
    | cons a2 A2 =>
      exact ⟨by rw [g0]; exact h.1, by rw [hj]; exact h.2.1,
        ih (fun b hb => hag b (List.mem_cons_of_mem _ hb)) h.2.2⟩

theorem erased_uninit16 (c : Cfg) (hc : c.ok) (m : Mem) (a : Nat) (h : SlotErased c m a) :
    (slotAt m a).FTE.startblock = FFS_UNINIT16 c := by
  have h0 := h 0 (by decide)
  have h1 := h 1 (by decide)
  rw [Nat.add_zero] at h0
  simp only [slotAt, readFTE, rd16]
  rw [h0, h1]
  exact uninit16_val c hc

/-- Erased slots hold no live entry. -/
theorem liveOf_erased (c : Cfg) (hc : c.ok) (es : List FFS_FTE_INFO_t)
    (h : ∀ x ∈ es, x.FTE.startblock = FFS_UNINIT16 c) : liveOf c es = [] := by
  have hne := null16_ne_uninit16 c hc
  cases es with
  | nil => rfl
  | cons x xs =>
    have hx := h x (List.mem_cons_self _ _)
    rw [liveOf_cons c hc, if_neg (by rw [hx]; exact hne.symm), if_pos hx]

theorem garbageOf_erased (c : Cfg) (hc : c.ok) (es : List FFS_FTE_INFO_t)
    (h : ∀ x ∈ es, x.FTE.startblock = FFS_UNINIT16 c) : garbageOf c es = 0 := by
  have hne := null16_ne_uninit16 c hc
  cases es with
  | nil => rfl
  | cons x xs =>
    have hx := h x (List.mem_cons_self _ _)
    rw [garbageOf_cons c hc, if_neg (by rw [hx]; exact hne.symm), if_pos hx]

/-- An address in the short header of a block lies outside every entry slot. -/
theorem header_outside_slot (c : Cfg) (hc : c.ok) (tb i k o : Nat)
    (hi : i < FFS_FTENTRIESPERBLOCK c) (ho : o < 4) :
    k * c.FLASH_BLOCKSIZE + o < FFS_ENTRYADDR c tb i ∨
      FFS_ENTRYADDR c tb i + 16 ≤ k * c.FLASH_BLOCKSIZE + o := by
  have hB := hc.2.1
  obtain ⟨r1, r2⟩ := slot_range c hc tb i hi
  rcases Nat.lt_trichotomy k tb with h | h | h
  · have : (k + 1) * c.FLASH_BLOCKSIZE ≤ tb * c.FLASH_BLOCKSIZE := Nat.mul_le_mul_right _ h
    rw [Nat.add_mul, Nat.one_mul] at this
    omega
  · subst h; omega
  · have : (tb + 1) * c.FLASH_BLOCKSIZE ≤ k * c.FLASH_BLOCKSIZE := Nat.mul_le_mul_right _ h
    rw [Nat.add_mul, Nat.one_mul] at this
    omega

/-- A slot of the table keeps its bytes when the device changes, inside the table
blocks, in another slot only. -/
theorem slot_keep (c : Cfg) (hc : c.ok) (m m1 : Mem) (L : List Nat) (x e : FFS_FTE_INFO_t)
    (hx : x ∈ tableEntries c m L) (he : e ∈ tableEntries c m L) (hne : x.fteAddr ≠ e.fteAddr)
    (hout : ∀ a, a / c.FLASH_BLOCKSIZE ∈ L → a < e.fteAddr ∨ e.fteAddr + 16 ≤ a → m1 a = m a) :
    ∀ o, o < 16 → m1 (x.fteAddr + o) = m (x.fteAddr + o) := by
  intro o ho
  apply hout
  · obtain ⟨b, hb, i, hi, rfl⟩ := (mem_tableEntries c m L x).mp hx
    show (FFS_ENTRYADDR c b i + o) / c.FLASH_BLOCKSIZE ∈ L
    rw [slot_div c hc b i o hi ho]
    exact hb
  · have := slots_disjoint c hc m L x e hx he hne
    omega

/-- The slot that reads as the bytes of an entry. -/
theorem slot_written (m : Mem) (a b : Nat) (fn : List Nat) (hb : b < 65536) (hfn : fn.length = 14)
    (h : flashSPAN_Read m a 16 = enc16 b ++ fn) :
    slotAt m a = { FTE := { startblock := b, filename := fn }, fteAddr := a } := by
  have h2 : flashSPAN_Read m a (2 + 14) = enc16 b ++ fn := h
  rw [Read_add] at h2
  have hr16 : flashSPAN_Read m a 2 = enc16 b :=
    List.append_inj_left h2 (by simp [Read_length, enc16])
  have hrfn : flashSPAN_Read m (a + 2) 14 = fn :=
    List.append_inj_right h2 (by simp [Read_length, enc16])
  have hsb : rd16 m a = b := by
    simp only [flashSPAN_Read, enc16, List.range_succ, List.range_zero, List.nil_append,
      List.map_cons, List.map_nil, List.cons_append, List.cons.injEq, and_true,
      Nat.add_zero] at hr16
    simp only [rd16]
    rw [hr16.1, hr16.2]
    omega
  simp only [slotAt, readFTE, FFS_FILENAME_LEN]
  rw [hsb, hrfn]

theorem encBHDR_bytes_pad (pad st j v : Nat) (hp : pad < 256) (hst : st < 256) :
    ∀ x ∈ encBHDR pad { status := st, jump := j, virt_addr := v }, x < 256 := by
  intro x hx
  simp only [encBHDR, List.mem_cons, List.mem_append] at hx
  rcases hx with rfl | rfl | hx | hx
  · exact hst
  · exact hp
  · exact (enc_bytes j).1 x hx
  · exact (enc_bytes v).2 x hx

theorem encBHDR_bytes {c : Cfg} (st j v : Nat) (hst : st < 256) :
    ∀ x ∈ encBHDR (padByte c) { status := st, jump := j, virt_addr := v }, x < 256 :=
  encBHDR_bytes_pad (padByte c) st j v (padByte_lt c) hst

/-- Writing a new entry into the first erased slot of a well-formed table, together
with the header of its freshly allocated data block `b`. -/
theorem create_at_slot (c : Cfg) (hc : c.ok) (m m4 : Mem) (ft : List Nat)
    (used free : List FFS_FTE_INFO_t) (e : FFS_FTE_INFO_t) (b : Nat) (fn0 filename : List Nat)
    (hb : Bytes m) (hchain : FTChainWF c m (0 :: ft)) (hbound : ∀ k ∈ ft, k < c.BlockCount)
    (hes : tableEntries c m (0 :: ft) = used ++ e :: free)
    (hused : ∀ x ∈ used, x.FTE.startblock ≠ FFS_UNINIT16 c)
    (hfree : ∀ x ∈ e :: free, SlotErased c m x.fteAddr)
    (hfo : FreeOK c m) (hb1 : 1 ≤ b) (hbN : b < c.BlockCount)
    (hbu : m (b * c.FLASH_BLOCKSIZE) = FFS_B_UNUSED c)
    (hfn : fn0.length = 14) (hfnb : ∀ x ∈ fn0, x < 256)
    (hname : (cstr filename).length < FFS_FILENAME_LEN) (hchars : ∀ x ∈ filename, x < 256)
    (hm4 : m4 = flashSPAN_Write c
      (flashSPAN_Write c m (b * c.FLASH_BLOCKSIZE)
        (encBHDR (padByte c) { status := FFS_B_EOF c, jump := FFS_UNINIT16 c, virt_addr := 0 }))
      e.fteAddr (encFTE { startblock := b, filename := nameField fn0 filename })) :
    Bytes m4 ∧ TableWF c m4 ft ∧ FreeOK c m4 ∧
    tableEntries c m4 (0 :: ft)
      = used ++ { FTE := { startblock := b, filename := nameField fn0 filename },
                  fteAddr := e.fteAddr } :: free ∧
    liveEntries c m4 (0 :: ft)
      = liveEntries c m (0 :: ft) ++
          [{ FTE := { startblock := b, filename := nameField fn0 filename }, fteAddr := e.fteAddr }] ∧
    cstr (nameField fn0 filename) = cstr filename ∧
    WrInv c m4 [] { idx := b, chunks := [] } [] (b * c.FLASH_BLOCKSIZE + 8) 1
      (c.FLASH_BLOCKSIZE - 9) ∧
    Touched c m m4 [e.fteAddr / c.FLASH_BLOCKSIZE, b] := by
  have hB := hc.2.1
  have hNN := hc.2.2.2.1
  have hsf := status_facts c hc
  obtain ⟨hok, htst⟩ := FTChainWF_ok c hc m _ hchain
  have hnd := FTChainOK_nodup c m _ hok
  have hemem : e ∈ tableEntries c m (0 :: ft) := by rw [hes]; simp
  obtain ⟨tb, htb, i, hi, hei⟩ := (mem_tableEntries c m _ e).mp hemem
  have haddr : e.fteAddr = FFS_ENTRYADDR c tb i := by rw [hei]; rfl
  obtain ⟨r1, r2⟩ := slot_range c hc tb i hi
  have hdiv : e.fteAddr / c.FLASH_BLOCKSIZE = tb := by
    have := slot_div c hc tb i 0 hi (by omega)
    rw [Nat.add_zero, ← haddr] at this
    exact this
  have hbnot : b ∉ 0 :: ft := by
    intro hin
    have := htst b hin
    rw [hbu] at this
    rw [show FFS_B_UNUSED c = FFS_UNINIT8 c from rfl, (tst_ft_facts c hc).2.2.1] at this
    exact absurd this (by decide)
  have htbb : tb ≠ b := fun h => hbnot (h ▸ htb)
  have herb : ∀ o, o < c.FLASH_BLOCKSIZE → m (b * c.FLASH_BLOCKSIZE + o) = FFS_UNINIT8 c :=
    hfo b hbN hbu
  obtain ⟨i1, i2⟩ := WrInv_first c hc m b herb
  generalize hm3 : flashSPAN_Write c m (b * c.FLASH_BLOCKSIZE)
    (encBHDR (padByte c) { status := FFS_B_EOF c, jump := FFS_UNINIT16 c, virt_addr := 0 }) = m3 at *
  have hb3 : Bytes m3 := by
    rw [← hm3]
    exact Bytes_write c m _ _ hb (encBHDR_bytes _ _ _ hsf.2.2.2.2.2.1)
  have hfl : (nameField fn0 filename).length = 14 := by rw [nameField_length, hfn]
  have hel : (encFTE { startblock := b, filename := nameField fn0 filename }).length = 16 := by
    simp [encFTE, enc16, hfl]
  have hed : ∀ x ∈ encFTE { startblock := b, filename := nameField fn0 filename }, x < 256 := by
    intro x hx
    simp only [encFTE, List.mem_append] at hx
    rcases hx with hx | hx
    · exact (enc_bytes b).1 x hx
    · exact nameField_lt _ _ hfnb hchars x hx
  have hT4 : Touched c m3 m4 [tb] := by
    rw [hm4]
    exact Touched_write c m3 e.fteAddr _ tb (by omega) (by rw [hel]; omega)
  have hag3 := Touched_agree c m m3 [b] tb i2 (by simpa using htbb)
  have herased3 : ∀ o, o < 16 → m3 (e.fteAddr + o) = FFS_UNINIT8 c := by
    intro o ho
    rw [hag3 _ (by omega) (by omega)]
    exact hfree e (List.mem_cons_self _ _) o (by simpa [sizeof_FTE, FFS_FILENAME_LEN] using ho)
  have hrd := Write_read c hc m3 e.fteAddr
    (encFTE { startblock := b, filename := nameField fn0 filename })
    (fun o ho => herased3 o (by rw [hel] at ho; exact ho)) hed
  rw [← hm4, hel] at hrd
  have hslot := slot_written m4 e.fteAddr b (nameField fn0 filename) (by omega) hfl hrd
  have hT : Touched c m m4 [tb, b] :=
    Touched_trans c m m3 m4 [b] [tb] _ i2 hT4 (by simp) (by simp)
  have hout : ∀ a, a / c.FLASH_BLOCKSIZE ∈ 0 :: ft → a < e.fteAddr ∨ e.fteAddr + 16 ≤ a →
      m4 a = m a := by
    intro a ha1 ha2
    rw [hm4, Write_outside c m3 e.fteAddr _ a (by rw [hel]; exact ha2)]
    apply i2
    intro hin
    simp only [List.mem_singleton] at hin
    exact hbnot (hin ▸ ha1)
  have hupd := tableEntries_update c hc m m4 (0 :: ft) hnd used free e hes hout
  rw [hslot] at hupd
  have hmarks := block_ne_marks c hc b hb1 hbN
  have hndA := tableEntries_addr_nodup c hc m (0 :: ft) hnd
  rw [hes, List.map_append, List.map_cons] at hndA
  have hndB := List.nodup_middle.mp hndA
  rw [List.nodup_cons, List.mem_append] at hndB
  have hfreeU : ∀ x ∈ free, x.FTE.startblock = FFS_UNINIT16 c := by
    intro x hx
    have hxm : x ∈ tableEntries c m (0 :: ft) := by rw [hes]; simp [hx]
    rw [← slot_self c m _ x hxm]
    exact erased_uninit16 c hc m _ (hfree x (List.mem_cons_of_mem _ hx))
  have heU : e.FTE.startblock = FFS_UNINIT16 c := by
    rw [← slot_self c m _ e hemem]
    exact erased_uninit16 c hc m _ (hfree e (List.mem_cons_self _ _))
  have hhdr : ∀ k ∈ 0 :: ft, ∀ o, o < 4 →
      m4 (k * c.FLASH_BLOCKSIZE + o) = m (k * c.FLASH_BLOCKSIZE + o) := by
    intro k hk o ho
    apply hout
    · rw [div_block _ _ _ (by omega)]; exact hk
    · rw [haddr]; exact header_outside_slot c hc tb i k o hi ho
  refine ⟨?_, ⟨FTChainWF_congr c m m4 _ hhdr hchain, hbound, ?_⟩, ?_, hupd, ?_, ?_, ?_, ?_⟩
  · rw [hm4]
    exact Bytes_write c m3 _ _ hb3 hed
  · refine ⟨used ++ [slotAt m4 e.fteAddr], free, by rw [hupd, hslot]; simp, ?_, ?_⟩
    · intro x hx
      rcases List.mem_append.mp hx with hx | hx
      · exact hused x hx
      · simp only [List.mem_singleton] at hx
        rw [hx, hslot]; exact hmarks.1
    · intro x hx o ho
      have hxm : x ∈ tableEntries c m (0 :: ft) := by rw [hes]; simp [hx]
      have hne : x.fteAddr ≠ e.fteAddr := fun hcon =>
        hndB.1 (Or.inr (List.mem_map.mpr ⟨x, hx, hcon⟩))
      rw [slot_keep c hc m m4 _ x e hxm hemem hne hout o
        (by simpa [sizeof_FTE, FFS_FILENAME_LEN] using ho)]
      exact hfree x (List.mem_cons_of_mem _ hx) o ho
  · apply FreeOK_touched c m m4 [tb, b] hT _ hfo (by omega)
    intro k hk
    simp only [List.mem_cons, List.mem_singleton, List.not_mem_nil, or_false] at hk
    rcases hk with hk | hk
    · rw [hk]
      have := hhdr tb htb 0 (by omega)
      rw [Nat.add_zero] at this
      rw [this]
      intro hcon
      have := htst tb htb
      rw [hcon, (tst_ft_facts c hc).2.2.1] at this
      exact absurd this (by decide)
    · rw [hk]
      have hag4 := Touched_agree c m3 m4 [tb] b hT4 (by simpa using fun h => htbb h.symm)
      rw [hag4 _ (Nat.le_refl _) (by omega)]
      have := i1.2.1.2.1.1
      rw [this]; exact hsf.2.1
  · unfold liveEntries
    rw [hupd, hes, liveOf_at_live c hc used free _ hused hmarks.1 hmarks.2,
      liveOf_append c hc _ used hused, liveOf_erased c hc free hfreeU,
      liveOf_erased c hc (e :: free) (fun x hx => by
        rcases List.mem_cons.mp hx with rfl | hx
        · exact heU
        · exact hfreeU x hx)]
    simp
  · exact cstr_nameField _ _ (by rw [hfn]; exact hname)
  · exact WrInv_touched c hc m3 m4 [tb] [] { idx := b, chunks := [] } [] _ _ _ hT4
      (by simpa using fun h => htbb h.symm) (by simp) i1
  · rw [hdiv]; exact hT

theorem progByte_FT (c : Cfg) (hc : c.ok) :
    progByte c (FFS_B_FT_EOF c) (FFS_B_FT_JUMP c) = FFS_B_FT_JUMP c := by
  rcases uninit8_cases c hc with ⟨h, h2⟩ | ⟨h, h2⟩ <;>
    simp [progByte, FFS_B_FT_EOF, FFS_B_FT_JUMP, h, h2] <;> decide

/-- The last block of a well-formed table chain. -/
theorem FTChainWF_last (c : Cfg) (m : Mem) (lb : Nat) :
    ∀ (A : List Nat), FTChainWF c m (A ++ [lb]) →
      m (lb * c.FLASH_BLOCKSIZE) = FFS_B_FT_EOF c ∧
      m (lb * c.FLASH_BLOCKSIZE + 2) = FFS_UNINIT8 c ∧ m (lb * c.FLASH_BLOCKSIZE + 3) = FFS_UNINIT8 c := by
  intro A
  induction A with
  | nil => intro h; exact h
  | cons a A ih =>
    intro h
    cases A with
    | nil => exact ih h.2.2
    | cons a2 A2 => exact ih h.2.2

/-- The slots of a table do not change when the device changes in the headers of the
table blocks only. -/
theorem tableEntries_keep (c : Cfg) (hc : c.ok) (m m1 : Mem) (L : List Nat)
    (h : ∀ b ∈ L, ∀ o, 4 ≤ o → o < c.FLASH_BLOCKSIZE →
      m1 (b * c.FLASH_BLOCKSIZE + o) = m (b * c.FLASH_BLOCKSIZE + o)) :
    tableEntries c m1 L = tableEntries c m L := by
  rw [tableEntries_refresh c m m1 L]
  conv_rhs => rw [← List.map_id (tableEntries c m L)]
  apply List.map_congr_left
  intro x hx
  obtain ⟨b, hb, i, hi, rfl⟩ := (mem_tableEntries c m L x).mp hx
  obtain ⟨r1, r2⟩ := slot_range c hc b i hi
  show slotAt m1 (FFS_ENTRYADDR c b i) = slotAt m (FFS_ENTRYADDR c b i)
  apply slotAt_congr
  intro o ho
  have := h b hb (FFS_ENTRYADDR c b i + o - b * c.FLASH_BLOCKSIZE) (by omega) (by omega)
  rw [show b * c.FLASH_BLOCKSIZE + (FFS_ENTRYADDR c b i + o - b * c.FLASH_BLOCKSIZE)
    = FFS_ENTRYADDR c b i + o by omega] at this
  exact this

/-- Writing a short block header over an end-of-table header with erased jump field. -/
theorem Write_sbhdr (c : Cfg) (hc : c.ok) (m : Mem) (a nb : Nat)
    (h0 : m a = FFS_B_FT_EOF c) (h1 : m (a + 2) = FFS_UNINIT8 c) (h2 : m (a + 3) = FFS_UNINIT8 c)
    (hnb : nb < 65536) :
    flashSPAN_Write c m a (encSBHDR (padByte c) (FFS_B_FT_JUMP c) nb) a = FFS_B_FT_JUMP c ∧
    rd16 (flashSPAN_Write c m a (encSBHDR (padByte c) (FFS_B_FT_JUMP c) nb)) (a + offsetof_jump) = nb ∧
    (∀ x, x < a ∨ a + 4 ≤ x → flashSPAN_Write c m a (encSBHDR (padByte c) (FFS_B_FT_JUMP c) nb) x = m x) := by
  have hl : (encSBHDR (padByte c) (FFS_B_FT_JUMP c) nb).length = 4 := by simp [encSBHDR, enc16]
  refine ⟨?_, ?_, ?_⟩
  · simp only [flashSPAN_Write, hl]
    rw [if_pos (by omega), Nat.sub_self, h0]
    simp only [encSBHDR, List.getD_cons_zero]
    exact progByte_FT c hc
  · simp only [rd16, offsetof_jump, flashSPAN_Write, hl]
    rw [if_pos (by omega), if_pos (by omega), h1,
      show a + 2 + 1 = a + 3 by omega, h2, Nat.add_sub_cancel_left, Nat.add_sub_cancel_left]
    simp only [encSBHDR, enc16, List.getD_cons_succ, List.getD_cons_zero]
    rw [progByte_erased c hc _ (by omega), progByte_erased c hc _ (by omega)]
    omega
  · intro x hx
    apply Write_outside
    rw [hl]; exact hx

/-- Chaining a fresh block to a table whose slots are all used: the table stays
well-formed, its entries do not change, and the slots of the new block are erased. -/
theorem expand_step (c : Cfg) (hc : c.ok) (m m2 : Mem) (ft : List Nat) (nb : Nat)
    (hb : Bytes m) (hchain : FTChainWF c m (0 :: ft)) (hbound : ∀ k ∈ ft, k < c.BlockCount)
    (hfull : ∀ x ∈ tableEntries c m (0 :: ft), x.FTE.startblock ≠ FFS_UNINIT16 c)
    (hfo : FreeOK c m) (hnb1 : 1 ≤ nb) (hnbN : nb < c.BlockCount)
    (hnbu : m (nb * c.FLASH_BLOCKSIZE) = FFS_B_UNUSED c)
    (hm2 : m2 = flashSPAN_Write c
      (flashSPAN_Write c m ((0 :: ft).getLast (List.cons_ne_nil _ _) * c.FLASH_BLOCKSIZE)
        (encSBHDR (padByte c) (FFS_B_FT_JUMP c) nb))
      (nb * c.FLASH_BLOCKSIZE) [FFS_B_FT_EOF c]) :
    Bytes m2 ∧ FTChainWF c m2 (0 :: (ft ++ [nb])) ∧ (∀ k ∈ ft ++ [nb], k < c.BlockCount) ∧
    FreeOK c m2 ∧
    tableEntries c m2 (0 :: (ft ++ [nb]))
      = tableEntries c m (0 :: ft) ++ fteiAt c m2 nb 0 ::
          (List.range' 1 (FFS_FTENTRIESPERBLOCK c - 1)).map (fteiAt c m2 nb) ∧
    (∀ x ∈ fteiAt c m2 nb 0 :: (List.range' 1 (FFS_FTENTRIESPERBLOCK c - 1)).map (fteiAt c m2 nb),
      SlotErased c m2 x.fteAddr) ∧
    liveEntries c m2 (0 :: (ft ++ [nb])) = liveEntries c m (0 :: ft) ∧
    Touched c m m2 [(0 :: ft).getLast (List.cons_ne_nil _ _), nb] ∧
    (∀ k, k ≠ nb → m2 (k * c.FLASH_BLOCKSIZE) = FFS_B_UNUSED c → m (k * c.FLASH_BLOCKSIZE) = FFS_B_UNUSED c) := by
  have hB := hc.2.1
  have hNN := hc.2.2.2.1
  have hsf := status_facts c hc
  have hn := entries_pos c hc
  obtain ⟨hok, htst⟩ := FTChainWF_ok c hc m _ hchain
  have hnd := FTChainOK_nodup c m _ hok
  generalize hlb : (0 :: ft).getLast (List.cons_ne_nil _ _) = lb at *
  have hsplit : 0 :: ft = (0 :: ft).dropLast ++ [lb] := by
    rw [← hlb]; exact (List.dropLast_append_getLast _).symm
  generalize hA : (0 :: ft).dropLast = A at hsplit
  have hlbm : lb ∈ 0 :: ft := by rw [hsplit]; simp
  have hnbnot : nb ∉ 0 :: ft := by
    intro hin
    have := htst nb hin
    rw [hnbu, show FFS_B_UNUSED c = FFS_UNINIT8 c from rfl, (tst_ft_facts c hc).2.2.1] at this
    exact absurd this (by decide)
  have hlbnb : lb ≠ nb := fun h => hnbnot (h ▸ hlbm)
  have hlast : m (lb * c.FLASH_BLOCKSIZE) = FFS_B_FT_EOF c ∧
      m (lb * c.FLASH_BLOCKSIZE + 2) = FFS_UNINIT8 c ∧ m (lb * c.FLASH_BLOCKSIZE + 3) = FFS_UNINIT8 c :=
    FTChainWF_last c m lb A (by rw [← hsplit]; exact hchain)
  obtain ⟨w1, w2, w3⟩ := Write_sbhdr c hc m (lb * c.FLASH_BLOCKSIZE) nb hlast.1 hlast.2.1 hlast.2.2
    (by omega)
  have hT1 : Touched c m (flashSPAN_Write c m (lb * c.FLASH_BLOCKSIZE)
      (encSBHDR (padByte c) (FFS_B_FT_JUMP c) nb)) [lb] :=
    Touched_write c m _ _ lb (Nat.le_refl _) (by simp [encSBHDR, enc16]; omega)
  have hb1 : Bytes (flashSPAN_Write c m (lb * c.FLASH_BLOCKSIZE) (encSBHDR (padByte c) (FFS_B_FT_JUMP c) nb)) := by
    apply Bytes_write c m _ _ hb
    intro x hx
    simp only [encSBHDR, List.mem_cons] at hx
    rcases hx with rfl | rfl | hx
    · exact hsf.2.2.2.2.2.2.2.2.1
    · exact padByte_lt c
    · exact (enc_bytes nb).1 x hx
  generalize hm1 : flashSPAN_Write c m (lb * c.FLASH_BLOCKSIZE) (encSBHDR (padByte c) (FFS_B_FT_JUMP c) nb)
    = m1 at *
  have herb : ∀ o, o < c.FLASH_BLOCKSIZE → m (nb * c.FLASH_BLOCKSIZE + o) = FFS_UNINIT8 c :=
    hfo nb hnbN hnbu
  have hag1 := Touched_agree c m m1 [lb] nb hT1 (by simpa using fun h => hlbnb h.symm)
  have hnb0 : m2 (nb * c.FLASH_BLOCKSIZE) = FFS_B_FT_EOF c := by
    rw [hm2]
    apply Write_one c hc m1 _ _ _ hsf.2.2.2.2.2.2.2.1
    rw [hag1 _ (Nat.le_refl _) (by omega)]
    have := herb 0 (by omega)
    rw [Nat.add_zero] at this
    exact this
  have hout2 : ∀ x, x ≠ nb * c.FLASH_BLOCKSIZE → m2 x = m1 x := by
    intro x hx
    rw [hm2]
    apply Write_outside
    simp only [List.length_cons, List.length_nil]
    omega
  have hT2 : Touched c m1 m2 [nb] := by
    rw [hm2]
    exact Touched_write c m1 _ _ nb (Nat.le_refl _) (by simp; omega)
  have hT : Touched c m m2 [lb, nb] :=
    Touched_trans c m m1 m2 [lb] [nb] _ hT1 hT2 (by simp) (by simp)
  have hnbe : ∀ o, 1 ≤ o → o < c.FLASH_BLOCKSIZE → m2 (nb * c.FLASH_BLOCKSIZE + o) = FFS_UNINIT8 c := by
    intro o ho1 ho2
    rw [hout2 _ (by omega), hag1 _ (by omega) (by omega)]
    exact herb o ho2
  have hlb0 : m2 (lb * c.FLASH_BLOCKSIZE) = FFS_B_FT_JUMP c := by
    have hne : lb * c.FLASH_BLOCKSIZE ≠ nb * c.FLASH_BLOCKSIZE := by
      intro hcon
      exact hlbnb (Nat.eq_of_mul_eq_mul_right (by omega) hcon)
    rw [hout2 _ hne]
    exact w1
  have hlbj : rd16 m2 (lb * c.FLASH_BLOCKSIZE + offsetof_jump) = nb := by
    have hag2 := Touched_agree c m1 m2 [nb] lb hT2 (by simpa using hlbnb)
    simp only [rd16, offsetof_jump] at w2 ⊢
    rw [hag2 _ (by omega) (by omega), hag2 _ (by omega) (by omega)]
    exact w2
  have hkeep : ∀ k ∈ 0 :: ft, ∀ o, 4 ≤ o → o < c.FLASH_BLOCKSIZE →
      m2 (k * c.FLASH_BLOCKSIZE + o) = m (k * c.FLASH_BLOCKSIZE + o) := by
    intro k hk o ho1 ho2
    have hknb : k ≠ nb := fun h => hnbnot (h ▸ hk)
    have hag2 := Touched_agree c m1 m2 [nb] k hT2 (by simpa using hknb)
    rw [hag2 _ (by omega) (by omega)]
    apply w3
    rcases Nat.lt_trichotomy k lb with h | h | h
    · have : (k + 1) * c.FLASH_BLOCKSIZE ≤ lb * c.FLASH_BLOCKSIZE := Nat.mul_le_mul_right _ h
      rw [Nat.add_mul, Nat.one_mul] at this
      omega
    · subst h; omega
    · have : (lb + 1) * c.FLASH_BLOCKSIZE ≤ k * c.FLASH_BLOCKSIZE := Nat.mul_le_mul_right _ h
      rw [Nat.add_mul, Nat.one_mul] at this
      omega
  have hold : tableEntries c m2 (0 :: ft) = tableEntries c m (0 :: ft) :=
    tableEntries_keep c hc m m2 _ hkeep
  have hnew : tableEntries c m2 [nb] = fteiAt c m2 nb 0 ::
      (List.range' 1 (FFS_FTENTRIESPERBLOCK c - 1)).map (fteiAt c m2 nb) := by
    obtain ⟨k, hk⟩ : ∃ k, FFS_FTENTRIESPERBLOCK c = k + 1 :=
      ⟨FFS_FTENTRIESPERBLOCK c - 1, by omega⟩
    rw [tableEntries_cons, tableEntries_nil, List.append_nil, hk, List.range'_succ, List.map_cons]
    rfl
  have hnewE : ∀ x ∈ tableEntries c m2 [nb], SlotErased c m2 x.fteAddr := by
    intro x hx o ho
    obtain ⟨b, hb, i, hi, rfl⟩ := (mem_tableEntries c m2 _ x).mp hx
    simp only [List.mem_singleton] at hb
    subst hb
    obtain ⟨r1, r2⟩ := slot_range c hc b i hi
    have ho16 : o < 16 := by simpa [sizeof_FTE, FFS_FILENAME_LEN] using ho
    have := hnbe (FFS_ENTRYADDR c b i + o - b * c.FLASH_BLOCKSIZE) (by omega) (by omega)
    rw [show b * c.FLASH_BLOCKSIZE + (FFS_ENTRYADDR c b i + o - b * c.FLASH_BLOCKSIZE)
      = FFS_ENTRYADDR c b i + o by omega] at this
    exact this
  have htab : tableEntries c m2 (0 :: (ft ++ [nb]))
      = tableEntries c m (0 :: ft) ++ tableEntries c m2 [nb] := by
    rw [show 0 :: (ft ++ [nb]) = (0 :: ft) ++ [nb] from rfl, tableEntries_append, hold]
  refine ⟨?_, ?_, ?_, ?_, by rw [htab, hnew], by rw [← hnew]; exact hnewE, ?_, hT, ?_⟩
  · rw [hm2]
    apply Bytes_write c m1 _ _ hb1
    intro x hx
    simp only [List.mem_singleton] at hx
    rw [hx]; exact hsf.2.2.2.2.2.2.2.1
  · have := FTChainWF_snoc c m m2 lb nb hlb0 hlbj
      ⟨hnb0, hnbe 2 (by omega) (by omega), hnbe 3 (by omega) (by omega)⟩ A ?_
      (by rw [← hsplit]; exact hchain)
    · rw [show 0 :: (ft ++ [nb]) = (0 :: ft) ++ [nb] from rfl, hsplit]
      simpa using this
    · intro k hk o ho
      have hkm : k ∈ 0 :: ft := by rw [hsplit]; simp [hk]
      have hklb : k ≠ lb := by
        rw [hsplit] at hnd
        intro hcon
        have := (List.nodup_append.mp hnd).2.2
        exact this hk (by simp [hcon])
      have hknb : k ≠ nb := fun h => hnbnot (h ▸ hkm)
      exact Touched_agree c m m2 [lb, nb] k hT (by simp [hklb, hknb]) _ (by omega) (by omega)
  · intro k hk
    rcases List.mem_append.mp hk with hk | hk
    · exact hbound k hk
    · simp only [List.mem_singleton] at hk
      rw [hk]; exact hnbN
  · apply FreeOK_touched c m m2 [lb, nb] hT _ hfo (by omega)
    intro k hk
    simp only [List.mem_cons, List.mem_singleton, List.not_mem_nil, or_false] at hk
    rcases hk with hk | hk
    · rw [hk, hlb0]; exact hsf.2.2.2.2.1
    · rw [hk, hnb0]; exact hsf.2.2.2.1
  · unfold liveEntries
    rw [htab, liveOf_append c hc _ _ hfull, liveOf_erased c hc (tableEntries c m2 [nb]) (fun x hx => by
      have := erased_uninit16 c hc m2 _ (hnewE x hx)
      rw [slot_self c m2 _ x hx] at this
      exact this)]
    simp
  · intro k hk hu
    by_cases hkl : k = lb
    · rw [hkl, hlb0] at hu
      exact absurd hu hsf.2.2.2.2.1
    · have := Touched_agree c m m2 [lb, nb] k hT (by simp [hkl, hk]) (k * c.FLASH_BLOCKSIZE)
        (Nat.le_refl _) (by omega)
      rw [← this]; exact hu

theorem slot_filename (c : Cfg) (m : Mem) (L : List Nat) (x : FFS_FTE_INFO_t) (hb : Bytes m)
    (hx : x ∈ tableEntries c m L) : x.FTE.filename.length = 14 ∧ ∀ y ∈ x.FTE.filename, y < 256 := by
  obtain ⟨b, _, i, _, rfl⟩ := (mem_tableEntries c m L x).mp hx
  simp only [fteiAt, readFTE, FFS_FILENAME_LEN]
  refine ⟨Read_length _ _ _, ?_⟩
  intro y hy
  simp only [flashSPAN_Read, List.mem_map, List.mem_range] at hy
  obtain ⟨j, _, rfl⟩ := hy
  exact hb _

/-- The entry slots of the table blocks have 32-bit addresses. -/
theorem entry_addr_lt (c : Cfg) (hc : c.ok) (ft : List Nat) (hbound : ∀ k ∈ ft, k < c.BlockCount)
    (b i : Nat) (hb : b ∈ 0 :: ft) (hi : i < FFS_FTENTRIESPERBLOCK c) :
    FFS_ENTRYADDR c b i < 4294967296 := by
  obtain ⟨_, h2⟩ := slot_range c hc b i hi
  have hB := hc.2.2.1
  have hNB := hc.2.2.2.2
  rcases List.mem_cons.mp hb with rfl | hb
  · omega
  · have := hbound b hb
    have : (b + 1) * c.FLASH_BLOCKSIZE ≤ c.BlockCount * c.FLASH_BLOCKSIZE :=
      Nat.mul_le_mul_right _ (by omega)
    rw [Nat.add_mul, Nat.one_mul] at this
    omega

/-- Blocks that are neither touched nor were unused keep their bytes. -/
theorem frame_of_touched (c : Cfg) (m m1 : Mem) (S T : List Nat) (hT : Touched c m m1 S)
    (hS : ∀ k ∈ S, k ∈ T ∨ m (k * c.FLASH_BLOCKSIZE) = FFS_B_UNUSED c) :
    ∀ x, x / c.FLASH_BLOCKSIZE ∉ T →
      m (x / c.FLASH_BLOCKSIZE * c.FLASH_BLOCKSIZE) ≠ FFS_B_UNUSED c → m1 x = m x := by
  intro x h1 h2
  apply hT
  intro hin
  rcases hS _ hin with h | h
  · exact h1 h
  · exact h2 h

/-- Creating a file when the table has a never-used slot. -/
theorem create_in_place (c : Cfg) (hc : c.ok) (m : Mem) (fs : FFS_FS_t) (F : FFS_FILE_t)
    (ft : List Nat) (filename : List Nat) (mode fuel : Nat)
    (used free : List FFS_FTE_INFO_t) (e : FFS_FTE_INFO_t)
    (hb : Bytes m) (hchain : FTChainWF c m (0 :: ft)) (hbound : ∀ k ∈ ft, k < c.BlockCount)
    (hes : tableEntries c m (0 :: ft) = used ++ e :: free)
    (hused : ∀ x ∈ used, x.FTE.startblock ≠ FFS_UNINIT16 c)
    (hfree : ∀ x ∈ e :: free, SlotErased c m x.fteAddr)
    (hfs : FsOK c m fs) (hno : ¬ HasFile c m (0 :: ft) filename)
    (hmode : mode = FFS_WR_REPLACE ∨ mode = FFS_WR_APPEND)
    (hname : (cstr filename).length < FFS_FILENAME_LEN) (hchars : ∀ x ∈ filename, x < 256)
    (hfuel1 : ft.length < fuel) (hfuel2 : c.BlockCount ≤ fuel) :
    CreatePost c m fs F ft filename (ffs_fopen c fuel m fs (some F) filename mode) := by
  have hB := hc.2.1
  obtain ⟨hok, htst⟩ := FTChainWF_ok c hc m _ hchain
  have hemem : e ∈ tableEntries c m (0 :: ft) := by rw [hes]; simp
  have heU : e.FTE.startblock = FFS_UNINIT16 c := by
    rw [← slot_self c m _ e hemem]
    exact erased_uninit16 c hc m _ (hfree e (List.mem_cons_self _ _))
  have hl := LookupFile_miss_slot c hc m ft filename fuel hok hfuel1 used free e hes hused heU hno
  obtain ⟨b, fs2, ea, q1, q2, q3⟩ := FindUnusedBlock_spec c hc m fs fuel hfs.2 hfuel2
  rw [fopen_create_unfold c fuel m fs F filename mode e hmode hl]
  rcases q3 with ⟨rfl, rfl, hnf⟩ | ⟨hb1, hbN, hbu, hcur⟩
  · rw [create_full_slot c fuel m fs2 fs2 F filename e heU ea]
    exact ⟨RES_FULL, m, fs2, F, ft, rfl, hb, ⟨hchain, hbound, used, e :: free, hes, hused, hfree⟩,
      hfs, rfl, fun _ _ _ => rfl, Or.inl ⟨rfl, hnf, rfl, rfl⟩⟩
  · obtain ⟨f1, f2⟩ := slot_filename c m _ e hb hemem
    obtain ⟨tb, htb, i, hi, hei⟩ := (mem_tableEntries c m _ e).mp hemem
    have haddr : e.fteAddr < 4294967296 := by
      rw [hei]; exact entry_addr_lt c hc ft hbound tb i htb hi
    rw [create_unfold c fuel m fs fs2 F filename e b heU ea (by omega) f1 hname haddr]
    obtain ⟨p1, p2, p3, p4, p5, p6, p7, p8⟩ := create_at_slot c hc m _ ft used free e b
      e.FTE.filename filename hb hchain hbound hes hused hfree hfs.1 hb1 hbN hbu f1 f2
      hname hchars rfl
    have hdiv : e.fteAddr / c.FLASH_BLOCKSIZE = tb := by
      have := slot_div c hc tb i 0 hi (by omega)
      rw [Nat.add_zero] at this
      rw [hei]; exact this
    refine ⟨RES_OK, _, fs2, _, ft, rfl, p1, p2, ⟨p3, by rw [hcur]; exact hbN⟩, q1, ?_,
      Or.inr ⟨rfl, b, _, hb1, hbN, hbu, rfl, p6, p5,
        ⟨rfl, rfl, rfl, [], _, rfl, Or.inr ⟨c.FLASH_BLOCKSIZE - 9, by omega,
          Nat.le_of_ble_eq_true rfl, p7⟩⟩, rfl,
        Or.inl ⟨used, e, free, hes, hused, heU, rfl, rfl, p4⟩⟩⟩
    apply frame_of_touched c m _ _ (0 :: ft) p8
    intro k hk
    simp only [List.mem_cons, List.mem_singleton, List.not_mem_nil, or_false] at hk
    rcases hk with hk | hk
    · left; rw [hk, hdiv]; exact htb
    · right; rw [hk]; exact hbu

/-- Creating a file when the table has no never-used slot: a new table block is
chained first. -/
theorem create_expanding (c : Cfg) (hc : c.ok) (m : Mem) (fs : FFS_FS_t) (F : FFS_FILE_t)
    (ft : List Nat) (filename : List Nat) (mode fuel : Nat)
    (hb : Bytes m) (hchain : FTChainWF c m (0 :: ft)) (hbound : ∀ k ∈ ft, k < c.BlockCount)
    (hfull : ∀ x ∈ tableEntries c m (0 :: ft), x.FTE.startblock ≠ FFS_UNINIT16 c)
    (hfs : FsOK c m fs) (hno : ¬ HasFile c m (0 :: ft) filename)
    (hmode : mode = FFS_WR_REPLACE ∨ mode = FFS_WR_APPEND)
    (hname : (cstr filename).length < FFS_FILENAME_LEN) (hchars : ∀ x ∈ filename, x < 256)
    (hfuel1 : ft.length < fuel) (hfuel2 : c.BlockCount ≤ fuel) :
    CreatePost c m fs F ft filename (ffs_fopen c fuel m fs (some F) filename mode) := by
  have hB := hc.2.1
  have hn := entries_pos c hc
  have hsf := status_facts c hc
  obtain ⟨hok, htst⟩ := FTChainWF_ok c hc m _ hchain
  have hl := LookupFile_miss_full c hc m ft filename fuel hok hfuel1 hfull hno
  generalize hlb : (0 :: ft).getLast (List.cons_ne_nil _ _) = lb at hl
  have hlbm : lb ∈ 0 :: ft := by rw [← hlb]; exact List.getLast_mem _
  have hemem : fteiAt c m lb (FFS_FTENTRIESPERBLOCK c - 1) ∈ tableEntries c m (0 :: ft) :=
    (mem_tableEntries c m _ _).mpr ⟨lb, hlbm, _, by omega, rfl⟩
  have heN := hfull _ hemem
  have hdiv : (fteiAt c m lb (FFS_FTENTRIESPERBLOCK c - 1)).fteAddr / c.FLASH_BLOCKSIZE = lb := by
    have := slot_div c hc lb (FFS_FTENTRIESPERBLOCK c - 1) 0 (by omega) (by omega)
    rw [Nat.add_zero] at this
    exact this
  obtain ⟨nb, fs1, ea, q1, q2, q3⟩ := FindUnusedBlock_spec c hc m fs fuel hfs.2 hfuel2
  rw [fopen_create_unfold c fuel m fs F filename mode _ hmode hl]
  rcases q3 with ⟨rfl, rfl, hnf⟩ | ⟨hnb1, hnbN, hnbu, hcur⟩
  · rw [create_full_expand c fuel m fs1 fs1 F filename _ heN ea]
    exact ⟨RES_FULL, m, fs1, F, ft, rfl, hb,
      ⟨hchain, hbound, tableEntries c m (0 :: ft), [], by simp, hfull, fun x hx => by simp at hx⟩,
      hfs, rfl, fun _ _ _ => rfl, Or.inl ⟨rfl, hnf, rfl, rfl⟩⟩
  · obtain ⟨x1, x2, x3, x4, x5, x6, x7, x8, x9⟩ := expand_step c hc m
      (flashSPAN_Write c (flashSPAN_Write c m (lb * c.FLASH_BLOCKSIZE)
        (encSBHDR (padByte c) (FFS_B_FT_JUMP c) nb)) (nb * c.FLASH_BLOCKSIZE) [FFS_B_FT_EOF c])
      ft nb hb hchain hbound hfull hfs.1 hnb1 hnbN hnbu (by rw [hlb])
    rw [hlb] at x8
    generalize hm2 : flashSPAN_Write c
      (flashSPAN_Write c m (lb * c.FLASH_BLOCKSIZE) (encSBHDR (padByte c) (FFS_B_FT_JUMP c) nb))
      (nb * c.FLASH_BLOCKSIZE) [FFS_B_FT_EOF c] = m2 at *
    have hm2' : flashSPAN_Write c
        (flashSPAN_Write c m ((fteiAt c m lb (FFS_FTENTRIESPERBLOCK c - 1)).fteAddr
          / c.FLASH_BLOCKSIZE * c.FLASH_BLOCKSIZE) (encSBHDR (padByte c) (FFS_B_FT_JUMP c) nb))
        (nb * c.FLASH_BLOCKSIZE) [FFS_B_FT_EOF c] = m2 := by
      rw [hdiv, ← hm2]
    have hfs2 : FsOK c m2 fs1 := ⟨x4, by rw [hcur]; exact hnbN⟩
    have hwf2 : TableWF c m2 (ft ++ [nb]) :=
      ⟨x2, x3, tableEntries c m (0 :: ft), _, x5, hfull, x6⟩
    have hT : Touched c m m2 [lb, nb] := x8
    have hframe2 := frame_of_touched c m m2 _ (0 :: ft) hT (fun k hk => by
      simp only [List.mem_cons, List.mem_singleton, List.not_mem_nil, or_false] at hk
      rcases hk with hk | hk
      · left; rw [hk]; exact hlbm
      · right; rw [hk]; exact hnbu)
    obtain ⟨b, fs2, eb, r1, r2, r3⟩ := FindUnusedBlock_spec c hc m2 fs1 fuel hfs2.2 hfuel2
    have hnbaddr : nb * c.FLASH_BLOCKSIZE + sizeof_SBHDR < 4294967296 := by
      have h1 : (nb + 1) * c.FLASH_BLOCKSIZE ≤ c.BlockCount * c.FLASH_BLOCKSIZE :=
        Nat.mul_le_mul_right _ (by omega)
      rw [Nat.add_mul, Nat.one_mul] at h1
      have h2 := hc.2.2.2.2
      have h3 := hc.2.1
      simp only [sizeof_SBHDR]
      omega
    rw [create_expand c fuel m fs fs1 fs2 F filename _ nb b heN ea (by omega)
      (by rw [hm2']; exact eb) (slot_filename c m _ _ hb hemem).1 hname hnbaddr, hm2']
    rcases r3 with ⟨hb0, hfe, hnf2⟩ | ⟨hb1, hbN, hbu2, hcur2⟩
    · rw [if_pos hb0, hfe]
      exact ⟨RES_FULL, m2, fs1, F, ft ++ [nb], rfl, x1, hwf2, hfs2, q1, hframe2,
        Or.inl ⟨rfl, hnf2, rfl, x7⟩⟩
    · rw [if_neg (by omega)]
      have hnb0 : m2 (nb * c.FLASH_BLOCKSIZE) = FFS_B_FT_EOF c := by
        have := (FTChainWF_ok c hc m2 _ x2).2
        have hl2 := FTChainWF_last c m2 nb (0 :: ft) (by simpa using x2)
        exact hl2.1
      have hbnb : b ≠ nb := by
        intro hcon
        rw [hcon, hnb0] at hbu2
        exact hsf.2.2.2.1 hbu2
      have hbu : m (b * c.FLASH_BLOCKSIZE) = FFS_B_UNUSED c := x9 b hbnb hbu2
      obtain ⟨f1, f2⟩ := slot_filename c m _ _ hb hemem
      obtain ⟨p1, p2, p3, p4, p5, p6, p7, p8⟩ := create_at_slot c hc m2 _ (ft ++ [nb])
        (tableEntries c m (0 :: ft)) _ (fteiAt c m2 nb 0) b
        (fteiAt c m lb (FFS_FTENTRIESPERBLOCK c - 1)).FTE.filename filename x1 x2 x3 x5 hfull x6
        x4 hb1 hbN hbu2 f1 f2 hname hchars rfl
      have hdiv2 : (fteiAt c m2 nb 0).fteAddr / c.FLASH_BLOCKSIZE = nb := by
        have := slot_div c hc nb 0 0 (by omega) (by omega)
        rw [Nat.add_zero] at this
        exact this
      rw [hdiv2] at p8
      refine ⟨RES_OK, _, fs2, _, ft ++ [nb], rfl, p1, p2, ⟨p3, by rw [hcur2]; exact hbN⟩,
        by rw [r1, q1], ?_,
        Or.inr ⟨rfl, b, _, hb1, hbN, hbu, rfl, p6, by rw [x7] at p5; exact p5,
          ⟨rfl, rfl, rfl, [], _, rfl, Or.inr ⟨c.FLASH_BLOCKSIZE - 9, by omega,
            Nat.le_of_ble_eq_true rfl, p7⟩⟩, rfl,
          Or.inr ⟨hfull, nb, _, rfl, hnb1, hnbN, hnbu, rfl, p4, ?_⟩⟩⟩
      · have hTT : Touched c m _ [lb, nb, b] :=
          Touched_trans c m m2 _ [lb, nb] [nb, b] _ hT p8 (by simp) (by simp)
        apply frame_of_touched c m _ _ (0 :: ft) hTT
        intro k hk
        simp only [List.mem_cons, List.mem_singleton, List.not_mem_nil, or_false] at hk
        rcases hk with hk | hk | hk
        · left; rw [hk]; exact hlbm
        · right; rw [hk]; exact hnbu
        · right; rw [hk]; exact hbu
      · intro x hx
        have hxm : x ∈ tableEntries c m2 [nb] := by
          obtain ⟨k, hk⟩ : ∃ k, FFS_FTENTRIESPERBLOCK c = k + 1 :=
            ⟨FFS_FTENTRIESPERBLOCK c - 1, by omega⟩
          rw [tableEntries_cons, tableEntries_nil, List.append_nil, hk, List.range'_succ,
            List.map_cons]
          rw [hk] at hx
          exact List.mem_cons_of_mem _ hx
        have := erased_uninit16 c hc m2 _ (x6 x (List.mem_cons_of_mem _ hx))
        rw [slot_self c m2 _ x hxm] at this
        exact this

/-- `ffs_fopen` in a write mode on a name without live entry, on a well-formed table. -/
theorem create_spec (c : Cfg) (hc : c.ok) (m : Mem) (fs : FFS_FS_t) (F : FFS_FILE_t)
    (ft : List Nat) (filename : List Nat) (mode fuel : Nat)
    (hb : Bytes m) (ht : TableWF c m ft) (hfs : FsOK c m fs)
    (hno : ¬ HasFile c m (0 :: ft) filename)
    (hmode : mode = FFS_WR_REPLACE ∨ mode = FFS_WR_APPEND)
    (hname : (cstr filename).length < FFS_FILENAME_LEN) (hchars : ∀ x ∈ filename, x < 256)
    (hfuel1 : ft.length < fuel) (hfuel2 : c.BlockCount ≤ fuel) :
    CreatePost c m fs F ft filename (ffs_fopen c fuel m fs (some F) filename mode) := by
  obtain ⟨hchain, hbound, used, free, hes, hused, hfree⟩ := ht
  cases free with
  | nil =>
    rw [List.append_nil] at hes
    exact create_expanding c hc m fs F ft filename mode fuel hb hchain hbound
      (by rw [hes]; exact hused) hfs hno hmode hname hchars hfuel1 hfuel2
  | cons e free =>
    exact create_in_place c hc m fs F ft filename mode fuel used free e hb hchain hbound hes
      hused hfree hfs hno hmode hname hchars hfuel1 hfuel2

/-- A chain of distinct blocks of the device has fewer blocks than the device. -/
theorem chain_length_lt (N : Nat) (L : List Nat) (hnd : L.Nodup) (hb : ∀ b ∈ L, b < N) :
    L.length ≤ N := by
  have hsub : L ⊆ List.range N := fun b hb2 => List.mem_range.mpr (hb b hb2)
  have := (hnd.subperm hsub).length_le
  simpa using this

theorem TableWF_length (c : Cfg) (hc : c.ok) (m : Mem) (ft : List Nat) (h : TableWF c m ft)
    (hN : 1 ≤ c.BlockCount) : ft.length < c.BlockCount := by
  have hnd := FTChainOK_nodup c m _ (FTChainWF_ok c hc m _ h.1).1
  have := chain_length_lt c.BlockCount (0 :: ft) hnd (fun b hb => by
    rcases List.mem_cons.mp hb with rfl | hb
    · omega
    · exact h.2.1 b hb)
  simp at this
  omega

theorem TableWF_det (c : Cfg) (hc : c.ok) (m : Mem) (ft ft2 : List Nat) (h : TableWF c m ft)
    (h2 : TableWF c m ft2) : ft = ft2 :=
  FTChainOK_det c m ft ft2 0 (FTChainWF_ok c hc m _ h.1).1 (FTChainWF_ok c hc m _ h2.1).1

/-- Replacing a used slot by a used slot keeps the slots well-formed, when the erased
slots stay erased. -/
theorem SlotsWF_update (c : Cfg) (hc : c.ok) (m m1 : Mem) (pre post : List FFS_FTE_INFO_t)
    (e e1 : FFS_FTE_INFO_t) (h : SlotsWF c m (pre ++ e :: post))
    (hpre : ∀ x ∈ pre, x.FTE.startblock ≠ FFS_UNINIT16 c)
    (he1 : e1.FTE.startblock ≠ FFS_UNINIT16 c)
    (hkeep : ∀ x ∈ post, SlotErased c m x.fteAddr → SlotErased c m1 x.fteAddr)
    (hself : ∀ x ∈ pre ++ e :: post, slotAt m x.fteAddr = x)
    (he : e.FTE.startblock ≠ FFS_UNINIT16 c) :
    SlotsWF c m1 (pre ++ e1 :: post) := by
  obtain ⟨used, free, hes, hused, hfree⟩ := h
  have hfreeU : ∀ x ∈ free, x.FTE.startblock = FFS_UNINIT16 c := by
    intro x hx
    have := erased_uninit16 c hc m _ (hfree x hx)
    rw [hself x (by rw [hes]; simp [hx])] at this
    exact this
  rcases List.append_eq_append_iff.mp hes with ⟨a, h1, h2⟩ | ⟨a, h1, h2⟩
  · -- used = pre ++ a, e :: post = a ++ free
    cases a with
    | nil =>
      simp only [List.nil_append] at h2
      exact absurd (hfreeU e (by rw [← h2]; simp)) he
    | cons a0 a =>
      simp only [List.cons_append, List.cons.injEq] at h2
      obtain ⟨rfl, h2⟩ := h2
      refine ⟨pre ++ e1 :: a, free, by rw [h2]; simp, ?_, ?_⟩
      · intro x hx
        rcases List.mem_append.mp hx with hx | hx
        · exact hpre x hx
        · rcases List.mem_cons.mp hx with rfl | hx
          · exact he1
          · exact hused x (by rw [h1]; simp [hx])
      · intro x hx
        exact hkeep x (by rw [h2]; simp [hx]) (hfree x hx)
  · -- pre = used ++ a, free = a ++ e :: post
    exact absurd (hfreeU e (by rw [h2]; simp)) he

/-- A cleanly closed chain stays so when the device does not change in its blocks. -/
theorem ClosedOK_congr (c : Cfg) (hc : c.ok) (m m1 : Mem) (bs : List Blk)
    (hag : ∀ b ∈ bs, AgreeOn m m1 (b.idx * c.FLASH_BLOCKSIZE)
      (b.idx * c.FLASH_BLOCKSIZE + c.FLASH_BLOCKSIZE))
    (h : ClosedOK c m bs) : ClosedOK c m1 bs := by
  obtain ⟨hch, pre, t, hbs, htail⟩ := h
  refine ⟨?_, pre, t, hbs, ?_⟩
  · rw [ChainOK_iff_seg] at *
    exact ChainSeg_congr c hc m m1 none bs 0 hag hch
  · rcases htail with h1 | h1
    · exact Or.inl h1
    · right
      intro x hx1 hx2
      have hge := chunksEnd_ge (t.idx * c.FLASH_BLOCKSIZE + 8) t.chunks
      rw [hag t (by rw [hbs]; simp) x (by omega) hx2]
      exact h1 x hx1 hx2

/-- An address in another block lies outside every entry slot of a block. -/
theorem block_outside_slot (c : Cfg) (hc : c.ok) (tb i k o : Nat)
    (hi : i < FFS_FTENTRIESPERBLOCK c) (ho : o < c.FLASH_BLOCKSIZE) (hk : k ≠ tb) :
    k * c.FLASH_BLOCKSIZE + o < FFS_ENTRYADDR c tb i ∨
      FFS_ENTRYADDR c tb i + 16 ≤ k * c.FLASH_BLOCKSIZE + o := by
  obtain ⟨r1, r2⟩ := slot_range c hc tb i hi
  rcases Nat.lt_trichotomy k tb with h | h | h
  · have : (k + 1) * c.FLASH_BLOCKSIZE ≤ tb * c.FLASH_BLOCKSIZE := Nat.mul_le_mul_right _ h
    rw [Nat.add_mul, Nat.one_mul] at this
    omega
  · exact absurd h hk
  · have : (tb + 1) * c.FLASH_BLOCKSIZE ≤ k * c.FLASH_BLOCKSIZE := Nat.mul_le_mul_right _ h
    rw [Nat.add_mul, Nat.one_mul] at this
    omega

/-- The effect of `ffs_remove` of an existing file on a well-formed filesystem. -/
theorem remove_effect (c : Cfg) (hc : c.ok) (m : Mem) (ft : List Nat) (filename : List Nat)
    (bs : List Blk) (fuel : Nat) (hb : Bytes m) (ht : TableWF c m ft) (hfo : FreeOK c m)
    (h : FileOK c m ft filename bs) (hnames : NamesNodup c m ft)
    (hfuel1 : ft.length < fuel) (hfuel2 : bs.length ≤ fuel) :
    ∃ m1 lp e lq, ffs_remove c fuel m filename = some (RES_OK, m1) ∧
      Bytes m1 ∧ TableWF c m1 ft ∧ FreeOK c m1 ∧
      liveEntries c m (0 :: ft) = lp ++ e :: lq ∧ cstr filename = cstr e.FTE.filename ∧
      nextIdx bs = some e.FTE.startblock ∧ liveEntries c m1 (0 :: ft) = lp ++ lq ∧
      (slotAt m1 e.fteAddr).FTE.startblock = FFS_NULL16 c ∧
      (∀ b ∈ bs, ∀ o, o < c.FLASH_BLOCKSIZE → m1 (b.idx * c.FLASH_BLOCKSIZE + o) = FFS_UNINIT8 c) ∧
      ¬ HasFile c m1 (0 :: ft) filename ∧
      garbageOf c (tableEntries c m1 (0 :: ft)) = garbageOf c (tableEntries c m (0 :: ft)) + 1 ∧
      (∀ name2 bs2, FileOK c m ft name2 bs2 → cstr name2 ≠ cstr filename →
        (∀ b ∈ bs2, b.idx ∉ bs.map Blk.idx) → FileOK c m1 ft name2 bs2) := by
  have hB := hc.2.1
  obtain ⟨m1, pre, e, post, r1, r2, r3, r4, r5, r6, r7, r8, r9, r10, r11, r12⟩ :=
    remove_spec c hc m ft filename bs fuel hb h hfuel1 hfuel2
  have htab := TableWF_ok c hc m ft ht
  have hnd := FTChainOK_nodup c m _ htab.1
  have hemem : e ∈ tableEntries c m (0 :: ft) := by rw [r2]; simp
  obtain ⟨tb, htb, i, hi, hei⟩ := (mem_tableEntries c m _ e).mp hemem
  have haddr : e.fteAddr = FFS_ENTRYADDR c tb i := by rw [hei]; rfl
  have hdis := table_chain_disjoint c hc m ft bs 0 htab h.2.2.2.1
  have hlive : liveEntries c m (0 :: ft) = liveOf c pre ++ e :: liveOf c post := by
    unfold liveEntries
    rw [r2, liveOf_at_live c hc pre post e r3 r4 r5]
  have hlive1 : liveEntries c m1 (0 :: ft) = liveOf c pre ++ liveOf c post := by
    unfold liveEntries
    rw [r8, liveOf_at_tomb c hc pre post _ r3 rfl]
  have hframeT : ∀ k ∈ 0 :: ft, ∀ o, o < c.FLASH_BLOCKSIZE →
      (k * c.FLASH_BLOCKSIZE + o < e.fteAddr ∨ e.fteAddr + 2 ≤ k * c.FLASH_BLOCKSIZE + o) →
      m1 (k * c.FLASH_BLOCKSIZE + o) = m (k * c.FLASH_BLOCKSIZE + o) := by
    intro k hk o ho hout
    apply r12 _ _ hout
    rw [div_block _ _ _ ho]
    exact hdis k hk
  have hhdr : ∀ k ∈ 0 :: ft, ∀ o, o < 4 →
      m1 (k * c.FLASH_BLOCKSIZE + o) = m (k * c.FLASH_BLOCKSIZE + o) := by
    intro k hk o ho
    apply hframeT k hk o (by omega)
    have := header_outside_slot c hc tb i k o hi ho
    rw [haddr]; omega
  have hndA := tableEntries_addr_nodup c hc m (0 :: ft) hnd
  rw [r2, List.map_append, List.map_cons] at hndA
  have hndB := List.nodup_middle.mp hndA
  rw [List.nodup_cons, List.mem_append] at hndB
  have hwf : TableWF c m1 ft := by
    refine ⟨FTChainWF_congr c m m1 _ hhdr ht.1, ht.2.1, ?_⟩
    rw [r8]
    apply SlotsWF_update c hc m m1 pre post e _ (by rw [← r2]; exact ht.2.2) r3
      (by show FFS_NULL16 c ≠ _; exact null16_ne_uninit16 c hc) _
      (fun x hx => slot_self c m _ x (by rw [r2]; exact hx)) r4
    intro x hx her o ho
    have hxm : x ∈ tableEntries c m (0 :: ft) := by rw [r2]; simp [hx]
    have hne : x.fteAddr ≠ e.fteAddr := fun hcon =>
      hndB.1 (Or.inr (List.mem_map.mpr ⟨x, hx, hcon⟩))
    have ho16 : o < 16 := by simpa [sizeof_FTE, FFS_FILENAME_LEN] using ho
    obtain ⟨kb, hkb, j, hj, hxj⟩ := (mem_tableEntries c m _ x).mp hxm
    have hxa : x.fteAddr = FFS_ENTRYADDR c kb j := by rw [hxj]; rfl
    obtain ⟨s1, s2⟩ := slot_range c hc kb j hj
    have hd := slots_disjoint c hc m _ x e hxm hemem hne
    have := hframeT kb hkb (x.fteAddr + o - kb * c.FLASH_BLOCKSIZE) (by omega)
      (by rw [show kb * c.FLASH_BLOCKSIZE + (x.fteAddr + o - kb * c.FLASH_BLOCKSIZE)
            = x.fteAddr + o by omega]; omega)
    rw [show kb * c.FLASH_BLOCKSIZE + (x.fteAddr + o - kb * c.FLASH_BLOCKSIZE)
      = x.fteAddr + o by omega] at this
    rw [this]
    exact her o ho
  have hfo1 : FreeOK c m1 := by
    intro k hkN hk o ho
    by_cases hkc : k ∈ bs.map Blk.idx
    · obtain ⟨b, hb2, rfl⟩ := List.mem_map.mp hkc
      exact r9 b hb2 o ho
    · have hktb : k ≠ tb := by
        intro hcon
        have h0 := hhdr tb htb 0 (by omega)
        rw [Nat.add_zero] at h0
        rw [hcon, h0] at hk
        have := htab.2 tb htb
        rw [hk, (tst_ft_facts c hc).2.2.1] at this
        exact absurd this (by decide)
      have hag : ∀ o, o < c.FLASH_BLOCKSIZE →
          m1 (k * c.FLASH_BLOCKSIZE + o) = m (k * c.FLASH_BLOCKSIZE + o) := by
        intro o ho
        apply r12
        · rw [div_block _ _ _ ho]; exact hkc
        · have := block_outside_slot c hc tb i k o hi ho hktb
          rw [haddr]; omega
      have h0 := hag 0 (by omega)
      rw [Nat.add_zero] at h0
      rw [h0] at hk
      rw [hag o ho]
      exact hfo k hkN hk o ho
  have hnn : ¬ HasFile c m1 (0 :: ft) filename := by
    rintro ⟨x, hx, hm⟩
    rw [hlive1] at hx
    unfold NamesNodup at hnames
    rw [hlive, List.map_append, List.map_cons] at hnames
    have := List.nodup_middle.mp hnames
    rw [List.nodup_cons, ← List.map_append] at this
    apply this.1
    rw [List.mem_map]
    exact ⟨x, hx, by rw [← hm, r6]⟩
  refine ⟨m1, liveOf c pre, e, liveOf c post, r1, r11, hwf, hfo1, hlive, r6, r7, hlive1, ?_, r9,
    hnn, ?_, ?_⟩
  · have hmem : ∀ t : FFS_FTE_INFO_t, tableEntries c m1 (0 :: ft) = pre ++ t :: post →
        slotAt m1 t.fteAddr = t := fun t ht2 => slot_self c m1 _ t (by rw [ht2]; simp)
    have := hmem _ r8
    simp only [] at this
    rw [this]
  · rw [r8, r2]
    exact garbageOf_tomb c hc pre post e _ r3 r4 r5 rfl
  · intro name2 bs2 hf2 hne hdis2
    obtain ⟨_, hhas2, huniq2, hcl2⟩ := hf2
    have hdisT := table_chain_disjoint c hc m ft bs2 0 htab hcl2.1
    refine ⟨r10, ?_, ?_, ?_⟩
    · obtain ⟨x, hx, hm⟩ := hhas2
      refine ⟨x, ?_, hm⟩
      rw [hlive] at hx
      rw [hlive1]
      rcases List.mem_append.mp hx with hx | hx
      · exact List.mem_append_left _ hx
      · rcases List.mem_cons.mp hx with rfl | hx
        · exact absurd (by rw [hm, ← r6]) hne
        · exact List.mem_append_right _ hx
    · intro x hx hm
      apply huniq2 x _ hm
      rw [hlive]
      rw [hlive1] at hx
      rcases List.mem_append.mp hx with hx | hx
      · exact List.mem_append_left _ hx
      · exact List.mem_append_right _ (List.mem_cons_of_mem _ hx)
    · apply ClosedOK_congr c hc m m1 bs2 _ hcl2
      intro b hb2 x hx1 hx2
      have hktb : b.idx ≠ tb := fun hcon => hdisT tb htb (List.mem_map.mpr ⟨b, hb2, hcon⟩)
      have e1 : x = b.idx * c.FLASH_BLOCKSIZE + (x - b.idx * c.FLASH_BLOCKSIZE) := by omega
      rw [e1]
      apply r12
      · rw [div_block _ _ _ (by omega)]; exact hdis2 b hb2
      · have := block_outside_slot c hc tb i b.idx (x - b.idx * c.FLASH_BLOCKSIZE) hi (by omega) hktb
        rw [haddr]; omega

/-- Creating a file with another name keeps the filesystem well-formed and does not
bring a name back into the table. -/
theorem creates_other_step (c : Cfg) (hc : c.ok) (fuel : Nat) (filename : List Nat)
    (hfuel : c.BlockCount ≤ fuel) (s s1 : Mem × FFS_FS_t)
    (hstep : CreatesOther c fuel filename s s1)
    (hinv : ∃ ft, Bytes s.1 ∧ TableWF c s.1 ft ∧ FsOK c s.1 s.2 ∧
      ¬ HasFile c s.1 (0 :: ft) filename) :
    ∃ ft1, Bytes s1.1 ∧ TableWF c s1.1 ft1 ∧ FsOK c s1.1 s1.2 ∧
      ¬ HasFile c s1.1 (0 :: ft1) filename := by
  obtain ⟨ft, hb, ht, hfs, hno⟩ := hinv
  obtain ⟨name2, mode, F, r, F1, ft2, ht2, hno2, hne, hfit, hch, hmode, hres⟩ := hstep
  have hft := TableWF_det c hc s.1 ft2 ft ht2 ht
  subst hft
  have hlen := TableWF_length c hc s.1 ft2 ht (by have := hfs.2; omega)
  obtain ⟨r', m1, fs1, F1', ft1, h1, h2, h3, h4, _, _, h7⟩ :=
    create_spec c hc s.1 s.2 F ft2 name2 mode fuel hb ht hfs hno2 hmode.symm hfit hch
      (by omega) hfuel
  rw [hres] at h1
  simp only [Option.some.injEq, Prod.mk.injEq] at h1
  obtain ⟨_, hm, hf, _⟩ := h1
  rw [hm, hf]
  refine ⟨ft1, h2, h3, h4, ?_⟩
  rintro ⟨x, hx, hmx⟩
  rcases h7 with ⟨_, _, _, hl⟩ | ⟨_, b, e1, _, _, _, _, hn1, hl, _⟩
  · rw [hl] at hx
    exact hno ⟨x, hx, hmx⟩
  · rw [hl] at hx
    rcases List.mem_append.mp hx with hx | hx
    · exact hno ⟨x, hx, hmx⟩
    · simp only [List.mem_singleton] at hx
      rw [hx, hn1] at hmx
      exact hne hmx.symm

theorem creates_other_inv (c : Cfg) (hc : c.ok) (fuel : Nat) (filename : List Nat)
    (hfuel : c.BlockCount ≤ fuel) (s s1 : Mem × FFS_FS_t)
    (hsteps : Relation.ReflTransGen (CreatesOther c fuel filename) s s1)
    (hinv : ∃ ft, Bytes s.1 ∧ TableWF c s.1 ft ∧ FsOK c s.1 s.2 ∧
      ¬ HasFile c s.1 (0 :: ft) filename) :
    ∃ ft1, Bytes s1.1 ∧ TableWF c s1.1 ft1 ∧ FsOK c s1.1 s1.2 ∧
      ¬ HasFile c s1.1 (0 :: ft1) filename := by
  induction hsteps with
  | refl => exact hinv
  | tail _ hstep ih => exact creates_other_step c hc fuel filename hfuel _ _ hstep ih

/-- A removed name is not found, also after files with other names have been
created. -/
theorem removed_notfound (c : Cfg) (hc : c.ok) (fuel : Nat) (filename : List Nat)
    (hfuel : c.BlockCount ≤ fuel) (s s1 : Mem × FFS_FS_t)
    (hsteps : Relation.ReflTransGen (CreatesOther c fuel filename) s s1)
    (hinv : ∃ ft, Bytes s.1 ∧ TableWF c s.1 ft ∧ FsOK c s.1 s.2 ∧
      ¬ HasFile c s.1 (0 :: ft) filename) (F : FFS_FILE_t) :
    ffs_fopen c fuel s1.1 s1.2 (some F) filename FFS_RD = some (RES_NOTFOUND, s1.1, s1.2, some F) := by
  obtain ⟨ft1, _, ht, hfs, hno⟩ := creates_other_inv c hc fuel filename hfuel s s1 hsteps hinv
  have hlen := TableWF_length c hc s1.1 ft1 ht (by have := hfs.2; omega)
  exact (fopen_read_spec c hc s1.1 s1.2 F ft1 filename fuel (TableWF_ok c hc _ _ ht).1
    (by omega)).1 hno

theorem gather_full (c : Cfg) (fuel : Nat) (m : Mem) (ob oe st j : Nat) (buf : List FFS_FTE_t)
    (h : ¬ buf.length < FFS_FTENTRIESPERBLOCK c) :
    ffs_cleanupFT_gather c (fuel + 1) m ob oe st j buf = some (m, ob, oe, st, j, buf) := by
  rw [ffs_cleanupFT_gather, if_neg h]

theorem gather_uninit (c : Cfg) (hc : c.ok) (fuel : Nat) (m : Mem) (ob oe st j : Nat)
    (buf : List FFS_FTE_t) (h : buf.length < FFS_FTENTRIESPERBLOCK c)
    (hu : (fteiAt c m ob oe).FTE.startblock = FFS_UNINIT16 c) :
    ffs_cleanupFT_gather c (fuel + 1) m ob oe st j buf
      = some (flashSPAN_EraseBlock c m ob, ob, FFS_FTENTRIESPERBLOCK c, st, j, buf) := by
  have hne := null16_ne_uninit16 c hc
  have hu2 : (readFTE m (FFS_ENTRYADDR c ob oe)).startblock = FFS_UNINIT16 c := hu
  rw [ffs_cleanupFT_gather, if_pos h]
  simp only [hu2, hne.symm, if_false, if_true]

theorem gather_adv (c : Cfg) (fuel : Nat) (m : Mem) (ob oe st j : Nat)
    (buf : List FFS_FTE_t) (h : buf.length < FFS_FTENTRIESPERBLOCK c)
    (hu : (fteiAt c m ob oe).FTE.startblock ≠ FFS_UNINIT16 c) :
    ffs_cleanupFT_gather c (fuel + 1) m ob oe st j buf
      = if oe + 1 = FFS_FTENTRIESPERBLOCK c then
          (if st = FFS_B_FT_JUMP c then
            ffs_cleanupFT_gather c fuel (flashSPAN_EraseBlock c m ob) j 0
              (flashSPAN_EraseBlock c m ob (j * c.FLASH_BLOCKSIZE))
              (rd16 (flashSPAN_EraseBlock c m ob) (j * c.FLASH_BLOCKSIZE + offsetof_jump))
              (if (fteiAt c m ob oe).FTE.startblock = FFS_NULL16 c then buf
               else buf ++ [(fteiAt c m ob oe).FTE])
           else some (flashSPAN_EraseBlock c m ob, ob, FFS_FTENTRIESPERBLOCK c, st, j,
              if (fteiAt c m ob oe).FTE.startblock = FFS_NULL16 c then buf
              else buf ++ [(fteiAt c m ob oe).FTE]))
        else ffs_cleanupFT_gather c fuel m ob (oe + 1) st j
          (if (fteiAt c m ob oe).FTE.startblock = FFS_NULL16 c then buf
           else buf ++ [(fteiAt c m ob oe).FTE]) := by
  have hu2 : (readFTE m (FFS_ENTRYADDR c ob oe)).startblock ≠ FFS_UNINIT16 c := hu
  have e : (fteiAt c m ob oe).FTE = readFTE m (FFS_ENTRYADDR c ob oe) := rfl
  rw [ffs_cleanupFT_gather, if_pos h, e]
  by_cases h1 : (readFTE m (FFS_ENTRYADDR c ob oe)).startblock = FFS_NULL16 c
  · simp only [h1, if_true]
  · simp only [h1, hu2, if_false]

theorem remSlots_cons (c : Cfg) (m : Mem) (ob oe : Nat) (rest : List Nat)
    (h : oe < FFS_FTENTRIESPERBLOCK c) :
    remSlots c m ob oe rest = fteiAt c m ob oe :: remSlots c m ob (oe + 1) rest := by
  unfold remSlots
  obtain ⟨k, hk⟩ : ∃ k, FFS_FTENTRIESPERBLOCK c - oe = k + 1 :=
    ⟨FFS_FTENTRIESPERBLOCK c - oe - 1, by omega⟩
  rw [hk, List.range'_succ, List.map_cons, show FFS_FTENTRIESPERBLOCK c - (oe + 1) = k by omega]
  rfl

theorem remSlots_end (c : Cfg) (m : Mem) (ob : Nat) (rest : List Nat) :
    remSlots c m ob (FFS_FTENTRIESPERBLOCK c) rest = tableEntries c m rest := by
  unfold remSlots
  rw [Nat.sub_self]
  rfl

theorem remSlots_zero (c : Cfg) (m : Mem) (ob : Nat) (rest : List Nat) :
    remSlots c m ob 0 rest = tableEntries c m (ob :: rest) := by
  unfold remSlots
  rw [tableEntries_cons, Nat.sub_zero]

/-- The slots still to be read do not change when the old blocks they lie in do not
change. -/
theorem remSlots_congr (c : Cfg) (hc : c.ok) (m m1 : Mem) (ob oe : Nat) (rest : List Nat)
    (h : ∀ b ∈ ob :: rest, ∀ o, o < c.FLASH_BLOCKSIZE →
      m1 (b * c.FLASH_BLOCKSIZE + o) = m (b * c.FLASH_BLOCKSIZE + o)) :
    remSlots c m1 ob oe rest = remSlots c m ob oe rest := by
  unfold remSlots
  congr 1
  · apply List.map_congr_left
    intro i hi
    rw [List.mem_range'_1] at hi
    obtain ⟨r1, r2⟩ := slot_range c hc ob i (by omega)
    rw [fteiAt_slotAt, fteiAt_slotAt]
    apply slotAt_congr
    intro o ho
    have := h ob (List.mem_cons_self _ _) (FFS_ENTRYADDR c ob i + o - ob * c.FLASH_BLOCKSIZE)
      (by omega)
    rw [show ob * c.FLASH_BLOCKSIZE + (FFS_ENTRYADDR c ob i + o - ob * c.FLASH_BLOCKSIZE)
      = FFS_ENTRYADDR c ob i + o by omega] at this
    exact this
  · exact tableEntries_keep c hc m m1 rest
      (fun b hb o _ ho => h b (List.mem_cons_of_mem _ hb) o ho)

/-- Bookkeeping of one slot read by the gathering loop: a tombstone leaves buffer and
live entries as they are, a live entry moves from the live entries into the buffer. -/
theorem live_step (n : Nat) (buf buf1 : List FFS_FTE_t) (L L1 : List FFS_FTE_INFO_t)
    (x : FFS_FTE_INFO_t)
    (h : (buf1 = buf ∧ L = L1) ∨ (buf1 = buf ++ [x.FTE] ∧ L = x :: L1)) (hlt : buf.length < n) :
    buf1 ++ (L1.map (fun e => e.FTE)).take (n - buf1.length)
      = buf ++ (L.map (fun e => e.FTE)).take (n - buf.length) ∧
    (L1.length ≤ n - buf1.length → L.length ≤ n - buf.length) ∧
    (n - buf1.length ≤ L1.length → n - buf.length ≤ L.length) ∧
    L1.drop (n - buf1.length) = L.drop (n - buf.length) ∧
    buf1.length ≤ buf.length + 1 ∧ buf1.length ≤ n := by
  rcases h with ⟨rfl, rfl⟩ | ⟨rfl, rfl⟩
  · exact ⟨rfl, fun h => h, fun h => h, rfl, by omega, by omega⟩
  · obtain ⟨k, hk⟩ : ∃ k, n - buf.length = k + 1 := ⟨n - buf.length - 1, by omega⟩
    have hk2 : n - (buf ++ [x.FTE]).length = k := by simp; omega
    rw [hk2, hk]
    refine ⟨by simp, ?_, ?_, by simp, by simp, by simp; omega⟩
    · intro h; simp; omega
    · intro h; simp; omega

theorem KeptOrErased_refl (c : Cfg) (m : Mem) (b : Nat) : KeptOrErased c m m b :=
  Or.inl (fun _ _ => rfl)

/-- The outcome of the gathering loop, moved one slot back inside the same old block. -/
theorem GatherPost_slot (c : Cfg) (m : Mem) (ob oe : Nat) (rest : List Nat)
    (buf buf1 : List FFS_FTE_t) (res : Option (Mem × Nat × Nat × Nat × Nat × List FFS_FTE_t))
    (hoe : oe < FFS_FTENTRIESPERBLOCK c) (hlt : buf.length < FFS_FTENTRIESPERBLOCK c)
    (h : (buf1 = buf ∧ liveOf c (remSlots c m ob oe rest) = liveOf c (remSlots c m ob (oe + 1) rest)) ∨
      (buf1 = buf ++ [(fteiAt c m ob oe).FTE] ∧
        liveOf c (remSlots c m ob oe rest)
          = fteiAt c m ob oe :: liveOf c (remSlots c m ob (oe + 1) rest)))
    (hp : GatherPost c m ob (oe + 1) rest buf1 res) : GatherPost c m ob oe rest buf res := by
  obtain ⟨m1, ob1, oe1, st1, j1, b1, e1, e2, e3, e4, e5, e6⟩ := hp
  obtain ⟨l1, l2, l3, l4, l5, l6⟩ := live_step (FFS_FTENTRIESPERBLOCK c) buf buf1 _ _
    (fteiAt c m ob oe) h hlt
  refine ⟨m1, ob1, oe1, st1, j1, b1, e1, by rw [e2, l1], e3, e4, fun hle => e5 (by omega), ?_⟩
  rcases e6 with ⟨d1, d2⟩ | ⟨d1, d2, pre, rest1, d3, d4, d5, d6, d7, d8⟩
  · exact Or.inl ⟨d1, l2 d2⟩
  · exact Or.inr ⟨d1, l3 d2, pre, rest1, d3, fun hle => d4 (by omega), d5, d6, d7, by rw [d8, l4]⟩

theorem Erase_outside (c : Cfg) (hc : c.ok) (m : Mem) (k b o : Nat) (hb : b ≠ k)
    (ho : o < c.FLASH_BLOCKSIZE) :
    flashSPAN_EraseBlock c m k (b * c.FLASH_BLOCKSIZE + o) = m (b * c.FLASH_BLOCKSIZE + o) := by
  have hB := hc.2.1
  apply Erase_touched c m k (by omega)
  rw [div_block _ _ _ ho]
  simpa using hb

/-- The outcome of the gathering loop, moved back over the end of an old block that is
erased and left for the next old block. -/
theorem GatherPost_jump (c : Cfg) (hc : c.ok) (m : Mem) (ob oe ob2 : Nat) (rest2 : List Nat)
    (buf buf1 : List FFS_FTE_t) (res : Option (Mem × Nat × Nat × Nat × Nat × List FFS_FTE_t))
    (hoe : oe + 1 = FFS_FTENTRIESPERBLOCK c) (hlt : buf.length < FFS_FTENTRIESPERBLOCK c)
    (hnd : (ob :: ob2 :: rest2).Nodup)
    (h : (buf1 = buf ∧ liveOf c (remSlots c m ob oe (ob2 :: rest2))
          = liveOf c (tableEntries c m (ob2 :: rest2))) ∨
      (buf1 = buf ++ [(fteiAt c m ob oe).FTE] ∧
        liveOf c (remSlots c m ob oe (ob2 :: rest2))
          = fteiAt c m ob oe :: liveOf c (tableEntries c m (ob2 :: rest2))))
    (hp : GatherPost c (flashSPAN_EraseBlock c m ob) ob2 0 rest2 buf1 res) :
    GatherPost c m ob oe (ob2 :: rest2) buf res := by
  have hB := hc.2.1
  obtain ⟨m1, ob1, oe1, st1, j1, b1, e1, e2, e3, e4, e5, e6⟩ := hp
  have hnot : ∀ b ∈ ob2 :: rest2, b ≠ ob := by
    intro b hb hcon
    rw [List.nodup_cons] at hnd
    exact hnd.1 (hcon ▸ hb)
  have hkeep : ∀ b ∈ ob2 :: rest2, ∀ o, o < c.FLASH_BLOCKSIZE →
      flashSPAN_EraseBlock c m ob (b * c.FLASH_BLOCKSIZE + o) = m (b * c.FLASH_BLOCKSIZE + o) :=
    fun b hb o ho => Erase_outside c hc m ob b o (hnot b hb) ho
  have hrem : remSlots c (flashSPAN_EraseBlock c m ob) ob2 0 rest2
      = tableEntries c m (ob2 :: rest2) := by
    rw [remSlots_congr c hc m _ ob2 0 rest2 hkeep, remSlots_zero]
  rw [hrem] at e2 e6
  obtain ⟨l1, l2, l3, l4, l5, l6⟩ := live_step (FFS_FTENTRIESPERBLOCK c) buf buf1 _ _
    (fteiAt c m ob oe) h hlt
  have hT : Touched c m m1 (ob :: ob2 :: rest2) :=
    Touched_trans c m _ m1 [ob] (ob2 :: rest2) _ (Erase_touched c m ob (by omega)) e3
      (by simp) (fun k hk => List.mem_cons_of_mem _ hk)
  have herased : ∀ o, o < c.FLASH_BLOCKSIZE → m1 (ob * c.FLASH_BLOCKSIZE + o) = FFS_UNINIT8 c := by
    intro o ho
    rw [e3 _ (by
      rw [div_block _ _ _ ho]
      intro hin
      exact hnot ob hin rfl)]
    exact Erase_inside c m ob o ho
  refine ⟨m1, ob1, oe1, st1, j1, b1, e1, by rw [e2, l1], hT, ?_, fun _ => herased, ?_⟩
  · intro b hb
    rcases List.mem_cons.mp hb with rfl | hb
    · exact Or.inr herased
    · rcases e4 b hb with hk | hk
      · exact Or.inl (fun o ho => by rw [hk o ho, hkeep b hb o ho])
      · exact Or.inr hk
  · rcases e6 with ⟨d1, d2⟩ | ⟨d1, d2, pre, rest1, d3, d4, d5, d6, d7, d8⟩
    · exact Or.inl ⟨d1, l2 d2⟩
    · have hsub : ∀ b ∈ ob1 :: rest1, b ∈ ob2 :: rest2 := by
        intro b hb
        rw [d3]
        exact List.mem_append_right _ hb
      refine Or.inr ⟨d1, l3 d2, ob :: pre, rest1, by rw [d3]; rfl, fun _ => by simp, d5, d6, ?_, ?_⟩
      · intro b hb o ho
        rw [d7 b hb o ho, hkeep b (hsub b hb) o ho]
      · rw [← remSlots_congr c hc m (flashSPAN_EraseBlock c m ob) ob1 oe1 rest1
          (fun b hb o ho => hkeep b (hsub b hb) o ho), d8, l4]

/-- The gathering loop of `ffs_cleanupFT` on a chain of old table blocks. -/
theorem gather_spec (c : Cfg) (hc : c.ok) :
    ∀ (fuel : Nat) (m : Mem) (ob oe : Nat) (rest : List Nat) (buf : List FFS_FTE_t),
      FTChainOK c m (ob :: rest) → (ob :: rest).Nodup → oe < FFS_FTENTRIESPERBLOCK c →
      buf.length ≤ FFS_FTENTRIESPERBLOCK c →
      FFS_FTENTRIESPERBLOCK c - oe + FFS_FTENTRIESPERBLOCK c * rest.length < fuel →
      GatherPost c m ob oe rest buf
        (ffs_cleanupFT_gather c fuel m ob oe (m (ob * c.FLASH_BLOCKSIZE))
          (rd16 m (ob * c.FLASH_BLOCKSIZE + offsetof_jump)) buf) := by
  have hB := hc.2.1
  have hne := null16_ne_uninit16 c hc
  intro fuel
  induction fuel with
  | zero => intro m ob oe rest buf _ _ _ _ hf; omega
  | succ fuel ih =>
    intro m ob oe rest buf hch hnd hoe hbuf hfuel
    by_cases hlt : buf.length < FFS_FTENTRIESPERBLOCK c
    · have hR := remSlots_cons c m ob oe rest hoe
      by_cases hu : (fteiAt c m ob oe).FTE.startblock = FFS_UNINIT16 c
      · rw [gather_uninit c hc fuel m ob oe _ _ buf hlt hu]
        have hl : liveOf c (remSlots c m ob oe rest) = [] := by
          rw [hR, liveOf_cons c hc, if_neg (by rw [hu]; exact hne.symm), if_pos hu]
        refine ⟨_, _, _, _, _, _, rfl, by rw [hl]; simp,
          Touched_mono c m _ [ob] _ (Erase_touched c m ob (by omega)) (by simp), ?_,
          fun _ o ho => Erase_inside c m ob o ho, Or.inl ⟨rfl, by rw [hl]; simp⟩⟩
        intro b hb
        by_cases hbo : b = ob
        · rw [hbo]; exact Or.inr (fun o ho => Erase_inside c m ob o ho)
        · exact Or.inl (fun o ho => Erase_outside c hc m ob b o hbo ho)
      · rw [gather_adv c fuel m ob oe _ _ buf hlt hu]
        have hlive : ∀ R1, remSlots c m ob (oe + 1) rest = R1 →
            ((if (fteiAt c m ob oe).FTE.startblock = FFS_NULL16 c then buf
                else buf ++ [(fteiAt c m ob oe).FTE]) = buf ∧
              liveOf c (remSlots c m ob oe rest) = liveOf c R1) ∨
            ((if (fteiAt c m ob oe).FTE.startblock = FFS_NULL16 c then buf
                else buf ++ [(fteiAt c m ob oe).FTE]) = buf ++ [(fteiAt c m ob oe).FTE] ∧
              liveOf c (remSlots c m ob oe rest) = fteiAt c m ob oe :: liveOf c R1) := by
          intro R1 hR1
          rw [hR, liveOf_cons c hc, hR1]
          by_cases h1 : (fteiAt c m ob oe).FTE.startblock = FFS_NULL16 c
          · left; rw [if_pos h1, if_pos h1]; exact ⟨rfl, rfl⟩
          · right; rw [if_neg h1, if_neg h1, if_neg hu]; exact ⟨rfl, rfl⟩
        have hb1 : (if (fteiAt c m ob oe).FTE.startblock = FFS_NULL16 c then buf
            else buf ++ [(fteiAt c m ob oe).FTE]).length ≤ FFS_FTENTRIESPERBLOCK c := by
          split
          · exact hbuf
          · simp; omega
        generalize hbuf1 : (if (fteiAt c m ob oe).FTE.startblock = FFS_NULL16 c then buf
            else buf ++ [(fteiAt c m ob oe).FTE]) = buf1 at *
        by_cases hend : oe + 1 = FFS_FTENTRIESPERBLOCK c
        · rw [if_pos hend]
          cases rest with
          | nil =>
            rw [if_neg hch]
            have hl := hlive _ (by rw [hend, remSlots_end, tableEntries_nil])
            rw [liveOf_nil] at hl
            obtain ⟨l1, l2, l3, l4, l5, l6⟩ := live_step (FFS_FTENTRIESPERBLOCK c) buf buf1 _ []
              (fteiAt c m ob oe) hl hlt
            refine ⟨_, _, _, _, _, _, rfl, by rw [← l1]; simp,
              Erase_touched c m ob (by omega), ?_,
              fun _ o ho => Erase_inside c m ob o ho, Or.inl ⟨rfl, l2 (by simp)⟩⟩
            intro b hb
            simp only [List.mem_singleton] at hb
            rw [hb]; exact Or.inr (fun o ho => Erase_inside c m ob o ho)
          | cons ob2 rest2 =>
            obtain ⟨c1, c2, c3⟩ := hch
            rw [if_pos c1, c2]
            have hnot : ∀ b ∈ ob2 :: rest2, b ∉ [ob] := by
              intro b hb hcon
              simp only [List.mem_singleton] at hcon
              rw [List.nodup_cons] at hnd
              exact hnd.1 (hcon ▸ hb)
            have hch1 : FTChainOK c (flashSPAN_EraseBlock c m ob) (ob2 :: rest2) :=
              FTChainOK_touched c hc m _ [ob] (Erase_touched c m ob (by omega)) _ hnot c3
            have := ih (flashSPAN_EraseBlock c m ob) ob2 0 rest2 buf1 hch1
              (List.nodup_cons.mp hnd).2 (by omega) hb1
              (by simp only [List.length_cons, Nat.mul_succ] at hfuel; omega)
            exact GatherPost_jump c hc m ob oe ob2 rest2 buf buf1 _ hend hlt hnd
              (hlive _ (by rw [hend, remSlots_end])) this
        · rw [if_neg hend]
          have := ih m ob (oe + 1) rest buf1 hch hnd (by omega) hb1 (by omega)
          exact GatherPost_slot c m ob oe rest buf buf1 _ hoe hlt (hlive _ rfl) this
    · rw [gather_full c fuel m ob oe _ _ buf hlt]
      have hk : FFS_FTENTRIESPERBLOCK c - buf.length = 0 := by omega
      refine ⟨m, ob, oe, _, _, buf, rfl, by rw [hk]; simp, Touched_refl c m _,
        fun b _ => KeptOrErased_refl c m b, fun h => by omega,
        Or.inr ⟨hoe, by omega, [], rest, rfl, fun h => by omega, rfl, rfl,
          fun _ _ _ _ => rfl, by rw [hk]; rfl⟩⟩

theorem encFTE_length (f : FFS_FTE_t) (h : f.filename.length = 14) : (encFTE f).length = 16 := by
  simp [encFTE, enc16, h]

theorem encFTEs_length (buf : List FFS_FTE_t) (h : ∀ f ∈ buf, f.filename.length = 14) :
    (encFTEs buf).length = 16 * buf.length := by
  induction buf with
  | nil => rfl
  | cons f buf ih =>
    have h1 := encFTE_length f (h f (List.mem_cons_self _ _))
    have h2 := ih (fun g hg => h g (List.mem_cons_of_mem _ hg))
    simp only [encFTEs, List.map_cons, List.flatten_cons, List.length_append, List.length_cons] at *
    omega

/-- The bytes of the `i`-th entry inside the bytes of a buffer of entries. -/
theorem encFTEs_getD :
    ∀ (buf : List FFS_FTE_t) (i o : Nat) (f : FFS_FTE_t), (∀ f ∈ buf, f.filename.length = 14) →
      buf[i]? = some f → o < 16 →
      (encFTEs buf).getD (16 * i + o) 0 = (encFTE f).getD o 0 := by
  intro buf
  induction buf with
  | nil => intro i o f _ h; simp at h
  | cons g buf ih =>
    intro i o f hl hi ho
    have hg := encFTE_length g (hl g (List.mem_cons_self _ _))
    have e : encFTEs (g :: buf) = encFTE g ++ encFTEs buf := by simp [encFTEs]
    rw [e]
    cases i with
    | zero =>
      simp only [List.getElem?_cons_zero, Option.some.injEq] at hi
      subst hi
      rw [Nat.mul_zero, Nat.zero_add, List.getD_append _ _ _ _ (by omega)]
    | succ i =>
      simp only [List.getElem?_cons_succ] at hi
      rw [List.getD_append_right _ _ _ _ (by omega), hg,
        show 16 * (i + 1) + o - 16 = 16 * i + o by omega]
      exact ih i o f (fun f hf => hl f (List.mem_cons_of_mem _ hf)) hi ho

theorem encFTEs_bytes (buf : List FFS_FTE_t) (h : ∀ f ∈ buf, ∀ y ∈ f.filename, y < 256) :
    ∀ x ∈ encFTEs buf, x < 256 := by
  intro x hx
  simp only [encFTEs, List.mem_flatten, List.mem_map] at hx
  obtain ⟨l, ⟨f, hf, rfl⟩, hx⟩ := hx
  simp only [encFTE, List.mem_append] at hx
  rcases hx with hx | hx
  · exact (enc_bytes _).1 x hx
  · exact h f hf x hx

/-- Writing the header and the gathered entries of a new table block into an erased
block: the entries stand in the first slots, the other slots stay erased. -/
theorem write_table_block (c : Cfg) (hc : c.ok) (m1 m3 : Mem) (t : Nat) (buf : List FFS_FTE_t)
    (hb : Bytes m1)
    (herased : ∀ o, o < c.FLASH_BLOCKSIZE → m1 (t * c.FLASH_BLOCKSIZE + o) = FFS_UNINIT8 c)
    (hlen : buf.length ≤ FFS_FTENTRIESPERBLOCK c)
    (hsb : ∀ f ∈ buf, f.startblock < 65536) (hfl : ∀ f ∈ buf, f.filename.length = 14)
    (hfb : ∀ f ∈ buf, ∀ y ∈ f.filename, y < 256)
    (hm3 : m3 = flashSPAN_Write c (flashSPAN_Write c m1 (t * c.FLASH_BLOCKSIZE) [FFS_B_FT_EOF c])
      (t * c.FLASH_BLOCKSIZE + sizeof_SBHDR) (encFTEs buf)) :
    Bytes m3 ∧ Touched c m1 m3 [t] ∧
    m3 (t * c.FLASH_BLOCKSIZE) = FFS_B_FT_EOF c ∧
    m3 (t * c.FLASH_BLOCKSIZE + 2) = FFS_UNINIT8 c ∧ m3 (t * c.FLASH_BLOCKSIZE + 3) = FFS_UNINIT8 c ∧
    (∀ i f, buf[i]? = some f →
      fteiAt c m3 t i = { FTE := f, fteAddr := FFS_ENTRYADDR c t i }) ∧
    (∀ i, buf.length ≤ i → i < FFS_FTENTRIESPERBLOCK c →
      SlotErased c m3 (FFS_ENTRYADDR c t i)) := by
  have hB := hc.2.1
  have hsf := status_facts c hc
  have hfit := entries_fit c hc
  have hL := encFTEs_length buf hfl
  have hLle : 16 * buf.length + 4 ≤ c.FLASH_BLOCKSIZE := by
    have : 16 * buf.length ≤ 16 * FFS_FTENTRIESPERBLOCK c := Nat.mul_le_mul_left 16 hlen
    omega
  have hbytes := encFTEs_bytes buf hfb
  have h20 : ∀ x, x ≠ t * c.FLASH_BLOCKSIZE →
      flashSPAN_Write c m1 (t * c.FLASH_BLOCKSIZE) [FFS_B_FT_EOF c] x = m1 x := by
    intro x hx
    apply Write_outside
    simp only [List.length_cons, List.length_nil]
    omega
  have h2s : flashSPAN_Write c m1 (t * c.FLASH_BLOCKSIZE) [FFS_B_FT_EOF c] (t * c.FLASH_BLOCKSIZE)
      = FFS_B_FT_EOF c := by
    apply Write_one c hc m1 _ _ _ hsf.2.2.2.2.2.2.2.1
    have := herased 0 (by omega)
    rw [Nat.add_zero] at this
    exact this
  have hb2 : Bytes (flashSPAN_Write c m1 (t * c.FLASH_BLOCKSIZE) [FFS_B_FT_EOF c]) := by
    apply Bytes_write c m1 _ _ hb
    intro x hx
    simp only [List.mem_singleton] at hx
    rw [hx]; exact hsf.2.2.2.2.2.2.2.1
  generalize hm2 : flashSPAN_Write c m1 (t * c.FLASH_BLOCKSIZE) [FFS_B_FT_EOF c] = m2 at *
  have hT2 : Touched c m1 m2 [t] := by
    rw [← hm2]
    exact Touched_write c m1 _ _ t (Nat.le_refl _) (by simp; omega)
  have hT3 : Touched c m2 m3 [t] := by
    rw [hm3]
    exact Touched_write c m2 _ _ t (by omega) (by rw [hL]; simp only [sizeof_SBHDR]; omega)
  have hlow : ∀ o, o < 4 → m3 (t * c.FLASH_BLOCKSIZE + o) = m2 (t * c.FLASH_BLOCKSIZE + o) := by
    intro o ho
    rw [hm3]
    apply Write_outside
    simp only [sizeof_SBHDR]
    omega
  have hhigh : ∀ o, 4 + 16 * buf.length ≤ o →
      m3 (t * c.FLASH_BLOCKSIZE + o) = m2 (t * c.FLASH_BLOCKSIZE + o) := by
    intro o ho
    rw [hm3]
    apply Write_outside
    rw [hL]
    simp only [sizeof_SBHDR]
    omega
  have hin : ∀ k, k < 16 * buf.length →
      m3 (t * c.FLASH_BLOCKSIZE + 4 + k) = (encFTEs buf).getD k 0 := by
    intro k hk
    rw [hm3]
    apply Write_inside c hc m2 _ _ k (by rw [hL]; exact hk) _ hbytes
    simp only [sizeof_SBHDR]
    rw [h20 _ (by omega), Nat.add_assoc]
    exact herased _ (by omega)
  refine ⟨?_, Touched_trans c m1 m2 m3 [t] [t] _ hT2 hT3 (fun _ h => h) (fun _ h => h), ?_, ?_, ?_,
    ?_, ?_⟩
  · rw [hm3]
    exact Bytes_write c m2 _ _ hb2 hbytes
  · have := hlow 0 (by omega)
    rw [Nat.add_zero] at this
    rw [this, h2s]
  · rw [hlow 2 (by omega), h20 _ (by omega)]
    exact herased 2 (by omega)
  · rw [hlow 3 (by omega), h20 _ (by omega)]
    exact herased 3 (by omega)
  · intro i f hi
    have hilt : i < buf.length := by
      rcases Nat.lt_or_ge i buf.length with h | h
      · exact h
      · rw [List.getElem?_eq_none h] at hi
        exact absurd hi (by simp)
    have hfm : f ∈ buf := List.getElem?_mem hi
    have hfe := encFTE_length f (hfl f hfm)
    rw [fteiAt_slotAt]
    apply slot_written m3 _ f.startblock f.filename (hsb f hfm) (hfl f hfm)
    have : flashSPAN_Read m3 (FFS_ENTRYADDR c t i) (encFTE f).length = encFTE f := by
      rw [Read_eq_iff]
      intro o ho
      rw [hfe] at ho
      rw [entryaddr_val, show t * c.FLASH_BLOCKSIZE + 4 + i * 16 + o
        = t * c.FLASH_BLOCKSIZE + 4 + (16 * i + o) by omega, hin _ (by omega)]
      exact encFTEs_getD buf i o f hfl hi ho
    rw [hfe] at this
    exact this
  · intro i hi1 hi2 o ho
    have ho16 : o < 16 := by simpa [sizeof_FTE, FFS_FILENAME_LEN] using ho
    obtain ⟨r1, r2⟩ := slot_range c hc t i hi2
    rw [entryaddr_val] at r1 r2 ⊢
    rw [show t * c.FLASH_BLOCKSIZE + 4 + i * 16 + o
      = t * c.FLASH_BLOCKSIZE + (4 + i * 16 + o) by omega, hhigh _ (by omega), h20 _ (by omega)]
    exact herased _ (by omega)

theorem FreeOK_kept (c : Cfg) (hc : c.ok) (m m1 : Mem) (S : List Nat) (hT : Touched c m m1 S)
    (hk : ∀ b ∈ S, KeptOrErased c m m1 b) (h : FreeOK c m) : FreeOK c m1 := by
  have hB := hc.2.1
  intro k hkN hku o ho
  have hcase : KeptOrErased c m m1 k := by
    by_cases hin : k ∈ S
    · exact hk k hin
    · exact Or.inl (fun o ho => Touched_agree c m m1 S k hT hin _ (by omega) (by omega))
  rcases hcase with h1 | h1
  · have h0 := h1 0 (by omega)
    rw [Nat.add_zero] at h0
    rw [h0] at hku
    rw [h1 o ho]
    exact h k hkN hku o ho
  · exact h1 o ho

theorem Bytes_kept (c : Cfg) (hc : c.ok) (m m1 : Mem) (S : List Nat) (hT : Touched c m m1 S)
    (hk : ∀ b ∈ S, KeptOrErased c m m1 b) (h : Bytes m) : Bytes m1 := by
  have hB := hc.2.1
  intro x
  by_cases hin : x / c.FLASH_BLOCKSIZE ∈ S
  · have e : x = x / c.FLASH_BLOCKSIZE * c.FLASH_BLOCKSIZE + x % c.FLASH_BLOCKSIZE := by
      rw [Nat.mul_comm]; exact (Nat.div_add_mod _ _).symm
    rcases hk _ hin with h1 | h1
    · have := h1 (x % c.FLASH_BLOCKSIZE) (Nat.mod_lt _ (by omega))
      rw [← e] at this
      rw [this]; exact h x
    · have := h1 (x % c.FLASH_BLOCKSIZE) (Nat.mod_lt _ (by omega))
      rw [← e] at this
      rw [this]; exact (status_facts c hc).2.2.2.2.2.2.2.2.2
  · rw [hT x hin]; exact h x

theorem CleanFrame_step (c : Cfg) (m0 m m1 : Mem) (OL S : List Nat) (h : CleanFrame c m0 m OL)
    (hT : Touched c m m1 S)
    (hS : ∀ b ∈ S, b ∈ OL ∨ m0 (b * c.FLASH_BLOCKSIZE) = FFS_B_UNUSED c) :
    CleanFrame c m0 m1 OL := by
  intro x h1 h2
  rw [hT x (fun hin => by
    rcases hS _ hin with h3 | h3
    · exact h1 h3
    · exact h2 h3)]
  exact h x h1 h2

theorem liveOf_subset (c : Cfg) (es : List FFS_FTE_INFO_t) (x : FFS_FTE_INFO_t)
    (h : x ∈ liveOf c es) : x ∈ es := by
  unfold liveOf at h
  exact (List.takeWhile_sublist _).subset (List.mem_filter.mp h).1

theorem liveOf_valid (c : Cfg) (es : List FFS_FTE_INFO_t) (x : FFS_FTE_INFO_t)
    (h : x ∈ liveOf c es) :
    x.FTE.startblock ≠ FFS_UNINIT16 c ∧ x.FTE.startblock ≠ FFS_NULL16 c := by
  obtain ⟨_, _, _, _, h1, h2⟩ := liveOf_split c x es h
  exact ⟨h1, h2⟩

theorem slot_fte_ok (m : Mem) (hb : Bytes m) (a : Nat) :
    (slotAt m a).FTE.startblock < 65536 ∧ (slotAt m a).FTE.filename.length = 14 ∧
    ∀ y ∈ (slotAt m a).FTE.filename, y < 256 := by
  simp only [slotAt, readFTE, rd16, FFS_FILENAME_LEN]
  refine ⟨?_, Read_length _ _ _, ?_⟩
  · have h1 := hb a
    have h2 := hb (a + 1)
    omega
  · intro y hy
    simp only [flashSPAN_Read, List.mem_map, List.mem_range] at hy
    obtain ⟨j, _, rfl⟩ := hy
    exact hb _

theorem mem_remSlots (c : Cfg) (m : Mem) (ob oe : Nat) (rest : List Nat) (x : FFS_FTE_INFO_t)
    (h : x ∈ remSlots c m ob oe rest) : slotAt m x.fteAddr = x := by
  unfold remSlots at h
  rcases List.mem_append.mp h with h | h
  · obtain ⟨i, _, rfl⟩ := List.mem_map.mp h
    rfl
  · exact slot_self c m rest x h

/-- The entries gathered from a device of bytes can be written back as they are. -/
theorem gathered_ok (c : Cfg) (m : Mem) (hb : Bytes m) (ob oe : Nat) (rest : List Nat) (k : Nat) :
    ∀ f ∈ ((liveOf c (remSlots c m ob oe rest)).map (fun e => e.FTE)).take k,
      f.startblock < 65536 ∧ f.filename.length = 14 ∧ ∀ y ∈ f.filename, y < 256 := by
  intro f hf
  have hf2 := List.mem_of_mem_take hf
  obtain ⟨x, hx, rfl⟩ := List.mem_map.mp hf2
  have := slot_fte_ok m hb x.fteAddr
  rw [mem_remSlots c m ob oe rest x (liveOf_subset c _ x hx)] at this
  exact this

/-- The slots of a freshly written table block: the written entries, then erased
slots. -/
theorem new_block_slots (c : Cfg) (m3 : Mem) (t : Nat) (buf : List FFS_FTE_t)
    (hlen : buf.length ≤ FFS_FTENTRIESPERBLOCK c)
    (hslots : ∀ i f, buf[i]? = some f →
      fteiAt c m3 t i = { FTE := f, fteAddr := FFS_ENTRYADDR c t i })
    (herased : ∀ i, buf.length ≤ i → i < FFS_FTENTRIESPERBLOCK c →
      SlotErased c m3 (FFS_ENTRYADDR c t i)) :
    ∃ used free, tableEntries c m3 [t] = used ++ free ∧ used.map (fun e => e.FTE) = buf ∧
      (∀ x ∈ free, SlotErased c m3 x.fteAddr) ∧
      (buf.length = FFS_FTENTRIESPERBLOCK c → free = []) := by
  refine ⟨(List.range' 0 buf.length).map (fteiAt c m3 t),
    (List.range' buf.length (FFS_FTENTRIESPERBLOCK c - buf.length)).map (fteiAt c m3 t),
    ?_, ?_, ?_, ?_⟩
  · rw [tableEntries_cons, tableEntries_nil, List.append_nil, ← List.map_append]
    congr 1
    have := @List.range'_append 0 buf.length (FFS_FTENTRIESPERBLOCK c - buf.length) 1
    simp only [Nat.one_mul, Nat.zero_add] at this
    rw [this, show FFS_FTENTRIESPERBLOCK c - buf.length + buf.length
      = FFS_FTENTRIESPERBLOCK c by omega]
  · apply List.ext_getElem
    · simp
    · intro i h1 h2
      simp only [List.getElem_map, List.getElem_range', Nat.zero_add, Nat.one_mul]
      rw [hslots i buf[i] (List.getElem?_eq_getElem h2)]
  · intro x hx
    obtain ⟨i, hi, rfl⟩ := List.mem_map.mp hx
    rw [List.mem_range'_1] at hi
    exact herased i hi.1 (by omega)
  · intro h
    rw [h, Nat.sub_self]
    rfl

theorem block_sep (b k B o : Nat) (h : b ≠ k) (ho : o < B) :
    b * B + o < k * B ∨ k * B + B ≤ b * B + o := by
  rcases Nat.lt_trichotomy b k with h1 | h1 | h1
  · have : (b + 1) * B ≤ k * B := Nat.mul_le_mul_right _ h1
    rw [Nat.add_mul, Nat.one_mul] at this
    omega
  · exact absurd h1 h
  · have : (k + 1) * B ≤ b * B := Nat.mul_le_mul_right _ h1
    rw [Nat.add_mul, Nat.one_mul] at this
    omega

/-- Every block of a well-formed table chain carries a table status. -/
theorem FTChainWF_status (c : Cfg) (m : Mem) :
    ∀ (L : List Nat), FTChainWF c m L → ∀ b ∈ L,
      m (b * c.FLASH_BLOCKSIZE) = FFS_B_FT_JUMP c ∨ m (b * c.FLASH_BLOCKSIZE) = FFS_B_FT_EOF c := by
  intro L
  induction L with
  | nil => intro h; exact h.elim
  | cons a A ih =>
    intro h b hb
    cases A with
    | nil =>
      rw [List.mem_singleton] at hb
      rw [hb]; exact Or.inr h.1
    | cons a2 A2 =>
      rcases List.mem_cons.mp hb with hb | hb
      · rw [hb]; exact Or.inl h.1
      · exact ih h.2.2 b hb

theorem encSBHDR_bytes {c : Cfg} (st j : Nat) (hst : st < 256) :
    ∀ x ∈ encSBHDR (padByte c) st j, x < 256 := by
  intro x hx
  simp only [encSBHDR, enc16, List.mem_cons, List.mem_singleton, List.not_mem_nil, or_false] at hx
  rcases hx with rfl | rfl | rfl | rfl
  · exact hst
  · exact padByte_lt c
  · exact Nat.mod_lt _ (by decide)
  · exact Nat.mod_lt _ (by decide)

/-- Writing the gathered entries `buf` into a block `t` that is erased after the
gathering: the block becomes the last block of a table, and holds the entries. -/
theorem clean_install (c : Cfg) (hc : c.ok) (m0 m m1 m3 : Mem) (OL : List Nat) (ob : Nat)
    (rest : List Nat) (t : Nat) (buf : List FFS_FTE_t)
    (hb : Bytes m) (hfree : FreeOK c m)
    (hT : Touched c m m1 (ob :: rest))
    (hK : ∀ b ∈ ob :: rest, KeptOrErased c m m1 b)
    (hOL : ∀ b ∈ ob :: rest, b ∈ OL)
    (hfr : CleanFrame c m0 m OL)
    (ht : t ∈ OL ∨ m0 (t * c.FLASH_BLOCKSIZE) = FFS_B_UNUSED c)
    (her : ∀ o, o < c.FLASH_BLOCKSIZE → m1 (t * c.FLASH_BLOCKSIZE + o) = FFS_UNINIT8 c)
    (hlen : buf.length ≤ FFS_FTENTRIESPERBLOCK c)
    (hbuf : ∀ f ∈ buf, f.startblock < 65536 ∧ f.filename.length = 14 ∧ ∀ y ∈ f.filename, y < 256)
    (hm3 : m3 = flashSPAN_Write c (flashSPAN_Write c m1 (t * c.FLASH_BLOCKSIZE) [FFS_B_FT_EOF c])
      (t * c.FLASH_BLOCKSIZE + sizeof_SBHDR) (encFTEs buf)) :
    Bytes m3 ∧ FreeOK c m3 ∧ Touched c m1 m3 [t] ∧ CleanFrame c m0 m3 OL ∧
    FTChainWF c m3 [t] ∧
    ∃ used free, tableEntries c m3 [t] = used ++ free ∧ used.map (fun e => e.FTE) = buf ∧
      (∀ x ∈ free, SlotErased c m3 x.fteAddr) ∧
      (buf.length = FFS_FTENTRIESPERBLOCK c → free = []) := by
  have hB := hc.2.1
  have hb1 : Bytes m1 := Bytes_kept c hc m m1 _ hT hK hb
  have hf1 : FreeOK c m1 := FreeOK_kept c hc m m1 _ hT hK hfree
  obtain ⟨w1, w2, w3, w4, w5, w6, w7⟩ := write_table_block c hc m1 m3 t buf hb1 her hlen
    (fun f hf => (hbuf f hf).1) (fun f hf => (hbuf f hf).2.1) (fun f hf => (hbuf f hf).2.2) hm3
  refine ⟨w1, ?_, w2, ?_, ⟨w3, w4, w5⟩, new_block_slots c m3 t buf hlen w6 w7⟩
  · apply FreeOK_touched c m1 m3 [t] w2 _ hf1 (by omega)
    intro k hk
    rw [List.mem_singleton] at hk
    rw [hk, w3]
    exact (status_facts c hc).2.2.2.1
  · apply CleanFrame_step c m0 m1 m3 OL [t] _ w2
    · intro b hb2
      rw [List.mem_singleton] at hb2
      rw [hb2]; exact ht
    · exact CleanFrame_step c m0 m m1 OL _ hfr hT (fun b hb2 => Or.inl (hOL b hb2))

/-- One pass of the outer loop of `ffs_cleanupFT` after the first one: the gathered
entries go to a block handed out by the allocator, which is chained to the new
table. -/
theorem clean_pass (c : Cfg) (hc : c.ok) (m0 : Mem) (OL : List Nat) (V : List FFS_FTE_t)
    (m : Mem) (fs : FFS_FS_t) (ob oe : Nat) (rest NP : List Nat) (newblock af : Nat)
    (hinv : CleanInv c m0 OL V m fs ob oe rest NP newblock)
    (haf : c.BlockCount ≤ af)
    (hg : FFS_FTENTRIESPERBLOCK c * (rest.length + 2) ≤ af) :
    ∃ m1 ob1 oe1 st1 j1 buf nb fs1 m4,
      ffs_cleanupFT_gather c af m ob oe (m (ob * c.FLASH_BLOCKSIZE))
        (rd16 m (ob * c.FLASH_BLOCKSIZE + offsetof_jump)) [] = some (m1, ob1, oe1, st1, j1, buf) ∧
      FindUnusedBlock c af m1 fs = some (nb, fs1) ∧ 1 ≤ nb ∧
      m4 = flashSPAN_Write c (flashSPAN_Write c
          (flashSPAN_Write c m1 (nb * c.FLASH_BLOCKSIZE) [FFS_B_FT_EOF c])
          (nb * c.FLASH_BLOCKSIZE + sizeof_SBHDR) (encFTEs buf)) (newblock * c.FLASH_BLOCKSIZE)
          (encSBHDR (padByte c) (FFS_B_FT_JUMP c) nb) ∧
      ((oe1 = FFS_FTENTRIESPERBLOCK c ∧ CleanPost c m0 OL V (some (RES_OK, m4, fs1))) ∨
       (oe1 < FFS_FTENTRIESPERBLOCK c ∧ ∃ rest1,
          CleanInv c m0 OL V m4 fs1 ob1 oe1 rest1 (NP ++ [newblock]) nb ∧
          st1 = m4 (ob1 * c.FLASH_BLOCKSIZE) ∧
          j1 = rd16 m4 (ob1 * c.FLASH_BLOCKSIZE + offsetof_jump) ∧
          rest1.length < rest.length)) := by
  have hB := hc.2.1
  have hN := hc.2.2.2.1
  have hn1 := entries_pos c hc
  have hsf := status_facts c hc
  obtain ⟨hb, hfree, hs, hch, hnd, hoe, hold, hwf, hnd2, hhead, hnew, hent, hfr⟩ := hinv
  have hfuel : FFS_FTENTRIESPERBLOCK c - oe + FFS_FTENTRIESPERBLOCK c * rest.length < af := by
    rw [Nat.mul_add] at hg
    omega
  obtain ⟨m1, ob1, oe1, st1, j1, buf, hres, hbuf, hT, hK, herase, hcase⟩ :=
    gather_spec c hc af m ob oe rest [] hch hnd hoe (Nat.zero_le _) hfuel
  simp only [List.nil_append, List.length_nil, Nat.sub_zero] at hbuf hcase
  have her := herase (Nat.zero_le _)
  have hb1 := Bytes_kept c hc m m1 _ hT hK hb
  have hf1 := FreeOK_kept c hc m m1 _ hT hK hfree
  have hob := hold ob (List.mem_cons_self _ _)
  obtain ⟨nb, fs1, hres2, _, hs1, hc2⟩ := FindUnusedBlock_spec c hc m1 fs af hs haf
  have hnbf : 1 ≤ nb ∧ nb < c.BlockCount ∧ m1 (nb * c.FLASH_BLOCKSIZE) = FFS_B_UNUSED c := by
    rcases hc2 with ⟨_, _, hno⟩ | ⟨h1, h2, h3, _⟩
    · exfalso
      apply hno ob hob.1 hob.2.1
      have := her 0 (by omega)
      rw [Nat.add_zero] at this
      exact this
    · exact ⟨h1, h2, h3⟩
  obtain ⟨hnb1, hnbN, hnbU⟩ := hnbf
  have hnber : ∀ o, o < c.FLASH_BLOCKSIZE → m1 (nb * c.FLASH_BLOCKSIZE + o) = FFS_UNINIT8 c :=
    hf1 nb hnbN hnbU
  have hm1 : ∀ b, b ∉ ob :: rest → ∀ o, o < c.FLASH_BLOCKSIZE →
      m1 (b * c.FLASH_BLOCKSIZE + o) = m (b * c.FLASH_BLOCKSIZE + o) :=
    fun b hb2 o ho => hT _ (by rw [div_block _ _ _ ho]; exact hb2)
  have hnbnew : nb ∉ NP ++ [newblock] := by
    intro hin
    have h1 := FTChainWF_status c m _ hwf nb hin
    have h2 := hm1 nb (hnew nb hin).1 0 (by omega)
    rw [Nat.add_zero] at h2
    rw [h2] at hnbU
    rcases h1 with h1 | h1 <;> rw [h1] at hnbU
    · exact hsf.2.2.2.2.1 hnbU
    · exact hsf.2.2.2.1 hnbU
  have hnbOL : nb ∈ OL ∨ m0 (nb * c.FLASH_BLOCKSIZE) = FFS_B_UNUSED c := by
    by_cases h1 : nb ∈ OL
    · exact Or.inl h1
    · right
      by_contra h2
      have h3 := hfr (nb * c.FLASH_BLOCKSIZE)
        (by rw [Nat.mul_div_cancel _ (by omega)]; exact h1)
        (by rw [Nat.mul_div_cancel _ (by omega)]; exact h2)
      have h4 := hm1 nb (fun hin => h1 (hold nb hin).2.2.1) 0 (by omega)
      rw [Nat.add_zero] at h4
      rw [h4, h3] at hnbU
      exact h2 hnbU
  have hbufok : ∀ f ∈ buf, f.startblock < 65536 ∧ f.filename.length = 14 ∧
      ∀ y ∈ f.filename, y < 256 := by
    rw [hbuf]; exact gathered_ok c m hb ob oe rest _
  have hbuflen : buf.length ≤ FFS_FTENTRIESPERBLOCK c := by
    rw [hbuf, List.length_take]; exact Nat.min_le_left _ _
  obtain ⟨m3, hm3def⟩ : ∃ m3, m3 = flashSPAN_Write c
      (flashSPAN_Write c m1 (nb * c.FLASH_BLOCKSIZE) [FFS_B_FT_EOF c])
      (nb * c.FLASH_BLOCKSIZE + sizeof_SBHDR) (encFTEs buf) := ⟨_, rfl⟩
  obtain ⟨hb3, hf3, hT3, hfr3, hwf3, used, free, hte, humap, hfe, hfull⟩ :=
    clean_install c hc m0 m m1 m3 OL ob rest nb buf hb hfree hT hK
      (fun b hb2 => (hold b hb2).2.2.1) hfr hnbOL hnber hbuflen hbufok hm3def
  have hnl : newblock ∈ NP ++ [newblock] :=
    List.mem_append_right NP (List.mem_singleton_self newblock)
  have hnewnb : newblock ≠ nb := fun h => hnbnew (h ▸ hnl)
  have hm3 : ∀ b, b ≠ nb → ∀ o, o < c.FLASH_BLOCKSIZE →
      m3 (b * c.FLASH_BLOCKSIZE + o) = m1 (b * c.FLASH_BLOCKSIZE + o) :=
    fun b hb2 o ho => hT3 _ (by rw [div_block _ _ _ ho]; simpa using hb2)
  obtain ⟨e0, e1, e2⟩ := FTChainWF_last c m newblock NP hwf
  have hk : ∀ o, o < c.FLASH_BLOCKSIZE →
      m3 (newblock * c.FLASH_BLOCKSIZE + o) = m (newblock * c.FLASH_BLOCKSIZE + o) :=
    fun o ho => (hm3 newblock hnewnb o ho).trans (hm1 newblock (hnew newblock hnl).1 o ho)
  have k0 : m3 (newblock * c.FLASH_BLOCKSIZE) = FFS_B_FT_EOF c := by
    have := hk 0 (by omega)
    rw [Nat.add_zero] at this
    rw [this]; exact e0
  have k1 : m3 (newblock * c.FLASH_BLOCKSIZE + 2) = FFS_UNINIT8 c := by
    rw [hk 2 (by omega)]; exact e1
  have k2 : m3 (newblock * c.FLASH_BLOCKSIZE + 3) = FFS_UNINIT8 c := by
    rw [hk 3 (by omega)]; exact e2
  obtain ⟨m4, hm4⟩ : ∃ m4, m4 = flashSPAN_Write c m3 (newblock * c.FLASH_BLOCKSIZE)
      (encSBHDR (padByte c) (FFS_B_FT_JUMP c) nb) := ⟨_, rfl⟩
  obtain ⟨l1, l2, l3⟩ := Write_sbhdr c hc m3 (newblock * c.FLASH_BLOCKSIZE) nb k0 k1 k2 (by omega)
  rw [← hm4] at l1 l2 l3
  have hm4a : ∀ b, b ≠ newblock → ∀ o, o < c.FLASH_BLOCKSIZE →
      m4 (b * c.FLASH_BLOCKSIZE + o) = m3 (b * c.FLASH_BLOCKSIZE + o) :=
    fun b hb2 o ho => l3 _ (by have := block_sep b newblock c.FLASH_BLOCKSIZE o hb2 ho; omega)
  have hm4b : ∀ b o, 4 ≤ o → o < c.FLASH_BLOCKSIZE →
      m4 (b * c.FLASH_BLOCKSIZE + o) = m3 (b * c.FLASH_BLOCKSIZE + o) := by
    intro b o h3 ho
    by_cases h : b = newblock
    · rw [h]; exact l3 _ (by omega)
    · exact hm4a b h o ho
  have hT4 : Touched c m3 m4 [newblock] := by
    rw [hm4]
    exact Touched_write c m3 _ _ newblock (Nat.le_refl _) (by simp [encSBHDR, enc16]; omega)
  have hb4 : Bytes m4 := by
    rw [hm4]; exact Bytes_write c m3 _ _ hb3 (encSBHDR_bytes _ _ hsf.2.2.2.2.2.2.2.2.1)
  have hf4 : FreeOK c m4 := FreeOK_touched c m3 m4 [newblock] hT4
    (by intro k hk; rw [List.mem_singleton] at hk; rw [hk, l1]; exact hsf.2.2.2.2.1) hf3 (by omega)
  have hfr4 : CleanFrame c m0 m4 OL := CleanFrame_step c m0 m3 m4 OL [newblock] hfr3 hT4
    (by intro b hb2; rw [List.mem_singleton] at hb2; rw [hb2]; exact (hnew newblock hnl).2.2)
  have hwf4 : FTChainWF c m4 (NP ++ [newblock, nb]) := by
    apply FTChainWF_snoc c m m4 newblock nb l1 l2 _ NP _ hwf
    · have q := hm4a nb (Ne.symm hnewnb)
      have q0 := q 0 (by omega)
      rw [Nat.add_zero] at q0
      rw [q0, q 2 (by omega), q 3 (by omega)]
      exact hwf3
    · intro b hb2 o ho
      have hbn : b ∈ NP ++ [newblock] := List.mem_append_left _ hb2
      have hne : b ≠ newblock := by
        intro h
        rw [h] at hb2
        exact (List.nodup_append.mp hnd2).2.2 hb2 (List.mem_singleton_self _)
      have hne2 : b ≠ nb := fun h => hnbnew (h ▸ hbn)
      rw [hm4a b hne o (by omega), hm3 b hne2 o (by omega), hm1 b (hnew b hbn).1 o (by omega)]
  have elist : (NP ++ [newblock]) ++ [nb] = NP ++ [newblock, nb] := by simp
  have hte4 : tableEntries c m4 (NP ++ [newblock, nb])
      = tableEntries c m (NP ++ [newblock]) ++ (used ++ free) := by
    rw [← elist, tableEntries_append,
      tableEntries_keep c hc m3 m4 (NP ++ [newblock]) (fun b _ o h3 ho => hm4b b o h3 ho),
      tableEntries_keep c hc m3 m4 [nb] (fun b _ o h3 ho => hm4b b o h3 ho), hte]
    congr 1
    apply tableEntries_keep c hc m m3
    intro b hb2 o _ ho
    rw [hm3 b (fun h => hnbnew (h ▸ hb2)) o ho, hm1 b (hnew b hb2).1 o ho]
  obtain ⟨T, hT0⟩ : ∃ T, NP ++ [newblock] = 0 :: T := by
    cases hX : NP ++ [newblock] with
    | nil => simp at hX
    | cons a T =>
      rw [hX] at hhead
      simp only [List.head?_cons, Option.some.injEq] at hhead
      exact ⟨T, by rw [hhead]⟩
  refine ⟨m1, ob1, oe1, st1, j1, buf, nb, fs1, m4, hres, hres2, hnb1, by rw [hm4, hm3def], ?_⟩
  rcases hcase with ⟨hoe1, hlen⟩ | ⟨hoe1, hlen, pre, rest1, hsplit, hpre, hst, hj, hkeep, hlive⟩
  · left
    refine ⟨hoe1, ?_⟩
    have hlist : 0 :: (T ++ [nb]) = NP ++ [newblock, nb] := by
      rw [← elist, hT0]; rfl
    refine ⟨m4, fs1, T ++ [nb], tableEntries c m (NP ++ [newblock]) ++ used, free, rfl,
      ?_, ?_, hb4, hf4, hs1, ?_, ?_, ?_, hfr4⟩
    · rw [hlist]; exact hwf4
    · intro b hb2
      rcases List.mem_append.mp hb2 with h | h
      · exact (hnew b (by rw [hT0]; exact List.mem_cons_of_mem _ h)).2.1
      · rw [List.mem_singleton] at h
        rw [h]; exact hnbN
    · rw [hlist, hte4, List.append_assoc]
    · rw [List.map_append, humap, hbuf,
        List.take_of_length_le (by rw [List.length_map]; exact hlen), hent]
    · intro x hx o ho
      have ho2 : o < 16 := ho
      have hx2 : x ∈ tableEntries c m3 [nb] := by rw [hte]; exact List.mem_append_right _ hx
      obtain ⟨b, _, i, hi, hxe⟩ := (mem_tableEntries c m3 [nb] x).mp hx2
      obtain ⟨r1, r2⟩ := slot_range c hc b i hi
      have hxa : x.fteAddr = FFS_ENTRYADDR c b i := by rw [hxe]; rfl
      have := hm4b b (x.fteAddr + o - b * c.FLASH_BLOCKSIZE) (by omega) (by omega)
      rw [show b * c.FLASH_BLOCKSIZE + (x.fteAddr + o - b * c.FLASH_BLOCKSIZE)
        = x.fteAddr + o by omega] at this
      rw [this]
      exact hfe x hx o ho
  · right
    have hsub : ∀ b ∈ ob1 :: rest1, b ∈ ob :: rest := by
      intro b hb2
      rw [hsplit]; exact List.mem_append_right _ hb2
    have hnbold : nb ∉ ob1 :: rest1 := by
      intro hin
      have h1 := hkeep nb hin 0 (by omega)
      rw [Nat.add_zero] at h1
      rw [h1] at hnbU
      exact (hold nb (hsub nb hin)).2.2.2 hnbU
    have hag1 : ∀ b ∈ ob1 :: rest1, ∀ o, o < c.FLASH_BLOCKSIZE →
        m4 (b * c.FLASH_BLOCKSIZE + o) = m1 (b * c.FLASH_BLOCKSIZE + o) := by
      intro b hb2 o ho
      have hne : b ≠ newblock := fun h => (hnew newblock hnl).1 (h ▸ hsub b hb2)
      have hne2 : b ≠ nb := fun h => hnbold (h ▸ hb2)
      rw [hm4a b hne o ho, hm3 b hne2 o ho]
    have hag : ∀ b ∈ ob1 :: rest1, ∀ o, o < c.FLASH_BLOCKSIZE →
        m4 (b * c.FLASH_BLOCKSIZE + o) = m (b * c.FLASH_BLOCKSIZE + o) :=
      fun b hb2 o ho => (hag1 b hb2 o ho).trans (hkeep b hb2 o ho)
    have hfree0 : free = [] := by
      apply hfull
      rw [hbuf, List.length_take, List.length_map]
      exact Nat.min_eq_left hlen
    rw [hfree0, List.append_nil] at hte4
    refine ⟨hoe1, rest1, ⟨hb4, hf4, hs1, ?_, ?_, hoe1, ?_, ?_, ?_, ?_, ?_, ?_, hfr4⟩, ?_, ?_, ?_⟩
    · apply FTChainOK_congr c m m4 (ob1 :: rest1) (fun b hb2 o ho => hag b hb2 o (by omega))
      apply FTChainOK_suffix c m ob1 rest1 pre
      rw [← hsplit]; exact hch
    · rw [hsplit] at hnd
      exact List.Nodup.of_append_right hnd
    · intro b hb2
      obtain ⟨a1, a2, a3, a4⟩ := hold b (hsub b hb2)
      refine ⟨a1, a2, a3, ?_⟩
      have := hag b hb2 0 (by omega)
      rw [Nat.add_zero] at this
      rw [this]; exact a4
    · rw [elist]; exact hwf4
    · apply List.nodup_append.mpr
      refine ⟨hnd2, List.nodup_singleton _, ?_⟩
      intro a h1 h2
      rw [List.mem_singleton] at h2
      exact hnbnew (h2 ▸ h1)
    · rw [hT0]; rfl
    · intro b hb2
      rcases List.mem_append.mp hb2 with h | h
      · obtain ⟨a1, a2, a3⟩ := hnew b h
        exact ⟨fun hin => a1 (hsub b hin), a2, a3⟩
      · rw [List.mem_singleton] at h
        rw [h]; exact ⟨hnbold, hnbN, hnbOL⟩
    · rw [elist, hte4, remSlots_congr c hc m m4 ob1 oe1 rest1 hag, hlive, List.map_append, humap,
        hbuf, List.map_drop, ← hent, List.append_assoc, List.take_append_drop]
    · rw [hst]
      have := hag1 ob1 (List.mem_cons_self _ _) 0 (by omega)
      rw [Nat.add_zero] at this
      exact this.symm
    · rw [hj]
      simp only [rd16, offsetof_jump, Nat.add_assoc]
      rw [hag1 ob1 (List.mem_cons_self _ _) 2 (by omega),
        hag1 ob1 (List.mem_cons_self _ _) (2 + 1) (by omega)]
    · have hl := congrArg List.length hsplit
      have hp := hpre (Nat.zero_le _)
      cases pre with
      | nil => exact absurd rfl hp
      | cons a pre2 =>
        simp only [List.length_cons, List.length_append] at hl
        omega

/-- The first pass of the outer loop of `ffs_cleanupFT`: the gathered entries go to
block 0, which the gathering has erased. -/
theorem clean_first (c : Cfg) (hc : c.ok) (m0 : Mem) (fs : FFS_FS_t) (ft : List Nat) (af : Nat)
    (hb : Bytes m0) (hfree : FreeOK c m0) (hs : fs.BlockSearchStart < c.BlockCount)
    (hch : FTChainOK c m0 (0 :: ft)) (hlt : ∀ b ∈ ft, b < c.BlockCount)
    (hstat : ∀ b ∈ 0 :: ft, m0 (b * c.FLASH_BLOCKSIZE) ≠ FFS_B_UNUSED c)
    (hg : FFS_FTENTRIESPERBLOCK c * (ft.length + 2) ≤ af) :
    ∃ m1 ob1 oe1 st1 j1 buf m3,
      ffs_cleanupFT_gather c af m0 0 0 (m0 0) (rd16 m0 offsetof_jump) []
        = some (m1, ob1, oe1, st1, j1, buf) ∧
      m3 = flashSPAN_Write c (flashSPAN_Write c m1 0 [FFS_B_FT_EOF c]) sizeof_SBHDR (encFTEs buf) ∧
      ((oe1 = FFS_FTENTRIESPERBLOCK c ∧
        CleanPost c m0 (0 :: ft) ((liveEntries c m0 (0 :: ft)).map (fun e => e.FTE))
          (some (RES_OK, m3, fs))) ∨
       (oe1 < FFS_FTENTRIESPERBLOCK c ∧ ∃ rest1,
          CleanInv c m0 (0 :: ft) ((liveEntries c m0 (0 :: ft)).map (fun e => e.FTE))
            m3 fs ob1 oe1 rest1 [] 0 ∧
          st1 = m3 (ob1 * c.FLASH_BLOCKSIZE) ∧
          j1 = rd16 m3 (ob1 * c.FLASH_BLOCKSIZE + offsetof_jump) ∧
          rest1.length < ft.length)) := by
  have hB := hc.2.1
  have hn1 := entries_pos c hc
  have hnd := FTChainOK_nodup c m0 _ hch
  have hfuel : FFS_FTENTRIESPERBLOCK c - 0 + FFS_FTENTRIESPERBLOCK c * ft.length < af := by
    rw [Nat.mul_add] at hg
    omega
  have hgs := gather_spec c hc af m0 0 0 ft [] hch hnd hn1 (Nat.zero_le _) hfuel
  rw [Nat.zero_mul, Nat.zero_add] at hgs
  obtain ⟨m1, ob1, oe1, st1, j1, buf, hres, hbuf, hT, hK, herase, hcase⟩ := hgs
  simp only [List.nil_append, List.length_nil, Nat.sub_zero, remSlots_zero] at hbuf hcase
  have her := herase (Nat.zero_le _)
  have hbufok : ∀ f ∈ buf, f.startblock < 65536 ∧ f.filename.length = 14 ∧
      ∀ y ∈ f.filename, y < 256 := by
    rw [hbuf, ← remSlots_zero c m0 0 ft]; exact gathered_ok c m0 hb 0 0 ft _
  have hbuflen : buf.length ≤ FFS_FTENTRIESPERBLOCK c := by
    rw [hbuf, List.length_take]; exact Nat.min_le_left _ _
  obtain ⟨m3, hm3def⟩ : ∃ m3, m3 = flashSPAN_Write c (flashSPAN_Write c m1 0 [FFS_B_FT_EOF c])
      sizeof_SBHDR (encFTEs buf) := ⟨_, rfl⟩
  obtain ⟨hb3, hf3, hT3, hfr3, hwf3, used, free, hte, humap, hfe, hfull⟩ :=
    clean_install c hc m0 m0 m1 m3 (0 :: ft) 0 ft 0 buf hb hfree hT hK
      (fun b hb2 => hb2) (fun x _ _ => rfl) (Or.inl (List.mem_cons_self _ _)) her hbuflen hbufok
      (by rw [Nat.zero_mul, Nat.zero_add]; exact hm3def)
  refine ⟨m1, ob1, oe1, st1, j1, buf, m3, hres, hm3def, ?_⟩
  rcases hcase with ⟨hoe1, hlen⟩ | ⟨hoe1, hlen, pre, rest1, hsplit, hpre, hst, hj, hkeep, hlive⟩
  · left
    refine ⟨hoe1, m3, fs, [], used, free, rfl, hwf3, ?_, hb3, hf3, hs, hte, ?_, hfe, hfr3⟩
    · intro b hb2
      exact absurd hb2 (List.not_mem_nil _)
    · rw [humap, hbuf, List.take_of_length_le (by rw [List.length_map]; exact hlen)]
      rfl
  · right
    have hsub : ∀ b ∈ ob1 :: rest1, b ∈ 0 :: ft := by
      intro b hb2
      rw [hsplit]; exact List.mem_append_right _ hb2
    have hp := hpre (Nat.zero_le _)
    obtain ⟨pre2, hpre2⟩ : ∃ pre2, pre = 0 :: pre2 := by
      cases pre with
      | nil => exact absurd rfl hp
      | cons a pre2 =>
        rw [List.cons_append] at hsplit
        rw [← (List.cons.inj hsplit).1]
        exact ⟨pre2, rfl⟩
    have hft : ft = pre2 ++ ob1 :: rest1 := by
      rw [hpre2, List.cons_append] at hsplit
      exact (List.cons.inj hsplit).2
    have h0 : ∀ b ∈ ob1 :: rest1, b ≠ 0 := by
      intro b hb2 hb0
      rw [hb0] at hb2
      have := (List.nodup_cons.mp hnd).1
      rw [hft] at this
      exact this (List.mem_append_right _ hb2)
    have hag1 : ∀ b ∈ ob1 :: rest1, ∀ o, o < c.FLASH_BLOCKSIZE →
        m3 (b * c.FLASH_BLOCKSIZE + o) = m1 (b * c.FLASH_BLOCKSIZE + o) :=
      fun b hb2 o ho => hT3 _ (by rw [div_block _ _ _ ho]; simpa using h0 b hb2)
    have hag : ∀ b ∈ ob1 :: rest1, ∀ o, o < c.FLASH_BLOCKSIZE →
        m3 (b * c.FLASH_BLOCKSIZE + o) = m0 (b * c.FLASH_BLOCKSIZE + o) :=
      fun b hb2 o ho => (hag1 b hb2 o ho).trans (hkeep b hb2 o ho)
    have hfree0 : free = [] := by
      apply hfull
      rw [hbuf, List.length_take, List.length_map]
      exact Nat.min_eq_left hlen
    rw [hfree0, List.append_nil] at hte
    refine ⟨hoe1, rest1, ⟨hb3, hf3, hs, ?_, ?_, hoe1, ?_, hwf3, List.nodup_singleton _, rfl, ?_,
      ?_, hfr3⟩, ?_, ?_, ?_⟩
    · apply FTChainOK_congr c m0 m3 (ob1 :: rest1) (fun b hb2 o ho => hag b hb2 o (by omega))
      apply FTChainOK_suffix c m0 ob1 rest1 pre
      rw [← hsplit]; exact hch
    · rw [hsplit] at hnd
      exact List.Nodup.of_append_right hnd
    · intro b hb2
      have hbf : b ∈ ft := by rw [hft]; exact List.mem_append_right _ hb2
      refine ⟨Nat.pos_of_ne_zero (h0 b hb2), hlt b hbf, hsub b hb2, ?_⟩
      have := hag b hb2 0 (by omega)
      rw [Nat.add_zero] at this
      rw [this]; exact hstat b (hsub b hb2)
    · intro b hb2
      have hb0 : b = 0 := by simpa using hb2
      rw [hb0]
      exact ⟨fun hin => h0 0 hin rfl, by omega, Or.inl (List.mem_cons_self _ _)⟩
    · show (tableEntries c m3 [0]).map (fun e => e.FTE) ++ _ = _
      rw [hte, remSlots_congr c hc m0 m3 ob1 oe1 rest1 hag, hlive, humap, hbuf, List.map_drop,
        List.take_append_drop]
      rfl
    · rw [hst]
      have := hag1 ob1 (List.mem_cons_self _ _) 0 (by omega)
      rw [Nat.add_zero] at this
      exact this.symm
    · rw [hj]
      simp only [rd16, offsetof_jump, Nat.add_assoc]
      rw [hag1 ob1 (List.mem_cons_self _ _) 2 (by omega),
        hag1 ob1 (List.mem_cons_self _ _) (2 + 1) (by omega)]
    · have hl := congrArg List.length hft
      simp only [List.length_cons, List.length_append] at hl
      omega

/-- The outer loop of `ffs_cleanupFT` from its second pass on. -/
theorem clean_loop (c : Cfg) (hc : c.ok) (m0 : Mem) (OL : List Nat) (V : List FFS_FTE_t) (af : Nat)
    (haf : c.BlockCount ≤ af) :
    ∀ (fuel : Nat) (m : Mem) (fs : FFS_FS_t) (ob oe : Nat) (rest NP : List Nat)
      (newblock prevnewblock : Nat),
      CleanInv c m0 OL V m fs ob oe rest NP newblock →
      ¬ (newblock = 0 ∧ prevnewblock = 0) → rest.length < fuel →
      FFS_FTENTRIESPERBLOCK c * (rest.length + 2) ≤ af →
      CleanPost c m0 OL V
        (ffs_cleanupFT_loop c af fuel m fs ob oe (m (ob * c.FLASH_BLOCKSIZE))
          (rd16 m (ob * c.FLASH_BLOCKSIZE + offsetof_jump)) prevnewblock newblock) := by
  intro fuel
  induction fuel with
  | zero => intro m fs ob oe rest NP newblock pnb _ _ hf _; omega
  | succ fuel ih =>
    intro m fs ob oe rest NP newblock pnb hinv hnot hfuel hg
    obtain ⟨m1, ob1, oe1, st1, j1, buf, nb, fs1, m4, hres, hres2, hnb1, hm4, hcase⟩ :=
      clean_pass c hc m0 OL V m fs ob oe rest NP newblock af hinv haf hg
    rw [ffs_cleanupFT_loop]
    simp only [hres, if_neg hnot, hres2]
    rw [← hm4]
    rcases hcase with ⟨hoe1, hpost⟩ | ⟨hoe1, rest1, hinv1, hst, hj, hlen⟩
    · rw [if_pos hoe1]; exact hpost
    · rw [if_neg (Nat.ne_of_lt hoe1), hst, hj]
      apply ih m4 fs1 ob1 oe1 rest1 (NP ++ [newblock]) nb newblock hinv1
        (fun h => by omega) (by omega)
      exact Nat.le_trans (Nat.mul_le_mul_left _ (by omega)) hg

/-- `ffs_cleanupFT` on a well-formed table: it returns `RES_OK`, and the new table,
rooted at block 0, holds the live entries of the old one, in order, followed by erased
slots; blocks outside the old table that were in use are untouched. -/
theorem cleanup_spec (c : Cfg) (hc : c.ok) (m : Mem) (fs : FFS_FS_t) (ft : List Nat) (fuel : Nat)
    (hb : Bytes m) (ht : TableOK c m ft) (hlt : ∀ b ∈ ft, b < c.BlockCount)
    (hfs : FsOK c m fs) (hfuel1 : c.BlockCount ≤ fuel)
    (hfuel2 : FFS_FTENTRIESPERBLOCK c * (ft.length + 2) ≤ fuel) :
    CleanPost c m (0 :: ft) ((liveEntries c m (0 :: ft)).map (fun e => e.FTE))
      (ffs_cleanupFT c fuel m fs) := by
  have hn1 := entries_pos c hc
  have hstat : ∀ b ∈ 0 :: ft, m (b * c.FLASH_BLOCKSIZE) ≠ FFS_B_UNUSED c := by
    intro b hb2 h
    have := ht.2 b hb2
    rw [h] at this
    rw [show FFS_B_UNUSED c = FFS_UNINIT8 c from rfl, (tst_ft_facts c hc).2.2.1] at this
    exact absurd this (by decide)
  obtain ⟨m1, ob1, oe1, st1, j1, buf, m3, hres, hm3, hcase⟩ :=
    clean_first c hc m { fs with GetFileCounter := 0 } ft fuel hb hfs.1 hfs.2 ht.1 hlt hstat hfuel2
  have hle : ft.length + 2 ≤ fuel :=
    Nat.le_trans (Nat.le_mul_of_pos_left _ hn1) hfuel2
  obtain ⟨f, hf⟩ : ∃ f, fuel = f + 1 := ⟨fuel - 1, by omega⟩
  unfold ffs_cleanupFT
  rw [hf, ffs_cleanupFT_loop, ← hf]
  simp only [hres, and_self, if_true]
  rw [← hm3]
  rcases hcase with ⟨hoe1, hpost⟩ | ⟨hoe1, rest1, hinv1, hst, hj, hlen⟩
  · rw [if_pos hoe1]; exact hpost
  · rw [if_neg (Nat.ne_of_lt hoe1), hst, hj]
    apply clean_loop c hc m _ _ fuel hfuel1 f m3 _ ob1 oe1 rest1 [] 0 1 hinv1
      (fun h => by omega) (by omega)
    exact Nat.le_trans (Nat.mul_le_mul_left _ (by omega)) hfuel2

theorem liveOf_all (c : Cfg) (hc : c.ok) :
    ∀ (es : List FFS_FTE_INFO_t),
      (∀ x ∈ es, x.FTE.startblock ≠ FFS_UNINIT16 c ∧ x.FTE.startblock ≠ FFS_NULL16 c) →
      liveOf c es = es := by
  intro es
  induction es with
  | nil => intro _; rfl
  | cons x xs ih =>
    intro h
    have hx := h x (List.mem_cons_self _ _)
    rw [liveOf_cons c hc, if_neg hx.2, if_neg hx.1, ih (fun y hy => h y (List.mem_cons_of_mem _ hy))]

theorem garbageOf_all (c : Cfg) (hc : c.ok) :
    ∀ (es : List FFS_FTE_INFO_t),
      (∀ x ∈ es, x.FTE.startblock ≠ FFS_UNINIT16 c ∧ x.FTE.startblock ≠ FFS_NULL16 c) →
      garbageOf c es = 0 := by
  intro es
  induction es with
  | nil => intro _; rfl
  | cons x xs ih =>
    intro h
    have hx := h x (List.mem_cons_self _ _)
    rw [garbageOf_cons c hc, if_neg hx.2, if_neg hx.1]
    exact ih (fun y hy => h y (List.mem_cons_of_mem _ hy))

/-- What `ffs_cleanupFT` does to a well-formed table: the new table, rooted at block 0,
is well-formed, holds no tombstone, and its live entries are those of the old table,
in order; blocks outside the old table that were in use are untouched. -/
theorem cleanup_effect (c : Cfg) (hc : c.ok) (m : Mem) (fs : FFS_FS_t) (ft : List Nat)
    (fuel : Nat) (hb : Bytes m) (ht : TableOK c m ft) (hlt : ∀ b ∈ ft, b < c.BlockCount)
    (hfs : FsOK c m fs) (hfuel1 : c.BlockCount ≤ fuel)
    (hfuel2 : FFS_FTENTRIESPERBLOCK c * (ft.length + 2) ≤ fuel) :
    ∃ m1 fs1 NT, ffs_cleanupFT c fuel m fs = some (RES_OK, m1, fs1) ∧
      TableOK c m1 NT ∧ NT.length < c.BlockCount ∧
      garbageOf c (tableEntries c m1 (0 :: NT)) = 0 ∧
      (liveEntries c m1 (0 :: NT)).map (fun e => e.FTE)
        = (liveEntries c m (0 :: ft)).map (fun e => e.FTE) ∧
      CleanFrame c m m1 (0 :: ft) ∧ Bytes m1 ∧ FsOK c m1 fs1 := by
  obtain ⟨m1, fs1, NT, used, free, hres, hwf, hNT, hb1, hf1, hs1, hte, humap, hfe, hfr⟩ :=
    cleanup_spec c hc m fs ft fuel hb ht hlt hfs hfuel1 hfuel2
  have hok := FTChainWF_ok c hc m1 _ hwf
  have hused : ∀ x ∈ used,
      x.FTE.startblock ≠ FFS_UNINIT16 c ∧ x.FTE.startblock ≠ FFS_NULL16 c := by
    intro x hx
    have h1 : x.FTE ∈ used.map (fun e => e.FTE) := List.mem_map.mpr ⟨x, hx, rfl⟩
    rw [humap] at h1
    obtain ⟨y, hy, hyx⟩ := List.mem_map.mp h1
    have := liveOf_valid c _ y hy
    rw [← hyx]; exact this
  have hfree : ∀ x ∈ free, x.FTE.startblock = FFS_UNINIT16 c := by
    intro x hx
    have h1 := erased_uninit16 c hc m1 x.fteAddr (hfe x hx)
    rw [slot_self c m1 (0 :: NT) x (by rw [hte]; exact List.mem_append_right _ hx)] at h1
    exact h1
  have hlen : NT.length < c.BlockCount := by
    have := chain_length_lt c.BlockCount (0 :: NT) (FTChainOK_nodup c m1 _ hok.1) (fun b hb2 => by
      rcases List.mem_cons.mp hb2 with h | h
      · rw [h]; exact Nat.lt_of_le_of_lt (Nat.zero_le _) hs1
      · exact hNT b h)
    simpa using this
  refine ⟨m1, fs1, NT, hres, hok, hlen, ?_, ?_, hfr, hb1, hf1, hs1⟩
  · rw [hte, garbageOf_append c hc]
    have hany : used.any (fun e => e.FTE.startblock == FFS_UNINIT16 c) = false := by
      rw [List.any_eq_false]
      intro x hx
      simpa using (hused x hx).1
    rw [hany]
    simp only [Bool.false_eq_true, if_false]
    rw [garbageOf_all c hc used hused, garbageOf_erased c hc free hfree]
  · unfold liveEntries
    rw [hte, liveOf_append c hc free used (fun x hx => (hused x hx).1), liveOf_all c hc used hused,
      liveOf_erased c hc free hfree, List.append_nil, humap]
    rfl

theorem find_range_hit (P : Nat → Bool) :
    ∀ (n a b : Nat), a ≤ b → b < a + n → P b = true → (∀ k, a ≤ k → k < b → P k = false) →
      (List.range' a n).find? P = some b := by
  intro n
  induction n with
  | zero => intro a b h1 h2; omega
  | succ n ih =>
    intro a b h1 h2 hP hlt
    rw [List.range'_succ, List.find?_cons]
    by_cases hab : a = b
    · rw [hab, hP]
    · rw [hlt a (Nat.le_refl _) (by omega)]
      exact ih (a + 1) b (by omega) (by omega) hP (fun k hk1 hk2 => hlt k (by omega) hk2)

theorem find_range_miss (P : Nat → Bool) (n a : Nat)
    (h : ∀ k, a ≤ k → k < a + n → P k = false) : (List.range' a n).find? P = none := by
  rw [List.find?_eq_none]
  intro x hx
  rw [List.mem_range'_1] at hx
  rw [h x hx.1 hx.2]
  decide

/-- The first unused block behind the cursor is the first unused block of the scan
order. -/
theorem FirstFreeFrom_find (c : Cfg) (m : Mem) (s b : Nat) (hs : s < c.BlockCount)
    (h : FirstFreeFrom c m s b) :
    (scanOrder c s).find? (fun k => decide (m (k * c.FLASH_BLOCKSIZE) = FFS_B_UNUSED c))
      = some b := by
  obtain ⟨hu, hb1, hbN, hcase⟩ := h
  unfold scanOrder
  rw [List.find?_append]
  rcases hcase with ⟨h1, h2⟩ | ⟨h1, h2, h3⟩
  · rw [find_range_hit _ _ _ b (by omega) (by omega) (by simpa using hu)
      (fun k hk1 hk2 => by simpa using h2 k (by omega) hk2)]
    rfl
  · rw [find_range_miss _ _ _ (fun k hk1 hk2 => by simpa using h2 k (by omega) (by omega)),
      find_range_hit _ _ _ b hb1 (by omega) (by simpa using hu)
        (fun k hk1 hk2 => by simpa using h3 k hk1 hk2)]
    rfl

/-- With the cursor at 65535 on a device without unused block the scan of the
allocator never ends: it runs out of any amount of fuel. -/
theorem FUB_spin (c : Cfg) (m : Mem) (hN2 : 2 ≤ c.BlockCount) (hN : c.BlockCount ≤ 65535)
    (hfull : ∀ k, k < c.BlockCount → m (k * c.FLASH_BLOCKSIZE) ≠ FFS_B_UNUSED c) :
    ∀ (fuel block : Nat) (fs : FFS_FS_t), block < c.BlockCount ∨ block = 65535 →
      FindUnusedBlock_loop c m 65535 fuel block fs = none := by
  intro fuel
  induction fuel with
  | zero => intro block fs _; rfl
  | succ fuel ih =>
    intro block fs hb
    rcases hb with hb | hb
    · by_cases h1 : block + 1 < c.BlockCount
      · rw [FUB_step c m _ fuel block fs h1 hN, if_neg (by omega), if_pos (hfull _ h1)]
        exact ih _ fs (Or.inl h1)
      · rw [FUB_wrap c m _ fuel block fs (by omega) hN, if_neg (by decide), if_neg (by decide),
          if_pos (hfull 1 (by omega))]
        exact ih 1 fs (Or.inl (by omega))
    · rw [hb, FindUnusedBlock_loop]
      have e : (65535 + 1) % 65536 = 0 := by decide
      have e2 : ¬ (0 = c.BlockCount) := by omega
      have e3 : ¬ ((0 : Nat) = 65535) := by decide
      simp only [e, e2, false_and, if_false, e3]
      rw [if_pos (hfull 0 (by omega))]
      exact ih 0 fs (Or.inl (by omega))

theorem fresh_chain (c : Cfg) (hc : c.ok) (m : Mem) (h : FreshOK c m) : FTChainOK c m [0] := by
  show m (0 * c.FLASH_BLOCKSIZE) ≠ _
  rw [Nat.zero_mul, h.1]; exact ft_status_facts c hc

/-- Every entry slot of a fresh table is never used. -/
theorem fresh_entries (c : Cfg) (hc : c.ok) (m : Mem) (h : FreshOK c m) (hN : 1 ≤ c.BlockCount) :
    ∀ x ∈ tableEntries c m [0], x.FTE.startblock = FFS_UNINIT16 c := by
  have hB := hc.2.1
  intro x hx
  obtain ⟨b, hb, i, hi, hxe⟩ := (mem_tableEntries c m [0] x).mp hx
  rw [List.mem_singleton] at hb
  subst hb
  obtain ⟨r1, r2⟩ := slot_range c hc 0 i hi
  have hNB : 1 * c.FLASH_BLOCKSIZE ≤ c.BlockCount * c.FLASH_BLOCKSIZE := Nat.mul_le_mul_right _ hN
  have := erased_uninit16 c hc m (FFS_ENTRYADDR c 0 i) (fun o ho => by
    have ho2 : o < 16 := ho
    exact h.2 _ (by omega) (by omega))
  rw [hxe]
  exact this

/-- On a fresh device every block but the table block is unused. -/
theorem fresh_free_count (c : Cfg) (hc : c.ok) (m : Mem) (h : FreshOK c m) :
    (freeBlocks c m).length = c.BlockCount - 1 := by
  have hB := hc.2.1
  unfold freeBlocks
  rw [List.filter_eq_self.mpr, List.length_range']
  intro k hk
  rw [List.mem_range'_1] at hk
  have := FreshOK_block c hc m h k hk.1 (by omega) 0 (by omega)
  rw [Nat.add_zero] at this
  simpa using this

/-- The blocks of a well-formed chain are pairwise different. -/
theorem ChainOK_nodup (c : Cfg) (hc : c.ok) (m : Mem) :
    ∀ (bs : List Blk) (v : Nat), ChainOK c m v bs → (bs.map Blk.idx).Nodup := by
  intro bs
  induction bs with
  | nil => intro v _; exact List.nodup_nil
  | cons p rest ih =>
    intro v h
    rw [List.map_cons, List.nodup_cons]
    refine ⟨?_, ih _ h.2⟩
    intro hin
    obtain ⟨b, hb, hbe⟩ := List.mem_map.mp hin
    exact ChainOK_head_notin c hc m p rest v h b hb hbe

/-- `ffs_fwrite` through an append handle: the handle is an append handle on the
extended chain afterwards, and the blocks added are pairwise different blocks that were
unused. -/
theorem fwrite_append (c : Cfg) (hc : c.ok) (fuel : Nat) (hN : c.BlockCount ≤ fuel) (m : Mem)
    (fs : FFS_FS_t) (bs : List Blk) (cur data : List Nat) (F : FFS_FILE_t)
    (h : AppendOK c m bs cur F) (hfs : FsOK c m fs) (hd : ∀ x ∈ data, x < 256)
    (hlen : (fileBytes bs).length + cur.length + data.length < 4294967296)
    (hfuel : data.length < fuel) :
    ∃ k m1 fs1 F1 bs1 cur1 new, ffs_fwrite c fuel m fs data F = some (k, m1, fs1, F1) ∧
      k ≤ data.length ∧ AppendOK c m1 bs1 cur1 F1 ∧
      fileBytes bs1 ++ cur1 = fileBytes bs ++ cur ++ data.take k ∧
      FsOK c m1 fs1 ∧ bs1.map Blk.idx = bs.map Blk.idx ++ new ∧
      (∀ j ∈ new, m (j * c.FLASH_BLOCKSIZE) = FFS_UNINIT8 c ∧ 1 ≤ j ∧ j < c.BlockCount) ∧
      Touched c m m1 (bs1.map Blk.idx) ∧ (bs1.map Blk.idx).Nodup := by
  have hbsne : bs ≠ [] := by
    obtain ⟨pre, t, hbs, _⟩ := h.2.2.2
    rw [hbs]; simp
  obtain ⟨k, m1, fs1, F1, bs1, cur1, new, e, hk, w1, w2, w3, w4, w5, w6, w7, w8, w9, w10, w11⟩ :=
    fwrite_spec c hc fuel hN m fs bs cur data F h hfs hd hlen hfuel
  rw [Nat.zero_add] at e
  have hA1 : AppendOK c m1 bs1 cur1 F1 :=
    ⟨by rw [w1]; exact h.1, by rw [w2, nextIdx_of_map bs bs1 new w9 hbsne]; exact h.2.1, by
      rw [w3]
      have := congrArg List.length w5
      simp only [List.length_append, List.length_take] at this
      omega, w4⟩
  obtain ⟨m2, F2, bs2, _, _, c3, _, c5, _⟩ := fclose_spec c hc m1 bs1 cur1 F1 hA1
  have hnd := ChainOK_nodup c hc m2 bs2 0 c3.1
  rw [c5] at hnd
  exact ⟨k, m1, fs1, F1, bs1, cur1, new, e, hk, hA1, w5, w7, w9, w10, w11, hnd⟩

/-- `ffs_fflush` on an append handle: it returns `RES_OK`, leaves the device as
`ffs_fclose` would leave it, keeps the offset and the mode of the handle, and a second
flush changes nothing. -/
theorem fflush_facts (c : Cfg) (m : Mem) (F : FFS_FILE_t) (h : F.filemode = FFS_WR_APPEND) :
    (ffs_fflush c m F).1 = RES_OK ∧
    (ffs_fclose c m (some F)).2.1 = (ffs_fflush c m F).2.1 ∧
    (ffs_fflush c m F).2.2.virt_addr = F.virt_addr ∧
    (ffs_fflush c m F).2.2.filemode = FFS_WR_APPEND ∧
    (ffs_fflush c m F).2.2.startblock = F.startblock ∧
    ffs_fflush c (ffs_fflush c m F).2.1 (ffs_fflush c m F).2.2
      = (RES_OK, (ffs_fflush c m F).2.1, (ffs_fflush c m F).2.2) := by
  have hne : FFS_WR_APPEND ≠ FFS_RD := by decide
  have h0 : ¬ (0 > sizeof_CHDR) := by decide
  have h1 : ¬ (sizeof_CHDR > sizeof_CHDR) := by decide
  by_cases hn : F.nBytes > sizeof_CHDR
  · by_cases hb : F.hw_addr + F.nBytes - (F.hw_addr - F.hw_addr % c.FLASH_BLOCKSIZE)
        > c.FLASH_BLOCKSIZE - sizeof_CHDR - 1
    · simp only [ffs_fclose, ffs_fflush, h, hne, ne_eq, not_true_eq_false, if_false, if_true,
        if_pos hn, if_pos hb, h0, and_self]
    · simp only [ffs_fclose, ffs_fflush, h, hne, ne_eq, not_true_eq_false, if_false, if_true,
        if_pos hn, if_neg hb, h1, and_self]
  · simp only [ffs_fclose, ffs_fflush, h, hne, ne_eq, not_true_eq_false, if_false, if_true,
      if_neg hn, and_self]

theorem nextIdx_snoc_idx (pre : List Blk) (t t2 : Blk) (h : t2.idx = t.idx) :
    nextIdx (pre ++ [t2]) = nextIdx (pre ++ [t]) := by
  cases pre with
  | nil => simp [nextIdx, h]
  | cons p rest => simp [nextIdx]

/-- An append-mode handle with nothing unflushed stands on a cleanly closed file. -/
theorem AppendOK_flushed (c : Cfg) (hc : c.ok) (m : Mem) (bs : List Blk) (cur : List Nat)
    (F : FFS_FILE_t) (h : AppendOK c m bs cur F) (hn : F.nBytes ≤ 1) :
    cur = [] ∧ ClosedOK c m bs := by
  obtain ⟨hmode, hstart, hvirt, pre, t, hbs, hpos⟩ := h
  subst hbs
  rcases hpos with ⟨hnB, hcur, hhw, hchain, hfull⟩ | ⟨rem, hrem, hnB, hinv⟩
  · exact ⟨hcur, hchain, pre, t, rfl, Or.inl hfull⟩
  · have hnB1 : F.nBytes = cur.length + 1 := hinv.2.2.2.1
    have hcur : cur = [] := List.length_eq_zero.mp (by omega)
    subst hcur
    have hnB0 : F.nBytes = 1 := by simpa using hnB1
    rw [hnB0] at hinv
    refine ⟨rfl, WrInv_chain c hc m pre t _ rem hinv, pre, t, rfl, Or.inr ?_⟩
    intro x hx1 hx2
    obtain ⟨_, _, e1, _, _, e4, _, e6⟩ := hinv
    rw [← e1] at hx1
    by_cases hx : x = F.hw_addr
    · rw [hx]; exact e4
    · exact e6 x (by omega) hx2

/-- Flushing an append-mode handle finalizes the open chunk, when it holds data, and
leaves the handle in a writing position with nothing unflushed. -/
theorem fflush_spec (c : Cfg) (hc : c.ok) (m : Mem) (bs : List Blk) (cur : List Nat)
    (F : FFS_FILE_t) (h : AppendOK c m bs cur F) :
    ∃ m1 F1 bs1, ffs_fflush c m F = (RES_OK, m1, F1) ∧ AppendOK c m1 bs1 [] F1 ∧
      fileBytes bs1 = fileBytes bs ++ cur ∧ bs1.map Blk.idx = bs.map Blk.idx ∧
      Touched c m m1 (bs.map Blk.idx) ∧ (FreeOK c m → FreeOK c m1) ∧
      (cur = [] → m1 = m ∧ F1 = F ∧ bs1 = bs) ∧
      (cur ≠ [] → m1 = flashSPAN_Write c m F.hw_addr [F.nBytes] ∧ 2 ≤ F.nBytes ∧
        F.nBytes ≤ 253 ∧ m F.hw_addr = FFS_UNINIT8 c) := by
  have hB := hc.2.1
  obtain ⟨hmode, hstart, hvirt, pre, t, hbs, hpos⟩ := h
  subst hbs
  unfold ffs_fflush
  rw [if_neg (by simp [hmode])]
  simp only [sizeof_CHDR]
  rcases hpos with ⟨hnB, hcur, hhw, hchain, hfull⟩ | ⟨rem, hrem, hnB, hinv⟩
  · subst hcur
    rw [if_neg (by omega)]
    exact ⟨m, F, pre ++ [t], rfl,
      ⟨hmode, hstart, hvirt, pre, t, rfl, Or.inl ⟨hnB, rfl, hhw, hchain, hfull⟩⟩, by simp, rfl,
      Touched_refl c m _, fun h => h, fun _ => ⟨rfl, rfl, rfl⟩, fun h => absurd rfl h⟩
  · have hnB1 : F.nBytes = cur.length + 1 := hinv.2.2.2.1
    by_cases hcur : cur.length = 0
    · have : cur = [] := List.length_eq_zero.mp hcur
      subst this
      rw [if_neg (by omega)]
      exact ⟨m, F, pre ++ [t], rfl,
        ⟨hmode, hstart, hvirt, pre, t, rfl, Or.inr ⟨rem, hrem, hnB, hinv⟩⟩, by simp, rfl,
        Touched_refl c m _, fun h => h, fun _ => ⟨rfl, rfl, rfl⟩, fun h => absurd rfl h⟩
    · rw [if_pos (by omega)]
      have hcne : cur ≠ [] := fun h => hcur (by rw [h]; rfl)
      have hge := chunksEnd_ge (t.idx * c.FLASH_BLOCKSIZE + 8) t.chunks
      have hhw := hinv.2.2.1
      have hsum := hinv.2.2.2.2.1
      have herased := hinv.2.2.2.2.2.1
      have hmod : F.hw_addr % c.FLASH_BLOCKSIZE = F.hw_addr - t.idx * c.FLASH_BLOCKSIZE := by
        have := mod_block t.idx c.FLASH_BLOCKSIZE (F.hw_addr - t.idx * c.FLASH_BLOCKSIZE)
          (by omega)
        rw [← this]; congr 1; omega
      have hca : F.hw_addr - F.hw_addr % c.FLASH_BLOCKSIZE = t.idx * c.FLASH_BLOCKSIZE := by
        rw [hmod]; omega
      rw [hca]
      obtain ⟨b1, b2, b3, b4, b5, b6⟩ := WrInv_close c hc m pre t cur F.hw_addr F.nBytes rem hinv
        (by omega) (by omega)
      have hvirt1 : F.virt_addr
          = (fileBytes (pre ++ [{ idx := t.idx, chunks := t.chunks ++ [cur] }])).length
            + ([] : List Nat).length := by
        rw [hvirt]
        simp [fileBytes_snoc, Nat.add_assoc]
      have hstart1 : nextIdx (pre ++ [{ idx := t.idx, chunks := t.chunks ++ [cur] }])
          = some F.startblock := by
        exact (nextIdx_snoc_idx pre t { idx := t.idx, chunks := t.chunks ++ [cur] } rfl).trans
          hstart
      by_cases hr1 : rem ≤ 1
      · rw [if_pos (by omega)]
        obtain ⟨f1, f2⟩ := WrInv_full c hc m pre t cur F.hw_addr F.nBytes rem hinv (by omega)
          (by omega) hr1
        exact ⟨_, _, pre ++ [{ idx := t.idx, chunks := t.chunks ++ [cur] }], rfl,
          ⟨hmode, hstart1, hvirt1, pre, _, rfl, Or.inl ⟨rfl, rfl, rfl, f1, f2⟩⟩,
          by simp [fileBytes_snoc], by simp, Touched_mono c m _ [t.idx] _ b5 (by simp), b6,
          fun h => absurd h hcne, fun _ => ⟨rfl, by omega, hnB, herased⟩⟩
      · rw [if_neg (by omega)]
        have f1 := WrInv_next c hc m pre t cur F.hw_addr F.nBytes rem (rem - 1) hinv (by omega)
          (by omega) (by omega)
        exact ⟨_, _, pre ++ [{ idx := t.idx, chunks := t.chunks ++ [cur] }], rfl,
          ⟨hmode, hstart1, hvirt1, pre, _, rfl,
            Or.inr ⟨rem - 1, by omega, Nat.le_of_ble_eq_true rfl, f1⟩⟩,
          by simp [fileBytes_snoc], by simp, Touched_mono c m _ [t.idx] _ b5 (by simp), b6,
          fun h => absurd h hcne, fun _ => ⟨rfl, by omega, hnB, herased⟩⟩

theorem ChunkTail_headers (c : Cfg) (m : Mem) (base : Nat) (last : Bool) :
    ∀ (cs : List (List Nat)) (a : Nat), ChunkTail c m base last a cs →
      ∀ i, i < cs.length →
        m (chunksEnd a (cs.take i)) = (cs.getD i []).length + 1 ∧
        1 ≤ (cs.getD i []).length ∧ (cs.getD i []).length ≤ 253 := by
  intro cs
  induction cs with
  | nil => intro a _ i hi; simp at hi
  | cons ch rest ih =>
    intro a h i hi
    obtain ⟨h1, h2, _, h4, _, h6⟩ := h
    cases i with
    | zero =>
      simp only [List.take_zero, chunksEnd_nil, List.getD_cons_zero]
      exact ⟨h4, h1, h2⟩
    | succ j =>
      have := ih (a + 1 + ch.length) h6 j (by simpa using hi)
      simp only [List.take_succ_cons, chunksEnd_cons, List.getD_cons_succ]
      exact this

theorem BlockOK_headers (c : Cfg) (hc : c.ok) (m : Mem) (b : Blk) (v : Nat) (nxt : Option Nat)
    (h : BlockOK c m b v nxt) : HeadersOK c m [b] := by
  intro b2 hb2 i hi
  simp only [List.mem_singleton] at hb2
  subst hb2
  obtain ⟨q1, q2, q3⟩ := ChunkTail_headers c m _ _ b2.chunks _ h.2.2 i hi
  unfold chunkAddr
  refine ⟨q1, by rw [q1]; omega, by rw [q1]; omega, ?_⟩
  rw [q1]
  exact hdr_ne_uninit c hc _ (by omega) (by omega)

theorem ChainOK_headers (c : Cfg) (hc : c.ok) (m : Mem) :
    ∀ (bs : List Blk) (v : Nat), ChainOK c m v bs → HeadersOK c m bs := by
  intro bs
  induction bs with
  | nil => intro v _ b hb; simp at hb
  | cons p rest ih =>
    intro v h b hb
    rcases List.mem_cons.mp hb with hb | hb
    · rw [hb]
      exact BlockOK_headers c hc m p v _ h.1 p (List.mem_singleton_self _)
    · exact ih _ h.2 b hb

theorem AppendPos_chain (c : Cfg) (m : Mem) (bs : List Blk) (cur : List Nat) (F : FFS_FILE_t)
    (h : AppendPos c m bs cur F) : ChainOK c m 0 bs := by
  obtain ⟨pre, t, hbs, hpos⟩ := h
  subst hbs
  rcases hpos with ⟨_, _, _, hchain, _⟩ | ⟨rem, _, _, hinv⟩
  · exact hchain
  · rw [ChainOK_iff_seg, ChainSeg_append]
    exact ⟨hinv.1, by simpa [ChainSeg] using hinv.2.1⟩

/-- An append-mode handle in a writing position: `nBytes` is at most 253, and the open
chunk ends inside the block of the handle. -/
theorem AppendPos_bounds (c : Cfg) (hc : c.ok) (m : Mem) (bs : List Blk) (cur : List Nat)
    (F : FFS_FILE_t) (h : AppendPos c m bs cur F) :
    F.nBytes ≤ 253 ∧
    F.hw_addr + F.nBytes ≤ F.hw_addr / c.FLASH_BLOCKSIZE * c.FLASH_BLOCKSIZE + c.FLASH_BLOCKSIZE ∧
    (F.nBytes = 0 ∨ (F.nBytes = cur.length + 1 ∧
      F.hw_addr + F.nBytes < F.hw_addr / c.FLASH_BLOCKSIZE * c.FLASH_BLOCKSIZE
        + c.FLASH_BLOCKSIZE)) := by
  have hB := hc.2.1
  obtain ⟨pre, t, hbs, hpos⟩ := h
  rcases hpos with ⟨hn, _, hhw, _, _⟩ | ⟨rem, hrem, hnB, hinv⟩
  · rw [hn, hhw, Nat.mul_div_cancel _ (by omega : 0 < c.FLASH_BLOCKSIZE)]
    exact ⟨by omega, by omega, Or.inl rfl⟩
  · have hge := chunksEnd_ge (t.idx * c.FLASH_BLOCKSIZE + 8) t.chunks
    have hhw := hinv.2.2.1
    have hsum := hinv.2.2.2.2.1
    have e1 : F.hw_addr / c.FLASH_BLOCKSIZE = t.idx := by
      have := div_block t.idx c.FLASH_BLOCKSIZE (F.hw_addr - t.idx * c.FLASH_BLOCKSIZE) (by omega)
      rw [← this]; congr 1; omega
    rw [e1]
    exact ⟨hnB, by omega, Or.inr ⟨hinv.2.2.2.1, by omega⟩⟩

theorem bytes_getD (L : List Nat) (h : ∀ x ∈ L, x < 256) : Bytes (fun a => L.getD a 0xFF) := by
  intro a
  show L.getD a 0xFF < 256
  by_cases ha : a < L.length
  · rw [List.getD_eq_getElem _ _ ha]
    exact h _ (List.getElem_mem _)
  · rw [List.getD_eq_default _ _ (by omega)]
    omega

theorem demo_bytes : Bytes demoDev := by
  apply bytes_getD
  decide

theorem tinyCfg_ok : tinyCfg.ok := by unfold Cfg.ok; decide

theorem full_table : TableOK tinyCfg fullDev [] := by
  simp only [TableOK, FTChainOK]
  decide

theorem full_nofree : NoFree tinyCfg fullDev := by
  intro k h1 h2
  have hk : k = 1 := by
    have : k < 2 := h2
    omega
  subst hk
  decide

theorem full_nofile : ¬ HasFile tinyCfg fullDev [0] [98, 0] := by
  unfold HasFile
  decide

/-- A handle that appends to a file consisting of one empty block stands at the start
of the payload of that block, with an empty open chunk. -/
theorem AppendOK_empty (c : Cfg) (hc : c.ok) (m : Mem) (b : Nat) (F : FFS_FILE_t)
    (h : AppendOK c m [{ idx := b, chunks := [] }] [] F) :
    F.filemode = FFS_WR_APPEND ∧ F.startblock = b ∧
    F.hw_addr = b * c.FLASH_BLOCKSIZE + sizeof_BHDR ∧ F.nBytes = sizeof_CHDR ∧
    m (b * c.FLASH_BLOCKSIZE) = FFS_B_EOF c ∧
    rd32 m (b * c.FLASH_BLOCKSIZE + offsetof_virt_addr) = 0 ∧
    m (b * c.FLASH_BLOCKSIZE + sizeof_BHDR) = FFS_UNINIT8 c := by
  have hB := hc.2.1
  obtain ⟨h1, h2, _, pre, t, hbs, hpos⟩ := h
  have hpt : pre = [] ∧ t = { idx := b, chunks := [] } := by
    cases pre with
    | nil => simp at hbs; exact ⟨rfl, hbs.symm⟩
    | cons p pre => simp at hbs
  obtain ⟨rfl, rfl⟩ := hpt
  have hsb : F.startblock = b := by simpa [nextIdx] using h2.symm
  rcases hpos with ⟨_, _, _, _, hfull⟩ | ⟨rem, _, _, hw⟩
  · simp only [chunksEnd_nil] at hfull
    omega
  · obtain ⟨_, hblk, hhw, hnB, _, hhd, _, _⟩ := hw
    simp only [chunksEnd_nil] at hhw
    refine ⟨h1, hsb, hhw, by simpa [sizeof_CHDR] using hnB, hblk.2.1.1, hblk.1, ?_⟩
    rw [hhw] at hhd
    exact hhd

theorem demo_tablewf : TableWF demoCfg demoDev [] := by
  refine ⟨?_, fun b hb => by simp at hb, tableEntries demoCfg demoDev [0], [], by simp, ?_,
    fun x hx => by simp at hx⟩
  · simp only [FTChainWF]
    decide
  · decide

theorem demo_names : NamesNodup demoCfg demoDev [] := by
  unfold NamesNodup
  decide

theorem enumCfg_ok : enumCfg.ok := by unfold Cfg.ok; decide

theorem enum_bytes : Bytes enumDev := by
  apply bytes_getD
  decide

theorem enum_table : TableOK enumCfg enumDev [] := by
  simp only [TableOK, FTChainOK]
  decide

set_option maxRecDepth 100000 in
theorem enum_free : FreeOK enumCfg enumDev := by
  unfold FreeOK
  decide

theorem ChainOK_congr_agree (c : Cfg) (hc : c.ok) (m m1 : Mem) (bs : List Blk) (v : Nat)
    (hag : ∀ b ∈ bs, AgreeOn m m1 (b.idx * c.FLASH_BLOCKSIZE)
      (b.idx * c.FLASH_BLOCKSIZE + c.FLASH_BLOCKSIZE))
    (h : ChainOK c m v bs) : ChainOK c m1 v bs := by
  rw [ChainOK_iff_seg] at h ⊢
  exact ChainSeg_congr c hc m m1 none bs v hag h

theorem WrInv_congr (c : Cfg) (hc : c.ok) (m m1 : Mem) (pre : List Blk) (t : Blk)
    (cur : List Nat) (hw nB rem : Nat)
    (hag : ∀ b ∈ pre ++ [t], AgreeOn m m1 (b.idx * c.FLASH_BLOCKSIZE)
      (b.idx * c.FLASH_BLOCKSIZE + c.FLASH_BLOCKSIZE))
    (h : WrInv c m pre t cur hw nB rem) : WrInv c m1 pre t cur hw nB rem := by
  obtain ⟨hseg, hblk, hhw, hnB, hsum, hhd, hrd, htail⟩ := h
  have hge := chunksEnd_ge (t.idx * c.FLASH_BLOCKSIZE + 8) t.chunks
  have hat := hag t (by simp)
  refine ⟨ChainSeg_congr c hc m m1 _ pre 0 (fun b hb => hag b (by simp [hb])) hseg,
    BlockOK_congr c hc m m1 t _ none hat hblk, hhw, hnB, hsum, ?_, ?_, ?_⟩
  · rw [hat hw (by omega) (by omega)]; exact hhd
  · have := Read_congr m m1 (hw + 1) cur.length (fun i hi => hat _ (by omega) (by omega))
    rw [this]; exact hrd
  · intro x hx1 hx2
    rw [hat x (by omega) hx2]
    exact htail x hx1 hx2

theorem AppendOK_congr (c : Cfg) (hc : c.ok) (m m1 : Mem) (bs : List Blk) (cur : List Nat)
    (F : FFS_FILE_t)
    (hag : ∀ b ∈ bs, AgreeOn m m1 (b.idx * c.FLASH_BLOCKSIZE)
      (b.idx * c.FLASH_BLOCKSIZE + c.FLASH_BLOCKSIZE))
    (h : AppendOK c m bs cur F) : AppendOK c m1 bs cur F := by
  obtain ⟨hmode, hstart, hvirt, pre, t, hbs, hpos⟩ := h
  subst hbs
  refine ⟨hmode, hstart, hvirt, pre, t, rfl, ?_⟩
  rcases hpos with ⟨hnB, hcur, hhw, hchain, hfull⟩ | ⟨rem, hrem, hnB, hinv⟩
  · exact Or.inl ⟨hnB, hcur, hhw, ChainOK_congr_agree c hc m m1 _ 0 hag hchain, hfull⟩
  · exact Or.inr ⟨rem, hrem, hnB, WrInv_congr c hc m m1 pre t cur _ _ rem hag hinv⟩

theorem FileSt_congr (c : Cfg) (hc : c.ok) (m m1 : Mem) (F : FFS_FILE_t) (bs : List Blk)
    (hag : ∀ b ∈ bs, AgreeOn m m1 (b.idx * c.FLASH_BLOCKSIZE)
      (b.idx * c.FLASH_BLOCKSIZE + c.FLASH_BLOCKSIZE))
    (h : FileSt c m F bs) : FileSt c m1 F bs := by
  rcases h with h | ⟨cur, h⟩
  · exact Or.inl (ClosedOK_congr c hc m m1 bs hag h)
  · exact Or.inr ⟨cur, AppendOK_congr c hc m m1 bs cur F hag h⟩

/-- A file on which the handle does not stand is cleanly closed. -/
theorem FileSt_other (c : Cfg) (m : Mem) (F : FFS_FILE_t) (bs : List Blk)
    (h : FileSt c m F bs)
    (hne : F.filemode = FFS_WR_APPEND → nextIdx bs ≠ some F.startblock) : ClosedOK c m bs := by
  rcases h with h | ⟨cur, h⟩
  · exact h
  · exact absurd h.2.1 (hne h.1)

theorem FileSt_chain (c : Cfg) (m : Mem) (F : FFS_FILE_t) (bs : List Blk)
    (h : FileSt c m F bs) : ChainOK c m 0 bs := by
  rcases h with h | ⟨cur, h⟩
  · exact h.1
  · exact AppendPos_chain c m bs cur F h.2.2.2

/-- A handle without unflushed data leaves every file cleanly closed. -/
theorem FileSt_flushed (c : Cfg) (hc : c.ok) (m : Mem) (F : FFS_FILE_t) (bs : List Blk)
    (h : FileSt c m F bs) (hfl : F.filemode = FFS_WR_APPEND → F.nBytes ≤ 1) :
    ClosedOK c m bs := by
  rcases h with h | ⟨cur, h⟩
  · exact h
  · exact (AppendOK_flushed c hc m bs cur F h (hfl h.1)).2

/-- Writes outside the table blocks leave the table as it is. -/
theorem TableWF_touched (c : Cfg) (hc : c.ok) (m m1 : Mem) (S ft : List Nat)
    (hT : Touched c m m1 S) (hS : ∀ b ∈ 0 :: ft, b ∉ S) (h : TableWF c m ft) :
    TableWF c m1 ft ∧ tableEntries c m1 (0 :: ft) = tableEntries c m (0 :: ft) := by
  have hB := hc.2.1
  obtain ⟨hchain, hbound, used, free, hes, hused, hfree⟩ := h
  have hte := tableEntries_touched c hc m m1 S hT (0 :: ft) hS
  have hkeep : ∀ b ∈ 0 :: ft, ∀ o, o < c.FLASH_BLOCKSIZE →
      m1 (b * c.FLASH_BLOCKSIZE + o) = m (b * c.FLASH_BLOCKSIZE + o) := by
    intro b hb o ho
    apply hT
    rw [div_block b _ o ho]
    exact hS b hb
  refine ⟨⟨FTChainWF_congr c m m1 _ (fun b hb o ho => hkeep b hb o (by omega)) hchain, hbound,
    used, free, by rw [hte]; exact hes, hused, ?_⟩, hte⟩
  intro x hx o ho
  have hxm : x ∈ tableEntries c m (0 :: ft) := by
    rw [hes]; exact List.mem_append_right _ hx
  obtain ⟨b, hb, i, hi, hxe⟩ := (mem_tableEntries c m _ x).mp hxm
  have ha : x.fteAddr = FFS_ENTRYADDR c b i := by rw [hxe]; rfl
  rw [ha]
  have hdiv := slot_div c hc b i o hi (by simpa [sizeof_FTE, FFS_FILENAME_LEN] using ho)
  rw [hT _ (by rw [hdiv]; exact hS b hb), ← ha]
  exact hfree x hx o ho

theorem live_fte_mem (c : Cfg) (m m1 : Mem) (L L1 : List Nat)
    (hlive : (liveEntries c m1 L1).map (fun e => e.FTE)
      = (liveEntries c m L).map (fun e => e.FTE))
    (e : FFS_FTE_INFO_t) (he : e ∈ liveEntries c m1 L1) :
    ∃ e0 ∈ liveEntries c m L, e0.FTE = e.FTE := by
  have : e.FTE ∈ (liveEntries c m1 L1).map (fun e => e.FTE) := List.mem_map_of_mem _ he
  rw [hlive] at this
  obtain ⟨e0, h0, h1⟩ := List.mem_map.mp this
  exact ⟨e0, h0, h1⟩

theorem live_fte_names (c : Cfg) (m m1 : Mem) (ft ft1 : List Nat)
    (hlive : (liveEntries c m1 (0 :: ft1)).map (fun e => e.FTE)
      = (liveEntries c m (0 :: ft)).map (fun e => e.FTE))
    (h : NamesNodup c m ft) : NamesNodup c m1 ft1 := by
  unfold NamesNodup at h ⊢
  have e1 : ∀ L : List FFS_FTE_INFO_t, L.map (fun e => cstr e.FTE.filename)
      = (L.map (fun e => e.FTE)).map (fun f => cstr f.filename) := by
    intro L; rw [List.map_map]; rfl
  rw [e1, hlive, ← e1]
  exact h

theorem live_fte_starts (c : Cfg) (m m1 : Mem) (L L1 : List Nat)
    (hlive : (liveEntries c m1 L1).map (fun e => e.FTE)
      = (liveEntries c m L).map (fun e => e.FTE)) :
    (liveEntries c m1 L1).map (fun e => e.FTE.startblock)
      = (liveEntries c m L).map (fun e => e.FTE.startblock) := by
  have e1 : ∀ L : List FFS_FTE_INFO_t, L.map (fun e => e.FTE.startblock)
      = (L.map (fun e => e.FTE)).map (fun f => f.startblock) := by
    intro L; rw [List.map_map]; rfl
  rw [e1, hlive, ← e1]

/-- A call that leaves the live entries and the blocks of all files as they are, and
that leaves the handle alone or leaves it in another mode than append mode while no
file has unflushed data, preserves the well-formedness of the file system. -/
theorem DiskWF_frame (c : Cfg) (hc : c.ok) (s : ApiState) (ft : List Nat) (ch : Nat → List Blk)
    (h : DiskWF c s ft ch) (m1 : Mem) (fs1 : FFS_FS_t) (F1 : FFS_FILE_t) (ft1 : List Nat)
    (hb1 : Bytes m1) (ht1 : TableWF c m1 ft1) (hfs1 : FsOK c m1 fs1)
    (hlive : (liveEntries c m1 (0 :: ft1)).map (fun e => e.FTE)
      = (liveEntries c s.m (0 :: ft)).map (fun e => e.FTE))
    (hframe : ∀ e ∈ liveEntries c s.m (0 :: ft), ∀ b ∈ ch e.FTE.startblock,
      AgreeOn s.m m1 (b.idx * c.FLASH_BLOCKSIZE) (b.idx * c.FLASH_BLOCKSIZE + c.FLASH_BLOCKSIZE))
    (hF : F1 = s.F ∨ (F1.filemode ≠ FFS_WR_APPEND ∧
      (s.F.filemode = FFS_WR_APPEND → s.F.nBytes ≤ 1))) :
    DiskWF c { m := m1, fs := fs1, F := F1 } ft1 ch := by
  refine ⟨hb1, ht1, hfs1, live_fte_names c s.m m1 ft ft1 hlive h.names, ?_, ?_, ?_, ?_⟩
  · show ((liveEntries c m1 (0 :: ft1)).map (fun e => e.FTE.startblock)).Nodup
    rw [live_fte_starts c s.m m1 _ _ hlive]
    exact h.starts
  · intro e he
    obtain ⟨e0, he0, hfte⟩ := live_fte_mem c s.m m1 _ _ hlive e he
    obtain ⟨f1, f2, f3⟩ := h.files e0 he0
    rw [← hfte]
    refine ⟨f1, f2, ?_⟩
    rcases hF with hF | ⟨hF1, hF2⟩
    · rw [hF]
      exact FileSt_congr c hc s.m m1 s.F _ (hframe e0 he0) f3
    · exact Or.inl (ClosedOK_congr c hc s.m m1 _ (hframe e0 he0)
        (FileSt_flushed c hc s.m s.F _ f3 hF2))
  · intro e1 he1 e2 he2 hne
    obtain ⟨a1, ha1, hf1⟩ := live_fte_mem c s.m m1 _ _ hlive e1 he1
    obtain ⟨a2, ha2, hf2⟩ := live_fte_mem c s.m m1 _ _ hlive e2 he2
    rw [← hf1, ← hf2] at hne ⊢
    exact h.disjoint a1 ha1 a2 ha2 hne
  · intro hmode
    rcases hF with hF | ⟨hF1, _⟩
    · have hF' : F1 = s.F := hF
      rw [hF'] at hmode
      obtain ⟨e, he, cur, hap⟩ := h.handle hmode
      have : e.FTE ∈ (liveEntries c s.m (0 :: ft)).map (fun e => e.FTE) :=
        List.mem_map_of_mem _ he
      rw [← hlive] at this
      obtain ⟨e1, h1, h2⟩ := List.mem_map.mp this
      refine ⟨e1, h1, cur, ?_⟩
      show AppendOK c m1 (ch e1.FTE.startblock) cur F1
      rw [h2, hF']
      exact AppendOK_congr c hc s.m m1 _ cur s.F (hframe e he) hap
    · exact absurd hmode hF1

theorem getFile_loop_cursor (c : Cfg) (m : Mem) (fs : FFS_FS_t) (filename : List Nat) :
    ∀ (fuel block counter startentry : Nat) (r : RES_t) (fs1 : FFS_FS_t) (b1 : List Nat),
      ffs_getFile_loop c m fs filename fuel block counter startentry = some (r, fs1, b1) →
      fs1.BlockSearchStart = fs.BlockSearchStart := by
  intro fuel
  induction fuel with
  | zero => intro block counter startentry r fs1 b1 h; simp [ffs_getFile_loop] at h
  | succ fuel ih =>
    intro block counter startentry r fs1 b1 h
    rw [ffs_getFile_loop] at h
    split at h
    · simp only [Option.some.injEq, Prod.mk.injEq] at h
      rw [← h.2.1]
    · simp only [Option.some.injEq, Prod.mk.injEq] at h
      rw [← h.2.1]
    · split at h
      · exact ih _ _ _ _ _ _ h
      · simp only [Option.some.injEq, Prod.mk.injEq] at h
        rw [← h.2.1]

/-- `ffs_getFile` leaves the search cursor of the allocator alone. -/
theorem getFile_cursor (c : Cfg) (fuel : Nat) (m : Mem) (fs : FFS_FS_t)
    (buf : Option (List Nat)) (r : RES_t) (fs1 : FFS_FS_t) (buf1 : Option (List Nat))
    (h : ffs_getFile c fuel m fs buf = some (r, fs1, buf1)) :
    fs1.BlockSearchStart = fs.BlockSearchStart := by
  unfold ffs_getFile at h
  split at h
  · simp only [Option.some.injEq, Prod.mk.injEq] at h
    rw [← h.2.1]
  · split at h
    · simp at h
    · simp only [Option.some.injEq, Prod.mk.injEq] at h
      rw [← h.2.1]
    · cases hl : ffs_getFile_loop c m fs _ fuel _ _ (fs.GetFileCounter % FFS_FTENTRIESPERBLOCK c)
        with
      | none => rw [hl] at h; simp at h
      | some q =>
        rw [hl] at h
        simp only [Option.map_some', Option.some.injEq, Prod.mk.injEq] at h
        obtain ⟨q1, q2, q3⟩ := q
        have := getFile_loop_cursor c m fs _ fuel _ _ _ q1 q2 q3 hl
        rw [← h.2.1]
        exact this

theorem fread_loop_mode (c : Cfg) (m : Mem) (FILE : FFS_FILE_t) (size : Nat) :
    ∀ (fuel done : Nat) (buf : List Nat) (block hw nB virt k : Nat) (buf1 : List Nat)
      (F1 : FFS_FILE_t),
      ffs_fread_loop c m FILE size fuel done buf block hw nB virt = some (k, buf1, F1) →
      F1.filemode = FILE.filemode := by
  intro fuel
  induction fuel with
  | zero => intro done buf block hw nB virt k buf1 F1 h; simp [ffs_fread_loop] at h
  | succ fuel ih =>
    intro done buf block hw nB virt k buf1 F1 h
    rw [ffs_fread_loop] at h
    simp only at h
    split_ifs at h
    all_goals first
      | exact ih _ _ _ _ _ _ _ _ _ h
      | (simp only [Option.some.injEq, Prod.mk.injEq] at h; rw [← h.2.2])

/-- `ffs_fread` keeps the mode of the handle, and leaves a handle alone that is not in
read mode. -/
theorem fread_mode (c : Cfg) (fuel : Nat) (m : Mem) (size : Nat) (F : FFS_FILE_t) (k : Nat)
    (buf : List Nat) (F1 : FFS_FILE_t) (h : ffs_fread c fuel m size F = some (k, buf, F1)) :
    F1.filemode = F.filemode ∧ (F.filemode ≠ FFS_RD → F1 = F) := by
  unfold ffs_fread at h
  by_cases hm : F.filemode ≠ FFS_RD
  · rw [if_pos hm] at h
    simp only [Option.some.injEq, Prod.mk.injEq] at h
    rw [← h.2.2]
    exact ⟨rfl, fun _ => rfl⟩
  · rw [if_neg hm] at h
    refine ⟨?_, fun h2 => absurd h2 hm⟩
    simp only at h
    split at h
    · simp only [Option.some.injEq, Prod.mk.injEq] at h
      rename_i Fx heq
      rw [← h.2.2]
      split_ifs at heq
      all_goals first
        | (simp only [Sum.inr.injEq] at heq; rw [← heq])
        | (simp at heq; done)
    · simp only [Option.some.injEq, Prod.mk.injEq] at h
      rw [← h.2.2]
    · exact fread_loop_mode c m F size fuel 0 [] _ _ _ _ k buf F1 h

theorem fseek_scan_mode (c : Cfg) (m : Mem) (offset block : Nat) (FILE : FFS_FILE_t) :
    ∀ (fuel hw virt nB : Nat) (r : RES_t) (F1 : FFS_FILE_t),
      ffs_fseek_scan c m offset block FILE fuel hw virt nB = some (r, F1) →
      F1.filemode = FILE.filemode := by
  intro fuel
  induction fuel with
  | zero => intro hw virt nB r F1 h; simp [ffs_fseek_scan] at h
  | succ fuel ih =>
    intro hw virt nB r F1 h
    rw [ffs_fseek_scan] at h
    simp only at h
    split_ifs at h
    all_goals first
      | exact ih _ _ _ _ _ h
      | (simp only [Option.some.injEq, Prod.mk.injEq] at h; rw [← h.2])

/-- `ffs_fseek` keeps the mode of the handle, and leaves a handle alone that is not in
read mode. -/
theorem fseek_mode (c : Cfg) (fuel : Nat) (m : Mem) (F : FFS_FILE_t) (offset : Nat) (r : RES_t)
    (F1 : FFS_FILE_t) (h : ffs_fseek c fuel m F offset = some (r, F1)) :
    F1.filemode = F.filemode ∧ (F.filemode ≠ FFS_RD → F1 = F) := by
  unfold ffs_fseek at h
  by_cases hm : F.filemode ≠ FFS_RD
  · rw [if_pos hm] at h
    simp only [Option.some.injEq, Prod.mk.injEq] at h
    rw [← h.2]
    exact ⟨rfl, fun _ => rfl⟩
  · rw [if_neg hm] at h
    refine ⟨?_, fun h2 => absurd h2 hm⟩
    simp only at h
    split at h
    · simp at h
    · exact fseek_scan_mode c m offset _ F fuel _ _ _ r F1 h

/-- The table that `ffs_cleanupFT` builds is well-formed and has the live entries of
the old one. -/
theorem cleanup_tablewf (c : Cfg) (hc : c.ok) (m : Mem) (fs : FFS_FS_t) (ft : List Nat)
    (fuel : Nat) (hb : Bytes m) (ht : TableOK c m ft) (hlt : ∀ b ∈ ft, b < c.BlockCount)
    (hfs : FsOK c m fs) (hfuel1 : c.BlockCount ≤ fuel)
    (hfuel2 : FFS_FTENTRIESPERBLOCK c * (ft.length + 2) ≤ fuel) :
    ∃ m1 fs1 NT, ffs_cleanupFT c fuel m fs = some (RES_OK, m1, fs1) ∧
      TableWF c m1 NT ∧
      (liveEntries c m1 (0 :: NT)).map (fun e => e.FTE)
        = (liveEntries c m (0 :: ft)).map (fun e => e.FTE) ∧
      CleanFrame c m m1 (0 :: ft) ∧ Bytes m1 ∧ FsOK c m1 fs1 := by
  obtain ⟨m1, fs1, NT, used, free, hres, hwf, hNT, hb1, hf1, hs1, hte, humap, hfe, hfr⟩ :=
    cleanup_spec c hc m fs ft fuel hb ht hlt hfs hfuel1 hfuel2
  have hused : ∀ x ∈ used,
      x.FTE.startblock ≠ FFS_UNINIT16 c ∧ x.FTE.startblock ≠ FFS_NULL16 c := by
    intro x hx
    have h1 : x.FTE ∈ used.map (fun e => e.FTE) := List.mem_map.mpr ⟨x, hx, rfl⟩
    rw [humap] at h1
    obtain ⟨y, hy, hyx⟩ := List.mem_map.mp h1
    have := liveOf_valid c _ y hy
    rw [← hyx]; exact this
  have hfree : ∀ x ∈ free, x.FTE.startblock = FFS_UNINIT16 c := by
    intro x hx
    have h1 := erased_uninit16 c hc m1 x.fteAddr (hfe x hx)
    rw [slot_self c m1 (0 :: NT) x (by rw [hte]; exact List.mem_append_right _ hx)] at h1
    exact h1
  refine ⟨m1, fs1, NT, hres, ⟨hwf, hNT, used, free, hte, fun x hx => (hused x hx).1, hfe⟩, ?_,
    hfr, hb1, hf1, hs1⟩
  unfold liveEntries
  rw [hte, liveOf_append c hc free used (fun x hx => (hused x hx).1), liveOf_all c hc used hused,
    liveOf_erased c hc free hfree, List.append_nil, humap]
  rfl

/-- Facts about the chains of a well-formed file system: every chain is a well-formed
jump chain of at most `BlockCount` blocks that are in use, carry a data status and are
no table blocks. -/
theorem DiskWF_chain (c : Cfg) (hc : c.ok) (s : ApiState) (ft : List Nat) (ch : Nat → List Blk)
    (h : DiskWF c s ft ch) (e : FFS_FTE_INFO_t) (he : e ∈ liveEntries c s.m (0 :: ft)) :
    ChainOK c s.m 0 (ch e.FTE.startblock) ∧
    ((ch e.FTE.startblock).map Blk.idx).Nodup ∧
    (ch e.FTE.startblock).length ≤ c.BlockCount ∧
    (∀ b ∈ ch e.FTE.startblock, b.idx ∉ 0 :: ft ∧
      (s.m (b.idx * c.FLASH_BLOCKSIZE) = FFS_B_EOF c ∨
       s.m (b.idx * c.FLASH_BLOCKSIZE) = FFS_B_JUMP c) ∧
      s.m (b.idx * c.FLASH_BLOCKSIZE) ≠ FFS_B_UNUSED c ∧
      FFS_TST_FT c (s.m (b.idx * c.FLASH_BLOCKSIZE)) = false) := by
  have hsf := status_facts c hc
  have htf := tst_ft_facts c hc
  obtain ⟨f1, f2, f3⟩ := h.files e he
  have hch := FileSt_chain c s.m s.F _ f3
  have hnd := ChainOK_nodup c hc s.m _ 0 hch
  have hlen : (ch e.FTE.startblock).length ≤ c.BlockCount := by
    have := chain_length_lt c.BlockCount _ hnd (fun b hb => by
      obtain ⟨x, hx, hxb⟩ := List.mem_map.mp hb
      rw [← hxb]; exact f2 x hx)
    simpa using this
  refine ⟨hch, hnd, hlen, ?_⟩
  intro b hb
  have hst := ChainOK_status c s.m _ 0 hch b hb
  have hdis := table_chain_disjoint c hc s.m ft _ 0 (TableWF_ok c hc s.m ft h.table) hch
  refine ⟨fun hin => hdis _ hin (List.mem_map_of_mem _ hb), hst, ?_, ?_⟩
  · rcases hst with hst | hst <;> rw [hst]
    · exact hsf.2.1
    · exact hsf.2.2.1
  · rcases hst with hst | hst <;> rw [hst]
    · exact htf.1
    · exact htf.2.1

theorem DiskWF_table_len (c : Cfg) (hc : c.ok) (s : ApiState) (ft : List Nat)
    (ch : Nat → List Blk) (h : DiskWF c s ft ch) : ft.length < c.BlockCount :=
  TableWF_length c hc s.m ft h.table (by have := h.alloc.2; omega)

/-- A call that changes nothing outside the table blocks and the unused blocks leaves
the blocks of all files as they are. -/
theorem DiskWF_chain_frame (c : Cfg) (hc : c.ok) (s : ApiState) (ft : List Nat)
    (ch : Nat → List Blk) (h : DiskWF c s ft ch) (m1 : Mem)
    (hframe : ∀ x, x / c.FLASH_BLOCKSIZE ∉ 0 :: ft →
      s.m (x / c.FLASH_BLOCKSIZE * c.FLASH_BLOCKSIZE) ≠ FFS_B_UNUSED c → m1 x = s.m x) :
    ∀ e ∈ liveEntries c s.m (0 :: ft), ∀ b ∈ ch e.FTE.startblock,
      AgreeOn s.m m1 (b.idx * c.FLASH_BLOCKSIZE)
        (b.idx * c.FLASH_BLOCKSIZE + c.FLASH_BLOCKSIZE) := by
  intro e he b hb x hx1 hx2
  obtain ⟨_, _, _, hfacts⟩ := DiskWF_chain c hc s ft ch h e he
  obtain ⟨g1, _, g3, _⟩ := hfacts b hb
  have hdiv : x / c.FLASH_BLOCKSIZE = b.idx := by
    have := div_block b.idx c.FLASH_BLOCKSIZE (x - b.idx * c.FLASH_BLOCKSIZE) (by omega)
    rw [← this]; congr 1; omega
  apply hframe
  · rw [hdiv]; exact g1
  · rw [hdiv]; exact g3

theorem AgreeOn_refl (m : Mem) (lo hi : Nat) : AgreeOn m m lo hi := fun _ _ _ => rfl

/-- `ffs_blocksFree` preserves the invariant. -/
theorem step_blocksFree (c : Cfg) (hc : c.ok) (fuel : Nat) (hfuel : c.BlockCount ≤ fuel)
    (s : ApiState) (hinv : ApiInv c s) (k : Nat) (fs1 : FFS_FS_t)
    (hres : ffs_blocksFree c fuel s.m s.fs = some (k, fs1)) :
    ApiInv c { m := s.m, fs := fs1, F := s.F } := by
  obtain ⟨ft, ch, h⟩ := hinv
  refine ⟨ft, ch, DiskWF_frame c hc s ft ch h s.m fs1 s.F ft h.bytes h.table ⟨h.alloc.1, ?_⟩ rfl
    (fun _ _ _ _ => AgreeOn_refl _ _ _) (Or.inl rfl)⟩
  obtain ⟨b, fs0, _, hcase⟩ := blocksFree_spec c hc s.m s.fs fuel h.alloc.2 hfuel
  rcases hcase with ⟨_, _, hr⟩ | ⟨hff, hr⟩
  · rw [hr] at hres
    simp only [Option.some.injEq, Prod.mk.injEq] at hres
    rw [← hres.2]; exact h.alloc.2
  · rw [hr] at hres
    simp only [Option.some.injEq, Prod.mk.injEq] at hres
    rw [← hres.2]
    have := hff.2.2.1
    show b - 1 < c.BlockCount
    omega

/-- `ffs_getFile` preserves the invariant. -/
theorem step_getFile (c : Cfg) (hc : c.ok) (fuel : Nat) (s : ApiState) (hinv : ApiInv c s)
    (buf : Option (List Nat)) (r : RES_t) (fs1 : FFS_FS_t) (buf1 : Option (List Nat))
    (hres : ffs_getFile c fuel s.m s.fs buf = some (r, fs1, buf1)) :
    ApiInv c { m := s.m, fs := fs1, F := s.F } := by
  obtain ⟨ft, ch, h⟩ := hinv
  refine ⟨ft, ch, DiskWF_frame c hc s ft ch h s.m fs1 s.F ft h.bytes h.table ⟨h.alloc.1, ?_⟩ rfl
    (fun _ _ _ _ => AgreeOn_refl _ _ _) (Or.inl rfl)⟩
  rw [getFile_cursor c fuel s.m s.fs buf r fs1 buf1 hres]
  exact h.alloc.2

/-- A call that changes the handle only, and not into append mode, preserves the
invariant. -/
theorem step_handle (c : Cfg) (hc : c.ok) (s : ApiState) (hinv : ApiInv c s) (F1 : FFS_FILE_t)
    (hF : F1 = s.F ∨ (F1.filemode ≠ FFS_WR_APPEND ∧
      (s.F.filemode = FFS_WR_APPEND → s.F.nBytes ≤ 1))) :
    ApiInv c { m := s.m, fs := s.fs, F := F1 } := by
  obtain ⟨ft, ch, h⟩ := hinv
  exact ⟨ft, ch, DiskWF_frame c hc s ft ch h s.m s.fs F1 ft h.bytes h.table h.alloc rfl
    (fun _ _ _ _ => AgreeOn_refl _ _ _) hF⟩

/-- `ffs_fread` preserves the invariant. -/
theorem step_fread (c : Cfg) (hc : c.ok) (fuel : Nat) (s : ApiState) (hinv : ApiInv c s)
    (size k : Nat) (buf : List Nat) (F1 : FFS_FILE_t)
    (hres : ffs_fread c fuel s.m size s.F = some (k, buf, F1)) :
    ApiInv c { m := s.m, fs := s.fs, F := F1 } := by
  obtain ⟨h1, h2⟩ := fread_mode c fuel s.m size s.F k buf F1 hres
  apply step_handle c hc s hinv F1
  by_cases hm : s.F.filemode = FFS_RD
  · right
    rw [h1, hm]
    exact ⟨by decide, fun h => absurd h (by decide)⟩
  · left; exact h2 hm

/-- `ffs_fseek` preserves the invariant. -/
theorem step_fseek (c : Cfg) (hc : c.ok) (fuel : Nat) (s : ApiState) (hinv : ApiInv c s)
    (offset : Nat) (r : RES_t) (F1 : FFS_FILE_t)
    (hres : ffs_fseek c fuel s.m s.F offset = some (r, F1)) :
    ApiInv c { m := s.m, fs := s.fs, F := F1 } := by
  obtain ⟨h1, h2⟩ := fseek_mode c fuel s.m s.F offset r F1 hres
  apply step_handle c hc s hinv F1
  by_cases hm : s.F.filemode = FFS_RD
  · right
    rw [h1, hm]
    exact ⟨by decide, fun h => absurd h (by decide)⟩
  · left; exact h2 hm

/-- `ffs_cleanupFT` preserves the invariant. -/
theorem step_cleanup (c : Cfg) (hc : c.ok) (fuel : Nat)
    (hfuel : c.FLASH_BLOCKSIZE * (c.BlockCount + 1) ≤ fuel)
    (s : ApiState) (hinv : ApiInv c s) (r : RES_t) (m1 : Mem) (fs1 : FFS_FS_t)
    (hres : ffs_cleanupFT c fuel s.m s.fs = some (r, m1, fs1)) :
    ApiInv c { m := m1, fs := fs1, F := s.F } := by
  have hB := hc.2.1
  obtain ⟨ft, ch, h⟩ := hinv
  have hlen := DiskWF_table_len c hc s ft ch h
  have hn : FFS_FTENTRIESPERBLOCK c ≤ c.FLASH_BLOCKSIZE := by
    unfold FFS_FTENTRIESPERBLOCK
    exact Nat.le_trans (Nat.div_le_self _ _) (Nat.sub_le _ _)
  have hf1 : c.BlockCount ≤ fuel := by
    refine Nat.le_trans ?_ hfuel
    calc c.BlockCount ≤ 1 * (c.BlockCount + 1) := by omega
      _ ≤ c.FLASH_BLOCKSIZE * (c.BlockCount + 1) := Nat.mul_le_mul_right _ (by omega)
  have hf2 : FFS_FTENTRIESPERBLOCK c * (ft.length + 2) ≤ fuel :=
    Nat.le_trans (Nat.mul_le_mul hn (by omega)) hfuel
  obtain ⟨m2, fs2, NT, hr, ht, hlive, hfr, hb, hfs⟩ := cleanup_tablewf c hc s.m s.fs ft fuel
    h.bytes (TableWF_ok c hc s.m ft h.table) h.table.2.1 h.alloc hf1 hf2
  rw [hr] at hres
  simp only [Option.some.injEq, Prod.mk.injEq] at hres
  obtain ⟨_, rfl, rfl⟩ := hres
  exact ⟨NT, ch, DiskWF_frame c hc s ft ch h m2 fs2 s.F NT hb ht hfs hlive
    (DiskWF_chain_frame c hc s ft ch h m2 hfr) (Or.inl rfl)⟩

theorem expCfg_ok : expCfg.ok := by unfold Cfg.ok; decide

theorem exp_tablewf : TableWF expCfg enumDev [] := by
  refine ⟨?_, fun b hb => by simp at hb, tableEntries expCfg enumDev [0], [], by simp, ?_,
    fun x hx => by simp at hx⟩
  · simp only [FTChainWF]
    decide
  · decide

set_option maxRecDepth 100000 in
theorem exp_free : FreeOK expCfg enumDev := by
  unfold FreeOK
  decide

theorem liveEntries_of_entries (c : Cfg) (m m1 : Mem) (L L1 : List Nat)
    (h : tableEntries c m1 L1 = tableEntries c m L) :
    liveEntries c m1 L1 = liveEntries c m L := by
  unfold liveEntries; rw [h]

theorem NamesNodup_of_live (c : Cfg) (m m1 : Mem) (ft ft1 : List Nat)
    (h : liveEntries c m1 (0 :: ft1) = liveEntries c m (0 :: ft)) (hn : NamesNodup c m ft) :
    NamesNodup c m1 ft1 := by
  unfold NamesNodup at hn ⊢; rw [h]; exact hn

/-- A call that rewrites one file - its chain `ch e0.startblock` becomes `bs1`, made of
old blocks of the file and of blocks that were unused - while all other files are
cleanly closed, preserves the well-formedness of the file system. -/
theorem DiskWF_update (c : Cfg) (hc : c.ok) (s : ApiState) (ft : List Nat) (ch : Nat → List Blk)
    (h : DiskWF c s ft ch) (e0 : FFS_FTE_INFO_t) (he0 : e0 ∈ liveEntries c s.m (0 :: ft))
    (m1 : Mem) (fs1 : FFS_FS_t) (F1 : FFS_FILE_t) (bs1 : List Blk)
    (hclosed : ∀ e ∈ liveEntries c s.m (0 :: ft), e.FTE.startblock ≠ e0.FTE.startblock →
      ClosedOK c s.m (ch e.FTE.startblock))
    (hb1 : Bytes m1) (hfs1 : FsOK c m1 fs1)
    (hT : Touched c s.m m1 ((ch e0.FTE.startblock).map Blk.idx ++ bs1.map Blk.idx))
    (hnew : ∀ k ∈ bs1.map Blk.idx, k ∈ (ch e0.FTE.startblock).map Blk.idx ∨
      s.m (k * c.FLASH_BLOCKSIZE) = FFS_B_UNUSED c)
    (hbound : ∀ b ∈ bs1, b.idx < c.BlockCount)
    (hnext : nextIdx bs1 = some e0.FTE.startblock)
    (hst : FileSt c m1 F1 bs1)
    (hhandle : F1.filemode = FFS_WR_APPEND → ∃ cur, AppendOK c m1 bs1 cur F1) :
    DiskWF c { m := m1, fs := fs1, F := F1 } ft (Function.update ch e0.FTE.startblock bs1) := by
  have hsf := status_facts c hc
  have htf := tst_ft_facts c hc
  have htok := TableWF_ok c hc s.m ft h.table
  have h0 := DiskWF_chain c hc s ft ch h e0 he0
  -- blocks that are in use and do not belong to the file are not touched
  have houtside : ∀ k, k ∉ (ch e0.FTE.startblock).map Blk.idx →
      s.m (k * c.FLASH_BLOCKSIZE) ≠ FFS_B_UNUSED c →
      k ∉ (ch e0.FTE.startblock).map Blk.idx ++ bs1.map Blk.idx := by
    intro k hk1 hk2 hin
    rcases List.mem_append.mp hin with hin | hin
    · exact hk1 hin
    · rcases hnew k hin with h1 | h1
      · exact hk1 h1
      · exact hk2 h1
  have htab : ∀ b ∈ 0 :: ft, b ∉ (ch e0.FTE.startblock).map Blk.idx ++ bs1.map Blk.idx := by
    intro b hb
    apply houtside
    · intro hin
      obtain ⟨x, hx, hxb⟩ := List.mem_map.mp hin
      exact (h0.2.2.2 x hx).1 (by rw [hxb]; exact hb)
    · intro hu
      have := htok.2 b hb
      rw [hu] at this
      rw [show FFS_B_UNUSED c = FFS_UNINIT8 c from rfl, htf.2.2.1] at this
      exact Bool.false_ne_true this
  obtain ⟨ht1, hte⟩ := TableWF_touched c hc s.m m1 _ ft hT htab h.table
  have hlive : liveEntries c m1 (0 :: ft) = liveEntries c s.m (0 :: ft) :=
    liveEntries_of_entries c s.m m1 _ _ hte
  have hother : ∀ e ∈ liveEntries c s.m (0 :: ft), e.FTE.startblock ≠ e0.FTE.startblock →
      ∀ b ∈ ch e.FTE.startblock,
        b.idx ∉ (ch e0.FTE.startblock).map Blk.idx ++ bs1.map Blk.idx := by
    intro e he hne b hb
    apply houtside
    · exact h.disjoint e he e0 he0 hne b hb
    · exact ((DiskWF_chain c hc s ft ch h e he).2.2.2 b hb).2.2.1
  refine ⟨hb1, ht1, hfs1, NamesNodup_of_live c s.m m1 ft ft hlive h.names, ?_, ?_, ?_, ?_⟩
  · show ((liveEntries c m1 (0 :: ft)).map (fun e => e.FTE.startblock)).Nodup
    rw [hlive]; exact h.starts
  · intro e he
    have he' : e ∈ liveEntries c s.m (0 :: ft) := by rw [← hlive]; exact he
    by_cases hsb : e.FTE.startblock = e0.FTE.startblock
    · rw [hsb, Function.update_same]
      exact ⟨hnext, hbound, hst⟩
    · rw [Function.update_noteq hsb]
      obtain ⟨f1, f2, _⟩ := h.files e he'
      refine ⟨f1, f2, Or.inl ?_⟩
      apply ClosedOK_congr c hc s.m m1 _ _ (hclosed e he' hsb)
      intro b hb
      exact Touched_agree c s.m m1 _ b.idx hT (hother e he' hsb b hb)
  · intro e1 he1 e2 he2 hne b hb
    have he1' : e1 ∈ liveEntries c s.m (0 :: ft) := by rw [← hlive]; exact he1
    have he2' : e2 ∈ liveEntries c s.m (0 :: ft) := by rw [← hlive]; exact he2
    by_cases h1 : e1.FTE.startblock = e0.FTE.startblock
    · have h2 : e2.FTE.startblock ≠ e0.FTE.startblock := fun h2 => hne (h1.trans h2.symm)
      rw [h1, Function.update_same] at hb
      rw [Function.update_noteq h2]
      intro hin
      obtain ⟨y, hy, hyb⟩ := List.mem_map.mp hin
      have := hother e2 he2' h2 y hy
      apply this
      rw [hyb]
      exact List.mem_append_right _ (List.mem_map_of_mem _ hb)
    · rw [Function.update_noteq h1] at hb
      by_cases h2 : e2.FTE.startblock = e0.FTE.startblock
      · rw [h2, Function.update_same]
        intro hin
        exact hother e1 he1' h1 b hb (List.mem_append_right _ hin)
      · rw [Function.update_noteq h2]
        exact h.disjoint e1 he1' e2 he2' hne b hb
  · intro hmode
    obtain ⟨cur, hap⟩ := hhandle hmode
    refine ⟨e0, by rw [hlive]; exact he0, cur, ?_⟩
    show AppendOK c m1 (Function.update ch e0.FTE.startblock bs1 e0.FTE.startblock) cur F1
    rw [Function.update_same]
    exact hap

/-- The file on which an append-mode handle stands, and the fact that all other files
are cleanly closed. -/
theorem DiskWF_open_file (c : Cfg) (s : ApiState) (ft : List Nat) (ch : Nat → List Blk)
    (h : DiskWF c s ft ch) (hmode : s.F.filemode = FFS_WR_APPEND) :
    ∃ e0 ∈ liveEntries c s.m (0 :: ft), ∃ cur,
      AppendOK c s.m (ch e0.FTE.startblock) cur s.F ∧
      ∀ e ∈ liveEntries c s.m (0 :: ft), e.FTE.startblock ≠ e0.FTE.startblock →
        ClosedOK c s.m (ch e.FTE.startblock) := by
  obtain ⟨e0, he0, cur, hap⟩ := h.handle hmode
  refine ⟨e0, he0, cur, hap, ?_⟩
  intro e he hne
  obtain ⟨f1, _, f3⟩ := h.files e he
  apply FileSt_other c s.m s.F _ f3
  intro _ hcon
  obtain ⟨g1, _, _⟩ := h.files e0 he0
  have e1 : some e.FTE.startblock = some s.F.startblock := by rw [← f1, hcon]
  have e2 : some e0.FTE.startblock = some s.F.startblock := by rw [← g1, hap.2.1]
  exact hne (Option.some.inj (e1.trans e2.symm))

theorem encSBHDR_bytes2 {c : Cfg} (st j : Nat) (hst : st < 256) :
    ∀ x ∈ encSBHDR (padByte c) st j, x < 256 := by
  intro x hx
  simp only [encSBHDR, List.mem_cons] at hx
  rcases hx with hx | hx | hx
  · rw [hx]; exact hst
  · rw [hx]; exact padByte_lt c
  · exact (enc_bytes j).1 x hx

theorem take_bytes (d : List Nat) (n : Nat) (h : ∀ x ∈ d, x < 256) : ∀ x ∈ d.take n, x < 256 :=
  fun x hx => h x (List.mem_of_mem_take hx)

theorem drop_bytes (d : List Nat) (n : Nat) (h : ∀ x ∈ d, x < 256) : ∀ x ∈ d.drop n, x < 256 :=
  fun x hx => h x (List.mem_of_mem_drop hx)

/-- The write loop stores bytes only. -/
theorem fwrite_loop_bytes (c : Cfg) (hc : c.ok) (af : Nat) (FILE : FFS_FILE_t) :
    ∀ (fuel : Nat) (m : Mem) (fs : FFS_FS_t) (data : List Nat)
      (done block rem hw nB virt k : Nat) (m1 : Mem) (fs1 : FFS_FS_t) (F1 : FFS_FILE_t),
      Bytes m → (∀ x ∈ data, x < 256) →
      ffs_fwrite_loop c af FILE fuel m fs data done block rem hw nB virt = some (k, m1, fs1, F1) →
      Bytes m1 := by
  have hsf := status_facts c hc
  intro fuel
  induction fuel with
  | zero => intro m fs data done block rem hw nB virt k m1 fs1 F1 _ _ h; simp [ffs_fwrite_loop] at h
  | succ fuel ih =>
    intro m fs data done block rem hw nB virt k m1 fs1 F1 hb hd h
    have key1 : ∀ w, Bytes (flashSPAN_Write c m (hw + nB) (data.take w)) :=
      fun w => Bytes_write c _ _ _ hb (take_bytes _ _ hd)
    have key2 : ∀ w, Bytes (flashSPAN_Write c (flashSPAN_Write c m (hw + nB) (data.take w)) hw
        [(nB + w) % 256]) := fun w => Bytes_write c _ _ _ (key1 w)
      (by intro x hx; simp only [List.mem_singleton] at hx; rw [hx]; exact Nat.mod_lt _ (by omega))
    have key3 : ∀ w blk v, Bytes (flashSPAN_Write c (flashSPAN_Write c
        (flashSPAN_Write c (flashSPAN_Write c m (hw + nB) (data.take w)) hw [(nB + w) % 256])
        (blk * c.FLASH_BLOCKSIZE)
        (encBHDR (padByte c) { status := FFS_B_EOF c, jump := FFS_UNINIT16 c, virt_addr := v }))
        (block * c.FLASH_BLOCKSIZE) (encSBHDR (padByte c) (FFS_B_JUMP c) blk)) := fun w blk v =>
      Bytes_write c _ _ _ (Bytes_write c _ _ _ (key2 w) (encBHDR_bytes _ _ _ hsf.2.2.2.2.2.1))
        (encSBHDR_bytes2 _ _ hsf.2.2.2.2.2.2.1)
    rw [ffs_fwrite_loop] at h
    simp only at h
    split_ifs at h
    all_goals first
      | exact ih _ _ _ _ _ _ _ _ _ _ _ _ _ (key2 _) (drop_bytes _ _ hd) h
      | exact ih _ _ _ _ _ _ _ _ _ _ _ _ _ (key1 _) (drop_bytes _ _ hd) h
      | (simp only [Option.some.injEq, Prod.mk.injEq] at h
         rw [← h.2.1]
         first | exact key2 _ | exact hb)
      | (split at h
         · simp at h
         · split_ifs at h
           · simp only [Option.some.injEq, Prod.mk.injEq] at h
             rw [← h.2.1]; exact key2 _
           · exact ih _ _ _ _ _ _ _ _ _ _ _ _ _ (key3 _ _ _) (drop_bytes _ _ hd) h)

/-- `ffs_fwrite` stores bytes only. -/
theorem fwrite_bytes (c : Cfg) (hc : c.ok) (fuel : Nat) (m : Mem) (fs : FFS_FS_t)
    (data : List Nat) (F : FFS_FILE_t) (k : Nat) (m1 : Mem) (fs1 : FFS_FS_t) (F1 : FFS_FILE_t)
    (hb : Bytes m) (hd : ∀ x ∈ data, x < 256)
    (h : ffs_fwrite c fuel m fs data F = some (k, m1, fs1, F1)) : Bytes m1 := by
  have hsf := status_facts c hc
  unfold ffs_fwrite at h
  split_ifs at h with h1 h2
  · simp only [Option.some.injEq, Prod.mk.injEq] at h
    rw [← h.2.1]; exact hb
  · cases ha : FindUnusedBlock c fuel m fs with
    | none => rw [ha] at h; simp at h
    | some q =>
      obtain ⟨blk, fsa⟩ := q
      rw [ha] at h
      simp only at h
      split_ifs at h with h3
      · simp only [Option.some.injEq, Prod.mk.injEq] at h
        rw [← h.2.1]; exact hb
      · exact fwrite_loop_bytes c hc fuel F fuel _ _ _ _ _ _ _ _ _ _ _ _ _
          (Bytes_write c _ _ _ (Bytes_write c _ _ _ hb (encBHDR_bytes _ _ _ hsf.2.2.2.2.2.1))
            (encSBHDR_bytes2 _ _ hsf.2.2.2.2.2.2.1)) hd h
  · exact fwrite_loop_bytes c hc fuel F fuel _ _ _ _ _ _ _ _ _ _ _ _ _ hb hd h

theorem nextIdx_map (bs : List Blk) : nextIdx bs = (bs.map Blk.idx).head? := by
  cases bs <;> simp [nextIdx]

theorem nextIdx_extend (bs bs1 : List Blk) (new : List Nat) (sb : Nat)
    (h : bs1.map Blk.idx = bs.map Blk.idx ++ new) (hn : nextIdx bs = some sb) :
    nextIdx bs1 = some sb := by
  rw [nextIdx_map] at hn ⊢
  rw [h]
  cases hbs : bs.map Blk.idx with
  | nil => rw [hbs] at hn; simp at hn
  | cons a rest => rw [hbs] at hn; simpa using hn

theorem ApiState_eta (s : ApiState) : ({ m := s.m, fs := s.fs, F := s.F } : ApiState) = s := rfl

/-- `ffs_fwrite` preserves the invariant. -/
theorem step_fwrite (c : Cfg) (hc : c.ok) (fuel : Nat) (hfuel : c.BlockCount ≤ fuel)
    (hfuel2 : 65536 ≤ fuel) (s : ApiState) (hinv : ApiInv c s) (data : List Nat) (k : Nat)
    (m1 : Mem) (fs1 : FFS_FS_t) (F1 : FFS_FILE_t) (hd : ∀ x ∈ data, x < 256)
    (hsize : data.length < 65536) (hlen : s.F.virt_addr + data.length < 4294967296)
    (hres : ffs_fwrite c fuel s.m s.fs data s.F = some (k, m1, fs1, F1)) :
    ApiInv c { m := m1, fs := fs1, F := F1 } := by
  obtain ⟨ft, ch, h⟩ := hinv
  by_cases hmode : s.F.filemode = FFS_WR_APPEND
  · obtain ⟨e0, he0, cur, hap, hclosed⟩ := DiskWF_open_file c s ft ch h hmode
    obtain ⟨k2, m2, fs2, F2, bs1, cur1, new, hr, _, hap1, _, hfs1, hidx, hnew, hT, hnd⟩ :=
      fwrite_append c hc fuel hfuel s.m s.fs _ cur data s.F hap h.alloc hd
        (by rw [← hap.2.2.1]; exact hlen) (by omega)
    have hb1 := fwrite_bytes c hc fuel s.m s.fs data s.F k m1 fs1 F1 h.bytes hd hres
    rw [hr] at hres
    simp only [Option.some.injEq, Prod.mk.injEq] at hres
    obtain ⟨_, rfl, rfl, rfl⟩ := hres
    obtain ⟨g1, g2, _⟩ := h.files e0 he0
    refine ⟨ft, _, DiskWF_update c hc s ft ch h e0 he0 m2 fs2 F2 bs1 hclosed hb1 hfs1
      (Touched_mono c s.m m2 _ _ hT (fun k hk => List.mem_append_right _ hk)) ?_ ?_
      (nextIdx_extend _ bs1 new _ hidx g1) (Or.inr ⟨cur1, hap1⟩) (fun _ => ⟨cur1, hap1⟩)⟩
    · intro j hj
      rw [hidx] at hj
      rcases List.mem_append.mp hj with hj | hj
      · exact Or.inl hj
      · exact Or.inr (hnew j hj).1
    · intro b hb
      have : b.idx ∈ bs1.map Blk.idx := List.mem_map_of_mem _ hb
      rw [hidx] at this
      rcases List.mem_append.mp this with hj | hj
      · obtain ⟨x, hx, hxb⟩ := List.mem_map.mp hj
        rw [← hxb]; exact g2 x hx
      · exact (hnew _ hj).2.2
  · unfold ffs_fwrite at hres
    rw [if_pos hmode] at hres
    simp only [Option.some.injEq, Prod.mk.injEq] at hres
    obtain ⟨_, rfl, rfl, rfl⟩ := hres
    exact ⟨ft, ch, h⟩

/-- `ffs_fflush` preserves the invariant. -/
theorem step_fflush (c : Cfg) (hc : c.ok) (s : ApiState) (hinv : ApiInv c s) :
    ApiInv c { m := (ffs_fflush c s.m s.F).2.1, fs := s.fs, F := (ffs_fflush c s.m s.F).2.2 } := by
  obtain ⟨ft, ch, h⟩ := hinv
  by_cases hmode : s.F.filemode = FFS_WR_APPEND
  · obtain ⟨e0, he0, cur, hap, hclosed⟩ := DiskWF_open_file c s ft ch h hmode
    obtain ⟨m2, F2, bs1, hr, hap1, _, hidx, hT, hfree, h0, h1⟩ :=
      fflush_spec c hc s.m _ cur s.F hap
    rw [hr]
    have hb1 : Bytes m2 := by
      by_cases hcur : cur = []
      · rw [(h0 hcur).1]; exact h.bytes
      · obtain ⟨e1, _, e3, _⟩ := h1 hcur
        rw [e1]
        exact Bytes_write c _ _ _ h.bytes
          (by intro x hx; simp only [List.mem_singleton] at hx; rw [hx]; omega)
    obtain ⟨g1, g2, _⟩ := h.files e0 he0
    refine ⟨ft, _, DiskWF_update c hc s ft ch h e0 he0 m2 s.fs F2 bs1 hclosed hb1
      ⟨hfree h.alloc.1, h.alloc.2⟩
      (Touched_mono c s.m m2 _ _ hT (fun k hk => List.mem_append_left _ hk)) ?_ ?_
      (nextIdx_extend _ bs1 [] _ (by simpa using hidx) g1) (Or.inr ⟨[], hap1⟩)
      (fun _ => ⟨[], hap1⟩)⟩
    · intro j hj
      rw [hidx] at hj
      exact Or.inl hj
    · intro b hb
      have : b.idx ∈ bs1.map Blk.idx := List.mem_map_of_mem _ hb
      rw [hidx] at this
      obtain ⟨x, hx, hxb⟩ := List.mem_map.mp this
      rw [← hxb]; exact g2 x hx
  · have : ffs_fflush c s.m s.F = (RES_PARAMERR, s.m, s.F) := by
      unfold ffs_fflush
      rw [if_pos hmode]
    rw [this]
    exact ⟨ft, ch, h⟩

/-- `ffs_fclose` preserves the invariant. -/
theorem step_fclose (c : Cfg) (hc : c.ok) (s : ApiState) (hinv : ApiInv c s) (r : RES_t)
    (m1 : Mem) (F1 : FFS_FILE_t) (hres : ffs_fclose c s.m (some s.F) = (r, m1, some F1)) :
    ApiInv c { m := m1, fs := s.fs, F := F1 } := by
  by_cases hmode : s.F.filemode = FFS_WR_APPEND
  · obtain ⟨ft, ch, h⟩ := hinv
    obtain ⟨e0, he0, cur, hap, hclosed⟩ := DiskWF_open_file c s ft ch h hmode
    obtain ⟨m2, F2, bs1, hr, hF2, hcl, _, hidx, hT, hfree, _⟩ :=
      fclose_spec c hc s.m _ cur s.F hap
    have hb2 : Bytes m2 := by
      obtain ⟨m3, F3, bs3, hr3, _, _, _, _, _, h0, h1⟩ := fflush_spec c hc s.m _ cur s.F hap
      have hm : m2 = m3 := by
        have e1 := (fflush_facts c s.m s.F hmode).2.1
        rw [hr, hr3] at e1
        exact e1
      rw [hm]
      by_cases hcur : cur = []
      · rw [(h0 hcur).1]; exact h.bytes
      · obtain ⟨e1, _, e3, _⟩ := h1 hcur
        rw [e1]
        exact Bytes_write c _ _ _ h.bytes
          (by intro x hx; simp only [List.mem_singleton] at hx; rw [hx]; omega)
    rw [hr] at hres
    simp only [Prod.mk.injEq, Option.some.injEq] at hres
    obtain ⟨_, rfl, rfl⟩ := hres
    obtain ⟨g1, g2, _⟩ := h.files e0 he0
    refine ⟨ft, _, DiskWF_update c hc s ft ch h e0 he0 m2 s.fs F2 bs1 hclosed hb2
      ⟨hfree h.alloc.1, h.alloc.2⟩
      (Touched_mono c s.m m2 _ _ hT (fun k hk => List.mem_append_left _ hk)) ?_ ?_
      (nextIdx_extend _ bs1 [] _ (by simpa using hidx) g1) (Or.inl hcl)
      (fun hm => by rw [hF2] at hm; exact absurd hm (by decide))⟩
    · intro j hj
      rw [hidx] at hj
      exact Or.inl hj
    · intro b hb
      have : b.idx ∈ bs1.map Blk.idx := List.mem_map_of_mem _ hb
      rw [hidx] at this
      obtain ⟨x, hx, hxb⟩ := List.mem_map.mp this
      rw [← hxb]; exact g2 x hx
  · unfold ffs_fclose at hres
    simp only at hres
    split_ifs at hres with h1
    · simp only [Prod.mk.injEq, Option.some.injEq] at hres
      obtain ⟨_, rfl, rfl⟩ := hres
      exact step_handle c hc s hinv _
        (Or.inr ⟨by show FFS_CLOSED ≠ FFS_WR_APPEND; decide, fun h => absurd h hmode⟩)
    · simp only [Prod.mk.injEq, Option.some.injEq] at hres
      obtain ⟨_, rfl, rfl⟩ := hres
      exact hinv

theorem nextIdx_mem (bs : List Blk) (k : Nat) (h : nextIdx bs = some k) :
    ∃ x ∈ bs, x.idx = k := by
  cases bs with
  | nil => simp [nextIdx] at h
  | cons a rest =>
    simp [nextIdx] at h
    exact ⟨a, List.mem_cons_self _ _, h⟩

/-- Two live entries of the same name are the same entry. -/
theorem live_name_unique (c : Cfg) (m : Mem) (ft : List Nat) (h : NamesNodup c m ft)
    (e1 e2 : FFS_FTE_INFO_t) (h1 : e1 ∈ liveEntries c m (0 :: ft))
    (h2 : e2 ∈ liveEntries c m (0 :: ft)) (hn : cstr e1.FTE.filename = cstr e2.FTE.filename) :
    e1 = e2 :=
  List.inj_on_of_nodup_map h h1 h2 hn

/-- A file of the invariant that is cleanly closed is a file in the sense of `FileOK`. -/
theorem DiskWF_fileOK (c : Cfg) (hc : c.ok) (s : ApiState) (ft : List Nat) (ch : Nat → List Blk)
    (h : DiskWF c s ft ch) (filename : List Nat) (e : FFS_FTE_INFO_t)
    (he : e ∈ liveEntries c s.m (0 :: ft)) (hn : cstr filename = cstr e.FTE.filename)
    (hcl : ClosedOK c s.m (ch e.FTE.startblock)) :
    FileOK c s.m ft filename (ch e.FTE.startblock) := by
  refine ⟨TableWF_ok c hc s.m ft h.table, ⟨e, he, hn⟩, ?_, hcl⟩
  intro e2 he2 hn2
  have : e = e2 := live_name_unique c s.m ft h.names e e2 he he2 (by rw [← hn, hn2])
  rw [← this]
  exact (h.files e he).1

theorem rdHandle_mode (c : Cfg) (m : Mem) (sb : Nat) : (rdHandle c m sb).filemode = FFS_RD := by
  unfold rdHandle
  split <;> rfl

/-- The block erasing loop of the replace branch stores bytes only. -/
theorem fopen_erase_bytes (c : Cfg) (hc : c.ok) :
    ∀ (fuel : Nat) (m : Mem) (k : Nat) (m1 : Mem) (pad : Nat), Bytes m →
      ffs_fopen_erase c fuel m k = some (m1, pad) → Bytes m1 ∧ pad < 256 := by
  intro fuel
  induction fuel with
  | zero => intro m k m1 pad _ h; simp [ffs_fopen_erase] at h
  | succ fuel ih =>
    intro m k m1 pad hb h
    rw [ffs_fopen_erase] at h
    split_ifs at h
    · exact ih _ _ _ _ (Bytes_erase c hc _ _ hb) h
    · simp only [Option.some.injEq, Prod.mk.injEq] at h
      rw [← h.1, ← h.2]; exact ⟨Bytes_erase c hc _ _ hb, Nat.mod_lt _ (by omega)⟩

/-- A new file joins the files of the invariant. -/
theorem DiskWF_create (c : Cfg) (hc : c.ok) (s : ApiState) (ft : List Nat) (ch : Nat → List Blk)
    (h : DiskWF c s ft ch) (hflushed : s.F.filemode = FFS_WR_APPEND → s.F.nBytes ≤ 1)
    (filename : List Nat) (hno : ¬ HasFile c s.m (0 :: ft) filename)
    (m1 : Mem) (fs1 : FFS_FS_t) (F1 : FFS_FILE_t) (ft1 : List Nat)
    (hb1 : Bytes m1) (ht1 : TableWF c m1 ft1) (hfs1 : FsOK c m1 fs1)
    (hframe : ∀ x, x / c.FLASH_BLOCKSIZE ∉ 0 :: ft →
      s.m (x / c.FLASH_BLOCKSIZE * c.FLASH_BLOCKSIZE) ≠ FFS_B_UNUSED c → m1 x = s.m x)
    (b : Nat) (e1 : FFS_FTE_INFO_t) (hb : b < c.BlockCount)
    (hun : s.m (b * c.FLASH_BLOCKSIZE) = FFS_B_UNUSED c) (hsb : e1.FTE.startblock = b)
    (hn : cstr e1.FTE.filename = cstr filename)
    (hlive : liveEntries c m1 (0 :: ft1) = liveEntries c s.m (0 :: ft) ++ [e1])
    (hap : AppendOK c m1 [{ idx := b, chunks := [] }] [] F1) :
    DiskWF c { m := m1, fs := fs1, F := F1 } ft1
      (Function.update ch b [{ idx := b, chunks := [] }]) := by
  have hag := DiskWF_chain_frame c hc s ft ch h m1 hframe
  have hnotin : ∀ e ∈ liveEntries c s.m (0 :: ft), ∀ x ∈ ch e.FTE.startblock, x.idx ≠ b := by
    intro e he x hx hxb
    have := ((DiskWF_chain c hc s ft ch h e he).2.2.2 x hx).2.2.1
    rw [hxb] at this
    exact this hun
  have hsbne : ∀ e ∈ liveEntries c s.m (0 :: ft), e.FTE.startblock ≠ b := by
    intro e he heq
    obtain ⟨x, hx, hxi⟩ := nextIdx_mem _ _ (h.files e he).1
    exact hnotin e he x hx (by rw [hxi, heq])
  have hold : ∀ e ∈ liveEntries c s.m (0 :: ft),
      Function.update ch b [{ idx := b, chunks := [] }] e.FTE.startblock
        = ch e.FTE.startblock := fun e he => Function.update_noteq (hsbne e he) _ _
  have hnewc : Function.update ch b [{ idx := b, chunks := [] }] e1.FTE.startblock
      = [{ idx := b, chunks := [] }] := by rw [hsb]; exact Function.update_same _ _ _
  refine ⟨hb1, ht1, hfs1, ?_, ?_, ?_, ?_, ?_⟩
  · show ((liveEntries c m1 (0 :: ft1)).map (fun e => cstr e.FTE.filename)).Nodup
    rw [hlive, List.map_append, List.nodup_append]
    refine ⟨h.names, List.nodup_singleton _, ?_⟩
    intro nm h1 h2
    simp only [List.map_cons, List.map_nil, List.mem_singleton] at h2
    obtain ⟨e, he, hen⟩ := List.mem_map.mp h1
    exact hno ⟨e, he, by rw [hen, h2, hn]⟩
  · show ((liveEntries c m1 (0 :: ft1)).map (fun e => e.FTE.startblock)).Nodup
    rw [hlive, List.map_append, List.nodup_append]
    refine ⟨h.starts, List.nodup_singleton _, ?_⟩
    intro k h1 h2
    simp only [List.map_cons, List.map_nil, List.mem_singleton] at h2
    obtain ⟨e, he, hek⟩ := List.mem_map.mp h1
    exact hsbne e he (by rw [hek, h2, hsb])
  · intro e he
    show nextIdx (Function.update ch b _ e.FTE.startblock) = some e.FTE.startblock ∧
      (∀ x ∈ Function.update ch b _ e.FTE.startblock, x.idx < c.BlockCount) ∧
      FileSt c m1 F1 (Function.update ch b _ e.FTE.startblock)
    rw [hlive] at he
    rcases List.mem_append.mp he with he | he
    · rw [hold e he]
      obtain ⟨f1, f2, f3⟩ := h.files e he
      exact ⟨f1, f2, Or.inl (ClosedOK_congr c hc s.m m1 _ (hag e he)
        (FileSt_flushed c hc s.m s.F _ f3 hflushed))⟩
    · simp only [List.mem_singleton] at he
      rw [he, hnewc]
      refine ⟨by rw [hsb]; rfl, ?_, Or.inr ⟨[], hap⟩⟩
      intro x hx
      simp only [List.mem_singleton] at hx
      rw [hx]; exact hb
  · intro a1 ha1 a2 ha2 hne x hx
    show x.idx ∉ (Function.update ch b _ a2.FTE.startblock).map Blk.idx
    change x ∈ Function.update ch b _ a1.FTE.startblock at hx
    rw [hlive] at ha1 ha2
    rcases List.mem_append.mp ha1 with ha1 | ha1 <;> rcases List.mem_append.mp ha2 with ha2 | ha2
    · rw [hold a1 ha1] at hx
      rw [hold a2 ha2]
      exact h.disjoint a1 ha1 a2 ha2 hne x hx
    · simp only [List.mem_singleton] at ha2
      rw [hold a1 ha1] at hx
      rw [ha2, hnewc]
      simp only [List.map_cons, List.map_nil, List.mem_singleton]
      exact hnotin a1 ha1 x hx
    · simp only [List.mem_singleton] at ha1
      rw [ha1, hnewc] at hx
      simp only [List.mem_singleton] at hx
      rw [hold a2 ha2, hx]
      intro hin
      obtain ⟨y, hy, hyi⟩ := List.mem_map.mp hin
      exact hnotin a2 ha2 y hy hyi
    · simp only [List.mem_singleton] at ha1 ha2
      rw [ha1, ha2] at hne
      exact absurd rfl hne
  · intro _
    refine ⟨e1, ?_, [], ?_⟩
    · show e1 ∈ liveEntries c m1 (0 :: ft1)
      rw [hlive]; simp
    · show AppendOK c m1 (Function.update ch b _ e1.FTE.startblock) [] F1
      rw [hnewc]; exact hap

/-- `ffs_fopen` preserves the invariant. -/
theorem step_fopen (c : Cfg) (hc : c.ok) (fuel : Nat)
    (hfuel : c.BlockCount + c.FLASH_BLOCKSIZE ≤ fuel) (s : ApiState) (hinv : ApiInv c s)
    (filename : List Nat) (mode : Nat) (r : RES_t) (m1 : Mem) (fs1 : FFS_FS_t) (F1 : FFS_FILE_t)
    (hflushed : s.F.filemode = FFS_WR_APPEND → s.F.nBytes ≤ 1)
    (hname : (cstr filename).length < FFS_FILENAME_LEN) (hchars : ∀ x ∈ filename, x < 256)
    (hres : ffs_fopen c fuel s.m s.fs (some s.F) filename mode = some (r, m1, fs1, some F1)) :
    ApiInv c { m := m1, fs := fs1, F := F1 } := by
  have hinv0 := hinv
  obtain ⟨ft, ch, h⟩ := hinv
  have htok := TableWF_ok c hc s.m ft h.table
  have hlen := DiskWF_table_len c hc s ft ch h
  have hclosed : ∀ e ∈ liveEntries c s.m (0 :: ft), ClosedOK c s.m (ch e.FTE.startblock) :=
    fun e he => FileSt_flushed c hc s.m s.F _ (h.files e he).2.2 hflushed
  by_cases hrd : mode = FFS_RD
  · subst hrd
    obtain ⟨g1, g2⟩ := fopen_read_spec c hc s.m s.fs s.F ft filename fuel htok.1 (by omega)
    by_cases hhas : HasFile c s.m (0 :: ft) filename
    · obtain ⟨e, _, _, heq⟩ := g2 hhas
      rw [heq] at hres
      simp only [Option.some.injEq, Prod.mk.injEq] at hres
      obtain ⟨_, rfl, rfl, rfl⟩ := hres
      exact step_handle c hc s hinv0 _
        (Or.inr ⟨by rw [rdHandle_mode]; decide, hflushed⟩)
    · rw [g1 hhas] at hres
      simp only [Option.some.injEq, Prod.mk.injEq] at hres
      obtain ⟨_, rfl, rfl, rfl⟩ := hres
      exact hinv0
  by_cases hwr : mode = FFS_WR_REPLACE ∨ mode = FFS_WR_APPEND
  · by_cases hhas : HasFile c s.m (0 :: ft) filename
    · obtain ⟨e, he, hn, hlk⟩ :=
        (LookupFile_spec c hc s.m ft filename fuel htok.1 (by omega)).1 hhas
      have hfo := DiskWF_fileOK c hc s ft ch h filename e he hn (hclosed e he)
      obtain ⟨_, hnd, hlen2, _⟩ := DiskWF_chain c hc s ft ch h e he
      obtain ⟨f1, f2, _⟩ := h.files e he
      rcases hwr with hwr | hwr
      · subst hwr
        obtain ⟨m2, F2, b, rest, hbs, heq, hap, _, _, _, hT, hfree, _, _⟩ :=
          fopen_replace_spec c hc s.m s.fs s.F ft filename _ fuel hfo h.alloc.1 (by omega)
            (by omega)
        have hb2 : Bytes m2 := by
          have hu := fopen_replace_unfold c fuel s.m s.fs s.F filename e hlk
          rw [heq] at hu
          cases her : ffs_fopen_erase c fuel s.m e.FTE.startblock with
          | none => rw [her] at hu; simp at hu
          | some me =>
            rw [her] at hu
            simp only [Option.map_some', Option.some.injEq, Prod.mk.injEq] at hu
            rw [hu.2.1]
            obtain ⟨hbe, hpe⟩ := fopen_erase_bytes c hc fuel s.m _ me.1 me.2 h.bytes her
            exact Bytes_write c _ _ _ hbe
              (encBHDR_bytes_pad _ _ _ _ hpe (status_facts c hc).2.2.2.2.2.1)
        rw [heq] at hres
        simp only [Option.some.injEq, Prod.mk.injEq] at hres
        obtain ⟨_, rfl, rfl, rfl⟩ := hres
        have hbidx : b.idx = e.FTE.startblock := by
          rw [hbs] at f1
          simpa [nextIdx] using f1
        refine ⟨ft, _, DiskWF_update c hc s ft ch h e he m2 s.fs F2 [{ idx := b.idx, chunks := [] }]
          (fun e2 he2 _ => hclosed e2 he2) hb2 ⟨hfree, h.alloc.2⟩
          (Touched_mono c s.m m2 _ _ hT (fun k hk => List.mem_append_left _ hk)) ?_ ?_
          (by rw [← hbidx]; rfl) (Or.inr ⟨[], hap⟩) (fun _ => ⟨[], hap⟩)⟩
        · intro k hk
          simp only [List.map_cons, List.map_nil, List.mem_singleton] at hk
          left
          rw [hk, hbs]
          simp
        · intro x hx
          simp only [List.mem_singleton] at hx
          rw [hx]
          exact f2 b (by rw [hbs]; simp)
      · subst hwr
        obtain ⟨F2, heq, hap, _⟩ :=
          fopen_append_spec c hc s.m s.fs s.F ft filename _ fuel hfo (by omega) (by omega)
        rw [heq] at hres
        simp only [Option.some.injEq, Prod.mk.injEq] at hres
        obtain ⟨_, rfl, rfl, rfl⟩ := hres
        refine ⟨ft, _, DiskWF_update c hc s ft ch h e he s.m s.fs F2 (ch e.FTE.startblock)
          (fun e2 he2 _ => hclosed e2 he2) h.bytes h.alloc
          (Touched_refl c s.m _) (fun k hk => Or.inl hk) f2 f1 (Or.inr ⟨[], hap⟩)
          (fun _ => ⟨[], hap⟩)⟩
    · have hpost := create_spec c hc s.m s.fs s.F ft filename mode fuel h.bytes h.table h.alloc
        hhas hwr hname hchars (by omega) (by omega)
      obtain ⟨r2, m2, fs2, F2, ft1, heq, hb2, ht2, hfs2, _, hframe, hcase⟩ := hpost
      rw [heq] at hres
      simp only [Option.some.injEq, Prod.mk.injEq] at hres
      obtain ⟨_, rfl, rfl, rfl⟩ := hres
      rcases hcase with ⟨_, _, hF, hlive⟩ | ⟨_, b, e1, _, hb, hun, hsb, hn, hlive, hap, _, _⟩
      · exact ⟨ft1, ch, DiskWF_frame c hc s ft ch h m2 fs2 F2 ft1 hb2 ht2 hfs2 (by rw [hlive])
          (DiskWF_chain_frame c hc s ft ch h m2 hframe) (Or.inl hF)⟩
      · exact ⟨ft1, _, DiskWF_create c hc s ft ch h hflushed filename hhas m2 fs2 F2 ft1 hb2 ht2
          hfs2 hframe b e1 hb hun hsb hn hlive hap⟩
  · have hlk : ∃ q, LookupFile c fuel s.m filename = some q := by
      by_cases hhas : HasFile c s.m (0 :: ft) filename
      · obtain ⟨e, _, _, hlk⟩ :=
          (LookupFile_spec c hc s.m ft filename fuel htok.1 (by omega)).1 hhas
        exact ⟨_, hlk⟩
      · obtain ⟨e, hlk⟩ := (LookupFile_spec c hc s.m ft filename fuel htok.1 (by omega)).2 hhas
        exact ⟨_, hlk⟩
    obtain ⟨⟨r0, e0⟩, hlk⟩ := hlk
    unfold ffs_fopen at hres
    simp only [hlk, if_neg hrd, if_neg hwr] at hres
    simp only [Option.some.injEq, Prod.mk.injEq] at hres
    obtain ⟨_, rfl, rfl, rfl⟩ := hres
    exact hinv0

theorem nodup_split_ne {α β : Type} (f : α → β) (lp lq : List α) (e : α)
    (h : ((lp ++ e :: lq).map f).Nodup) (x : α) (hx : x ∈ lp ++ lq) : f x ≠ f e := by
  rw [List.map_append, List.map_cons] at h
  have h2 := (List.nodup_cons.mp (List.nodup_middle.mp h)).1
  intro heq
  apply h2
  rw [← heq, ← List.map_append]
  exact List.mem_map_of_mem f hx

theorem mem_split_of_ne {α : Type} (lp lq : List α) (e x : α) (hx : x ∈ lp ++ e :: lq)
    (hne : x ≠ e) : x ∈ lp ++ lq := by
  rcases List.mem_append.mp hx with h | h
  · exact List.mem_append_left _ h
  · rcases List.mem_cons.mp h with h | h
    · exact absurd h hne
    · exact List.mem_append_right _ h

theorem mem_of_split {α : Type} (lp lq : List α) (e x : α) (hx : x ∈ lp ++ lq) :
    x ∈ lp ++ e :: lq := by
  rcases List.mem_append.mp hx with h | h
  · exact List.mem_append_left _ h
  · exact List.mem_append_right _ (List.mem_cons_of_mem _ h)

/-- `ffs_remove` preserves the invariant. -/
theorem step_remove (c : Cfg) (hc : c.ok) (fuel : Nat) (hfuel : c.BlockCount ≤ fuel)
    (s : ApiState) (hinv : ApiInv c s) (filename : List Nat) (r : RES_t) (m1 : Mem)
    (hother : ∀ e, LookupFile c fuel s.m filename = some (RES_OK, e) →
      s.F.filemode = FFS_WR_APPEND → e.FTE.startblock ≠ s.F.startblock)
    (hres : ffs_remove c fuel s.m filename = some (r, m1)) :
    ApiInv c { m := m1, fs := s.fs, F := s.F } := by
  have hinv0 := hinv
  have hB := hc.2.1
  obtain ⟨ft, ch, h⟩ := hinv
  have htok := TableWF_ok c hc s.m ft h.table
  have hlen := DiskWF_table_len c hc s ft ch h
  by_cases hhas : HasFile c s.m (0 :: ft) filename
  · obtain ⟨e, he, hn, hlk⟩ :=
      (LookupFile_spec c hc s.m ft filename fuel htok.1 (by omega)).1 hhas
    have hne := hother e hlk
    obtain ⟨f1, f2, f3⟩ := h.files e he
    have hcl : ClosedOK c s.m (ch e.FTE.startblock) :=
      FileSt_other c s.m s.F _ f3 (fun hm hcon => hne hm (Option.some.inj (f1.symm.trans hcon)))
    have hfo := DiskWF_fileOK c hc s ft ch h filename e he hn hcl
    obtain ⟨_, _, hlen2, _⟩ := DiskWF_chain c hc s ft ch h e he
    obtain ⟨m2, lp, e2, lq, heq, hb2, ht2, hfree2, hsplit, hn2, _, hlive2, _, _, _, _, _⟩ :=
      remove_effect c hc s.m ft filename _ fuel h.bytes h.table h.alloc.1 hfo h.names (by omega)
        (by omega)
    obtain ⟨m3, pre, e3, post, heq3, hte, _, _, _, _, _, _, _, _, _, hframe⟩ :=
      remove_spec c hc s.m ft filename _ fuel h.bytes hfo (by omega) (by omega)
    have hm32 : m3 = m2 := by
      rw [heq] at heq3
      simp only [Option.some.injEq, Prod.mk.injEq] at heq3
      exact heq3.2.symm
    rw [hm32] at hframe
    rw [heq] at hres
    simp only [Option.some.injEq, Prod.mk.injEq] at hres
    obtain ⟨_, rfl⟩ := hres
    have he2 : e2 = e :=
      live_name_unique c s.m ft h.names e2 e (by rw [hsplit]; simp) he (by rw [← hn2, hn])
    subst he2
    have hmem : ∀ x, x ∈ lp ++ lq → x ∈ liveEntries c s.m (0 :: ft) := by
      intro x hx
      rw [hsplit]
      exact mem_of_split lp lq e2 x hx
    have hsbne : ∀ x, x ∈ lp ++ lq → x.FTE.startblock ≠ e2.FTE.startblock := by
      intro x hx
      have hst := h.starts
      rw [hsplit] at hst
      exact nodup_split_ne (fun e => e.FTE.startblock) lp lq e2 hst x hx
    -- the entry that is tombstoned lies in a table block
    obtain ⟨tb, htb, i, hi, he3⟩ :=
      (mem_tableEntries c s.m (0 :: ft) e3).mp (by rw [hte]; simp)
    have haddr : e3.fteAddr = FFS_ENTRYADDR c tb i := by rw [he3]; rfl
    have hag : ∀ x, x ∈ lp ++ lq → ∀ b ∈ ch x.FTE.startblock,
        AgreeOn s.m m2 (b.idx * c.FLASH_BLOCKSIZE)
          (b.idx * c.FLASH_BLOCKSIZE + c.FLASH_BLOCKSIZE) := by
      intro x hx b hb a ha1 ha2
      have hdiv : a / c.FLASH_BLOCKSIZE = b.idx := by
        have := div_block b.idx c.FLASH_BLOCKSIZE (a - b.idx * c.FLASH_BLOCKSIZE) (by omega)
        rw [← this]; congr 1; omega
      have hnt := ((DiskWF_chain c hc s ft ch h x (hmem x hx)).2.2.2 b hb).1
      apply hframe
      · rw [hdiv]
        exact h.disjoint x (hmem x hx) e2 he (hsbne x hx) b hb
      · by_contra hcon
        have : a = e3.fteAddr + (a - e3.fteAddr) := by omega
        have hd2 := slot_div c hc tb i (a - e3.fteAddr) hi (by omega)
        rw [← haddr, ← this, hdiv] at hd2
        rw [hd2] at hnt
        exact hnt htb
    refine ⟨ft, ch, hb2, ht2, ⟨hfree2, h.alloc.2⟩, ?_, ?_, ?_, ?_, ?_⟩
    · show ((liveEntries c m2 (0 :: ft)).map (fun e => cstr e.FTE.filename)).Nodup
      rw [hlive2]
      have hnm := h.names
      unfold NamesNodup at hnm
      rw [hsplit] at hnm
      exact List.Nodup.sublist
        (List.Sublist.map _ (List.Sublist.append_left (List.sublist_cons_self e2 lq) lp)) hnm
    · show ((liveEntries c m2 (0 :: ft)).map (fun e => e.FTE.startblock)).Nodup
      rw [hlive2]
      have hst := h.starts
      rw [hsplit] at hst
      exact List.Nodup.sublist
        (List.Sublist.map _ (List.Sublist.append_left (List.sublist_cons_self e2 lq) lp)) hst
    · intro x hx
      change x ∈ liveEntries c m2 (0 :: ft) at hx
      rw [hlive2] at hx
      obtain ⟨g1, g2, g3⟩ := h.files x (hmem x hx)
      exact ⟨g1, g2, FileSt_congr c hc s.m m2 s.F _ (hag x hx) g3⟩
    · intro a1 ha1 a2 ha2 hne12
      change a1 ∈ liveEntries c m2 (0 :: ft) at ha1
      change a2 ∈ liveEntries c m2 (0 :: ft) at ha2
      rw [hlive2] at ha1 ha2
      exact h.disjoint a1 (hmem a1 ha1) a2 (hmem a2 ha2) hne12
    · intro hmode
      obtain ⟨eh, heh, cur, hap⟩ := h.handle hmode
      have hsb : eh.FTE.startblock = s.F.startblock :=
        Option.some.inj ((h.files eh heh).1.symm.trans hap.2.1)
      have hneh : eh ≠ e2 := by
        intro hcon
        rw [hcon] at hsb
        exact hne hmode hsb
      have hin : eh ∈ lp ++ lq := mem_split_of_ne lp lq e2 eh (by rw [← hsplit]; exact heh) hneh
      refine ⟨eh, ?_, cur, AppendOK_congr c hc s.m m2 _ cur s.F (hag eh hin) hap⟩
      show eh ∈ liveEntries c m2 (0 :: ft)
      rw [hlive2]; exact hin
  · obtain ⟨e, hlk⟩ := (LookupFile_spec c hc s.m ft filename fuel htok.1 (by omega)).2 hhas
    rw [remove_notfound c fuel s.m filename e hlk] at hres
    simp only [Option.some.injEq, Prod.mk.injEq] at hres
    obtain ⟨_, rfl⟩ := hres
    exact hinv0

/-- Every API call of a program that keeps to the handle protocol preserves the
invariant. -/
theorem api_step_inv (c : Cfg) (hc : c.ok) (fuel : Nat)
    (hfuel : 65536 + c.FLASH_BLOCKSIZE * (c.BlockCount + 1) ≤ fuel)
    (s s1 : ApiState) (hinv : ApiInv c s) (hstep : ApiStep c fuel s s1) : ApiInv c s1 := by
  have hB := hc.2.1
  have h1 : c.BlockCount ≤ fuel := by nlinarith
  have h2 : c.BlockCount + c.FLASH_BLOCKSIZE ≤ fuel := by nlinarith
  cases hstep with
  | fopen filename mode r m1 fs1 F1 hflushed hname hchars hres =>
    exact step_fopen c hc fuel h2 s hinv filename mode r m1 fs1 F1 hflushed hname hchars hres
  | fwrite data k m1 fs1 F1 hd hsize hlen hres =>
    exact step_fwrite c hc fuel h1 (by omega) s hinv data k m1 fs1 F1 hd hsize hlen hres
  | fflush => exact step_fflush c hc s hinv
  | fclose r m1 F1 hres => exact step_fclose c hc s hinv r m1 F1 hres
  | fread size k buf F1 hres => exact step_fread c hc fuel s hinv size k buf F1 hres
  | fseek offset r F1 hres => exact step_fseek c hc fuel s hinv offset r F1 hres
  | remove filename r m1 hother hres =>
    exact step_remove c hc fuel h1 s hinv filename r m1 hother hres
  | cleanupFT r m1 fs1 hres => exact step_cleanup c hc fuel (by omega) s hinv r m1 fs1 hres
  | blocksFree k fs1 hres => exact step_blocksFree c hc fuel h1 s hinv k fs1 hres
  | getFile buf r fs1 buf1 hres => exact step_getFile c hc fuel s hinv buf r fs1 buf1 hres

/-- The invariant holds in every state that a program keeping to the handle protocol
reaches. -/
theorem api_reach_inv (c : Cfg) (hc : c.ok) (fuel : Nat)
    (hfuel : 65536 + c.FLASH_BLOCKSIZE * (c.BlockCount + 1) ≤ fuel)
    (s s1 : ApiState) (hinv : ApiInv c s)
    (hreach : Relation.ReflTransGen (ApiStep c fuel) s s1) : ApiInv c s1 := by
  induction hreach with
  | refl => exact hinv
  | tail _ hstep ih => exact api_step_inv c hc fuel hfuel _ _ ih hstep

theorem liveOf_unused (c : Cfg) (es : List FFS_FTE_INFO_t)
    (h : ∀ x ∈ es, x.FTE.startblock = FFS_UNINIT16 c) : liveOf c es = [] := by
  cases es with
  | nil => rfl
  | cons a rest =>
    have ha := h a (List.mem_cons_self _ _)
    simp [liveOf, List.takeWhile, ha]

/-- The table of a freshly formatted device is well-formed and empty. -/
theorem fresh_tablewf (c : Cfg) (hc : c.ok) (m : Mem) (h : FreshOK c m) (hN : 1 ≤ c.BlockCount) :
    TableWF c m [] := by
  have hB := hc.2.1
  have hNB : c.FLASH_BLOCKSIZE ≤ c.BlockCount * c.FLASH_BLOCKSIZE := by
    calc c.FLASH_BLOCKSIZE = 1 * c.FLASH_BLOCKSIZE := by omega
      _ ≤ c.BlockCount * c.FLASH_BLOCKSIZE := Nat.mul_le_mul_right _ hN
  refine ⟨⟨?_, ?_, ?_⟩, fun b hb => by simp at hb, [], tableEntries c m [0], by simp,
    fun x hx => by simp at hx, ?_⟩
  · simpa using h.1
  · simpa using h.2 2 (by omega) (by omega)
  · simpa using h.2 3 (by omega) (by omega)
  · intro x hx o ho
    obtain ⟨b, hb, i, hi, hxe⟩ := (mem_tableEntries c m [0] x).mp hx
    simp only [List.mem_singleton] at hb
    subst hb
    have haddr : x.fteAddr = FFS_ENTRYADDR c 0 i := by rw [hxe]; rfl
    have hdiv := slot_div c hc 0 i o hi ho
    have hlt : FFS_ENTRYADDR c 0 i + o < c.FLASH_BLOCKSIZE := by
      by_contra hcon
      have : 1 ≤ (FFS_ENTRYADDR c 0 i + o) / c.FLASH_BLOCKSIZE :=
        (Nat.le_div_iff_mul_le (by omega)).mpr (by omega)
      omega
    rw [haddr]
    apply h.2
    · unfold FFS_ENTRYADDR sizeof_SBHDR; omega
    · omega

theorem Bytes_eraseAll (c : Cfg) (hc : c.ok) (m : Mem) (h : Bytes m) :
    Bytes (flashSPAN_EraseAll c m) := by
  intro a
  unfold flashSPAN_EraseAll
  split
  · exact (status_facts c hc).2.2.2.2.2.2.2.2.2
  · exact h a

/-- The device that `ffs_init` leaves holds bytes, and it is the device it found when
that one carries the file table marker. -/
theorem init_device (c : Cfg) (hc : c.ok) (fuel : Nat) (m0 : Mem) (fs0 : FFS_FS_t) (r : RES_t)
    (m1 : Mem) (fs1 : FFS_FS_t) (hb : Bytes m0)
    (h : ffs_init c fuel RES_OK m0 fs0 = some (r, m1, fs1)) :
    Bytes m1 ∧ (FFS_TST_FT c (m0 0) = true → m1 = m0 ∧
      ∃ b fs2, FindUnusedBlock c fuel m0 { fs0 with BlockSearchStart := 0 } = some (b, fs2) ∧
        fs1 = { BlockSearchStart := (b + 65535) % 65536, GetFileCounter := 0 }) := by
  unfold ffs_init at h
  rw [if_neg (by simp)] at h
  simp only at h
  split at h
  · simp at h
  · rename_i b fs2 heq
    simp only [Option.some.injEq, Prod.mk.injEq] at h
    obtain ⟨_, h1, h2⟩ := h
    constructor
    · rw [← h1]
      split
      · exact hb
      · exact Bytes_write c _ _ _ (Bytes_eraseAll c hc m0 hb)
          (by intro x hx; simp only [List.mem_singleton] at hx; rw [hx]
              exact (status_facts c hc).2.2.2.2.2.2.2.1)
    · intro ht
      rw [if_pos ht] at h1 heq
      exact ⟨h1.symm, b, fs2, heq, h2.symm⟩

/-- The invariant holds right after `ffs_init`. -/
theorem Started_inv (c : Cfg) (hc : c.ok) (fuel : Nat) (hfuel : c.BlockCount ≤ fuel)
    (s : ApiState) (h : Started c fuel s) : ApiInv c s := by
  obtain ⟨hF, m0, fs0, hb0, hinit, hcase⟩ := h
  obtain ⟨hb1, hmount⟩ := init_device c hc fuel m0 fs0 RES_OK s.m s.fs hb0 hinit
  rcases hcase with ⟨hblank, hN⟩ | ⟨hfree, fs, F, ⟨ft, ch, hwf⟩, hflushed⟩
  · obtain ⟨m1, fs1, heq, hfresh, hfs⟩ := init_fresh c hc m0 fs0 fuel hblank hN hfuel
    rw [heq] at hinit
    simp only [Option.some.injEq, Prod.mk.injEq] at hinit
    obtain ⟨_, hm, hfs1⟩ := hinit
    rw [hm] at hfresh hfs
    rw [hfs1] at hfs
    have hlive : liveEntries c s.m [0] = [] :=
      liveOf_unused c _ (fresh_entries c hc s.m hfresh (by omega))
    refine ⟨[], fun _ => [], hb1, fresh_tablewf c hc s.m hfresh (by omega), hfs, ?_, ?_, ?_, ?_,
      fun hm => absurd hm hF⟩
    · show ((liveEntries c s.m [0]).map (fun e => cstr e.FTE.filename)).Nodup
      rw [hlive]; exact List.nodup_nil
    · rw [hlive]; exact List.nodup_nil
    · intro e he; rw [hlive] at he; simp at he
    · intro e he; rw [hlive] at he; simp at he
  · have htst : FFS_TST_FT c (m0 0) = true := by
      have hch := hwf.table.1
      have htf := tst_ft_facts c hc
      cases ft with
      | nil =>
        have : m0 (0 * c.FLASH_BLOCKSIZE) = FFS_B_FT_EOF c := hch.1
        simp only [Nat.zero_mul] at this
        rw [this]; exact htf.2.2.2.1
      | cons b rest =>
        have : m0 (0 * c.FLASH_BLOCKSIZE) = FFS_B_FT_JUMP c := hch.1
        simp only [Nat.zero_mul] at this
        rw [this]; exact htf.2.2.2.2
    obtain ⟨hm, b, fs2, halloc, hfs1⟩ := hmount htst
    obtain ⟨b2, fs3, e, _, _, hcase2⟩ := FindUnusedBlock_spec c hc m0
      { fs0 with BlockSearchStart := 0 } fuel
      (by show 0 < c.BlockCount; have := hwf.alloc.2; omega) hfuel
    rw [halloc] at e
    simp only [Option.some.injEq, Prod.mk.injEq] at e
    have hbb : b = b2 := e.1
    have hcur : s.fs.BlockSearchStart < c.BlockCount := by
      rw [hfs1]
      show (b + 65535) % 65536 < c.BlockCount
      rcases hcase2 with ⟨_, _, hnf⟩ | ⟨h1, h2, _, _⟩
      · exact absurd hnf hfree
      · omega
    have hd := DiskWF_frame c hc { m := m0, fs := fs, F := F } ft ch hwf s.m s.fs s.F ft hb1
      (by rw [hm]; exact hwf.table) ⟨by rw [hm]; exact hwf.alloc.1, hcur⟩ (by rw [hm])
      (fun _ _ _ _ => by rw [hm]; exact AgreeOn_refl _ _ _) (Or.inr ⟨hF, hflushed⟩)
    exact ⟨ft, ch, hd⟩

/-- The invariant holds in every state that a program keeping to the handle protocol
reaches after `ffs_init`. -/
theorem started_reach_inv (c : Cfg) (hc : c.ok) (fuel : Nat)
    (hfuel : 65536 + c.FLASH_BLOCKSIZE * (c.BlockCount + 1) ≤ fuel)
    (s0 s : ApiState) (h0 : Started c fuel s0)
    (hreach : Relation.ReflTransGen (ApiStep c fuel) s0 s) : ApiInv c s := by
  have hB := hc.2.1
  have h1 : c.BlockCount ≤ fuel := by nlinarith
  exact api_reach_inv c hc fuel hfuel s0 s (Started_inv c hc fuel h1 s0 h0) hreach

/-- The stored virtual addresses of a well-formed chain. -/
theorem ChainOK_virt (c : Cfg) (m : Mem) :
    ∀ (bs : List Blk) (v : Nat), ChainOK c m v bs → ∀ i (h : i < bs.length),
      rd32 m ((bs.get ⟨i, h⟩).idx * c.FLASH_BLOCKSIZE + offsetof_virt_addr)
        = v + ((bs.take i).map (fun b => payloadLen b.chunks)).sum := by
  intro bs
  induction bs with
  | nil => intro v _ i h; simp at h
  | cons b rest ih =>
    intro v hch i h
    obtain ⟨hb, hrest⟩ := hch
    cases i with
    | zero => simpa using hb.1
    | succ j =>
      have := ih _ hrest j (by simpa using h)
      simp only [List.get_eq_getElem, List.getElem_cons_succ, List.take_succ_cons, List.map_cons,
        List.sum_cons] at this ⊢
      rw [this]; omega

/-- The payload that the length bytes of a block with well-formed chunk headers tell is
the payload of its chunks. -/
theorem storedPayload_eq (c : Cfg) (m : Mem) (bs : List Blk) (h : HeadersOK c m bs) (b : Blk)
    (hb : b ∈ bs) : storedPayload c m b = payloadLen b.chunks := by
  unfold storedPayload payloadLen
  have h1 : (List.range b.chunks.length).map (fun i => m (chunkAddr c b i) - 1)
      = (List.range b.chunks.length).map (fun i => (b.chunks.getD i []).length) := by
    apply List.map_congr_left
    intro i hi
    rw [(h b hb i (List.mem_range.mp hi)).1]
    omega
  rw [h1, List.length_flatten]
  congr 1
  apply List.ext_getElem
  · simp
  · intro i h2 h3
    simp only [List.length_map, List.length_range] at h2
    simp [List.getD_eq_getElem?_getD, List.getElem?_eq_getElem h2]

/-- The chain of a file of the invariant has well-formed chunk headers and stored
virtual addresses. -/
theorem DiskWF_virt (c : Cfg) (hc : c.ok) (s : ApiState) (ft : List Nat) (ch : Nat → List Blk)
    (h : DiskWF c s ft ch) (e : FFS_FTE_INFO_t) (he : e ∈ liveEntries c s.m (0 :: ft)) :
    ChainOK c s.m 0 (ch e.FTE.startblock) ∧ HeadersOK c s.m (ch e.FTE.startblock) ∧
    VirtOK c s.m (ch e.FTE.startblock) := by
  have hch := (DiskWF_chain c hc s ft ch h e he).1
  have hh := ChainOK_headers c hc s.m _ 0 hch
  refine ⟨hch, hh, ?_⟩
  intro i hi
  rw [ChainOK_virt c s.m _ 0 hch i hi, Nat.zero_add]
  congr 1
  apply List.map_congr_left
  intro b hb
  exact (storedPayload_eq c s.m _ hh b (List.mem_of_mem_take hb)).symm

theorem smallCfg_ok : smallCfg.ok := by unfold Cfg.ok; decide

theorem blank_bytes : Bytes blankDev := by
  intro a
  show (0xFF : Nat) < 256
  decide

set_option maxRecDepth 100000 in
theorem walk_boot : ffs_init demoCfg walkFuel RES_OK blankDev fsInit
    = some (RES_OK, bootState.m, bootState.fs) := by rfl

set_option maxRecDepth 100000 in
theorem walk_open : ffs_fopen demoCfg walkFuel bootState.m bootState.fs (some bootState.F)
    [97, 0] FFS_WR_APPEND = some (RES_OK, openState.m, openState.fs, some openState.F) := by rfl

set_option maxRecDepth 100000 in
theorem walk_write : ffs_fwrite demoCfg walkFuel openState.m openState.fs (List.replicate 30 7)
    openState.F = some (30, writtenState.m, writtenState.fs, writtenState.F) := by rfl

set_option maxRecDepth 100000 in
theorem walk_close : ffs_fclose demoCfg writtenState.m (some writtenState.F)
    = (RES_OK, closedState.m, some closedState.F) := by rfl

set_option maxRecDepth 100000 in
theorem walk_close_fs : closedState.fs = writtenState.fs := by rfl

set_option maxRecDepth 100000 in
theorem walk_open_virt : openState.F.virt_addr = 0 := by rfl

/-- The state `bootState` is a state right after `ffs_init`. -/
theorem walk_started : Started demoCfg walkFuel bootState :=
  ⟨by decide, blankDev, fsInit, blank_bytes, walk_boot, Or.inl ⟨by decide, by decide⟩⟩

/-- The state `closedState` is reached from `bootState` by creating the file `a`,
writing 30 bytes and closing the file. -/
theorem walk_reach : Relation.ReflTransGen (ApiStep demoCfg walkFuel) bootState closedState := by
  have s1 : ApiStep demoCfg walkFuel bootState openState :=
    ApiStep.fopen bootState [97, 0] FFS_WR_APPEND RES_OK openState.m openState.fs openState.F
      (fun h => absurd h (by decide)) (by decide) (by decide) walk_open
  have s2 : ApiStep demoCfg walkFuel openState writtenState :=
    ApiStep.fwrite openState (List.replicate 30 7) 30 writtenState.m writtenState.fs
      writtenState.F (fun x hx => by rw [List.eq_of_mem_replicate hx]; decide) (by decide)
      (by rw [walk_open_virt]; decide) walk_write
  have s3 : ApiStep demoCfg walkFuel writtenState
      { m := closedState.m, fs := writtenState.fs, F := closedState.F } :=
    ApiStep.fclose writtenState RES_OK closedState.m closedState.F walk_close
  have e : ({ m := closedState.m, fs := writtenState.fs, F := closedState.F } : ApiState)
      = closedState := by rw [← walk_close_fs]
  rw [e] at s3
  exact ((Relation.ReflTransGen.single s1).tail s2).tail s3

/-- The loop of `ffs_fwrite` is its pass, repeated. -/
theorem fwrite_loop_pass (c : Cfg) (af : Nat) (FILE : FFS_FILE_t) (fuel : Nat) (m : Mem)
    (fs : FFS_FS_t) (data : List Nat) (done block rem hw nB virt : Nat) :
    ffs_fwrite_loop c af FILE (fuel + 1) m fs data done block rem hw nB virt
      = ffs_fwrite_cont c af FILE fuel
          (ffs_fwrite_pass c af FILE m fs data done block rem hw nB virt) := by
  rw [ffs_fwrite_loop]
  unfold ffs_fwrite_pass
  simp only []
  by_cases h1 : data.length > 0
  · simp only [if_pos h1]
    split_ifs
    all_goals first
      | (simp only [ffs_fwrite_cont]; done)
      | (cases FindUnusedBlock c af _ fs with
         | none => simp only [ffs_fwrite_cont]
         | some q =>
           obtain ⟨blk, fs2⟩ := q
           simp only []
           split_ifs
           · simp only [ffs_fwrite_cont]
           · simp only [ffs_fwrite_cont])
  · simp only [if_neg h1, ffs_fwrite_cont]

/-- More fuel does not change the result of the loop of `ffs_fwrite`. -/
theorem fwrite_loop_mono (c : Cfg) (af : Nat) (FILE : FFS_FILE_t) :
    ∀ (fuel : Nat) (m : Mem) (fs : FFS_FS_t) (data : List Nat) (done block rem hw nB virt : Nat)
      (r : Nat × Mem × FFS_FS_t × FFS_FILE_t),
      ffs_fwrite_loop c af FILE fuel m fs data done block rem hw nB virt = some r →
      ∀ d, ffs_fwrite_loop c af FILE (fuel + d) m fs data done block rem hw nB virt = some r := by
  intro fuel
  induction fuel with
  | zero => intro m fs data done block rem hw nB virt r h; simp [ffs_fwrite_loop] at h
  | succ f ih =>
    intro m fs data done block rem hw nB virt r h d
    have e : f + 1 + d = (f + d) + 1 := by omega
    rw [e, fwrite_loop_pass]
    rw [fwrite_loop_pass] at h
    cases hp : ffs_fwrite_pass c af FILE m fs data done block rem hw nB virt with
    | none => rw [hp] at h; simp [ffs_fwrite_cont] at h
    | some q =>
      rw [hp] at h
      cases q with
      | inl r0 => simpa [ffs_fwrite_cont] using h
      | inr st =>
        obtain ⟨m', fs', d', dn', b', r', h', n', v'⟩ := st
        simp only [ffs_fwrite_cont] at h ⊢
        exact ih _ _ _ _ _ _ _ _ _ _ h d

/-- Writing a list in two parts stores the same bytes as writing it at once. -/
theorem Write_append (c : Cfg) (m : Mem) (p : Nat) (xs ys : List Nat) :
    flashSPAN_Write c (flashSPAN_Write c m p xs) (p + xs.length) ys
      = flashSPAN_Write c m p (xs ++ ys) := by
  funext x
  unfold flashSPAN_Write
  simp only [List.length_append]
  by_cases h1 : p ≤ x ∧ x < p + xs.length
  · rw [if_neg (by omega), if_pos h1, if_pos (by omega)]
    congr 1
    rw [List.getD_append _ _ _ _ (by omega)]
  · by_cases h2 : p + xs.length ≤ x ∧ x < p + xs.length + ys.length
    · rw [if_pos h2, if_neg h1, if_pos (by omega)]
      congr 1
      rw [List.getD_append_right _ _ _ _ (by omega)]
      congr 1
      omega
    · rw [if_neg h2, if_neg h1, if_neg (by omega)]
theorem WrPos_entry (c : Cfg) (hc : c.ok) (block rem hw nB : Nat) (h : WrPos c block rem hw nB) :
    hw / c.FLASH_BLOCKSIZE = block ∧ entryRemaining c hw nB = rem := by
  have hB := hc.2.1
  have hB2 := hc.2.2.1
  obtain ⟨h1, h2, h3, h4⟩ := h
  have hle : hw / c.FLASH_BLOCKSIZE * c.FLASH_BLOCKSIZE ≤ hw := Nat.div_mul_le_self _ _
  refine ⟨h1.symm, ?_⟩
  unfold entryRemaining
  rw [← h1]
  have e : c.FLASH_BLOCKSIZE + 4294967296 - (hw + nB - block * c.FLASH_BLOCKSIZE)
      = 4294967296 + rem := by
    rw [h1] at h4 ⊢
    omega
  rw [e]
  have : rem < 65536 := by
    rw [h1] at h4
    omega
  omega

theorem WrPos_of_bounds (c : Cfg) (hc : c.ok) (hw nB : Nat) (h1 : 1 ≤ nB) (h2 : nB ≤ 253)
    (h3 : hw + nB ≤ hw / c.FLASH_BLOCKSIZE * c.FLASH_BLOCKSIZE + c.FLASH_BLOCKSIZE) :
    WrPos c (hw / c.FLASH_BLOCKSIZE) (entryRemaining c hw nB) hw nB := by
  have hB := hc.2.1
  have hB2 := hc.2.2.1
  have hle : hw / c.FLASH_BLOCKSIZE * c.FLASH_BLOCKSIZE ≤ hw := Nat.div_mul_le_self _ _
  refine ⟨rfl, h1, h2, ?_⟩
  unfold entryRemaining
  have e : (c.FLASH_BLOCKSIZE + 4294967296
      - (hw + nB - hw / c.FLASH_BLOCKSIZE * c.FLASH_BLOCKSIZE)) % 65536
      = c.FLASH_BLOCKSIZE - (hw + nB - hw / c.FLASH_BLOCKSIZE * c.FLASH_BLOCKSIZE) := by
    omega
  rw [e]
  omega

theorem WrPos_newblock (c : Cfg) (hc : c.ok) (blk : Nat) :
    WrPos c blk (c.FLASH_BLOCKSIZE - 9) (blk * c.FLASH_BLOCKSIZE + 8) 1 := by
  have hB := hc.2.1
  refine ⟨(div_block blk c.FLASH_BLOCKSIZE 8 (by omega)).symm, by omega, by omega, by omega⟩

theorem WrPos_nextchunk (c : Cfg) (hc : c.ok) (block rem hw nB w r2 : Nat)
    (h : WrPos c block rem hw nB) (hw2 : w + nB = 254) (hr : rem = w + r2 + 2) :
    WrPos c block (r2 + 1) (hw + 254) 1 := by
  have hB := hc.2.1
  obtain ⟨h1, h2, h3, h4⟩ := h
  have hle : hw / c.FLASH_BLOCKSIZE * c.FLASH_BLOCKSIZE ≤ hw := Nat.div_mul_le_self _ _
  rw [← h1] at hle
  refine ⟨?_, by omega, by omega, by omega⟩
  have := div_block block c.FLASH_BLOCKSIZE (hw + 254 - block * c.FLASH_BLOCKSIZE) (by omega)
  rw [← this]
  congr 1
  omega

/-- A pass of the write loop over `a ++ b` that would write all of `a` and still has
room in chunk and block does what the pass over `b` does after `a` has been written. -/
theorem fwrite_loop_absorb (c : Cfg) (hc : c.ok) (af : Nat) (FILE : FFS_FILE_t) (fuel : Nat)
    (m : Mem) (fs : FFS_FS_t) (a b : List Nat) (done block rem hw nB virt : Nat)
    (hb : b ≠ []) (h1 : nB + a.length ≤ 253) (h2 : a.length + 2 ≤ rem) :
    ffs_fwrite_loop c af FILE (fuel + 1) m fs (a ++ b) done block rem hw nB virt
      = ffs_fwrite_loop c af FILE (fuel + 1) (flashSPAN_Write c m (hw + nB) a) fs b
          (done + a.length) block (rem - a.length) hw (nB + a.length) (virt + a.length) := by
  have hB := hc.2.1
  have hB2 := hc.2.2.1
  have hbl : 0 < b.length := List.length_pos.mpr hb
  have hab : 0 < (a ++ b).length := by rw [List.length_append]; omega
  have htake : ∀ w, (a ++ b).take (a.length + w) = a ++ b.take w := fun w => List.take_append w
  have hdrop : ∀ w, (a ++ b).drop (a.length + w) = b.drop w := fun w => List.drop_append w
  have hwr : ∀ w, flashSPAN_Write c m (hw + nB) (a ++ b.take w)
      = flashSPAN_Write c (flashSPAN_Write c m (hw + nB) a) (hw + (nB + a.length)) (b.take w) := by
    intro w
    rw [← Write_append, Nat.add_assoc]
  by_cases hA : 254 - (nB + a.length) ≤ b.length ∧ 254 - (nB + a.length) + 2 ≤ rem - a.length
  · -- the chunk is filled, the block is not
    rw [fwrite_loop_A c af FILE fuel m fs (a ++ b) done block rem hw nB virt
      (a.length + (254 - (nB + a.length))) (rem - a.length - (254 - (nB + a.length)) - 2) hab
      (by rw [List.length_append]; omega) (by omega) (by omega)]
    rw [fwrite_loop_A c af FILE fuel (flashSPAN_Write c m (hw + nB) a) fs b (done + a.length) block
      (rem - a.length) hw (nB + a.length) (virt + a.length) (254 - (nB + a.length))
      (rem - a.length - (254 - (nB + a.length)) - 2) hbl (by omega) (by omega) (by omega)]
    rw [htake, hdrop, hwr]
    congr 1 <;> omega
  · by_cases hBk : rem - a.length ≤ min (min (254 - (nB + a.length)) b.length) (rem - a.length) + 1
    · -- the block is filled
      have hw1 : min (min (254 - (nB + a.length)) b.length) (rem - a.length) ≤ b.length := by
        omega
      rw [fwrite_loop_B c af FILE fuel m fs (a ++ b) done block rem hw nB virt
        (a.length + min (min (254 - (nB + a.length)) b.length) (rem - a.length)) hab
        (by rw [List.length_append]; omega) (by omega) (by omega)
        (by rw [List.length_append]; omega) (by omega) (by omega) hB2]
      rw [fwrite_loop_B c af FILE fuel (flashSPAN_Write c m (hw + nB) a) fs b (done + a.length)
        block (rem - a.length) hw (nB + a.length) (virt + a.length)
        (min (min (254 - (nB + a.length)) b.length) (rem - a.length)) hbl hw1 (by omega) (by omega)
        (by omega) hBk (by omega) hB2]
      rw [htake, hdrop, hwr]
      simp only [Nat.add_assoc]
    · -- the rest of the data fits
      rw [fwrite_loop_C c af FILE fuel m fs (a ++ b) done block rem hw nB virt
        (rem - (a ++ b).length - 2) hab (by rw [List.length_append]; omega)
        (by rw [List.length_append]; omega)]
      rw [fwrite_loop_C c af FILE fuel (flashSPAN_Write c m (hw + nB) a) fs b (done + a.length)
        block (rem - a.length) hw (nB + a.length) (virt + a.length) (rem - a.length - b.length - 2)
        hbl (by omega) (by omega)]
      have e1 : (a ++ b).length = a.length + b.length := List.length_append _ _
      rw [e1, htake, hdrop, hwr]
      congr 1 <;> omega
/-- The write loop over `a` followed by the write loop over `b`, entered as `ffs_fwrite`
enters it, does what the write loop over `a ++ b` does, when the loop over `a` leaves
the handle in an open chunk. -/
theorem fwrite_loop_split (c : Cfg) (hc : c.ok) (af : Nat) (FILE : FFS_FILE_t) (b : List Nat)
    (hb : b ≠ []) :
    ∀ (fA : Nat) (m : Mem) (fs : FFS_FS_t) (a : List Nat) (done block rem hw nB virt kA : Nat)
      (mA : Mem) (fsA : FFS_FS_t) (FA : FFS_FILE_t),
      WrPos c block rem hw nB →
      ffs_fwrite_loop c af FILE fA m fs a done block rem hw nB virt = some (kA, mA, fsA, FA) →
      FA.nBytes ≠ 0 →
      kA = done + a.length ∧
      ∀ fB r, ffs_fwrite_loop c af FILE fB mA fsA b kA (FA.hw_addr / c.FLASH_BLOCKSIZE)
          (entryRemaining c FA.hw_addr FA.nBytes) FA.hw_addr FA.nBytes FA.virt_addr = some r →
        ffs_fwrite_loop c af FILE (fA + fB) m fs (a ++ b) done block rem hw nB virt = some r := by
  have hB := hc.2.1
  have hB2 := hc.2.2.1
  intro fA
  induction fA with
  | zero =>
    intro m fs a done block rem hw nB virt kA mA fsA FA _ h
    simp [ffs_fwrite_loop] at h
  | succ f ih =>
    intro m fs a done block rem hw nB virt kA mA fsA FA hpos h hne
    obtain ⟨p1, p2, p3, p4⟩ := hpos
    have hpos : WrPos c block rem hw nB := ⟨p1, p2, p3, p4⟩
    by_cases ha : a = []
    · subst ha
      rw [fwrite_loop_nil] at h
      simp only [Option.some.injEq, Prod.mk.injEq] at h
      obtain ⟨rfl, rfl, rfl, rfl⟩ := h
      obtain ⟨e1, e2⟩ := WrPos_entry c hc block rem hw nB hpos
      refine ⟨by simp, ?_⟩
      intro fB r hr
      dsimp only at hr
      rw [e1, e2] at hr
      rw [List.nil_append, Nat.add_comm]
      exact fwrite_loop_mono c af FILE fB _ _ _ _ _ _ _ _ _ r hr (f + 1)
    · have hal : 0 < a.length := List.length_pos.mpr ha
      by_cases hI : 254 - nB ≤ a.length ∧ 254 - nB + 2 ≤ rem
      · rw [fwrite_loop_A c af FILE f m fs a done block rem hw nB virt (254 - nB)
          (rem - (254 - nB) - 2) hal hI.1 (by omega) (by omega)] at h
        have hpos2 := WrPos_nextchunk c hc block rem hw nB (254 - nB) (rem - (254 - nB) - 2) hpos
          (by omega) (by omega)
        obtain ⟨g1, g2⟩ := ih _ _ _ _ _ _ _ _ _ _ _ _ _ hpos2 h hne
        refine ⟨by rw [g1, List.length_drop]; omega, ?_⟩
        intro fB r hr
        have e : f + 1 + fB = (f + fB) + 1 := by omega
        rw [e, fwrite_loop_A c af FILE (f + fB) m fs (a ++ b) done block rem hw nB virt (254 - nB)
          (rem - (254 - nB) - 2) (by rw [List.length_append]; omega)
          (by rw [List.length_append]; omega) (by omega) (by omega)]
        rw [List.take_append_of_le_length hI.1, List.drop_append_of_le_length hI.1]
        exact g2 fB r hr
      · by_cases hII : rem ≤ min (min (254 - nB) a.length) rem + 1
        · obtain ⟨w, hwd⟩ : ∃ w, w = min (min (254 - nB) a.length) rem := ⟨_, rfl⟩
          rw [← hwd] at hII
          have hwa : w ≤ a.length := by omega
          rw [fwrite_loop_B c af FILE f m fs a done block rem hw nB virt w hal hwa (by omega)
            (by omega) (by omega) hII (by omega) hB2] at h
          by_cases hd : (a.drop w).length = 0
          · rw [if_pos hd] at h
            simp only [Option.some.injEq, Prod.mk.injEq] at h
            obtain ⟨_, _, _, rfl⟩ := h
            exact absurd rfl hne
          · rw [if_neg hd] at h
            cases hfu : FindUnusedBlock c af
                (flashSPAN_Write c (flashSPAN_Write c m (hw + nB) (a.take w)) hw [nB + w]) fs with
            | none => rw [hfu] at h; simp at h
            | some q =>
              obtain ⟨blk, fs2⟩ := q
              rw [hfu] at h
              simp only [] at h
              by_cases hblk : blk = 0
              · rw [if_pos hblk] at h
                simp only [Option.some.injEq, Prod.mk.injEq] at h
                obtain ⟨_, _, _, rfl⟩ := h
                exact absurd rfl hne
              · rw [if_neg hblk] at h
                obtain ⟨g1, g2⟩ := ih _ _ _ _ _ _ _ _ _ _ _ _ _ (WrPos_newblock c hc blk) h hne
                have hdl : (a.drop w).length = a.length - w := List.length_drop _ _
                refine ⟨by rw [g1, hdl]; omega, ?_⟩
                intro fB r hr
                have e : f + 1 + fB = (f + fB) + 1 := by omega
                have hwlt : w < a.length := by omega
                rw [e, fwrite_loop_B c af FILE (f + fB) m fs (a ++ b) done block rem hw nB virt w
                  (by rw [List.length_append]; omega) (by rw [List.length_append]; omega)
                  (by omega) (by omega) (by omega) hII (by omega) hB2]
                rw [List.take_append_of_le_length hwa, List.drop_append_of_le_length hwa]
                rw [if_neg (by rw [List.length_append]; omega), hfu]
                simp only []
                rw [if_neg hblk]
                exact g2 fB r hr
        · have h253 : a.length + nB < 254 := by omega
          have hrem : a.length + 2 ≤ rem := by omega
          rw [fwrite_loop_C c af FILE f m fs a done block rem hw nB virt (rem - a.length - 2) hal
            h253 (by omega)] at h
          rw [List.take_length, List.drop_length] at h
          cases f with
          | zero => simp [ffs_fwrite_loop] at h
          | succ g =>
            rw [fwrite_loop_nil] at h
            simp only [Option.some.injEq, Prod.mk.injEq] at h
            obtain ⟨rfl, rfl, rfl, rfl⟩ := h
            have hpos2 : WrPos c block (rem - a.length) hw (nB + a.length) :=
              ⟨p1, by omega, by omega, by omega⟩
            obtain ⟨e1, e2⟩ := WrPos_entry c hc _ _ _ _ hpos2
            refine ⟨rfl, ?_⟩
            intro fB r hr
            dsimp only at hr
            rw [e1, e2] at hr
            cases fB with
            | zero => simp [ffs_fwrite_loop] at hr
            | succ k =>
              have e : g + 1 + 1 + (k + 1) = (k + 1 + (g + 1)) + 1 := by omega
              rw [e, fwrite_loop_absorb c hc af FILE _ m fs a b done block rem hw nB virt hb
                (by omega) hrem]
              have e2 : k + 1 + (g + 1) + 1 = (k + 1) + (g + 1 + 1) := by omega
              rw [e2]
              exact fwrite_loop_mono c af FILE (k + 1) _ _ _ _ _ _ _ _ _ r hr (g + 1 + 1)

theorem fwrite_pass_shift (c : Cfg) (af : Nat) (FILE FILE2 : FFS_FILE_t)
    (hfm : FILE2.filemode = FILE.filemode) (hsb : FILE2.startblock = FILE.startblock)
    (m : Mem) (fs : FFS_FS_t) (data : List Nat) (done block rem hw nB virt d : Nat) :
    ffs_fwrite_pass c af FILE m fs data (done + d) block rem hw nB virt
      = (ffs_fwrite_pass c af FILE2 m fs data done block rem hw nB virt).map
          (Sum.map (fun r => (r.1 + d, r.2))
            (fun st => (st.1, st.2.1, st.2.2.1, st.2.2.2.1 + d, st.2.2.2.2))) := by
  unfold ffs_fwrite_pass
  simp only [hfm, hsb]
  by_cases h1 : data.length > 0
  · simp only [if_pos h1]
    split_ifs
    all_goals first
      | (simp only [Option.map_some', Sum.map_inr, Sum.map_inl, Nat.add_right_comm]; done)
      | (cases FindUnusedBlock c af _ fs with
         | none => simp only [Option.map_none']
         | some q =>
           obtain ⟨blk, fs2⟩ := q
           simp only []
           split_ifs
           · simp only [Option.map_some', Sum.map_inl, Nat.add_right_comm]
           · simp only [Option.map_some', Sum.map_inr, Nat.add_right_comm])
  · simp only [if_neg h1, Option.map_some', Sum.map_inl]

/-- The write loop counts from any value of `size_done`, and its handle parameter
matters only through the file mode and the start block. -/
theorem fwrite_loop_shift (c : Cfg) (af : Nat) (FILE FILE2 : FFS_FILE_t)
    (hfm : FILE2.filemode = FILE.filemode) (hsb : FILE2.startblock = FILE.startblock) (d : Nat) :
    ∀ (f : Nat) (m : Mem) (fs : FFS_FS_t) (data : List Nat) (done block rem hw nB virt : Nat)
      (r : Nat × Mem × FFS_FS_t × FFS_FILE_t),
      ffs_fwrite_loop c af FILE2 f m fs data done block rem hw nB virt = some r →
      ffs_fwrite_loop c af FILE f m fs data (done + d) block rem hw nB virt
        = some (r.1 + d, r.2) := by
  intro f
  induction f with
  | zero => intro m fs data done block rem hw nB virt r h; simp [ffs_fwrite_loop] at h
  | succ f ih =>
    intro m fs data done block rem hw nB virt r h
    rw [fwrite_loop_pass] at h ⊢
    rw [fwrite_pass_shift c af FILE FILE2 hfm hsb]
    cases hp : ffs_fwrite_pass c af FILE2 m fs data done block rem hw nB virt with
    | none => rw [hp] at h; simp [ffs_fwrite_cont] at h
    | some q =>
      rw [hp] at h
      cases q with
      | inl r0 =>
        simp only [ffs_fwrite_cont, Option.some.injEq] at h
        simp only [Option.map_some', Sum.map_inl, ffs_fwrite_cont, h]
      | inr st =>
        obtain ⟨m', fs', d', dn', b', r', h', n', v'⟩ := st
        simp only [ffs_fwrite_cont] at h
        simp only [Option.map_some', Sum.map_inr, ffs_fwrite_cont]
        exact ih _ _ _ _ _ _ _ _ _ _ h

theorem fwrite_entry_loop (c : Cfg) (fuel : Nat) (m : Mem) (fs : FFS_FS_t) (data : List Nat)
    (F : FFS_FILE_t) (hm : F.filemode = FFS_WR_APPEND) (hn : F.nBytes ≠ 0) :
    ffs_fwrite c fuel m fs data F
      = ffs_fwrite_loop c fuel F fuel m fs data 0 (F.hw_addr / c.FLASH_BLOCKSIZE)
          (entryRemaining c F.hw_addr F.nBytes) F.hw_addr F.nBytes F.virt_addr := by
  unfold ffs_fwrite entryRemaining
  simp [hm, hn]

theorem fwrite_entry_parked (c : Cfg) (fuel : Nat) (m : Mem) (fs : FFS_FS_t) (data : List Nat)
    (F : FFS_FILE_t) (hm : F.filemode = FFS_WR_APPEND) (hn : F.nBytes = 0) :
    ffs_fwrite c fuel m fs data F
      = match FindUnusedBlock c fuel m fs with
        | none => none
        | some (blk, fs1) =>
          if blk = 0 then some (0, m, fs, F)
          else ffs_fwrite_loop c fuel F fuel
            (flashSPAN_Write c
              (flashSPAN_Write c m (blk * c.FLASH_BLOCKSIZE)
                (encBHDR (padByte c)
                  { status := FFS_B_EOF c, jump := FFS_UNINIT16 c, virt_addr := F.virt_addr }))
              F.hw_addr (encSBHDR (padByte c) (FFS_B_JUMP c) blk))
            fs1 data 0 ((blk * c.FLASH_BLOCKSIZE + 8) / c.FLASH_BLOCKSIZE)
            (entryRemaining c (blk * c.FLASH_BLOCKSIZE + 8) 1) (blk * c.FLASH_BLOCKSIZE + 8) 1
            F.virt_addr := by
  unfold ffs_fwrite entryRemaining
  simp only [hm, hn, sizeof_BHDR, sizeof_CHDR]
  cases FindUnusedBlock c fuel m fs with
  | none => simp
  | some q =>
    obtain ⟨blk, fs1⟩ := q
    by_cases hb : blk = 0
    · simp [hb]
    · simp [hb]

/-- Two calls of `ffs_fwrite` do exactly what one call with the concatenated data
does, when the first call leaves the handle in an open chunk. -/
theorem fwrite_split_exact (c : Cfg) (hc : c.ok) (fuel : Nat) (m : Mem) (fs : FFS_FS_t)
    (a b : List Nat) (F : FFS_FILE_t) (hm : F.filemode = FFS_WR_APPEND)
    (hpos : F.nBytes = 0 ∨ (1 ≤ F.nBytes ∧ F.nBytes ≤ 253 ∧ F.hw_addr + F.nBytes
      ≤ F.hw_addr / c.FLASH_BLOCKSIZE * c.FLASH_BLOCKSIZE + c.FLASH_BLOCKSIZE))
    (hb : b ≠ []) (k1 : Nat) (m1 : Mem) (fs1 : FFS_FS_t) (F1 : FFS_FILE_t) (k2 : Nat) (m2 : Mem)
    (fs2 : FFS_FS_t) (F2 : FFS_FILE_t) (k3 : Nat) (m3 : Mem) (fs3 : FFS_FS_t) (F3 : FFS_FILE_t)
    (e1 : ffs_fwrite c fuel m fs a F = some (k1, m1, fs1, F1))
    (e2 : ffs_fwrite c fuel m1 fs1 b F1 = some (k2, m2, fs2, F2))
    (e3 : ffs_fwrite c fuel m fs (a ++ b) F = some (k3, m3, fs3, F3))
    (hfm : F1.filemode = F.filemode) (hsb : F1.startblock = F.startblock)
    (hne : F1.nBytes ≠ 0) :
    k1 = a.length ∧ k3 = k1 + k2 ∧ m3 = m2 ∧ fs3 = fs2 ∧ F3 = F2 := by
  have hB := hc.2.1
  -- the second call
  rw [fwrite_entry_loop c fuel m1 fs1 b F1 (by rw [hfm, hm]) hne] at e2
  have e2s := fwrite_loop_shift c fuel F F1 hfm hsb k1 fuel _ _ _ _ _ _ _ _ _ _ e2
  rw [Nat.zero_add] at e2s
  -- both first calls enter the loop in the same state
  have key : ∀ (m0 : Mem) (fs0 : FFS_FS_t) (hw nB : Nat),
      WrPos c (hw / c.FLASH_BLOCKSIZE) (entryRemaining c hw nB) hw nB →
      ffs_fwrite_loop c fuel F fuel m0 fs0 a 0 (hw / c.FLASH_BLOCKSIZE) (entryRemaining c hw nB)
        hw nB F.virt_addr = some (k1, m1, fs1, F1) →
      ffs_fwrite_loop c fuel F fuel m0 fs0 (a ++ b) 0 (hw / c.FLASH_BLOCKSIZE)
        (entryRemaining c hw nB) hw nB F.virt_addr = some (k3, m3, fs3, F3) →
      k1 = a.length ∧ k3 = k1 + k2 ∧ m3 = m2 ∧ fs3 = fs2 ∧ F3 = F2 := by
    intro m0 fs0 hw nB hp l1 l3
    obtain ⟨g1, g2⟩ := fwrite_loop_split c hc fuel F b hb fuel _ _ _ _ _ _ _ _ _ _ _ _ _ hp l1 hne
    have l4 := g2 fuel _ e2s
    have l5 := fwrite_loop_mono c fuel F fuel _ _ _ _ _ _ _ _ _ _ l3 fuel
    rw [l4] at l5
    simp only [Option.some.injEq, Prod.mk.injEq] at l5
    rw [Nat.zero_add] at g1
    refine ⟨g1, ?_, l5.2.1.symm, l5.2.2.1.symm, l5.2.2.2.symm⟩
    omega
  by_cases hn : F.nBytes = 0
  · rw [fwrite_entry_parked c fuel m fs a F hm hn] at e1
    rw [fwrite_entry_parked c fuel m fs (a ++ b) F hm hn] at e3
    cases hfu : FindUnusedBlock c fuel m fs with
    | none => rw [hfu] at e1; simp at e1
    | some q =>
      obtain ⟨blk, fsx⟩ := q
      rw [hfu] at e1 e3
      simp only [] at e1 e3
      by_cases hblk : blk = 0
      · rw [if_pos hblk] at e1
        simp only [Option.some.injEq, Prod.mk.injEq] at e1
        obtain ⟨_, _, _, rfl⟩ := e1
        exact absurd hn hne
      · rw [if_neg hblk] at e1 e3
        have hp : WrPos c ((blk * c.FLASH_BLOCKSIZE + 8) / c.FLASH_BLOCKSIZE)
            (entryRemaining c (blk * c.FLASH_BLOCKSIZE + 8) 1) (blk * c.FLASH_BLOCKSIZE + 8) 1 :=
          WrPos_of_bounds c hc _ 1 (by omega) (by omega)
            (by rw [div_block blk c.FLASH_BLOCKSIZE 8 (by omega)]; omega)
        exact key _ _ _ _ hp e1 e3
  · rw [fwrite_entry_loop c fuel m fs a F hm hn] at e1
    rw [fwrite_entry_loop c fuel m fs (a ++ b) F hm hn] at e3
    rcases hpos with h0 | ⟨q1, q2, q3⟩
    · exact absurd h0 hn
    · exact key _ _ _ _ (WrPos_of_bounds c hc _ _ q1 q2 q3) e1 e3

/-- A write that fits into the first chunk of a fresh block: the handle stands at the
start of the payload of block `b`, and the data is short enough for one chunk and for
the block.  The call returns the length of the data and does not call the allocator. -/
theorem fwrite_fits (c : Cfg) (hc : c.ok) (fuel : Nat) (m : Mem) (fs : FFS_FS_t)
    (data : List Nat) (F : FFS_FILE_t) (b : Nat) (hm : F.filemode = FFS_WR_APPEND)
    (hhw : F.hw_addr = b * c.FLASH_BLOCKSIZE + sizeof_BHDR) (hnb : F.nBytes = sizeof_CHDR)
    (hfit : data.length + 9 ≤ c.FLASH_BLOCKSIZE) (hlen : data.length ≤ 252) (hfuel : 2 ≤ fuel) :
    ∃ m1 F1, ffs_fwrite c fuel m fs data F = some (data.length, m1, fs, F1) := by
  have hB := hc.2.1
  have hB2 := hc.2.2.1
  obtain ⟨f, rfl⟩ : ∃ f, fuel = f + 2 := ⟨fuel - 2, by omega⟩
  have hblock : (b * c.FLASH_BLOCKSIZE + 8) / c.FLASH_BLOCKSIZE = b := by
    rw [Nat.add_comm, Nat.add_mul_div_right _ _ (by omega), Nat.div_eq_of_lt (by omega), Nat.zero_add]
  have hrem : (c.FLASH_BLOCKSIZE + 4294967296 - (b * c.FLASH_BLOCKSIZE + 8 + 1 - b * c.FLASH_BLOCKSIZE))
      % 65536 = c.FLASH_BLOCKSIZE - 9 := by omega
  unfold ffs_fwrite
  rw [if_neg (by rw [hm]; simp)]
  simp only [hnb, hhw, sizeof_CHDR, sizeof_BHDR, hblock, hrem, if_neg (by decide : ¬ (1 = 0))]
  by_cases hd : data.length = 0
  · have : data = [] := List.length_eq_zero.mp hd
    subst this
    rw [fwrite_loop_nil]
    exact ⟨_, _, rfl⟩
  · by_cases hr : c.FLASH_BLOCKSIZE - 9 ≤ data.length + 1
    · rw [fwrite_loop_B c (f + 2) F (f + 1) m fs data 0 b (c.FLASH_BLOCKSIZE - 9)
        (b * c.FLASH_BLOCKSIZE + 8) 1 F.virt_addr data.length (by omega) (Nat.le_refl _)
        (by omega) (by omega) (Or.inl rfl) hr (by omega) hB2]
      rw [if_pos (by simp)]
      exact ⟨_, _, by rw [Nat.zero_add]⟩
    · rw [fwrite_loop_C c (f + 2) F (f + 1) m fs data 0 b (c.FLASH_BLOCKSIZE - 9)
        (b * c.FLASH_BLOCKSIZE + 8) 1 F.virt_addr (c.FLASH_BLOCKSIZE - 9 - data.length - 2)
        (by omega) (by omega) (by omega)]
      rw [List.drop_length, fwrite_loop_nil]
      exact ⟨_, _, by rw [Nat.zero_add]⟩

/-- Creating a file on a freshly initialised device, writing data that fits into its
first block and closing it: every call succeeds and the file holds the data. -/
theorem fresh_write_close_fits (c : Cfg) (hc : c.ok) (m0 : Mem) (fs0 : FFS_FS_t) (F : FFS_FILE_t)
    (filename d : List Nat) (mode fuel : Nat)
    (hblank : FFS_TST_FT c (m0 0) = false)
    (hmode : mode = FFS_WR_REPLACE ∨ mode = FFS_WR_APPEND)
    (hname : (cstr filename).length < FFS_FILENAME_LEN) (hchars : ∀ x ∈ filename, x < 256)
    (hd : ∀ x ∈ d, x < 256) (hfit : d.length + 9 ≤ c.FLASH_BLOCKSIZE) (hlen : d.length ≤ 252)
    (hN : 2 ≤ c.BlockCount)
    (hfuel1 : c.BlockCount ≤ fuel) (hfuel2 : d.length < fuel) (hfuel3 : 2 ≤ fuel) :
    ∃ m1 fs1 m2 fs2 F2 m3 fs3 F3 m4 F4 bs,
      ffs_init c fuel RES_OK m0 fs0 = some (RES_OK, m1, fs1) ∧
      ffs_fopen c fuel m1 fs1 (some F) filename mode = some (RES_OK, m2, fs2, some F2) ∧
      ffs_fwrite c fuel m2 fs2 d F2 = some (d.length, m3, fs3, F3) ∧
      ffs_fclose c m3 (some F3) = (RES_OK, m4, some F4) ∧
      FileOK c m4 [] filename bs ∧ fileBytes bs = d := by
  obtain ⟨m1, fs1, i1, i2, i3⟩ := init_fresh c hc m0 fs0 fuel hblank hN hfuel1
  obtain ⟨m2, fs2, F2, b, o1, hb1, hbN, o2, o3, o4, o5, o6, o7, o8⟩ :=
    create_fresh c hc m1 fs1 F filename mode fuel i2 i3.2 hN hfuel1 hmode hname hchars
  obtain ⟨k, m3, fs3, F3, new, w1, w2, w3, w4, w5, m4, F4, bs2, x1, x2, x3, x4, x5, x6, x7, x8⟩ :=
    write_close_spec c hc fuel hfuel1 m2 fs2 [] filename [{ idx := b, chunks := [] }] [] d F2
      o5 o6 (fun e he _ => by rw [o7 e he]; rfl) o2 o4 hd (by simp [fileBytes]; omega) hfuel2
  obtain ⟨g1, _, g3, g4, _⟩ := AppendOK_empty c hc m2 b F2 o2
  obtain ⟨m3', F3', hfit2⟩ := fwrite_fits c hc fuel m2 fs2 d F2 b g1 g3 g4 hfit hlen hfuel3
  have hk : k = d.length := by
    rw [w1] at hfit2
    simp only [Option.some.injEq, Prod.mk.injEq] at hfit2
    exact hfit2.1
  subst hk
  have hcontent : fileBytes bs2 = d := by
    rw [x4]; simp [fileBytes]
  exact ⟨m1, fs1, m2, fs2, F2, m3, fs3, F3, m4, F4, bs2, i1, o1, w1, x1, x3, hcontent⟩

/-- The scans of the allocator from block `k` on, once started with the cursor 0 and
once with the cursor 65535: both find the first unused block behind `k`, and when no
such block exists the scan with the cursor 0 returns 0. -/
theorem FUB_rel (c : Cfg) (m : Mem) (fs : FFS_FS_t) (hN : c.BlockCount ≤ 65535) :
    ∀ (d fuelA fuelB k : Nat), k + d = c.BlockCount → 1 ≤ d → d ≤ fuelA → d ≤ fuelB →
      (∃ b, k < b ∧ b < c.BlockCount ∧ m (b * c.FLASH_BLOCKSIZE) = FFS_B_UNUSED c ∧
        FindUnusedBlock_loop c m 65535 fuelA k { fs with BlockSearchStart := 65535 }
          = some (b, { fs with BlockSearchStart := b }) ∧
        FindUnusedBlock_loop c m 0 fuelB k { fs with BlockSearchStart := 0 }
          = some (b, { fs with BlockSearchStart := b })) ∨
      ((∀ j, k < j → j < c.BlockCount → m (j * c.FLASH_BLOCKSIZE) ≠ FFS_B_UNUSED c) ∧
        FindUnusedBlock_loop c m 0 fuelB k { fs with BlockSearchStart := 0 }
          = some (0, { fs with BlockSearchStart := 0 })) := by
  intro d
  induction d with
  | zero => intro _ _ _ _ h; omega
  | succ d ih =>
    intro fuelA fuelB k hk _ hA hB
    obtain ⟨fa, rfl⟩ : ∃ fa, fuelA = fa + 1 := ⟨fuelA - 1, by omega⟩
    obtain ⟨fb, rfl⟩ : ∃ fb, fuelB = fb + 1 := ⟨fuelB - 1, by omega⟩
    by_cases hd : d = 0
    · right
      subst hd
      refine ⟨fun j h1 h2 => by omega, ?_⟩
      rw [FUB_wrap c m 0 fb k _ (by omega) hN, if_pos rfl]
    · rw [FUB_step c m 0 fb k _ (by omega) hN, FUB_step c m 65535 fa k _ (by omega) hN,
        if_neg (show ¬ (k + 1 = 0) by omega), if_neg (show ¬ (k + 1 = 65535) by omega)]
      by_cases hu : m ((k + 1) * c.FLASH_BLOCKSIZE) = FFS_B_UNUSED c
      · left
        refine ⟨k + 1, by omega, by omega, hu, ?_, ?_⟩
        · rw [if_neg (not_not.mpr hu)]
        · rw [if_neg (not_not.mpr hu)]
      · rw [if_pos hu, if_pos hu]
        rcases ih fa fb (k + 1) (by omega) (by omega) (by omega) (by omega) with
          ⟨b, h1, h2, h3, h4, h5⟩ | ⟨h1, h2⟩
        · exact Or.inl ⟨b, by omega, h2, h3, h4, h5⟩
        · refine Or.inr ⟨?_, h2⟩
          intro j hj1 hj2
          by_cases hj : j = k + 1
          · rw [hj]; exact hu
          · exact h1 j (by omega) hj2

/-- The allocator with the cursor 65535 (the value `ffs_init` leaves on a device
without unused block) against the allocator with the cursor 0, on a device whose block
0 is in use: either no block is unused, and then the call with the cursor 65535 runs
out of every amount of fuel, or both calls return the same unused block and the same
filesystem object. -/
theorem FUB_tri (c : Cfg) (hc : c.ok) (m : Mem) (fs : FFS_FS_t) (af : Nat)
    (hN2 : 2 ≤ c.BlockCount) (haf : c.BlockCount < af) (h0 : m 0 ≠ FFS_B_UNUSED c) :
    ((∀ afA, FindUnusedBlock c afA m { fs with BlockSearchStart := 65535 } = none) ∧
      NoFree c m) ∨
    ∃ b f, b ≠ 0 ∧ FindUnusedBlock c af m { fs with BlockSearchStart := 65535 } = some (b, f) ∧
      FindUnusedBlock c af m { fs with BlockSearchStart := 0 } = some (b, f) := by
  have hN := hc.2.2.2.1
  obtain ⟨a, rfl⟩ : ∃ a, af = a + 1 := ⟨af - 1, by omega⟩
  have hstart : FindUnusedBlock c (a + 1) m { fs with BlockSearchStart := 65535 }
      = FindUnusedBlock_loop c m 65535 a 0 { fs with BlockSearchStart := 65535 } := by
    unfold FindUnusedBlock
    rw [FindUnusedBlock_loop]
    have e : (65535 + 1) % 65536 = 0 := by decide
    have e2 : ¬ (0 = c.BlockCount) := by omega
    have e3 : ¬ ((0 : Nat) = 65535) := by decide
    simp only [e, e2, false_and, if_false, e3]
    rw [Nat.zero_mul, if_pos h0]
  rcases FUB_rel c m fs hN c.BlockCount a (a + 1) 0 (by omega) (by omega) (by omega) (by omega) with
    ⟨b, h1, h2, h3, h4, h5⟩ | ⟨h1, h2⟩
  · right
    exact ⟨b, _, by omega, by rw [hstart]; exact h4, h5⟩
  · left
    refine ⟨?_, fun k hk1 hk2 => h1 k (by omega) hk2⟩
    intro afA
    apply FUB_spin c m hN2 hN _ afA 65535 _ (Or.inr rfl)
    intro k hk
    by_cases hk0 : k = 0
    · rw [hk0, Nat.zero_mul]; exact h0
    · exact h1 k (by omega) hk

/-- An address strictly inside block `block` is no block start. -/
theorem inside_not_start (k block B a l : Nat) (h1 : block * B < a) (h2 : a + l ≤ block * B + B) :
    k * B < a ∨ a + l ≤ k * B := by
  by_cases hk : k ≤ block
  · left
    have := Nat.mul_le_mul_right B hk
    omega
  · right
    have : (block + 1) * B ≤ k * B := Nat.mul_le_mul_right B (by omega)
    rw [Nat.add_mul, Nat.one_mul] at this
    omega
/-- The write loop started with the cursor 65535 against the write loop started with
the cursor 0, from a position inside block `block` on a device whose block 0 is in
use.  Either the loop with the cursor 65535 runs out of every amount of fuel, and then
no block of the device is unused; or both loops have the same result; or both write
all the data without calling the allocator and differ in the cursor only. -/
theorem fwrite_loop_cursor (c : Cfg) (hc : c.ok) (af : Nat) (hN2 : 2 ≤ c.BlockCount)
    (haf : c.BlockCount < af) (FILE : FFS_FILE_t) (fs : FFS_FS_t) :
    ∀ (fuel : Nat) (m : Mem) (data : List Nat) (done block rem hw nB virt : Nat),
      m 0 ≠ FFS_B_UNUSED c → block * c.FLASH_BLOCKSIZE < hw →
      hw + nB + rem ≤ block * c.FLASH_BLOCKSIZE + c.FLASH_BLOCKSIZE → 1 ≤ nB → nB ≤ 254 →
      ((∀ fuelA afA, ffs_fwrite_loop c afA FILE fuelA m { fs with BlockSearchStart := 65535 }
          data done block rem hw nB virt = none) ∧ NoFree c m) ∨
      ffs_fwrite_loop c af FILE fuel m { fs with BlockSearchStart := 65535 }
          data done block rem hw nB virt
        = ffs_fwrite_loop c af FILE fuel m { fs with BlockSearchStart := 0 }
            data done block rem hw nB virt ∨
      ∃ m1 F1,
        ffs_fwrite_loop c af FILE fuel m { fs with BlockSearchStart := 0 }
            data done block rem hw nB virt
          = some (done + data.length, m1, { fs with BlockSearchStart := 0 }, F1) ∧
        ffs_fwrite_loop c af FILE fuel m { fs with BlockSearchStart := 65535 }
            data done block rem hw nB virt
          = some (done + data.length, m1, { fs with BlockSearchStart := 65535 }, F1) := by
  have hB := hc.2.1
  have hB2 := hc.2.2.1
  intro fuel
  induction fuel with
  | zero =>
    intro m data done block rem hw nB virt _ _ _ _ _
    exact Or.inr (Or.inl rfl)
  | succ fuel ih =>
    intro m data done block rem hw nB virt h0 hlo hhi hnB1 hnB
    by_cases hdata : data.length = 0
    · have : data = [] := List.length_eq_zero.mp hdata
      subst this
      refine Or.inr (Or.inr ⟨m, { FILE with hw_addr := hw, nBytes := nB, virt_addr := virt },
        ?_, ?_⟩)
      · rw [fwrite_loop_nil]; rfl
      · rw [fwrite_loop_nil]; rfl
    · by_cases hA : 254 - nB ≤ data.length ∧ 254 - nB + 2 ≤ rem
      · -- the chunk is filled and the next one opened in the same block
        have stepA := fun (afX fuelX : Nat) (fsX : FFS_FS_t) =>
          fwrite_loop_A c afX FILE fuelX m fsX data done block rem hw nB virt (254 - nB)
            (rem - (254 - nB) - 2) (by omega) (by omega) (by omega) (by omega)
        have hlen : (data.take (254 - nB)).length = 254 - nB := by
          rw [List.length_take]; omega
        have hm0 : flashSPAN_Write c (flashSPAN_Write c m (hw + nB) (data.take (254 - nB))) hw [254] 0
            ≠ FFS_B_UNUSED c := by
          rw [Write_outside c _ hw [254] 0 (Or.inl (by omega)),
            Write_outside c m (hw + nB) _ 0 (Or.inl (by omega))]
          exact h0
        have hframe : NoFree c
            (flashSPAN_Write c (flashSPAN_Write c m (hw + nB) (data.take (254 - nB))) hw [254]) →
            NoFree c m := by
          intro hnf k hk1 hk2
          have := hnf k hk1 hk2
          rw [Write_outside c _ hw [254] _
              (inside_not_start k block c.FLASH_BLOCKSIZE hw 1 hlo (by omega)),
            Write_outside c m (hw + nB) _ _
              (inside_not_start k block c.FLASH_BLOCKSIZE (hw + nB) _ (by omega)
                (by rw [hlen]; omega))] at this
          exact this
        rcases ih (flashSPAN_Write c (flashSPAN_Write c m (hw + nB) (data.take (254 - nB))) hw [254])
          (data.drop (254 - nB)) (done + (254 - nB)) block (rem - (254 - nB) - 2 + 1) (hw + 254) 1
          (virt + (254 - nB)) hm0 (by omega) (by omega) (by omega) (by omega) with
          ⟨h1, h2⟩ | h1 | ⟨m1, F1, h1, h2⟩
        · refine Or.inl ⟨?_, hframe h2⟩
          intro fuelA afA
          cases fuelA with
          | zero => rfl
          | succ fA => rw [stepA]; exact h1 fA afA
        · exact Or.inr (Or.inl (by rw [stepA, stepA]; exact h1))
        · refine Or.inr (Or.inr ⟨m1, F1, ?_, ?_⟩)
          · rw [stepA, h1, List.length_drop]
            have : done + (254 - nB) + (data.length - (254 - nB)) = done + data.length := by omega
            rw [this]
          · rw [stepA, h2, List.length_drop]
            have : done + (254 - nB) + (data.length - (254 - nB)) = done + data.length := by omega
            rw [this]
      · by_cases hC : data.length + nB < 254 ∧ data.length + 2 ≤ rem
        · -- the rest of the data goes into the open chunk
          have stepC := fun (afX fuelX : Nat) (fsX : FFS_FS_t) =>
            fwrite_loop_C c afX FILE fuelX m fsX data done block rem hw nB virt
              (rem - data.length - 2) (by omega) (by omega) (by omega)
          have hlen : (data.take data.length).length = data.length := by
            rw [List.length_take]; omega
          have hm0 : flashSPAN_Write c m (hw + nB) (data.take data.length) 0 ≠ FFS_B_UNUSED c := by
            rw [Write_outside c m (hw + nB) _ 0 (Or.inl (by omega))]
            exact h0
          have hframe : NoFree c (flashSPAN_Write c m (hw + nB) (data.take data.length)) →
              NoFree c m := by
            intro hnf k hk1 hk2
            have := hnf k hk1 hk2
            rw [Write_outside c m (hw + nB) _ _
                (inside_not_start k block c.FLASH_BLOCKSIZE (hw + nB) _ (by omega)
                  (by rw [hlen]; omega))] at this
            exact this
          rcases ih (flashSPAN_Write c m (hw + nB) (data.take data.length))
            (data.drop data.length) (done + data.length) block (rem - data.length - 2 + 2) hw
            (nB + data.length) (virt + data.length) hm0 hlo (by omega) (by omega) (by omega) with
            ⟨h1, h2⟩ | h1 | ⟨m1, F1, h1, h2⟩
          · refine Or.inl ⟨?_, hframe h2⟩
            intro fuelA afA
            cases fuelA with
            | zero => rfl
            | succ fA => rw [stepC]; exact h1 fA afA
          · exact Or.inr (Or.inl (by rw [stepC, stepC]; exact h1))
          · refine Or.inr (Or.inr ⟨m1, F1, ?_, ?_⟩)
            · rw [stepC, h1, List.length_drop, Nat.sub_self, Nat.add_zero]
            · rw [stepC, h2, List.length_drop, Nat.sub_self, Nat.add_zero]
        · -- the block is filled
          have stepB := fun (afX fuelX : Nat) (fsX : FFS_FS_t) =>
            fwrite_loop_B c afX FILE fuelX m fsX data done block rem hw nB virt
              (min data.length (min (254 - nB) rem)) (by omega) (by omega) (by omega) (by omega)
              (by omega) (by omega) (by omega) hB2
          generalize hw0 : min data.length (min (254 - nB) rem) = w at stepB
          have hwle : w ≤ data.length := by omega
          have hwrem : w ≤ rem := by omega
          have hlen : (data.take w).length = w := by
            rw [List.length_take]; omega
          by_cases hdrop : (data.drop w).length = 0
          · have hwl : w = data.length := by
              rw [List.length_drop] at hdrop; omega
            refine Or.inr (Or.inr
              ⟨flashSPAN_Write c (flashSPAN_Write c m (hw + nB) (data.take w)) hw [nB + w],
                { FILE with virt_addr := virt + w, hw_addr := block * c.FLASH_BLOCKSIZE,
                            nBytes := 0 }, ?_, ?_⟩)
            · rw [stepB, if_pos hdrop, hwl]
            · rw [stepB, if_pos hdrop, hwl]
          · have hm0 : flashSPAN_Write c (flashSPAN_Write c m (hw + nB) (data.take w)) hw [nB + w] 0
                ≠ FFS_B_UNUSED c := by
              rw [Write_outside c _ hw [nB + w] 0 (Or.inl (by omega)),
                Write_outside c m (hw + nB) _ 0 (Or.inl (by omega))]
              exact h0
            have hframe : NoFree c
                (flashSPAN_Write c (flashSPAN_Write c m (hw + nB) (data.take w)) hw [nB + w]) →
                NoFree c m := by
              intro hnf k hk1 hk2
              have := hnf k hk1 hk2
              rw [Write_outside c _ hw [nB + w] _
                  (inside_not_start k block c.FLASH_BLOCKSIZE hw 1 hlo (by omega)),
                Write_outside c m (hw + nB) _ _
                  (inside_not_start k block c.FLASH_BLOCKSIZE (hw + nB) _ (by omega)
                    (by rw [hlen]; omega))] at this
              exact this
            rcases FUB_tri c hc
              (flashSPAN_Write c (flashSPAN_Write c m (hw + nB) (data.take w)) hw [nB + w]) fs af
              hN2 haf hm0 with ⟨h1, h2⟩ | ⟨b, f, hb, h1, h2⟩
            · refine Or.inl ⟨?_, hframe h2⟩
              intro fuelA afA
              cases fuelA with
              | zero => rfl
              | succ fA => rw [stepB, if_neg hdrop, h1 afA]
            · refine Or.inr (Or.inl ?_)
              rw [stepB, stepB, if_neg hdrop, if_neg hdrop, h1, h2]
/-- `ffs_fwrite` called with the cursor 65535 against `ffs_fwrite` called with the
cursor 0, on a device whose block 0 is in use, for a handle that is parked or stands
inside a block.  Either the call with the cursor 65535 runs out of every amount of
fuel, and then no block of the device is unused; or both calls have the same result; or
both write all the data without calling the allocator and differ in the cursor only. -/
theorem fwrite_cursor (c : Cfg) (hc : c.ok) (fuel : Nat) (hN2 : 2 ≤ c.BlockCount)
    (hfuel : c.BlockCount < fuel) (m : Mem) (fs : FFS_FS_t) (data : List Nat) (F : FFS_FILE_t)
    (hm : F.filemode = FFS_WR_APPEND) (h0 : m 0 ≠ FFS_B_UNUSED c)
    (hpos : F.nBytes = 0 ∨ (1 ≤ F.nBytes ∧ F.nBytes ≤ 254 ∧
      F.hw_addr / c.FLASH_BLOCKSIZE * c.FLASH_BLOCKSIZE < F.hw_addr ∧
      F.hw_addr + F.nBytes ≤ F.hw_addr / c.FLASH_BLOCKSIZE * c.FLASH_BLOCKSIZE
        + c.FLASH_BLOCKSIZE)) :
    ((∀ fuelA, ffs_fwrite c fuelA m { fs with BlockSearchStart := 65535 } data F = none) ∧
      NoFree c m) ∨
    ffs_fwrite c fuel m { fs with BlockSearchStart := 65535 } data F
      = ffs_fwrite c fuel m { fs with BlockSearchStart := 0 } data F ∨
    ∃ m1 F1,
      ffs_fwrite c fuel m { fs with BlockSearchStart := 0 } data F
        = some (data.length, m1, { fs with BlockSearchStart := 0 }, F1) ∧
      ffs_fwrite c fuel m { fs with BlockSearchStart := 65535 } data F
        = some (data.length, m1, { fs with BlockSearchStart := 65535 }, F1) := by
  have hB := hc.2.1
  have hB2 := hc.2.2.1
  have hmode : ¬ (F.filemode ≠ FFS_WR_APPEND) := by rw [hm]; simp
  rcases hpos with hn | ⟨hn1, hn2, hlo, hhi⟩
  · rcases FUB_tri c hc m fs fuel hN2 hfuel h0 with ⟨h1, h2⟩ | ⟨b, f, hb, h1, h2⟩
    · refine Or.inl ⟨?_, h2⟩
      intro fuelA
      unfold ffs_fwrite
      simp only [hmode, if_false, hn, if_true, h1 fuelA]
    · refine Or.inr (Or.inl ?_)
      unfold ffs_fwrite
      simp only [hmode, if_false, hn, if_true, h1, h2, hb]
  · have hne : ¬ (F.nBytes = 0) := by omega
    have hrem : F.hw_addr + F.nBytes
        + (c.FLASH_BLOCKSIZE + 4294967296
          - (F.hw_addr + F.nBytes - F.hw_addr / c.FLASH_BLOCKSIZE * c.FLASH_BLOCKSIZE)) % 65536
        ≤ F.hw_addr / c.FLASH_BLOCKSIZE * c.FLASH_BLOCKSIZE + c.FLASH_BLOCKSIZE := by
      omega
    have hunf : ∀ (fuelX : Nat) (fsX : FFS_FS_t), ffs_fwrite c fuelX m fsX data F
        = ffs_fwrite_loop c fuelX F fuelX m fsX data 0 (F.hw_addr / c.FLASH_BLOCKSIZE)
            ((c.FLASH_BLOCKSIZE + 4294967296
              - (F.hw_addr + F.nBytes - F.hw_addr / c.FLASH_BLOCKSIZE * c.FLASH_BLOCKSIZE)) % 65536)
            F.hw_addr F.nBytes F.virt_addr := by
      intro fuelX fsX
      unfold ffs_fwrite
      simp only [hmode, if_false, hne]
    rcases fwrite_loop_cursor c hc fuel hN2 hfuel F fs fuel m data 0
      (F.hw_addr / c.FLASH_BLOCKSIZE)
      ((c.FLASH_BLOCKSIZE + 4294967296
        - (F.hw_addr + F.nBytes - F.hw_addr / c.FLASH_BLOCKSIZE * c.FLASH_BLOCKSIZE)) % 65536)
      F.hw_addr F.nBytes F.virt_addr h0 hlo hrem hn1 hn2 with ⟨h1, h2⟩ | h1 | ⟨m1, F1, h1, h2⟩
    · refine Or.inl ⟨?_, h2⟩
      intro fuelA
      rw [hunf]
      exact h1 fuelA fuelA
    · exact Or.inr (Or.inl (by rw [hunf, hunf]; exact h1))
    · refine Or.inr (Or.inr ⟨m1, F1, ?_, ?_⟩)
      · rw [hunf, h1, Nat.zero_add]
      · rw [hunf, h2, Nat.zero_add]

/-- An append-mode handle in a writing position is parked or stands inside its block,
behind the block header. -/
theorem AppendPos_inside (c : Cfg) (hc : c.ok) (m : Mem) (bs : List Blk) (cur : List Nat)
    (F : FFS_FILE_t) (h : AppendPos c m bs cur F) :
    F.nBytes = 0 ∨ (1 ≤ F.nBytes ∧ F.nBytes ≤ 254 ∧
      F.hw_addr / c.FLASH_BLOCKSIZE * c.FLASH_BLOCKSIZE < F.hw_addr ∧
      F.hw_addr + F.nBytes ≤ F.hw_addr / c.FLASH_BLOCKSIZE * c.FLASH_BLOCKSIZE
        + c.FLASH_BLOCKSIZE) := by
  have hB := hc.2.1
  obtain ⟨pre, t, hbs, hpos⟩ := h
  rcases hpos with ⟨hn, _, hhw, _, _⟩ | ⟨rem, hrem, hnB, hinv⟩
  · exact Or.inl hn
  · right
    have hge := chunksEnd_ge (t.idx * c.FLASH_BLOCKSIZE + 8) t.chunks
    have hhw := hinv.2.2.1
    have hsum := hinv.2.2.2.2.1
    have hcur := hinv.2.2.2.1
    have e1 : F.hw_addr / c.FLASH_BLOCKSIZE = t.idx := by
      have := div_block t.idx c.FLASH_BLOCKSIZE (F.hw_addr - t.idx * c.FLASH_BLOCKSIZE) (by omega)
      rw [← this]; congr 1; omega
    rw [e1]
    exact ⟨by omega, by omega, by omega, by omega⟩

/-- The result of `ffs_fwrite` with the cursor 65535, from its result with the cursor
0: for an append-mode handle in a writing position, on a device with at least two
blocks whose block 0 is in use, the call with the cursor 65535 runs out of every
amount of fuel, and then no block is unused, or it returns the count, the device and
the handle of the call with the cursor 0. -/
theorem fwrite_cursor_cases (c : Cfg) (hc : c.ok) (fuel : Nat) (m : Mem) (fs : FFS_FS_t)
    (bs : List Blk) (cur data : List Nat) (F : FFS_FILE_t) (h : AppendOK c m bs cur F)
    (hcur : fs.BlockSearchStart = 65535) (hN2 : 2 ≤ c.BlockCount)
    (h0 : m 0 ≠ FFS_B_UNUSED c) (hfuel : c.BlockCount < fuel) :
    (NoFree c m ∧ ∀ fuel1, ffs_fwrite c fuel1 m fs data F = none) ∨
    ∀ k m1 fs0 F1,
      ffs_fwrite c fuel m { fs with BlockSearchStart := 0 } data F = some (k, m1, fs0, F1) →
      ∃ fs1, ffs_fwrite c fuel m fs data F = some (k, m1, fs1, F1) ∧
        (fs1 = fs0 ∨ k = data.length) := by
  have hfsA : fs = { fs with BlockSearchStart := 65535 } := by
    cases fs
    simp only [FFS_FS_t.mk.injEq, and_true]
    exact hcur
  rcases fwrite_cursor c hc fuel hN2 hfuel m fs data F h.1 h0
    (AppendPos_inside c hc m bs cur F h.2.2.2) with ⟨g1, g2⟩ | g | ⟨m1x, F1x, g1, g2⟩
  · left
    refine ⟨g2, ?_⟩
    intro fuel1
    rw [hfsA]
    exact g1 fuel1
  · right
    intro k m1 fs0 F1 e
    exact ⟨fs0, by rw [hfsA, g, e], Or.inl rfl⟩
  · right
    intro k m1 fs0 F1 e
    rw [e] at g1
    simp only [Option.some.injEq, Prod.mk.injEq] at g1
    obtain ⟨rfl, rfl, _, rfl⟩ := g1
    exact ⟨{ fs with BlockSearchStart := 65535 }, by rw [hfsA]; exact g2, Or.inr rfl⟩

/-- Round trip on a freshly initialised device for a name that leaves room for its
terminator in the name field.  For every byte sequence `d` and a device with enough
blocks (each block stores at least half of its `B - 9` usable bytes), `ffs_init` on a
blank device, opening a new name for writing, `ffs_fwrite` of `d` (which returns
`|d|`), `ffs_fclose`, `ffs_fopen` for reading and `ffs_fread` of `|d|` bytes return
`|d|` and exactly `d`; a further `ffs_fread` returns 0. -/
theorem roundtrip_fresh (c : Cfg) (hc : c.ok) (m0 : Mem) (fs0 : FFS_FS_t) (F : FFS_FILE_t)
    (filename d : List Nat) (mode n fuel : Nat)
    (hblank : FFS_TST_FT c (m0 0) = false)
    (hmode : mode = FFS_WR_REPLACE ∨ mode = FFS_WR_APPEND)
    (hname : (cstr filename).length < FFS_FILENAME_LEN) (hchars : ∀ x ∈ filename, x < 256)
    (hd : ∀ x ∈ d, x < 256) (hsize : d.length < 65536)
    (hroom : 2 * d.length < (c.BlockCount - 1) * (c.FLASH_BLOCKSIZE - 9))
    (hfuel1 : c.BlockCount ≤ fuel) (hfuel2 : d.length < fuel) (hfuel3 : n < fuel) :
    ∃ m1 fs1 m2 fs2 F2 m3 fs3 F3 m4 F4 F5 F6 F7,
      ffs_init c fuel RES_OK m0 fs0 = some (RES_OK, m1, fs1) ∧
      ffs_fopen c fuel m1 fs1 (some F) filename mode = some (RES_OK, m2, fs2, some F2) ∧
      ffs_fwrite c fuel m2 fs2 d F2 = some (d.length, m3, fs3, F3) ∧
      ffs_fclose c m3 (some F3) = (RES_OK, m4, some F4) ∧
      ffs_fopen c fuel m4 fs3 (some F4) filename FFS_RD = some (RES_OK, m4, fs3, some F5) ∧
      ffs_fread c fuel m4 d.length F5 = some (d.length, d, F6) ∧
      ffs_fread c fuel m4 n F6 = some (0, [], F7) := by
  obtain ⟨m1, fs1, m2, fs2, F2, m3, fs3, F3, m4, F4, bs, i1, o1, w1, x1, x3, hcontent⟩ :=
    fresh_write_close c hc m0 fs0 F filename d mode fuel hblank hmode hname hchars hd hsize
      hroom hfuel1 hfuel2
  obtain ⟨F5, F6, r1, r2, r3, r4, r5, r6, r7⟩ :=
    file_read c hc m4 fs3 F4 [] filename bs d.length fuel x3 (by simp; omega) hfuel2
  rw [hcontent] at r5 r6
  simp only [Nat.min_self, List.take_length] at r5 r6
  obtain ⟨_, F7, s1, _, _⟩ := fread_handle c hc m4 bs F6 n fuel r7 hfuel3
  rw [hcontent, r6] at s1
  simp only [Nat.sub_self, Nat.min_zero, List.drop_length, List.take_nil] at s1
  exact ⟨m1, fs1, m2, fs2, F2, m3, fs3, F3, m4, F4, F5, F6, F7, i1, o1, w1, x1, r1, r5, s1⟩

/-- The round trip of `"hello world"` through the file `a.txt` on the demo device. -/
theorem roundtrip_fresh_witness :
    ∃ m1 fs1 m2 fs2 F2 m3 fs3 F3 m4 F4 F5 F6 F7,
      ffs_init demoCfg 20 RES_OK blankDev fsInit = some (RES_OK, m1, fs1) ∧
      ffs_fopen demoCfg 20 m1 fs1 (some closedFile) nameATxt FFS_WR_REPLACE
        = some (RES_OK, m2, fs2, some F2) ∧
      ffs_fwrite demoCfg 20 m2 fs2 helloWorld F2 = some (helloWorld.length, m3, fs3, F3) ∧
      ffs_fclose demoCfg m3 (some F3) = (RES_OK, m4, some F4) ∧
      ffs_fopen demoCfg 20 m4 fs3 (some F4) nameATxt FFS_RD = some (RES_OK, m4, fs3, some F5) ∧
      ffs_fread demoCfg 20 m4 helloWorld.length F5 = some (helloWorld.length, helloWorld, F6) ∧
      ffs_fread demoCfg 20 m4 7 F6 = some (0, [], F7) :=
  roundtrip_fresh demoCfg demoCfg_ok blankDev fsInit closedFile nameATxt helloWorld
    FFS_WR_REPLACE 7 20 (by decide) (Or.inl rfl) (by decide) (by decide) (by decide) (by decide)
    (by decide) (by decide) (by decide) (by decide)

set_option maxRecDepth 100000 in
/-- C1: the code at the failing input.  On a blank device of four blocks of 32 bytes,
`ffs_init`, then `ffs_fopen` of the new name `abcdefghijklmn` (14 characters, the
documented maximum `FFS_FILENAME_LEN`) for appending, `ffs_fwrite` of `"hello world"`
and `ffs_fclose` all succeed, but `ffs_fopen` of the same name for reading returns
`RES_NOTFOUND`.  `strcpy` has written the terminator of the name behind the 14-byte
name field, into the low byte of the entry address `FTEI.fteAddr`; the file table
entry has been programmed at address 0 instead of address 4, over the header of block
0, and the table slot at address 4 holds a start block and a name made of the
characters of the name. -/
theorem roundtrip_long_name :
    (cstr name14).length = FFS_FILENAME_LEN ∧
    (do
      let (r0, m1, fs1) ← ffs_init demoCfg 8 RES_OK blankDev fsInit
      let (r1, m2, fs2, F2) ← ffs_fopen demoCfg 8 m1 fs1 (some closedFile) name14 FFS_WR_APPEND
      let (k, m3, fs3, F3) ← ffs_fwrite demoCfg 20 m2 fs2 helloWorld (← F2)
      let (r2, m4, F4) := ffs_fclose demoCfg m3 (some F3)
      let (r3, _, _, _) ← ffs_fopen demoCfg 8 m4 fs3 F4 name14 FFS_RD
      pure (r0, r1, k, r2, r3, flashSPAN_Read m1 0 20, flashSPAN_Read m4 0 20))
    = some (RES_OK, RES_OK, 11, RES_OK, RES_NOTFOUND,
        [0xEE, 0xFF, 0xFF, 0xFF, 0xFF, 0xFF, 0xFF, 0xFF, 0xFF, 0xFF, 0xFF, 0xFF, 0xFF, 0xFF,
          0xFF, 0xFF, 0xFF, 0xFF, 0xFF, 0xFF],
        [0, 0, 97, 98, 99, 100, 101, 102, 103, 104, 105, 106, 107, 108, 109, 110,
          0xFF, 0xFF, 0xFF, 0xFF]) := by
  refine ⟨by decide, ?_⟩
  rfl

/-- C2: for a read-mode handle at virtual offset `p = ffs_ftell F` in a well-formed file
of length `L` and every size `n`, `ffs_fread` returns `min n (L - p)`, stores exactly the
file bytes `p .. p + min n (L - p) - 1` in order, leaves a well-formed handle whose
`ffs_ftell` is `p + min n (L - p)`, and returns 0 exactly when `n = 0` or `p = L`. -/
theorem fread_returns_min (c : Cfg) (hc : c.ok) (m : Mem) (bs : List Blk) (F : FFS_FILE_t)
    (n fuel : Nat) (h : RdHandleOK c m bs F) (hfuel : n < fuel) :
    ffs_ftell F ≤ (fileBytes bs).length ∧
    ∃ F1, ffs_fread c fuel m n F
        = some (min n ((fileBytes bs).length - ffs_ftell F),
            ((fileBytes bs).drop (ffs_ftell F)).take n, F1) ∧
      (((fileBytes bs).drop (ffs_ftell F)).take n).length
        = min n ((fileBytes bs).length - ffs_ftell F) ∧
      ffs_ftell F1 = ffs_ftell F + min n ((fileBytes bs).length - ffs_ftell F) ∧
      RdHandleOK c m bs F1 ∧
      (min n ((fileBytes bs).length - ffs_ftell F) = 0 ↔
        n = 0 ∨ ffs_ftell F = (fileBytes bs).length) := by
  obtain ⟨h1, F1, h2, h3, h4⟩ := fread_handle c hc m bs F n fuel h hfuel
  refine ⟨h1, F1, h2, by simp, h3, h4, ?_⟩
  unfold ffs_ftell
  omega

theorem fread_returns_min_witness :
    ffs_ftell demoRd ≤ (fileBytes demoChain).length ∧
    ∃ F1, ffs_fread demoCfg 10 demoDev 5 demoRd
        = some (min 5 ((fileBytes demoChain).length - ffs_ftell demoRd),
            ((fileBytes demoChain).drop (ffs_ftell demoRd)).take 5, F1) ∧
      (((fileBytes demoChain).drop (ffs_ftell demoRd)).take 5).length
        = min 5 ((fileBytes demoChain).length - ffs_ftell demoRd) ∧
      ffs_ftell F1 = ffs_ftell demoRd + min 5 ((fileBytes demoChain).length - ffs_ftell demoRd) ∧
      RdHandleOK demoCfg demoDev demoChain F1 ∧
      (min 5 ((fileBytes demoChain).length - ffs_ftell demoRd) = 0 ↔
        5 = 0 ∨ ffs_ftell demoRd = (fileBytes demoChain).length) :=
  fread_returns_min demoCfg demoCfg_ok demoDev demoChain demoRd 5 10 demo_rd (by decide)

/-- C5: for a read-mode handle on a well-formed file of length `L`, wherever the handle
stands, and every offset below `L`, `ffs_fseek` returns `RES_OK`, `ffs_ftell` then equals
the offset, and a following `ffs_fread` of `n` bytes returns the file bytes
`offset .. min (offset + n) L - 1`. -/
theorem fseek_then_fread (c : Cfg) (hc : c.ok) (m : Mem) (bs : List Blk) (F : FFS_FILE_t)
    (offset n fuel : Nat) (h : RdHandleOK c m bs F) (hoff : offset < (fileBytes bs).length)
    (h32 : offset < 4294967296) (hfuel1 : bs.length + c.FLASH_BLOCKSIZE ≤ fuel)
    (hfuel2 : n < fuel) :
    ∃ F1 F2, ffs_fseek c fuel m F offset = some (RES_OK, F1) ∧ ffs_ftell F1 = offset ∧
      RdHandleOK c m bs F1 ∧
      ffs_fread c fuel m n F1
        = some (min n ((fileBytes bs).length - offset), ((fileBytes bs).drop offset).take n, F2) ∧
      ffs_ftell F2 = min (offset + n) (fileBytes bs).length := by
  obtain ⟨F1, s1, s2, s3⟩ := (fseek_spec c hc m bs F offset fuel h h32 hfuel1).1 hoff
  obtain ⟨_, F2, r1, r2, _⟩ := fread_handle c hc m bs F1 n fuel s3 hfuel2
  rw [s2] at r1 r2
  refine ⟨F1, F2, s1, s2, s3, r1, ?_⟩
  unfold ffs_ftell
  omega

theorem fseek_then_fread_witness :
    ∃ F1 F2, ffs_fseek demoCfg 40 demoDev demoRd 0 = some (RES_OK, F1) ∧ ffs_ftell F1 = 0 ∧
      RdHandleOK demoCfg demoDev demoChain F1 ∧
      ffs_fread demoCfg 40 demoDev 2 F1
        = some (min 2 ((fileBytes demoChain).length - 0), ((fileBytes demoChain).drop 0).take 2, F2) ∧
      ffs_ftell F2 = min (0 + 2) (fileBytes demoChain).length :=
  fseek_then_fread demoCfg demoCfg_ok demoDev demoChain demoRd 0 2 40 demo_rd (by decide)
    (by decide) (by decide) (by decide)

/-- C6: the code at the failing inputs.  On the file `a` holding `"hello world"`
(length 11), `ffs_fseek` to offset 11 returns `RES_END` although the offset is not
greater than the length; and on an empty file `b` (length 0), `ffs_fseek` to offset 1
returns `RES_OK`, with 253 bytes announced as readable, although the offset is greater
than the length. -/
theorem fseek_result_at_end :
    (do
      let (_, m1, fs1) ← ffs_init demoCfg 8 RES_OK blankDev fsInit
      let (_, m2, fs2, F2) ← ffs_fopen demoCfg 8 m1 fs1 (some closedFile) [97, 0] FFS_WR_REPLACE
      let (_, m3, fs3, F3) ← ffs_fwrite demoCfg 20 m2 fs2 helloWorld (← F2)
      let (_, m4, F4) := ffs_fclose demoCfg m3 (some F3)
      let (_, m5, fs5, F5) ← ffs_fopen demoCfg 8 m4 fs3 F4 [98, 0] FFS_WR_REPLACE
      let (_, m6, F6) := ffs_fclose demoCfg m5 F5
      let (ra, _, _, Fa) ← ffs_fopen demoCfg 8 m6 fs5 F6 [97, 0] FFS_RD
      let (r1, _) ← ffs_fseek demoCfg 40 m6 (← Fa) 11
      let (rb, _, _, Fb) ← ffs_fopen demoCfg 8 m6 fs5 F6 [98, 0] FFS_RD
      let (r2, G) ← ffs_fseek demoCfg 40 m6 (← Fb) 1
      pure (ra, r1, rb, r2, G.nBytes))
    = some (RES_OK, RES_END, RES_OK, RES_OK, 253) := by
  rfl

/-- C7: the code at the failing input.  On an empty file (length 0), after
`ffs_fseek` to offset 0, which returns `RES_OK`, the handle is not at the end of the
file: `ffs_feof` returns 0 and the next `ffs_fread` of 5 bytes returns 5 bytes (erased
bytes of the device) instead of 0. -/
theorem fseek_empty_file_not_eof :
    (do
      let (_, m1, fs1) ← ffs_init demoCfg 8 RES_OK blankDev fsInit
      let (_, m2, fs2, F2) ← ffs_fopen demoCfg 8 m1 fs1 (some closedFile) [97, 0] FFS_WR_REPLACE
      let (_, m3, F3) := ffs_fclose demoCfg m2 F2
      let (r1, _, _, F4) ← ffs_fopen demoCfg 8 m3 fs2 F3 [97, 0] FFS_RD
      let (r2, F5) ← ffs_fseek demoCfg 40 m3 (← F4) 0
      let (n, buf, _) ← ffs_fread demoCfg 20 m3 5 F5
      pure (r1, r2, ffs_feof F5, ffs_ftell F5, n, buf))
    = some (RES_OK, RES_OK, 0, 0, 5, [255, 255, 255, 255, 255]) := by
  rfl

/-- C8: the concrete scenario, on every freshly initialised device with at least two
blocks (block 0 holds the file table): creating `a.txt`, writing `"hello world"` and
closing, then reopening for reading: `ffs_fread` of 5 bytes yields `"hello"`,
`ffs_fseek(6)` returns `RES_OK`,
`ffs_fread` of 5 bytes yields `"world"`, a further `ffs_fread` returns 0 bytes and
`ffs_feof` is nonzero. -/
theorem hello_world_scenario (c : Cfg) (hc : c.ok) (m0 : Mem) (fs0 : FFS_FS_t) (F : FFS_FILE_t)
    (mode n fuel : Nat) (hblank : FFS_TST_FT c (m0 0) = false)
    (hmode : mode = FFS_WR_REPLACE ∨ mode = FFS_WR_APPEND)
    (hN : 2 ≤ c.BlockCount)
    (hfuel1 : c.BlockCount ≤ fuel) (hfuel2 : 12 + c.FLASH_BLOCKSIZE ≤ fuel) (hfuel3 : n < fuel) :
    ∃ m1 fs1 m2 fs2 F2 m3 fs3 F3 m4 F4 F5 F6 F7 F8 F9,
      ffs_init c fuel RES_OK m0 fs0 = some (RES_OK, m1, fs1) ∧
      ffs_fopen c fuel m1 fs1 (some F) nameATxt mode = some (RES_OK, m2, fs2, some F2) ∧
      ffs_fwrite c fuel m2 fs2 helloWorld F2 = some (11, m3, fs3, F3) ∧
      ffs_fclose c m3 (some F3) = (RES_OK, m4, some F4) ∧
      ffs_fopen c fuel m4 fs3 (some F4) nameATxt FFS_RD = some (RES_OK, m4, fs3, some F5) ∧
      ffs_fread c fuel m4 5 F5 = some (5, [104, 101, 108, 108, 111], F6) ∧
      ffs_fseek c fuel m4 F6 6 = some (RES_OK, F7) ∧
      ffs_fread c fuel m4 5 F7 = some (5, [119, 111, 114, 108, 100], F8) ∧
      ffs_fread c fuel m4 n F8 = some (0, [], F9) ∧ ffs_feof F9 ≠ 0 := by
  have hB := hc.2.1
  obtain ⟨m1, fs1, m2, fs2, F2, m3, fs3, F3, m4, F4, bs, i1, o1, w1, x1, x3, hcontent⟩ :=
    fresh_write_close_fits c hc m0 fs0 F nameATxt helloWorld mode fuel hblank hmode (by decide)
      (by decide) (by decide) (by simp [helloWorld]; omega) (by decide) hN hfuel1
      (by simp [helloWorld]; omega) (by omega)
  have hlen : (fileBytes bs).length = 11 := by rw [hcontent]; rfl
  have hbl := chain_length_le c hc m4 bs 0 x3.2.2.2.1
  obtain ⟨F5, F6, r1, r2, r3, r4, r5, r6, r7⟩ :=
    file_read c hc m4 fs3 F4 [] nameATxt bs 5 fuel x3 (by simp; omega) (by omega)
  rw [hcontent] at r5
  obtain ⟨F7, s1, s2, s3⟩ := (fseek_spec c hc m4 bs F6 6 fuel r7 (by omega) (by omega)).1
    (by omega)
  obtain ⟨_, F8, t1, t2, t3⟩ := fread_handle c hc m4 bs F7 5 fuel s3 (by omega)
  rw [s2, hcontent] at t1
  rw [s2, hlen] at t2
  obtain ⟨_, F9, u1, u2, u3⟩ := fread_handle c hc m4 bs F8 n fuel t3 hfuel3
  have t2' : F8.virt_addr = 11 := by rw [t2]; rfl
  rw [t2', hlen] at u1 u2
  simp only [Nat.sub_self, Nat.min_zero, Nat.add_zero] at u1 u2
  rw [hcontent] at u1
  have hdrop : List.take n (List.drop 11 helloWorld) = [] := by
    rw [show List.drop 11 helloWorld = [] from rfl, List.take_nil]
  rw [hdrop] at u1
  have hfe := feof_at_end c m4 bs F9 u3 (by rw [u2, hlen])
  exact ⟨m1, fs1, m2, fs2, F2, m3, fs3, F3, m4, F4, F5, F6, F7, F8, F9, i1, o1, w1, x1, r1, r5,
    s1, t1, u1, by rw [hfe]; decide⟩

/-- C8 on the smallest admissible device: two blocks of 20 bytes, of which block 1
holds exactly the 11 bytes. -/
theorem hello_world_scenario_witness :
    ∃ m1 fs1 m2 fs2 F2 m3 fs3 F3 m4 F4 F5 F6 F7 F8 F9,
      ffs_init tinyCfg 50 RES_OK blankDev fsInit = some (RES_OK, m1, fs1) ∧
      ffs_fopen tinyCfg 50 m1 fs1 (some closedFile) nameATxt FFS_WR_REPLACE
        = some (RES_OK, m2, fs2, some F2) ∧
      ffs_fwrite tinyCfg 50 m2 fs2 helloWorld F2 = some (11, m3, fs3, F3) ∧
      ffs_fclose tinyCfg m3 (some F3) = (RES_OK, m4, some F4) ∧
      ffs_fopen tinyCfg 50 m4 fs3 (some F4) nameATxt FFS_RD = some (RES_OK, m4, fs3, some F5) ∧
      ffs_fread tinyCfg 50 m4 5 F5 = some (5, [104, 101, 108, 108, 111], F6) ∧
      ffs_fseek tinyCfg 50 m4 F6 6 = some (RES_OK, F7) ∧
      ffs_fread tinyCfg 50 m4 5 F7 = some (5, [119, 111, 114, 108, 100], F8) ∧
      ffs_fread tinyCfg 50 m4 5 F8 = some (0, [], F9) ∧ ffs_feof F9 ≠ 0 :=
  hello_world_scenario tinyCfg tinyCfg_ok blankDev fsInit closedFile FFS_WR_REPLACE 5 50
    (by decide) (Or.inl rfl) (by decide) (by decide) (by decide) (by decide)

/-- Creation of a file whose name leaves room for its terminator in the name field:
for every such name without live table entry and mode `FFS_WR_APPEND` or
`FFS_WR_REPLACE`, on a well-formed table and allocator state, `ffs_fopen` returns
`RES_OK` unless an allocation fails (then it returns `RES_FULL` and no unused block is
left).  After `RES_OK` the table has the live entry `e1` (start block `b`, the name)
in the position of the first never-used slot of the old table, or in slot 0 of a newly
chained table block when the old table had no never-used slot; block `b` was unused
before and now has the status end-of-file with virtual address 0; the live entries of
before are all there, unchanged and in order, in front of `e1`; and the handle is in
append mode at virtual offset 0, with an empty open chunk at the start of the payload
of `b`. -/
theorem fopen_creates_file (c : Cfg) (hc : c.ok) (m : Mem) (fs : FFS_FS_t) (F : FFS_FILE_t)
    (ft : List Nat) (filename : List Nat) (mode fuel : Nat)
    (hb : Bytes m) (ht : TableWF c m ft) (hfs : FsOK c m fs)
    (hno : ¬ HasFile c m (0 :: ft) filename)
    (hmode : mode = FFS_WR_APPEND ∨ mode = FFS_WR_REPLACE)
    (hname : (cstr filename).length < FFS_FILENAME_LEN) (hchars : ∀ x ∈ filename, x < 256)
    (hfuel1 : ft.length < fuel) (hfuel2 : c.BlockCount ≤ fuel) :
    ∃ r m1 fs1 F1 ft1, ffs_fopen c fuel m fs (some F) filename mode = some (r, m1, fs1, some F1) ∧
      TableWF c m1 ft1 ∧
      ((r = RES_FULL ∧ NoFree c m1) ∨
       (r = RES_OK ∧ ∃ b e1, 1 ≤ b ∧ b < c.BlockCount ∧
          m (b * c.FLASH_BLOCKSIZE) = FFS_B_UNUSED c ∧
          m1 (b * c.FLASH_BLOCKSIZE) = FFS_B_EOF c ∧
          rd32 m1 (b * c.FLASH_BLOCKSIZE + offsetof_virt_addr) = 0 ∧
          e1.FTE.startblock = b ∧ cstr e1.FTE.filename = cstr filename ∧
          CreatedAt c m m1 ft ft1 e1 ∧
          liveEntries c m1 (0 :: ft1) = liveEntries c m (0 :: ft) ++ [e1] ∧
          F1.filemode = FFS_WR_APPEND ∧ F1.virt_addr = 0 ∧ F1.startblock = b ∧
          F1.hw_addr = b * c.FLASH_BLOCKSIZE + sizeof_BHDR ∧ F1.nBytes = sizeof_CHDR ∧
          m1 (b * c.FLASH_BLOCKSIZE + sizeof_BHDR) = FFS_UNINIT8 c ∧
          AppendOK c m1 [{ idx := b, chunks := [] }] [] F1)) := by
  obtain ⟨r, m1, fs1, F1, ft1, h1, _, h3, _, _, _, h7⟩ :=
    create_spec c hc m fs F ft filename mode fuel hb ht hfs hno hmode.symm hname hchars
      hfuel1 hfuel2
  refine ⟨r, m1, fs1, F1, ft1, h1, h3, ?_⟩
  rcases h7 with ⟨a1, a2, _, _⟩ | ⟨a1, b, e1, b1, b2, b3, b4, b5, b6, b7, b8, b9⟩
  · exact Or.inl ⟨a1, a2⟩
  · obtain ⟨g1, g2, g3, g4, g5, g6, g7⟩ := AppendOK_empty c hc m1 b F1 b7
    exact Or.inr ⟨a1, b, e1, b1, b2, b3, g5, g6, b4, b5, b9, b6, g1, b8, g2, g3, g4, g7, b7⟩

/-- The creation of the file `b` on the demo device. -/
theorem fopen_creates_file_witness :
    ∃ r m1 fs1 F1 ft1, ffs_fopen demoCfg 4 demoDev { BlockSearchStart := 1, GetFileCounter := 0 }
        (some closedFile) [98, 0] FFS_WR_APPEND = some (r, m1, fs1, some F1) ∧
      TableWF demoCfg m1 ft1 ∧
      ((r = RES_FULL ∧ NoFree demoCfg m1) ∨
       (r = RES_OK ∧ ∃ b e1, 1 ≤ b ∧ b < demoCfg.BlockCount ∧
          demoDev (b * demoCfg.FLASH_BLOCKSIZE) = FFS_B_UNUSED demoCfg ∧
          m1 (b * demoCfg.FLASH_BLOCKSIZE) = FFS_B_EOF demoCfg ∧
          rd32 m1 (b * demoCfg.FLASH_BLOCKSIZE + offsetof_virt_addr) = 0 ∧
          e1.FTE.startblock = b ∧ cstr e1.FTE.filename = cstr [98, 0] ∧
          CreatedAt demoCfg demoDev m1 [] ft1 e1 ∧
          liveEntries demoCfg m1 (0 :: ft1) = liveEntries demoCfg demoDev [0] ++ [e1] ∧
          F1.filemode = FFS_WR_APPEND ∧ F1.virt_addr = 0 ∧ F1.startblock = b ∧
          F1.hw_addr = b * demoCfg.FLASH_BLOCKSIZE + sizeof_BHDR ∧ F1.nBytes = sizeof_CHDR ∧
          m1 (b * demoCfg.FLASH_BLOCKSIZE + sizeof_BHDR) = FFS_UNINIT8 demoCfg ∧
          AppendOK demoCfg m1 [{ idx := b, chunks := [] }] [] F1)) :=
  fopen_creates_file demoCfg demoCfg_ok demoDev { BlockSearchStart := 1, GetFileCounter := 0 }
    closedFile [] [98, 0] FFS_WR_APPEND 4 demo_bytes demo_tablewf ⟨demo_free, by decide⟩
    (by unfold HasFile; decide) (Or.inl rfl) (by decide) (by decide) (by decide) (by decide)

set_option maxRecDepth 100000 in
/-- C11: the code at the failing input.  On the freshly initialised device of four
blocks of 32 bytes the table has no live entry and its first never-used slot is the
slot at address 4.  `ffs_fopen` of the name `abcdefghijklmn` (14 characters, the
documented maximum) for appending allocates block 1 and returns `RES_OK` with the
handle at the start of the payload of block 1, but the table has no live entry with
start block 1 and that name: `strcpy` has written the terminator of the name into the
low byte of the entry address, and the 16 bytes of the entry have been programmed at
address 0, over the header of block 0.  The slot at address 4 now reads as a live entry
with the start block 25699 and the name `efghijklmn` followed by erased bytes. -/
theorem fopen_long_name_entry :
    (cstr name14).length = FFS_FILENAME_LEN ∧
    (ffs_init demoCfg 8 RES_OK blankDev fsInit).map
      (fun r => (r.1, flashSPAN_Read r.2.1 0 20, (liveEntries demoCfg r.2.1 [0]).length))
      = some (RES_OK,
          [0xEE, 0xFF, 0xFF, 0xFF, 0xFF, 0xFF, 0xFF, 0xFF, 0xFF, 0xFF, 0xFF, 0xFF, 0xFF, 0xFF,
            0xFF, 0xFF, 0xFF, 0xFF, 0xFF, 0xFF], 0) ∧
    (do
      let (_, m1, fs1) ← ffs_init demoCfg 8 RES_OK blankDev fsInit
      let (r, m2, _, F2) ← ffs_fopen demoCfg 8 m1 fs1 (some closedFile) name14 FFS_WR_APPEND
      pure (r, F2, m1 32, flashSPAN_Read m2 32 9, flashSPAN_Read m2 0 20,
        (liveEntries demoCfg m2 [0]).map (fun e => (e.FTE.startblock, e.FTE.filename))))
    = some (RES_OK,
        some { virt_addr := 0, hw_addr := 40, nBytes := 1, filemode := FFS_WR_APPEND,
               startblock := 1 },
        0xFF, [0xFE, 0xFF, 0xFF, 0xFF, 0, 0, 0, 0, 0xFF],
        [0, 0, 97, 98, 99, 100, 101, 102, 103, 104, 105, 106, 107, 108, 109, 110,
          0xFF, 0xFF, 0xFF, 0xFF],
        [(25699, [101, 102, 103, 104, 105, 106, 107, 108, 109, 110, 0xFF, 0xFF, 0xFF, 0xFF])])
      := by
  refine ⟨by decide, ?_, ?_⟩
  · rfl
  · rfl

/-- Creation on a full device with the search cursor on a block of the device: when no
block that the allocator may hand out has the status unused, `ffs_fopen` in mode
`FFS_WR_APPEND` or `FFS_WR_REPLACE` on a name without live table entry returns
`RES_FULL`; the device and the filesystem object are left as they were, so the table
has no entry for that name afterwards either. -/
theorem fopen_full_device (c : Cfg) (hc : c.ok) (m : Mem) (fs : FFS_FS_t) (F : FFS_FILE_t)
    (ft : List Nat) (filename : List Nat) (mode fuel : Nat) (ht : TableOK c m ft)
    (hfs : fs.BlockSearchStart < c.BlockCount) (hfull : NoFree c m)
    (hno : ¬ HasFile c m (0 :: ft) filename)
    (hmode : mode = FFS_WR_APPEND ∨ mode = FFS_WR_REPLACE)
    (hfuel1 : ft.length < fuel) (hfuel2 : c.BlockCount ≤ fuel) :
    ∃ m1 fs1, ffs_fopen c fuel m fs (some F) filename mode = some (RES_FULL, m1, fs1, some F) ∧
      m1 = m ∧ fs1 = fs ∧ TableOK c m1 ft ∧ ¬ HasFile c m1 (0 :: ft) filename :=
  ⟨m, fs, fopen_full_spec c hc m fs F ft filename mode fuel ht hfs hfull hno hmode.symm
    hfuel1 hfuel2, rfl, rfl, ht, hno⟩

/-- The failed creation of the file `b` on the full device `fullDev`, cursor on block 1. -/
theorem fopen_full_device_witness :
    ∃ m1 fs1, ffs_fopen tinyCfg 4 fullDev { BlockSearchStart := 1, GetFileCounter := 0 }
        (some closedFile) [98, 0] FFS_WR_APPEND = some (RES_FULL, m1, fs1, some closedFile) ∧
      m1 = fullDev ∧ fs1 = { BlockSearchStart := 1, GetFileCounter := 0 } ∧
      TableOK tinyCfg m1 [] ∧ ¬ HasFile tinyCfg m1 [0] [98, 0] :=
  fopen_full_device tinyCfg tinyCfg_ok fullDev { BlockSearchStart := 1, GetFileCounter := 0 }
    closedFile [] [98, 0] FFS_WR_APPEND 4 full_table (by decide) full_nofree full_nofile
    (Or.inl rfl) (by decide) (by decide)

/-- C12: the code at the failing input.  On the device `fullDev` (two blocks of 20
bytes: the file table with the entry of the file `a`, and the data block of `a`) no
block is unused and the name `b` has no table entry.  `ffs_init` returns `RES_OK`,
leaves the device as it is and sets the search cursor to `FindUnusedBlock() - 1`,
which is 65535 since the allocator returned 0.  In this state `ffs_fopen` of `b` for
appending does not return `RES_FULL`: the table has no never-used slot, so the call
asks the allocator for a new table block, and with the cursor 65535 the scan of the
allocator never comes back to its starting block; the embedding runs out of every
amount of fuel.  With the cursor on block 1 the same call returns `RES_FULL`. -/
theorem fopen_full_device_hangs :
    NoFree tinyCfg fullDev ∧ ¬ HasFile tinyCfg fullDev [0] [98, 0] ∧
    ffs_init tinyCfg 2 RES_OK fullDev fsInit
      = some (RES_OK, fullDev, { BlockSearchStart := 65535, GetFileCounter := 0 }) ∧
    (∀ fuel, ffs_fopen tinyCfg fuel fullDev { BlockSearchStart := 65535, GetFileCounter := 0 }
      (some closedFile) [98, 0] FFS_WR_APPEND = none) ∧
    ffs_fopen tinyCfg 4 fullDev { BlockSearchStart := 1, GetFileCounter := 0 }
      (some closedFile) [98, 0] FFS_WR_APPEND
      = some (RES_FULL, fullDev, { BlockSearchStart := 1, GetFileCounter := 0 },
          some closedFile) := by
  refine ⟨full_nofree, full_nofile, rfl, ?_, rfl⟩
  intro fuel
  have hspin : FindUnusedBlock tinyCfg fuel fullDev
      { BlockSearchStart := 65535, GetFileCounter := 0 } = none := by
    apply FUB_spin tinyCfg fullDev (by decide) (by decide) _ fuel 65535 _ (Or.inr rfl)
    intro k hk
    have hk2 : k < 2 := hk
    have : k = 0 ∨ k = 1 := by omega
    rcases this with rfl | rfl <;> decide
  cases fuel with
  | zero => rfl
  | succ n =>
    obtain ⟨e, he⟩ := (LookupFile_spec tinyCfg tinyCfg_ok fullDev [] [98, 0] (n + 1)
      full_table.1 (by simp)).2 full_nofile
    rw [fopen_create_unfold tinyCfg (n + 1) fullDev _ closedFile [98, 0] FFS_WR_APPEND e
      (Or.inr rfl) he]
    unfold ffs_fopen_create
    by_cases hu : e.FTE.startblock = FFS_UNINIT16 tinyCfg
    · simp only [hu, ne_eq, not_true_eq_false, if_false, hspin]
      rfl
    · simp only [hu, ne_eq, not_false_eq_true, if_true, hspin]
      rfl

/-- Removal of a file, followed by creations of files whose names leave room for their
terminator in the name field: for every existing file of a well-formed filesystem,
`ffs_remove` returns `RES_OK`, and afterwards: the table entry `e` of the file is
tombstoned; every block of its former chain is unused and entirely erased; `ffs_fopen`
of the name for reading returns `RES_NOTFOUND`, also after any number of files with
other names (of at most 13 characters) have been created; and the other live entries are the same as before, in the same order, every
other file (with blocks of its own) being unchanged and reading back with its
content. -/
theorem remove_file (c : Cfg) (hc : c.ok) (m : Mem) (fs : FFS_FS_t) (ft : List Nat)
    (filename : List Nat) (bs : List Blk) (fuel : Nat) (hb : Bytes m) (ht : TableWF c m ft)
    (hfs : FsOK c m fs) (h : FileOK c m ft filename bs) (hnames : NamesNodup c m ft)
    (hfuel1 : c.BlockCount ≤ fuel) (hfuel2 : bs.length ≤ fuel) :
    ∃ m1 lp e lq, ffs_remove c fuel m filename = some (RES_OK, m1) ∧
      liveEntries c m (0 :: ft) = lp ++ e :: lq ∧ cstr filename = cstr e.FTE.filename ∧
      nextIdx bs = some e.FTE.startblock ∧
      (slotAt m1 e.fteAddr).FTE.startblock = FFS_NULL16 c ∧
      (∀ b ∈ bs, m1 (b.idx * c.FLASH_BLOCKSIZE) = FFS_B_UNUSED c ∧
        ∀ o, o < c.FLASH_BLOCKSIZE → m1 (b.idx * c.FLASH_BLOCKSIZE + o) = FFS_UNINIT8 c) ∧
      (∀ s1, Relation.ReflTransGen (CreatesOther c fuel filename) (m1, fs) s1 →
        ∀ F, ffs_fopen c fuel s1.1 s1.2 (some F) filename FFS_RD
          = some (RES_NOTFOUND, s1.1, s1.2, some F)) ∧
      liveEntries c m1 (0 :: ft) = lp ++ lq ∧
      (∀ name2 bs2, FileOK c m ft name2 bs2 → cstr name2 ≠ cstr filename →
        (∀ b ∈ bs2, b.idx ∉ bs.map Blk.idx) →
        FileOK c m1 ft name2 bs2 ∧
        ∀ F n, n < fuel → ∃ F1 F2,
          ffs_fopen c fuel m1 fs (some F) name2 FFS_RD = some (RES_OK, m1, fs, some F1) ∧
          ffs_fread c fuel m1 n F1
            = some (min n (fileBytes bs2).length, (fileBytes bs2).take n, F2)) := by
  have hB := hc.2.1
  have hlen := TableWF_length c hc m ft ht (by have := hfs.2; omega)
  obtain ⟨m1, lp, e, lq, r1, r2, r3, r4, r5, r6, r7, r8, r9, r10, r11, _, r13⟩ :=
    remove_effect c hc m ft filename bs fuel hb ht hfs.1 h hnames (by omega) hfuel2
  refine ⟨m1, lp, e, lq, r1, r5, r6, r7, r9, ?_, ?_, r8, ?_⟩
  · intro b hb2
    refine ⟨?_, r10 b hb2⟩
    have := r10 b hb2 0 (by omega)
    rw [Nat.add_zero] at this
    exact this
  · intro s1 hs F
    exact removed_notfound c hc fuel filename hfuel1 (m1, fs) s1 hs
      ⟨ft, r2, r3, ⟨r4, hfs.2⟩, r11⟩ F
  · intro name2 bs2 hf2 hne hdis
    have hf1 := r13 name2 bs2 hf2 hne hdis
    refine ⟨hf1, ?_⟩
    intro F n hn
    obtain ⟨F1, F2, a1, _, _, _, a5, _⟩ :=
      file_read c hc m1 fs F ft name2 bs2 n fuel hf1 (by omega) hn
    exact ⟨F1, F2, a1, a5⟩

/-- The removal of the file `a` from the demo device. -/
theorem remove_file_witness :
    ∃ m1 lp e lq, ffs_remove demoCfg 4 demoDev [97, 0] = some (RES_OK, m1) ∧
      liveEntries demoCfg demoDev [0] = lp ++ e :: lq ∧ cstr [97, 0] = cstr e.FTE.filename ∧
      nextIdx demoChain = some e.FTE.startblock ∧
      (slotAt m1 e.fteAddr).FTE.startblock = FFS_NULL16 demoCfg ∧
      (∀ b ∈ demoChain, m1 (b.idx * demoCfg.FLASH_BLOCKSIZE) = FFS_B_UNUSED demoCfg ∧
        ∀ o, o < demoCfg.FLASH_BLOCKSIZE →
          m1 (b.idx * demoCfg.FLASH_BLOCKSIZE + o) = FFS_UNINIT8 demoCfg) ∧
      (∀ s1, Relation.ReflTransGen (CreatesOther demoCfg 4 [97, 0])
          (m1, { BlockSearchStart := 1, GetFileCounter := 0 }) s1 →
        ∀ F, ffs_fopen demoCfg 4 s1.1 s1.2 (some F) [97, 0] FFS_RD
          = some (RES_NOTFOUND, s1.1, s1.2, some F)) ∧
      liveEntries demoCfg m1 [0] = lp ++ lq ∧
      (∀ name2 bs2, FileOK demoCfg demoDev [] name2 bs2 → cstr name2 ≠ cstr [97, 0] →
        (∀ b ∈ bs2, b.idx ∉ demoChain.map Blk.idx) →
        FileOK demoCfg m1 [] name2 bs2 ∧
        ∀ F n, n < 4 → ∃ F1 F2,
          ffs_fopen demoCfg 4 m1 { BlockSearchStart := 1, GetFileCounter := 0 } (some F) name2 FFS_RD
            = some (RES_OK, m1, { BlockSearchStart := 1, GetFileCounter := 0 }, some F1) ∧
          ffs_fread demoCfg 4 m1 n F1
            = some (min n (fileBytes bs2).length, (fileBytes bs2).take n, F2)) :=
  remove_file demoCfg demoCfg_ok demoDev { BlockSearchStart := 1, GetFileCounter := 0 } []
    [97, 0] demoChain 4 demo_bytes demo_tablewf ⟨demo_free, by decide⟩ demo_file demo_names
    (by decide) (by decide)

set_option maxRecDepth 100000 in
/-- C13: the code at the failing input.  On a device of twelve blocks of 36 bytes the
files `x`, `b` and `y` exist; the entry of `y` is the first entry of the table block 7,
at address 256.  `ffs_remove` of `x` returns `RES_OK` and `ffs_fopen` of `x` for reading
returns `RES_NOTFOUND`.  Then the file `xbcdefghijklmn` is created - another name, of
14 characters, the documented maximum - and closed; `ffs_fopen` returns `RES_OK`.
Afterwards `ffs_fopen` of `x` for reading returns `RES_OK`, and `ffs_fread` returns the
content of `y`.  `strcpy` has written the terminator of the new name into the low byte
of the entry address, 272, so the new entry has been programmed at address 256, over
the entry of `y`: the stored name reads `y` AND `x` = `x`, followed by the terminator
of `y`, and the start block reads 8 AND 9 = 8. -/
theorem removed_file_reappears :
    (cstr nameX14).length = FFS_FILENAME_LEN ∧ cstr nameX14 ≠ cstr [120, 0] ∧
    threeFilesRun.map (fun s =>
        (liveEntries dozenCfg s.m [0, 7]).map (fun e => (e.fteAddr, e.FTE.startblock,
          cstr e.FTE.filename)))
      = some [(4, 1, [120]), (20, 2, [98]), (256, 8, [121])] ∧
    (do
      let (r, s) ← removedRun
      let (r1, _, _, _) ← ffs_fopen dozenCfg 40 s.m s.fs (some s.F) [120, 0] FFS_RD
      pure (r, r1, (liveEntries dozenCfg s.m [0, 7]).map (fun e => (e.fteAddr,
        e.FTE.startblock, cstr e.FTE.filename))))
      = some (RES_OK, RES_NOTFOUND, [(20, 2, [98]), (256, 8, [121])]) ∧
    (do
      let (r, s) ← recreatedRun
      let (r1, _, _, F1) ← ffs_fopen dozenCfg 40 s.m s.fs (some s.F) [120, 0] FFS_RD
      let (n, buf, _) ← ffs_fread dozenCfg 40 s.m 10 (← F1)
      pure (r, r1, n, buf, (liveEntries dozenCfg s.m [0, 7]).map (fun e => (e.fteAddr,
        e.FTE.startblock, cstr e.FTE.filename)), flashSPAN_Read s.m 272 16))
      = some (RES_OK, RES_OK, 3, [7, 8, 9], [(20, 2, [98]), (256, 8, [120])],
          [0xFF, 0xFF, 0xFF, 0xFF, 0xFF, 0xFF, 0xFF, 0xFF, 0xFF, 0xFF, 0xFF, 0xFF, 0xFF, 0xFF,
            0xFF, 0xFF]) := by
  refine ⟨by decide, by decide, ?_, ?_, ?_⟩
  · rfl
  · rfl
  · rfl

/-- C14: `ffs_remove` returns `RES_OK` for every file name, on a well-formed table
whose files of that name (if any) have a well-formed block chain; when the name has
no live entry in the file table, the device is left unchanged.  The function has no
access to the filesystem object. -/
theorem remove_returns_ok (c : Cfg) (hc : c.ok) (m : Mem) (ft : List Nat) (filename : List Nat)
    (fuel : Nat) (hb : Bytes m) (ht : TableOK c m ft) (hfuel : ft.length < fuel)
    (hfile : HasFile c m (0 :: ft) filename →
      ∃ bs, FileOK c m ft filename bs ∧ bs.length ≤ fuel) :
    ∃ m1, ffs_remove c fuel m filename = some (RES_OK, m1) ∧
      (¬ HasFile c m (0 :: ft) filename → m1 = m) := by
  by_cases hh : HasFile c m (0 :: ft) filename
  · obtain ⟨bs, hf, hl⟩ := hfile hh
    obtain ⟨m1, _, _, _, h1, _⟩ := remove_spec c hc m ft filename bs fuel hb hf hfuel hl
    exact ⟨m1, h1, fun hn => absurd hh hn⟩
  · obtain ⟨e, he⟩ := (LookupFile_spec c hc m ft filename fuel ht.1 hfuel).2 hh
    exact ⟨m, remove_notfound c fuel m filename e he, fun _ => rfl⟩

theorem remove_returns_ok_witness :
    ∃ m1, ffs_remove demoCfg 4 demoDev [98, 0] = some (RES_OK, m1) ∧
      (¬ HasFile demoCfg demoDev [0] [98, 0] → m1 = demoDev) :=
  remove_returns_ok demoCfg demoCfg_ok demoDev [] [98, 0] 4 demo_bytes demo_table (by decide)
    (fun h => absurd h (by unfold HasFile; decide))

/-- C17: for every well-formed file table, whatever the number of its chained blocks and
whatever its live and tombstoned entries (a table of tombstones only included),
`ffs_cleanupFT` returns `RES_OK`, and on the device that it leaves
`ffs_countGarbageFTE` returns 0. -/
theorem cleanup_no_garbage (c : Cfg) (hc : c.ok) (m : Mem) (fs : FFS_FS_t) (ft : List Nat)
    (fuel : Nat) (hb : Bytes m) (ht : TableOK c m ft) (hlt : ∀ b ∈ ft, b < c.BlockCount)
    (hfs : FsOK c m fs) (hfuel1 : c.BlockCount ≤ fuel)
    (hfuel2 : FFS_FTENTRIESPERBLOCK c * (ft.length + 2) ≤ fuel) :
    ∃ m1 fs1, ffs_cleanupFT c fuel m fs = some (RES_OK, m1, fs1) ∧
      ffs_countGarbageFTE c fuel m1 = some 0 := by
  obtain ⟨m1, fs1, NT, hres, ht1, hlen, hg, _⟩ :=
    cleanup_effect c hc m fs ft fuel hb ht hlt hfs hfuel1 hfuel2
  refine ⟨m1, fs1, hres, ?_⟩
  rw [countGarbage_spec c hc m1 NT fuel ht1.1 (by omega), hg]

theorem cleanup_no_garbage_witness :
    ∃ m1 fs1, ffs_cleanupFT enumCfg 8 enumDev fsInit = some (RES_OK, m1, fs1) ∧
      ffs_countGarbageFTE enumCfg 8 m1 = some 0 :=
  cleanup_no_garbage enumCfg enumCfg_ok enumDev fsInit [] 8 enum_bytes enum_table
    (fun _ h => absurd h (List.not_mem_nil _)) ⟨enum_free, by decide⟩ (by decide) (by decide)

/-- C20: for every device state and every search cursor smaller than the block count,
`ffs_blocksFree` returns exactly the number of blocks with index `1 .. BlockCount-1`
whose status is unused.  It only reads the device (its result carries no device), it
leaves the enumeration counter alone, and with the cursor it leaves the next
allocation returns the same block as an allocation without the call. -/
theorem blocksFree_counts (c : Cfg) (hc : c.ok) (m : Mem) (fs : FFS_FS_t) (fuel : Nat)
    (hs : fs.BlockSearchStart < c.BlockCount) (hfuel : c.BlockCount ≤ fuel) :
    ∃ fs1 b, ffs_blocksFree c fuel m fs = some ((freeBlocks c m).length, fs1) ∧
      fs1.GetFileCounter = fs.GetFileCounter ∧ fs1.BlockSearchStart < c.BlockCount ∧
      (FindUnusedBlock c fuel m fs).map Prod.fst = some b ∧
      (FindUnusedBlock c fuel m fs1).map Prod.fst = some b := by
  obtain ⟨b, fs0, hr, h⟩ := blocksFree_spec c hc m fs fuel hs hfuel
  rcases h with ⟨rfl, hno, hbf⟩ | ⟨hff, hbf⟩
  · have hlen : (freeBlocks c m).length = 0 := by
      rw [List.length_eq_zero, freeBlocks, List.filter_eq_nil_iff]
      intro k hk
      rw [List.mem_range'_1] at hk
      simpa using hno k hk.1 (by omega)
    rw [hlen]
    exact ⟨fs, 0, hbf, rfl, hs, by rw [hr]; rfl, by rw [hr]; rfl⟩
  · obtain ⟨hbu, hb1, hbN, _⟩ := hff
    refine ⟨_, b, hbf, rfl, by show b - 1 < _; omega, by rw [hr]; rfl, ?_⟩
    obtain ⟨b2, fs2, hr2, h2⟩ := FindUnusedBlock_exact c hc m
      { fs with BlockSearchStart := b - 1 } fuel (by show b - 1 < _; omega) hfuel
    rw [hr2]
    rcases h2 with ⟨_, _, hno⟩ | ⟨⟨_, _, _, hnext⟩, _⟩
    · exact absurd hbu (hno b hb1 hbN)
    · rcases hnext with ⟨h3, hnone⟩ | ⟨h3, hhi, _⟩
      · have h4 : b - 1 < b2 := h3
        have : b2 = b := by
          by_contra hne
          exact hnone b (by show b - 1 < b; omega) (by omega) hbu
        rw [this]; rfl
      · exact absurd hbu (hhi b (by show b - 1 < b; omega) hbN)

theorem blocksFree_counts_witness :
    ∃ fs1 b, ffs_blocksFree demoCfg 4 demoDev { BlockSearchStart := 1, GetFileCounter := 0 }
        = some ((freeBlocks demoCfg demoDev).length, fs1) ∧
      fs1.GetFileCounter = 0 ∧ fs1.BlockSearchStart < 4 ∧
      (FindUnusedBlock demoCfg 4 demoDev { BlockSearchStart := 1, GetFileCounter := 0 }).map Prod.fst
        = some b ∧
      (FindUnusedBlock demoCfg 4 demoDev fs1).map Prod.fst = some b :=
  blocksFree_counts demoCfg demoCfg_ok demoDev { BlockSearchStart := 1, GetFileCounter := 0 } 4
    (by decide) (by decide)

/-- C15: the code at the failing input.  On a blank device with two table entries per
block, the files `a` and `b` are created and `b` is removed, which leaves the table
block 0 full (the live entry of `a`, then the tombstone of `b`).  After the reset call
the first `ffs_getFile` returns `RES_OK` with the name `a`; the second returns `RES_OK`
again, with the buffer left as it was and the counter back at 0, instead of `RES_END`;
the third returns `a` a second time.  The enumeration never reaches `RES_END` and
yields `a` more than once. -/
theorem getFile_enumeration_repeats :
    (do
      let (_, m1, fs1) ← ffs_init enumCfg 10 RES_OK blankDev fsInit
      let (_, m2, fs2, F2) ← ffs_fopen enumCfg 10 m1 fs1 (some closedFile) [97, 0] FFS_WR_REPLACE
      let (_, m3, F3) := ffs_fclose enumCfg m2 F2
      let (_, m4, fs4, F4) ← ffs_fopen enumCfg 10 m3 fs2 F3 [98, 0] FFS_WR_REPLACE
      let (_, m5, _) := ffs_fclose enumCfg m4 F4
      let (_, m6) ← ffs_remove enumCfg 10 m5 [98, 0]
      let (r0, fs7, _) ← ffs_getFile enumCfg 10 m6 fs4 none
      let (r1, fs8, b1) ← ffs_getFile enumCfg 10 m6 fs7 (some [120, 0])
      let (r2, fs9, b2) ← ffs_getFile enumCfg 10 m6 fs8 (some [120, 0])
      let (r3, fs10, b3) ← ffs_getFile enumCfg 10 m6 fs9 (some [120, 0])
      pure (decide (flashSPAN_Read m6 0 42 = flashSPAN_Read enumDev 0 42),
        (liveEntries enumCfg m6 [0]).map (fun e => cstr e.FTE.filename),
        r0, r1, b1.map cstr, fs8.GetFileCounter, r2, b2, fs9.GetFileCounter,
        r3, b3.map cstr, fs10.GetFileCounter))
    = some (true, [[97]], RES_OK, RES_OK, some [97], 1, RES_OK, some [120, 0], 0,
        RES_OK, some [97], 1) := by
  rfl

/-- C16: the code at the failing input.  The table block 0 of `enumDev` is full and is
the last one; its entries are the live entry of `a` and a tombstone.  With the
enumeration counter at 1 no live entry remains, yet `ffs_getFile` returns `RES_OK`
without writing the buffer (it resets the counter to 0) instead of `RES_END`. -/
theorem getFile_ok_without_name :
    TableOK enumCfg enumDev [] ∧
    (tableEntries enumCfg enumDev [0]).map (fun e => e.FTE.startblock) = [1, FFS_NULL16 enumCfg] ∧
    ffs_getFile enumCfg 10 enumDev { BlockSearchStart := 1, GetFileCounter := 1 } (some [120, 0])
      = some (RES_OK, { BlockSearchStart := 1, GetFileCounter := 0 }, some [120, 0]) := by
  refine ⟨?_, ?_, ?_⟩
  · simp only [TableOK, FTChainOK]
    decide
  · decide
  · rfl

/-- C22: when the device initialises successfully (`flashSPAN_Init` returns `RES_OK`),
`ffs_init` returns `RES_OK` with the enumeration counter at 0.  If the status byte of
block 0 does not carry the file table marker, then afterwards the status byte of
block 0 is `FT_EOF` and every other byte of the device is erased, so that the table
is empty: every lookup and every `ffs_fopen` for reading give `RES_NOTFOUND`,
`ffs_countGarbageFTE` is 0 and `ffs_blocksFree` is `BlockCount - 1`.  If the status
byte of block 0 carries the marker, the device is left as it is.  The device has at
least two blocks. -/
theorem init_self_heal (c : Cfg) (hc : c.ok) (m0 : Mem) (fs0 : FFS_FS_t) (fuel : Nat)
    (hN : 2 ≤ c.BlockCount) (hfuel : c.BlockCount ≤ fuel) :
    (FFS_TST_FT c (m0 0) = false →
      ∃ m1 fs1, ffs_init c fuel RES_OK m0 fs0 = some (RES_OK, m1, fs1) ∧
        fs1.GetFileCounter = 0 ∧ m1 0 = FFS_B_FT_EOF c ∧
        (∀ a, 1 ≤ a → a < c.BlockCount * c.FLASH_BLOCKSIZE → m1 a = FFS_UNINIT8 c) ∧
        (∀ filename, ∃ e, LookupFile c fuel m1 filename = some (RES_NOTFOUND, e)) ∧
        (∀ fs F filename, ffs_fopen c fuel m1 fs (some F) filename FFS_RD
          = some (RES_NOTFOUND, m1, fs, some F)) ∧
        ffs_countGarbageFTE c fuel m1 = some 0 ∧
        ∃ fs2, ffs_blocksFree c fuel m1 fs1 = some (c.BlockCount - 1, fs2)) ∧
    (FFS_TST_FT c (m0 0) = true →
      ∃ fs1, ffs_init c fuel RES_OK m0 fs0 = some (RES_OK, m0, fs1) ∧
        fs1.GetFileCounter = 0) := by
  have hB := hc.2.1
  constructor
  · intro hblank
    obtain ⟨m1, fs1, hres, hfresh, hfs⟩ := init_fresh c hc m0 fs0 fuel hblank hN hfuel
    have hcnt : fs1.GetFileCounter = 0 := by
      unfold ffs_init at hres
      rw [if_neg (by simp)] at hres
      simp only [hblank, Bool.false_eq_true, if_false] at hres
      obtain ⟨b, fs2, e, _⟩ := FindUnusedBlock_spec c hc
        (flashSPAN_Write c (flashSPAN_EraseAll c m0) 0 [FFS_B_FT_EOF c])
        { fs0 with BlockSearchStart := 0 } fuel (by simp only []; omega) hfuel
      rw [e] at hres
      simp only [Option.some.injEq, Prod.mk.injEq, true_and] at hres
      rw [← hres.2]
    have hch := fresh_chain c hc m1 hfresh
    have hent := fresh_entries c hc m1 hfresh (by omega)
    have hlive : liveEntries c m1 [0] = [] := liveOf_erased c hc _ hent
    have hno : ∀ filename, ¬ HasFile c m1 [0] filename := by
      intro filename ⟨e, he, _⟩
      rw [hlive] at he
      exact absurd he (List.not_mem_nil _)
    refine ⟨m1, fs1, hres, hcnt, hfresh.1, hfresh.2, ?_, ?_, ?_, ?_⟩
    · intro filename
      exact ⟨_, (lookup_fresh c hc m1 filename fuel hfresh (by omega) (by omega)).1⟩
    · intro fs F filename
      exact (fopen_read_spec c hc m1 fs F [] filename fuel hch (by simp; omega)).1 (hno filename)
    · rw [countGarbage_spec c hc m1 [] fuel hch (by simp; omega), garbageOf_erased c hc _ hent]
    · obtain ⟨b, fsx, _, hcase⟩ := blocksFree_spec c hc m1 fs1 fuel hfs.2 hfuel
      rcases hcase with ⟨_, hnf, _⟩ | ⟨_, hbf⟩
      · exfalso
        apply hnf 1 (Nat.le_refl _) (by omega)
        have := FreshOK_block c hc m1 hfresh 1 (Nat.le_refl _) (by omega) 0 (by omega)
        rw [Nat.add_zero] at this
        exact this
      · rw [fresh_free_count c hc m1 hfresh] at hbf
        exact ⟨_, hbf⟩
  · intro hft
    obtain ⟨b, fs2, e, _⟩ := FindUnusedBlock_spec c hc m0
      { fs0 with BlockSearchStart := 0 } fuel (by simp only []; omega) hfuel
    unfold ffs_init
    rw [if_neg (by simp)]
    simp only [hft, if_true, e]
    exact ⟨_, rfl, rfl⟩

theorem init_self_heal_witness :
    (FFS_TST_FT demoCfg (blankDev 0) = false →
      ∃ m1 fs1, ffs_init demoCfg 4 RES_OK blankDev fsInit = some (RES_OK, m1, fs1) ∧
        fs1.GetFileCounter = 0 ∧ m1 0 = FFS_B_FT_EOF demoCfg ∧
        (∀ a, 1 ≤ a → a < demoCfg.BlockCount * demoCfg.FLASH_BLOCKSIZE →
          m1 a = FFS_UNINIT8 demoCfg) ∧
        (∀ filename, ∃ e, LookupFile demoCfg 4 m1 filename = some (RES_NOTFOUND, e)) ∧
        (∀ fs F filename, ffs_fopen demoCfg 4 m1 fs (some F) filename FFS_RD
          = some (RES_NOTFOUND, m1, fs, some F)) ∧
        ffs_countGarbageFTE demoCfg 4 m1 = some 0 ∧
        ∃ fs2, ffs_blocksFree demoCfg 4 m1 fs1 = some (demoCfg.BlockCount - 1, fs2)) ∧
    (FFS_TST_FT demoCfg (blankDev 0) = true →
      ∃ fs1, ffs_init demoCfg 4 RES_OK blankDev fsInit = some (RES_OK, blankDev, fs1) ∧
        fs1.GetFileCounter = 0) :=
  init_self_heal demoCfg demoCfg_ok blankDev fsInit 4 (by decide) (by decide)

/-- C24: `ffs_fclose` on a read-mode handle returns `RES_OK`, marks the handle closed
and leaves the device as it is.  On an append-mode handle it returns `RES_OK` and
marks the handle closed; the device changes exactly when the open chunk holds more
than its bare header, by the write of the chunk header that finalizes the chunk, and
for a handle in a writing position on a file with chain `bs` and unflushed bytes
`cur` the closed file holds the bytes of `bs` followed by `cur`.  On a closed handle
(so when closing twice) and on a `NULL` handle it returns `RES_PARAMERR` and changes
nothing. -/
theorem fclose_modes (c : Cfg) (m : Mem) (F : FFS_FILE_t) :
    (F.filemode = FFS_RD →
      ffs_fclose c m (some F) = (RES_OK, m, some { F with filemode := FFS_CLOSED })) ∧
    (F.filemode = FFS_WR_APPEND → F.nBytes > sizeof_CHDR →
      ∃ F1, ffs_fclose c m (some F)
          = (RES_OK, flashSPAN_Write c m F.hw_addr [F.nBytes], some F1) ∧
        F1.filemode = FFS_CLOSED) ∧
    (F.filemode = FFS_WR_APPEND → F.nBytes ≤ sizeof_CHDR →
      ffs_fclose c m (some F) = (RES_OK, m, some { F with filemode := FFS_CLOSED })) ∧
    (c.ok → ∀ bs cur, AppendOK c m bs cur F →
      ∃ m1 F1 bs1, ffs_fclose c m (some F) = (RES_OK, m1, some F1) ∧
        F1.filemode = FFS_CLOSED ∧ ClosedOK c m1 bs1 ∧ fileBytes bs1 = fileBytes bs ++ cur) ∧
    (F.filemode = FFS_CLOSED → ffs_fclose c m (some F) = (RES_PARAMERR, m, some F)) ∧
    ffs_fclose c m none = (RES_PARAMERR, m, none) ∧
    (F.filemode = FFS_RD ∨ F.filemode = FFS_WR_APPEND →
      (ffs_fclose c m (some F)).1 = RES_OK ∧
      ffs_fclose c (ffs_fclose c m (some F)).2.1 (ffs_fclose c m (some F)).2.2
        = (RES_PARAMERR, (ffs_fclose c m (some F)).2.1, (ffs_fclose c m (some F)).2.2)) := by
  have hne : FFS_WR_APPEND ≠ FFS_RD := by decide
  have hc0 : FFS_CLOSED ≠ FFS_RD := by decide
  have hc1 : FFS_CLOSED ≠ FFS_WR_APPEND := by decide
  refine ⟨?_, ?_, ?_, ?_, ?_, rfl, ?_⟩
  · intro h
    simp only [ffs_fclose, h, if_true]
  · intro h hn
    simp only [ffs_fclose, h, hne, if_false, if_true, if_pos hn, ffs_fflush, ne_eq,
      not_true_eq_false]
    split <;> exact ⟨_, rfl, rfl⟩
  · intro h hn
    simp only [ffs_fclose, h, hne, if_false, if_true, if_neg (Nat.not_lt.mpr hn)]
  · intro hc bs cur ha
    obtain ⟨m1, F1, bs1, r1, r2, r3, r4, _⟩ := fclose_spec c hc m bs cur F ha
    exact ⟨m1, F1, bs1, r1, r2, r3, r4⟩
  · intro h
    simp only [ffs_fclose, h, hc0, hc1, if_false]
  · intro h
    rcases h with h | h
    · simp only [ffs_fclose, h, if_true, hc0, hc1, if_false, and_self]
    · by_cases hn : F.nBytes > sizeof_CHDR
      · simp only [ffs_fclose, h, hne, if_false, if_true, if_pos hn, hc0, hc1, and_self]
      · simp only [ffs_fclose, h, hne, if_false, if_true, if_neg hn, hc0, hc1, and_self]

theorem fclose_modes_witness :
    ffs_fclose demoCfg demoDev (some demoRd)
      = (RES_OK, demoDev, some { demoRd with filemode := FFS_CLOSED }) ∧
    ffs_fclose demoCfg demoDev (some demoWr)
      = (RES_OK, demoDev, some { demoWr with filemode := FFS_CLOSED }) ∧
    (∃ m1 F1 bs1, ffs_fclose demoCfg demoDev (some demoWr) = (RES_OK, m1, some F1) ∧
      F1.filemode = FFS_CLOSED ∧ ClosedOK demoCfg m1 bs1 ∧
      fileBytes bs1 = fileBytes demoChain ++ []) ∧
    ffs_fclose demoCfg demoDev (some closedFile) = (RES_PARAMERR, demoDev, some closedFile) :=
  ⟨(fclose_modes demoCfg demoDev demoRd).1 rfl,
   (fclose_modes demoCfg demoDev demoWr).2.2.1 rfl (by decide),
   (fclose_modes demoCfg demoDev demoWr).2.2.2.1 demoCfg_ok demoChain [] demo_wr,
   (fclose_modes demoCfg demoDev closedFile).2.2.2.2.1 rfl⟩

/-- C25: operations used with the wrong mode are rejected without side effects.  On a
handle not in append mode `ffs_fwrite` returns 0 and `ffs_fflush` returns
`RES_PARAMERR`; on a handle not in read mode `ffs_fread` returns 0 (and stores
nothing), `ffs_fseek` returns `RES_PARAMERR` and `ffs_feof` returns 0; `ffs_fopen`
with a `NULL` handle returns `RES_PARAMERR`, and so it does, on a well-formed chain of
table blocks, with a mode other than `FFS_RD`, `FFS_WR_APPEND`, `FFS_WR_REPLACE`.  In
each case the device, the filesystem object and the handle are returned unchanged. -/
theorem wrong_mode_rejected (c : Cfg) (m : Mem) (fs : FFS_FS_t) (F : FFS_FILE_t)
    (ft : List Nat) (fuel : Nat) (ht : FTChainOK c m (0 :: ft)) (hfuel : ft.length < fuel) :
    (F.filemode ≠ FFS_WR_APPEND →
      (∀ data, ffs_fwrite c fuel m fs data F = some (0, m, fs, F)) ∧
      ffs_fflush c m F = (RES_PARAMERR, m, F)) ∧
    (F.filemode ≠ FFS_RD →
      (∀ size, ffs_fread c fuel m size F = some (0, [], F)) ∧
      (∀ offset, ffs_fseek c fuel m F offset = some (RES_PARAMERR, F)) ∧
      ffs_feof F = 0) ∧
    (∀ filename mode, ffs_fopen c fuel m fs none filename mode = some (RES_PARAMERR, m, fs, none)) ∧
    (∀ filename mode, mode ≠ FFS_RD → mode ≠ FFS_WR_APPEND → mode ≠ FFS_WR_REPLACE →
      ffs_fopen c fuel m fs (some F) filename mode = some (RES_PARAMERR, m, fs, some F)) := by
  refine ⟨?_, ?_, ?_, ?_⟩
  · intro h
    refine ⟨?_, ?_⟩
    · intro data
      rw [ffs_fwrite, if_pos h]
    · rw [ffs_fflush, if_pos h]
  · intro h
    refine ⟨?_, ?_, ?_⟩
    · intro size
      rw [ffs_fread, if_pos h]
    · intro offset
      rw [ffs_fseek, if_pos h]
    · rw [ffs_feof, if_neg h]
  · intro filename mode
    rfl
  · intro filename mode h1 h2 h3
    have hl : LookupFile c fuel m filename = some (lookupList c filename
        (tableEntries c m (0 :: ft)) { FTE := { startblock := 0, filename := List.replicate FFS_FILENAME_LEN 0 }, fteAddr := 0 }) :=
      LookupFile_loop_eq c m filename ft 0 fuel _ ht hfuel
    simp only [ffs_fopen, hl]
    rw [if_neg h1, if_neg (by rintro (h | h); exact h3 h; exact h2 h)]

theorem wrong_mode_rejected_witness :
    ((∀ data, ffs_fwrite demoCfg 4 demoDev fsInit data closedFile
        = some (0, demoDev, fsInit, closedFile)) ∧
      ffs_fflush demoCfg demoDev closedFile = (RES_PARAMERR, demoDev, closedFile)) ∧
    ((∀ size, ffs_fread demoCfg 4 demoDev size closedFile = some (0, [], closedFile)) ∧
      (∀ offset, ffs_fseek demoCfg 4 demoDev closedFile offset = some (RES_PARAMERR, closedFile)) ∧
      ffs_feof closedFile = 0) ∧
    ffs_fopen demoCfg 4 demoDev fsInit none [97, 0] FFS_RD
      = some (RES_PARAMERR, demoDev, fsInit, none) ∧
    ffs_fopen demoCfg 4 demoDev fsInit (some closedFile) [97, 0] 7
      = some (RES_PARAMERR, demoDev, fsInit, some closedFile) :=
  ⟨(wrong_mode_rejected demoCfg demoDev fsInit closedFile [] 4 demo_table.1 (by decide)).1
      (by decide),
   (wrong_mode_rejected demoCfg demoDev fsInit closedFile [] 4 demo_table.1 (by decide)).2.1
      (by decide),
   (wrong_mode_rejected demoCfg demoDev fsInit closedFile [] 4 demo_table.1 (by decide)).2.2.1
      [97, 0] FFS_RD,
   (wrong_mode_rejected demoCfg demoDev fsInit closedFile [] 4 demo_table.1 (by decide)).2.2.2
      [97, 0] 7 (by decide) (by decide) (by decide)⟩

/-- C26: the code at the failing input.  On the device `demoDev`, which holds the file
`a`, the handle `demoRd` is open for reading at offset 1 and the handle `demoWr` is
open for appending.  `ffs_fopen` of `a` for reading through either of them returns
`RES_OK` and re-populates the handle (a read handle at offset 0), and `ffs_fopen` of
`a` for appending through the open read handle returns `RES_OK` and turns it into an
append handle: the file mode of the handle passed in is never looked at. -/
theorem fopen_open_handle_accepted :
    demoRd.filemode = FFS_RD ∧ demoWr.filemode = FFS_WR_APPEND ∧
    ffs_fopen demoCfg 4 demoDev fsInit (some demoRd) [97, 0] FFS_RD
      = some (RES_OK, demoDev, fsInit, some
          { virt_addr := 0, hw_addr := 41, nBytes := 3, filemode := FFS_RD, startblock := 1 }) ∧
    ffs_fopen demoCfg 4 demoDev fsInit (some demoWr) [97, 0] FFS_RD
      = some (RES_OK, demoDev, fsInit, some
          { virt_addr := 0, hw_addr := 41, nBytes := 3, filemode := FFS_RD, startblock := 1 }) ∧
    ffs_fopen demoCfg 40 demoDev fsInit (some demoRd) [97, 0] FFS_WR_APPEND
      = some (RES_OK, demoDev, fsInit, some demoWr) := by
  refine ⟨rfl, rfl, ?_, ?_, ?_⟩ <;> rfl

/-- C27: for every device state and every search cursor `s` smaller than the block
count, if some block in `1 .. BlockCount-1` is unused then `FindUnusedBlock` returns
the first unused block of the cyclic order `s+1, ..., BlockCount-1, 1, ..., s` (so
never block 0) and sets the cursor to the returned block; the enumeration counter is
left alone.  The function only reads the device (its result carries no device). -/
theorem alloc_first_in_scan_order (c : Cfg) (hc : c.ok) (m : Mem) (fs : FFS_FS_t) (fuel : Nat)
    (hs : fs.BlockSearchStart < c.BlockCount) (hfuel : c.BlockCount ≤ fuel)
    (hex : ∃ k, 1 ≤ k ∧ k < c.BlockCount ∧ m (k * c.FLASH_BLOCKSIZE) = FFS_B_UNUSED c) :
    ∃ b, FindUnusedBlock c fuel m fs = some (b, { fs with BlockSearchStart := b }) ∧
      (scanOrder c fs.BlockSearchStart).find?
        (fun k => decide (m (k * c.FLASH_BLOCKSIZE) = FFS_B_UNUSED c)) = some b ∧
      1 ≤ b ∧ b < c.BlockCount ∧ m (b * c.FLASH_BLOCKSIZE) = FFS_B_UNUSED c := by
  obtain ⟨b, fs1, hr, h⟩ := FindUnusedBlock_exact c hc m fs fuel hs hfuel
  rcases h with ⟨_, _, hno⟩ | ⟨hff, hfs1⟩
  · obtain ⟨k, hk1, hk2, hk3⟩ := hex
    exact absurd hk3 (hno k hk1 hk2)
  · refine ⟨b, by rw [hr, hfs1], FirstFreeFrom_find c m _ b hs hff, hff.2.1, hff.2.2.1, hff.1⟩

theorem alloc_first_in_scan_order_witness :
    ∃ b, FindUnusedBlock demoCfg 4 demoDev { BlockSearchStart := 2, GetFileCounter := 0 }
        = some (b, { BlockSearchStart := b, GetFileCounter := 0 }) ∧
      (scanOrder demoCfg 2).find?
        (fun k => decide (demoDev (k * demoCfg.FLASH_BLOCKSIZE) = FFS_B_UNUSED demoCfg)) = some b ∧
      1 ≤ b ∧ b < demoCfg.BlockCount ∧
      demoDev (b * demoCfg.FLASH_BLOCKSIZE) = FFS_B_UNUSED demoCfg :=
  alloc_first_in_scan_order demoCfg demoCfg_ok demoDev { BlockSearchStart := 2, GetFileCounter := 0 }
    4 (by decide) (by decide) ⟨2, by decide, by decide, by decide⟩

/-- C28: the code at the failing input.  On the device `fullDev` (two blocks: the file
table and the data block of one file) no block is unused.  `ffs_init` leaves the
device as it is and sets the search cursor to `FindUnusedBlock() - 1`, which is 65535
since the allocator returned 0.  With that cursor `FindUnusedBlock` does not
terminate: the embedding runs out of every amount of fuel.  With a cursor below the
block count it returns 0 and leaves the cursor alone. -/
theorem alloc_full_device_wrapped_cursor :
    NoFree tinyCfg fullDev ∧
    ffs_init tinyCfg 2 RES_OK fullDev fsInit
      = some (RES_OK, fullDev, { BlockSearchStart := 65535, GetFileCounter := 0 }) ∧
    (∀ fuel, FindUnusedBlock tinyCfg fuel fullDev
      { BlockSearchStart := 65535, GetFileCounter := 0 } = none) ∧
    FindUnusedBlock tinyCfg 2 fullDev { BlockSearchStart := 0, GetFileCounter := 0 }
      = some (0, { BlockSearchStart := 0, GetFileCounter := 0 }) ∧
    FindUnusedBlock tinyCfg 2 fullDev { BlockSearchStart := 1, GetFileCounter := 0 }
      = some (0, { BlockSearchStart := 1, GetFileCounter := 0 }) := by
  refine ⟨full_nofree, rfl, ?_, rfl, rfl⟩
  intro fuel
  apply FUB_spin tinyCfg fullDev (by decide) (by decide) _ fuel 65535 _ (Or.inr rfl)
  intro k hk
  have hk2 : k < 2 := hk
  have : k = 0 ∨ k = 1 := by omega
  rcases this with rfl | rfl <;> decide

/-- C30: for each supported erase value (`0xFF` and `0x00`) the erased byte is that
value; the block statuses `UNUSED`, `EOF`, `JUMP`, `FT_EOF`, `FT_JUMP` are the erased
byte XOR `0x00`, `0x01`, `0x03`, `0x11`, `0x13` and are pairwise distinct; the test
`FFS_TST_FT` holds for `FT_EOF` and `FT_JUMP` and fails for `UNUSED`, `EOF` and `JUMP`;
and the tombstone start-block value is the bitwise complement of the erased 16-bit
pattern and differs from it. -/
theorem status_encodings (c : Cfg) (h : c.FFS_ERASE_VAL = 0xFF ∨ c.FFS_ERASE_VAL = 0) :
    FFS_UNINIT8 c = c.FFS_ERASE_VAL ∧
    FFS_B_UNUSED c = FFS_UNINIT8 c ^^^ 0x00 ∧ FFS_B_EOF c = FFS_UNINIT8 c ^^^ 0x01 ∧
    FFS_B_JUMP c = FFS_UNINIT8 c ^^^ 0x03 ∧ FFS_B_FT_EOF c = FFS_UNINIT8 c ^^^ 0x11 ∧
    FFS_B_FT_JUMP c = FFS_UNINIT8 c ^^^ 0x13 ∧
    [FFS_B_UNUSED c, FFS_B_EOF c, FFS_B_JUMP c, FFS_B_FT_EOF c, FFS_B_FT_JUMP c].Nodup ∧
    FFS_TST_FT c (FFS_B_FT_EOF c) = true ∧ FFS_TST_FT c (FFS_B_FT_JUMP c) = true ∧
    FFS_TST_FT c (FFS_B_UNUSED c) = false ∧ FFS_TST_FT c (FFS_B_EOF c) = false ∧
    FFS_TST_FT c (FFS_B_JUMP c) = false ∧
    FFS_UNINIT16 c = FFS_UNINIT8 c * 256 + FFS_UNINIT8 c ∧
    FFS_NULL16 c = FFS_UNINIT16 c ^^^ 0xFFFF ∧ FFS_NULL16 c ≠ FFS_UNINIT16 c := by
  rcases h with h | h <;>
    simp only [FFS_UNINIT8, FFS_B_UNUSED, FFS_B_EOF, FFS_B_JUMP, FFS_B_FT_EOF, FFS_B_FT_JUMP,
      FFS_TST_FT, FFS_UNINIT16, FFS_NULL16, FFS_NULL8, h] <;> decide

theorem status_encodings_witness :
    FFS_UNINIT8 demoCfg = demoCfg.FFS_ERASE_VAL ∧
    FFS_B_UNUSED demoCfg = FFS_UNINIT8 demoCfg ^^^ 0x00 ∧
    FFS_B_EOF demoCfg = FFS_UNINIT8 demoCfg ^^^ 0x01 ∧
    FFS_B_JUMP demoCfg = FFS_UNINIT8 demoCfg ^^^ 0x03 ∧
    FFS_B_FT_EOF demoCfg = FFS_UNINIT8 demoCfg ^^^ 0x11 ∧
    FFS_B_FT_JUMP demoCfg = FFS_UNINIT8 demoCfg ^^^ 0x13 ∧
    [FFS_B_UNUSED demoCfg, FFS_B_EOF demoCfg, FFS_B_JUMP demoCfg, FFS_B_FT_EOF demoCfg,
      FFS_B_FT_JUMP demoCfg].Nodup ∧
    FFS_TST_FT demoCfg (FFS_B_FT_EOF demoCfg) = true ∧
    FFS_TST_FT demoCfg (FFS_B_FT_JUMP demoCfg) = true ∧
    FFS_TST_FT demoCfg (FFS_B_UNUSED demoCfg) = false ∧
    FFS_TST_FT demoCfg (FFS_B_EOF demoCfg) = false ∧
    FFS_TST_FT demoCfg (FFS_B_JUMP demoCfg) = false ∧
    FFS_UNINIT16 demoCfg = FFS_UNINIT8 demoCfg * 256 + FFS_UNINIT8 demoCfg ∧
    FFS_NULL16 demoCfg = FFS_UNINIT16 demoCfg ^^^ 0xFFFF ∧
    FFS_NULL16 demoCfg ≠ FFS_UNINIT16 demoCfg :=
  status_encodings demoCfg (Or.inl rfl)

/-- Chunk lengths with the search cursor on a block of the device: for an append-mode
handle in a writing position, `ffs_fwrite`, `ffs_fflush` and
`ffs_fclose` leave a file in which every finalized chunk has a length byte from 2 to
254 that is not the erased byte (`HeadersOK`); the only length byte that `ffs_fflush`
and `ffs_fclose` write is `nBytes` of the handle, into an erased cell, with
`2 ≤ nBytes ≤ 253`; and after `ffs_fwrite` and after `ffs_fflush` the handle has
`nBytes ≤ 253` and `hw_addr + nBytes` does not lie beyond the end of the block of
`hw_addr`. -/
theorem chunk_length_invariant_cur (c : Cfg) (hc : c.ok) (fuel : Nat) (hN : c.BlockCount ≤ fuel)
    (m : Mem) (fs : FFS_FS_t) (bs : List Blk) (cur data : List Nat) (F : FFS_FILE_t)
    (h : AppendOK c m bs cur F) (hfs : FsOK c m fs) (hd : ∀ x ∈ data, x < 256)
    (hlen : (fileBytes bs).length + cur.length + data.length < 4294967296)
    (hfuel : data.length < fuel) :
    (∃ k m1 fs1 F1 bs1 cur1, ffs_fwrite c fuel m fs data F = some (k, m1, fs1, F1) ∧
      AppendOK c m1 bs1 cur1 F1 ∧ HeadersOK c m1 bs1 ∧ F1.nBytes ≤ 253 ∧
      F1.hw_addr + F1.nBytes
        ≤ F1.hw_addr / c.FLASH_BLOCKSIZE * c.FLASH_BLOCKSIZE + c.FLASH_BLOCKSIZE) ∧
    (∃ m2 F2 bs2, ffs_fflush c m F = (RES_OK, m2, F2) ∧
      AppendOK c m2 bs2 [] F2 ∧ HeadersOK c m2 bs2 ∧ F2.nBytes ≤ 253 ∧
      F2.hw_addr + F2.nBytes
        ≤ F2.hw_addr / c.FLASH_BLOCKSIZE * c.FLASH_BLOCKSIZE + c.FLASH_BLOCKSIZE ∧
      (m2 = m ∨
       (m2 = flashSPAN_Write c m F.hw_addr [F.nBytes] ∧ 2 ≤ F.nBytes ∧ F.nBytes ≤ 253 ∧
        F.nBytes ≠ FFS_UNINIT8 c ∧ m F.hw_addr = FFS_UNINIT8 c ∧ m2 F.hw_addr = F.nBytes))) ∧
    (∃ m3 F3 bs3, ffs_fclose c m (some F) = (RES_OK, m3, some F3) ∧
      ClosedOK c m3 bs3 ∧ HeadersOK c m3 bs3 ∧
      (m3 = m ∨
       (m3 = flashSPAN_Write c m F.hw_addr [F.nBytes] ∧ 2 ≤ F.nBytes ∧ F.nBytes ≤ 253 ∧
        F.nBytes ≠ FFS_UNINIT8 c ∧ m F.hw_addr = FFS_UNINIT8 c ∧ m3 F.hw_addr = F.nBytes))) := by
  have hflush : ∀ (mx : Mem), (cur = [] → mx = m) →
      (cur ≠ [] → mx = flashSPAN_Write c m F.hw_addr [F.nBytes] ∧ 2 ≤ F.nBytes ∧
        F.nBytes ≤ 253 ∧ m F.hw_addr = FFS_UNINIT8 c) →
      (mx = m ∨
       (mx = flashSPAN_Write c m F.hw_addr [F.nBytes] ∧ 2 ≤ F.nBytes ∧ F.nBytes ≤ 253 ∧
        F.nBytes ≠ FFS_UNINIT8 c ∧ m F.hw_addr = FFS_UNINIT8 c ∧ mx F.hw_addr = F.nBytes)) := by
    intro mx h0 h1
    by_cases hcur : cur = []
    · exact Or.inl (h0 hcur)
    · obtain ⟨e1, e2, e3, e4⟩ := h1 hcur
      refine Or.inr ⟨e1, e2, e3, hdr_ne_uninit c hc _ (by omega) (by omega), e4, ?_⟩
      rw [e1]
      exact Write_one c hc m F.hw_addr F.nBytes e4 (by omega)
  refine ⟨?_, ?_, ?_⟩
  · obtain ⟨k, m1, fs1, F1, bs1, cur1, new, hr, _, hap, _⟩ :=
      fwrite_append c hc fuel hN m fs bs cur data F h hfs hd hlen hfuel
    obtain ⟨b1, b2, _⟩ := AppendPos_bounds c hc m1 bs1 cur1 F1 hap.2.2.2
    exact ⟨k, m1, fs1, F1, bs1, cur1, hr, hap,
      ChainOK_headers c hc m1 bs1 0 (AppendPos_chain c m1 bs1 cur1 F1 hap.2.2.2), b1, b2⟩
  · obtain ⟨m2, F2, bs2, hr, hap, _, _, _, _, h0, h1⟩ := fflush_spec c hc m bs cur F h
    obtain ⟨b1, b2, _⟩ := AppendPos_bounds c hc m2 bs2 [] F2 hap.2.2.2
    exact ⟨m2, F2, bs2, hr, hap,
      ChainOK_headers c hc m2 bs2 0 (AppendPos_chain c m2 bs2 [] F2 hap.2.2.2), b1, b2,
      hflush m2 (fun hc0 => (h0 hc0).1) h1⟩
  · obtain ⟨m2, F2, bs2, hr, _, _, _, _, _, h0, h1⟩ := fflush_spec c hc m bs cur F h
    obtain ⟨m3, F3, bs3, hr3, _, hcl, _⟩ := fclose_spec c hc m bs cur F h
    have hm3 : m3 = m2 := by
      have e1 := (fflush_facts c m F h.1).2.1
      rw [hr3, hr] at e1
      exact e1
    refine ⟨m3, F3, bs3, hr3, hcl, ChainOK_headers c hc m3 bs3 0 hcl.1, ?_⟩
    rw [hm3]
    exact hflush m2 (fun hc0 => (h0 hc0).1) h1

/-- C31: for an append-mode handle in a writing position, with the search cursor on a
block of the device or at 65535 (the value `ffs_init` leaves on a device without
unused block; the device has at least two blocks and block 0 is in use), `ffs_fwrite`,
`ffs_fflush` and `ffs_fclose` leave a file in which every finalized chunk has a length
byte from 2 to 254 that is not the erased byte (`HeadersOK`); the only length byte
that `ffs_fflush` and `ffs_fclose` write is `nBytes` of the handle, into an erased
cell, with `2 ≤ nBytes ≤ 253`; and after `ffs_fwrite` and after `ffs_fflush` the handle
has `nBytes ≤ 253` and `hw_addr + nBytes` does not lie beyond the end of the block of
`hw_addr`.  The one exception: with the cursor 65535 on a device without unused block,
a call of `ffs_fwrite` that attempts an allocation does not return. -/
theorem chunk_length_invariant (c : Cfg) (hc : c.ok) (fuel : Nat) (hN : c.BlockCount < fuel)
    (m : Mem) (fs : FFS_FS_t) (bs : List Blk) (cur data : List Nat) (F : FFS_FILE_t)
    (h : AppendOK c m bs cur F) (hfree : FreeOK c m)
    (hcur : fs.BlockSearchStart < c.BlockCount ∨
      (fs.BlockSearchStart = 65535 ∧ 2 ≤ c.BlockCount ∧ m 0 ≠ FFS_B_UNUSED c))
    (hd : ∀ x ∈ data, x < 256)
    (hlen : (fileBytes bs).length + cur.length + data.length < 4294967296)
    (hfuel : data.length < fuel) :
    ((fs.BlockSearchStart = 65535 ∧ NoFree c m ∧
        ∀ fuel1, ffs_fwrite c fuel1 m fs data F = none) ∨
     ∃ k m1 fs1 F1 bs1 cur1, ffs_fwrite c fuel m fs data F = some (k, m1, fs1, F1) ∧
      AppendOK c m1 bs1 cur1 F1 ∧ HeadersOK c m1 bs1 ∧ F1.nBytes ≤ 253 ∧
      F1.hw_addr + F1.nBytes
        ≤ F1.hw_addr / c.FLASH_BLOCKSIZE * c.FLASH_BLOCKSIZE + c.FLASH_BLOCKSIZE) ∧
    (∃ m2 F2 bs2, ffs_fflush c m F = (RES_OK, m2, F2) ∧
      AppendOK c m2 bs2 [] F2 ∧ HeadersOK c m2 bs2 ∧ F2.nBytes ≤ 253 ∧
      F2.hw_addr + F2.nBytes
        ≤ F2.hw_addr / c.FLASH_BLOCKSIZE * c.FLASH_BLOCKSIZE + c.FLASH_BLOCKSIZE ∧
      (m2 = m ∨
       (m2 = flashSPAN_Write c m F.hw_addr [F.nBytes] ∧ 2 ≤ F.nBytes ∧ F.nBytes ≤ 253 ∧
        F.nBytes ≠ FFS_UNINIT8 c ∧ m F.hw_addr = FFS_UNINIT8 c ∧ m2 F.hw_addr = F.nBytes))) ∧
    (∃ m3 F3 bs3, ffs_fclose c m (some F) = (RES_OK, m3, some F3) ∧
      ClosedOK c m3 bs3 ∧ HeadersOK c m3 bs3 ∧
      (m3 = m ∨
       (m3 = flashSPAN_Write c m F.hw_addr [F.nBytes] ∧ 2 ≤ F.nBytes ∧ F.nBytes ≤ 253 ∧
        F.nBytes ≠ FFS_UNINIT8 c ∧ m F.hw_addr = FFS_UNINIT8 c ∧ m3 F.hw_addr = F.nBytes))) := by
  rcases hcur with hcur | ⟨hcur, hN2, h0⟩
  · obtain ⟨q1, q2, q3⟩ := chunk_length_invariant_cur c hc fuel (by omega) m fs bs cur data F h
      ⟨hfree, hcur⟩ hd hlen hfuel
    exact ⟨Or.inr q1, q2, q3⟩
  · obtain ⟨⟨k, m1, fs0, F1, bs1, cur1, e, p1, p2, p3, p4⟩, q2, q3⟩ :=
      chunk_length_invariant_cur c hc fuel (by omega) m { fs with BlockSearchStart := 0 } bs cur
        data F h ⟨hfree, by show 0 < c.BlockCount; omega⟩ hd hlen hfuel
    refine ⟨?_, q2, q3⟩
    rcases fwrite_cursor_cases c hc fuel m fs bs cur data F h hcur hN2 h0 hN with
      ⟨g1, g2⟩ | g
    · exact Or.inl ⟨hcur, g1, g2⟩
    · obtain ⟨fs1, e1, _⟩ := g k m1 fs0 F1 e
      exact Or.inr ⟨k, m1, fs1, F1, bs1, cur1, e1, p1, p2, p3, p4⟩

set_option maxRecDepth 100000 in
/-- C31 on the demo device with the cursor 65535: `"hello world"` is appended to the
file `a`. -/
theorem chunk_length_invariant_witness :
    ((65535 = 65535 ∧ NoFree demoCfg demoDev ∧
        ∀ fuel1, ffs_fwrite demoCfg fuel1 demoDev
          { BlockSearchStart := 65535, GetFileCounter := 0 } helloWorld demoWr = none) ∨
     ∃ k m1 fs1 F1 bs1 cur1, ffs_fwrite demoCfg 20 demoDev
        { BlockSearchStart := 65535, GetFileCounter := 0 } helloWorld demoWr
          = some (k, m1, fs1, F1) ∧
      AppendOK demoCfg m1 bs1 cur1 F1 ∧ HeadersOK demoCfg m1 bs1 ∧ F1.nBytes ≤ 253 ∧
      F1.hw_addr + F1.nBytes
        ≤ F1.hw_addr / demoCfg.FLASH_BLOCKSIZE * demoCfg.FLASH_BLOCKSIZE
          + demoCfg.FLASH_BLOCKSIZE) ∧
    (ffs_fwrite demoCfg 20 demoDev { BlockSearchStart := 65535, GetFileCounter := 0 }
        helloWorld demoWr).map (fun r => (r.1, r.2.2.2.nBytes)) = some (11, 12) :=
  ⟨(chunk_length_invariant demoCfg demoCfg_ok 20 (by decide) demoDev
    { BlockSearchStart := 65535, GetFileCounter := 0 } demoChain [] helloWorld demoWr demo_wr
    demo_free (Or.inr ⟨rfl, by decide, by decide⟩) (by decide) (by decide) (by decide)).1,
   by rfl⟩

set_option maxRecDepth 100000 in
/-- C32: the code at the failing input.  On a blank device of 6 blocks of 20 bytes the
program `reopenRun` calls `ffs_init`, opens the file `a` for appending, writes 5 bytes,
calls `ffs_fopen` on `a` again with the same, still open handle, writes and flushes 3
bytes, writes 8 more bytes and closes the file; only open, write, flush and close are
used.  `ffs_fopen` does not look at the mode of the handle it is given (its comment
announces the check), returns `RES_OK` and finds the length byte of the first chunk
unwritten, so it rewinds the handle to it, and the second chunk header falls on a data
byte of the first write (`0x41`); the length 8 programmed over it reads 8 AND 0x41 = 0.
Block 1 now holds the length bytes 4 and 0 and jumps to block 2, whose stored virtual
address is 10: it is not the sum of (length - 1) over the chunks of block 1, and the
chain of `a` is no chain of well-formed chunks. -/
theorem reopen_breaks_virt :
    reopenRun.map (fun s =>
        (flashSPAN_Read s.m 0 8, flashSPAN_Read s.m 20 20, flashSPAN_Read s.m 40 10,
         rd32 s.m (2 * 20 + offsetof_virt_addr)))
      = some ([0xEE, 0xFF, 0xFF, 0xFF, 1, 0, 97, 0],
          [0xFC, 0xFF, 2, 0, 0, 0, 0, 0, 4, 65, 65, 65, 0, 65, 65, 65, 65, 65, 65, 65],
          [0xFE, 0xFF, 0xFF, 0xFF, 10, 0, 0, 0, 2, 65], 10) ∧
    (match reopenRun with
     | some s => ¬ FilesVirtOK smallCfg s
     | none => False) := by
  have hfacts : reopenRun.map (fun s => (s.m 0, s.m 20, s.m 28, s.m 32,
      (liveEntries smallCfg s.m [0]).map (fun e => e.FTE.startblock)))
      = some (0xEE, 0xFC, 4, 0, [1]) := by rfl
  refine ⟨by rfl, ?_⟩
  cases hrun : reopenRun with
  | none => rw [hrun] at hfacts; simp at hfacts
  | some s =>
    rw [hrun] at hfacts
    simp only [Option.map_some', Option.some.injEq, Prod.mk.injEq] at hfacts
    obtain ⟨h0, h19, h26, h30, hlive⟩ := hfacts
    show ¬ FilesVirtOK smallCfg s
    rintro ⟨ft, ch, hwf, hfiles⟩
    have hft : ft = [] := by
      cases ft with
      | nil => rfl
      | cons b rest =>
        exfalso
        have : s.m (0 * smallCfg.FLASH_BLOCKSIZE) = FFS_B_FT_JUMP smallCfg := hwf.1.1
        rw [Nat.zero_mul, h0] at this
        revert this; decide
    subst hft
    obtain ⟨e, he, hsb⟩ : ∃ e ∈ liveEntries smallCfg s.m [0], e.FTE.startblock = 1 := by
      have : (1 : Nat) ∈ (liveEntries smallCfg s.m [0]).map (fun e => e.FTE.startblock) := by
        rw [hlive]; simp
      obtain ⟨e, he, h1⟩ := List.mem_map.mp this
      exact ⟨e, he, h1⟩
    obtain ⟨hnext, hch, _, _⟩ := hfiles e he
    rw [hsb] at hnext hch
    cases hbs : ch 1 with
    | nil => rw [hbs] at hnext; simp [nextIdx] at hnext
    | cons b rest =>
      rw [hbs] at hnext hch
      have hb : b.idx = 1 := by simpa [nextIdx] using hnext
      obtain ⟨⟨_, hhdr, htail⟩, _⟩ := hch
      rw [hb] at hhdr htail
      have e19 : 1 * smallCfg.FLASH_BLOCKSIZE = 20 := by decide
      rw [e19] at hhdr htail
      cases hn : nextIdx rest with
      | none =>
        rw [hn] at hhdr
        have : s.m 20 = FFS_B_EOF smallCfg := hhdr.1
        rw [h19] at this
        revert this; decide
      | some j =>
        rw [hn] at htail
        have hB : smallCfg.FLASH_BLOCKSIZE = 20 := rfl
        simp only [Option.isNone_some, sizeof_BHDR, hB] at htail
        cases hcs : b.chunks with
        | nil =>
          rw [hcs] at htail
          have := htail (by omega)
          simp at this
        | cons c1 cs =>
          rw [hcs] at htail
          obtain ⟨_, _, _, hlen1, _, htail2⟩ := htail
          have hc1 : c1.length = 3 := by
            have : s.m 28 = c1.length + 1 := hlen1
            omega
          rw [hc1] at htail2
          cases cs with
          | nil =>
            have := htail2 (by omega)
            simp at this
          | cons c2 cs2 =>
            obtain ⟨_, _, _, hlen2, _⟩ := htail2
            have : s.m 32 = c2.length + 1 := hlen2
            omega

/-- Virtual addresses along runs that keep to the handle protocol: in every file
produced by a sequence of API calls with a single handle in which `ffs_fopen` is not
called on a handle that holds unflushed data and is called with names that fit the
name field, and `ffs_remove` is not called on the file that the handle has open for
appending (the device holds bytes, files stay shorter than 4 GiB), the file is a jump
chain of blocks with
well-formed chunks (every length byte is the payload length plus 1), and the virtual
address stored in each block is the sum of (chunk length - 1) over all chunks of the
preceding blocks of the chain; for the first block it is 0. -/
theorem virt_addr_invariant (c : Cfg) (hc : c.ok) (fuel : Nat)
    (hfuel : 65536 + c.FLASH_BLOCKSIZE * (c.BlockCount + 1) ≤ fuel)
    (s0 s : ApiState) (h0 : Started c fuel s0)
    (hreach : Relation.ReflTransGen (ApiStep c fuel) s0 s) : FilesVirtOK c s := by
  obtain ⟨ft, ch, h⟩ := started_reach_inv c hc fuel hfuel s0 s h0 hreach
  exact ⟨ft, ch, h.table, fun e he => ⟨(h.files e he).1, DiskWF_virt c hc s ft ch h e he⟩⟩

/-- The virtual addresses on the demo device: the file `a` after 30 bytes have been written in
one call and the file has been closed; its chain has two blocks. -/
theorem virt_addr_invariant_witness :
    Started demoCfg walkFuel bootState ∧
    Relation.ReflTransGen (ApiStep demoCfg walkFuel) bootState closedState ∧
    FilesVirtOK demoCfg closedState :=
  ⟨walk_started, walk_reach,
    virt_addr_invariant demoCfg demoCfg_ok walkFuel (Nat.le_refl _) bootState closedState
      walk_started walk_reach⟩

/-- Block 0 stays reserved for the file table along runs that keep to the handle
protocol and use names that fit the name field.  After `ffs_init` has returned
`RES_OK` (on an unformatted device with at least two blocks, or on a well-formed file
system with an unused block) and after every API call that a program keeping to the
handle protocol makes afterwards (`ffs_fopen`, `ffs_fwrite`, `ffs_fflush`,
`ffs_fclose`, `ffs_fread`, `ffs_fseek`, `ffs_remove`, `ffs_cleanupFT`,
`ffs_blocksFree`, `ffs_getFile`), the status of block 0 is `FFS_B_FT_EOF` or
`FFS_B_FT_JUMP`, no live entry starts at block 0, no data chain of a live file contains
block 0, and the allocator returns 0 only when no block is unused and otherwise an
unused block from 1 on. -/
theorem block0_reserved (c : Cfg) (hc : c.ok) (fuel : Nat)
    (hfuel : 65536 + c.FLASH_BLOCKSIZE * (c.BlockCount + 1) ≤ fuel)
    (s0 s : ApiState) (h0 : Started c fuel s0)
    (hreach : Relation.ReflTransGen (ApiStep c fuel) s0 s) : Block0OK c fuel s := by
  have hB := hc.2.1
  have hf1 : c.BlockCount ≤ fuel := by nlinarith
  obtain ⟨ft, ch, h⟩ := started_reach_inv c hc fuel hfuel s0 s h0 hreach
  refine ⟨?_, ⟨ft, ch, h.table, ?_⟩, h.alloc.2,
    FindUnusedBlock_spec c hc s.m s.fs fuel h.alloc.2 hf1⟩
  · have hch := h.table.1
    cases ft with
    | nil =>
      have : s.m (0 * c.FLASH_BLOCKSIZE) = FFS_B_FT_EOF c := hch.1
      rw [Nat.zero_mul] at this
      exact Or.inl this
    | cons b rest =>
      have : s.m (0 * c.FLASH_BLOCKSIZE) = FFS_B_FT_JUMP c := hch.1
      rw [Nat.zero_mul] at this
      exact Or.inr this
  · intro e he
    obtain ⟨g1, _, _, g4⟩ := DiskWF_chain c hc s ft ch h e he
    have hnext := (h.files e he).1
    have hne : ∀ b ∈ ch e.FTE.startblock, b.idx ≠ 0 := by
      intro b hb hcon
      exact (g4 b hb).1 (by rw [hcon]; exact List.mem_cons_self _ _)
    refine ⟨?_, hnext, g1, hne⟩
    obtain ⟨x, hx, hxi⟩ := nextIdx_mem _ _ hnext
    rw [← hxi]
    exact hne x hx

/-- Block 0 on the demo device after creating a file, writing 30 bytes and closing
it. -/
theorem block0_reserved_witness :
    Started demoCfg walkFuel bootState ∧
    Relation.ReflTransGen (ApiStep demoCfg walkFuel) bootState closedState ∧
    Block0OK demoCfg walkFuel closedState :=
  ⟨walk_started, walk_reach,
    block0_reserved demoCfg demoCfg_ok walkFuel (Nat.le_refl _) bootState closedState
      walk_started walk_reach⟩

set_option maxRecDepth 100000 in
/-- C33: the code at the failing input.  On a blank device of four blocks of 32 bytes
`ffs_init` returns `RES_OK` and block 0 has the status `FFS_B_FT_EOF` (`0xEE`).  Then
`ffs_fopen` of the new name `abcdefghijklmn` (14 characters, the documented maximum)
for appending returns `RES_OK`, and block 0 has the status `0x00`, which is neither
`FFS_B_FT_EOF` nor `FFS_B_FT_JUMP`: `strcpy` has written the terminator of the name
into the low byte of the entry address, so the table entry has been programmed at
address 0, and its start block 1 over the status `0xEE` reads 0.  A following
`ffs_init` takes the device for unformatted and erases it, the new file included. -/
theorem block0_long_name :
    (cstr name14).length = FFS_FILENAME_LEN ∧
    (do
      let (r0, m1, fs1) ← ffs_init demoCfg 8 RES_OK blankDev fsInit
      let (r1, m2, fs2, _) ← ffs_fopen demoCfg 8 m1 fs1 (some closedFile) name14 FFS_WR_APPEND
      let (r2, m3, _) ← ffs_init demoCfg 8 RES_OK m2 fs2
      pure (r0, m1 0, r1, m2 0, FFS_TST_FT demoCfg (m2 0), flashSPAN_Read m2 32 8,
        r2, flashSPAN_Read m3 0 8, flashSPAN_Read m3 32 8))
    = some (RES_OK, 0xEE, RES_OK, 0, false, [0xFE, 0xFF, 0xFF, 0xFF, 0, 0, 0, 0],
        RES_OK, [0xEE, 0xFF, 0xFF, 0xFF, 0xFF, 0xFF, 0xFF, 0xFF],
        [0xFF, 0xFF, 0xFF, 0xFF, 0xFF, 0xFF, 0xFF, 0xFF]) ∧
    (match longNameRun with
     | some s => ¬ Block0OK demoCfg 8 s
     | none => False) := by
  have hfacts : longNameRun.map (fun s => s.m 0) = some 0 := by rfl
  refine ⟨by decide, by rfl, ?_⟩
  cases hrun : longNameRun with
  | none => rw [hrun] at hfacts; simp at hfacts
  | some s =>
    rw [hrun] at hfacts
    simp only [Option.map_some', Option.some.injEq] at hfacts
    show ¬ Block0OK demoCfg 8 s
    rintro ⟨h | h, _⟩
    · rw [hfacts] at h; revert h; decide
    · rw [hfacts] at h; revert h; decide

/-- Block chains along runs that keep to the handle protocol and use names that fit
the name field: in every state that a program reaches from `ffs_init` by API calls
with a single handle, where `ffs_remove` is not called on the file that the handle has
open for appending and `ffs_fopen` is not called on a handle that holds unflushed data
(the device holds bytes, files stay shorter than 4 GiB), the file table chain from
block 0
and the data chains of the live files are pairwise disjoint, every chain repeats no
block and ends in a block without jump (`FFS_B_FT_EOF` for the table, `FFS_B_EOF` for
a file), and no block of a chain has the status `FFS_B_UNUSED`. -/
theorem chains_disjoint (c : Cfg) (hc : c.ok) (fuel : Nat)
    (hfuel : 65536 + c.FLASH_BLOCKSIZE * (c.BlockCount + 1) ≤ fuel)
    (s0 s : ApiState) (h0 : Started c fuel s0)
    (hreach : Relation.ReflTransGen (ApiStep c fuel) s0 s) : ChainsOK c s := by
  obtain ⟨ft, ch, h⟩ := started_reach_inv c hc fuel hfuel s0 s h0 hreach
  have htok := TableWF_ok c hc s.m ft h.table
  have htf := tst_ft_facts c hc
  refine ⟨ft, ch, h.table.1, FTChainOK_nodup c s.m _ htok.1, ?_, h.starts, ?_, h.disjoint⟩
  · intro b hb
    constructor
    · rcases List.mem_cons.mp hb with hb | hb
      · rw [hb]; have := h.alloc.2; omega
      · exact h.table.2.1 b hb
    · intro hcon
      have := htok.2 b hb
      rw [hcon] at this
      have h3 : FFS_TST_FT c (FFS_B_UNUSED c) = false := htf.2.2.1
      rw [h3] at this
      exact absurd this (by decide)
  · intro e he
    obtain ⟨g1, g2, g3, g4⟩ := DiskWF_chain c hc s ft ch h e he
    refine ⟨(h.files e he).1, g1, g2, ?_⟩
    intro b hb
    exact ⟨(h.files e he).2.1 b hb, (g4 b hb).1, (g4 b hb).2.2.1⟩

/-- The block chains on the demo device after creating a file, writing 30 bytes and
closing it. -/
theorem chains_disjoint_witness :
    Started demoCfg walkFuel bootState ∧
    Relation.ReflTransGen (ApiStep demoCfg walkFuel) bootState closedState ∧
    ChainsOK demoCfg closedState :=
  ⟨walk_started, walk_reach,
    chains_disjoint demoCfg demoCfg_ok walkFuel (Nat.le_refl _) bootState closedState
      walk_started walk_reach⟩

set_option maxRecDepth 100000 in
/-- Writing through the handle of a removed file: the program `staleRun` removes the
file `f` while the handle is still open on it (parked on its full block 5) and later
writes one byte through that handle.  Before the write the file table is the chain 0, 5, 2: block 5, freed by
the removal, has become a table block that jumps to block 2.  `ffs_fwrite` finds the
handle parked, allocates block 4 and writes the jump to block 4 over the header of
block 5: the status stays `FFS_B_FT_JUMP` (`0xEC`) and the jump field becomes
2 AND 4 = 0.  Now the file table chain from block 0 leads to block 5 and back to block
0: it is cyclic, and the state has no well-formed block chains. -/
theorem stale_handle_cycles :
    staleRun.map (fun r =>
        ((r.1.m 0, rd16 r.1.m 2), (r.1.m 100, rd16 r.1.m 102), (r.1.m 40, rd16 r.1.m 42),
         (r.1.F.filemode, r.1.F.hw_addr, r.1.F.nBytes), r.1.fs.BlockSearchStart,
         (r.2.m 0, rd16 r.2.m 2), (r.2.m 100, rd16 r.2.m 102),
         (r.2.m 80, rd16 r.2.m 82, rd32 r.2.m 84),
         (r.2.F.filemode, r.2.F.hw_addr, r.2.F.nBytes)))
      = some ((0xEC, 5), (0xEC, 2), (0xEE, 0xFFFF), (FFS_WR_APPEND, 100, 0), 2,
          (0xEC, 5), (0xEC, 0), (0xFE, 0xFFFF, 11),
          (FFS_WR_APPEND, 88, 2)) ∧
    (match staleRun with
     | some r => ¬ ChainsOK smallCfg r.2
     | none => False) := by
  have hfacts : staleRun.map (fun r => (r.2.m 0, rd16 r.2.m 2, r.2.m 100, rd16 r.2.m 102))
      = some (0xEC, 5, 0xEC, 0) := by rfl
  refine ⟨by rfl, ?_⟩
  cases hrun : staleRun with
  | none => rw [hrun] at hfacts; simp at hfacts
  | some r =>
    rw [hrun] at hfacts
    simp only [Option.map_some', Option.some.injEq, Prod.mk.injEq] at hfacts
    obtain ⟨h0, h1, h95, h96⟩ := hfacts
    show ¬ ChainsOK smallCfg r.2
    rintro ⟨ft, ch, hwf, hnd, _⟩
    cases ft with
    | nil =>
      have : r.2.m (0 * smallCfg.FLASH_BLOCKSIZE) = FFS_B_FT_EOF smallCfg := hwf.1
      rw [Nat.zero_mul, h0] at this
      revert this; decide
    | cons b2 rest =>
      obtain ⟨_, hj, hrest⟩ := hwf
      have hb2 : b2 = 5 := by
        have : rd16 r.2.m (0 * smallCfg.FLASH_BLOCKSIZE + offsetof_jump) = b2 := hj
        rw [← this]
        simpa [offsetof_jump] using h1
      subst hb2
      cases rest with
      | nil =>
        have : r.2.m (5 * smallCfg.FLASH_BLOCKSIZE) = FFS_B_FT_EOF smallCfg := hrest.1
        have e : 5 * smallCfg.FLASH_BLOCKSIZE = 100 := by decide
        rw [e, h95] at this
        revert this; decide
      | cons b3 rest2 =>
        obtain ⟨_, hj2, _⟩ := hrest
        have hb3 : b3 = 0 := by
          have : rd16 r.2.m (5 * smallCfg.FLASH_BLOCKSIZE + offsetof_jump) = b3 := hj2
          rw [← this]
          have e : 5 * smallCfg.FLASH_BLOCKSIZE + offsetof_jump = 102 := by decide
          rw [e]; exact h96
        subst hb3
        simp at hnd

set_option maxRecDepth 100000 in
/-- C34: the code at the failing input.  On a blank device of 300 blocks of 32 bytes,
`ffs_init` and then `ffs_fopen` of a new name of 14 characters (the documented
maximum) for appending both return `RES_OK`; the third and fourth character of the
name have the code 1.  `strcpy` writes the terminator of the name into the low byte
of the entry address, so the 16 bytes of the table entry are programmed at address 0
instead of address 4.  In the state reached, the status of block 0 is `0x00`, which
is no file table status, and the table slot at address 4 reads as a live entry whose
start block 257 is made of two characters of the name: block 257 lies on the device
and has the status `FFS_B_UNUSED`, while block 1, which holds the header of the new
file, belongs to no entry.  The state has no well-formed block chains. -/
theorem long_name_breaks_chains :
    (cstr name14low).length = FFS_FILENAME_LEN ∧
    longNameWideRun.map (fun s =>
        (flashSPAN_Read s.m 0 20, s.F, s.fs.BlockSearchStart,
         (liveEntries wideCfg s.m [0]).map (fun e => e.FTE.startblock),
         s.m (257 * wideCfg.FLASH_BLOCKSIZE), flashSPAN_Read s.m (1 * wideCfg.FLASH_BLOCKSIZE) 8))
      = some ([0, 0, 97, 98, 1, 1, 101, 102, 103, 104, 105, 106, 107, 108, 109, 110,
            0xFF, 0xFF, 0xFF, 0xFF],
          { virt_addr := 0, hw_addr := 40, nBytes := 1, filemode := FFS_WR_APPEND,
            startblock := 1 }, 1, [257], FFS_B_UNUSED wideCfg,
          [0xFE, 0xFF, 0xFF, 0xFF, 0, 0, 0, 0]) ∧
    257 < wideCfg.BlockCount ∧
    (match longNameWideRun with
     | some s => ¬ ChainsOK wideCfg s
     | none => False) := by
  have hfacts : longNameWideRun.map (fun s => s.m 0) = some 0 := by rfl
  refine ⟨by decide, by rfl, by decide, ?_⟩
  cases hrun : longNameWideRun with
  | none => rw [hrun] at hfacts; simp at hfacts
  | some s =>
    rw [hrun] at hfacts
    simp only [Option.map_some', Option.some.injEq] at hfacts
    show ¬ ChainsOK wideCfg s
    rintro ⟨ft, ch, hwf, _⟩
    cases ft with
    | nil =>
      have : s.m (0 * wideCfg.FLASH_BLOCKSIZE) = FFS_B_FT_EOF wideCfg := hwf.1
      rw [Nat.zero_mul, hfacts] at this
      revert this; decide
    | cons b rest =>
      have : s.m (0 * wideCfg.FLASH_BLOCKSIZE) = FFS_B_FT_JUMP wideCfg := hwf.1
      rw [Nat.zero_mul, hfacts] at this
      revert this; decide

/-- C36: the code at the failing input.  On the device `fullDev` (two blocks: the file
table and the data block of one file) no block is unused.  `ffs_init` returns `RES_OK`,
leaves the device as it is and sets the search cursor to `FindUnusedBlock() - 1`; the
allocator returned 0, so the 16-bit cursor is 65535, which is not a block index of the
two-block device.  On the blank device of the same size the cursor after `ffs_init`
is 0. -/
theorem init_cursor_out_of_range :
    NoFree tinyCfg fullDev ∧
    FindUnusedBlock tinyCfg 2 fullDev { BlockSearchStart := 0, GetFileCounter := 0 }
      = some (0, { BlockSearchStart := 0, GetFileCounter := 0 }) ∧
    ffs_init tinyCfg 2 RES_OK fullDev fsInit
      = some (RES_OK, fullDev, { BlockSearchStart := 65535, GetFileCounter := 0 }) ∧
    ¬ (65535 < tinyCfg.BlockCount) ∧
    (ffs_init tinyCfg 2 RES_OK blankDev fsInit).map (fun r => (r.1, r.2.2.BlockSearchStart))
      = some (RES_OK, 0) := by
  refine ⟨full_nofree, rfl, rfl, by decide, rfl⟩

/-- C37, counterexample: the device `enumDev` with three blocks of 36 bytes has a full
table block 0 (a live entry and a tombstone), the data block 1 and exactly one unused
block, block 2.  `ffs_fopen` of the new name `c` for appending returns `RES_FULL` and
leaves the handle as it was, but the device has changed: block 2 has become an empty
file table block (status `FFS_B_FT_EOF`) and block 0 has the status `FFS_B_FT_JUMP`
and jumps to it; the cursor has moved to block 2. -/
theorem fopen_full_expands_table :
    freeBlocks expCfg enumDev = [2] ∧
    (enumDev 0, rd16 enumDev (0 + offsetof_jump), enumDev (2 * 36)) = (0xEE, 0xFFFF, 0xFF) ∧
    (ffs_fopen expCfg 10 enumDev { BlockSearchStart := 1, GetFileCounter := 0 } (some closedFile)
        [99, 0] FFS_WR_APPEND).map
      (fun r => (r.1, r.2.2.2, r.2.2.1.BlockSearchStart,
        r.2.1 0, rd16 r.2.1 (0 + offsetof_jump), r.2.1 (2 * 36)))
      = some (RES_FULL, some closedFile, 2, 0xEC, 2, 0xEE) := by
  refine ⟨by decide, by decide, rfl⟩

/-- C37, amended: whenever `ffs_fopen` returns `RES_FULL` on a well-formed file table,
the handle is unchanged and no unused block is left afterwards.  The device and the
cursor are unchanged as well, except in one case: every slot of the table was used and
exactly one block `nb` was unused; then `nb` has been made an empty file table block,
the last table block jumps to it, the cursor stands on `nb`, and nothing else has
changed - the table is well-formed and has the same live entries. -/
theorem fopen_full_effect (c : Cfg) (hc : c.ok) (m : Mem) (fs : FFS_FS_t) (F : FFS_FILE_t)
    (ft : List Nat) (filename : List Nat) (mode fuel : Nat)
    (hb : Bytes m) (ht : TableWF c m ft) (hfs : FsOK c m fs)
    (hfuel1 : ft.length < fuel) (hfuel2 : c.BlockCount ≤ fuel)
    (m1 : Mem) (fs1 : FFS_FS_t) (F1 : Option FFS_FILE_t)
    (hres : ffs_fopen c fuel m fs (some F) filename mode = some (RES_FULL, m1, fs1, F1)) :
    F1 = some F ∧ NoFree c m1 ∧
    ((m1 = m ∧ fs1 = fs) ∨
     ((∀ x ∈ tableEntries c m (0 :: ft), x.FTE.startblock ≠ FFS_UNINIT16 c) ∧
      ∃ nb, 1 ≤ nb ∧ nb < c.BlockCount ∧ m (nb * c.FLASH_BLOCKSIZE) = FFS_B_UNUSED c ∧
        (∀ k, 1 ≤ k → k < c.BlockCount → k ≠ nb → m (k * c.FLASH_BLOCKSIZE) ≠ FFS_B_UNUSED c) ∧
        m1 = flashSPAN_Write c
          (flashSPAN_Write c m ((0 :: ft).getLast (List.cons_ne_nil _ _) * c.FLASH_BLOCKSIZE)
            (encSBHDR (padByte c) (FFS_B_FT_JUMP c) nb))
          (nb * c.FLASH_BLOCKSIZE) [FFS_B_FT_EOF c] ∧
        fs1.BlockSearchStart = nb ∧ TableWF c m1 (ft ++ [nb]) ∧
        liveEntries c m1 (0 :: (ft ++ [nb])) = liveEntries c m (0 :: ft))) := by
  have hn := entries_pos c hc
  have hsf := status_facts c hc
  have htf := tst_ft_facts c hc
  obtain ⟨hchain, hbound, hslots⟩ := ht
  obtain ⟨hok, htst⟩ := FTChainWF_ok c hc m _ hchain
  by_cases hhas : HasFile c m (0 :: ft) filename
  · -- the name exists: no branch returns RES_FULL
    obtain ⟨e, _, _, hl⟩ := (LookupFile_spec c hc m ft filename fuel hok hfuel1).1 hhas
    exfalso
    simp only [ffs_fopen, hl] at hres
    repeat' split at hres
    all_goals first
      | contradiction
      | (simp at hres; done)
  · by_cases hmode : mode = FFS_WR_REPLACE ∨ mode = FFS_WR_APPEND
    · obtain ⟨nb, fsa, ea, q1, q2, q3⟩ := FindUnusedBlock_spec c hc m fs fuel hfs.2 hfuel2
      rcases slots_split c (tableEntries c m (0 :: ft)) with hfull | ⟨pre, e, post, hes, hpre, he⟩
      · -- every slot is used: the table has to be expanded
        have hl := LookupFile_miss_full c hc m ft filename fuel hok hfuel1 hfull hhas
        generalize hlb : (0 :: ft).getLast (List.cons_ne_nil _ _) = lb at hl
        have hlbm : lb ∈ 0 :: ft := by rw [← hlb]; exact List.getLast_mem _
        have hemem : fteiAt c m lb (FFS_FTENTRIESPERBLOCK c - 1) ∈ tableEntries c m (0 :: ft) :=
          (mem_tableEntries c m _ _).mpr ⟨lb, hlbm, _, by omega, rfl⟩
        have heN := hfull _ hemem
        have hdiv : (fteiAt c m lb (FFS_FTENTRIESPERBLOCK c - 1)).fteAddr / c.FLASH_BLOCKSIZE
            = lb := by
          have := slot_div c hc lb (FFS_FTENTRIESPERBLOCK c - 1) 0 (by omega) (by omega)
          rw [Nat.add_zero] at this
          exact this
        rw [fopen_create_unfold c fuel m fs F filename mode _ hmode hl] at hres
        rcases q3 with ⟨rfl, rfl, hnf⟩ | ⟨hnb1, hnbN, hnbu, hcur⟩
        · rw [create_full_expand c fuel m fsa fsa F filename _ heN ea] at hres
          simp only [Option.map_some', Option.some.injEq, Prod.mk.injEq, true_and] at hres
          obtain ⟨rfl, rfl, rfl⟩ := hres
          exact ⟨rfl, hnf, Or.inl ⟨rfl, rfl⟩⟩
        · obtain ⟨x1, x2, x3, x4, x5, x6, x7, x8, x9⟩ := expand_step c hc m
            (flashSPAN_Write c (flashSPAN_Write c m (lb * c.FLASH_BLOCKSIZE)
              (encSBHDR (padByte c) (FFS_B_FT_JUMP c) nb)) (nb * c.FLASH_BLOCKSIZE) [FFS_B_FT_EOF c])
            ft nb hb hchain hbound hfull hfs.1 hnb1 hnbN hnbu (by rw [hlb])
          rw [hlb] at x8
          generalize hm2 : flashSPAN_Write c
            (flashSPAN_Write c m (lb * c.FLASH_BLOCKSIZE) (encSBHDR (padByte c) (FFS_B_FT_JUMP c) nb))
            (nb * c.FLASH_BLOCKSIZE) [FFS_B_FT_EOF c] = m2 at *
          have hm2' : flashSPAN_Write c
              (flashSPAN_Write c m ((fteiAt c m lb (FFS_FTENTRIESPERBLOCK c - 1)).fteAddr
                / c.FLASH_BLOCKSIZE * c.FLASH_BLOCKSIZE) (encSBHDR (padByte c) (FFS_B_FT_JUMP c) nb))
              (nb * c.FLASH_BLOCKSIZE) [FFS_B_FT_EOF c] = m2 := by
            rw [hdiv, ← hm2]
          have hwf2 : TableWF c m2 (ft ++ [nb]) :=
            ⟨x2, x3, tableEntries c m (0 :: ft), _, x5, hfull, x6⟩
          obtain ⟨b, fs2, eb, r1, r2, r3⟩ :=
            FindUnusedBlock_spec c hc m2 fsa fuel (by rw [hcur]; exact hnbN) hfuel2
          rw [create_expand_raw c fuel m fs fsa fs2 F filename _ nb b heN ea (by omega)
            (by rw [hm2']; exact eb), hm2'] at hres
          rcases r3 with ⟨hb0, hfe, hnf2⟩ | ⟨hb1, _, _, _⟩
          · rw [if_pos hb0] at hres
            simp only [Option.map_some', Option.some.injEq, Prod.mk.injEq, true_and] at hres
            obtain ⟨rfl, rfl, rfl⟩ := hres
            refine ⟨rfl, hnf2, Or.inr ⟨hfull, nb, hnb1, hnbN, hnbu, ?_, hm2.symm, by rw [hfe, hcur],
              hwf2, x7⟩⟩
            intro k hk1 hkN hkn hku
            have hklb : k ≠ lb := by
              intro hcon
              have h1 := htst lb hlbm
              rw [← hcon, hku] at h1
              have h2 := htf.2.2.1
              unfold FFS_B_UNUSED at h1
              rw [h2] at h1
              exact Bool.false_ne_true h1
            have hkeep : m2 (k * c.FLASH_BLOCKSIZE) = m (k * c.FLASH_BLOCKSIZE) := by
              apply x8
              rw [Nat.mul_div_cancel _ (by have := hc.2.1; omega : 0 < c.FLASH_BLOCKSIZE)]
              simp only [List.mem_cons, List.mem_singleton, List.not_mem_nil, or_false]
              omega
            exact hnf2 k hk1 hkN (by rw [hkeep]; exact hku)
          · rw [if_neg (by omega)] at hres
            simp at hres
      · -- a never-used slot exists: the only allocation is that of the data block
        have hl := LookupFile_miss_slot c hc m ft filename fuel hok hfuel1 pre post e hes hpre he
          hhas
        rw [fopen_create_unfold c fuel m fs F filename mode _ hmode hl] at hres
        rcases q3 with ⟨rfl, rfl, hnf⟩ | ⟨hnb1, hnbN, hnbu, hcur⟩
        · rw [create_full_slot c fuel m fsa fsa F filename e he ea] at hres
          simp only [Option.map_some', Option.some.injEq, Prod.mk.injEq, true_and] at hres
          obtain ⟨rfl, rfl, rfl⟩ := hres
          exact ⟨rfl, hnf, Or.inl ⟨rfl, rfl⟩⟩
        · exfalso
          simp only [ffs_fopen_create, he, ne_eq, not_true_eq_false, if_false, ea] at hres
          rw [if_neg (by omega)] at hres
          simp at hres
    · exfalso
      obtain ⟨e, hl⟩ := (LookupFile_spec c hc m ft filename fuel hok hfuel1).2 hhas
      simp only [ffs_fopen, hl] at hres
      repeat' split at hres
      all_goals first
        | contradiction
        | (simp at hres; done)

/-- C37, amended, on the device `enumDev`: the handle is unchanged and no unused
block is left after the failed creation of the file `c`. -/
theorem fopen_full_effect_witness :
    some closedFile = some closedFile ∧
    NoFree expCfg
      (flashSPAN_Write expCfg (flashSPAN_Write expCfg enumDev 0 (encSBHDR (padByte expCfg) (FFS_B_FT_JUMP expCfg) 2))
        72 [FFS_B_FT_EOF expCfg]) :=
  ⟨(fopen_full_effect expCfg expCfg_ok enumDev { BlockSearchStart := 1, GetFileCounter := 0 }
      closedFile [] [99, 0] FFS_WR_APPEND 10 enum_bytes exp_tablewf ⟨exp_free, by decide⟩
      (by decide) (by decide) _ _ _ rfl).1,
   (fopen_full_effect expCfg expCfg_ok enumDev { BlockSearchStart := 1, GetFileCounter := 0 }
      closedFile [] [99, 0] FFS_WR_APPEND 10 enum_bytes exp_tablewf ⟨exp_free, by decide⟩
      (by decide) (by decide)
      (flashSPAN_Write expCfg (flashSPAN_Write expCfg enumDev 0 (encSBHDR (padByte expCfg) (FFS_B_FT_JUMP expCfg) 2))
        72 [FFS_B_FT_EOF expCfg])
      { BlockSearchStart := 2, GetFileCounter := 0 } (some closedFile) rfl).2.1⟩

set_option maxRecDepth 100000 in
/-- C39, counterexample: on a blank device of four 32-byte blocks the file `a` is
created; its block 1 has room for one chunk of 23 bytes.  Writing 23 bytes in one call
fills the block with one chunk of length byte 24 and parks the handle on block 1.
Writing the first 22 bytes leaves one byte of the block, which is no room for a
further chunk: the call closes the chunk with length byte 23 and parks the handle; the
second call, with the last byte, allocates block 2 and writes the byte there.  Device,
cursor and handle differ, the return values are 22 + 1 = 23 in both cases. -/
theorem fwrite_split_differs :
    (do
      let (_, m1, fs1) ← ffs_init demoCfg 10 RES_OK blankDev fsInit
      let (_, m2, fs2, F2) ← ffs_fopen demoCfg 10 m1 fs1 (some closedFile) [97, 0] FFS_WR_APPEND
      let F2 ← F2
      let (ka, ma, fsa, Fa) ← ffs_fwrite demoCfg 30 m2 fs2 (List.replicate 22 7) F2
      let (kb, mb, fsb, Fb) ← ffs_fwrite demoCfg 30 ma fsa [9] Fa
      let (k, m, fs, F) ← ffs_fwrite demoCfg 30 m2 fs2 (List.replicate 22 7 ++ [9]) F2
      pure ((ka, kb, k),
        ((mb 32, rd16 mb (32 + offsetof_jump)), mb 40, mb 63,
          (mb 64, rd32 mb (64 + offsetof_virt_addr)), flashSPAN_Read mb 72 2,
          (Fb.virt_addr, Fb.hw_addr, Fb.nBytes), fsb.BlockSearchStart),
        ((m 32, rd16 m (32 + offsetof_jump)), m 40, m 63,
          (m 64, rd32 m (64 + offsetof_virt_addr)), flashSPAN_Read m 72 2,
          (F.virt_addr, F.hw_addr, F.nBytes), fs.BlockSearchStart)))
    = some ((22, 1, 23),
        ((0xFC, 2), 23, 0xFF, (0xFE, 22), [0xFF, 9], (23, 72, 2), 2),
        ((0xFE, 0xFFFF), 24, 9, (0xFF, 0xFFFFFFFF), [0xFF, 0xFF], (23, 32, 0), 1)) := by
  rfl

/-- C39, amended: for an append-mode handle on a well-formed file, `ffs_fwrite(a)`
followed by `ffs_fwrite(b)` and the single call `ffs_fwrite(a ++ b)` all return.  When
the first call leaves the handle in an open chunk (`nBytes ≠ 0`: it did not stop at
the end of a block) and `b` is not empty, the first call has written all of `a`, and
the two calls leave the device, the cursor and the handle in exactly the state that
the single call leaves, and their return values sum to its return value.  In any
case, when all block allocations succeed, so that every call writes all its bytes,
the two return values sum to the return value of the single call, and both ways leave
the same file content (the old content followed by `a ++ b`) and the same file offset
in the handle. -/
theorem fwrite_split (c : Cfg) (hc : c.ok) (fuel : Nat) (hN : c.BlockCount ≤ fuel) (m : Mem)
    (fs : FFS_FS_t) (bs : List Blk) (cur a b : List Nat) (F : FFS_FILE_t)
    (h : AppendOK c m bs cur F) (hfs : FsOK c m fs) (ha : ∀ x ∈ a, x < 256)
    (hb : ∀ x ∈ b, x < 256)
    (hlen : (fileBytes bs).length + cur.length + (a.length + b.length) < 4294967296)
    (hfuel : a.length + b.length < fuel) :
    ∃ k1 m1 fs1 F1 k2 m2 fs2 F2 k m3 fs3 F3,
      ffs_fwrite c fuel m fs a F = some (k1, m1, fs1, F1) ∧
      ffs_fwrite c fuel m1 fs1 b F1 = some (k2, m2, fs2, F2) ∧
      ffs_fwrite c fuel m fs (a ++ b) F = some (k, m3, fs3, F3) ∧
      (F1.nBytes ≠ 0 → b ≠ [] →
        k1 = a.length ∧ k = k1 + k2 ∧ m3 = m2 ∧ fs3 = fs2 ∧ F3 = F2) ∧
      (k1 = a.length → k2 = b.length → k = a.length + b.length →
        k1 + k2 = k ∧ F2.virt_addr = F3.virt_addr ∧
        ∃ bs2 cur2 bs3 cur3, AppendOK c m2 bs2 cur2 F2 ∧ AppendOK c m3 bs3 cur3 F3 ∧
          fileBytes bs2 ++ cur2 = fileBytes bs ++ cur ++ (a ++ b) ∧
          fileBytes bs3 ++ cur3 = fileBytes bs ++ cur ++ (a ++ b)) := by
  obtain ⟨k1, m1, fs1, F1, bs1, cur1, _, e1, hk1, hap1, hc1, hfs1, _⟩ :=
    fwrite_append c hc fuel hN m fs bs cur a F h hfs ha (by omega) (by omega)
  have hfile : F1.filemode = F.filemode ∧ F1.startblock = F.startblock := by
    obtain ⟨k0, m0, fs0, F0, _, _, _, e0, _, q1, q2, _⟩ :=
      fwrite_spec c hc fuel hN m fs bs cur a F h hfs ha (by omega) (by omega)
    rw [e1] at e0
    simp only [Option.some.injEq, Prod.mk.injEq] at e0
    rw [e0.2.2.2]
    exact ⟨q1, q2⟩
  have hpos := AppendPos_bounds c hc m bs cur F h.2.2.2
  have hl1 : (fileBytes bs1).length + cur1.length
      = (fileBytes bs).length + cur.length + (a.take k1).length := by
    have := congrArg List.length hc1
    simp only [List.length_append] at this
    omega
  obtain ⟨k2, m2, fs2, F2, bs2, cur2, _, e2, hk2, hap2, hc2, _⟩ :=
    fwrite_append c hc fuel hN m1 fs1 bs1 cur1 b F1 hap1 hfs1 hb
      (by rw [hl1, List.length_take]; omega) (by omega)
  obtain ⟨k, m3, fs3, F3, bs3, cur3, _, e3, hk3, hap3, hc3, _⟩ :=
    fwrite_append c hc fuel hN m fs bs cur (a ++ b) F h hfs
      (by intro x hx; rcases List.mem_append.mp hx with hx | hx
          · exact ha x hx
          · exact hb x hx)
      (by rw [List.length_append]; omega) (by rw [List.length_append]; omega)
  refine ⟨k1, m1, fs1, F1, k2, m2, fs2, F2, k, m3, fs3, F3, e1, e2, e3, ?_, ?_⟩
  · intro hne hb2
    refine fwrite_split_exact c hc fuel m fs a b F h.1 ?_ hb2 k1 m1 fs1 F1 k2 m2 fs2 F2 k m3 fs3
      F3 e1 e2 e3 hfile.1 hfile.2 hne
    rcases hpos.2.2 with h0 | ⟨h1, _⟩
    · exact Or.inl h0
    · exact Or.inr ⟨by omega, hpos.1, hpos.2.1⟩
  intro g1 g2 g3
  have c2 : fileBytes bs2 ++ cur2 = fileBytes bs ++ cur ++ (a ++ b) := by
    rw [hc2, hc1, g1, g2, List.take_length, List.take_length]
    simp
  have c3 : fileBytes bs3 ++ cur3 = fileBytes bs ++ cur ++ (a ++ b) := by
    rw [hc3, g3, ← List.length_append, List.take_length]
  refine ⟨by omega, ?_, bs2, cur2, bs3, cur3, hap2, hap3, c2, c3⟩
  rw [hap2.2.2.1, hap3.2.2.1, ← List.length_append, ← List.length_append, c2, c3]

/-- C39, amended, on the demo device: the open file of `demoDev`, written to in two
calls and in one. -/
theorem fwrite_split_witness :
    ∃ k1 m1 fs1 F1 k2 m2 fs2 F2 k m3 fs3 F3,
      ffs_fwrite demoCfg 30 demoDev { BlockSearchStart := 1, GetFileCounter := 0 } [1, 2, 3]
        demoWr = some (k1, m1, fs1, F1) ∧
      ffs_fwrite demoCfg 30 m1 fs1 [4, 5] F1 = some (k2, m2, fs2, F2) ∧
      ffs_fwrite demoCfg 30 demoDev { BlockSearchStart := 1, GetFileCounter := 0 }
        ([1, 2, 3] ++ [4, 5]) demoWr = some (k, m3, fs3, F3) ∧
      (F1.nBytes ≠ 0 → [4, 5] ≠ [] →
        k1 = [1, 2, 3].length ∧ k = k1 + k2 ∧ m3 = m2 ∧ fs3 = fs2 ∧ F3 = F2) ∧
      (k1 = [1, 2, 3].length → k2 = [4, 5].length → k = [1, 2, 3].length + [4, 5].length →
        k1 + k2 = k ∧ F2.virt_addr = F3.virt_addr ∧
        ∃ bs2 cur2 bs3 cur3, AppendOK demoCfg m2 bs2 cur2 F2 ∧ AppendOK demoCfg m3 bs3 cur3 F3 ∧
          fileBytes bs2 ++ cur2 = fileBytes demoChain ++ [] ++ ([1, 2, 3] ++ [4, 5]) ∧
          fileBytes bs3 ++ cur3 = fileBytes demoChain ++ [] ++ ([1, 2, 3] ++ [4, 5])) :=
  fwrite_split demoCfg demoCfg_ok 30 (by decide) demoDev
    { BlockSearchStart := 1, GetFileCounter := 0 } demoChain []
    [1, 2, 3] [4, 5] demoWr demo_wr ⟨demo_free, by decide⟩ (by decide) (by decide) (by decide)
    (by decide)

/-- C40: for each supported erase value the three in-place overwrites of an already
programmed field only move bits away from the erased pattern, so that programming
stores exactly the value written: block status `EOF` to `JUMP`, table status `FT_EOF`
to `FT_JUMP`, and any start block to the tombstone value.  With erase value `0xFF` the
new value equals old AND new, with `0x00` it equals old OR new.  On the device the
header update of `ffs_fwrite`, the table link of `ffs_fopen` and the tombstone write of
`ffs_remove` therefore read back as written, without an erase. -/
theorem overwrites_flash_compatible (c : Cfg) (hc : c.ok) :
    (c.FFS_ERASE_VAL = 0xFF →
      FFS_B_EOF c &&& FFS_B_JUMP c = FFS_B_JUMP c ∧
      FFS_B_FT_EOF c &&& FFS_B_FT_JUMP c = FFS_B_FT_JUMP c ∧
      ∀ old, old < 256 → old &&& FFS_NULL8 c = FFS_NULL8 c) ∧
    (c.FFS_ERASE_VAL = 0 →
      FFS_B_EOF c ||| FFS_B_JUMP c = FFS_B_JUMP c ∧
      FFS_B_FT_EOF c ||| FFS_B_FT_JUMP c = FFS_B_FT_JUMP c ∧
      ∀ old, old < 256 → old ||| FFS_NULL8 c = FFS_NULL8 c) ∧
    progByte c (FFS_B_EOF c) (FFS_B_JUMP c) = FFS_B_JUMP c ∧
    progByte c (FFS_B_FT_EOF c) (FFS_B_FT_JUMP c) = FFS_B_FT_JUMP c ∧
    (∀ old, old < 256 → progByte c old (FFS_NULL8 c) = FFS_NULL8 c) ∧
    enc16 (FFS_NULL16 c) = [FFS_NULL8 c, FFS_NULL8 c] ∧
    (∀ (m : Mem) (a blk : Nat), HdrOK c m a none → blk < 65536 →
      HdrOK c (flashSPAN_Write c m a (encSBHDR (padByte c) (FFS_B_JUMP c) blk)) a (some blk)) ∧
    (∀ (m : Mem) (a nb : Nat), m a = FFS_B_FT_EOF c → m (a + 2) = FFS_UNINIT8 c →
      m (a + 3) = FFS_UNINIT8 c → nb < 65536 →
      flashSPAN_Write c m a (encSBHDR (padByte c) (FFS_B_FT_JUMP c) nb) a = FFS_B_FT_JUMP c ∧
      rd16 (flashSPAN_Write c m a (encSBHDR (padByte c) (FFS_B_FT_JUMP c) nb)) (a + offsetof_jump) = nb) ∧
    (∀ (m : Mem) (a : Nat), Bytes m →
      rd16 (flashSPAN_Write c m a (enc16 (FFS_NULL16 c))) a = FFS_NULL16 c) := by
  refine ⟨?_, ?_, progByte_EOF_JUMP c hc, progByte_FT c hc, progByte_null c hc, ?_, ?_, ?_, ?_⟩
  · intro h
    simp only [FFS_UNINIT8, FFS_B_EOF, FFS_B_JUMP, FFS_B_FT_EOF, FFS_B_FT_JUMP, FFS_NULL8, h]
    exact ⟨by decide, by decide, fun old _ => Nat.and_zero old⟩
  · intro h
    simp only [FFS_UNINIT8, FFS_B_EOF, FFS_B_JUMP, FFS_B_FT_EOF, FFS_B_FT_JUMP, FFS_NULL8, h]
    exact ⟨by decide, by decide, fun old ho => or_255 old ho⟩
  · rcases hc.1 with h | h <;> simp only [FFS_NULL16, FFS_NULL8, FFS_UNINIT8, enc16, h] <;> decide
  · intro m a blk h hblk
    exact Write_jump c hc m a blk h.1 h.2.1 h.2.2 hblk
  · intro m a nb h0 h1 h2 hnb
    exact ⟨(Write_sbhdr c hc m a nb h0 h1 h2 hnb).1, (Write_sbhdr c hc m a nb h0 h1 h2 hnb).2.1⟩
  · intro m a hb
    exact (tombstone_write c hc m a hb).1

theorem overwrites_flash_compatible_witness :
    progByte demoCfg (FFS_B_EOF demoCfg) (FFS_B_JUMP demoCfg) = FFS_B_JUMP demoCfg ∧
    progByte demoCfg (FFS_B_FT_EOF demoCfg) (FFS_B_FT_JUMP demoCfg) = FFS_B_FT_JUMP demoCfg ∧
    (∀ old, old < 256 → progByte demoCfg old (FFS_NULL8 demoCfg) = FFS_NULL8 demoCfg) :=
  ⟨(overwrites_flash_compatible demoCfg demoCfg_ok).2.2.1,
   (overwrites_flash_compatible demoCfg demoCfg_ok).2.2.2.1,
   (overwrites_flash_compatible demoCfg demoCfg_ok).2.2.2.2.1⟩

end FFS
